import Mathlib

/-!
# Persistent containers of `orb` (persistent_containers.h, math_tools.h)

A shallow embedding of the persistent hash trie `PMapPool`, of the persistent
list `PListPool` and of the chunk allocator below them.

Two levels of detail are used.

* `orb.PMapPool`: the trie as the code builds it, with the `used` bitfields and
  the reference arrays addressed through `count_bits`.  A `Node*` is modelled
  by the node it points to: a node cell is written only by the call that
  allocates it.  The one object that is shared between versions and assigned
  again later, the heap allocated `KeyValueList` of a `CollisionNode`, lives in
  an explicit store and nodes hold its index.
* `orb.Chunk`, `orb.ChunkBox`, `orb.PListPool`: slabs with their `used` and
  `mark` bitfields, addresses, root refcounts and the collector.

Machine integers are natural numbers; `uint32_t` results are reduced modulo
`2 ^ 32` where the code can overflow.  Undefined behaviour (a null or
uninitialised pointer that is read) is the result `none`.
-/

namespace orb

/-! ## Bit operations (math_tools.h) -/

/-- The number of values of a `uint32_t`. -/
def U32 : Nat := 4294967296

/-- The loop of `count_bits`: `for(; field; count++) field &= field - 1;`. -/
def count_bits_loop : Nat → Nat → Nat → Nat
  | 0, _, count => count
  | fuel + 1, field, count =>
    if field = 0 then count else count_bits_loop fuel (field &&& (field - 1)) (count + 1)

/-- Count bits in field (`count_bits`); a `uint32_t` has at most 32 bits to clear. -/
def count_bits (field : Nat) : Nat := count_bits_loop 32 (field % U32) 0

/-- The loop of `lowest_unset_bit`: `for(; (field & 0x1); field >>= 1, index++){}`. -/
def lowest_unset_bit_loop : Nat → Nat → Nat → Nat
  | 0, _, index => index
  | fuel + 1, field, index =>
    if field &&& 1 = 1 then lowest_unset_bit_loop fuel (field >>> 1) (index + 1) else index

/-- Return index of lowest unset bit, 32 when there is none (`lowest_unset_bit`). -/
def lowest_unset_bit (field : Nat) : Nat :=
  if field = 0xffffffff then 32 else lowest_unset_bit_loop 32 field 0

/-- Set nth bit in field (`set_bit_on`). -/
def set_bit_on (field index : Nat) : Nat :=
  if index < 32 then field ||| (1 <<< index) else field

/-- Unset nth bit in field (`set_bit_off`): `field & ~(1 << index)`. -/
def set_bit_off (field index : Nat) : Nat :=
  if index < 32 then field &&& (0xffffffff ^^^ (1 <<< index)) else field

/-- Return true if bit is on (`bit_is_on`): `(field & 1 << bit) != 0`. -/
def bit_is_on (field bit : Nat) : Bool :=
  (field &&& (1 <<< bit)) != 0

/-! ## The persistent map (class `PMapPool`) -/

/-- Key-value pair (`PMapPool::KeyValue`). -/
structure KeyValue (K V : Type) where
  hash : Nat
  first : K
  second : V
deriving DecidableEq, Repr

/-- The tag of a node (`Node::NodeType`). -/
inductive NodeType where
  | EmptyNode
  | ValueNode
  | CollisionNode
deriving DecidableEq, Repr

/-- The union `Node::value`: not written yet, a `keyvalue`, or the
`collision_list` pointer (an index into the store of list objects). -/
inductive NodeValue (K V : Type) where
  | unset
  | keyvalue (kv : KeyValue K V)
  | collision_list (id : Nat)
deriving DecidableEq, Repr

/-- A trie node (`PMapPool::Node`); `child_array` is the reference array. -/
inductive Node (K V : Type) where
  | mk (used : Nat) (child_array : List (Node K V)) (type : NodeType)
      (value : NodeValue K V) : Node K V

/-- The pool state the map operations read and write: the `KeyValueList`
objects made by `new KeyValueList`, in allocation order.  The list a handle
holds is given by its elements, head first. -/
structure PMapPool (K V : Type) where
  lists : List (List (KeyValue K V))
deriving DecidableEq, Repr

/-- The map handle (`PMapPool::Map`): the root pointer, null for `new_map()`. -/
structure Map (K V : Type) where
  root_ : Option (Node K V)

namespace Node

variable {K V : Type}

/-- Field `used`. -/
def used : Node K V → Nat
  | mk u _ _ _ => u

/-- Field `child_array`. -/
def child_array : Node K V → List (Node K V)
  | mk _ c _ _ => c

/-- Field `type`. -/
def type : Node K V → NodeType
  | mk _ _ t _ => t

/-- Field `value`. -/
def value : Node K V → NodeValue K V
  | mk _ _ _ v => v

/-- Return number of elements stored (`Node::size`). -/
def size (n : Node K V) : Nat := count_bits n.used

/-- Return true if the index signified by the index is used (`Node::index_in_use`). -/
def index_in_use (n : Node K V) (index : Nat) : Bool := bit_is_on n.used index

/-- Return index matching the bitfield (`Node::index`):
`count_bits(used & (bitfield - 1))`. -/
def index (n : Node K V) (bitfield : Nat) : Nat := count_bits (n.used &&& (bitfield - 1))

/-- Return element corresponding to the hash-key (`Node::get_child_by_fieldindex`);
null when the index is not in use. -/
def get_child_by_fieldindex (n : Node K V) (parsed_index : Nat) : Option (Node K V) :=
  if n.index_in_use parsed_index then n.child_array[n.index (1 <<< parsed_index)]? else none

/-- The child for `(hash >> (depth * 5)) & 0x1f` (`Node::get_child_by_hash_and_depth`). -/
def get_child_by_hash_and_depth (n : Node K V) (hash depth : Nat) : Option (Node K V) :=
  n.get_child_by_fieldindex ((hash >>> (depth * 5)) &&& 0x1f)

/-- The position in the reference array for a key at a level (`Node::get`),
null if the array is not large enough. -/
def get (n : Node K V) (key level : Nat) : Option Nat :=
  let local_index := (key >>> (level * 5)) &&& 0x1f
  let child_index := n.index (1 <<< local_index)
  if child_index < n.size then some child_index else none

/-- The hash of a node that holds a value (`Node::hash_value`): of the first
element of the list for a `CollisionNode`, of the `keyvalue` for a `ValueNode`. -/
def hash_value (pool : PMapPool K V) (n : Node K V) : Option Nat :=
  match n.type, n.value with
  | .CollisionNode, .collision_list id =>
    match pool.lists[id]? with
    | some (kv :: _) => some kv.hash
    | _ => none
  | .ValueNode, .keyvalue kv => some kv.hash
  | _, _ => none

end Node

/-- `node_has_children`: `n->child_array != 0`. -/
def node_has_children {K V : Type} (n : Node K V) : Bool := !n.child_array.isEmpty

/-- `node_has_keyvalues`: `n->type != Node::EmptyNode`. -/
def node_has_keyvalues {K V : Type} (n : Node K V) : Bool := n.type != NodeType.EmptyNode

/-- `keyvalue_match_get`: the value of `kv` when its hash is `hash` and
`Compare::compare(key, kv.first)`, else null. -/
def keyvalue_match_get {K V : Type} (compare : K → K → Bool) (kv : KeyValue K V) (key : K)
    (hash : Nat) : Option V :=
  if kv.hash = hash && compare key kv.first then some kv.second else none

/-! ### Lookup -/

/-- The scan of a collision list in `try_get_value`:
`for(; i != end && (result == 0); ++i) result = keyvalue_match_get(**i, key, hash);`. -/
def collision_scan {K V : Type} (compare : K → K → Bool) (key : K) (hash : Nat) :
    List (KeyValue K V) → Option V
  | [] => none
  | kv :: rest =>
    match keyvalue_match_get compare kv key hash with
    | some v => some v
    | none => collision_scan compare key hash rest

/-- What `try_get_value` reads from the node `n` it has reached. -/
def node_match_get {K V : Type} (compare : K → K → Bool) (pool : PMapPool K V) (n : Node K V)
    (key : K) (hash : Nat) : Option V :=
  match n.type, n.value with
  | .ValueNode, .keyvalue kv => keyvalue_match_get compare kv key hash
  | .CollisionNode, .collision_list id =>
    collision_scan compare key hash (pool.lists[id]?.getD [])
  | _, _ => none

/-- The loop `for(; level < 8; level++)` of `Map::try_get_value`; the first
argument counts the levels that are left. -/
def try_get_value_loop {K V : Type} (compare : K → K → Bool) (pool : PMapPool K V) (key : K)
    (hash : Nat) : Nat → Nat → Node K V → Option V
  | 0, _, _ => none
  | left + 1, level, current =>
    match current.get_child_by_hash_and_depth hash level with
    | some n =>
      match node_match_get compare pool n key hash with
      | some v => some v
      | none => try_get_value_loop compare pool key hash left (level + 1) n
    | none => none

/-- `Map::try_get_value`: the value stored for `key`, or null. -/
def Map.try_get_value {K V : Type} (compare : K → K → Bool) (hashfun : K → Nat)
    (pool : PMapPool K V) (m : Map K V) (key : K) : Option V :=
  match m.root_ with
  | none => none
  | some root => try_get_value_loop compare pool key (hashfun key % U32) 8 0 root

/-! ### Insertion -/

/-- The copy loop of `node_insert_replace_refarray`: every old child is written
to the cell `parent->get(*child_hash, child_level)` of the new array. -/
def refarray_copy {K V : Type} (pool : PMapPool K V) (parent : Node K V) (child_level : Nat) :
    List (Node K V) → List (Option (Node K V)) → Option (List (Option (Node K V)))
  | [], arr => some arr
  | oi :: rest, arr =>
    match oi.hash_value pool with
    | none => none
    | some child_hash =>
      match parent.get child_hash child_level with
      | none => none
      | some ref => refarray_copy pool parent child_level rest (arr.set ref (some oi))

/-- A reference array all of whose cells have been written. -/
def refarray_written {K V : Type} : List (Option (Node K V)) → Option (List (Node K V))
  | [] => some []
  | none :: _ => none
  | some n :: rest => (refarray_written rest).map (n :: ·)

/-- `node_insert_replace_refarray`: replace the reference array of `parent`
with a new array that has `newnode` at `local_index`.  The result is the
parent after the call. -/
def node_insert_replace_refarray {K V : Type} (pool : PMapPool K V) (parent newnode : Node K V)
    (local_index child_level : Nat) : Option (Node K V) :=
  let old_count := parent.size
  let new_count := old_count + 1
  let local_index_bit := 1 <<< local_index
  let old_children := parent.child_array
  let used := (parent.used ||| local_index_bit) % U32
  let parent1 : Node K V := Node.mk used [] parent.type parent.value
  let array_index := parent1.index local_index_bit
  if old_children.length < old_count ∨ new_count ≤ array_index then none
  else
    let child_array := (List.replicate new_count none).set array_index (some newnode)
    match refarray_copy pool parent1 child_level (old_children.take old_count) child_array with
    | none => none
    | some written =>
      match refarray_written written with
      | none => none
      | some arr => some (Node.mk used arr parent.type parent.value)

/-- `List::remove(i)` on the elements of a list: the element at position `i`
is left out, the other elements keep their order. -/
def KeyValueList_remove {K V : Type} (l : List (KeyValue K V)) (i : Nat) : List (KeyValue K V) :=
  l.eraseIdx i

/-- The search loop over a collision list in `instantiate_tree_path`: the
position of the first element that matches, if any. -/
def collision_find {K V : Type} (compare : K → K → Bool) (key : K) (hash : Nat) :
    List (KeyValue K V) → Option Nat
  | [] => none
  | kv :: rest =>
    match keyvalue_match_get compare kv key hash with
    | some _ => some 0
    | none => (collision_find compare key hash rest).map (· + 1)

/-- The branch `level >= 6` of `instantiate_tree_path` on the copied child
`newnode`: replace the value, extend the collision list, or turn the node
into a `CollisionNode`. -/
def instantiate_collision {K V : Type} (compare : K → K → Bool) (pool : PMapPool K V)
    (newnode : Node K V) (kv : KeyValue K V) : Option (PMapPool K V × Node K V) :=
  if newnode.type = NodeType.CollisionNode then
    match newnode.value with
    | .collision_list id =>
      match pool.lists[id]? with
      | none => none
      | some oldlist =>
        match collision_find compare kv.first kv.hash oldlist with
        | some i =>
          some ({ lists := pool.lists.set id (kv :: KeyValueList_remove oldlist i) }, newnode)
        | none => some ({ lists := pool.lists.set id (kv :: oldlist) }, newnode)
    | _ => none
  else
    match newnode.value with
    | .keyvalue current_kv =>
      match keyvalue_match_get compare current_kv kv.first kv.hash with
      | some _ => some (pool, Node.mk newnode.used newnode.child_array newnode.type (.keyvalue kv))
      | none =>
        some ({ lists := pool.lists ++ [[current_kv, kv]] },
          Node.mk newnode.used newnode.child_array NodeType.CollisionNode
            (.collision_list pool.lists.length))
    | _ => none

/-- The loop of `instantiate_tree_path` from `level` on: `current` is the
node being rebuilt, the result is that node after the loop has ended below
it.  The first argument counts the levels that are left (the loop leaves at
level 6 at the latest). -/
def instantiate_tree_loop {K V : Type} (compare : K → K → Bool) (kv : KeyValue K V) :
    Nat → Nat → PMapPool K V → Node K V → Option (PMapPool K V × Node K V)
  | 0, _, _, _ => none
  | left + 1, level, pool, current =>
    let hash := kv.hash
    let local_index := (hash >>> (level * 5)) &&& 0x1f
    if !current.index_in_use local_index then
      let newnode : Node K V := Node.mk 0 [] NodeType.ValueNode (.keyvalue kv)
      (node_insert_replace_refarray pool current newnode local_index level).map (pool, ·)
    else
      let count := current.size
      if current.child_array.length < count then none
      else
        let child_array := current.child_array.take count
        let array_index := current.index (1 <<< local_index)
        match child_array[array_index]? with
        | none => none
        | some newnode =>
          if level < 6 then
            match newnode.value with
            | .keyvalue nkv =>
              match keyvalue_match_get compare nkv kv.first hash with
              | some _ =>
                let newnode1 : Node K V :=
                  Node.mk newnode.used newnode.child_array newnode.type (.keyvalue kv)
                some (pool, Node.mk current.used (child_array.set array_index newnode1)
                  current.type current.value)
              | none =>
                match instantiate_tree_loop compare kv left (level + 1) pool newnode with
                | none => none
                | some (pool1, newnode1) =>
                  some (pool1, Node.mk current.used (child_array.set array_index newnode1)
                    current.type current.value)
            | _ => none
          else
            match instantiate_collision compare pool newnode kv with
            | none => none
            | some (pool1, newnode1) =>
              some (pool1, Node.mk current.used (child_array.set array_index newnode1)
                current.type current.value)

/-- `new_node()`: an empty node (`used(0), child_array(0)`, type `EmptyNode`). -/
def new_node {K V : Type} : Node K V := Node.mk 0 [] NodeType.EmptyNode .unset

/-- `instantiate_tree_path`: the root of the map that has `kv` added to the
map with root `old_root`. -/
def instantiate_tree_path {K V : Type} (compare : K → K → Bool) (pool : PMapPool K V)
    (old_root : Option (Node K V)) (kv : KeyValue K V) : Option (PMapPool K V × Node K V) :=
  let newroot : Node K V := match old_root with
    | some r => r
    | none => new_node
  instantiate_tree_loop compare kv 7 0 pool newroot

/-- `new_keyvalue`: the cell for `k` and `v`, with `hash = HashFun::hash(k)`. -/
def new_keyvalue {K V : Type} (hashfun : K → Nat) (k : K) (v : V) : KeyValue K V :=
  { hash := hashfun k % U32, first := k, second := v }

/-- `PMapPool::add(const Map& old, const KeyValue* keyvalue)`. -/
def PMapPool.add_keyvalue {K V : Type} (compare : K → K → Bool) (pool : PMapPool K V)
    (old : Map K V) (keyvalue : KeyValue K V) : Option (PMapPool K V × Map K V) :=
  (instantiate_tree_path compare pool old.root_ keyvalue).map
    (fun r => (r.1, { root_ := some r.2 }))

/-- `Map::add(key, value)`, that is `PMapPool::add(old, key, value)`. -/
def Map.add {K V : Type} (compare : K → K → Bool) (hashfun : K → Nat) (pool : PMapPool K V)
    (old : Map K V) (key : K) (value : V) : Option (PMapPool K V × Map K V) :=
  PMapPool.add_keyvalue compare pool old (new_keyvalue hashfun key value)

/-- `PMapPool::new_map()`: the empty map, with a null root. -/
def PMapPool.new_map {K V : Type} : Map K V := { root_ := none }

/-! ### Iteration -/

/-- Iterator for the values in one node (`NodeValueIterator`).  The list
iterator `iter` is the part of the collision list from its position on, `end`
is the empty rest. -/
structure NodeValueIterator (K V : Type) where
  node : Option (Node K V)
  iter : List (KeyValue K V)
  keyvalue : Option (KeyValue K V)
  iteration_ongoing : Bool

/-- `NodeValueIterator(Node* node_in)`. -/
def NodeValueIterator.init {K V : Type} (node_in : Node K V) : NodeValueIterator K V :=
  { node := some node_in, iter := [], keyvalue := none, iteration_ongoing := false }

/-- `NodeValueIterator::move_next`: true as long as the iteration is ongoing. -/
def NodeValueIterator.move_next {K V : Type} (pool : PMapPool K V) (it : NodeValueIterator K V) :
    Option (Bool × NodeValueIterator K V) :=
  match it.node with
  | none => none
  | some node =>
    match node.type with
    | .ValueNode =>
      match it.keyvalue with
      | none =>
        match node.value with
        | .keyvalue kv => some (true, { it with keyvalue := some kv })
        | _ => none
      | some _ => some (false, it)
    | .CollisionNode =>
      if it.iteration_ongoing then
        let iter := it.iter.tail
        match iter with
        | kv :: _ => some (true, { it with iter := iter, keyvalue := some kv })
        | [] => some (false, { it with iter := iter })
      else
        match node.value with
        | .collision_list id =>
          match pool.lists[id]? with
          | some (kv :: rest) =>
            some (true, { it with iteration_ongoing := true, iter := kv :: rest,
                                  keyvalue := some kv })
          | _ => none
        | _ => none
    | .EmptyNode => some (false, it)

/-- Iterator for children inside node (`NodeChildIterator`); `iter` is the
position in the reference array, `end` is `node->size()`. -/
structure NodeChildIterator (K V : Type) where
  node : Node K V
  iter : Nat
  iterating : Bool
  node_has_children : Bool

/-- `NodeChildIterator(Node* node_in)`. -/
def NodeChildIterator.init {K V : Type} (node_in : Node K V) : NodeChildIterator K V :=
  { node := node_in, iter := 0, iterating := false,
    node_has_children := decide (0 < node_in.size) }

/-- `NodeChildIterator::move_next`. -/
def NodeChildIterator.move_next {K V : Type} (it : NodeChildIterator K V) :
    Bool × NodeChildIterator K V :=
  if !it.node_has_children then (false, it)
  else
    let it1 : NodeChildIterator K V :=
      if it.iterating then { it with iter := it.iter + 1 }
      else { it with iter := 0, iterating := true }
    (it1.iter != it1.node.size, it1)

/-- `NodeChildIterator::current`: `iter->node`. -/
def NodeChildIterator.current {K V : Type} (it : NodeChildIterator K V) : Option (Node K V) :=
  it.node.child_array[it.iter]?

/-- Unordered iterator to map nodes (`node_iterator`).  `iter_stack` is the
`FixedStack<NodeChildIterator, 8>`, its top first. -/
structure node_iterator (K V : Type) where
  iter_stack : List (NodeChildIterator K V)
  value_iter : NodeValueIterator K V
  current : Option (KeyValue K V)

/-- `FixedStack::push`: nothing is pushed once `MaxDepth` entries are held. -/
def FixedStack_push {T : Type} (max_depth : Nat) (stack : List T) (data : T) : List T :=
  if stack.length < max_depth then data :: stack else stack

/-- The three member functions of `node_iterator` that call each other. -/
inductive IterCall (K V : Type) where
  | push_node (parent_node : Node K V)
  | advance
  | pop

/-- `node_iterator::push_node`, `advance` and `pop`.  The first argument bounds
the number of calls; `none` stands for a null pointer that is read and for a
run that has not ended within the bound. -/
def node_iterator.run {K V : Type} (pool : PMapPool K V) :
    Nat → IterCall K V → node_iterator K V → Option (node_iterator K V)
  | 0, _, _ => none
  | calls + 1, .push_node parent_node, it =>
    match FixedStack_push 8 it.iter_stack (NodeChildIterator.init parent_node) with
    | [] => none
    | ni :: below =>
      let ni1 := ni.move_next.2
      let it1 : node_iterator K V := { it with iter_stack := ni1 :: below }
      match ni1.current with
      | none => none
      | some node =>
        if node_has_keyvalues node then
          node_iterator.run pool calls .advance
            { it1 with value_iter := NodeValueIterator.init node }
        else node_iterator.run pool calls (.push_node node) it1
  | calls + 1, .advance, it =>
    match it.value_iter.move_next pool with
    | none => none
    | some (true, vi) => some { it with value_iter := vi, current := vi.keyvalue }
    | some (false, vi) =>
      match it.iter_stack with
      | [] => none
      | ni :: below =>
        match ni.current with
        | none => none
        | some node =>
          if node_has_children node then
            node_iterator.run pool calls (.push_node node) { it with value_iter := vi }
          else
            let r := ni.move_next
            if r.1 then
              match r.2.current with
              | none => none
              | some next_node =>
                node_iterator.run pool calls .advance
                  { it with iter_stack := r.2 :: below,
                            value_iter := NodeValueIterator.init next_node }
            else
              node_iterator.run pool calls .pop
                { it with iter_stack := r.2 :: below, value_iter := vi }
  | calls + 1, .pop, it =>
    match it.iter_stack.tail with
    | [] => some { it with iter_stack := [], current := none }
    | ni :: below =>
      let r := ni.move_next
      if r.1 then
        match r.2.current with
        | none => none
        | some node =>
          if node_has_keyvalues node then
            node_iterator.run pool calls .advance
              { it with iter_stack := r.2 :: below, value_iter := NodeValueIterator.init node }
          else
            node_iterator.run pool calls (.push_node node) { it with iter_stack := r.2 :: below }
      else node_iterator.run pool calls .pop { it with iter_stack := r.2 :: below }

/-- `node_iterator(Node* node)`: the iterator `begin()` for the root `node`,
`end()` for null. -/
def node_iterator.init {K V : Type} (pool : PMapPool K V) (calls : Nat)
    (node : Option (Node K V)) : Option (node_iterator K V) :=
  let it : node_iterator K V :=
    { iter_stack := [], value_iter := { node := none, iter := [], keyvalue := none,
                                        iteration_ongoing := false },
      current := none }
  match node with
  | none => some it
  | some n =>
    if node_has_children n then node_iterator.run pool calls (.push_node n) it else some it

/-- The loop `for(; iter != end; ++iter)` over a map: the key-value cells the
iterator stops at, in order. -/
def node_iterator.collect {K V : Type} (pool : PMapPool K V) :
    Nat → node_iterator K V → Option (List (KeyValue K V))
  | 0, _ => none
  | calls + 1, it =>
    match it.current with
    | none => some []
    | some kv =>
      match node_iterator.run pool calls .advance it with
      | none => none
      | some it1 => (node_iterator.collect pool calls it1).map (kv :: ·)

/-- The cells visited by iterating from `iterator(node)` to `iterator(0)`. -/
def iterate {K V : Type} (pool : PMapPool K V) (calls : Nat) (node : Option (Node K V)) :
    Option (List (KeyValue K V)) :=
  match node_iterator.init pool calls node with
  | none => none
  | some it => node_iterator.collect pool calls it

mutual
/-- The number of key-value cells a node and the nodes below it hold. -/
def Node.cells {K V : Type} (pool : PMapPool K V) : Node K V → Nat
  | .mk _ child_array type value =>
    (match type, value with
      | .ValueNode, _ => 1
      | .CollisionNode, .collision_list id => (pool.lists[id]?.getD []).length
      | _, _ => 0) + Node.cells_list pool child_array
/-- The number of key-value cells in a reference array. -/
def Node.cells_list {K V : Type} (pool : PMapPool K V) : List (Node K V) → Nat
  | [] => 0
  | n :: rest => Node.cells pool n + Node.cells_list pool rest
end

/-- The bound on calls given to the iterator: every stop of the iterator takes
at most one `advance`, one `push_node` and a `pop` for each of the 8 stack
entries. -/
def iterate_calls {K V : Type} (pool : PMapPool K V) (node : Option (Node K V)) : Nat :=
  match node with
  | none => 16
  | some n => Node.cells pool n + 16

/-- `Map::begin()` to `Map::end()`: the cells the map iterates over. -/
def Map.elements {K V : Type} (pool : PMapPool K V) (m : Map K V) :
    Option (List (KeyValue K V)) :=
  iterate pool (iterate_calls pool m.root_) m.root_

/-! ### Removal -/

/-- The first loop of `Map::remove`: the values of the branch node itself,
read through a `NodeValueIterator`, that do not match the key. -/
def remove_collect_node {K V : Type} (compare : K → K → Bool) (pool : PMapPool K V) (key : K)
    (hash : Nat) : Nat → NodeValueIterator K V → Option (List (KeyValue K V))
  | 0, _ => none
  | calls + 1, it =>
    match it.move_next pool with
    | none => none
    | some (false, _) => some []
    | some (true, it1) =>
      match it1.keyvalue with
      | none => none
      | some current =>
        match remove_collect_node compare pool key hash calls it1 with
        | none => none
        | some rest =>
          if (keyvalue_match_get compare current key hash).isSome then some rest
          else some (current :: rest)

/-- The copy of the root's reference array in `Map::remove` that leaves out
the removed branch, which is the entry at position `removed`. -/
def remove_copy_children {K V : Type} (children : List (Node K V)) (removed : Nat) :
    List (Node K V) :=
  children.eraseIdx removed

/-- The loop `out_map = pool_.add(out_map, *i)` over `kept_keys`. -/
def add_kept_keys {K V : Type} (compare : K → K → Bool) :
    PMapPool K V → Map K V → List (KeyValue K V) → Option (PMapPool K V × Map K V)
  | pool, out_map, [] => some (pool, out_map)
  | pool, out_map, kv :: rest =>
    match PMapPool.add_keyvalue compare pool out_map kv with
    | none => none
    | some (pool1, out_map1) => add_kept_keys compare pool1 out_map1 rest

/-- `Map::remove(key)`: remove key entry from map. -/
def Map.remove {K V : Type} (compare : K → K → Bool) (hashfun : K → Nat) (pool : PMapPool K V)
    (m : Map K V) (key : K) : Option (PMapPool K V × Map K V) :=
  if (m.try_get_value compare hashfun pool key).isSome then
    match m.root_ with
    | none => none
    | some root =>
      let hash := hashfun key % U32
      match root.get_child_by_hash_and_depth hash 0 with
      | none => none
      | some removed_branch =>
        let calls := iterate_calls pool (some removed_branch)
        match remove_collect_node compare pool key hash calls
            (NodeValueIterator.init removed_branch),
          iterate pool calls (some removed_branch) with
        | some kept_node, some below =>
          let kept_keys := kept_node ++
            below.filter (fun current => !(keyvalue_match_get compare current key hash).isSome)
          let old_size := root.size
          let new_size := old_size - 1
          let new_root : Node K V :=
            if 0 < new_size then
              let invalid_index := hash &&& 0x1f
              Node.mk (set_bit_off root.used invalid_index)
                (remove_copy_children (root.child_array.take old_size)
                  (root.index (1 <<< invalid_index)))
                root.type root.value
            else Node.mk 0 [] root.type root.value
          add_kept_keys compare pool { root_ := some new_root } kept_keys
        | _, _ => none
  else some (pool, m)

/-! ### The loops of the map tests -/

/-- The loop of `map_insert_elements` without a collection at each step:
`out_map = out_map.add(i->first, i->second)` for every element. -/
def insert_loop {K V : Type} (compare : K → K → Bool) (hashfun : K → Nat) :
    PMapPool K V → Map K V → List (K × V) → Option (PMapPool K V × Map K V)
  | pool, out_map, [] => some (pool, out_map)
  | pool, out_map, i :: rest =>
    match Map.add compare hashfun pool out_map i.1 i.2 with
    | none => none
    | some (pool1, out_map1) => insert_loop compare hashfun pool1 out_map1 rest

/-- `map_insert_elements(map, pool, false)`: the elements are added one by one
to `pool.new_map()`. -/
def map_insert_elements {K V : Type} (compare : K → K → Bool) (hashfun : K → Nat)
    (pool : PMapPool K V) (map : List (K × V)) : Option (PMapPool K V × Map K V) :=
  insert_loop compare hashfun pool PMapPool.new_map map

/-- `map_remove_elements(map, pmap)`: `pmap = pmap.remove(i->first)` for every
element. -/
def map_remove_elements {K V : Type} (compare : K → K → Bool) (hashfun : K → Nat) :
    PMapPool K V → Map K V → List K → Option (PMapPool K V × Map K V)
  | pool, pmap, [] => some (pool, pmap)
  | pool, pmap, i :: rest =>
    match Map.remove compare hashfun pool pmap i with
    | none => none
    | some (pool1, pmap1) => map_remove_elements compare hashfun pool1 pmap1 rest

/-! ### Map equality -/

/-- The loop of `Map::operator==` over the cells the iterator `i` visits: a
cell whose key is not found in `m`, or is found with a value that differs
under `operator==` of `V`, ends the loop with `false`. -/
def Map.equal_loop {K V : Type} (value_eq : V → V → Bool) (compare : K → K → Bool)
    (hashfun : K → Nat) (pool : PMapPool K V) (m : Map K V) : List (KeyValue K V) → Bool
  | [] => true
  | i :: rest =>
    match m.try_get_value compare hashfun pool i.first with
    | none => false
    | some opt =>
      if !(value_eq opt i.second) then false
      else Map.equal_loop value_eq compare hashfun pool m rest

/-- `Map::operator==` for `this == m`; `none` when the iteration of `this`
does not end. -/
def Map.equal {K V : Type} (value_eq : V → V → Bool) (compare : K → K → Bool)
    (hashfun : K → Nat) (pool : PMapPool K V) (this m : Map K V) : Option Bool :=
  (Map.elements pool this).map (Map.equal_loop value_eq compare hashfun pool m)

/-- The node that the lookup of a hash reaches after `depth` levels below the
node `n`. -/
def Node.descend {K V : Type} (hash : Nat) : Nat → Nat → Node K V → Option (Node K V)
  | 0, _, n => some n
  | depth + 1, level, n =>
    match n.get_child_by_hash_and_depth hash level with
    | none => none
    | some c => Node.descend hash depth (level + 1) c

/-! ### The list objects of a map -/

/-- The index of the list object that the value of a node points to. -/
def NodeValue.ids {K V : Type} : NodeValue K V → List Nat
  | .collision_list id => [id]
  | _ => []

mutual
/-- The indices of the list objects that a node and the nodes below it point
to. -/
def Node.list_ids {K V : Type} : Node K V → List Nat
  | .mk _ child_array _ value => NodeValue.ids value ++ Node.list_ids_list child_array
/-- The indices of the list objects of the nodes of a reference array. -/
def Node.list_ids_list {K V : Type} : List (Node K V) → List Nat
  | [] => []
  | c :: rest => Node.list_ids c ++ Node.list_ids_list rest
end

/-- The indices of the list objects below a node. -/
def Node.ids_below {K V : Type} (n : Node K V) : List Nat := Node.list_ids_list n.child_array

/-- The indices of the list objects of a map. -/
def Map.list_ids {K V : Type} (m : Map K V) : List Nat :=
  match m.root_ with
  | none => []
  | some root => root.ids_below

/-! ### The size of a map and the nodes of a trie -/

/-- `Map::size`: `iterator_range_length(begin(), end())`, the number of steps
from `begin()` to `end()`; `none` when the iteration does not end. -/
def Map.size {K V : Type} (pool : PMapPool K V) (m : Map K V) : Option Nat :=
  (Map.elements pool m).map fun cells => cells.length

mutual
/-- The nodes of a trie, each with the number of reference arrays between the
node it starts from (at `depth`) and itself: the node first, then the nodes of
its reference array and below them. -/
def Node.nodes {K V : Type} : Nat → Node K V → List (Nat × Node K V)
  | depth, .mk used child_array type value =>
    (depth, .mk used child_array type value) :: Node.nodes_list (depth + 1) child_array
/-- The nodes of a reference array and below them. -/
def Node.nodes_list {K V : Type} : Nat → List (Node K V) → List (Nat × Node K V)
  | _, [] => []
  | depth, c :: rest => Node.nodes depth c ++ Node.nodes_list depth rest
end

/-- The nodes of a map with their depths: the root has depth 0, and a node of
depth `d + 1` is a child that its parent selects with the slice of level `d`
of the hash. -/
def Map.nodes {K V : Type} (m : Map K V) : List (Nat × Node K V) :=
  match m.root_ with
  | none => []
  | some root => Node.nodes 0 root

/-! ## Specification vocabulary -/


/-- The set bits of a bitfield within a `uint32_t`, in increasing order. -/
def slots (used : Nat) : List Nat := (List.range 32).filter (fun j => used.testBit j)

/-- The number of set bits, by halving. -/
def popcount : Nat → Nat → Nat
  | 0, _ => 0
  | k + 1, n => n % 2 + popcount k (n / 2)

/-- The slots below `j`. -/
def slots_below (u j : Nat) : List Nat := (slots u).filter (fun i => decide (i < j))

/-- The slots above `j`. -/
def slots_above (u j : Nat) : List Nat := (slots u).filter (fun i => decide (j < i))

/-- The index a hash selects at a level: `(hash >> (level * 5)) & 0x1f`. -/
def slice (hash level : Nat) : Nat := (hash >>> (level * 5)) &&& 0x1f

/-- The hash follows `path`: its slices at the levels `0, 1, ...` are the
entries of `path`. -/
def OnPath (path : List Nat) (hash : Nat) : Prop :=
  (List.range path.length).map (slice hash) = path

/-- Two cells hold the same key as far as the map can tell: equal hashes and
keys that `Compare::compare` takes for equal. -/
def same_key {K V : Type} (compare : K → K → Bool) (a b : KeyValue K V) : Prop :=
  a.hash = b.hash ∧ compare a.first b.first = true

/-- The key-value cells a node holds itself. -/
def Node.values {K V : Type} (pool : PMapPool K V) (n : Node K V) : List (KeyValue K V) :=
  match n.type, n.value with
  | .ValueNode, .keyvalue kv => [kv]
  | .CollisionNode, .collision_list id => pool.lists[id]?.getD []
  | _, _ => []

mutual
/-- The cells of a node and of the nodes below it, the node first and the
children from left to right. -/
def Node.subtree {K V : Type} (pool : PMapPool K V) : Node K V → List (KeyValue K V)
  | .mk used child_array type value =>
    Node.values pool (.mk used child_array type value) ++ Node.subtree_list pool child_array
/-- The cells of the nodes of a reference array and below them. -/
def Node.subtree_list {K V : Type} (pool : PMapPool K V) : List (Node K V) → List (KeyValue K V)
  | [] => []
  | c :: rest => Node.subtree pool c ++ Node.subtree_list pool rest
end

/-- The cells of the nodes below a node. -/
def Node.descendants {K V : Type} (pool : PMapPool K V) (n : Node K V) : List (KeyValue K V) :=
  Node.subtree_list pool n.child_array

/-- The value part of the trie invariant for a node reached by `path`: a
`ValueNode` holds a cell whose hash is that of its key and follows the path; a
`CollisionNode` lies at depth 7 and its list holds at least two cells, all
with the hash of their key, following the path, no two with the same key. -/
def WFValue {K V : Type} (compare : K → K → Bool) (hashfun : K → Nat) (pool : PMapPool K V)
    (path : List Nat) (n : Node K V) : Prop :=
  match n.type, n.value with
  | .ValueNode, .keyvalue kv => kv.hash = hashfun kv.first % U32 ∧ OnPath path kv.hash
  | .CollisionNode, .collision_list id =>
    path.length = 7 ∧ ∃ l, pool.lists[id]? = some l ∧ 2 ≤ l.length ∧
      (∀ kv ∈ l, kv.hash = hashfun kv.first % U32 ∧ OnPath path kv.hash) ∧
      l.Pairwise (fun a b => ¬ same_key compare a b)
  | _, _ => False

/-- The trie invariant for the children of a node reached by `path`, with
`depth` levels left below it: the reference array has one entry for each set
bit of `used`, in the order of the bits; the child for bit `j` satisfies the
value invariant for `path ++ [j]`, none of its own keys occurs below it, and
its children satisfy the invariant in turn.  With no level left there are no
children. -/
def WFNode {K V : Type} (compare : K → K → Bool) (hashfun : K → Nat) (pool : PMapPool K V) :
    Nat → List Nat → Node K V → Prop
  | 0, _, n => n.used = 0 ∧ n.child_array = []
  | depth + 1, path, n =>
    n.used < U32 ∧
    List.Forall₂ (fun j c =>
        WFValue compare hashfun pool (path ++ [j]) c ∧
        WFNode compare hashfun pool depth (path ++ [j]) c ∧
        ∀ a ∈ c.values pool, ∀ b ∈ c.descendants pool, ¬ same_key compare a b)
      (slots n.used) n.child_array

/-- The invariant of a map: its root, when there is one, is an `EmptyNode`
whose children satisfy the trie invariant over the seven levels. -/
def WFMap {K V : Type} (compare : K → K → Bool) (hashfun : K → Nat) (pool : PMapPool K V)
    (m : Map K V) : Prop :=
  match m.root_ with
  | none => True
  | some root => root.type = NodeType.EmptyNode ∧ WFNode compare hashfun pool 7 [] root

/-- The maps reachable from the empty map of a fresh pool by `add` and `remove`. -/
inductive Reachable {K V : Type} (compare : K → K → Bool) (hashfun : K → Nat) :
    PMapPool K V → Map K V → Prop where
  | new_map : Reachable compare hashfun { lists := [] } PMapPool.new_map
  | add {pool pool1 : PMapPool K V} {m m1 : Map K V} (key : K) (value : V) :
      Reachable compare hashfun pool m →
      Map.add compare hashfun pool m key value = some (pool1, m1) →
      Reachable compare hashfun pool1 m1
  | remove {pool pool1 : PMapPool K V} {m m1 : Map K V} (key : K) :
      Reachable compare hashfun pool m →
      Map.remove compare hashfun pool m key = some (pool1, m1) →
      Reachable compare hashfun pool1 m1

/-- The comparator is an equivalence relation. -/
structure CompareEquiv {K : Type} (compare : K → K → Bool) : Prop where
  refl : ∀ a, compare a a = true
  symm : ∀ a b, compare a b = true → compare b a = true
  trans : ∀ a b c, compare a b = true → compare b c = true → compare a c = true

/-- The list objects of `pool` that hold a cell whose hash satisfies `P` are
the same in `pool1`. -/
def PoolFrame {K V : Type} (pool pool1 : PMapPool K V) (P : Nat → Prop) : Prop :=
  ∀ (id : Nat) (l : List (KeyValue K V)), pool.lists[id]? = some l →
    (∃ x ∈ l, P x.hash) → pool1.lists[id]? = some l

/-- The invariant the reference array asks of the child in slot `j`. -/
def ChildOK {K V : Type} (compare : K → K → Bool) (hashfun : K → Nat) (pool : PMapPool K V) (depth : Nat)
    (path : List Nat) (j : Nat) (c : Node K V) : Prop :=
  WFValue compare hashfun pool (path ++ [j]) c ∧
    WFNode compare hashfun pool depth (path ++ [j]) c ∧
    ∀ a ∈ c.values pool, ∀ b ∈ c.descendants pool, ¬ same_key compare a b

/-- What `try_get_value` finds at the child `c` it has reached and below it,
with `left` further levels to go from `level`. -/
def child_lookup {K V : Type} (compare : K → K → Bool) (pool : PMapPool K V) (key : K)
    (hash left level : Nat) (c : Node K V) : Option V :=
  match node_match_get compare pool c key hash with
  | some v => some v
  | none => try_get_value_loop compare pool key hash left level c

/-- What inserting `kv` below the node `cur`, reached by `path` at `level`,
guarantees for the node `cur1` and the pool `pool1` that result. -/
structure InsertPost {K V : Type} (compare : K → K → Bool) (hashfun : K → Nat)
    (kv : KeyValue K V) (pool pool1 : PMapPool K V) (left level : Nat) (path : List Nat)
    (cur cur1 : Node K V) : Prop where
  wf : WFNode compare hashfun pool1 left path cur1
  type_eq : cur1.type = cur.type
  value_eq : cur1.value = cur.value
  frame : PoolFrame pool pool1 (fun h => h ≠ kv.hash)
  get_same : ∀ key hash, kv.hash = hash → compare key kv.first = true →
    try_get_value_loop compare pool1 key hash (left + 1) level cur1 = some kv.second
  get_other : ∀ key hash, ¬ (kv.hash = hash ∧ compare key kv.first = true) →
    try_get_value_loop compare pool1 key hash (left + 1) level cur1 =
      try_get_value_loop compare pool key hash (left + 1) level cur
  desc : ∀ x ∈ cur1.descendants pool1, x = kv ∨ x ∈ cur.descendants pool

/-- The cells of a map: those below its root. -/
def Map.contents {K V : Type} (pool : PMapPool K V) (m : Map K V) : List (KeyValue K V) :=
  match m.root_ with
  | none => []
  | some root => root.descendants pool

/-- What `add` does to the pool and to the trie: the pool is left as it is,
or one list object is made, or a list object is written in place and the trie
is rebuilt as it was. -/
def AddCases {K V : Type} (pool pool1 : PMapPool K V) (cur cur1 : Node K V) : Prop :=
  pool1 = pool ∨ (∃ l, pool1 = { lists := pool.lists ++ [l] }) ∨ cur1 = cur

/-- The value part of a node is one the value iterator can read: a
`ValueNode` with its cell, or a `CollisionNode` with a list that is not empty. -/
def ValueOK {K V : Type} (pool : PMapPool K V) (c : Node K V) : Prop :=
  (c.type = .ValueNode ∧ ∃ kv, c.value = .keyvalue kv) ∨
  (c.type = .CollisionNode ∧ ∃ id x l, c.value = .collision_list id ∧
    pool.lists[id]? = some (x :: l))

/-- The nodes below `n`, down to `depth` levels, are ones the iterator can
walk: every reference array has `size()` entries and every child holds a value. -/
def Iterable {K V : Type} (pool : PMapPool K V) : Nat → Node K V → Prop
  | 0, n => n.child_array = []
  | depth + 1, n =>
    n.child_array.length = n.size ∧
      ∀ c ∈ n.child_array, ValueOK pool c ∧ Iterable pool depth c

/-- A stack entry of the iterator that points at a child of its node. -/
def FrameOK {K V : Type} (pool : PMapPool K V) (depth : Nat) (f : NodeChildIterator K V) : Prop :=
  f.iterating = true ∧ f.node_has_children = true ∧ f.iter < f.node.child_array.length ∧
    Iterable pool (depth + 1) f.node

/-- The stack of the iterator, its top first: each entry points at a child,
and the nodes get one level higher with every entry. -/
def FramesOK {K V : Type} (pool : PMapPool K V) : Nat → List (NodeChildIterator K V) → Prop
  | _, [] => True
  | depth, f :: fs => FrameOK pool depth f ∧ FramesOK pool (depth + 1) fs

/-- The cells the iterator has still to visit after the subtree of the
current node: for every stack entry, the subtrees of the children after its
position. -/
def pending {K V : Type} (pool : PMapPool K V) :
    List (NodeChildIterator K V) → List (KeyValue K V)
  | [] => []
  | f :: fs => Node.subtree_list pool (f.node.child_array.drop (f.iter + 1)) ++ pending pool fs

/-- The value iterator stands on a value of the node `c`. -/
def ViOK {K V : Type} (c : Node K V) (vi : NodeValueIterator K V) : Prop :=
  vi.node = some c ∧
    ((c.type = .ValueNode ∧ vi.keyvalue.isSome = true) ∨
      (c.type = .CollisionNode ∧ vi.iteration_ongoing = true))

/-- The values of the node `c` the value iterator has still to visit. -/
def vi_rest {K V : Type} (c : Node K V) (vi : NodeValueIterator K V) : List (KeyValue K V) :=
  if c.type = .CollisionNode then vi.iter.tail else []

/-- The iterator stands on a cell, and `todo` are the cells it has still to
visit, in order. -/
def StateOK {K V : Type} (pool : PMapPool K V) (it : node_iterator K V)
    (todo : List (KeyValue K V)) : Prop :=
  ∃ d f fs c, it.iter_stack = f :: fs ∧ FramesOK pool d (f :: fs) ∧ (f :: fs).length + d ≤ 7 ∧
    f.current = some c ∧ ViOK c it.value_iter ∧
    todo = vi_rest c it.value_iter ++ c.descendants pool ++ pending pool (f :: fs)

/-! ## Slabs (`Chunk`, `ChunkBox`)

A pointer to an element is the number `CHUNK_BUFFER_SIZE * c + i` for slot `i`
of the chunk at position `c` of `chunks_`; a pointer to a chunk is its
position in `chunks_`. -/

/-- `CHUNK_BUFFER_SIZE`. -/
def CHUNK_BUFFER_SIZE : Nat := 32

/-- What the slabs use of the element type `T`: the element of all-zero bytes
that `memset` leaves in a new chunk, and what `new(address) T` makes of the
content of a slot. -/
structure ElementType (T : Type) where
  zero : T
  construct : T → T

/-- A slab (`Chunk<T>`); `next` links the free list. -/
structure Chunk (T : Type) where
  buffer : List T
  used_elements : Nat
  mark_field : Nat
  next : Option Nat

namespace Chunk

variable {T : Type}

/-- `Chunk()`. -/
def init (E : ElementType T) : Chunk T :=
  { buffer := List.replicate CHUNK_BUFFER_SIZE E.zero, used_elements := 0, mark_field := 0,
    next := none }

/-- `is_full`: `used_elements == 0xffffffff`. -/
def is_full (c : Chunk T) : Bool := c.used_elements == 0xffffffff

/-- `get_new`: the index of the new element, null when the chunk is full. -/
def get_new (E : ElementType T) (c : Chunk T) : Option Nat × Chunk T :=
  if c.is_full then (none, c)
  else
    let index := lowest_unset_bit c.used_elements
    (some index,
      { c with used_elements := set_bit_on c.used_elements index,
               buffer := c.buffer.modify E.construct index })

/-- The loop `while(i--) mask |= (1 << (i));` of `get_new_array`. -/
def array_mask : Nat → Nat → Nat
  | 0, mask => mask
  | i + 1, mask => array_mask i (mask ||| ((1 <<< i) % U32))

/-- The loop `for(size_t i = 0; i < count; ++i) tmp = new(result + i)T;`. -/
def construct_array (E : ElementType T) (result : Nat) : Nat → List T → List T
  | 0, buffer => buffer
  | count + 1, buffer =>
    (construct_array E result count buffer).modify E.construct (result + count)

/-- The loop `while(positions_to_search--)` of `get_new_array`. -/
def get_new_array_search (E : ElementType T) (count : Nat) :
    Nat → Nat → Nat → Chunk T → Option Nat × Chunk T
  | 0, _, _, c => (none, c)
  | positions_to_search + 1, mask, array_start_index, c =>
    if c.used_elements &&& mask = 0 then
      (some array_start_index,
        { c with buffer := construct_array E array_start_index count c.buffer,
                 used_elements := c.used_elements ||| mask })
    else
      get_new_array_search E count positions_to_search ((mask <<< 1) % U32)
        (array_start_index + 1) c

/-- `get_new_array`: the index of the start of `count` consecutive new
elements, null when there is no room for them. -/
def get_new_array (E : ElementType T) (c : Chunk T) (count : Nat) : Option Nat × Chunk T :=
  if count > CHUNK_BUFFER_SIZE then (none, c)
  else get_new_array_search E count (CHUNK_BUFFER_SIZE - count + 1) (array_mask count 0) 0 c

/-- `set_marked` for the chunk whose buffer starts at `base`: the `uint32_t`
index `ptr - buffer` wraps for a pointer below the buffer. -/
def set_marked (base : Nat) (c : Chunk T) (ptr : Nat) : Chunk T :=
  let index := (((ptr : Int) - (base : Int)) % (U32 : Int)).toNat
  if index < CHUNK_BUFFER_SIZE then { c with mark_field := set_bit_on c.mark_field index }
  else c

/-- `contains`: the pointer lies in the buffer. -/
def contains (base : Nat) (ptr : Nat) : Bool :=
  decide (base ≤ ptr) && decide (ptr < base + CHUNK_BUFFER_SIZE)

/-- `set_marked_if_contains`. -/
def set_marked_if_contains (base : Nat) (c : Chunk T) (elem : Nat) : Bool × Chunk T :=
  if contains base elem then (true, set_marked base c elem) else (false, c)

/-- The loop `for(size_t i = 0; i < count; ++i) set_marked(start + i);`. -/
def set_marked_array (base : Nat) (start : Nat) : Nat → Chunk T → Chunk T
  | 0, c => c
  | count + 1, c => set_marked base (set_marked_array base start count c) (start + count)

/-- `set_marked_if_contains_array`. -/
def set_marked_if_contains_array (base : Nat) (c : Chunk T) (start count : Nat) :
    Bool × Chunk T :=
  if contains base start && decide ((start - base) + count ≤ CHUNK_BUFFER_SIZE) then
    (true, set_marked_array base start count c)
  else (false, c)

/-- The loop of `collect_marked` from `index` on, `left` indices to go: a slot
that is used and not marked is set unused and its destructor is called.  The
elements destroyed are collected in the order of the calls. -/
def collect_marked_loop (is_used : Nat) : Nat → Nat → Chunk T → List T → Chunk T × List T
  | 0, _, c, destroyed => (c, destroyed)
  | left + 1, index, c, destroyed =>
    if (is_used >>> index) &&& 0x1 = 1 then
      collect_marked_loop is_used left (index + 1)
        { c with used_elements := set_bit_off c.used_elements index }
        (destroyed ++ (c.buffer[index]?).toList)
    else collect_marked_loop is_used left (index + 1) c destroyed

/-- `collect_marked`: the chunk after the sweep and the elements whose
destructor `~T()` was called. -/
def collect_marked (c : Chunk T) : Chunk T × List T :=
  collect_marked_loop ((c.used_elements ^^^ c.mark_field) &&& c.used_elements)
    CHUNK_BUFFER_SIZE 0 c []

/-- `live_size_bytes`: `sizeof(T) * count_bits(used_elements)`. -/
def live_size_bytes (sizeof_T : Nat) (c : Chunk T) : Nat := sizeof_T * count_bits c.used_elements

end Chunk

/-- The chunks of a pool and the head of the list of chunks that are not full
(`ChunkBox<T>`). -/
structure ChunkBox (T : Type) where
  chunks_ : List (Chunk T)
  free_chunks_ : Option Nat

namespace ChunkBox

variable {T : Type}

/-- `new_chunk`: a chunk is appended; its position is returned. -/
def new_chunk (E : ElementType T) (box : ChunkBox T) : Nat × ChunkBox T :=
  (box.chunks_.length, { box with chunks_ := box.chunks_ ++ [Chunk.init E] })

/-- `ChunkBox()`. -/
def init (E : ElementType T) : ChunkBox T :=
  { chunks_ := [Chunk.init E], free_chunks_ := some 0 }

/-- `reserve_element`: the pointer to a new element, null when there is no
free chunk or the free chunk is full. -/
def reserve_element (E : ElementType T) (box : ChunkBox T) : Option Nat × ChunkBox T :=
  match box.free_chunks_ with
  | none => (none, box)
  | some f =>
    match box.chunks_[f]? with
    | none => (none, box)
    | some chunk =>
      let r := chunk.get_new E
      let elem := r.1.map (fun index => CHUNK_BUFFER_SIZE * f + index)
      if r.2.is_full then
        match r.2.next with
        | some n =>
          (elem, { chunks_ := box.chunks_.set f { r.2 with next := none }, free_chunks_ := some n })
        | none =>
          let b := new_chunk E { box with chunks_ := box.chunks_.set f r.2 }
          (elem, { chunks_ := b.2.chunks_.set f { r.2 with next := none },
                   free_chunks_ := some b.1 })
      else (elem, { box with chunks_ := box.chunks_.set f r.2 })

/-- `mark_all_empty`. -/
def mark_all_empty (box : ChunkBox T) : ChunkBox T :=
  { box with chunks_ := box.chunks_.map (fun c => { c with mark_field := 0 }) }

/-- The loop of `collect_chunks` over the chunks from position `i` on: every
chunk is swept, and pushed on the free list when it is not full. -/
def collect_chunks_loop : Nat → List (Chunk T) → Option Nat → List T →
    List (Chunk T) × Option Nat × List T
  | _, [], free_chunks, destroyed => ([], free_chunks, destroyed)
  | i, chunk :: rest, free_chunks, destroyed =>
    let r := chunk.collect_marked
    if !r.1.is_full then
      let s := collect_chunks_loop (i + 1) rest (some i) (destroyed ++ r.2)
      ({ r.1 with next := free_chunks } :: s.1, s.2)
    else
      let s := collect_chunks_loop (i + 1) rest free_chunks (destroyed ++ r.2)
      (r.1 :: s.1, s.2)

/-- `collect_chunks`: the box after the sweep and the elements destroyed. -/
def collect_chunks (box : ChunkBox T) : ChunkBox T × List T :=
  let r := collect_chunks_loop 0 box.chunks_ none []
  ({ chunks_ := r.1, free_chunks_ := r.2.1 }, r.2.2)

/-- The `for_each` of `set_marked_if_contained` over the chunks from position
`i` on. -/
def set_marked_if_contained_loop (ptr : Nat) : Nat → List (Chunk T) → List (Chunk T)
  | _, [] => []
  | i, c :: rest =>
    (c.set_marked_if_contains (CHUNK_BUFFER_SIZE * i) ptr).2 ::
      set_marked_if_contained_loop ptr (i + 1) rest

/-- `set_marked_if_contained`. -/
def set_marked_if_contained (box : ChunkBox T) (ptr : Nat) : ChunkBox T :=
  { box with chunks_ := set_marked_if_contained_loop ptr 0 box.chunks_ }

/-- The `for_each` of `set_marked_if_contained_array`. -/
def set_marked_if_contained_array_loop (ptr size : Nat) : Nat → List (Chunk T) → List (Chunk T)
  | _, [] => []
  | i, c :: rest =>
    (c.set_marked_if_contains_array (CHUNK_BUFFER_SIZE * i) ptr size).2 ::
      set_marked_if_contained_array_loop ptr size (i + 1) rest

/-- `set_marked_if_contained_array`. -/
def set_marked_if_contained_array (box : ChunkBox T) (ptr size : Nat) : ChunkBox T :=
  { box with chunks_ := set_marked_if_contained_array_loop ptr size 0 box.chunks_ }

/-- `live_size_bytes`: the sum of the live sizes of the chunks. -/
def live_size_bytes (sizeof_T : Nat) (box : ChunkBox T) : Nat :=
  box.chunks_.foldl (fun r t => r + t.live_size_bytes sizeof_T) 0

/-- The element a pointer points to. -/
def read (box : ChunkBox T) (ptr : Nat) : Option T :=
  match box.chunks_[ptr / CHUNK_BUFFER_SIZE]? with
  | none => none
  | some c => c.buffer[ptr % CHUNK_BUFFER_SIZE]?

/-- The box after `*ptr = value`. -/
def write (box : ChunkBox T) (ptr : Nat) (value : T) : ChunkBox T :=
  let store := fun (c : Chunk T) => { c with buffer := c.buffer.set (ptr % CHUNK_BUFFER_SIZE) value }
  { box with chunks_ := box.chunks_.modify store (ptr / CHUNK_BUFFER_SIZE) }

end ChunkBox

/-! ### Consecutive elements and the free list -/

namespace ChunkBox

variable {T : Type}

/-- The `while(chunk)` loop of `reserve_consecutive_elements`, with the
pointers `chunk` and `prev_chunk`: the first chunk of the free list in which
`get_new_array` finds room ends the loop, and when that chunk is full now it is
taken out of the free list.  The result is the pointer to the elements, the
pointer `chunk` after the loop, and the box.  The run has no result (`none`)
when a pointer that is followed does not point to a chunk, when the assertion
that the free list is not circular fails, or when the fuel runs out. -/
def reserve_consecutive_loop (E : ElementType T) (element_count : Nat)
    (first_chunk : Option Nat) :
    Nat → Option Nat → Option Nat → ChunkBox T → Option (Option Nat × Option Nat × ChunkBox T)
  | _, none, _, box => some (none, none, box)
  | 0, some _, _, _ => none
  | fuel + 1, some ch, prev_chunk, box =>
    match box.chunks_[ch]? with
    | none => none
    | some chunk =>
      let r := chunk.get_new_array E element_count
      match r.1 with
      | some start =>
        let result := CHUNK_BUFFER_SIZE * ch + start
        if r.2.is_full then
          match prev_chunk, r.2.next with
          | none, none =>
            let b := new_chunk E { box with chunks_ := box.chunks_.set ch r.2 }
            some (some result, some ch,
              { chunks_ := b.2.chunks_.set ch { r.2 with next := none },
                free_chunks_ := some b.1 })
          | none, some n =>
            some (some result, some ch,
              { chunks_ := box.chunks_.set ch { r.2 with next := none },
                free_chunks_ := some n })
          | some p, next =>
            some (some result, some ch,
              { box with chunks_ :=
                  (((box.chunks_.set ch r.2).modify (fun c => { c with next := next }) p).modify
                    (fun c => { c with next := none }) ch) })
        else some (some result, some ch, { box with chunks_ := box.chunks_.set ch r.2 })
      | none =>
        if r.2.next = first_chunk then none
        else
          reserve_consecutive_loop E element_count first_chunk fuel r.2.next (some ch)
            { box with chunks_ := box.chunks_.set ch r.2 }

/-- `reserve_consecutive_elements(element_count)`: the pointer to the first of
the new elements, null for more than `CHUNK_BUFFER_SIZE` elements.  When no
chunk of the free list has room a chunk is made, which is put in front of the
free list unless the elements fill it. -/
def reserve_consecutive_elements (E : ElementType T) (box : ChunkBox T) (element_count : Nat) :
    Option (Option Nat × ChunkBox T) :=
  if element_count ≤ CHUNK_BUFFER_SIZE then
    match reserve_consecutive_loop E element_count box.free_chunks_ (box.chunks_.length + 1)
        box.free_chunks_ none box with
    | none => none
    | some (result, some _, box1) => some (result, box1)
    | some (_, none, box1) =>
      let b := new_chunk E box1
      let box2 : ChunkBox T :=
        if element_count < CHUNK_BUFFER_SIZE then
          { chunks_ := b.2.chunks_.modify (fun c => { c with next := b.2.free_chunks_ }) b.1,
            free_chunks_ := some b.1 }
        else b.2
      match box2.chunks_[b.1]? with
      | none => none
      | some created =>
        let r := created.get_new_array E element_count
        some (r.1.map (fun start => CHUNK_BUFFER_SIZE * b.1 + start),
          { box2 with chunks_ := box2.chunks_.set b.1 r.2 })
  else some (none, box)

/-- The boxes reachable from `ChunkBox()` by `reserve_element`,
`reserve_consecutive_elements(k)` with `1 <= k <= 32`, and `collect_chunks`. -/
inductive Reachable (E : ElementType T) : ChunkBox T → Prop where
  | init : Reachable E (ChunkBox.init E)
  | reserve_element {box : ChunkBox T} :
      Reachable E box → Reachable E (box.reserve_element E).2
  | reserve_consecutive_elements {box box1 : ChunkBox T} (k : Nat) (result : Option Nat) :
      Reachable E box → 1 ≤ k → k ≤ 32 →
      box.reserve_consecutive_elements E k = some (result, box1) → Reachable E box1
  | collect_chunks {box : ChunkBox T} :
      Reachable E box → Reachable E box.collect_chunks.1

/-- The chunks that `next` links from `head` on are those at the positions
`l`, and the last one has a null `next`. -/
def FreeList (chunks : List (Chunk T)) : Option Nat → List Nat → Prop
  | none, [] => True
  | some f, g :: rest => f = g ∧ ∃ c, chunks[f]? = some c ∧ FreeList chunks c.next rest
  | _, _ => False

/-- The chunks that `next` links from `head` on are those at the positions
`l`, and the `next` of the last one is `tail`. -/
def FreeSeg (chunks : List (Chunk T)) : Option Nat → List Nat → Option Nat → Prop
  | head, [], tail => head = tail
  | some f, g :: rest, tail =>
    f = g ∧ ∃ c, chunks[f]? = some c ∧ FreeSeg chunks c.next rest tail
  | none, _ :: _, _ => False

/-- No slot of a chunk is marked. -/
def Unmarked (box : ChunkBox T) : Prop := ∀ c ∈ box.chunks_, c.mark_field = 0

/-- The invariant of the free list: it is not empty, no chunk occurs in it
twice, and it holds the chunks that are not full and no others; every chunk
has `CHUNK_BUFFER_SIZE` slots and a bitfield of 32 bits. -/
def FreeOK (box : ChunkBox T) : Prop :=
  (∃ l, FreeList box.chunks_ box.free_chunks_ l ∧ l ≠ [] ∧ l.Nodup ∧
    ∀ i, i ∈ l ↔ ∃ c, box.chunks_[i]? = some c ∧ c.is_full = false) ∧
  ∀ c ∈ box.chunks_, c.used_elements < U32 ∧ c.buffer.length = CHUNK_BUFFER_SIZE

/-- The slots `start, ..., start + count - 1` of a bitfield are clear. -/
def run_clear (used start count : Nat) : Prop :=
  ∀ j, start ≤ j → j < start + count → used.testBit j = false

end ChunkBox

/-! ## The persistent list (class `PListPool`)

A `List` handle is modelled by its `head_` pointer, null for the empty list;
the calls of `add_ref` and `remove_ref` that its constructors and destructor
make are part of the operations below. -/

/-- What the list pool uses of its element type `T`: the element of all-zero
bytes, the default constructed element `T()`, and the heads of the lists of
this pool to which an element holds `List` handles (none for `int` or
`const KeyValue*`; for the `Value` of the runtime the head of the list of a
`LIST` value).  Copying an element copies its handles, which calls `add_ref`
for each head; `~T()` destroys them, which calls `remove_ref`. -/
structure ListElement (T : Type) where
  zero : T
  init : T
  handles : T → List Nat

/-- List node (`PListPool::Node`). -/
structure PListPool.Node (T : Type) where
  next : Option Nat
  data : T

/-- The node type as the slabs see it: `new(address) Node` default constructs
`data` and leaves `next` as it is. -/
def ListElement.node {T : Type} (E : ListElement T) : ElementType (PListPool.Node T) where
  zero := { next := none, data := E.zero }
  construct := fun n => { n with data := E.init }

/-- Pool manager and collector for persistent lists (`PListPool<T>`):
`ref_count_` holds the head node reference counts, in the order in which the
keys were inserted. -/
structure PListPool (T : Type) where
  chunks_ : ChunkBox (PListPool.Node T)
  ref_count_ : List (Nat × Nat)

/-- `PListPool()`. -/
def PListPool.init {T : Type} (E : ListElement T) : PListPool T :=
  { chunks_ := ChunkBox.init E.node, ref_count_ := [] }

/-- The table `ref_count_` after `add_ref(n)`. -/
def add_ref_table : List (Nat × Nat) → Nat → List (Nat × Nat)
  | [], n => [(n, 1)]
  | (k, count) :: rest, n =>
    if k = n then (k, count + 1) :: rest else (k, count) :: add_ref_table rest n

/-- The table `ref_count_` after `remove_ref(n)`. -/
def remove_ref_table : List (Nat × Nat) → Nat → List (Nat × Nat)
  | [], _ => []
  | (k, count) :: rest, n =>
    if k = n then (if 0 < count then (k, count - 1) :: rest else (k, count) :: rest)
    else (k, count) :: remove_ref_table rest n

/-- Add reference to node (`add_ref`). -/
def PListPool.add_ref {T : Type} (pool : PListPool T) (n : Nat) : PListPool T :=
  { pool with ref_count_ := add_ref_table pool.ref_count_ n }

/-- Remove reference to node (`remove_ref`). -/
def PListPool.remove_ref {T : Type} (pool : PListPool T) (n : Nat) : PListPool T :=
  { pool with ref_count_ := remove_ref_table pool.ref_count_ n }

/-- `List(PListPool& pool, Node* head)`: `if(head_) pool_.add_ref(head_)`. -/
def PListPool.List.mk {T : Type} (pool : PListPool T) (head : Option Nat) :
    PListPool T × Option Nat :=
  match head with
  | none => (pool, none)
  | some h => (pool.add_ref h, some h)

/-- `~List()`: `if(head_) pool_.remove_ref(head_)`. -/
def PListPool.List.destroy {T : Type} (pool : PListPool T) (head_ : Option Nat) : PListPool T :=
  match head_ with
  | none => pool
  | some h => pool.remove_ref h

/-- The pool after an element was copied: `add_ref` for the handles it holds. -/
def PListPool.copy_element {T : Type} (E : ListElement T) (pool : PListPool T) (data : T) :
    PListPool T :=
  (E.handles data).foldl PListPool.add_ref pool

/-- The pool after `~T()` ran for an element: `remove_ref` for the handles it
holds. -/
def PListPool.destroy_element {T : Type} (E : ListElement T) (pool : PListPool T) (data : T) :
    PListPool T :=
  (E.handles data).foldl PListPool.remove_ref pool

/-- `new_node(data)`: a node is reserved, `data` is copied into it and `next`
is set to null.  The result is `none` when `reserve_element` returns null,
which `new_node` dereferences. -/
def PListPool.new_node {T : Type} (E : ListElement T) (pool : PListPool T) (data : T) :
    Option (PListPool T × Nat) :=
  match pool.chunks_.reserve_element E.node with
  | (none, _) => none
  | (some n, box) =>
    some (PListPool.copy_element E
      { pool with chunks_ := box.write n { next := none, data := data } } data, n)

/-- Add element to list (`List::add`): the new node is prepended to the head. -/
def PListPool.List.add {T : Type} (E : ListElement T) (pool : PListPool T) (head_ : Option Nat)
    (data : T) : Option (PListPool T × Option Nat) :=
  match PListPool.new_node E pool data with
  | none => none
  | some (pool1, n) =>
    match pool1.chunks_.read n with
    | none => none
    | some node =>
      some (PListPool.List.mk { pool1 with chunks_ := pool1.chunks_.write n { node with next := head_ } }
        (some n))

/-- Return list containing all but the first element or empty list
(`List::rest`); `none` when `head_` does not point to a node. -/
def PListPool.List.rest {T : Type} (pool : PListPool T) (head_ : Option Nat) :
    Option (PListPool T × Option Nat) :=
  match head_ with
  | none => some (PListPool.List.mk pool none)
  | some h =>
    match pool.chunks_.read h with
    | none => none
    | some node => some (PListPool.List.mk pool node.next)

/-- Return reference to the first element of list or null (`List::first`), as
the element referred to. -/
def PListPool.List.first {T : Type} (pool : PListPool T) (head_ : Option Nat) : Option T :=
  match head_ with
  | none => none
  | some h => (pool.chunks_.read h).map (fun node => node.data)

/-- The elements visited by `for(i = begin(); i != end(); ++i)`, at most `fuel`
of them; `none` when a pointer that is followed does not point to a node or
the end is not reached. -/
def PListPool.List.elements {T : Type} (pool : PListPool T) : Nat → Option Nat → Option (List T)
  | _, none => some []
  | 0, some _ => none
  | fuel + 1, some h =>
    match pool.chunks_.read h with
    | none => none
    | some node => (PListPool.List.elements pool fuel node.next).map (node.data :: ·)

/-- `List::operator==`: the two lists are walked together (`i` through `pool`,
`li` through `pool`), and the elements are compared with `eq`. -/
def PListPool.List.equal {T : Type} (eq : T → T → Bool) (pool : PListPool T) :
    Nat → Option Nat → Option Nat → Option Bool
  | _, none, none => some true
  | _, none, some _ => some false
  | _, some _, none => some false
  | 0, some _, some _ => none
  | fuel + 1, some i, some li =>
    match pool.chunks_.read i, pool.chunks_.read li with
    | some a, some b =>
      if !(eq a.data b.data) then some false else PListPool.List.equal eq pool fuel a.next b.next
    | _, _ => none

/-- The search loop of `mark_referenced`: `for(chunk_iterator = begin(); ...)
if(chunk_iterator->set_marked_if_contains(node)) break;`, from position `i`;
the chunks and where the iterator stands at the end (`none` for `end()`). -/
def PListPool.mark_search {T : Type} (node : Nat) :
    Nat → List (Chunk (PListPool.Node T)) → List (Chunk (PListPool.Node T)) × Option Nat
  | _, [] => ([], none)
  | i, c :: rest =>
    let r := c.set_marked_if_contains (CHUNK_BUFFER_SIZE * i) node
    if r.1 then (r.2 :: rest, some i)
    else
      let s := PListPool.mark_search node (i + 1) rest
      (c :: s.1, s.2)

/-- The first test of a round of `mark_referenced`:
`chunk_iterator != chunks_end && chunk_iterator->set_marked_if_contains(node)`;
the chunk with the mark and its position when the test holds. -/
def PListPool.mark_cached {T : Type} (node : Nat) (chunks : List (Chunk (PListPool.Node T))) :
    Option Nat → Option (Chunk (PListPool.Node T) × Nat)
  | none => none
  | some i =>
    match chunks[i]? with
    | none => none
    | some c =>
      let r := c.set_marked_if_contains (CHUNK_BUFFER_SIZE * i) node
      if r.1 then some (r.2, i) else none

/-- The `while(node)` loop of `mark_referenced`, with the chunk iterator of the
previous round; `none` when `node->next` is read through a pointer that does
not point to a node, or the loop has not ended after `fuel` rounds. -/
def PListPool.mark_referenced_loop {T : Type} :
    Nat → ChunkBox (PListPool.Node T) → Option Nat → Option Nat →
      Option (ChunkBox (PListPool.Node T))
  | _, box, _, none => some box
  | 0, _, _, some _ => none
  | fuel + 1, box, chunk_iterator, some node =>
    match PListPool.mark_cached node box.chunks_ chunk_iterator with
    | some (c, i) =>
      let box1 := { box with chunks_ := box.chunks_.set i c }
      match box1.read node with
      | none => none
      | some n => PListPool.mark_referenced_loop fuel box1 chunk_iterator n.next
    | none =>
      let s := PListPool.mark_search node 0 box.chunks_
      let box1 := { box with chunks_ := s.1 }
      match box1.read node with
      | none => none
      | some n => PListPool.mark_referenced_loop fuel box1 s.2 n.next

/-- `mark_referenced(node)`. -/
def PListPool.mark_referenced {T : Type} (fuel : Nat) (box : ChunkBox (PListPool.Node T))
    (node : Nat) : Option (ChunkBox (PListPool.Node T)) :=
  PListPool.mark_referenced_loop fuel box none (some node)

/-- The loop `for(auto r = ref_count_.begin(); ...) mark_referenced(r->first)`. -/
def PListPool.mark_roots {T : Type} (fuel : Nat) :
    List (Nat × Nat) → ChunkBox (PListPool.Node T) → Option (ChunkBox (PListPool.Node T))
  | [], box => some box
  | r :: rest, box =>
    match PListPool.mark_referenced fuel box r.1 with
    | none => none
    | some box1 => PListPool.mark_roots fuel rest box1

/-- `copyif(ref_count_, p.second > 0)`. -/
def copyif_positive (ref_count : List (Nat × Nat)) : List (Nat × Nat) :=
  ref_count.filter (fun p => decide (p.2 > 0))

/-- Collect all slots taken by unvisitable nodes (`PListPool::gc`): the marks
are cleared, the heads with a positive count are kept and their lists marked,
and the chunks are swept, which runs the destructor of every node swept.
`fuel` bounds the length of the lists that are followed. -/
def PListPool.gc {T : Type} (E : ListElement T) (fuel : Nat) (pool : PListPool T) :
    Option (PListPool T) :=
  let box := pool.chunks_.mark_all_empty
  let ref_count := copyif_positive pool.ref_count_
  match PListPool.mark_roots fuel ref_count box with
  | none => none
  | some box1 =>
    let r := box1.collect_chunks
    some (r.2.foldl (fun p n => PListPool.destroy_element E p n.data)
      { chunks_ := r.1, ref_count_ := ref_count })

/-- `clear_root_refcounts`. -/
def PListPool.clear_root_refcounts {T : Type} (pool : PListPool T) : PListPool T :=
  { pool with ref_count_ := [] }

/-- `live_size_bytes`: `sizeof(*this)`, the size of the refcount table and the
live size of the chunks; `sizeof_pool`, `sizeof_entry` and `sizeof_node` are
`sizeof(*this)`, `sizeof(Node*) + sizeof(int)` and `sizeof(Node)`. -/
def PListPool.live_size_bytes {T : Type} (sizeof_pool sizeof_entry sizeof_node : Nat)
    (pool : PListPool T) : Nat :=
  sizeof_pool + pool.ref_count_.length * sizeof_entry + pool.chunks_.live_size_bytes sizeof_node

/-! ### Vocabulary for the list pool -/

/-- The slot a pointer points to is in use. -/
def ChunkBox.is_used {T : Type} (box : ChunkBox T) (ptr : Nat) : Bool :=
  match box.chunks_[ptr / CHUNK_BUFFER_SIZE]? with
  | none => false
  | some c => bit_is_on c.used_elements (ptr % CHUNK_BUFFER_SIZE)

/-- The free list starts with a chunk that has a free slot: `reserve_element`
returns an element. -/
def ChunkBox.CanReserve {T : Type} (box : ChunkBox T) : Prop :=
  ∃ f c, box.free_chunks_ = some f ∧ box.chunks_[f]? = some c ∧ c.is_full = false ∧
    c.used_elements < U32 ∧ c.buffer.length = CHUNK_BUFFER_SIZE

/-- The nodes from `head` on hold the elements `xs`, end with a null `next`, and
lie in slots that are in use. -/
def PListPool.Chain {T : Type} (pool : PListPool T) : Option Nat → List T → Prop
  | none, [] => True
  | some h, x :: xs =>
    pool.chunks_.is_used h = true ∧
      ∃ node, pool.chunks_.read h = some node ∧ node.data = x ∧ PListPool.Chain pool node.next xs
  | _, _ => False

/-- Two chunks hold the same elements and the same marks. -/
def Chunk.SameData {T : Type} (a b : Chunk T) : Prop :=
  a.buffer = b.buffer ∧ a.mark_field = b.mark_field

/-- Two chunks differ in their marks at most. -/
def Chunk.SameLinks {T : Type} (a b : Chunk T) : Prop :=
  a.buffer = b.buffer ∧ a.used_elements = b.used_elements ∧ a.next = b.next

/-- No slot of the chunk is used and unmarked: a sweep finds nothing. -/
def Chunk.Swept {T : Type} (c : Chunk T) : Prop :=
  ∀ j, j < 32 → ((c.used_elements ^^^ c.mark_field) &&& c.used_elements).testBit j = false

/-! ### More operations of the list -/

/-- Return the second element in the list or empty (`List::second`), as the
element referred to: `&head_->next->next->data` when `head_`, `head_->next`
and `head_->next->next` are not null, else null. -/
def PListPool.List.second {T : Type} (pool : PListPool T) (head_ : Option Nat) : Option T :=
  match head_ with
  | none => none
  | some h =>
    match (pool.chunks_.read h).bind (fun node => node.next) with
    | none => none
    | some n1 =>
      match (pool.chunks_.read n1).bind (fun node => node.next) with
      | none => none
      | some n2 => (pool.chunks_.read n2).map (fun node => node.data)

/-- Return duplicate of existing node sans the links (`copy` for a pointer
that is not null): `new_node(n->data)`. -/
def PListPool.copy {T : Type} (E : ListElement T) (pool : PListPool T) (n : Nat) :
    Option (PListPool T × Nat) :=
  match pool.chunks_.read n with
  | none => none
  | some node => PListPool.new_node E pool node.data

/-- The pool after `p->next = next`. -/
def PListPool.set_next {T : Type} (pool : PListPool T) (p : Nat) (next : Option Nat) :
    Option (PListPool T) :=
  match pool.chunks_.read p with
  | none => none
  | some node => some { pool with chunks_ := pool.chunks_.write p { node with next := next } }

/-- The loop `while(n && n != i.node)` of `List::remove`: the node `n` is
copied, the copy is linked after `build` and becomes `build`, and `n` moves to
its `next`.  The result is the pool and `build` after the loop. -/
def PListPool.List.remove_loop {T : Type} (E : ListElement T) (i_node : Nat) :
    Nat → PListPool T → Nat → Option Nat → Option (PListPool T × Nat)
  | _, pool, build, none => some (pool, build)
  | 0, _, _, some _ => none
  | fuel + 1, pool, build, some n =>
    if n = i_node then some (pool, build)
    else
      match PListPool.copy E pool n with
      | none => none
      | some (pool1, c) =>
        match PListPool.set_next pool1 build (some c) with
        | none => none
        | some pool2 =>
          match pool2.chunks_.read n with
          | none => none
          | some node => PListPool.List.remove_loop E i_node fuel pool2 c node.next

/-- Remove element from list (`List::remove`), for the iterator with the node
pointer `i`: with a null pointer or an empty list the list itself is returned;
with the head, the list from the second node on; else the nodes before `i`
are copied and the last copy is tied to the node after `i`.  `none` when a
pointer that is followed does not point to a node or the fuel runs out. -/
def PListPool.List.remove {T : Type} (E : ListElement T) (fuel : Nat) (pool : PListPool T)
    (head_ : Option Nat) (i : Option Nat) : Option (PListPool T × Option Nat) :=
  match i, head_ with
  | some i_node, some head =>
    if head = i_node then
      match pool.chunks_.read head with
      | none => none
      | some node => some (PListPool.List.mk pool node.next)
    else
      match PListPool.copy E pool head with
      | none => none
      | some (pool1, new_head) =>
        match pool1.chunks_.read head with
        | none => none
        | some hnode =>
          match PListPool.List.remove_loop E i_node fuel pool1 new_head hnode.next with
          | none => none
          | some (pool2, build) =>
            match pool2.chunks_.read i_node with
            | none => none
            | some inode =>
              match PListPool.set_next pool2 build inode.next with
              | none => none
              | some pool3 => some (PListPool.List.mk pool3 (some new_head))
  | _, _ => some (PListPool.List.mk pool head_)

/-- The nodes from `head` on are at the pointers and hold the elements of
`cells`, in slots that are in use, and the last one has a null `next`. -/
def PListPool.Cells {T : Type} (pool : PListPool T) : Option Nat → List (Nat × T) → Prop
  | none, [] => True
  | some h, x :: xs =>
    h = x.1 ∧ pool.chunks_.is_used h = true ∧
      ∃ node, pool.chunks_.read h = some node ∧ node.data = x.2 ∧
        PListPool.Cells pool node.next xs
  | _, _ => False

/-! ## Values of the runtime (masp.h, orb.cpp)

A `List*` or `Map*` payload is modelled by the handle object it points to,
that is by the `head_` or `root_` pointer of that handle. -/

/-- `Number`: an `int` or a `double`, the latter kept as its bit pattern. -/
inductive Number where
  | INT (intvalue : Int)
  | FLOAT (floatvalue : Nat)
deriving DecidableEq, Repr

/-- Masp value (`Value`): the `type` tag with the member of the union that
belongs to it. -/
inductive Value where
  | NIL
  | BOOLEAN (boolean : Bool)
  | NUMBER (number : Number)
  | NUMBER_ARRAY (number_array : List Number)
  | STRING (string : String)
  | SYMBOL (string : String)
  | VECTOR (vector : List Value)
  | LIST (list : Option Nat)
  | MAP (map : Option Nat)
  | OBJECT (object : Nat)
  | FUNCTION (function : Nat)

mutual
/-- The heads for which `~Value()` calls `remove_ref` of the list pool, and a
copy of the value `add_ref`: `delete value.list` runs `~List()`, and
`delete value.vector` destroys the elements of the vector. -/
def Value.list_handles : Value → List Nat
  | .LIST (some head_) => [head_]
  | .VECTOR vector => Value.list_handles_vector vector
  | _ => []
/-- The heads released by the elements of a vector. -/
def Value.list_handles_vector : List Value → List Nat
  | [] => []
  | v :: rest => Value.list_handles v ++ Value.list_handles_vector rest
end

mutual
/-- The roots for which `~Value()` calls `remove_ref` of the map pool, and a
copy of the value `add_ref`. -/
def Value.map_handles : Value → List Nat
  | .MAP (some root_) => [root_]
  | .VECTOR vector => Value.map_handles_vector vector
  | _ => []
/-- The roots released by the elements of a vector. -/
def Value.map_handles_vector : List Value → List Nat
  | [] => []
  | v :: rest => Value.map_handles v ++ Value.map_handles_vector rest
end

/-- The element type of the list pool of the runtime, `PListPool<Value>`:
`Value()` is `NIL`, which is also the tag of zeroed memory. -/
def value_element : ListElement Value :=
  { zero := Value.NIL, init := Value.NIL, handles := Value.list_handles }

/-! ## Reading source text (orb.cpp)

A pointer into the source text is modelled by the text from that pointer on,
so `c < end` is a non-empty text and `*c` its first character; `*end` is the
terminating NUL. -/

/-- The character `"`. -/
def DQUOTE : Char := Char.ofNat 34

/-- The character that quotes the next form in the source. -/
def SQUOTE : Char := Char.ofNat 39

/-- The backslash. -/
def BACKSLASH : Char := Char.ofNat 92

/-- The terminating NUL of a C string. -/
def NUL : Char := Char.ofNat 0

/-- The newline character. -/
def NEWLINE : Char := Char.ofNat 10

/-- `*c` for the text from `c` on. -/
def deref (c : List Char) : Char := c.headD NUL

/-- `isdigit` in the C locale. -/
def is_digit (c : Char) : Bool := decide (48 ≤ c.toNat) && decide (c.toNat ≤ 57)

/-- `is_space`: `isspace(c)` in the C locale, or a comma. -/
def is_space (c : Char) : Bool :=
  c.toNat == 32 || (decide (9 ≤ c.toNat) && decide (c.toNat ≤ 13)) || c == ','

/-- `g_delimiters`: the characters `( ) { } [ ] ;` and the quote. -/
def g_delimiters : List Char := ['(', ')', Char.ofNat 123, Char.ofNat 125, '[', ']', ';', SQUOTE]

/-- The loop of `pos_in_string` from position `i` of the string. -/
def pos_in_string_loop (c : Char) : List Char → Nat → Int
  | [], _ => -1
  | x :: rest, i => if c = x then (i : Int) else pos_in_string_loop c rest (i + 1)

/-- `pos_in_string`: the index of the character in the string, or -1; the
terminating NUL is not found. -/
def pos_in_string (c : Char) (str : List Char) : Int :=
  if c = NUL then -1 else pos_in_string_loop c str 0

/-- `is_in_string`. -/
def is_in_string (c : Char) (str : List Char) : Bool := decide (pos_in_string c str ≥ 0)

/-- `is_delimiter`. -/
def is_delimiter (c : Char) : Bool := is_in_string c g_delimiters

/-- The loop of `match_string`: `result = *pattern++ == *c++` while the
pattern lasts and the result holds. -/
def match_string_loop : List Char → List Char → Bool
  | [], _ => true
  | p :: pattern, c => if p = deref c then match_string_loop pattern c.tail else false

/-- `match_string`: the pattern matches the beginning of the range. -/
def match_string (pattern : List Char) (c : List Char) : Bool :=
  if c.length ≥ pattern.length then match_string_loop pattern c else false

/-- `to_newline`: the text from the next newline on, or the end. -/
def to_newline : List Char → List Char
  | [] => []
  | c :: rest => if c = NEWLINE then c :: rest else to_newline rest

/-- `last_quote_of_string`: the text from the delimiting `"` of a string on,
or the end; `begin` is the text after the initial `"`.  A backslash skips the
character after it. -/
def last_quote_of_string : List Char → List Char
  | [] => []
  | c :: rest =>
    if c = BACKSLASH then
      match rest with
      | [] => []
      | _ :: rest1 => last_quote_of_string rest1
    else if c = DQUOTE then c :: rest
    else last_quote_of_string rest

/-- `match_range`: the range is the string `str`. -/
def match_range (range : List Char) (str : List Char) : Bool := decide (range = str)

/-! ### Numbers -/

/-- A character of `[0-9A-Fa-f]`. -/
def is_hex_digit (c : Char) : Bool :=
  is_digit c || (decide (65 ≤ c.toNat) && decide (c.toNat ≤ 70)) ||
    (decide (97 ≤ c.toNat) && decide (c.toNat ≤ 102))

/-- A character of `[01]`. -/
def is_binary_digit (c : Char) : Bool := c == '0' || c == '1'

/-- The text without a leading `[-+]?`. -/
def drop_sign : List Char → List Char
  | c :: rest => if c = '-' ∨ c = '+' then rest else c :: rest
  | [] => []

/-- `regex_search(num, numend, res, g_regint)` for
`^(?:([-+]?[1-9][0-9]*)|(0)|(0[xX][0-9A-Fa-f]+)|0[bB]([01]+))$`: the
sub-matches `res[0]` to `res[4]` as strings (empty for a group that did not
take part), or `none` when the token does not match. -/
def g_regint (tok : List Char) : Option (List (List Char)) :=
  match tok with
  | ['0'] => some [tok, [], tok, [], []]
  | '0' :: x :: digits =>
    if (x = 'x' ∨ x = 'X') ∧ digits ≠ [] ∧ digits.all is_hex_digit then
      some [tok, [], [], tok, []]
    else if (x = 'b' ∨ x = 'B') ∧ digits ≠ [] ∧ digits.all is_binary_digit then
      some [tok, [], [], [], digits]
    else none
  | _ =>
    match drop_sign tok with
    | d :: digits =>
      if is_digit d ∧ d ≠ '0' ∧ digits.all is_digit then some [tok, tok, [], [], []] else none
    | [] => none

/-- The text after the longest prefix of digits. -/
def drop_digits : List Char → List Char
  | c :: rest => if is_digit c then drop_digits rest else c :: rest
  | [] => []

/-- The part `([eE][-+]?[0-9]+)?$` of `g_regfloat`. -/
def regfloat_exponent : List Char → Bool
  | [] => true
  | e :: rest =>
    (e == 'e' || e == 'E') &&
      (match drop_sign rest with
        | d :: digits => is_digit d && (drop_digits digits).isEmpty
        | [] => false)

/-- `regex_search(num, numend, res, g_regfloat)` for
`^([-+]?[0-9]+(\.[0-9]*)?|\.[0-9]+)([eE][-+]?[0-9]+)?$`: whether the token
matches. -/
def g_regfloat (tok : List Char) : Bool :=
  (match drop_sign tok with
    | d :: rest =>
      is_digit d &&
        (match drop_digits rest with
          | '.' :: frac => regfloat_exponent (drop_digits frac)
          | other => regfloat_exponent other)
    | [] => false) ||
  (match tok with
    | '.' :: d :: rest => is_digit d && regfloat_exponent (drop_digits rest)
    | _ => false)

/-- The value of a digit character in a base, if it is a digit of that base. -/
def digit_value (base : Nat) (c : Char) : Option Nat :=
  let v :=
    if is_digit c then some (c.toNat - 48)
    else if decide (97 ≤ c.toNat) && decide (c.toNat ≤ 122) then some (c.toNat - 97 + 10)
    else if decide (65 ≤ c.toNat) && decide (c.toNat ≤ 90) then some (c.toNat - 65 + 10)
    else none
  match v with
  | some d => if d < base then some d else none
  | none => none

/-- The digits loop of `strtol` and `atoi`: the value of the longest prefix of
digits of the base, after the value `acc` of the digits read before. -/
def digits_value (base : Nat) : List Char → Nat → Nat
  | [], acc => acc
  | c :: rest, acc =>
    match digit_value base c with
    | some d => digits_value base rest (acc * base + d)
    | none => acc

/-- `strtol(str, 0, base)` for base 2 or 16: an optional sign, for base 16 an
optional `0x` or `0X`, and the digits; 0 when there is no digit.  The value
is not reduced to the range of `long`. -/
def strtol (str : List Char) (base : Nat) : Int :=
  let negative := decide (str.head? = some '-')
  let s := drop_sign str
  let s1 :=
    match s with
    | '0' :: x :: d :: rest =>
      if base = 16 ∧ (x = 'x' ∨ x = 'X') ∧ (digit_value 16 d).isSome then d :: rest else s
    | _ => s
  let v : Int := (digits_value base s1 0 : Nat)
  if negative then -v else v

/-- `atoi(str)`: an optional sign and decimal digits (the value is undefined
in C when it is out of the range of `int`). -/
def atoi (str : List Char) : Int :=
  let negative := decide (str.head? = some '-')
  let v : Int := (digits_value 10 (drop_sign str) 0 : Nat)
  if negative then -v else v

/-- The conversion of an integer to `int`, modulo `2 ^ 32`. -/
def to_int (x : Int) : Int := (x + 2147483648) % 4294967296 - 2147483648

/-- `ParseResult` with the output parameter that was written: `intvalue` for
`PARSE_INT`, `doublevalue` (as its bit pattern) for `PARSE_FLOAT`. -/
inductive ParseResult where
  | PARSE_NIL
  | PARSE_INT (intvalue : Int)
  | PARSE_FLOAT (doublevalue : Nat)
deriving DecidableEq, Repr

/-- `parsenum`: the token read as an integer or a float.  `atof` is the C
library function, as the bit pattern of its result.  A token that matched
`g_regint` and starts with `0` is `0` or has `x`, `X`, `b` or `B` next; the
last branch, in which `intvalue` is not written, is not reached. -/
def parsenum (atof : List Char → Nat) (num : List Char) : ParseResult :=
  match g_regint num with
  | some res =>
    let is_ := res.getD 0 []
    if is_.head? = some '0' then
      if is_.length = 1 then ParseResult.PARSE_INT 0
      else if is_.getD 1 NUL = 'x' ∨ is_.getD 1 NUL = 'X' then
        ParseResult.PARSE_INT (to_int (strtol is_ 16))
      else if is_.getD 1 NUL = 'b' ∨ is_.getD 1 NUL = 'B' then
        ParseResult.PARSE_INT (to_int (strtol (res.getD 3 []) 2))
      else ParseResult.PARSE_INT 0
    else ParseResult.PARSE_INT (to_int (atoi is_))
  | none =>
    if g_regfloat num then ParseResult.PARSE_FLOAT (atof num) else ParseResult.PARSE_NIL

/-! ### Scopes -/

/-- `ScopeError::Result`. -/
inductive ScopeResult where
  | SCOPE_LEFT_OPEN
  | FAULTY_SCOPE_CLOSING
  | OK
deriving DecidableEq, Repr

/-- `ScopeError`: for a scope left open the character of the opening and where
it was; for a faulty closing the closing character and where it was.  The
fields besides `result` are not written for `OK`. -/
structure ScopeError where
  result : ScopeResult
  line : Int
  scope : Char
  char_on_line : Int
deriving DecidableEq, Repr

/-- `ScopeError()`. -/
def ScopeError.ok : ScopeError :=
  { result := ScopeResult.OK, line := 0, scope := NUL, char_on_line := 0 }

/-- `success()`. -/
def ScopeError.success (e : ScopeError) : Bool := e.result == ScopeResult.OK

/-- The loop `while(c < end)` of `check_scope` and the test after it.  `total`
is the length of the whole text, so that `total - c.length` is the position
of `c`; `expected_closing` is the stack, its top first, of the scope index
with the column and the line of the opening.  `none` when the loop has not
ended after `fuel` rounds. -/
def check_scope_loop (total : Nat) (comment scope_start scope_end : List Char) :
    Nat → List Char → Int → Int → List (Int × Int × Int) → Option ScopeError
  | 0, _, _, _, _ => none
  | fuel + 1, c, line_start_c, line_number, expected_closing =>
    if c.isEmpty then
      match expected_closing with
      | (scp, col, line) :: _ =>
        some { result := ScopeResult.SCOPE_LEFT_OPEN, line := line,
               scope := scope_start.getD scp.toNat NUL, char_on_line := col }
      | [] => some ScopeError.ok
    else
      let line_start1 : Int := if deref c = NEWLINE then (total - c.length : Nat) else line_start_c
      let skip := match_string comment c
      let c1 := if skip then to_newline c else c
      let line_start2 : Int := if skip then (total - c1.length : Nat) else line_start1
      let line_number1 := if skip then line_number + 1 else line_number
      let scope_start_index := pos_in_string (deref c1) scope_start
      let scope_end_index := pos_in_string (deref c1) scope_end
      let column : Int := (total - c1.length : Nat) - line_start2
      if deref c1 = DQUOTE then
        check_scope_loop total comment scope_start scope_end fuel
          (last_quote_of_string c1.tail).tail line_start2 line_number1 expected_closing
      else if scope_start_index ≥ 0 then
        check_scope_loop total comment scope_start scope_end fuel c1.tail line_start2
          line_number1 ((scope_start_index, column, line_number1) :: expected_closing)
      else if scope_end_index ≥ 0 then
        match expected_closing with
        | (top, _, _) :: rest =>
          if top = scope_end_index then
            check_scope_loop total comment scope_start scope_end fuel c1.tail line_start2
              line_number1 rest
          else
            some { result := ScopeResult.FAULTY_SCOPE_CLOSING, line := line_number1,
                   scope := deref c1, char_on_line := column }
        | [] =>
          some { result := ScopeResult.FAULTY_SCOPE_CLOSING, line := line_number1,
                 scope := deref c1, char_on_line := column }
      else
        check_scope_loop total comment scope_start scope_end fuel c1.tail line_start2
          line_number1 expected_closing

/-- `check_scope(begin, end, comment, scope_start, scope_end)`: verify that
the scope delimiters balance out. -/
def check_scope (text comment scope_start scope_end : List Char) : Option ScopeError :=
  check_scope_loop text.length comment scope_start scope_end (text.length + 1) text 0 0 []

/-- The openers `(`, `{` and `[` the parser passes to `check_scope`. -/
def SCOPE_START : List Char := ['(', Char.ofNat 123, '[']

/-- The closers `)`, `}` and `]` the parser passes to `check_scope`. -/
def SCOPE_END : List Char := [')', Char.ofNat 125, ']']

/-! ### Balanced text -/

/-- Where the masking of a text stands: in code, in a comment, in a string
literal, or after a backslash in a string literal. -/
inductive MaskMode where
  | code
  | comment
  | string
  | escaped

/-- The text without its string literals (from a `"` to the next unescaped `"`
or the end of the input) and without its comments (from `;` to the end of the
line). -/
def mask_text : MaskMode → List Char → List Char
  | _, [] => []
  | .code, c :: rest =>
    if c = ';' then mask_text .comment rest
    else if c = DQUOTE then mask_text .string rest
    else c :: mask_text .code rest
  | .comment, c :: rest =>
    if c = NEWLINE then c :: mask_text .code rest else mask_text .comment rest
  | .string, c :: rest =>
    if c = BACKSLASH then mask_text .escaped rest
    else if c = DQUOTE then mask_text .code rest
    else mask_text .string rest
  | .escaped, _ :: rest => mask_text .string rest

/-- Properly nested and matched `()`, `{}` and `[]`: the empty text; a
character that is no delimiter before a balanced text; a balanced text between
an opener and its closer, before a balanced text. -/
inductive Balanced : List Char → Prop where
  | nil : Balanced []
  | plain (c : Char) (s : List Char) : c ∉ SCOPE_START → c ∉ SCOPE_END → Balanced s →
      Balanced (c :: s)
  | scope (i : Nat) (o c : Char) (s t : List Char) : SCOPE_START[i]? = some o →
      SCOPE_END[i]? = some c → Balanced s → Balanced t → Balanced (o :: (s ++ c :: t))

/-- The stack walk over a text: an opener pushes its index, a closer must
find its index on top. -/
def scope_walk : List Int → List Char → Bool
  | stack, [] => stack.isEmpty
  | stack, c :: rest =>
    if pos_in_string c SCOPE_START ≥ 0 then scope_walk (pos_in_string c SCOPE_START :: stack) rest
    else if pos_in_string c SCOPE_END ≥ 0 then
      match stack with
      | top :: below => if top = pos_in_string c SCOPE_END then scope_walk below rest else false
      | [] => false
    else scope_walk stack rest

/-- What is left to read when the stack walk has openers pending: for every
index on the stack a balanced text and the closer of that index, then a
balanced text. -/
def Closes : List Int → List Char → Prop
  | [], s => Balanced s
  | i :: stack, s =>
    ∃ b c t, s = b ++ c :: t ∧ Balanced b ∧ SCOPE_END[i.toNat]? = some c ∧ Closes stack t

/-! ### Scopes left open -/

/-- A text that leaves scopes open or none: balanced texts and openers, in
any order. -/
inductive OpenPrefix : List Char → Prop where
  | nil : OpenPrefix []
  | balanced (s u : List Char) : Balanced s → OpenPrefix u → OpenPrefix (s ++ u)
  | opener (i : Nat) (o : Char) (u : List Char) : SCOPE_START[i]? = some o → OpenPrefix u →
      OpenPrefix (o :: u)

/-- A character of a text without string literals, comments and line breaks. -/
def plain_char (c : Char) : Prop := c ≠ DQUOTE ∧ c ≠ ';' ∧ c ≠ NEWLINE

/-! ## The values of the interpreter (masp.h, orb.cpp)

The second model of `Value`, for the parser and the evaluator: a list is
given by its elements (a `PListPool` list is never written after it was made),
a map by its handle into the trie of `PMapPool`, whose collision lists stay in
the store of the pool.  The text of a string or a symbol is its list of
characters. -/

namespace Orb

/-- The functions of the C library, of the machine and of math_tools.h that
orb.cpp uses and that are not part of the sources: `hash32` of a string,
`atof`, the text `operator<<` writes for a `double`, and the conversions and
the arithmetic of `double`.  A `double` is given by its bit pattern. -/
structure Library where
  hash32 : List Char → Nat
  atof : List Char → Nat
  print_double : Nat → List Char
  int_to_double : Int → Nat
  double_to_int : Nat → Int
  double_add : Nat → Nat → Nat
  double_sub : Nat → Nat → Nat
  double_mul : Nat → Nat → Nat
  double_div : Nat → Nat → Nat
  double_less : Nat → Nat → Bool

/-- The native operators that `load_default_env` binds (a `PrimitiveFunction`
is one of them). -/
inductive Primitive where
  | op_add | op_sub | op_mul | op_div
  | op_make_range
  | op_equal | op_not_equal | op_less | op_gt | op_less_or_eq | op_gt_or_eq
  | op_first | op_ffirst | op_next | op_fnext | op_nnext | op_nfirst
  | op_value_is_integer | op_value_is_float | op_value_is_string | op_value_is_boolean
  | op_value_is_symbol | op_value_is_map | op_value_is_vector | op_value_is_list
  | op_value_is_fn | op_value_is_object
  | op_make_map | op_make_vector
  | op_count | op_cons | op_conj | op_iter | op_map
  | op_insert_data | op_remove_data | op_map_keys | op_map_vals
  | op_println | op_printf | op_str
  | file_to_string | string_to_file | op_import_file
deriving DecidableEq, Repr

/-- Masp value (`Value`): the `type` tag with the member of the union that
belongs to it. -/
inductive Value where
  | NIL
  | BOOLEAN (boolean : Bool)
  | NUMBER (number : Number)
  | NUMBER_ARRAY (number_array : List Number)
  | STRING (string : List Char)
  | SYMBOL (string : List Char)
  | VECTOR (vector : List Value)
  | LIST (list : List Value)
  | MAP (map : Map Value Value)
  | OBJECT (object : Nat)
  | FUNCTION (function : Primitive)

/-- `enum Type`, the tag of a value. -/
inductive TypeTag where
  | NIL | BOOLEAN | NUMBER | NUMBER_ARRAY | STRING | SYMBOL | VECTOR | LIST | MAP | OBJECT
  | FUNCTION
deriving DecidableEq, Repr

/-- The member `type` of a value. -/
def Value.type : Value → TypeTag
  | .NIL => .NIL
  | .BOOLEAN _ => .BOOLEAN
  | .NUMBER _ => .NUMBER
  | .NUMBER_ARRAY _ => .NUMBER_ARRAY
  | .STRING _ => .STRING
  | .SYMBOL _ => .SYMBOL
  | .VECTOR _ => .VECTOR
  | .LIST _ => .LIST
  | .MAP _ => .MAP
  | .OBJECT _ => .OBJECT
  | .FUNCTION _ => .FUNCTION

/-- `make_value_symbol(str)`. -/
def make_value_symbol (str : String) : Value := Value.SYMBOL str.toList

/-- `Value::is_str`: a string or a symbol with the text `str`. -/
def Value.is_str (v : Value) (str : String) : Bool :=
  match v with
  | .STRING s => s == str.toList
  | .SYMBOL s => s == str.toList
  | _ => false

/-- `symbol_value_is`. -/
def symbol_value_is (v : Value) (str : String) : Bool :=
  match v with
  | .SYMBOL s => s == str.toList
  | _ => false

/-- `value_list`: the list of a `LIST` value, else null. -/
def value_list : Value → Option (List Value)
  | .LIST l => some l
  | _ => none

/-- `value_map`: the map of a `MAP` value, else null. -/
def value_map : Value → Option (Map Value Value)
  | .MAP m => some m
  | _ => none

/-- `value_list_first`: the first element of a non-empty list, else null. -/
def value_list_first (v : Value) : Option Value :=
  match value_list v with
  | some (x :: _) => some x
  | _ => none

/-- `value_list_nth`: the element `n` of a list, else null. -/
def value_list_nth (v : Value) (n : Nat) : Option Value :=
  match value_list v with
  | some l => l[n]?
  | none => none

/-- `value_list_second`. -/
def value_list_second (v : Value) : Option Value := value_list_nth v 1

/-- `value_list_third`. -/
def value_list_third (v : Value) : Option Value := value_list_nth v 2

/-! ### Equality and hash of values -/

/-- A `double` given by its bit pattern is a NaN. -/
def double_is_nan (bits : Nat) : Bool :=
  (bits / 2 ^ 52) % 2048 == 2047 && bits % 2 ^ 52 != 0

/-- The comparison `==` of two `double`s given by their bit patterns: no NaN
is equal to anything, the two zeros are equal, other values are equal when
their bits are. -/
def double_equal (a b : Nat) : Bool :=
  !double_is_nan a && !double_is_nan b && (a == b || (a % 2 ^ 63 == 0 && b % 2 ^ 63 == 0))

/-- `Number::operator==`. -/
def Number.equal : Number → Number → Bool
  | .INT a, .INT b => a == b
  | .FLOAT a, .FLOAT b => double_equal a b
  | _, _ => false

/-- `operator==` of `NumberArray`, a `std::vector<Number>`. -/
def number_array_equal : List Number → List Number → Bool
  | [], [] => true
  | a :: x, b :: y => Number.equal a b && number_array_equal x y
  | _, _ => false

/-- `hash_of_number`: `*((uint32_t*) &n)`, the first four bytes of the
number, which are the `int` or the low half of the `double` (the bytes of a
little-endian machine). -/
def hash_of_number : Number → Nat
  | .INT i => (i % 4294967296).toNat
  | .FLOAT bits => bits % U32

/-- `accum_number_hash`. -/
def accum_number_hash (p : Nat) (n : Number) : Nat := (p * hash_of_number n) % U32

/-- A value that holds no other values: not a vector, a list or a map. -/
def Value.is_atom : Value → Bool
  | .VECTOR _ => false
  | .LIST _ => false
  | .MAP _ => false
  | _ => true

/-- `Value::operator==` where one of the two values holds no other values:
false for different types, for two objects and for two functions. -/
def Value.equal_flat : Value → Value → Bool
  | .NIL, .NIL => true
  | .BOOLEAN a, .BOOLEAN b => a == b
  | .NUMBER a, .NUMBER b => Number.equal a b
  | .NUMBER_ARRAY a, .NUMBER_ARRAY b => number_array_equal a b
  | .STRING a, .STRING b => a == b
  | .SYMBOL a, .SYMBOL b => a == b
  | _, _ => false

/-- `Value::get_hash` of a value that holds no other values (0 is the start
value `h` that the branches for the other types write over). -/
def Value.get_hash_flat (lib : Library) : Value → Nat
  | .BOOLEAN b => if b then 1 else 0
  | .NIL => 4294967295
  | .NUMBER n => hash_of_number n
  | .NUMBER_ARRAY a => a.foldl accum_number_hash 0
  | .STRING s => lib.hash32 s % U32
  | .SYMBOL s => lib.hash32 s % U32
  | _ => 0

/-- `List::operator==` over the elements of the two lists: the first pair
that differs ends the loop; `eq` is `operator==` of the elements. -/
def list_equal (eq : Value → Value → Option Bool) : List Value → List Value → Option Bool
  | [], [] => some true
  | a :: x, b :: y =>
    match eq a b with
    | none => none
    | some false => some false
    | some true => list_equal eq x y
  | _, _ => some false

/-- The loop of `Map::operator==` over the cells of `this`, with `operator==`
of the values given by `eq`.  The keys are looked up in `m`; a key that holds
other values is not modelled (`none`). -/
def map_equal_loop (lib : Library) (eq : Value → Value → Option Bool)
    (pool : PMapPool Value Value) (m : Map Value Value) :
    List (KeyValue Value Value) → Option Bool
  | [] => some true
  | i :: rest =>
    if !i.first.is_atom then none
    else
      match m.try_get_value Value.equal_flat (Value.get_hash_flat lib) pool i.first with
      | none => some false
      | some opt =>
        match eq opt i.second with
        | none => none
        | some false => some false
        | some true => map_equal_loop lib eq pool m rest

/-- `Value::operator==`; `none` when the values are nested deeper than the
fuel or the iteration of a map does not end. -/
def Value.equal (lib : Library) (pool : PMapPool Value Value) : Nat → Value → Value → Option Bool
  | 0, _, _ => none
  | fuel + 1, a, b =>
    match a, b with
    | .VECTOR x, .VECTOR y =>
      if x.length ≠ y.length then some false else list_equal (Value.equal lib pool fuel) x y
    | .LIST x, .LIST y => list_equal (Value.equal lib pool fuel) x y
    | .MAP x, .MAP y =>
      match Map.elements pool x with
      | none => none
      | some cells => map_equal_loop lib (Value.equal lib pool fuel) pool y cells
    | a, b => some (Value.equal_flat a b)

/-- `fold_left(orig, accum_value_hash, c)`: `p * v.get_hash()` over the
elements, `hash` being `get_hash`. -/
def fold_value_hash (hash : Value → Option Nat) : Nat → List Value → Option Nat
  | p, [] => some p
  | p, v :: rest =>
    match hash v with
    | none => none
    | some h => fold_value_hash hash ((p * h) % U32) rest

/-- The loop of `get_hash` over the cells of a map:
`accum = accum_value_hash(accum_value_hash(accum, i->first), i->second)`. -/
def fold_map_hash (hash : Value → Option Nat) : Nat → List (KeyValue Value Value) → Option Nat
  | accum, [] => some accum
  | accum, i :: rest =>
    match hash i.first with
    | none => none
    | some h1 =>
      match hash i.second with
      | none => none
      | some h2 => fold_map_hash hash ((((accum * h1) % U32) * h2) % U32) rest

/-- `Value::get_hash`; `none` when the value is nested deeper than the fuel or
the iteration of a map does not end. -/
def Value.get_hash (lib : Library) (pool : PMapPool Value Value) : Nat → Value → Option Nat
  | 0, _ => none
  | fuel + 1, v =>
    match v with
    | .VECTOR x => fold_value_hash (Value.get_hash lib pool fuel) 0 x
    | .LIST x => fold_value_hash (Value.get_hash lib pool fuel) 0 x
    | .MAP m =>
      match Map.elements pool m with
      | none => none
      | some cells => fold_map_hash (Value.get_hash lib pool fuel) 0 cells
    | v => some (Value.get_hash_flat lib v)

mutual
/-- No map occurs in the value. -/
def Value.map_free : Value → Bool
  | .VECTOR x => Value.map_free_list x
  | .LIST x => Value.map_free_list x
  | .MAP _ => false
  | _ => true
/-- No map occurs in the values of a list. -/
def Value.map_free_list : List Value → Bool
  | [] => true
  | v :: rest => Value.map_free v && Value.map_free_list rest
end

mutual
/-- How deep vectors and lists are nested in a value without maps. -/
def Value.depth : Value → Nat
  | .VECTOR x => Value.depth_list x + 1
  | .LIST x => Value.depth_list x + 1
  | _ => 0
/-- The largest depth of the values of a list. -/
def Value.depth_list : List Value → Nat
  | [] => 0
  | v :: rest => max (Value.depth v) (Value.depth_list rest)
end

end Orb

/-! ## The parser (class `ValueParser`) and the printer -/

/-- The text `operator<<` writes for an `int`. -/
def int_to_string (i : Int) : List Char :=
  if i < 0 then '-' :: Nat.toDigits 10 i.natAbs else Nat.toDigits 10 i.natAbs

/-- `ScopeError::report`. -/
def ScopeError.report (e : ScopeError) : List Char :=
  match e.result with
  | .OK => "Scope ok".toList
  | .SCOPE_LEFT_OPEN =>
    "Scope ".toList ++ [e.scope] ++ "at character ".toList ++ int_to_string e.char_on_line ++
      " at line ".toList ++ int_to_string e.line ++ " not closed.".toList
  | .FAULTY_SCOPE_CLOSING =>
    "Excess scope closing ".toList ++ [e.scope] ++ " at character ".toList ++
      int_to_string e.char_on_line ++ " at line ".toList ++ int_to_string e.line ++ ".".toList

namespace Orb

/-- What a call gives: no result (`none`: the fuel of the model did not last,
or the behaviour is undefined), an `EvaluationException` with its message, or
a value. -/
abbrev Outcome (α : Type) := Option (Except (List Char) α)

/-- Go on with the value of a call that returned. -/
def Outcome.bind {α β : Type} (x : Outcome α) (f : α → Outcome β) : Outcome β :=
  match x with
  | none => none
  | some (.error e) => some (.error e)
  | some (.ok a) => f a

/-- `throw EvaluationException(msg)`. -/
def throw_exception {α : Type} (msg : List Char) : Outcome α := some (.error msg)

/-- `orb_result`, an `AnnotatedResult<ValuePtr>`: a valid value, or the
message of a failure. -/
abbrev orb_result := Except (List Char) Value

/-- `orb_fail(str)`. -/
def orb_fail (str : List Char) : orb_result := .error str

/-- `orb_result::valid()`. -/
def orb_result.valid : orb_result → Bool
  | .ok _ => true
  | .error _ => false

/-- The loop `while(!is_space(*end) && (! is_delimiter(*end)) && *end) end++`
of `parse_number` and `parse_symbol`: the text from the end of the token on. -/
def token_end : List Char → List Char
  | [] => []
  | x :: rest =>
    if !is_space x && !is_delimiter x && x ≠ NUL then token_end rest else x :: rest

/-- `parse_number`: the number the text starts with and the text after it
(where `get_value` goes on), or false. -/
def parse_number (lib : Library) (c : List Char) : Option (Number × List Char) :=
  let is_prefix_ := decide (deref c = '+' ∨ deref c = '-')
  let next_is_num := decide (2 ≤ c.length) && is_digit (c.getD 1 NUL)
  if is_digit (deref c) || (is_prefix_ && next_is_num) then
    let end_ := token_end c.tail
    match parsenum lib.atof (c.take (c.length - end_.length)) with
    | .PARSE_NIL => none
    | .PARSE_INT intvalue => some (Number.INT intvalue, end_)
    | .PARSE_FLOAT floatvalue => some (Number.FLOAT floatvalue, end_)
  else none

/-- `parse_symbol`: the token the text starts with and the text after it. -/
def parse_symbol (c : List Char) : List Char × List Char :=
  let last := token_end c.tail
  (c.take (c.length - last.length), last)

/-- The character an escape in a string stands for. -/
def escaped_char (c : Char) : Char :=
  if c = 'n' then Char.ofNat 10
  else if c = 'r' then Char.ofNat 13
  else if c = 't' then Char.ofNat 9
  else if c = 'b' then Char.ofNat 8
  else if c = 'f' then Char.ofNat 12
  else c

/-- The loop of `format_string`; the flag is `prevskip`. -/
def format_string_loop : Bool → List Char → List Char
  | _, [] => []
  | true, c :: rest => escaped_char c :: format_string_loop false rest
  | false, c :: rest =>
    if c = BACKSLASH then format_string_loop true rest else c :: format_string_loop false rest

/-- `format_string(begin, end)`: the text of a string literal with its
escapes replaced. -/
def format_string (s : List Char) : List Char := format_string_loop false s

/-- `rewrite_defn`: `(defn name params body...)` becomes
`(def name (fn params body...))`. -/
def rewrite_defn (build_list : List Value) : Except (List Char) (List Value) :=
  if build_list.length < 4 then
    .error "recursive_parse: defn must contain at least 3 params.".toList
  else
    .ok [make_value_symbol "def", build_list.getD 1 Value.NIL,
      Value.LIST (make_value_symbol "fn" :: build_list.drop 2)]

/-- `rewrite_member_call`: `(. fun obj params...)` becomes
`(((fnext obj) fun) (first obj) params...)`. -/
def rewrite_member_call (build_list : List Value) : Except (List Char) (List Value) :=
  if build_list.length < 3 then
    .error "recursive_parse: member call must contain at least 3 params.".toList
  else
    let funname := build_list.getD 1 Value.NIL
    let obj := build_list.getD 2 Value.NIL
    .ok (Value.LIST [Value.LIST [make_value_symbol "fnext", obj], funname] ::
      Value.LIST [make_value_symbol "first", obj] :: build_list.drop 3)

/-- The part of `recursive_parse` after its loop: the elements of the list
that was read, rewritten when they start with `defn` or with `.`. -/
def recursive_parse_finish (build_list : List Value) (next_is_quoted : Bool) :
    Except (List Char) (List Value) :=
  if next_is_quoted then .error "Quote cannot be empty.".toList
  else
    match build_list with
    | front :: _ =>
      if front.is_str "defn" then rewrite_defn build_list
      else if front.is_str "." then rewrite_member_call build_list
      else .ok build_list
    | [] => .ok build_list

mutual
/-- `get_value` at the text `c`, which is not at its end: the value read and
the text after it. -/
def get_value (lib : Library) : Nat → List Char → Outcome (Value × List Char)
  | 0, _ => none
  | fuel + 1, c =>
    if deref c = DQUOTE then
      let first := c.tail
      let last := last_quote_of_string first
      some (.ok (Value.STRING (format_string (first.take (first.length - last.length))),
        last.tail))
    else if deref c = '(' then
      (recursive_parse lib fuel c.tail).bind fun r => some (.ok (Value.LIST r.1, r.2))
    else if deref c = '[' then
      (recursive_parse lib fuel c.tail).bind fun r =>
        some (.ok (Value.LIST (make_value_symbol "make-vector" :: r.1), r.2))
    else if deref c = Char.ofNat 123 then
      (recursive_parse lib fuel c.tail).bind fun r =>
        some (.ok (Value.LIST (make_value_symbol "make-map" :: r.1), r.2))
    else
      match parse_number lib c with
      | some (tmp_number, rest) => some (.ok (Value.NUMBER tmp_number, rest))
      | none =>
        let sym := parse_symbol c
        if match_range sym.1 "nil".toList then some (.ok (Value.NIL, sym.2))
        else if match_range sym.1 "true".toList then some (.ok (Value.BOOLEAN true, sym.2))
        else if match_range sym.1 "false".toList then some (.ok (Value.BOOLEAN false, sym.2))
        else some (.ok (Value.SYMBOL sym.1, sym.2))
/-- `recursive_parse` at the text `c`: the elements written to the list
`root` and the text after the list. -/
def recursive_parse (lib : Library) : Nat → List Char → Outcome (List Value × List Char)
  | 0, _ => none
  | fuel + 1, c =>
    (recursive_parse_loop lib fuel c [] false).bind fun r =>
      match recursive_parse_finish r.1 r.2.1 with
      | .error e => some (.error e)
      | .ok l => some (.ok (l, r.2.2))
/-- The loop `while(! at_end())` of `recursive_parse`: `build_list`, the flag
`next_is_quoted` and the text when the loop is left. -/
def recursive_parse_loop (lib : Library) :
    Nat → List Char → List Value → Bool → Outcome (List Value × Bool × List Char)
  | 0, _, _, _ => none
  | fuel + 1, c, build_list, next_is_quoted =>
    if c.isEmpty then some (.ok (build_list, next_is_quoted, c))
    else if deref c = ';' then
      let c1 := to_newline c
      recursive_parse_loop lib fuel (if c1.isEmpty then c1 else c1.tail) build_list
        next_is_quoted
    else if deref c = ')' ∨ deref c = ']' ∨ deref c = Char.ofNat 125 then
      some (.ok (build_list, next_is_quoted, c.tail))
    else if is_space (deref c) then
      recursive_parse_loop lib fuel c.tail build_list next_is_quoted
    else if deref c = SQUOTE then
      recursive_parse_loop lib fuel c.tail build_list true
    else
      (get_value lib fuel c).bind fun r =>
        if next_is_quoted then
          recursive_parse_loop lib fuel r.2
            (build_list ++ [Value.LIST [make_value_symbol "quote", r.1]]) false
        else recursive_parse_loop lib fuel r.2 (build_list ++ [r.1]) next_is_quoted
end

/-- `ValueParser::parse`: the scopes are checked, the text is read as the
elements of the root list, and `begin` is put before them.  The fuel is enough
for every text. -/
def ValueParser.parse (lib : Library) (str : List Char) : Option orb_result :=
  match check_scope str [';'] SCOPE_START SCOPE_END with
  | none => none
  | some scope_result =>
    if !scope_result.success then some (orb_fail scope_result.report)
    else
      match recursive_parse lib (3 * str.length + 3) str with
      | none => none
      | some (.error e) => some (orb_fail e)
      | some (.ok root) => some (.ok (Value.LIST (make_value_symbol "begin" :: root.1)))

/-- `string_to_value`: parse string to value data structure. -/
def string_to_value (lib : Library) (str : List Char) : Option orb_result :=
  ValueParser.parse lib str

/-! ### Printing -/

/-- The loop of `value_to_string_helper` over the elements of a list or a
vector: every element is followed by a blank. -/
def elements_to_string (to_string : Value → Option (List Char)) :
    List Value → Option (List Char)
  | [] => some []
  | v :: rest =>
    match to_string v with
    | none => none
    | some s =>
      match elements_to_string to_string rest with
      | none => none
      | some t => some (s ++ ' ' :: t)

/-- The loop of `value_to_string_helper` over the cells of a map: the key, a
blank, the value, a blank. -/
def cells_to_string (to_string : Value → Option (List Char)) :
    List (KeyValue Value Value) → Option (List Char)
  | [] => some []
  | m :: rest =>
    match to_string m.first, to_string m.second with
    | some k, some v =>
      match cells_to_string to_string rest with
      | none => none
      | some t => some (k ++ ' ' :: (v ++ ' ' :: t))
    | _, _ => none

/-- `value_type_to_string`: return type of value as string. -/
def value_type_to_string : Value → List Char
  | .NUMBER (.INT _) => "NUMBER:INT".toList
  | .NUMBER (.FLOAT _) => "NUMBER:FLOAT".toList
  | .STRING _ => "STRING".toList
  | .BOOLEAN _ => "BOOLEAN".toList
  | .NIL => []
  | .SYMBOL _ => "SYMBOL".toList
  | .VECTOR _ => "VECTOR".toList
  | .LIST _ => "LIST".toList
  | .MAP _ => "MAP".toList
  | .OBJECT _ => "OBJECT".toList
  | .NUMBER_ARRAY _ => "NUMBER ARRAY".toList
  | .FUNCTION _ => "FUNCTION".toList

/-- What `out()` writes before the text of a value: with a `prfx` the type of
the value and a blank. -/
def out_prfx (typed : Bool) (v : Value) : List Char :=
  if typed then value_type_to_string v ++ [' '] else []

/-- `value_to_string_helper`; `typed` tells that `prfx` is
`value_type_to_string`.  `none` when the value is nested deeper than the
fuel, when the iteration of a map does not end, and for a number array, for
which the function asserts. -/
def value_to_string_helper (lib : Library) (pool : PMapPool Value Value) (typed : Bool) :
    Nat → Value → Option (List Char)
  | 0, _ => none
  | fuel + 1, v =>
    match v with
    | .NIL => some (out_prfx typed v ++ "nil".toList)
    | .BOOLEAN b => some (out_prfx typed v ++ (if b then "true".toList else "false".toList))
    | .NUMBER (.INT i) => some (out_prfx typed v ++ int_to_string i)
    | .NUMBER (.FLOAT d) => some (out_prfx typed v ++ lib.print_double d)
    | .SYMBOL s => some (out_prfx typed v ++ s)
    | .STRING s => some (out_prfx typed v ++ DQUOTE :: (s ++ [DQUOTE]))
    | .LIST l =>
      (elements_to_string (value_to_string_helper lib pool typed fuel) l).map fun s =>
        out_prfx typed v ++ '(' :: (s ++ [')'])
    | .MAP m =>
      match Map.elements pool m with
      | none => none
      | some cells =>
        (cells_to_string (value_to_string_helper lib pool typed fuel) cells).map fun s =>
          out_prfx typed v ++ Char.ofNat 123 :: (s ++ [Char.ofNat 125])
    | .VECTOR l =>
      (elements_to_string (value_to_string_helper lib pool typed fuel) l).map fun s =>
        out_prfx typed v ++ '[' :: (s ++ [']'])
    | .FUNCTION _ => some (out_prfx typed v ++ "<function>".toList)
    | .OBJECT _ => some (out_prfx typed v ++ "<object>".toList)
    | .NUMBER_ARRAY _ => none

/-- `value_to_string`: return string representation of value. -/
def value_to_string (lib : Library) (pool : PMapPool Value Value) (fuel : Nat) (v : Value) :
    Option (List Char) :=
  value_to_string_helper lib pool false fuel v

/-- `value_to_typed_string`: return string representation of value annotated
with type. -/
def value_to_typed_string (lib : Library) (pool : PMapPool Value Value) (fuel : Nat)
    (v : Value) : Option (List Char) :=
  value_to_string_helper lib pool true fuel v

/-- The values of the round trip through the printer and the parser: nil, a
boolean, an `int`, and a string without `"` and backslash that is not one of
the texts `defn` and `.`. -/
def Value.plain : Value → Prop
  | .NIL => True
  | .BOOLEAN _ => True
  | .NUMBER (.INT i) => -2147483648 ≤ i ∧ i < 2147483648
  | .STRING s => DQUOTE ∉ s ∧ BACKSLASH ∉ s ∧ s ≠ "defn".toList ∧ s ≠ ".".toList
  | _ => False

end Orb

/-! ## The evaluator (orb.cpp)

`eval` and `apply` after the evaluator of section 4.1.1 of 'Structure and
Interpretation of Computer Programs'.  The state of the runtime is the pool of
the maps, the root environment and the text written to the output; a
`Map& env` is modelled by the map that comes in and the map that goes out. -/

namespace Orb

/-- The state of `Orb::Env`: the pool of the maps, the root environment
`env_` and the text written to `out_`. -/
structure Env where
  map_pool_ : PMapPool Value Value
  env_ : Map Value Value
  out_ : List Char

/-! ### Maps of values

`MapPool` is `PMapPool<Value, Value, ValuesAreEqual, ValueHash>`: keys are
compared with `operator==` and hashed with `get_hash`, which for a key that
holds no other values are `equal_flat` and `get_hash_flat`.  A call whose key
is a list, a vector or a map is not modelled (`none`). -/

/-- `Map::add(key, value)` for the maps of values. -/
def map_add (lib : Library) (pool : PMapPool Value Value) (m : Map Value Value)
    (key value : Value) : Option (PMapPool Value Value × Map Value Value) :=
  if key.is_atom then Map.add Value.equal_flat (Value.get_hash_flat lib) pool m key value
  else none

/-- `Map::try_get_value(key)` for the maps of values. -/
def map_try_get_value (lib : Library) (pool : PMapPool Value Value) (m : Map Value Value)
    (key : Value) : Option (Option Value) :=
  if key.is_atom then
    some (Map.try_get_value Value.equal_flat (Value.get_hash_flat lib) pool m key)
  else none

/-- `PMapPool::add(old, i_key, key_end, i_value, value_end)`: the keys and
the values are added in pairs as long as both ranges last. -/
def map_add_range (lib : Library) :
    PMapPool Value Value → Map Value Value → List Value → List Value →
      Option (PMapPool Value Value × Map Value Value)
  | pool, new_root, i_key :: keys, i_value :: values =>
    match map_add lib pool new_root i_key i_value with
    | none => none
    | some r => map_add_range lib r.1 r.2 keys values
  | pool, new_root, _, _ => some (pool, new_root)

/-- `PMapPool::add(old, i_elems, elems_end)`: the elements are added as
keys and values in turn.  With an odd number of elements the iterator is
moved past the end (`none`). -/
def map_add_elems (lib : Library) :
    PMapPool Value Value → Map Value Value → List Value →
      Option (PMapPool Value Value × Map Value Value)
  | pool, new_root, [] => some (pool, new_root)
  | _, _, [_] => none
  | pool, new_root, first :: second :: rest =>
    match map_add lib pool new_root first second with
    | none => none
    | some r => map_add_elems lib r.1 r.2 rest

/-! ### Numbers -/

/-- `Number::to_int`. -/
def Number.to_int (lib : Library) : Number → Int
  | .INT i => i
  | .FLOAT d => lib.double_to_int d

/-- `Number::to_float`. -/
def Number.to_float (lib : Library) : Number → Nat
  | .INT i => lib.int_to_double i
  | .FLOAT d => d

/-- A number is a `FLOAT`. -/
def Number.is_float : Number → Bool
  | .FLOAT _ => true
  | .INT _ => false

/-- `Number::operator+=`; the sum of two `int`s is taken modulo `2 ^ 32`. -/
def Number.add (lib : Library) (a n : Number) : Number :=
  if Number.is_float a || Number.is_float n then
    .FLOAT (lib.double_add (Number.to_float lib a) (Number.to_float lib n))
  else .INT (orb.to_int (Number.to_int lib a + Number.to_int lib n))

/-- `Number::operator*=`; the product of two `int`s is taken modulo `2 ^ 32`. -/
def Number.mul (lib : Library) (a n : Number) : Number :=
  if Number.is_float a || Number.is_float n then
    .FLOAT (lib.double_mul (Number.to_float lib a) (Number.to_float lib n))
  else .INT (orb.to_int (Number.to_int lib a * Number.to_int lib n))

/-- `Number::operator/=`.  The quotient of two `int`s is the C++ `/`, which
rounds towards zero and whose behaviour is not defined for the divisor 0 and
for `INT_MIN / -1` (`none`). -/
def Number.div (lib : Library) (a n : Number) : Option Number :=
  if Number.is_float a || Number.is_float n then
    some (.FLOAT (lib.double_div (Number.to_float lib a) (Number.to_float lib n)))
  else if Number.to_int lib n = 0 then none
  else if Number.to_int lib a = -2147483648 ∧ Number.to_int lib n = -1 then none
  else some (.INT (Int.tdiv (Number.to_int lib a) (Number.to_int lib n)))

/-- `Number::operator<`. -/
def Number.less (lib : Library) (a n : Number) : Bool :=
  if Number.is_float a || Number.is_float n then
    lib.double_less (Number.to_float lib a) (Number.to_float lib n)
  else decide (Number.to_int lib a < Number.to_int lib n)

/-- `Number::operator>`; for two `double`s, `a > n` is `n < a`. -/
def Number.greater (lib : Library) (a n : Number) : Bool :=
  if Number.is_float a || Number.is_float n then
    lib.double_less (Number.to_float lib n) (Number.to_float lib a)
  else decide (Number.to_int lib a > Number.to_int lib n)

/-- `value_number`: the number of a `NUMBER`, else 0. -/
def value_number : Value → Number
  | .NUMBER n => n
  | _ => .INT 0

/-- `all_are_of_type(begin, end, NUMBER, 0)`. -/
def all_are_numbers (args : List Value) : Bool :=
  args.all fun v => decide (v.type = TypeTag.NUMBER)

/-! ### Evaluation utilities -/

/-- `is_self_evaluating`. -/
def is_self_evaluating (v : Value) : Bool :=
  match v with
  | .NUMBER _ => true
  | .STRING _ => true
  | .MAP _ => true
  | .NIL => true
  | .BOOLEAN _ => true
  | .NUMBER_ARRAY _ => true
  | .VECTOR _ => true
  | .FUNCTION _ => true
  | _ => false

/-- `is_tagged_list`: the value is a list whose first element is the symbol
`symname`. -/
def is_tagged_list (v : Value) (symname : String) : Bool :=
  match value_list_first v with
  | some first => symbol_value_is first symname
  | none => false

/-- `is_quoted`. -/
def is_quoted (v : Value) : Bool := is_tagged_list v "quote"

/-- `is_assignment`. -/
def is_assignment (v : Value) : Bool := is_tagged_list v "def"

/-- `is_reassignment`. -/
def is_reassignment (v : Value) : Bool := is_tagged_list v "set"

/-- `is_if`. -/
def is_if (v : Value) : Bool := is_tagged_list v "if"

/-- `is_lambda`. -/
def is_lambda (v : Value) : Bool := is_tagged_list v "fn"

/-- `is_begin`. -/
def is_begin (v : Value) : Bool := is_tagged_list v "begin"

/-- `is_cond`. -/
def is_cond (v : Value) : Bool := is_tagged_list v "cond"

/-- `is_else`. -/
def is_else (v : Value) : Bool := is_tagged_list v "else"

/-- `is_application`. -/
def is_application (v : Value) : Bool := decide (v.type = TypeTag.LIST)

/-- `is_primitive_procedure`. -/
def is_primitive_procedure (v : Value) : Bool := decide (v.type = TypeTag.FUNCTION)

/-- `is_compound_procedure`. -/
def is_compound_procedure (v : Value) : Bool := is_tagged_list v "procedure"

/-- `is_true`: everything but nil and false. -/
def is_true (v : Value) : Bool :=
  match v with
  | .NIL => false
  | .BOOLEAN b => b
  | _ => true

/-- `assignment_var`. -/
def assignment_var (v : Value) : Option Value := value_list_second v

/-- `assignment_value`. -/
def assignment_value (v : Value) : Option Value := value_list_third v

/-- The text of a string or a symbol. -/
def value_string : Value → List Char
  | .STRING s => s
  | .SYMBOL s => s
  | _ => []

/-- `throw EvaluationException(msg + value_to_string(v))`. -/
def throw_with_value {α : Type} (lib : Library) (orb : Env) (fuel : Nat) (msg : String)
    (v : Value) : Outcome α :=
  match value_to_string lib orb.map_pool_ fuel v with
  | none => none
  | some s => some (.error (msg.toList ++ s))

/-- `sequence_exp`: no action gives the empty list, one action that action,
more actions the list `(begin action...)`. -/
def sequence_exp (action : List Value) : Value :=
  match action with
  | [] => Value.LIST action
  | [first] => first
  | _ => Value.LIST (make_value_symbol "begin" :: action)

/-- `expand_clauses` (cond: expand-clauses): the nested `if` for the clauses
of a `cond`.  A clause that is the empty list has no predicate to read
(`none`). -/
def expand_clauses (lib : Library) (orb : Env) (fuel : Nat) : List Value → Outcome Value
  | [] => some (.ok Value.NIL)
  | first :: rest =>
    if is_else first then
      if rest.isEmpty then some (.ok (sequence_exp ((value_list first).getD []).tail))
      else throw_exception "expand_clauses: ELSE clause isn't last - COND->iF".toList
    else if first.type ≠ TypeTag.LIST then
      throw_with_value lib orb fuel "expand_clauses: element is not a list as expected but:" first
    else if rest.isEmpty then
      throw_exception ("expand_clauses: Final case in cond is not an else case. Cond " ++
        "expression requires for else case to be final expression: " ++
        "(cond (... ...) (else ...)).").toList
    else
      match value_list_first first with
      | none => none
      | some pred =>
        let seq := sequence_exp ((value_list first).getD []).tail
        (expand_clauses lib orb fuel rest).bind fun clauses =>
          some (.ok (Value.LIST [make_value_symbol "if", pred, seq, clauses]))

/-- `convert_cond_to_if` (cond: cond->if). -/
def convert_cond_to_if (lib : Library) (orb : Env) (fuel : Nat) (v : Value) : Outcome Value :=
  expand_clauses lib orb fuel ((value_list v).getD []).tail

/-! ### Native operators -/

/-- `op_add`. -/
def op_add (lib : Library) (args : List Value) : Outcome Value :=
  if !all_are_numbers args then throw_exception "op_add: value's type is not NUMBER".toList
  else some (.ok (Value.NUMBER
    (args.foldl (fun n arg => Number.add lib n (value_number arg)) (Number.INT 0))))

/-- `op_mul`. -/
def op_mul (lib : Library) (args : List Value) : Outcome Value :=
  if !all_are_numbers args then throw_exception "op_mul: value's type is not NUMBER".toList
  else some (.ok (Value.NUMBER
    (args.foldl (fun n arg => Number.mul lib n (value_number arg)) (Number.INT 1))))

/-- The loop of `op_div`: the number is divided by the arguments in turn. -/
def div_loop (lib : Library) : Number → List Value → Option Number
  | n, [] => some n
  | n, arg :: rest =>
    match Number.div lib n (value_number arg) with
    | none => none
    | some q => div_loop lib q rest

/-- `op_div`: with one argument 1 is divided by it, with more arguments the
first one by the others; the message of the exception names `op_sub`. -/
def op_div (lib : Library) (args : List Value) : Outcome Value :=
  if !all_are_numbers args then throw_exception "op_sub: value's type is not NUMBER".toList
  else
    match args with
    | [] => some (.ok (Value.NUMBER (Number.INT 1)))
    | [arg] =>
      (Number.div lib (Number.INT 1) (value_number arg)).map fun q => .ok (Value.NUMBER q)
    | arg :: rest =>
      (div_loop lib (value_number arg) rest).map fun q => .ok (Value.NUMBER q)

/-- The bit pattern of the `double` 1.0. -/
def double_one : Nat := 4607182418800017408

/-- The loop `for(auto r : range)` over a `Range<Number>`: `current_` is
written to the result and `increment_` is added to it as long as the iterator
differs from the end, which for an increasing range means `current_ < end`
and else `current_ > end`.  `none` when the loop has not ended after `fuel`
rounds. -/
def range_loop (lib : Library) : Nat → Number → Number → Bool → Number → Option (List Value)
  | 0, _, _, _, _ => none
  | fuel + 1, current_, increment_, increasing_, range_end_ =>
    if (if increasing_ then Number.less lib current_ range_end_
        else Number.greater lib current_ range_end_) then
      (range_loop lib fuel (Number.add lib current_ increment_) increment_ increasing_
        range_end_).map (Value.NUMBER current_ :: ·)
    else some []

/-- `Range<Number>(range_start, increment, range_end)` and the loop over it:
a positive increment is negated when the end is below the start, and the
range is increasing when the increment is above 0. -/
def range_values (lib : Library) (fuel : Nat) (range_start increment range_end : Number) :
    Option (List Value) :=
  let increment_ :=
    if Number.less lib range_end range_start && Number.greater lib increment (Number.INT 0) then
      Number.mul lib increment (Number.INT (-1))
    else increment
  range_loop lib fuel range_start increment_ (Number.greater lib increment_ (Number.INT 0))
    range_end

/-- `op_make_range`: `(range end)`, `(range start end)` or
`(range start increment end)`; with a `FLOAT` among the arguments all of them
are taken as `double`s. -/
def op_make_range (lib : Library) (fuel : Nat) (args : List Value) : Outcome Value :=
  match args with
  | [e] =>
    let end_ := value_number e
    let start := if Number.is_float end_ then Number.FLOAT 0 else Number.INT 0
    let increment := if Number.is_float end_ then Number.FLOAT double_one else Number.INT 1
    (range_values lib fuel start increment end_).map fun l => .ok (Value.LIST l)
  | [s, e] =>
    let start := value_number s
    let end_ := value_number e
    if Number.is_float start || Number.is_float end_ then
      (range_values lib fuel (Number.FLOAT (Number.to_float lib start))
        (Number.FLOAT double_one) (Number.FLOAT (Number.to_float lib end_))).map fun l =>
          .ok (Value.LIST l)
    else (range_values lib fuel start (Number.INT 1) end_).map fun l => .ok (Value.LIST l)
  | [s, i, e] =>
    let start := value_number s
    let increment := value_number i
    let end_ := value_number e
    if Number.is_float start || Number.is_float end_ || Number.is_float increment then
      (range_values lib fuel (Number.FLOAT (Number.to_float lib start))
        (Number.FLOAT (Number.to_float lib increment))
        (Number.FLOAT (Number.to_float lib end_))).map fun l => .ok (Value.LIST l)
    else (range_values lib fuel start increment end_).map fun l => .ok (Value.LIST l)
  | _ => throw_exception "op_make_range: need 1 - 3 numeric arguments.".toList

/-- `op_make_vector`. -/
def op_make_vector (args : List Value) : Outcome Value := some (.ok (Value.VECTOR args))

/-- `op_count`: the size of the first argument when it is a vector, a list, a
map or a string, else 0; the size is converted to `int`. -/
def op_count (args : List Value) (m : Env) : Outcome Value :=
  match args with
  | [] => some (.ok (Value.NUMBER (Number.INT 0)))
  | arg :: _ =>
    match arg with
    | .VECTOR v => some (.ok (Value.NUMBER (Number.INT (orb.to_int v.length))))
    | .LIST l => some (.ok (Value.NUMBER (Number.INT (orb.to_int l.length))))
    | .MAP map =>
      (Map.elements m.map_pool_ map).map fun cells =>
        .ok (Value.NUMBER (Number.INT (orb.to_int cells.length)))
    | .STRING s => some (.ok (Value.NUMBER (Number.INT (orb.to_int s.length))))
    | _ => some (.ok (Value.NUMBER (Number.INT 0)))

/-- `value_iters_to_string`: the text of a string or a symbol, and
`value_to_string` of every other value, with the spacer between them. -/
def value_iters_to_string (lib : Library) (pool : PMapPool Value Value) (fuel : Nat)
    (spacer : List Char) : List Value → Option (List Char)
  | [] => some []
  | v :: rest =>
    let text := match v with
      | .SYMBOL s => some s
      | .STRING s => some s
      | _ => value_to_string lib pool fuel v
    match text, value_iters_to_string lib pool fuel spacer rest with
    | some s, some t => some (if rest.isEmpty then s ++ t else s ++ spacer ++ t)
    | _, _ => none

/-- `op_str`. -/
def op_str (lib : Library) (fuel : Nat) (args : List Value) (orb : Env) : Outcome Value :=
  (value_iters_to_string lib orb.map_pool_ fuel [] args).map fun s => .ok (Value.STRING s)

/-- `op_println`: the arguments with blanks between them and a newline are
written to the output. -/
def op_println (lib : Library) (fuel : Nat) (args : List Value) (orb : Env) :
    Outcome (Value × Env) :=
  (value_iters_to_string lib orb.map_pool_ fuel [' '] args).map fun s =>
    .ok (Value.NIL, { orb with out_ := orb.out_ ++ s ++ [NEWLINE] })

/-- `op_printf`: as `op_println`, without the newline. -/
def op_printf (lib : Library) (fuel : Nat) (args : List Value) (orb : Env) :
    Outcome (Value × Env) :=
  (value_iters_to_string lib orb.map_pool_ fuel [' '] args).map fun s =>
    .ok (Value.NIL, { orb with out_ := orb.out_ ++ s })

/-- `op_iter`, `(iter <syms> collection f)`, with the loop `extract_apply`
over the elements given as `extract`.  The iteration of a map
(`extract_apply_map`) is not modelled (`none`). -/
def op_iter (extract : Nat → Value → List Value → Map Value Value → Env →
      Outcome (Value × Map Value Value × Env))
    (args : List Value) (env : Map Value Value) (orb : Env) :
    Outcome (Value × Map Value Value × Env) :=
  let count := args.length
  if count < 2 then
    throw_exception ("op_iter: iter needs at least 2 parameters:(iter <syms> collection " ++
      "function) or (iter collection function) without decomposition.").toList
  else
    let symcount := count - 2
    if !(args.take symcount).all (fun a => decide (a.type = TypeTag.SYMBOL)) then
      throw_exception "op_iter: parameters prior to collection must be symbols.".toList
    else
      let collection := args.getD (count - 2) Value.NIL
      let fun_ := args.getD (count - 1) Value.NIL
      if collection.type ≠ TypeTag.VECTOR ∧ collection.type ≠ TypeTag.LIST ∧
          collection.type ≠ TypeTag.MAP then
        throw_exception ("op_iter: second to last parameter must be a collection (list, " ++
          "vector or map).").toList
      else if !(is_primitive_procedure fun_ || is_compound_procedure fun_) then
        throw_exception "op_iter: last parameter must be a function.".toList
      else
        match collection with
        | .VECTOR v => extract (if symcount = 0 then 1 else symcount) fun_ v env orb
        | .LIST l => extract (if symcount = 0 then 1 else symcount) fun_ l env orb
        | _ => none

/-- `op_make_map`: the arguments are added to a new map as keys and values in
turn. -/
def op_make_map (lib : Library) (args : List Value) (orb : Env) : Outcome (Value × Env) :=
  match map_add_elems lib orb.map_pool_ PMapPool.new_map args with
  | none => none
  | some r => some (.ok (Value.MAP r.2, { orb with map_pool_ := r.1 }))

/-- The loop of `op_insert_data` over the keys and values after the map; a
key without a value is read past the end of the arguments (`none`). -/
def insert_data_loop (lib : Library) :
    PMapPool Value Value → Map Value Value → List Value →
      Option (PMapPool Value Value × Map Value Value)
  | pool, resmap, [] => some (pool, resmap)
  | _, _, [_] => none
  | pool, resmap, key :: value :: rest =>
    match map_add lib pool resmap key value with
    | none => none
    | some r => insert_data_loop lib r.1 r.2 rest

/-- `op_insert_data`: add key-value pairs to a map,
`(insert map key value key value ...)`.  Without an argument the call throws
(and reads `args[0]` in the message after that only when there are two). -/
def op_insert_data (lib : Library) (fuel : Nat) (args : List Value) (orb : Env) :
    Outcome (Value × Env) :=
  if args.length < 3 ∧ args.length % 2 = 0 then
    throw_exception ("op_insert_data: wrong number of input arguments. Signature is " ++
      "(add map key value key value ...).").toList
  else
    match args with
    | [] => none
    | first :: rest =>
      match value_map first with
      | none =>
        match value_to_typed_string lib orb.map_pool_ fuel first with
        | none => none
        | some first_str =>
          throw_exception
            ("op_insert_data: first argument must be a map. You entered:".toList ++ first_str)
      | some map =>
        match insert_data_loop lib orb.map_pool_ map rest with
        | none => none
        | some r => some (.ok (Value.MAP r.2, { orb with map_pool_ := r.1 }))

/-! ### `eval` and `apply` -/

mutual
/-- `eval(v, env, orb)`: the value, with the map `env` refers to and the
state of the runtime after the call.  A `set` form, which writes into a cell
of the map, is not modelled. -/
def eval (lib : Library) :
    Nat → Value → Map Value Value → Env → Outcome (Value × Map Value Value × Env)
  | 0, _, _, _ => none
  | fuel + 1, v, env, orb =>
    if is_self_evaluating v then some (.ok (v, env, orb))
    else if v.type = TypeTag.SYMBOL then
      match Map.try_get_value Value.equal_flat (Value.get_hash_flat lib) orb.map_pool_ env v with
      | none => throw_exception ("eval: Symbol not found. Input:".toList ++ value_string v)
      | some result => some (.ok (result, env, orb))
    else if is_quoted v then
      match value_list_second v with
      | none =>
        throw_with_value lib orb fuel "eval: Quote was not followed by an element. Input:" v
      | some ref_result => some (.ok (ref_result, env, orb))
    else if is_assignment v then
      match assignment_var v, assignment_value v with
      | some asgn_var, some asgn_val =>
        if asgn_var.type ≠ TypeTag.SYMBOL then
          throw_with_value lib orb fuel "eval: Value to assign to was not symbol. Input:" v
        else if is_self_evaluating asgn_val then
          match map_add lib orb.map_pool_ env asgn_var asgn_val with
          | none => none
          | some r => some (.ok (Value.NIL, r.2, { orb with map_pool_ := r.1 }))
        else
          (eval lib fuel asgn_val env orb).bind fun e =>
            match map_add lib e.2.2.map_pool_ e.2.1 asgn_var e.1 with
            | none => none
            | some r => some (.ok (Value.NIL, r.2, { e.2.2 with map_pool_ := r.1 }))
      | _, _ =>
        throw_with_value lib orb fuel "eval:Did not find anything to assign to. Input:" v
    else if is_reassignment v then none
    else if is_if v then
      match value_list_second v with
      | some if_predicate =>
        (eval lib fuel if_predicate env orb).bind fun p =>
          if is_true p.1 then
            match value_list_third v with
            | some if_then =>
              if is_self_evaluating if_then then some (.ok (if_then, p.2.1, p.2.2))
              else eval lib fuel if_then p.2.1 p.2.2
            | none =>
              throw_with_value lib p.2.2 fuel
                "eval: Did not find 'fst' in expected form (if pred fst snd). Input:" v
          else
            match value_list_nth v 3 with
            | some if_else =>
              if is_self_evaluating if_else then some (.ok (if_else, p.2.1, p.2.2))
              else eval lib fuel if_else p.2.1 p.2.2
            | none => some (.ok (Value.NIL, p.2.1, p.2.2))
      | none =>
        throw_with_value lib orb fuel
          "Did not find 'pred' in expected form (if pred fst snd). Input:" v
    else if is_lambda v then
      match value_list_second v, value_list v with
      | some lambda_parameters, some l =>
        some (.ok (Value.LIST [make_value_symbol "procedure", lambda_parameters,
          Value.LIST (l.drop 2), Value.MAP env], env, orb))
      | _, _ =>
        throw_with_value lib orb fuel
          ("Could not find one or more of 'params' 'body' in (lambda params body) " ++
            "expression. Input:") v
    else if is_begin v then
      eval_sequence lib fuel ((value_list v).getD []).tail env orb
    else if is_cond v then
      (convert_cond_to_if lib orb fuel v).bind fun c => eval lib fuel c env orb
    else if is_application v && !((value_list v).getD []).isEmpty then
      match value_list_first v with
      | none => none
      | some first =>
        let operands := ((value_list v).getD []).tail
        if !is_self_evaluating first then
          (eval lib fuel first env orb).bind fun op =>
            apply lib fuel op.1 operands op.2.1 op.2.2
        else apply lib fuel first operands env orb
    else throw_with_value lib orb fuel "Could not find evaluable value. Input:" v
/-- `eval_sequence`: the expressions are evaluated in turn, the value is that
of the last one. -/
def eval_sequence (lib : Library) :
    Nat → List Value → Map Value Value → Env → Outcome (Value × Map Value Value × Env)
  | 0, _, _, _ => none
  | fuel + 1, expressions, env, orb =>
    match expressions with
    | [] => throw_exception "eval_sequence: Trying to evaluate empty sequence".toList
    | [first] => eval lib fuel first env orb
    | first :: rest =>
      (eval lib fuel first env orb).bind fun e => eval_sequence lib fuel rest e.2.1 e.2.2
/-- `eval_list_to_vector`: the values of the operands, in their order. -/
def eval_list_to_vector (lib : Library) :
    Nat → List Value → Map Value Value → Env → Outcome (List Value × Map Value Value × Env)
  | 0, _, _, _ => none
  | fuel + 1, args, env, orb =>
    match args with
    | [] => some (.ok ([], env, orb))
    | args_begin :: rest =>
      (eval lib fuel args_begin env orb).bind fun e =>
        (eval_list_to_vector lib fuel rest e.2.1 e.2.2).bind fun r =>
          some (.ok (e.1 :: r.1, r.2.1, r.2.2))
/-- `eval_compound_procedure`: the body of the procedure
`(procedure params body env)` is evaluated in its environment with the
parameters bound to the arguments `params`. -/
def eval_compound_procedure (lib : Library) :
    Nat → Value → List Value → Env → Outcome (Value × Env)
  | 0, _, _, _ => none
  | fuel + 1, v, params, orb =>
    let l := (value_list v).getD []
    match l[1]?, l[2]?, l[3]? with
    | none, _, _ =>
      throw_exception ("apply: Malformed compound procedure. Could not find procedure " ++
        "parameters.").toList
    | some _, none, _ =>
      throw_exception ("apply: Malformed compound procedure. Could not find procedure " ++
        "body.").toList
    | some _, some _, none =>
      throw_exception ("apply: Malformed compound procedure. Could not find procedure " ++
        "environment.").toList
    | some proc_params, some proc_body, some proc_env =>
      match value_list proc_params with
      | none =>
        throw_with_value lib orb fuel
          "apply: Malformed compound procedure. Proc_params was not a list but:" proc_params
      | some params_list =>
        match value_list proc_body with
        | none =>
          throw_with_value lib orb fuel
            "apply: Malformed compound procedure. Proc_body was not a list but:" proc_body
        | some body_list =>
          match value_map proc_env with
          | none =>
            throw_with_value lib orb fuel
              "apply: Malformed compound procedure. Proc_env was not a map but:" proc_env
          | some proc_env_map =>
            match map_add_range lib orb.map_pool_ proc_env_map params_list params with
            | none => none
            | some r =>
              (eval_sequence lib fuel body_list r.2 { orb with map_pool_ := r.1 }).bind fun e =>
                some (.ok (e.1, e.2.2))
/-- The call `value_function(v)(orb, params, env)` of a native operator.  The
operators that are not modelled give `none`. -/
def apply_primitive (lib : Library) :
    Nat → Primitive → List Value → Map Value Value → Env →
      Outcome (Value × Map Value Value × Env)
  | 0, _, _, _, _ => none
  | fuel + 1, f, params, env, orb =>
    match f with
    | .op_add => (op_add lib params).bind fun r => some (.ok (r, env, orb))
    | .op_mul => (op_mul lib params).bind fun r => some (.ok (r, env, orb))
    | .op_div => (op_div lib params).bind fun r => some (.ok (r, env, orb))
    | .op_make_range =>
      (op_make_range lib fuel params).bind fun r => some (.ok (r, env, orb))
    | .op_make_map => (op_make_map lib params orb).bind fun r => some (.ok (r.1, env, r.2))
    | .op_make_vector => (op_make_vector params).bind fun r => some (.ok (r, env, orb))
    | .op_count => (op_count params orb).bind fun r => some (.ok (r, env, orb))
    | .op_iter => op_iter (extract_apply lib fuel) params env orb
    | .op_insert_data =>
      (op_insert_data lib fuel params orb).bind fun r => some (.ok (r.1, env, r.2))
    | .op_println => (op_println lib fuel params orb).bind fun r => some (.ok (r.1, env, r.2))
    | .op_printf => (op_printf lib fuel params orb).bind fun r => some (.ok (r.1, env, r.2))
    | .op_str => (op_str lib fuel params orb).bind fun r => some (.ok (r, env, orb))
    | _ => none
/-- `IterContext::apply`: the function of the iteration is called with the
parameters. -/
def IterContext.apply (lib : Library) :
    Nat → Value → List Value → Map Value Value → Env →
      Outcome (Value × Map Value Value × Env)
  | 0, _, _, _, _ => none
  | fuel + 1, fun_, params, env, orb =>
    match fun_ with
    | .FUNCTION f => apply_primitive lib fuel f params env orb
    | _ =>
      if is_compound_procedure fun_ then
        (eval_compound_procedure lib fuel fun_ params orb).bind fun r =>
          some (.ok (r.1, env, r.2))
      else
        throw_exception
          "IterContext::apply: malformed call, attempting call non-callable value.".toList
/-- `extract_apply`: the function is called with `symcount` elements of the
collection at a time, the last time with `Value()` for the elements that are
missing; the result is `Value()`. -/
def extract_apply (lib : Library) :
    Nat → Nat → Value → List Value → Map Value Value → Env →
      Outcome (Value × Map Value Value × Env)
  | 0, _, _, _, _, _ => none
  | fuel + 1, symcount, fun_, elems, env, orb =>
    match elems with
    | [] => some (.ok (Value.NIL, env, orb))
    | _ :: _ =>
      let args := elems.take symcount ++ List.replicate (symcount - elems.length) Value.NIL
      (IterContext.apply lib fuel fun_ args env orb).bind fun r =>
        if (elems.drop symcount).isEmpty then some (.ok (Value.NIL, r.2.1, r.2.2))
        else extract_apply lib fuel symcount fun_ (elems.drop symcount) r.2.1 r.2.2
/-- `apply(v, args_begin, args_end, env, orb)`. -/
def apply (lib : Library) :
    Nat → Value → List Value → Map Value Value → Env →
      Outcome (Value × Map Value Value × Env)
  | 0, _, _, _, _ => none
  | fuel + 1, v, args, env, orb =>
    (eval_list_to_vector lib fuel args env orb).bind fun p =>
      match v with
      | .FUNCTION f => apply_primitive lib fuel f p.1 p.2.1 p.2.2
      | .MAP m =>
        match p.1 with
        | key :: _ =>
          match map_try_get_value lib p.2.2.map_pool_ m key with
          | none => none
          | some none => some (.ok (Value.NIL, p.2.1, p.2.2))
          | some (some result) => some (.ok (result, p.2.1, p.2.2))
        | [] =>
          throw_exception "apply: Attempting to apply map without key to search for.".toList
      | .VECTOR vec =>
        if p.1.length ≠ 1 then
          throw_exception ("apply: Vector: Invalid number of arguments:".toList ++
            int_to_string p.1.length)
        else
          match p.1.head? with
          | some (.NUMBER (.INT index)) =>
            if index < 0 ∨ index ≥ vec.length then
              throw_exception ("apply: Vector: Index parameter out of range:".toList ++
                int_to_string index)
            else
              match vec[index.toNat]? with
              | some r => some (.ok (r, p.2.1, p.2.2))
              | none => none
          | some other =>
            throw_with_value lib p.2.2 fuel
              "apply: Vector: Index parameter must be integer. Was:" other
          | none => none
      | _ =>
        if is_compound_procedure v then
          (eval_compound_procedure lib fuel v p.1 p.2.2).bind fun r =>
            some (.ok (r.1, p.2.1, r.2))
        else throw_with_value lib p.2.2 fuel "apply: Attempting to apply non-procedure. Input:" v
end

/-! ### The runtime -/

/-- The names and the operators of `load_default_env`, in its order. -/
def default_env : List (String × Primitive) :=
  [("+", .op_add), ("-", .op_sub), ("*", .op_mul), ("/", .op_div),
    ("range", .op_make_range),
    ("=", .op_equal), ("!=", .op_not_equal), ("<", .op_less), (">", .op_gt),
    ("<=", .op_less_or_eq), (">=", .op_gt_or_eq),
    ("first", .op_first), ("ffirst", .op_ffirst), ("next", .op_next), ("fnext", .op_fnext),
    ("nnext", .op_nnext), ("nfirst", .op_nfirst),
    ("integer?", .op_value_is_integer), ("float?", .op_value_is_float),
    ("string?", .op_value_is_string), ("boolean?", .op_value_is_boolean),
    ("symbol?", .op_value_is_symbol), ("map?", .op_value_is_map),
    ("vector?", .op_value_is_vector), ("list?", .op_value_is_list), ("fn?", .op_value_is_fn),
    ("object?", .op_value_is_object),
    ("make-map", .op_make_map), ("make-vector", .op_make_vector),
    ("count", .op_count), ("cons", .op_cons), ("conj", .op_conj), ("iter", .op_iter),
    ("map", .op_map),
    ("insert", .op_insert_data), ("remove", .op_remove_data), ("keys", .op_map_keys),
    ("vals", .op_map_vals),
    ("println", .op_println), ("printf", .op_printf), ("str", .op_str),
    ("read", .file_to_string), ("write", .string_to_file), ("import", .op_import_file)]

/-- The keys and values `add_fun` adds for `load_default_env`. -/
def default_bindings : List (Value × Value) :=
  default_env.map fun p => (make_value_symbol p.1, Value.FUNCTION p.2)

/-- `Orb::Orb()`, that is `Env()`: the root environment is a new map to which
`load_default_env` adds its operators with `add_fun`. -/
def Env.init (lib : Library) : Option Env :=
  match insert_loop Value.equal_flat (Value.get_hash_flat lib) { lists := [] }
      PMapPool.new_map default_bindings with
  | none => none
  | some r => some { map_pool_ := r.1, env_ := r.2, out_ := [] }

/-- `eval(Orb& m, const Value* v)`: the value is evaluated in the root
environment; an exception becomes a failure with its message.  The state
after a failure is not modelled. -/
def eval_value (lib : Library) (fuel : Nat) (m : Env) (v : Value) :
    Option (orb_result × Option Env) :=
  match eval lib fuel v m.env_ m with
  | none => none
  | some (.error e) => some (orb_fail e, none)
  | some (.ok r) => some (.ok r.1, some { r.2.2 with env_ := r.2.1 })

/-- `read_eval`: parse string and evaluate result. -/
def read_eval (lib : Library) (fuel : Nat) (m : Env) (str : List Char) :
    Option (orb_result × Option Env) :=
  match string_to_value lib str with
  | none => none
  | some (.error e) => some (orb_fail e, some m)
  | some (.ok v) => eval_value lib fuel m v

end Orb

/-! ### The keys of an environment -/

namespace Orb

/-- A value for which `operator==` is the identity of values: nil, a boolean,
an `int`, a string or a symbol. -/
def Value.is_name : Value → Bool
  | .NIL => true
  | .BOOLEAN _ => true
  | .NUMBER (.INT _) => true
  | .STRING _ => true
  | .SYMBOL _ => true
  | _ => false

/-- `operator==` on the values of `is_name`, with all other values taken for
equal to each other: an equivalence relation that is `operator==` wherever a
map holds keys of `is_name` only. -/
def key_equal (a b : Value) : Bool :=
  if a.is_name && b.is_name then Value.equal_flat a b else !a.is_name && !b.is_name

/-- The invariant of a map whose keys are all of `is_name`. -/
def EnvOK (lib : Library) (pool : PMapPool Value Value) (m : Map Value Value) : Prop :=
  WFMap key_equal (Value.get_hash_flat lib) pool m ∧
    ∀ x ∈ Map.contents pool m, x.first.is_name = true

/-- `try_get_value` in a map of values. -/
def lookup (lib : Library) (pool : PMapPool Value Value) (m : Map Value Value) (key : Value) :
    Option Value :=
  Map.try_get_value Value.equal_flat (Value.get_hash_flat lib) pool m key

end Orb

/-! ### Comparing parsed values -/

namespace Orb

mutual
/-- No `FLOAT` occurs in the value (maps are not looked into). -/
def Value.float_free : Value → Bool
  | .NUMBER (.FLOAT _) => false
  | .VECTOR x => Value.float_free_list x
  | .LIST x => Value.float_free_list x
  | _ => true
/-- No `FLOAT` occurs in the values of a list. -/
def Value.float_free_list : List Value → Bool
  | [] => true
  | v :: rest => Value.float_free v && Value.float_free_list rest
end

mutual
/-- The two values are the same value; false for maps. -/
def Value.same : Value → Value → Bool
  | .NIL, .NIL => true
  | .BOOLEAN a, .BOOLEAN b => a == b
  | .NUMBER a, .NUMBER b => decide (a = b)
  | .NUMBER_ARRAY a, .NUMBER_ARRAY b => decide (a = b)
  | .STRING a, .STRING b => decide (a = b)
  | .SYMBOL a, .SYMBOL b => decide (a = b)
  | .VECTOR a, .VECTOR b => Value.same_list a b
  | .LIST a, .LIST b => Value.same_list a b
  | .OBJECT a, .OBJECT b => decide (a = b)
  | .FUNCTION a, .FUNCTION b => decide (a = b)
  | _, _ => false
/-- The two lists hold the same values. -/
def Value.same_list : List Value → List Value → Bool
  | [], [] => true
  | a :: x, b :: y => Value.same a b && Value.same_list x y
  | _, _ => false
end

/-- The text is parsed to the value `v`, in which no `FLOAT` occurs. -/
def parses_to (lib : Library) (str : List Char) (v : Value) : Bool :=
  match string_to_value lib str with
  | some (.ok r) => Value.same r v && Value.float_free v
  | _ => false

end Orb

/-! ### Moving a value -/

namespace Orb

/-- A `Value` object in memory: the field `type` and the bytes of the union
`value`, read as one number (a pointer, a `Number` or a `bool`; 0 for
zeroed bytes). -/
structure ValueObject where
  type : TypeTag
  value : Nat
deriving DecidableEq, Repr

/-- `Value::movefrom(Value& v)`: `type = v.type`, the bytes of `v.value` are
copied to `value` and then set to zero; the field `v.type` is not written.
The result is `*this` and `v` after the call. -/
def ValueObject.movefrom (_this v : ValueObject) : ValueObject × ValueObject :=
  ({ type := v.type, value := v.value }, { type := v.type, value := 0 })

/-- `Value::Value(Value&& v)`: the new object and `v` after the call. -/
def ValueObject.move_construct (v : ValueObject) : ValueObject × ValueObject :=
  ValueObject.movefrom { type := TypeTag.NIL, value := 0 } v

/-- `Value::operator=(Value&& v)` for two objects (`&v != this`): `*this` and
`v` after the call. -/
def ValueObject.move_assign (this v : ValueObject) : ValueObject × ValueObject :=
  ValueObject.movefrom this v

/-- A string value whose text is at the address 4096. -/
def string_object : ValueObject := { type := TypeTag.STRING, value := 4096 }

end Orb

/-! ### Access to the state of the runtime -/

namespace Orb

/-- The loop of `string_split`: a delimiter ends the line that `current`
holds, also an empty one; what is left at the end is a line when it is not
empty. -/
def string_split_loop (delim : List Char) : List Char → List Char → List (List Char)
  | [], current => if current.isEmpty then [] else [current]
  | c :: rest, current =>
    if c ∈ delim then current :: string_split_loop delim rest []
    else string_split_loop delim rest (current ++ [c])

/-- `string_split(str, delim)`: the texts of the lines. -/
def string_split (str delim : List Char) : List (List Char) := string_split_loop delim str []

/-- `Env::def(key, value)`: `*env_ = env_->add(key, value)`. -/
def Env.def (lib : Library) (m : Env) (key value : Value) : Option Env :=
  (map_add lib m.map_pool_ m.env_ key value).map fun r =>
    { m with map_pool_ := r.1, env_ := r.2 }

/-- The loop of `get_value` over the segments of a path: every segment is
looked up as a string; a segment that is found and is not the last one must
hold a map, in which the search goes on; a segment that is not found is
passed over. -/
def get_value_loop (lib : Library) (pool : PMapPool Value Value) :
    Map Value Value → Option Value → List (List Char) → Option Value
  | _, tmpresult, [] => tmpresult
  | map, tmpresult, l :: rest =>
    match lookup lib pool map (Value.STRING l) with
    | some value =>
      if rest.isEmpty then some value
      else
        match value_map value with
        | some inner => get_value_loop lib pool inner (some value) rest
        | none => none
    | none => get_value_loop lib pool map tmpresult rest

/-- `get_value(Orb& m, const char* pathstr)` for a path that is not null: a
path with a `/` is split and looked up segment by segment from the root
environment, any other path is looked up there as a symbol.  The result is a
pointer to the value, or null. -/
def Env.get_value (lib : Library) (m : Env) (pathstr : List Char) : Option Value :=
  if '/' ∈ pathstr then
    get_value_loop lib m.map_pool_ m.env_ none (string_split pathstr ['/'])
  else lookup lib m.map_pool_ m.env_ (Value.SYMBOL pathstr)

end Orb

/-! ### The command line -/

namespace Orb

/-- The search of `std::string::find(c, pos)` through the text from position
`i` on. -/
def find_from (c : Char) : List Char → Nat → Option Nat
  | [], _ => none
  | x :: rest, i => if x = c then some i else find_from c rest (i + 1)

/-- `std::string::find(c, pos)`: the first position from `pos` on that holds
`c`, or `npos` (`none`). -/
def string_find (s : List Char) (c : Char) (pos : Nat) : Option Nat :=
  find_from c (s.drop pos) pos

/-- `std::string::replace(pos, len, str)` for a position inside the text. -/
def string_replace (s : List Char) (pos len : Nat) (str : List Char) : List Char :=
  s.take pos ++ str ++ s.drop (pos + len)

/-- The `while` loop of `set_args` over the backslashes of a token: a
backslash with a backslash right after it is passed over, any other backslash
is replaced by `/`; then the next backslash is searched from the next
position. -/
def fix_loop : Nat → List Char → Option Nat → Option (List Char)
  | _, arg, none => some arg
  | 0, _, some _ => none
  | fuel + 1, arg, some pos =>
    if arg.length > pos + 1 ∧ arg.get? (pos + 1) = some BACKSLASH then
      fix_loop fuel arg (string_find arg BACKSLASH (pos + 1))
    else
      fix_loop fuel (string_replace arg pos 1 ['/'])
        (string_find (string_replace arg pos 1 ['/']) BACKSLASH (pos + 1))

/-- The body of the first loop of `set_args` for one token: the text that is
pushed to `fixed_args`. -/
def fix_arg (arg : List Char) : Option (List Char) :=
  fix_loop (arg.length + 1) arg (string_find arg BACKSLASH 0)

/-- The first loop of `set_args`: `fixed_args`. -/
def fix_args : List (List Char) → Option (List (List Char))
  | [] => some []
  | arg :: rest =>
    match fix_arg arg with
    | none => none
    | some f => (fix_args rest).map fun l => f :: l

/-- The second loop of `set_args`:
`*map = map->add(make_value_number(order++), make_value_string(f))`. -/
def set_args_add (lib : Library) :
    PMapPool Value Value → Map Value Value → Int → List (List Char) →
      Option (PMapPool Value Value × Map Value Value)
  | pool, map, _, [] => some (pool, map)
  | pool, map, order, f :: rest =>
    match map_add lib pool map (Value.NUMBER (Number.INT order)) (Value.STRING f) with
    | none => none
    | some (pool1, map1) => set_args_add lib pool1 map1 (order + 1) rest

/-- `Orb::set_args(argc, argv)`, with the `argc` tokens of `argv` for
argument; `argc` is an `int`, so there are at most 2147483647 of them.  The map
of `argmap` is made in the pool of the runtime, filled, and bound to the
symbol `sys/args` in the root environment. -/
def Env.set_args (lib : Library) (m : Env) (argv : List (List Char)) : Option Env :=
  if argv.length ≤ 2147483647 then
    match fix_args argv with
    | none => none
    | some fixed_args =>
      match set_args_add lib m.map_pool_ PMapPool.new_map 0 fixed_args with
      | none => none
      | some (pool1, map) =>
        Env.def lib { m with map_pool_ := pool1 } (make_value_symbol "sys/args") (Value.MAP map)
  else none

/-- A text with each backslash that no backslash follows made a `/`. -/
def slashes : List Char → List Char
  | [] => []
  | c :: rest =>
    (if c = BACKSLASH ∧ rest.head? ≠ some BACKSLASH then '/' else c) :: slashes rest

/-- A text with every backslash made a `/`. -/
def replace_backslashes (s : List Char) : List Char :=
  s.map fun c => if c = BACKSLASH then '/' else c

/-- Whether a text has two backslashes in a row. -/
def double_backslash : List Char → Bool
  | [] => false
  | c :: rest => (c == BACKSLASH && rest.head? == some BACKSLASH) || double_backslash rest

/-- A token with two backslashes in a row. -/
def double_token : List Char := ['a', BACKSLASH, BACKSLASH, 'b']

end Orb

/-! ### Composite values and a procedure that names itself -/

namespace Orb

/-- A list, a vector, a number array or a map. -/
def Value.is_composite : Value → Bool
  | .LIST _ => true
  | .VECTOR _ => true
  | .NUMBER_ARRAY _ => true
  | .MAP _ => true
  | _ => false

/-- The largest depth of the keys and values of the cells of a map. -/
def cells_depth : List (KeyValue Value Value) → Nat
  | [] => 0
  | x :: rest => max (max (Value.depth x.first) (Value.depth x.second)) (cells_depth rest)

/-- A library for the examples in which `f` has a hash of its own: 0 for the
text `f`, else the length of the text. -/
def marked_library : Library :=
  Library.mk (fun s => if s = ['f'] then 0 else s.length) (fun _ => 0) (fun _ => []) (fun _ => 0)
    (fun _ => 0) (fun _ _ => 0) (fun _ _ => 0) (fun _ _ => 0) (fun _ _ => 0) (fun _ _ => false)

/-- The source of a procedure whose body names the procedure. -/
def recursive_source : List Char := "(def f (fn (n) (f n))) (f 1)".toList

end Orb

/-! ## Example inputs -/

/-- The comparator of the examples: equality of numbers. -/
def nat_compare (a b : Nat) : Bool := a == b

/-- The hash of the examples: the five low bits of the key, so that the keys
`1, 33, 65, ...` have the same 32-bit hash. -/
def low_bits_hash (k : Nat) : Nat := k % 32

/-- The eight keys `1, 33, ..., 225` with the same hash, added to an empty map
of a fresh pool: the last of them makes a `CollisionNode`. -/
def collision_example : PMapPool Nat Nat × Map Nat Nat :=
  (map_insert_elements nat_compare low_bits_hash { lists := [] }
    [(1, 1001), (33, 1033), (65, 1065), (97, 1097), (129, 1129), (161, 1161), (193, 1193),
      (225, 1225)]).getD ({ lists := [] }, PMapPool.new_map)

/-- The comparator of the string keys of the tests. -/
def string_compare (a b : String) : Bool := a == b

/-- The element type `int` of a list pool: no handles. -/
def nat_element : ListElement Nat := { zero := 0, init := 0, handles := fun _ => [] }

/-- The list `(7 5)` in a new pool of numbers: 5 and then 7 are added to the
empty list. -/
def number_list_example : PListPool Nat × Option Nat :=
  match PListPool.List.add nat_element (PListPool.init nat_element) none 5 with
  | none => (PListPool.init nat_element, none)
  | some (pool1, l1) => (PListPool.List.add nat_element pool1 l1 7).getD (pool1, none)

/-- A list pool of values after `inner = new_list().add(1)` and
`outer = new_list().add(Value(inner))` when both handles have been destroyed:
the node of `outer` is garbage and holds the only handle to `inner`. -/
def nested_list_example : PListPool Value :=
  match PListPool.List.add value_element (PListPool.init value_element) none
      (Value.NUMBER (Number.INT 1)) with
  | none => PListPool.init value_element
  | some (pool1, inner) =>
    match PListPool.List.add value_element pool1 none (Value.LIST inner) with
    | none => pool1
    | some (pool2, outer) =>
      PListPool.List.destroy (PListPool.List.destroy pool2 inner) outer

/-- The `used_elements` fields of the chunks of a list pool. -/
def used_fields {T : Type} (pool : PListPool T) : List Nat :=
  pool.chunks_.chunks_.map (fun c => c.used_elements)

/-- The map with the one entry `1 -> 10`, in a fresh pool. -/
def one_entry_example : PMapPool Nat Nat × Map Nat Nat :=
  (map_insert_elements nat_compare low_bits_hash { lists := [] } [(1, 10)]).getD
    ({ lists := [] }, PMapPool.new_map)

/-! ### Examples for the interpreter -/

namespace Orb

/-- A library for the examples: the length of the text for `hash32`, no
floating point. -/
def length_library : Library :=
  Library.mk (fun s => s.length) (fun _ => 0) (fun _ => []) (fun _ => 0) (fun _ => 0)
    (fun _ _ => 0) (fun _ _ => 0) (fun _ _ => 0) (fun _ _ => 0) (fun _ _ => false)

/-- A list with an integer, a string and a vector with the float `0.0`. -/
def hash_example_a : Value :=
  Value.LIST [Value.NUMBER (Number.INT 1), Value.STRING ['a'],
    Value.VECTOR [Value.NUMBER (Number.FLOAT 0)]]

/-- The same list with the float `-0.0`, whose bits are `2 ^ 63`. -/
def hash_example_b : Value :=
  Value.LIST [Value.NUMBER (Number.INT 1), Value.STRING ['a'],
    Value.VECTOR [Value.NUMBER (Number.FLOAT 9223372036854775808)]]

/-- The source with the keys `:a` and `:b`. -/
def keyword_source : List Char := "(def m (insert (make-map) :a 1 :b 2)) (m :b)".toList

/-- The source with the keys quoted. -/
def quoted_source : List Char := "(def m (insert (make-map) ':a 1 ':b 2)) (m ':b)".toList

/-- The source of the squaring procedure. -/
def square_source : List Char := "(def f (fn (x) (* x x))) (f 5)".toList

/-- A library for the examples in which `hash32` is the sum of the character
codes of the text. -/
def sum_library : Library :=
  Library.mk (fun s => (s.map Char.toNat).sum) (fun _ => 0) (fun _ => []) (fun _ => 0)
    (fun _ => 0) (fun _ _ => 0) (fun _ _ => 0) (fun _ _ => 0) (fun _ _ => 0)
    (fun _ _ => false)

end Orb

/-! ## Bit operations: facts -/

theorem land_pred_even (m : Nat) (hm : 0 < m) : (2 * m) &&& (2 * m - 1) = 2 * (m &&& (m - 1)) := by
  apply Nat.eq_of_testBit_eq
  intro i
  cases i with
  | zero => simp [Nat.testBit_zero, Nat.testBit_and]
  | succ i =>
    have h1 : (2 * m - 1) / 2 = m - 1 := by omega
    have h2 : 2 * m / 2 = m := by omega
    have h3 : 2 * (m &&& (m - 1)) / 2 = m &&& (m - 1) := by omega
    rw [Nat.testBit_and, Nat.testBit_succ, Nat.testBit_succ, Nat.testBit_succ, h1, h2, h3,
      Nat.testBit_and]

theorem land_pred_odd (m : Nat) : (2 * m + 1) &&& (2 * m + 1 - 1) = 2 * m := by
  apply Nat.eq_of_testBit_eq
  intro i
  cases i with
  | zero => simp [Nat.testBit_zero, Nat.testBit_and]
  | succ i =>
    have h1 : (2 * m + 1) / 2 = m := by omega
    have h2 : 2 * m / 2 = m := by omega
    have h3 : 2 * m + 1 - 1 = 2 * m := by omega
    rw [h3, Nat.testBit_and, Nat.testBit_succ, Nat.testBit_succ, h1, h2, Bool.and_self]

theorem popcount_land_pred (k n : Nat) (hn : 0 < n) (hk : n < 2 ^ k) :
    popcount k (n &&& (n - 1)) + 1 = popcount k n := by
  induction k generalizing n with
  | zero => simp at hk; omega
  | succ k ih =>
    rcases Nat.even_or_odd' n with ⟨m, rfl | rfl⟩
    · have hm : 0 < m := by omega
      rw [land_pred_even m hm]
      have hk' : m < 2 ^ k := by rw [pow_succ] at hk; omega
      have := ih m hm hk'
      simp only [popcount]
      have e1 : 2 * (m &&& (m - 1)) / 2 = m &&& (m - 1) := by omega
      have e2 : 2 * m / 2 = m := by omega
      rw [e1, e2]; omega
    · rw [land_pred_odd m]
      simp only [popcount]
      have e1 : (2 * m + 1) / 2 = m := by omega
      have e2 : 2 * m / 2 = m := by omega
      rw [e1, e2]; omega

theorem popcount_zero (k : Nat) : popcount k 0 = 0 := by
  induction k with
  | zero => rfl
  | succ k ih => simp [popcount, ih]

theorem land_pred_le (n : Nat) : n &&& (n - 1) ≤ n := Nat.and_le_left

theorem count_bits_loop_eq (k : Nat) : ∀ (fuel n count : Nat), n < 2 ^ k → popcount k n ≤ fuel →
    count_bits_loop fuel n count = count + popcount k n := by
  intro fuel
  induction fuel with
  | zero =>
    intro n count hn hp
    simp [count_bits_loop]; omega
  | succ fuel ih =>
    intro n count hn hp
    simp only [count_bits_loop]
    split
    · next h => subst h; simp [popcount_zero]
    · next h =>
      have hpos : 0 < n := Nat.pos_of_ne_zero h
      have h1 := popcount_land_pred k n hpos hn
      have h2 : n &&& (n - 1) < 2 ^ k := lt_of_le_of_lt (land_pred_le n) hn
      rw [ih _ _ h2 (by omega)]; omega

theorem popcount_le (k n : Nat) : popcount k n ≤ k := by
  induction k generalizing n with
  | zero => simp [popcount]
  | succ k ih => simp only [popcount]; have := ih (n / 2); omega

theorem popcount_eq_filter (k n : Nat) :
    popcount k n = ((List.range k).filter (fun j => n.testBit j)).length := by
  induction k generalizing n with
  | zero => simp [popcount]
  | succ k ih =>
    rw [List.range_succ_eq_map, List.filter_cons]
    simp only [popcount, ih (n / 2), List.filter_map, List.length_map]
    have : ((fun j => n.testBit j) ∘ Nat.succ) = (fun j => (n / 2).testBit j) := by
      funext j; simp [Nat.testBit_succ]
    rw [this]
    by_cases h : n.testBit 0 = true
    · have h' : n % 2 = 1 := Nat.mod_two_eq_one_iff_testBit_zero.mpr h
      simp [h, h']; omega
    · have h' : n % 2 = 0 := by
        have : ¬ n % 2 = 1 := fun e => h (Nat.mod_two_eq_one_iff_testBit_zero.mp e)
        omega
      simp [h, h']

theorem count_bits_eq (used : Nat) (h : used < U32) : count_bits used = (slots used).length := by
  have h32 : used < 2 ^ 32 := h
  unfold count_bits
  rw [Nat.mod_eq_of_lt h, count_bits_loop_eq 32 32 used 0 h32 (popcount_le 32 used),
    popcount_eq_filter]
  simp [slots]

theorem bit_is_on_eq (used j : Nat) : bit_is_on used j = used.testBit j := by
  unfold bit_is_on
  rw [Nat.one_shiftLeft, Nat.and_two_pow]
  cases h : used.testBit j <;> simp [h]

/-! ## The slots of a bitfield -/


theorem mem_slots {u j : Nat} : j ∈ slots u ↔ j < 32 ∧ u.testBit j = true := by
  simp [slots]

theorem slots_pairwise (u : Nat) : (slots u).Pairwise (· < ·) :=
  (List.pairwise_lt_range 32).filter _

theorem pairwise_lt_split (l : List Nat) (hs : l.Pairwise (· < ·)) (j : Nat) :
    l = l.filter (fun i => decide (i < j)) ++ (if j ∈ l then [j] else []) ++
      l.filter (fun i => decide (j < i)) := by
  induction l with
  | nil => simp
  | cons a t ih =>
    rw [List.pairwise_cons] at hs
    have iht := ih hs.2
    rcases Nat.lt_trichotomy a j with h | h | h
    · have hja : ¬ j < a := by omega
      have hne : ¬ j = a := by omega
      by_cases hjt : j ∈ t
      · have hm : j ∈ a :: t := List.mem_cons_of_mem _ hjt
        rw [if_pos hjt] at iht
        rw [if_pos hm]
        simp only [List.filter_cons, h, hja, decide_True, decide_False, if_true, if_false,
          List.cons_append, Bool.false_eq_true]
        exact congrArg _ iht
      · have hm : j ∉ a :: t := by simp [hne, hjt]
        rw [if_neg hjt] at iht
        rw [if_neg hm]
        simp only [List.filter_cons, h, hja, decide_True, decide_False, if_true, if_false,
          List.cons_append, Bool.false_eq_true]
        exact congrArg _ iht
    · subst h
      have hnot : a ∉ t := fun hm => Nat.lt_irrefl _ (hs.1 a hm)
      have e1 : t.filter (fun i => decide (i < a)) = [] := by
        rw [List.filter_eq_nil_iff]; intro b hb; have := hs.1 b hb; simp; omega
      have e2 : t.filter (fun i => decide (a < i)) = t := by
        rw [List.filter_eq_self]; intro b hb; have := hs.1 b hb; simpa using this
      simp [List.filter_cons, e1, e2]
    · have hnot : j ∉ t := fun hm => by have := hs.1 j hm; omega
      have hne : ¬ j = a := by omega
      have e1 : t.filter (fun i => decide (i < j)) = [] := by
        rw [List.filter_eq_nil_iff]; intro b hb; have := hs.1 b hb; simp; omega
      have e2 : t.filter (fun i => decide (j < i)) = t := by
        rw [List.filter_eq_self]; intro b hb; have := hs.1 b hb; simp; omega
      have haj : ¬ a < j := by omega
      simp [List.filter_cons, e1, e2, h, haj, hnot, hne]

theorem slots_split (u j : Nat) :
    slots u = slots_below u j ++ (if j ∈ slots u then [j] else []) ++ slots_above u j :=
  pairwise_lt_split (slots u) (slots_pairwise u) j

theorem slots_land_mask (u j : Nat) :
    slots (u &&& (2 ^ j - 1)) = slots_below u j := by
  simp only [slots, slots_below, List.filter_filter]
  apply List.filter_congr
  intro i _
  rw [Nat.testBit_and, Nat.testBit_two_pow_sub_one, Bool.and_comm]

theorem index_eq (u j : Nat) (hu : u < U32) :
    count_bits (u &&& (1 <<< j - 1)) = (slots_below u j).length := by
  rw [Nat.one_shiftLeft, count_bits_eq _ (lt_of_le_of_lt Nat.and_le_left hu), slots_land_mask]

theorem or_bit_lt (u j : Nat) (hu : u < U32) (hj : j < 32) : u ||| 1 <<< j < U32 := by
  rw [Nat.one_shiftLeft]
  have h1 : u < 2 ^ 32 := hu
  have h2 : 2 ^ j < 2 ^ 32 := Nat.pow_lt_pow_right (by norm_num) hj
  exact Nat.or_lt_two_pow h1 h2

theorem slots_or_below (u j : Nat) : slots_below (u ||| 1 <<< j) j = slots_below u j := by
  simp only [slots, slots_below, List.filter_filter]
  apply List.filter_congr
  intro i _
  rw [Nat.one_shiftLeft, Nat.testBit_or, Nat.testBit_two_pow]
  by_cases h : i < j
  · have : ¬ j = i := by omega
    simp [h, this]
  · simp [h]

theorem slots_or_above (u j : Nat) : slots_above (u ||| 1 <<< j) j = slots_above u j := by
  simp only [slots, slots_above, List.filter_filter]
  apply List.filter_congr
  intro i _
  rw [Nat.one_shiftLeft, Nat.testBit_or, Nat.testBit_two_pow]
  by_cases h : j < i
  · have : ¬ j = i := by omega
    simp [h, this]
  · simp [h]

theorem slots_or (u j : Nat) (hj : j < 32) :
    slots (u ||| 1 <<< j) = slots_below u j ++ j :: slots_above u j := by
  have h := slots_split (u ||| 1 <<< j) j
  have hm : j ∈ slots (u ||| 1 <<< j) := by
    rw [mem_slots, Nat.one_shiftLeft, Nat.testBit_or, Nat.testBit_two_pow]; simp [hj]
  rw [slots_or_below, slots_or_above, if_pos hm] at h
  simpa using h

theorem slots_of_mem (u j : Nat) (hm : j ∈ slots u) :
    slots u = slots_below u j ++ j :: slots_above u j := by
  have h := slots_split u j
  rw [if_pos hm] at h
  simpa using h

theorem slots_of_not_mem (u j : Nat) (hm : j ∉ slots u) :
    slots u = slots_below u j ++ slots_above u j := by
  have h := slots_split u j
  rw [if_neg hm] at h
  simpa using h

theorem set_bit_off_lt (u j : Nat) (hu : u < U32) : set_bit_off u j < U32 := by
  unfold set_bit_off
  split
  · exact lt_of_le_of_lt Nat.and_le_left hu
  · exact hu

theorem testBit_set_bit_off (u j i : Nat) (hj : j < 32) (hi : i < 32) :
    (set_bit_off u j).testBit i = (u.testBit i && decide (i ≠ j)) := by
  unfold set_bit_off
  rw [if_pos hj, Nat.testBit_and, Nat.testBit_xor, Nat.one_shiftLeft, Nat.testBit_two_pow]
  have : (0xffffffff : Nat) = 2 ^ 32 - 1 := by norm_num
  rw [this, Nat.testBit_two_pow_sub_one]
  by_cases h : j = i
  · subst h; simp [hi]
  · have h' : ¬ i = j := fun e => h e.symm
    simp [hi, h, h']

theorem slots_set_bit_off (u j : Nat) (hj : j < 32) :
    slots (set_bit_off u j) = slots_below u j ++ slots_above u j := by
  have hnm : j ∉ slots (set_bit_off u j) := by
    rw [mem_slots, testBit_set_bit_off u j j hj hj]; simp
  rw [slots_of_not_mem _ _ hnm]
  congr 1
  · simp only [slots, slots_below, List.filter_filter]
    apply List.filter_congr
    intro i hi
    rw [List.mem_range] at hi
    rw [testBit_set_bit_off u j i hj hi]
    by_cases h : i < j
    · have : i ≠ j := by omega
      simp [h, this]
    · simp [h]
  · simp only [slots, slots_above, List.filter_filter]
    apply List.filter_congr
    intro i hi
    rw [List.mem_range] at hi
    rw [testBit_set_bit_off u j i hj hi]
    by_cases h : j < i
    · have : i ≠ j := by omega
      simp [h, this]
    · simp [h]

/-! ## Paths, keys and reference arrays: facts -/

variable {K V : Type}

/-! ## Paths -/

theorem slice_lt (h l : Nat) : slice h l < 32 := by
  unfold slice
  exact Nat.and_lt_two_pow _ (by norm_num : (0x1f : Nat) < 2 ^ 5)

theorem onPath_nil (h : Nat) : OnPath [] h := by
  simp [OnPath]

theorem onPath_append (path : List Nat) (j h : Nat) :
    OnPath (path ++ [j]) h ↔ OnPath path h ∧ slice h path.length = j := by
  unfold OnPath
  rw [List.length_append, List.length_singleton, List.range_succ, List.map_append,
    List.map_singleton]
  constructor
  · intro e
    have := List.append_inj e (by simp)
    exact ⟨this.1, by simpa using this.2⟩
  · rintro ⟨e1, e2⟩
    rw [e1, e2]

theorem onPath_slice {path : List Nat} {h : Nat} (hp : OnPath path h) (l : Nat)
    (hl : l < path.length) : slice h l = path.getD l 0 := by
  unfold OnPath at hp
  have : path[l]? = some (slice h l) := by
    conv_lhs => rw [← hp]
    simp [hl]
  simp [List.getD, this]

theorem testBit_slice (h l b : Nat) : (slice h l).testBit b = (decide (b < 5) && h.testBit (l * 5 + b)) := by
  unfold slice
  have : (0x1f : Nat) = 2 ^ 5 - 1 := by norm_num
  rw [Nat.testBit_and, this, Nat.testBit_two_pow_sub_one, Nat.testBit_shiftRight, Bool.and_comm]

theorem eq_of_slices (h1 h2 : Nat) (hl1 : h1 < U32) (hl2 : h2 < U32)
    (hs : ∀ l, l < 7 → slice h1 l = slice h2 l) : h1 = h2 := by
  apply Nat.eq_of_testBit_eq
  intro i
  by_cases hi : i < 35
  · have e := congrArg (fun s => Nat.testBit s (i % 5)) (hs (i / 5) (by omega))
    simp only [testBit_slice] at e
    have h5 : i % 5 < 5 := Nat.mod_lt _ (by norm_num)
    have hi' : i / 5 * 5 + i % 5 = i := Nat.div_add_mod' i 5
    simpa [h5, hi'] using e
  · have b1 : h1 < 2 ^ i := lt_of_lt_of_le hl1 (by
      have : (2:Nat) ^ 32 ≤ 2 ^ i := Nat.pow_le_pow_right (by norm_num) (by omega)
      simpa [U32] using this)
    have b2 : h2 < 2 ^ i := lt_of_lt_of_le hl2 (by
      have : (2:Nat) ^ 32 ≤ 2 ^ i := Nat.pow_le_pow_right (by norm_num) (by omega)
      simpa [U32] using this)
    rw [Nat.testBit_lt_two_pow b1, Nat.testBit_lt_two_pow b2]

theorem onPath_full_eq {path : List Nat} {h1 h2 : Nat} (hlen : path.length = 7)
    (hp1 : OnPath path h1) (hp2 : OnPath path h2) (hl1 : h1 < U32) (hl2 : h2 < U32) : h1 = h2 := by
  apply eq_of_slices h1 h2 hl1 hl2
  intro l hl
  rw [onPath_slice hp1 l (by omega), onPath_slice hp2 l (by omega)]

theorem onPath_prefix {path : List Nat} {j h : Nat} (hp : OnPath (path ++ [j]) h) : OnPath path h :=
  ((onPath_append path j h).mp hp).1

/-! ## Matching of keys -/

theorem keyvalue_match_get_eq_some {compare : K → K → Bool} {kv : KeyValue K V} {key : K}
    {hash : Nat} {v : V} :
    keyvalue_match_get compare kv key hash = some v ↔
      (kv.hash = hash ∧ compare key kv.first = true) ∧ kv.second = v := by
  unfold keyvalue_match_get
  by_cases h1 : kv.hash = hash <;> by_cases h2 : compare key kv.first = true <;> simp [h1, h2]

theorem keyvalue_match_get_eq_none {compare : K → K → Bool} {kv : KeyValue K V} {key : K}
    {hash : Nat} :
    keyvalue_match_get compare kv key hash = none ↔
      ¬ (kv.hash = hash ∧ compare key kv.first = true) := by
  unfold keyvalue_match_get
  by_cases h1 : kv.hash = hash <;> by_cases h2 : compare key kv.first = true <;> simp [h1, h2]

theorem keyvalue_match_get_of {compare : K → K → Bool} {kv : KeyValue K V} {key : K}
    {hash : Nat} (h : kv.hash = hash ∧ compare key kv.first = true) :
    keyvalue_match_get compare kv key hash = some kv.second :=
  keyvalue_match_get_eq_some.mpr ⟨h, rfl⟩

theorem same_key_refl {compare : K → K → Bool} (hc : CompareEquiv compare) (a : KeyValue K V) :
    same_key compare a a := ⟨rfl, hc.refl _⟩

theorem same_key_symm {compare : K → K → Bool} (hc : CompareEquiv compare) {a b : KeyValue K V}
    (h : same_key compare a b) : same_key compare b a := ⟨h.1.symm, hc.symm _ _ h.2⟩

theorem same_key_trans {compare : K → K → Bool} (hc : CompareEquiv compare) {a b c : KeyValue K V}
    (h1 : same_key compare a b) (h2 : same_key compare b c) : same_key compare a c :=
  ⟨h1.1.trans h2.1, hc.trans _ _ _ h1.2 h2.2⟩

/-! ## The cells of a subtree -/

theorem subtree_eq (pool : PMapPool K V) (n : Node K V) :
    Node.subtree pool n = n.values pool ++ n.descendants pool := by
  cases n with
  | mk u cs t v => simp [Node.subtree, Node.descendants, Node.child_array]

theorem subtree_list_nil (pool : PMapPool K V) :
    Node.subtree_list pool ([] : List (Node K V)) = [] := by
  simp [Node.subtree_list]

theorem subtree_list_cons (pool : PMapPool K V) (c : Node K V) (cs : List (Node K V)) :
    Node.subtree_list pool (c :: cs) = Node.subtree pool c ++ Node.subtree_list pool cs := by
  simp [Node.subtree_list]

theorem subtree_list_append (pool : PMapPool K V) (l1 l2 : List (Node K V)) :
    Node.subtree_list pool (l1 ++ l2) = Node.subtree_list pool l1 ++ Node.subtree_list pool l2 := by
  induction l1 with
  | nil => simp [subtree_list_nil]
  | cons c cs ih => simp [subtree_list_cons, ih]

theorem mem_subtree_list {pool : PMapPool K V} {cs : List (Node K V)} {x : KeyValue K V} :
    x ∈ Node.subtree_list pool cs ↔ ∃ c ∈ cs, x ∈ Node.subtree pool c := by
  induction cs with
  | nil => simp [subtree_list_nil]
  | cons c cs ih => simp [subtree_list_cons, ih]

/-! ## Reference arrays -/

theorem forall₂_append_split {α β : Type} {R : α → β → Prop} :
    ∀ (A B : List α) (cs : List β), List.Forall₂ R (A ++ B) cs →
      ∃ A' B', cs = A' ++ B' ∧ List.Forall₂ R A A' ∧ List.Forall₂ R B B' := by
  intro A
  induction A with
  | nil => intro B cs h; exact ⟨[], cs, rfl, List.Forall₂.nil, h⟩
  | cons a A ih =>
    intro B cs h
    rw [List.cons_append] at h
    rcases List.forall₂_cons_left_iff.mp h with ⟨c, cs', hac, hrest, rfl⟩
    rcases ih B cs' hrest with ⟨A', B', rfl, hA, hB⟩
    exact ⟨c :: A', B', rfl, List.Forall₂.cons hac hA, hB⟩

theorem children_split {β : Type} {R : Nat → β → Prop} {u j : Nat} {cs : List β}
    (h : List.Forall₂ R (slots u) cs) (hj : j ∈ slots u) :
    ∃ A c C, cs = A ++ c :: C ∧ List.Forall₂ R (slots_below u j) A ∧ R j c ∧
      List.Forall₂ R (slots_above u j) C := by
  rw [slots_of_mem u j hj] at h
  rcases forall₂_append_split _ _ _ h with ⟨A, B, rfl, hA, hB⟩
  rcases List.forall₂_cons_left_iff.mp hB with ⟨c, C, hc, hC, rfl⟩
  exact ⟨A, c, C, rfl, hA, hc, hC⟩

theorem children_split_not {β : Type} {R : Nat → β → Prop} {u j : Nat} {cs : List β}
    (h : List.Forall₂ R (slots u) cs) (hj : j ∉ slots u) :
    ∃ A C, cs = A ++ C ∧ List.Forall₂ R (slots_below u j) A ∧
      List.Forall₂ R (slots_above u j) C := by
  rw [slots_of_not_mem u j hj] at h
  exact forall₂_append_split _ _ _ h

theorem getElem?_append_cons_length {α : Type} (A : List α) (c : α) (C : List α) :
    (A ++ c :: C)[A.length]? = some c := by
  induction A with
  | nil => simp
  | cons a A ih => simpa using ih

theorem get_child_of_mem (u : Nat) (A C : List (Node K V)) (c : Node K V) (t : NodeType)
    (v : NodeValue K V) (j : Nat) (hu : u < U32) (hj : j ∈ slots u)
    (hA : A.length = (slots_below u j).length) :
    (Node.mk u (A ++ c :: C) t v).get_child_by_fieldindex j = some c := by
  unfold Node.get_child_by_fieldindex Node.index_in_use Node.index
  simp only [Node.used, Node.child_array]
  rw [bit_is_on_eq, (mem_slots.mp hj).2, if_pos rfl, index_eq u j hu, ← hA]
  exact getElem?_append_cons_length A c C

theorem get_child_of_not_mem (n : Node K V) (j : Nat) (hj32 : j < 32) (hj : j ∉ slots n.used) :
    n.get_child_by_fieldindex j = none := by
  unfold Node.get_child_by_fieldindex Node.index_in_use
  rw [bit_is_on_eq]
  have : n.used.testBit j = false := by
    by_contra hc
    exact hj (mem_slots.mpr ⟨hj32, by simpa using hc⟩)
  simp [this]

theorem slots_zero : slots 0 = [] := by
  simp [slots]

/-! ## Pools that differ off a path -/

theorem PoolFrame.refl (pool : PMapPool K V) (P : Nat → Prop) : PoolFrame pool pool P :=
  fun _ _ h _ => h

theorem PoolFrame.mono {pool pool1 : PMapPool K V} {P Q : Nat → Prop}
    (h : PoolFrame pool pool1 P) (hq : ∀ x, Q x → P x) : PoolFrame pool pool1 Q :=
  fun id l hl ⟨x, hx, hqx⟩ => h id l hl ⟨x, hx, hq _ hqx⟩

theorem PoolFrame.trans {pool pool1 pool2 : PMapPool K V} {P : Nat → Prop}
    (h1 : PoolFrame pool pool1 P) (h2 : PoolFrame pool1 pool2 P) : PoolFrame pool pool2 P :=
  fun id l hl hx => h2 id l (h1 id l hl hx) hx

theorem forall₂_right_mem {α β : Type} {R : α → β → Prop} {js : List α} {cs : List β}
    (h : List.Forall₂ R js cs) {c : β} (hc : c ∈ cs) : ∃ j ∈ js, R j c := by
  induction h with
  | nil => cases hc
  | cons hab _ ih =>
    rcases List.mem_cons.mp hc with rfl | hc'
    · exact ⟨_, List.mem_cons_self _ _, hab⟩
    · rcases ih hc' with ⟨j, hj, hr⟩
      exact ⟨j, List.mem_cons_of_mem _ hj, hr⟩

theorem frame_value {compare : K → K → Bool} {hashfun : K → Nat} {pool pool1 : PMapPool K V}
    {path : List Nat} {n : Node K V} (hw : WFValue compare hashfun pool path n)
    (hf : PoolFrame pool pool1 (OnPath path)) :
    WFValue compare hashfun pool1 path n ∧ n.values pool1 = n.values pool ∧
      (∀ key hash, node_match_get compare pool1 n key hash = node_match_get compare pool n key hash)
      ∧ n.hash_value pool1 = n.hash_value pool := by
  cases n with
  | mk u cs t v =>
    cases t <;> cases v <;>
      simp only [WFValue, Node.type, Node.value, Node.values, node_match_get, Node.hash_value] at hw ⊢
      <;> try exact (False.elim hw)
    · exact ⟨hw, trivial, fun _ _ => trivial, trivial⟩
    · rcases hw with ⟨hlen, l, hl, h2, hall, hpw⟩
      have hne : ∃ x ∈ l, OnPath path x.hash := by
        cases l with
        | nil => simp at h2
        | cons x _ => exact ⟨x, List.mem_cons_self _ _, (hall x (List.mem_cons_self _ _)).2⟩
      have hl1 := hf _ l hl hne
      refine ⟨⟨hlen, l, hl1, h2, hall, hpw⟩, ?_, ?_, ?_⟩
      · rw [hl, hl1]
      · intro key hash; rw [hl, hl1]
      · rw [hl, hl1]

theorem wfnode_congr {compare : K → K → Bool} {hashfun : K → Nat} {pool : PMapPool K V}
    (r : Nat) (path : List Nat) (u : Nat) (cs : List (Node K V)) (t t1 : NodeType)
    (v v1 : NodeValue K V) (h : WFNode compare hashfun pool r path (Node.mk u cs t v)) :
    WFNode compare hashfun pool r path (Node.mk u cs t1 v1) := by
  cases r <;> simpa [WFNode, Node.used, Node.child_array] using h

theorem lookup_congr (compare : K → K → Bool) (pool : PMapPool K V) (key : K) (hash left level : Nat)
    (u : Nat) (cs : List (Node K V)) (t t1 : NodeType) (v v1 : NodeValue K V) :
    try_get_value_loop compare pool key hash left level (Node.mk u cs t v) =
      try_get_value_loop compare pool key hash left level (Node.mk u cs t1 v1) := by
  cases left <;> rfl

theorem get_child_mem {n c : Node K V} {j : Nat} (h : n.get_child_by_fieldindex j = some c) :
    c ∈ n.child_array := by
  unfold Node.get_child_by_fieldindex at h
  split at h
  · exact List.getElem?_mem h
  · cases h

theorem lookup_leaf (compare : K → K → Bool) (pool : PMapPool K V) (key : K)
    (hash left level : Nat) (n : Node K V) (hu : n.used = 0) :
    try_get_value_loop compare pool key hash left level n = none := by
  cases left with
  | zero => rfl
  | succ left =>
    have : n.get_child_by_hash_and_depth hash level = none := by
      unfold Node.get_child_by_hash_and_depth Node.get_child_by_fieldindex Node.index_in_use
      rw [bit_is_on_eq, hu]; simp
    simp [try_get_value_loop, this]

theorem subtree_list_congr {pool pool1 : PMapPool K V} (cs : List (Node K V))
    (h : ∀ c ∈ cs, Node.subtree pool1 c = Node.subtree pool c) :
    Node.subtree_list pool1 cs = Node.subtree_list pool cs := by
  induction cs with
  | nil => simp [subtree_list_nil]
  | cons c cs ih =>
    rw [subtree_list_cons, subtree_list_cons, h c (List.mem_cons_self _ _),
      ih (fun c' hc' => h c' (List.mem_cons_of_mem _ hc'))]

theorem frame_node {compare : K → K → Bool} {hashfun : K → Nat} {pool pool1 : PMapPool K V} :
    ∀ (r : Nat) (path : List Nat) (n : Node K V), WFNode compare hashfun pool r path n →
      PoolFrame pool pool1 (OnPath path) →
      WFNode compare hashfun pool1 r path n ∧ n.descendants pool1 = n.descendants pool ∧
      ∀ key hash left level, try_get_value_loop compare pool1 key hash left level n =
        try_get_value_loop compare pool key hash left level n := by
  intro r
  induction r with
  | zero =>
    intro path n hw hf
    have hw' := hw
    simp only [WFNode] at hw
    refine ⟨hw', ?_, ?_⟩
    · simp [Node.descendants, hw.2, subtree_list_nil]
    · intro key hash left level
      rw [lookup_leaf _ _ _ _ _ _ _ hw.1, lookup_leaf _ _ _ _ _ _ _ hw.1]
  | succ r ih =>
    intro path n hw hf
    simp only [WFNode] at hw
    rcases hw with ⟨hu, hall⟩
    have key_fact : ∀ c ∈ n.child_array,
        c.values pool1 = c.values pool ∧ c.descendants pool1 = c.descendants pool ∧
        (∀ key hash, node_match_get compare pool1 c key hash = node_match_get compare pool c key hash) ∧
        ∀ key hash left level, try_get_value_loop compare pool1 key hash left level c =
          try_get_value_loop compare pool key hash left level c := by
      intro c hc
      rcases forall₂_right_mem hall hc with ⟨j, _, hv, hn, _⟩
      have hfj : PoolFrame pool pool1 (OnPath (path ++ [j])) := hf.mono (fun x hx => onPath_prefix hx)
      have f1 := frame_value hv hfj
      have f2 := ih _ c hn hfj
      exact ⟨f1.2.1, f2.2.1, f1.2.2.1, f2.2.2⟩
    refine ⟨?_, ?_, ?_⟩
    · simp only [WFNode]
      refine ⟨hu, ?_⟩
      have hall' : List.Forall₂ (fun j c => c ∈ n.child_array ∧
          (WFValue compare hashfun pool (path ++ [j]) c ∧
          WFNode compare hashfun pool r (path ++ [j]) c ∧
          ∀ a ∈ c.values pool, ∀ b ∈ c.descendants pool, ¬ same_key compare a b))
          (slots n.used) n.child_array := by
        rw [List.forall₂_iff_get] at hall ⊢
        refine ⟨hall.1, fun i h1 h2 => ⟨List.get_mem _ _ _, hall.2 i h1 h2⟩⟩
      refine hall'.imp ?_
      rintro j c ⟨hc, hv, hn, hq⟩
      have hfj : PoolFrame pool pool1 (OnPath (path ++ [j])) := hf.mono (fun x hx => onPath_prefix hx)
      have kf := key_fact c hc
      refine ⟨(frame_value hv hfj).1, (ih _ c hn hfj).1, ?_⟩
      rw [kf.1, kf.2.1]; exact hq
    · unfold Node.descendants
      apply subtree_list_congr
      intro c hc
      have kf := key_fact c hc
      rw [subtree_eq, subtree_eq, kf.1, kf.2.1]
    · intro key hash left level
      cases left with
      | zero => rfl
      | succ left =>
        simp only [try_get_value_loop]
        cases hg : n.get_child_by_hash_and_depth hash level with
        | none => rfl
        | some c =>
          have kf := key_fact c (get_child_mem hg)
          simp only [kf.2.2.1, kf.2.2.2]

/-! ## The new reference array of `node_insert_replace_refarray` -/

theorem pairwise_lt_position (l : List Nat) (hs : l.Pairwise (· < ·)) (p : Nat) (hp : p < l.length) :
    (l.filter (fun i => decide (i < l[p]))).length = p := by
  induction l generalizing p with
  | nil => simp at hp
  | cons a t ih =>
    rw [List.pairwise_cons] at hs
    cases p with
    | zero =>
      simp only [List.getElem_cons_zero]
      have : (a :: t).filter (fun i => decide (i < a)) = [] := by
        rw [List.filter_eq_nil_iff]
        intro b hb
        rcases List.mem_cons.mp hb with rfl | hb'
        · simp
        · have := hs.1 b hb'; simp; omega
      rw [this]; rfl
    | succ p =>
      simp only [List.getElem_cons_succ]
      have hp' : p < t.length := by simpa using hp
      have hlt : a < t[p] := hs.1 _ (List.getElem_mem _)
      rw [List.filter_cons, if_pos (by simpa using hlt), List.length_cons, ih hs.2 p hp']

theorem slots_below_position (u p : Nat) (hp : p < (slots u).length) :
    (slots_below u ((slots u)[p])).length = p :=
  pairwise_lt_position (slots u) (slots_pairwise u) p hp

theorem refarray_written_map_some (l : List (Node K V)) :
    refarray_written (l.map some) = some l := by
  induction l with
  | nil => rfl
  | cons a l ih => simp [refarray_written, ih]

theorem refarray_copy_seq (pool : PMapPool K V) (parent : Node K V) (level : Nat) :
    ∀ (rest done : List (Node K V)) (X : List (Option (Node K V))),
      rest.length ≤ X.length →
      (∀ i (hi : i < rest.length), ∃ h, (rest[i]).hash_value pool = some h ∧
        parent.get h level = some (done.length + i)) →
      refarray_copy pool parent level rest (done.map some ++ X) =
        some (done.map some ++ rest.map some ++ X.drop rest.length) := by
  intro rest
  induction rest with
  | nil => intro done X _ _; simp [refarray_copy]
  | cons c rest ih =>
    intro done X hlen hpos
    rcases hpos 0 (by simp) with ⟨h, hh, hg⟩
    simp only [List.getElem_cons_zero, Nat.add_zero] at hh hg
    cases X with
    | nil => simp at hlen
    | cons x X =>
      have hset : (done.map some ++ x :: X).set done.length (some c) =
          (done ++ [c]).map some ++ X := by
        have : done.length = (done.map some).length := by simp
        rw [this, List.set_append_right _ _ (le_refl _)]
        simp
      simp only [refarray_copy, hh, hg, hset]
      rw [ih (done ++ [c]) X (by simpa using hlen)]
      · simp
      · intro i hi
        rcases hpos (i + 1) (by simpa using hi) with ⟨h', hh', hg'⟩
        refine ⟨h', by simpa using hh', ?_⟩
        rw [hg']; simp; omega

theorem replicate_set {α : Type} (a c : Nat) (x d : α) :
    (List.replicate (a + c + 1) d).set a x = List.replicate a d ++ x :: List.replicate c d := by
  induction a with
  | zero => simp [List.replicate_succ]
  | succ a ih =>
    have : a + 1 + c + 1 = (a + c + 1) + 1 := by omega
    rw [this, List.replicate_succ, List.set_cons_succ, ih, List.replicate_succ, List.cons_append]

theorem refarray_copy_append (pool : PMapPool K V) (parent : Node K V) (level : Nat)
    (l1 l2 : List (Node K V)) (arr : List (Option (Node K V))) :
    refarray_copy pool parent level (l1 ++ l2) arr =
      (refarray_copy pool parent level l1 arr).bind (refarray_copy pool parent level l2) := by
  induction l1 generalizing arr with
  | nil => simp [refarray_copy]
  | cons c l1 ih =>
    simp only [List.cons_append, refarray_copy]
    cases c.hash_value pool with
    | none => rfl
    | some h =>
      simp only []
      cases parent.get h level with
      | none => rfl
      | some r => simpa using ih _

theorem node_get_eq (n : Node K V) (key level : Nat) :
    n.get key level =
      if count_bits (n.used &&& (1 <<< slice key level - 1)) < count_bits n.used then
        some (count_bits (n.used &&& (1 <<< slice key level - 1))) else none := rfl

theorem node_insert_replace_refarray_eq (pool : PMapPool K V) (u : Nat) (A C : List (Node K V))
    (t : NodeType) (v : NodeValue K V) (newnode : Node K V) (j level : Nat)
    (hu : u < U32) (hj32 : j < 32) (hj : j ∉ slots u)
    (hA : List.Forall₂ (fun s c => ∃ h, c.hash_value pool = some h ∧ slice h level = s)
      (slots_below u j) A)
    (hC : List.Forall₂ (fun s c => ∃ h, c.hash_value pool = some h ∧ slice h level = s)
      (slots_above u j) C) :
    node_insert_replace_refarray pool (Node.mk u (A ++ C) t v) newnode j level =
      some (Node.mk (u ||| 1 <<< j) (A ++ newnode :: C) t v) := by
  have hu' : u ||| 1 <<< j < U32 := or_bit_lt u j hu hj32
  have hmod : (u ||| 1 <<< j) % U32 = u ||| 1 <<< j := Nat.mod_eq_of_lt hu'
  have hAl : (slots_below u j).length = A.length := hA.length_eq
  have hCl : (slots_above u j).length = C.length := hC.length_eq
  have hsl : slots u = slots_below u j ++ slots_above u j := slots_of_not_mem u j hj
  have hsl' : slots (u ||| 1 <<< j) = slots_below u j ++ j :: slots_above u j := slots_or u j hj32
  have hsize : count_bits u = A.length + C.length := by
    rw [count_bits_eq u hu, hsl, List.length_append, hAl, hCl]
  have hsize' : count_bits (u ||| 1 <<< j) = A.length + C.length + 1 := by
    rw [count_bits_eq _ hu', hsl', List.length_append, List.length_cons, hAl, hCl]; omega
  have hidx : count_bits ((u ||| 1 <<< j) &&& (1 <<< j - 1)) = A.length := by
    rw [index_eq _ _ hu', slots_or_below, hAl]
  -- positions of the old children in the new array
  have hposA : ∀ i (hi : i < A.length), ∃ h, (A[i]).hash_value pool = some h ∧
      (Node.mk (u ||| 1 <<< j) [] t v).get h level = some (([] : List (Node K V)).length + i) := by
    intro i hi
    have hi' : i < (slots_below u j).length := by omega
    rcases (List.forall₂_iff_get.mp hA).2 i hi' hi with ⟨h, hh, hs⟩
    refine ⟨h, by simpa using hh, ?_⟩
    have hp : i < (slots (u ||| 1 <<< j)).length := by
      rw [hsl', List.length_append, List.length_cons]; omega
    have hget : (slots (u ||| 1 <<< j))[i] = slice h level := by
      simp only [hsl']
      rw [List.getElem_append_left hi']
      simpa using hs.symm
    have := slots_below_position (u ||| 1 <<< j) i hp
    rw [hget] at this
    rw [node_get_eq]
    simp only [Node.used, index_eq _ _ hu', this, hsize', List.length_nil, Nat.zero_add]
    rw [if_pos (by omega)]
  have hposC : ∀ i (hi : i < C.length), ∃ h, (C[i]).hash_value pool = some h ∧
      (Node.mk (u ||| 1 <<< j) [] t v).get h level = some ((A ++ [newnode]).length + i) := by
    intro i hi
    have hi' : i < (slots_above u j).length := by omega
    rcases (List.forall₂_iff_get.mp hC).2 i hi' hi with ⟨h, hh, hs⟩
    refine ⟨h, by simpa using hh, ?_⟩
    have hp : A.length + 1 + i < (slots (u ||| 1 <<< j)).length := by
      rw [hsl', List.length_append, List.length_cons]; omega
    have hget : (slots (u ||| 1 <<< j))[A.length + 1 + i] = slice h level := by
      simp only [hsl']
      rw [List.getElem_append_right (by omega)]
      have : A.length + 1 + i - (slots_below u j).length = i + 1 := by omega
      simp only [this, List.getElem_cons_succ]
      simpa using hs.symm
    have := slots_below_position (u ||| 1 <<< j) (A.length + 1 + i) hp
    rw [hget] at this
    rw [node_get_eq]
    simp only [Node.used, index_eq _ _ hu', this, hsize', List.length_append,
      List.length_singleton]
    rw [if_pos (by omega)]
  unfold node_insert_replace_refarray
  simp only [Node.size, Node.used, Node.child_array, Node.type, Node.value, Node.index, hmod,
    hsize, hidx, List.length_append]
  rw [if_neg (by omega)]
  have htake : (A ++ C).take (A.length + C.length) = A ++ C := by
    rw [List.take_of_length_le]; simp
  have harr : (List.replicate (A.length + C.length + 1) (none : Option (Node K V))).set A.length
      (some newnode) = ([] : List (Node K V)).map some ++
        (List.replicate A.length none ++ some newnode :: List.replicate C.length none) := by
    rw [replicate_set]; rfl
  rw [htake, harr, refarray_copy_append]
  rw [refarray_copy_seq pool _ level A [] _ (by simp) hposA]
  simp only [List.map_nil, List.nil_append]
  have h1 : (List.replicate A.length (none : Option (Node K V)) ++
      some newnode :: List.replicate C.length none).drop A.length =
      some newnode :: List.replicate C.length none := by
    rw [List.drop_append_of_le_length (by simp)]
    simp
  have h2 : A.map some ++ some newnode :: List.replicate C.length (none : Option (Node K V)) =
      (A ++ [newnode]).map some ++ List.replicate C.length none := by simp
  rw [h1, h2, Option.some_bind, refarray_copy_seq pool _ level C (A ++ [newnode]) _ (by simp) hposC]
  have h3 : (A ++ [newnode]).map some ++ C.map some ++
      (List.replicate C.length (none : Option (Node K V))).drop C.length =
      (A ++ newnode :: C).map some := by simp
  rw [h3]
  simp only [refarray_written_map_some]

/-! ## Children by slot -/

theorem lookup_zip_not_mem {β : Type} (j : Nat) :
    ∀ (l : List Nat) (cs : List β), j ∉ l → (l.zip cs).lookup j = none := by
  intro l
  induction l with
  | nil => intro cs _; simp
  | cons a l ih =>
    intro cs hj
    cases cs with
    | nil => simp
    | cons c cs =>
      have h1 : ¬ j = a := fun e => hj (e ▸ List.mem_cons_self _ _)
      have h2 : j ∉ l := fun h => hj (List.mem_cons_of_mem _ h)
      simp only [List.zip_cons_cons, List.lookup_cons]
      have : (j == a) = false := by simpa using h1
      rw [this]; exact ih cs h2

theorem lookup_zip_self {β : Type} (j : Nat) (c : β) (Ab : List Nat) (C : List β) :
    ∀ (B : List Nat) (A : List β), B.length = A.length → j ∉ B →
      ((B ++ j :: Ab).zip (A ++ c :: C)).lookup j = some c := by
  intro B
  induction B with
  | nil =>
    intro A hl _
    cases A with
    | nil => simp [List.lookup_cons]
    | cons _ _ => simp at hl
  | cons b B ih =>
    intro A hl hj
    cases A with
    | nil => simp at hl
    | cons a A =>
      have h1 : ¬ j = b := fun e => hj (e ▸ List.mem_cons_self _ _)
      have h2 : j ∉ B := fun h => hj (List.mem_cons_of_mem _ h)
      have : (j == b) = false := by simpa using h1
      simp only [List.cons_append, List.zip_cons_cons, List.lookup_cons, this]
      exact ih A (by simpa using hl) h2

theorem lookup_zip_set {β : Type} (j j1 : Nat) (c c1 : β) (Ab : List Nat) (C : List β)
    (hne : j1 ≠ j) :
    ∀ (B : List Nat) (A : List β), B.length = A.length →
      ((B ++ j :: Ab).zip (A ++ c1 :: C)).lookup j1 = ((B ++ j :: Ab).zip (A ++ c :: C)).lookup j1 := by
  intro B
  induction B with
  | nil =>
    intro A hl
    cases A with
    | nil =>
      have : (j1 == j) = false := by simpa using hne
      simp [List.lookup_cons, this]
    | cons _ _ => simp at hl
  | cons b B ih =>
    intro A hl
    cases A with
    | nil => simp at hl
    | cons a A =>
      simp only [List.cons_append, List.zip_cons_cons, List.lookup_cons]
      rw [ih A (by simpa using hl)]

theorem lookup_zip_insert {β : Type} (j j1 : Nat) (x : β) (Ab : List Nat) (C : List β)
    (hne : j1 ≠ j) :
    ∀ (B : List Nat) (A : List β), B.length = A.length →
      ((B ++ j :: Ab).zip (A ++ x :: C)).lookup j1 = ((B ++ Ab).zip (A ++ C)).lookup j1 := by
  intro B
  induction B with
  | nil =>
    intro A hl
    cases A with
    | nil =>
      have : (j1 == j) = false := by simpa using hne
      simp [List.lookup_cons, this]
    | cons _ _ => simp at hl
  | cons b B ih =>
    intro A hl
    cases A with
    | nil => simp at hl
    | cons a A =>
      simp only [List.cons_append, List.zip_cons_cons, List.lookup_cons]
      rw [ih A (by simpa using hl)]

theorem not_mem_slots_below (u j : Nat) : j ∉ slots_below u j := by
  simp [slots_below]

theorem get_child_eq_lookup (n : Node K V) (j : Nat) (hj : j < 32) (hu : n.used < U32)
    (hlen : (slots n.used).length = n.child_array.length) :
    n.get_child_by_fieldindex j = ((slots n.used).zip n.child_array).lookup j := by
  cases n with
  | mk u cs t v =>
    simp only [Node.used, Node.child_array] at hu hlen ⊢
    by_cases hm : j ∈ slots u
    · have hs := slots_of_mem u j hm
      have hcs : cs = cs.take (slots_below u j).length ++
          cs.drop (slots_below u j).length := (List.take_append_drop _ _).symm
      have hlt : (slots_below u j).length < cs.length := by
        rw [← hlen]; conv_rhs => rw [hs]
        simp
      have hcs' : cs = cs.take (slots_below u j).length ++
          cs[(slots_below u j).length] :: cs.drop ((slots_below u j).length + 1) := by
        conv_lhs => rw [hcs]
        rw [List.drop_eq_getElem_cons hlt]
      have hAl : (cs.take (slots_below u j).length).length = (slots_below u j).length := by
        rw [List.length_take]; omega
      rw [hcs', get_child_of_mem u _ _ _ t v j hu hm hAl]
      conv_rhs => rw [hs]
      rw [lookup_zip_self j _ _ _ _ _ hAl.symm (not_mem_slots_below u j)]
    · rw [get_child_of_not_mem _ j hj (by simpa [Node.used] using hm),
        lookup_zip_not_mem j _ _ hm]

theorem lookup_step (compare : K → K → Bool) (pool : PMapPool K V) (key : K)
    (hash left level : Nat) (n : Node K V) (hu : n.used < U32)
    (hlen : (slots n.used).length = n.child_array.length) :
    try_get_value_loop compare pool key hash (left + 1) level n =
      match ((slots n.used).zip n.child_array).lookup (slice hash level) with
      | some c => child_lookup compare pool key hash left (level + 1) c
      | none => none := by
  have := get_child_eq_lookup n (slice hash level) (slice_lt _ _) hu hlen
  simp only [try_get_value_loop, Node.get_child_by_hash_and_depth]
  rw [show (hash >>> (level * 5) &&& 0x1f) = slice hash level from rfl, this]
  cases ((slots n.used).zip n.child_array).lookup (slice hash level) with
  | none => rfl
  | some c => rfl

/-! ## Rebuilding a node around one changed child -/

theorem forall₂_imp_mem {α β : Type} {R S : α → β → Prop} {l1 : List α} {l2 : List β}
    (h : List.Forall₂ R l1 l2) (hi : ∀ a b, a ∈ l1 → b ∈ l2 → R a b → S a b) :
    List.Forall₂ S l1 l2 := by
  induction h with
  | nil => exact List.Forall₂.nil
  | cons hab _ ih =>
    refine List.Forall₂.cons (hi _ _ (List.mem_cons_self _ _) (List.mem_cons_self _ _) hab) ?_
    exact ih (fun a b ha hb => hi a b (List.mem_cons_of_mem _ ha) (List.mem_cons_of_mem _ hb))

theorem lookup_mem {β : Type} (j : Nat) (b : β) :
    ∀ (l : List (Nat × β)), l.lookup j = some b → (j, b) ∈ l := by
  intro l
  induction l with
  | nil => intro h; simp at h
  | cons p l ih =>
    intro h
    rcases p with ⟨a, x⟩
    rw [List.lookup_cons] at h
    by_cases e : j = a
    · subst e
      simp at h
      subst h
      exact List.mem_cons_self _ _
    · have : (j == a) = false := by simpa using e
      rw [this] at h
      exact List.mem_cons_of_mem _ (ih h)

theorem mem_slots_below {u j s : Nat} (h : s ∈ slots_below u j) : s < j ∧ s ∈ slots u := by
  simp only [slots_below, List.mem_filter, decide_eq_true_eq] at h
  exact ⟨h.2, h.1⟩

theorem mem_slots_above {u j s : Nat} (h : s ∈ slots_above u j) : j < s ∧ s ∈ slots u := by
  simp only [slots_above, List.mem_filter, decide_eq_true_eq] at h
  exact ⟨h.2, h.1⟩

theorem wfnode_succ_iff {compare : K → K → Bool} {hashfun : K → Nat} {pool : PMapPool K V}
    {depth : Nat} {path : List Nat} {n : Node K V} :
    WFNode compare hashfun pool (depth + 1) path n ↔
      n.used < U32 ∧
        List.Forall₂ (ChildOK compare hashfun pool depth path) (slots n.used) n.child_array :=
  Iff.rfl

theorem sibling_frame {compare : K → K → Bool} {hashfun : K → Nat} {pool pool1 : PMapPool K V}
    {depth : Nat} {path : List Nat} {s : Nat} {x : Node K V} (hash0 : Nat)
    (hx : ChildOK compare hashfun pool depth path s x)
    (hs : s ≠ slice hash0 path.length)
    (hf : PoolFrame pool pool1 (fun h => h ≠ hash0)) :
    ChildOK compare hashfun pool1 depth path s x ∧ Node.subtree pool1 x = Node.subtree pool x ∧
      ∀ key hash left level, child_lookup compare pool1 key hash left level x =
        child_lookup compare pool key hash left level x := by
  have hfj : PoolFrame pool pool1 (OnPath (path ++ [s])) := by
    apply hf.mono
    intro h hp e
    subst e
    exact hs ((onPath_append path s _).mp hp).2.symm
  have f1 := frame_value hx.1 hfj
  have f2 := frame_node depth _ x hx.2.1 hfj
  refine ⟨⟨f1.1, f2.1, ?_⟩, ?_, ?_⟩
  · rw [f1.2.1, f2.2.1]; exact hx.2.2
  · rw [subtree_eq, subtree_eq, f1.2.1, f2.2.1]
  · intro key hash left level
    simp only [child_lookup, f1.2.2.1, f2.2.2]

theorem append_cons_inj {α : Type} {A A1 : List α} {c c1 : α} {C C1 : List α}
    (h : A ++ c :: C = A1 ++ c1 :: C1) (hl : A.length = A1.length) :
    A = A1 ∧ c = c1 ∧ C = C1 := by
  have := List.append_inj h hl
  refine ⟨this.1, ?_, ?_⟩
  · exact (List.cons.inj this.2).1
  · exact (List.cons.inj this.2).2

theorem children_of_wf {compare : K → K → Bool} {hashfun : K → Nat} {pool : PMapPool K V}
    {depth : Nat} {path : List Nat} {u : Nat} {A C : List (Node K V)} {c : Node K V} {j : Nat}
    (hall : List.Forall₂ (ChildOK compare hashfun pool depth path) (slots u) (A ++ c :: C))
    (hjm : j ∈ slots u) (hAl : A.length = (slots_below u j).length) :
    List.Forall₂ (ChildOK compare hashfun pool depth path) (slots_below u j) A ∧
      ChildOK compare hashfun pool depth path j c ∧
      List.Forall₂ (ChildOK compare hashfun pool depth path) (slots_above u j) C := by
  rcases children_split hall hjm with ⟨A1, c1, C1, he, hA, hc, hC⟩
  have hl : A.length = A1.length := by rw [hAl, hA.length_eq]
  rcases append_cons_inj he hl with ⟨rfl, rfl, rfl⟩
  exact ⟨hA, hc, hC⟩

theorem rebuild_child {compare : K → K → Bool} {hashfun : K → Nat}
    (kv : KeyValue K V) (pool pool1 : PMapPool K V) (depth level : Nat) (path : List Nat)
    (u : Nat) (A C : List (Node K V)) (c c1 : Node K V) (t : NodeType) (v : NodeValue K V)
    (hlev : path.length = level)
    (hw : WFNode compare hashfun pool (depth + 1) path (Node.mk u (A ++ c :: C) t v))
    (hjm : slice kv.hash level ∈ slots u)
    (hAl : A.length = (slots_below u (slice kv.hash level)).length)
    (hf : PoolFrame pool pool1 (fun h => h ≠ kv.hash))
    (hc1 : ChildOK compare hashfun pool1 depth path (slice kv.hash level) c1)
    (hsame : ∀ key hash, kv.hash = hash → compare key kv.first = true →
      child_lookup compare pool1 key hash (depth + 1) (level + 1) c1 = some kv.second)
    (hother : ∀ key hash, ¬ (kv.hash = hash ∧ compare key kv.first = true) →
      child_lookup compare pool1 key hash (depth + 1) (level + 1) c1 =
        child_lookup compare pool key hash (depth + 1) (level + 1) c)
    (hsub : ∀ x ∈ Node.subtree pool1 c1, x = kv ∨ x ∈ Node.subtree pool c) :
    InsertPost compare hashfun kv pool pool1 (depth + 1) level path
      (Node.mk u (A ++ c :: C) t v) (Node.mk u (A ++ c1 :: C) t v) := by
  rw [wfnode_succ_iff] at hw
  simp only [Node.used, Node.child_array] at hw
  rcases hw with ⟨hu, hall⟩
  rcases children_of_wf hall hjm hAl with ⟨hA, hc, hC⟩
  have hs := slots_of_mem u _ hjm
  have hAl' : (slots_below u (slice kv.hash level)).length = A.length := hAl.symm
  have hA1 : List.Forall₂ (ChildOK compare hashfun pool1 depth path)
      (slots_below u (slice kv.hash level)) A :=
    forall₂_imp_mem hA (fun s x hs' _ hx =>
      (sibling_frame kv.hash hx (by rw [hlev]; exact Nat.ne_of_lt (mem_slots_below hs').1) hf).1)
  have hC1 : List.Forall₂ (ChildOK compare hashfun pool1 depth path)
      (slots_above u (slice kv.hash level)) C :=
    forall₂_imp_mem hC (fun s x hs' _ hx =>
      (sibling_frame kv.hash hx (by rw [hlev]; exact Nat.ne_of_gt (mem_slots_above hs').1) hf).1)
  have hall1 : List.Forall₂ (ChildOK compare hashfun pool1 depth path) (slots u)
      (A ++ c1 :: C) := by
    rw [hs]
    exact List.rel_append hA1 (List.Forall₂.cons hc1 hC1)
  have hlen : (slots u).length = (A ++ c :: C).length := hall.length_eq
  have hlen1 : (slots u).length = (A ++ c1 :: C).length := hall1.length_eq
  have hsubA : Node.subtree_list pool1 A = Node.subtree_list pool A := by
    apply subtree_list_congr
    intro x hx
    rcases forall₂_right_mem hA hx with ⟨s, hs', hxs⟩
    exact (sibling_frame kv.hash hxs
      (by rw [hlev]; exact Nat.ne_of_lt (mem_slots_below hs').1) hf).2.1
  have hsubC : Node.subtree_list pool1 C = Node.subtree_list pool C := by
    apply subtree_list_congr
    intro x hx
    rcases forall₂_right_mem hC hx with ⟨s, hs', hxs⟩
    exact (sibling_frame kv.hash hxs
      (by rw [hlev]; exact Nat.ne_of_gt (mem_slots_above hs').1) hf).2.1
  refine ⟨?_, rfl, rfl, hf, ?_, ?_, ?_⟩
  · rw [wfnode_succ_iff]; exact ⟨hu, hall1⟩
  · intro key hash hh hk
    rw [lookup_step compare pool1 key hash (depth + 1) level (Node.mk u (A ++ c1 :: C) t v) hu hlen1]
    simp only [Node.used, Node.child_array]
    subst hh
    conv_lhs => rw [hs]
    rw [lookup_zip_self _ _ _ _ _ _ hAl' (not_mem_slots_below u _)]
    exact hsame key kv.hash rfl hk
  · intro key hash hno
    rw [lookup_step compare pool1 key hash (depth + 1) level (Node.mk u (A ++ c1 :: C) t v) hu hlen1,
      lookup_step compare pool key hash (depth + 1) level (Node.mk u (A ++ c :: C) t v) hu hlen]
    simp only [Node.used, Node.child_array]
    by_cases hj1 : slice hash level = slice kv.hash level
    · rw [hj1]
      conv_lhs => rw [hs]
      conv_rhs => rw [hs]
      rw [lookup_zip_self _ _ _ _ _ _ hAl' (not_mem_slots_below u _),
        lookup_zip_self _ _ _ _ _ _ hAl' (not_mem_slots_below u _)]
      exact hother key hash hno
    · have e : ((slots u).zip (A ++ c1 :: C)).lookup (slice hash level) =
          ((slots u).zip (A ++ c :: C)).lookup (slice hash level) := by
        rw [hs]; exact lookup_zip_set _ _ c c1 _ _ hj1 _ _ hAl'
      rw [e]
      cases hl : ((slots u).zip (A ++ c :: C)).lookup (slice hash level) with
      | none => rfl
      | some x =>
        have hmem := lookup_mem _ _ _ hl
        have hR := (List.forall₂_iff_zip.mp hall).2 hmem
        exact (sibling_frame kv.hash hR (by rw [hlev]; exact hj1) hf).2.2 key hash _ _
  · intro x hx
    simp only [Node.descendants, Node.child_array, subtree_list_append, subtree_list_cons,
      List.mem_append] at hx ⊢
    rcases hx with hx | hx | hx
    · rw [hsubA] at hx; exact Or.inr (Or.inl hx)
    · rcases hsub x hx with h | h
      · exact Or.inl h
      · exact Or.inr (Or.inr (Or.inl h))
    · rw [hsubC] at hx; exact Or.inr (Or.inr (Or.inr hx))

/-! ## Adding a child in a free slot -/

theorem hash_value_of_wf {compare : K → K → Bool} {hashfun : K → Nat} {pool : PMapPool K V}
    {path : List Nat} {s : Nat} {x : Node K V}
    (hx : WFValue compare hashfun pool (path ++ [s]) x) :
    ∃ h, x.hash_value pool = some h ∧ slice h path.length = s := by
  cases x with
  | mk u cs t v =>
    cases t <;> cases v <;>
      simp only [WFValue, Node.type, Node.value, Node.hash_value] at hx ⊢
      <;> try exact (False.elim hx)
    · exact ⟨_, rfl, ((onPath_append path s _).mp hx.2).2⟩
    · rcases hx with ⟨_, l, hl, h2, hall, _⟩
      cases l with
      | nil => simp at h2
      | cons x0 l =>
        refine ⟨x0.hash, by rw [hl], ?_⟩
        exact ((onPath_append path s _).mp (hall x0 (List.mem_cons_self _ _)).2).2

theorem wfnode_leaf {compare : K → K → Bool} {hashfun : K → Nat} {pool : PMapPool K V}
    (depth : Nat) (path : List Nat) (t : NodeType) (v : NodeValue K V) :
    WFNode compare hashfun pool depth path (Node.mk 0 [] t v) := by
  cases depth with
  | zero => exact ⟨rfl, rfl⟩
  | succ d =>
    rw [wfnode_succ_iff]
    simp only [Node.used, Node.child_array, slots_zero]
    exact ⟨by decide, List.Forall₂.nil⟩

theorem insert_new_child {compare : K → K → Bool} {hashfun : K → Nat}
    (kv : KeyValue K V) (pool : PMapPool K V) (depth level : Nat) (path : List Nat)
    (n : Node K V) (hlev : path.length = level)
    (hw : WFNode compare hashfun pool (depth + 1) path n)
    (hkv : kv.hash = hashfun kv.first % U32) (hp : OnPath path kv.hash)
    (hjm : slice kv.hash level ∉ slots n.used) :
    ∃ cur1, node_insert_replace_refarray pool n
        (Node.mk 0 [] NodeType.ValueNode (.keyvalue kv)) (slice kv.hash level) level = some cur1 ∧
      InsertPost compare hashfun kv pool pool (depth + 1) level path n cur1 := by
  cases n with
  | mk u cs t v =>
    rw [wfnode_succ_iff] at hw
    simp only [Node.used, Node.child_array] at hw hjm
    rcases hw with ⟨hu, hall⟩
    rcases children_split_not hall hjm with ⟨A, C, rfl, hA, hC⟩
    have hj32 := slice_lt kv.hash level
    have hconv : ∀ (l : List Nat) (xs : List (Node K V)),
        List.Forall₂ (ChildOK compare hashfun pool depth path) l xs →
        List.Forall₂ (fun s c => ∃ h, c.hash_value pool = some h ∧ slice h level = s) l xs := by
      intro l xs h
      refine h.imp ?_
      intro s x hx
      rcases hash_value_of_wf hx.1 with ⟨h, h1, h2⟩
      exact ⟨h, h1, by rw [← hlev]; exact h2⟩
    have hcomp := node_insert_replace_refarray_eq pool u A C t v
      (Node.mk 0 [] NodeType.ValueNode (.keyvalue kv)) _ level hu hj32 hjm (hconv _ _ hA)
      (hconv _ _ hC)
    refine ⟨_, hcomp, ?_⟩
    have hu' : u ||| 1 <<< slice kv.hash level < U32 := or_bit_lt u _ hu hj32
    have hs' := slots_or u _ hj32
    have hs := slots_of_not_mem u _ hjm
    have hAl : (slots_below u (slice kv.hash level)).length = A.length := hA.length_eq
    have hnew : ChildOK compare hashfun pool depth path (slice kv.hash level)
        (Node.mk 0 [] NodeType.ValueNode (.keyvalue kv)) := by
      refine ⟨?_, wfnode_leaf _ _ _ _, ?_⟩
      · simp only [WFValue, Node.type, Node.value]
        exact ⟨hkv, (onPath_append path _ _).mpr ⟨hp, by rw [hlev]⟩⟩
      · intro a _ b hb
        simp [Node.descendants, Node.child_array, subtree_list_nil] at hb
    have hall1 : List.Forall₂ (ChildOK compare hashfun pool depth path)
        (slots (u ||| 1 <<< slice kv.hash level))
        (A ++ Node.mk 0 [] NodeType.ValueNode (.keyvalue kv) :: C) := by
      rw [hs']; exact List.rel_append hA (List.Forall₂.cons hnew hC)
    have hlen : (slots u).length = (A ++ C).length := hall.length_eq
    have hlen1 := hall1.length_eq
    refine ⟨?_, rfl, rfl, PoolFrame.refl _ _, ?_, ?_, ?_⟩
    · rw [wfnode_succ_iff]; exact ⟨hu', hall1⟩
    · intro key hash hh hk
      rw [lookup_step compare pool key hash (depth + 1) level
        (Node.mk (u ||| 1 <<< slice kv.hash level) _ t v) hu' hlen1]
      simp only [Node.used, Node.child_array]
      subst hh
      conv_lhs => rw [hs']
      rw [lookup_zip_self _ _ _ _ _ _ hAl (not_mem_slots_below u _)]
      simp only [child_lookup, node_match_get, Node.type, Node.value]
      rw [keyvalue_match_get_of ⟨rfl, hk⟩]
    · intro key hash hno
      rw [lookup_step compare pool key hash (depth + 1) level
        (Node.mk (u ||| 1 <<< slice kv.hash level) _ t v) hu' hlen1,
        lookup_step compare pool key hash (depth + 1) level (Node.mk u (A ++ C) t v) hu hlen]
      simp only [Node.used, Node.child_array]
      by_cases hj1 : slice hash level = slice kv.hash level
      · rw [hj1]
        conv_lhs => rw [hs']
        rw [lookup_zip_self _ _ _ _ _ _ hAl (not_mem_slots_below u _),
          lookup_zip_not_mem _ _ _ hjm]
        simp only [child_lookup, node_match_get, Node.type, Node.value]
        rw [keyvalue_match_get_eq_none.mpr hno]
        exact lookup_leaf _ _ _ _ _ _ _ rfl
      · have e : ((slots (u ||| 1 <<< slice kv.hash level)).zip
            (A ++ Node.mk 0 [] NodeType.ValueNode (.keyvalue kv) :: C)).lookup (slice hash level) =
            ((slots u).zip (A ++ C)).lookup (slice hash level) := by
          rw [hs', hs]; exact lookup_zip_insert _ _ _ _ _ hj1 _ _ hAl
        rw [e]
    · intro x hx
      simp only [Node.descendants, Node.child_array, subtree_list_append, subtree_list_cons,
        List.mem_append, subtree_eq, Node.values, Node.type, Node.value, subtree_list_nil,
        List.mem_singleton, List.append_nil] at hx ⊢
      rcases hx with hx | hx | hx
      · exact Or.inr (Or.inl hx)
      · exact Or.inl hx
      · exact Or.inr (Or.inr hx)

/-! ## The steps of `instantiate_tree_path` -/

theorem set_append_cons {α : Type} (A : List α) (c x : α) (C : List α) :
    (A ++ c :: C).set A.length x = A ++ x :: C := by
  induction A with
  | nil => rfl
  | cons a A ih => simp [ih]

theorem instantiate_tree_loop_free (compare : K → K → Bool) (kv : KeyValue K V)
    (left level : Nat) (pool : PMapPool K V) (cur : Node K V)
    (hj : slice kv.hash level ∉ slots cur.used) :
    instantiate_tree_loop compare kv (left + 1) level pool cur =
      (node_insert_replace_refarray pool cur (Node.mk 0 [] NodeType.ValueNode (.keyvalue kv))
        (slice kv.hash level) level).map (fun x => (pool, x)) := by
  have hb : cur.index_in_use (slice kv.hash level) = false := by
    unfold Node.index_in_use
    rw [bit_is_on_eq]
    by_contra hc
    exact hj (mem_slots.mpr ⟨slice_lt _ _, by simpa using hc⟩)
  simp only [instantiate_tree_loop]
  rw [show (kv.hash >>> (level * 5) &&& 0x1f) = slice kv.hash level from rfl, hb]
  rfl

theorem instantiate_tree_loop_in_use (compare : K → K → Bool) (kv : KeyValue K V)
    (left level : Nat) (pool : PMapPool K V) (u : Nat) (A C : List (Node K V)) (c : Node K V)
    (t : NodeType) (v : NodeValue K V) (hu : u < U32)
    (hj : slice kv.hash level ∈ slots u)
    (hAl : A.length = (slots_below u (slice kv.hash level)).length)
    (hlen : (slots u).length = (A ++ c :: C).length) :
    instantiate_tree_loop compare kv (left + 1) level pool (Node.mk u (A ++ c :: C) t v) =
      if level < 6 then
        match c.value with
        | .keyvalue nkv =>
          match keyvalue_match_get compare nkv kv.first kv.hash with
          | some _ =>
            some (pool, Node.mk u
              (A ++ Node.mk c.used c.child_array c.type (.keyvalue kv) :: C) t v)
          | none =>
            match instantiate_tree_loop compare kv left (level + 1) pool c with
            | none => none
            | some (pool1, c1) => some (pool1, Node.mk u (A ++ c1 :: C) t v)
        | _ => none
      else
        match instantiate_collision compare pool c kv with
        | none => none
        | some (pool1, c1) => some (pool1, Node.mk u (A ++ c1 :: C) t v) := by
  have hb : (Node.mk u (A ++ c :: C) t v).index_in_use (slice kv.hash level) = true := by
    unfold Node.index_in_use
    rw [bit_is_on_eq]
    exact (mem_slots.mp hj).2
  have hsize : (Node.mk u (A ++ c :: C) t v).size = (A ++ c :: C).length := by
    simp only [Node.size, Node.used]; rw [count_bits_eq u hu, hlen]
  have hidx : (Node.mk u (A ++ c :: C) t v).index (1 <<< slice kv.hash level) = A.length := by
    simp only [Node.index, Node.used]; rw [index_eq u _ hu, hAl]
  simp only [instantiate_tree_loop]
  rw [show (kv.hash >>> (level * 5) &&& 0x1f) = slice kv.hash level from rfl, hb]
  simp only [Bool.not_true, Bool.false_eq_true, if_false, hsize, hidx, Node.child_array,
    lt_irrefl, List.take_length, getElem?_append_cons_length, set_append_cons, Node.used,
    Node.type, Node.value]

/-! ## Values of nodes -/

theorem wfvalue_cases {compare : K → K → Bool} {hashfun : K → Nat} {pool : PMapPool K V}
    {path : List Nat} {x : Node K V} (hx : WFValue compare hashfun pool path x) :
    (∃ nkv, x.type = .ValueNode ∧ x.value = .keyvalue nkv ∧
        nkv.hash = hashfun nkv.first % U32 ∧ OnPath path nkv.hash) ∨
      (x.type = .CollisionNode ∧ ∃ id l, x.value = .collision_list id ∧ path.length = 7 ∧
        pool.lists[id]? = some l ∧ 2 ≤ l.length ∧
        (∀ kv ∈ l, kv.hash = hashfun kv.first % U32 ∧ OnPath path kv.hash) ∧
        l.Pairwise (fun a b => ¬ same_key compare a b)) := by
  cases x with
  | mk u cs t v =>
    cases t <;> cases v <;> simp only [WFValue, Node.type, Node.value] at hx
      <;> try exact (False.elim hx)
    · exact Or.inl ⟨_, rfl, rfl, hx.1, hx.2⟩
    · rcases hx with ⟨h7, l, hl, h2, hall, hpw⟩
      exact Or.inr ⟨rfl, _, l, rfl, h7, hl, h2, hall, hpw⟩

theorem wfvalue_of_keyvalue {compare : K → K → Bool} {hashfun : K → Nat} {pool : PMapPool K V}
    {path : List Nat} {x : Node K V} {kv : KeyValue K V} (ht : x.type = .ValueNode)
    (hv : x.value = .keyvalue kv) (h1 : kv.hash = hashfun kv.first % U32)
    (h2 : OnPath path kv.hash) : WFValue compare hashfun pool path x := by
  unfold WFValue; rw [ht, hv]; exact ⟨h1, h2⟩

theorem node_match_get_keyvalue (compare : K → K → Bool) (pool : PMapPool K V) {x : Node K V}
    {nkv : KeyValue K V} (ht : x.type = .ValueNode) (hv : x.value = .keyvalue nkv)
    (key : K) (hash : Nat) :
    node_match_get compare pool x key hash = keyvalue_match_get compare nkv key hash := by
  unfold node_match_get; rw [ht, hv]

theorem values_keyvalue (pool : PMapPool K V) {x : Node K V} {nkv : KeyValue K V}
    (ht : x.type = .ValueNode) (hv : x.value = .keyvalue nkv) : x.values pool = [nkv] := by
  unfold Node.values; rw [ht, hv]

theorem node_match_get_collision (compare : K → K → Bool) (pool : PMapPool K V) {x : Node K V}
    {id : Nat} {l : List (KeyValue K V)} (ht : x.type = .CollisionNode)
    (hv : x.value = .collision_list id) (hl : pool.lists[id]? = some l) (key : K) (hash : Nat) :
    node_match_get compare pool x key hash = collision_scan compare key hash l := by
  unfold node_match_get; rw [ht, hv]; simp only [hl]; rfl

theorem values_collision (pool : PMapPool K V) {x : Node K V} {id : Nat}
    {l : List (KeyValue K V)} (ht : x.type = .CollisionNode) (hv : x.value = .collision_list id)
    (hl : pool.lists[id]? = some l) : x.values pool = l := by
  unfold Node.values; rw [ht, hv]; simp only [hl]; rfl

/-! ## Keys that match -/

theorem match_transfer {compare : K → K → Bool} (hc : CompareEquiv compare)
    {nkv kv : KeyValue K V} {key : K} {hash : Nat}
    (hm : nkv.hash = kv.hash ∧ compare kv.first nkv.first = true)
    (hno : ¬ (kv.hash = hash ∧ compare key kv.first = true)) :
    ¬ (nkv.hash = hash ∧ compare key nkv.first = true) := by
  rintro ⟨h1, h2⟩
  exact hno ⟨hm.1 ▸ h1, hc.trans _ _ _ h2 (hc.symm _ _ hm.2)⟩

theorem nomatch_same {compare : K → K → Bool} (hc : CompareEquiv compare)
    {nkv kv : KeyValue K V} {key : K} {hash : Nat}
    (hm : ¬ (nkv.hash = kv.hash ∧ compare kv.first nkv.first = true))
    (hk : kv.hash = hash ∧ compare key kv.first = true) :
    ¬ (nkv.hash = hash ∧ compare key nkv.first = true) := by
  rintro ⟨h1, h2⟩
  exact hm ⟨h1.trans hk.1.symm, hc.trans _ _ _ (hc.symm _ _ hk.2) h2⟩

theorem nomatch_not_same_key {compare : K → K → Bool} (hc : CompareEquiv compare)
    {nkv kv : KeyValue K V}
    (hm : ¬ (nkv.hash = kv.hash ∧ compare kv.first nkv.first = true)) :
    ¬ same_key compare nkv kv := fun h => hm ⟨h.1, hc.symm _ _ h.2⟩

theorem nomatch_not_same_key_rev {compare : K → K → Bool}
    {nkv kv : KeyValue K V}
    (hm : ¬ (nkv.hash = kv.hash ∧ compare kv.first nkv.first = true)) :
    ¬ same_key compare kv nkv := fun h => hm ⟨h.1.symm, h.2⟩

theorem match_not_same_key {compare : K → K → Bool} (hc : CompareEquiv compare)
    {nkv kv b : KeyValue K V}
    (hm : nkv.hash = kv.hash ∧ compare kv.first nkv.first = true)
    (hb : ¬ same_key compare nkv b) : ¬ same_key compare kv b := fun h =>
  hb ⟨hm.1.trans h.1, hc.trans _ _ _ (hc.symm _ _ hm.2) h.2⟩

/-! ## Collision lists -/

theorem collision_find_some {compare : K → K → Bool} {key : K} {hash : Nat} :
    ∀ (l : List (KeyValue K V)) (i : Nat), collision_find compare key hash l = some i →
      ∃ L1 y L2, l = L1 ++ y :: L2 ∧ L1.length = i ∧
        (y.hash = hash ∧ compare key y.first = true) ∧
        ∀ a ∈ L1, ¬ (a.hash = hash ∧ compare key a.first = true) := by
  intro l
  induction l with
  | nil => intro i h; simp [collision_find] at h
  | cons x l ih =>
    intro i h
    simp only [collision_find] at h
    cases hm : keyvalue_match_get compare x key hash with
    | some w =>
      rw [hm] at h
      simp only [Option.some.injEq] at h
      subst h
      exact ⟨[], x, l, rfl, rfl, (keyvalue_match_get_eq_some.mp hm).1, by simp⟩
    | none =>
      rw [hm] at h
      simp only [Option.map_eq_some'] at h
      rcases h with ⟨i', hi', rfl⟩
      rcases ih i' hi' with ⟨L1, y, L2, rfl, hl, hy, hall⟩
      refine ⟨x :: L1, y, L2, rfl, by simp [hl], hy, ?_⟩
      intro a ha
      rcases List.mem_cons.mp ha with rfl | ha'
      · exact keyvalue_match_get_eq_none.mp hm
      · exact hall a ha'

theorem collision_find_none {compare : K → K → Bool} {key : K} {hash : Nat} :
    ∀ (l : List (KeyValue K V)), collision_find compare key hash l = none →
      ∀ a ∈ l, ¬ (a.hash = hash ∧ compare key a.first = true) := by
  intro l
  induction l with
  | nil => intro _ a ha; cases ha
  | cons x l ih =>
    intro h a ha
    simp only [collision_find] at h
    cases hm : keyvalue_match_get compare x key hash with
    | some w => rw [hm] at h; simp at h
    | none =>
      rw [hm] at h
      simp only [Option.map_eq_none'] at h
      rcases List.mem_cons.mp ha with rfl | ha'
      · exact keyvalue_match_get_eq_none.mp hm
      · exact ih h a ha'

theorem collision_scan_cons_match {compare : K → K → Bool} {key : K} {hash : Nat}
    {x : KeyValue K V} (l : List (KeyValue K V))
    (h : x.hash = hash ∧ compare key x.first = true) :
    collision_scan compare key hash (x :: l) = some x.second := by
  simp [collision_scan, keyvalue_match_get_of h]

theorem collision_scan_cons_nomatch {compare : K → K → Bool} {key : K} {hash : Nat}
    {x : KeyValue K V} (l : List (KeyValue K V))
    (h : ¬ (x.hash = hash ∧ compare key x.first = true)) :
    collision_scan compare key hash (x :: l) = collision_scan compare key hash l := by
  simp [collision_scan, keyvalue_match_get_eq_none.mpr h]

theorem collision_scan_skip {compare : K → K → Bool} {key : K} {hash : Nat}
    {y : KeyValue K V} (L1 L2 : List (KeyValue K V))
    (h : ¬ (y.hash = hash ∧ compare key y.first = true)) :
    collision_scan compare key hash (L1 ++ y :: L2) = collision_scan compare key hash (L1 ++ L2) := by
  induction L1 with
  | nil => exact collision_scan_cons_nomatch _ h
  | cons x L1 ih =>
    simp only [List.cons_append, collision_scan]
    cases keyvalue_match_get compare x key hash with
    | some w => rfl
    | none => exact ih

theorem eraseIdx_append_cons {α : Type} (L1 : List α) (y : α) (L2 : List α) :
    (L1 ++ y :: L2).eraseIdx L1.length = L1 ++ L2 := by
  induction L1 with
  | nil => rfl
  | cons a L1 ih => simp [ih]

/-! ## The cases of `instantiate_tree_path` at a slot in use -/

theorem child_replace_post {compare : K → K → Bool} {hashfun : K → Nat}
    (hc : CompareEquiv compare) (kv : KeyValue K V) (pool : PMapPool K V)
    (depth level : Nat) (path : List Nat) (u : Nat) (A C : List (Node K V)) (c : Node K V)
    (t : NodeType) (v : NodeValue K V) (nkv : KeyValue K V)
    (hlev : path.length = level)
    (hw : WFNode compare hashfun pool (depth + 1) path (Node.mk u (A ++ c :: C) t v))
    (hjm : slice kv.hash level ∈ slots u)
    (hAl : A.length = (slots_below u (slice kv.hash level)).length)
    (hkv : kv.hash = hashfun kv.first % U32) (hp : OnPath path kv.hash)
    (hcv : c.value = .keyvalue nkv)
    (hm : nkv.hash = kv.hash ∧ compare kv.first nkv.first = true) :
    InsertPost compare hashfun kv pool pool (depth + 1) level path
      (Node.mk u (A ++ c :: C) t v)
      (Node.mk u (A ++ Node.mk c.used c.child_array c.type (.keyvalue kv) :: C) t v) := by
  have hw' := hw
  rw [wfnode_succ_iff] at hw'
  simp only [Node.used, Node.child_array] at hw'
  rcases children_of_wf hw'.2 hjm hAl with ⟨_, hcok, _⟩
  have hct : c.type = .ValueNode := by
    rcases wfvalue_cases hcok.1 with ⟨_, h1, _⟩ | ⟨_, id, l, h2, _⟩
    · exact h1
    · rw [hcv] at h2; cases h2
  have hpj : OnPath (path ++ [slice kv.hash level]) kv.hash :=
    (onPath_append path _ _).mpr ⟨hp, by rw [hlev]⟩
  cases c with
  | mk cu ccs ct cv =>
    simp only [Node.type, Node.value, Node.used, Node.child_array] at hct hcv ⊢
    subst hct hcv
    refine rebuild_child kv pool pool depth level path u A C _ _ t v hlev hw hjm hAl
      (PoolFrame.refl _ _) ⟨?_, ?_, ?_⟩ ?_ ?_ ?_
    · exact wfvalue_of_keyvalue rfl rfl hkv hpj
    · exact wfnode_congr _ _ _ _ _ _ _ _ hcok.2.1
    · intro a ha b hb
      simp only [Node.values, Node.type, Node.value, List.mem_singleton] at ha
      subst ha
      exact match_not_same_key hc hm
        (hcok.2.2 nkv (by simp [Node.values, Node.type, Node.value]) b hb)
    · intro key hash hh hk
      simp only [child_lookup, node_match_get, Node.type, Node.value]
      rw [keyvalue_match_get_of ⟨hh, hk⟩]
    · intro key hash hno
      simp only [child_lookup, node_match_get, Node.type, Node.value]
      rw [keyvalue_match_get_eq_none.mpr hno,
        keyvalue_match_get_eq_none.mpr (match_transfer hc hm hno)]
      exact lookup_congr _ _ _ _ _ _ _ _ _ _ _ _
    · intro x hx
      simp only [subtree_eq, Node.values, Node.type, Node.value, Node.descendants,
        Node.child_array, List.mem_append, List.mem_singleton] at hx ⊢
      rcases hx with hx | hx
      · exact Or.inl hx
      · exact Or.inr (Or.inr hx)

theorem child_descend_post {compare : K → K → Bool} {hashfun : K → Nat}
    (hc : CompareEquiv compare) (kv : KeyValue K V) (pool pool1 : PMapPool K V)
    (depth level : Nat) (path : List Nat) (u : Nat) (A C : List (Node K V)) (c c1 : Node K V)
    (t : NodeType) (v : NodeValue K V) (nkv : KeyValue K V)
    (hlev : path.length = level)
    (hw : WFNode compare hashfun pool (depth + 1) path (Node.mk u (A ++ c :: C) t v))
    (hjm : slice kv.hash level ∈ slots u)
    (hAl : A.length = (slots_below u (slice kv.hash level)).length)
    (hcv : c.value = .keyvalue nkv)
    (hm : ¬ (nkv.hash = kv.hash ∧ compare kv.first nkv.first = true))
    (ih : InsertPost compare hashfun kv pool pool1 depth (level + 1)
      (path ++ [slice kv.hash level]) c c1) :
    InsertPost compare hashfun kv pool pool1 (depth + 1) level path
      (Node.mk u (A ++ c :: C) t v) (Node.mk u (A ++ c1 :: C) t v) := by
  have hw' := hw
  rw [wfnode_succ_iff] at hw'
  simp only [Node.used, Node.child_array] at hw'
  rcases children_of_wf hw'.2 hjm hAl with ⟨_, hcok, _⟩
  have hcase : c.type = .ValueNode ∧ nkv.hash = hashfun nkv.first % U32 ∧
      OnPath (path ++ [slice kv.hash level]) nkv.hash := by
    rcases wfvalue_cases hcok.1 with ⟨k0, h1, h2, h3, h4⟩ | ⟨_, id, l, h2, _⟩
    · rw [hcv] at h2; cases h2; exact ⟨h1, h3, h4⟩
    · rw [hcv] at h2; cases h2
  have ht1 : c1.type = .ValueNode := by rw [ih.type_eq]; exact hcase.1
  have hv1 : c1.value = .keyvalue nkv := by rw [ih.value_eq]; exact hcv
  refine rebuild_child kv pool pool1 depth level path u A C c c1 t v hlev hw hjm hAl
    ih.frame ⟨?_, ih.wf, ?_⟩ ?_ ?_ ?_
  · exact wfvalue_of_keyvalue ht1 hv1 hcase.2.1 hcase.2.2
  · intro a ha b hb
    rw [values_keyvalue pool1 ht1 hv1, List.mem_singleton] at ha
    subst ha
    rcases ih.desc b hb with rfl | hb'
    · exact nomatch_not_same_key hc hm
    · exact hcok.2.2 a (by rw [values_keyvalue pool hcase.1 hcv]; exact List.mem_singleton_self _)
        b hb'
  · intro key hash hh hk
    simp only [child_lookup]
    rw [node_match_get_keyvalue compare pool1 ht1 hv1,
      keyvalue_match_get_eq_none.mpr (nomatch_same hc hm ⟨hh, hk⟩)]
    exact ih.get_same key hash hh hk
  · intro key hash hno
    simp only [child_lookup]
    rw [node_match_get_keyvalue compare pool1 ht1 hv1,
      node_match_get_keyvalue compare pool hcase.1 hcv]
    cases keyvalue_match_get compare nkv key hash with
    | some w => rfl
    | none => exact ih.get_other key hash hno
  · intro x hx
    rw [subtree_eq, List.mem_append, values_keyvalue pool1 ht1 hv1] at hx
    rw [subtree_eq, List.mem_append, values_keyvalue pool hcase.1 hcv]
    rcases hx with hx | hx
    · exact Or.inr (Or.inl hx)
    · rcases ih.desc x hx with h | h
      · exact Or.inl h
      · exact Or.inr (Or.inr h)

theorem wfnode_zero_pool {compare : K → K → Bool} {hashfun : K → Nat} {pool pool1 : PMapPool K V}
    {path path1 : List Nat} {x y : Node K V}
    (h : WFNode compare hashfun pool 0 path x) (hu : y.used = x.used)
    (hcs : y.child_array = x.child_array) : WFNode compare hashfun pool1 0 path1 y := by
  simp only [WFNode] at h ⊢
  rw [hu, hcs]; exact h

theorem descendants_of_wf_zero {compare : K → K → Bool} {hashfun : K → Nat} {pool : PMapPool K V}
    {path : List Nat} {x : Node K V} (h : WFNode compare hashfun pool 0 path x)
    (pool1 : PMapPool K V) : x.descendants pool1 = [] := by
  simp only [WFNode] at h
  simp [Node.descendants, h.2, subtree_list_nil]

theorem hash_lt_of_good {hashfun : K → Nat} {kv : KeyValue K V}
    (h : kv.hash = hashfun kv.first % U32) : kv.hash < U32 := by
  rw [h]; exact Nat.mod_lt _ (by decide)

theorem child_collision_update_post {compare : K → K → Bool} {hashfun : K → Nat}
    (kv : KeyValue K V) (pool : PMapPool K V)
    (level : Nat) (path : List Nat) (u : Nat) (A C : List (Node K V)) (c : Node K V)
    (t : NodeType) (v : NodeValue K V) (id : Nat) (l l1 : List (KeyValue K V))
    (hlev : path.length = level)
    (hw : WFNode compare hashfun pool 1 path (Node.mk u (A ++ c :: C) t v))
    (hjm : slice kv.hash level ∈ slots u)
    (hAl : A.length = (slots_below u (slice kv.hash level)).length)
    (hkv : kv.hash = hashfun kv.first % U32) (hp : OnPath path kv.hash)
    (ht : c.type = .CollisionNode) (hv : c.value = .collision_list id)
    (hl : pool.lists[id]? = some l)
    (hsubl : ∀ x ∈ l1, x ∈ l) (hlen : 1 ≤ l1.length)
    (hpw : l1.Pairwise (fun a b => ¬ same_key compare a b))
    (hnk : ∀ x ∈ l1, ¬ same_key compare kv x)
    (hscan : ∀ key hash, ¬ (kv.hash = hash ∧ compare key kv.first = true) →
      collision_scan compare key hash l1 = collision_scan compare key hash l) :
    InsertPost compare hashfun kv pool { lists := pool.lists.set id (kv :: l1) } 1 level path
      (Node.mk u (A ++ c :: C) t v) (Node.mk u (A ++ c :: C) t v) := by
  have hw' := hw
  rw [wfnode_succ_iff] at hw'
  simp only [Node.used, Node.child_array] at hw'
  rcases children_of_wf hw'.2 hjm hAl with ⟨_, hcok, _⟩
  have hpj : OnPath (path ++ [slice kv.hash level]) kv.hash :=
    (onPath_append path _ _).mpr ⟨hp, by rw [hlev]⟩
  have hfacts : (path ++ [slice kv.hash level]).length = 7 ∧ 2 ≤ l.length ∧
      (∀ x ∈ l, x.hash = hashfun x.first % U32 ∧ OnPath (path ++ [slice kv.hash level]) x.hash) := by
    rcases wfvalue_cases hcok.1 with ⟨k0, h1, _⟩ | ⟨_, id', l', h2, h7, hl', hlen', hall', _⟩
    · rw [ht] at h1; cases h1
    · rw [hv] at h2; cases h2
      rw [hl] at hl'; cases hl'
      exact ⟨h7, hlen', hall'⟩
  have hidlt : id < pool.lists.length := by
    by_contra hge
    rw [List.getElem?_eq_none (by omega)] at hl
    cases hl
  have hl1 : ({ lists := pool.lists.set id (kv :: l1) } : PMapPool K V).lists[id]? =
      some (kv :: l1) := by
    simp [List.getElem?_set, hidlt]
  have hall_hash : ∀ x ∈ l, x.hash = kv.hash := fun x hx =>
    onPath_full_eq hfacts.1 (hfacts.2.2 x hx).2 hpj (hash_lt_of_good (hfacts.2.2 x hx).1)
      (hash_lt_of_good hkv)
  have hf : PoolFrame pool { lists := pool.lists.set id (kv :: l1) } (fun h => h ≠ kv.hash) := by
    intro id' l0 hl0 ⟨x, hx, hne⟩
    by_cases e : id = id'
    · subst e
      rw [hl] at hl0; cases hl0
      exact absurd (hall_hash x hx) hne
    · simp only [List.getElem?_set, if_neg e]; exact hl0
  refine rebuild_child kv pool _ 0 level path u A C c c t v hlev hw hjm hAl hf
    ⟨?_, wfnode_zero_pool hcok.2.1 rfl rfl, ?_⟩ ?_ ?_ ?_
  · unfold WFValue
    rw [ht, hv]
    refine ⟨hfacts.1, kv :: l1, hl1, by simp; omega, ?_, ?_⟩
    · intro x hx
      rcases List.mem_cons.mp hx with rfl | hx'
      · exact ⟨hkv, hpj⟩
      · exact hfacts.2.2 x (hsubl x hx')
    · exact List.Pairwise.cons hnk hpw
  · intro a _ b hb
    rw [descendants_of_wf_zero hcok.2.1] at hb
    cases hb
  · intro key hash hh hk
    simp only [child_lookup]
    rw [node_match_get_collision compare _ ht hv hl1, collision_scan_cons_match _ ⟨hh, hk⟩]
  · intro key hash hno
    simp only [child_lookup]
    rw [node_match_get_collision compare _ ht hv hl1, node_match_get_collision compare _ ht hv hl,
      collision_scan_cons_nomatch _ hno, hscan key hash hno]
    have hu0 : c.used = 0 := by
      have := hcok.2.1; simp only [WFNode] at this; exact this.1
    rw [lookup_leaf _ _ _ _ _ _ _ hu0, lookup_leaf _ _ _ _ _ _ _ hu0]
  · intro x hx
    rw [subtree_eq, descendants_of_wf_zero hcok.2.1, List.append_nil,
      values_collision _ ht hv hl1] at hx
    rw [subtree_eq, descendants_of_wf_zero hcok.2.1, List.append_nil,
      values_collision _ ht hv hl]
    rcases List.mem_cons.mp hx with h | h
    · exact Or.inl h
    · exact Or.inr (hsubl x h)

theorem child_collision_new_post {compare : K → K → Bool} {hashfun : K → Nat}
    (hc : CompareEquiv compare) (kv : KeyValue K V) (pool : PMapPool K V)
    (path : List Nat) (u : Nat) (A C : List (Node K V)) (c : Node K V)
    (t : NodeType) (v : NodeValue K V) (nkv : KeyValue K V)
    (hlev : path.length = 6)
    (hw : WFNode compare hashfun pool 1 path (Node.mk u (A ++ c :: C) t v))
    (hjm : slice kv.hash 6 ∈ slots u)
    (hAl : A.length = (slots_below u (slice kv.hash 6)).length)
    (hkv : kv.hash = hashfun kv.first % U32) (hp : OnPath path kv.hash)
    (hcv : c.value = .keyvalue nkv)
    (hm : ¬ (nkv.hash = kv.hash ∧ compare kv.first nkv.first = true)) :
    InsertPost compare hashfun kv pool { lists := pool.lists ++ [[nkv, kv]] } 1 6 path
      (Node.mk u (A ++ c :: C) t v)
      (Node.mk u (A ++ Node.mk c.used c.child_array NodeType.CollisionNode
        (.collision_list pool.lists.length) :: C) t v) := by
  have hw' := hw
  rw [wfnode_succ_iff] at hw'
  simp only [Node.used, Node.child_array] at hw'
  rcases children_of_wf hw'.2 hjm hAl with ⟨_, hcok, _⟩
  have hpj : OnPath (path ++ [slice kv.hash 6]) kv.hash :=
    (onPath_append path _ _).mpr ⟨hp, by rw [hlev]⟩
  have hcase : c.type = .ValueNode ∧ nkv.hash = hashfun nkv.first % U32 ∧
      OnPath (path ++ [slice kv.hash 6]) nkv.hash := by
    rcases wfvalue_cases hcok.1 with ⟨k0, h1, h2, h3, h4⟩ | ⟨_, id, l, h2, _⟩
    · rw [hcv] at h2; cases h2; exact ⟨h1, h3, h4⟩
    · rw [hcv] at h2; cases h2
  have hl1 : ({ lists := pool.lists ++ [[nkv, kv]] } : PMapPool K V).lists[pool.lists.length]? =
      some [nkv, kv] := by
    simp
  have hf : PoolFrame pool { lists := pool.lists ++ [[nkv, kv]] } (fun h => h ≠ kv.hash) := by
    intro id' l0 hl0 _
    have hlt : id' < pool.lists.length := by
      by_contra hge
      rw [List.getElem?_eq_none (by omega)] at hl0
      cases hl0
    simp only [List.getElem?_append_left hlt]; exact hl0
  have hu0 : c.used = 0 := by
    have := hcok.2.1; simp only [WFNode] at this; exact this.1
  have ht1 : (Node.mk c.used c.child_array NodeType.CollisionNode
      (.collision_list pool.lists.length) : Node K V).type = .CollisionNode := rfl
  have hv1 : (Node.mk c.used c.child_array NodeType.CollisionNode
      (.collision_list pool.lists.length) : Node K V).value =
      .collision_list pool.lists.length := rfl
  have hd1 : ∀ p : PMapPool K V, (Node.mk c.used c.child_array NodeType.CollisionNode
      (.collision_list pool.lists.length) : Node K V).descendants p = [] := by
    intro p
    have := hcok.2.1; simp only [WFNode] at this
    show Node.subtree_list p c.child_array = []
    rw [this.2, subtree_list_nil]
  refine rebuild_child kv pool _ 0 6 path u A C c _ t v hlev hw hjm hAl hf
    ⟨?_, wfnode_zero_pool hcok.2.1 rfl rfl, ?_⟩ ?_ ?_ ?_
  · unfold WFValue
    rw [ht1, hv1]
    refine ⟨by simp [hlev], [nkv, kv], hl1, by simp, ?_, ?_⟩
    · intro x hx
      simp only [List.mem_cons, List.mem_singleton, List.not_mem_nil, or_false] at hx
      rcases hx with rfl | rfl
      · exact ⟨hcase.2.1, hcase.2.2⟩
      · exact ⟨hkv, hpj⟩
    · simp only [List.pairwise_cons, List.mem_singleton, forall_eq, List.not_mem_nil,
        false_implies, implies_true, List.Pairwise.nil, and_true]
      exact nomatch_not_same_key hc hm
  · intro a _ b hb
    rw [hd1] at hb
    cases hb
  · intro key hash hh hk
    simp only [child_lookup]
    rw [node_match_get_collision compare _ ht1 hv1 hl1,
      collision_scan_cons_nomatch _ (nomatch_same hc hm ⟨hh, hk⟩),
      collision_scan_cons_match _ ⟨hh, hk⟩]
  · intro key hash hno
    simp only [child_lookup]
    rw [node_match_get_collision compare _ ht1 hv1 hl1,
      node_match_get_keyvalue compare pool hcase.1 hcv,
      lookup_leaf _ _ _ _ _ _ _ hu0, lookup_leaf _ _ _ _ _ _ _ (by exact hu0)]
    simp only [collision_scan]
    rw [keyvalue_match_get_eq_none.mpr hno]
    cases keyvalue_match_get compare nkv key hash <;> rfl
  · intro x hx
    rw [subtree_eq, hd1, List.append_nil, values_collision _ ht1 hv1 hl1] at hx
    rw [subtree_eq, List.mem_append, values_keyvalue pool hcase.1 hcv]
    simp only [List.mem_cons, List.mem_singleton, List.not_mem_nil, or_false] at hx
    rcases hx with rfl | rfl
    · exact Or.inr (Or.inl (List.mem_singleton_self _))
    · exact Or.inl rfl

/-! ## `instantiate_tree_path` keeps the invariant -/

theorem instantiate_collision_post {compare : K → K → Bool} {hashfun : K → Nat}
    (hc : CompareEquiv compare) (kv : KeyValue K V) (pool : PMapPool K V)
    (path : List Nat) (u : Nat) (A C : List (Node K V)) (c : Node K V)
    (t : NodeType) (v : NodeValue K V)
    (hlev : path.length = 6)
    (hw : WFNode compare hashfun pool 1 path (Node.mk u (A ++ c :: C) t v))
    (hjm : slice kv.hash 6 ∈ slots u)
    (hAl : A.length = (slots_below u (slice kv.hash 6)).length)
    (hkv : kv.hash = hashfun kv.first % U32) (hp : OnPath path kv.hash) :
    ∃ pool1 c1, instantiate_collision compare pool c kv = some (pool1, c1) ∧
      InsertPost compare hashfun kv pool pool1 1 6 path
        (Node.mk u (A ++ c :: C) t v) (Node.mk u (A ++ c1 :: C) t v) := by
  have hw' := hw
  rw [wfnode_succ_iff] at hw'
  simp only [Node.used, Node.child_array] at hw'
  rcases children_of_wf hw'.2 hjm hAl with ⟨_, hcok, _⟩
  rcases wfvalue_cases hcok.1 with ⟨nkv, ht, hv, _, _⟩ | ⟨ht, id, l, hv, h7, hl, hlen, hall, hpw⟩
  · -- a `ValueNode`
    unfold instantiate_collision
    rw [ht, if_neg (by decide), hv]
    cases hm : keyvalue_match_get compare nkv kv.first kv.hash with
    | some w =>
      simp only [hm]
      refine ⟨pool, _, rfl, ?_⟩
      have := child_replace_post hc kv pool 0 6 path u A C c t v nkv hlev hw hjm hAl hkv hp hv
        (keyvalue_match_get_eq_some.mp hm).1
      rw [ht] at this
      exact this
    | none =>
      simp only [hm]
      exact ⟨_, _, rfl, child_collision_new_post hc kv pool path u A C c t v nkv hlev hw hjm hAl
        hkv hp hv (keyvalue_match_get_eq_none.mp hm)⟩
  · -- a `CollisionNode`
    unfold instantiate_collision
    rw [ht, if_pos rfl, hv]
    simp only [hl]
    cases hf : collision_find compare kv.first kv.hash l with
    | some i =>
      rcases collision_find_some l i hf with ⟨L1, y, L2, rfl, rfl, hy, hL1⟩
      refine ⟨_, _, rfl, ?_⟩
      rw [List.pairwise_append] at hpw
      rcases hpw with ⟨hp1, hp2, hp12⟩
      rw [List.pairwise_cons] at hp2
      unfold KeyValueList_remove
      rw [eraseIdx_append_cons]
      refine child_collision_update_post kv pool 6 path u A C c t v id (L1 ++ y :: L2) (L1 ++ L2)
        hlev hw hjm hAl hkv hp ht hv hl ?_ ?_ ?_ ?_ ?_
      · intro x hx
        rcases List.mem_append.mp hx with h | h
        · exact List.mem_append_left _ h
        · exact List.mem_append_right _ (List.mem_cons_of_mem _ h)
      · simp only [List.length_append, List.length_cons] at hlen ⊢; omega
      · rw [List.pairwise_append]
        exact ⟨hp1, hp2.2, fun a ha b hb => hp12 a ha b (List.mem_cons_of_mem _ hb)⟩
      · intro x hx hs
        have hyx : same_key compare y x :=
          ⟨hy.1.trans hs.1, hc.trans _ _ _ (hc.symm _ _ hy.2) hs.2⟩
        rcases List.mem_append.mp hx with h | h
        · exact hp12 x h y (List.mem_cons_self _ _) (same_key_symm hc hyx)
        · exact hp2.1 x h hyx
      · intro key hash hno
        exact (collision_scan_skip L1 L2 (match_transfer hc hy hno)).symm
    | none =>
      refine ⟨_, _, rfl, ?_⟩
      refine child_collision_update_post kv pool 6 path u A C c t v id l l
        hlev hw hjm hAl hkv hp ht hv hl (fun _ h => h) (by omega) hpw ?_ (fun _ _ _ => rfl)
      intro x hx
      exact nomatch_not_same_key_rev (collision_find_none l hf x hx)

theorem instantiate_tree_loop_post {compare : K → K → Bool} {hashfun : K → Nat}
    (hc : CompareEquiv compare) (kv : KeyValue K V) (hkv : kv.hash = hashfun kv.first % U32) :
    ∀ (left level : Nat) (pool : PMapPool K V) (path : List Nat) (cur : Node K V),
      level + left = 7 → 1 ≤ left → path.length = level → OnPath path kv.hash →
      WFNode compare hashfun pool left path cur →
      ∃ pool1 cur1, instantiate_tree_loop compare kv left level pool cur = some (pool1, cur1) ∧
        InsertPost compare hashfun kv pool pool1 left level path cur cur1 := by
  intro left
  induction left with
  | zero => intro level pool path cur _ h1; omega
  | succ d ih =>
    intro level pool path cur hsum _ hlev hp hw
    by_cases hjm : slice kv.hash level ∈ slots cur.used
    · cases cur with
      | mk u cs t v =>
        simp only [Node.used] at hjm
        have hw' := hw
        rw [wfnode_succ_iff] at hw'
        simp only [Node.used, Node.child_array] at hw'
        rcases children_split hw'.2 hjm with ⟨A, c, C, rfl, hA, hcok, hC⟩
        have hAl : A.length = (slots_below u (slice kv.hash level)).length := hA.length_eq.symm
        rw [instantiate_tree_loop_in_use compare kv d level pool u A C c t v hw'.1 hjm hAl
          hw'.2.length_eq]
        by_cases h6 : level < 6
        · rw [if_pos h6]
          rcases wfvalue_cases hcok.1 with ⟨nkv, ht, hv, _, _⟩ | ⟨_, id, l, _, h7, _⟩
          · rw [hv]
            cases hm : keyvalue_match_get compare nkv kv.first kv.hash with
            | some w =>
              simp only [hm]
              exact ⟨pool, _, rfl, child_replace_post hc kv pool d level path u A C c t v nkv
                hlev hw hjm hAl hkv hp hv (keyvalue_match_get_eq_some.mp hm).1⟩
            | none =>
              have hpj : OnPath (path ++ [slice kv.hash level]) kv.hash :=
                (onPath_append path _ _).mpr ⟨hp, by rw [hlev]⟩
              rcases ih (level + 1) pool (path ++ [slice kv.hash level]) c (by omega) (by omega)
                (by simp [hlev]) hpj hcok.2.1 with ⟨pool1, c1, hrun, hpost⟩
              simp only [hm, hrun]
              exact ⟨pool1, _, rfl, child_descend_post hc kv pool pool1 d level path u A C c c1
                t v nkv hlev hw hjm hAl hv (keyvalue_match_get_eq_none.mp hm) hpost⟩
          · simp only [List.length_append, List.length_singleton] at h7
            omega
        · rw [if_neg h6]
          have hl6 : level = 6 := by omega
          have hd0 : d = 0 := by omega
          subst hl6 hd0
          rcases instantiate_collision_post hc kv pool path u A C c t v hlev hw hjm hAl hkv hp
            with ⟨pool1, c1, hrun, hpost⟩
          simp only [hrun]
          exact ⟨pool1, _, rfl, hpost⟩
    · rw [instantiate_tree_loop_free compare kv d level pool cur hjm]
      rcases insert_new_child kv pool d level path cur hlev hw hkv hp hjm with ⟨cur1, hrun, hpost⟩
      rw [hrun]
      exact ⟨pool, cur1, rfl, hpost⟩

/-! ## `Map::add` -/

theorem new_keyvalue_good (hashfun : K → Nat) (k : K) (v : V) :
    (new_keyvalue hashfun k v).hash = hashfun (new_keyvalue hashfun k v).first % U32 := rfl

theorem root_lookup (compare : K → K → Bool) (hashfun : K → Nat) (pool : PMapPool K V)
    (root : Node K V) (key : K) :
    Map.try_get_value compare hashfun pool { root_ := some root } key =
      try_get_value_loop compare pool key (hashfun key % U32) 8 0 root := rfl

/-- What adding the cell `kv` to a map that satisfies the invariant gives. -/
theorem add_keyvalue_post {compare : K → K → Bool} {hashfun : K → Nat}
    (hc : CompareEquiv compare) (pool : PMapPool K V) (m : Map K V)
    (hw : WFMap compare hashfun pool m) (kv : KeyValue K V)
    (hkv : kv.hash = hashfun kv.first % U32) :
    ∃ pool1 root1, PMapPool.add_keyvalue compare pool m kv = some (pool1, { root_ := some root1 }) ∧
      WFMap compare hashfun pool1 { root_ := some root1 } ∧
      PoolFrame pool pool1 (fun h => h ≠ kv.hash) ∧
      (∀ key, kv.hash = hashfun key % U32 → compare key kv.first = true →
        Map.try_get_value compare hashfun pool1 { root_ := some root1 } key = some kv.second) ∧
      (∀ key, ¬ (kv.hash = hashfun key % U32 ∧ compare key kv.first = true) →
        Map.try_get_value compare hashfun pool1 { root_ := some root1 } key =
          Map.try_get_value compare hashfun pool m key) ∧
      (∀ x ∈ root1.descendants pool1, x = kv ∨
        ∃ root, m.root_ = some root ∧ x ∈ root.descendants pool) := by
  cases m with
  | mk r =>
    cases r with
    | none =>
      rcases instantiate_tree_loop_post hc kv hkv 7 0 pool [] new_node rfl (by omega) rfl
        (onPath_nil _) (wfnode_leaf _ _ _ _) with ⟨pool1, root1, hrun, hpost⟩
      refine ⟨pool1, root1, ?_, ?_, hpost.frame, ?_, ?_, ?_⟩
      · simp only [PMapPool.add_keyvalue, instantiate_tree_path, hrun, Option.map_some']
      · exact ⟨hpost.type_eq, hpost.wf⟩
      · intro key hh hk
        rw [root_lookup]; exact hpost.get_same key _ hh hk
      · intro key hno
        rw [root_lookup, hpost.get_other key _ hno]
        exact lookup_leaf _ _ _ _ _ _ _ rfl
      · intro x hx
        rcases hpost.desc x hx with h | h
        · exact Or.inl h
        · simp [Node.descendants, new_node, Node.child_array, subtree_list_nil] at h
    | some root =>
      simp only [WFMap] at hw
      rcases instantiate_tree_loop_post hc kv hkv 7 0 pool [] root rfl (by omega) rfl
        (onPath_nil _) hw.2 with ⟨pool1, root1, hrun, hpost⟩
      refine ⟨pool1, root1, ?_, ?_, hpost.frame, ?_, ?_, ?_⟩
      · simp only [PMapPool.add_keyvalue, instantiate_tree_path, hrun, Option.map_some']
      · exact ⟨hpost.type_eq.trans hw.1, hpost.wf⟩
      · intro key hh hk
        rw [root_lookup]; exact hpost.get_same key _ hh hk
      · intro key hno
        rw [root_lookup, hpost.get_other key _ hno]; rfl
      · intro x hx
        rcases hpost.desc x hx with h | h
        · exact Or.inl h
        · exact Or.inr ⟨root, rfl, h⟩

/-! ## The iterator -/

theorem run_push_eq (pool : PMapPool K V) (calls : Nat) (parent_node : Node K V)
    (it : node_iterator K V) :
    node_iterator.run pool (calls + 1) (.push_node parent_node) it =
      match FixedStack_push 8 it.iter_stack (NodeChildIterator.init parent_node) with
      | [] => none
      | ni :: below =>
        match ni.move_next.2.current with
        | none => none
        | some node =>
          if node_has_keyvalues node then
            node_iterator.run pool calls .advance
              { it with iter_stack := ni.move_next.2 :: below,
                        value_iter := NodeValueIterator.init node }
          else node_iterator.run pool calls (.push_node node)
            { it with iter_stack := ni.move_next.2 :: below } := by
  rw [node_iterator.run]

theorem run_advance_eq (pool : PMapPool K V) (calls : Nat) (it : node_iterator K V) :
    node_iterator.run pool (calls + 1) .advance it =
      match it.value_iter.move_next pool with
      | none => none
      | some (true, vi) => some { it with value_iter := vi, current := vi.keyvalue }
      | some (false, vi) =>
        match it.iter_stack with
        | [] => none
        | ni :: below =>
          match ni.current with
          | none => none
          | some node =>
            if node_has_children node then
              node_iterator.run pool calls (.push_node node) { it with value_iter := vi }
            else
              if ni.move_next.1 then
                match ni.move_next.2.current with
                | none => none
                | some next_node =>
                  node_iterator.run pool calls .advance
                    { it with iter_stack := ni.move_next.2 :: below,
                              value_iter := NodeValueIterator.init next_node }
              else
                node_iterator.run pool calls .pop
                  { it with iter_stack := ni.move_next.2 :: below, value_iter := vi } := by
  rw [node_iterator.run]

theorem run_pop_eq (pool : PMapPool K V) (calls : Nat) (it : node_iterator K V) :
    node_iterator.run pool (calls + 1) .pop it =
      match it.iter_stack.tail with
      | [] => some { it with iter_stack := [], current := none }
      | ni :: below =>
        if ni.move_next.1 then
          match ni.move_next.2.current with
          | none => none
          | some node =>
            if node_has_keyvalues node then
              node_iterator.run pool calls .advance
                { it with iter_stack := ni.move_next.2 :: below,
                          value_iter := NodeValueIterator.init node }
            else
              node_iterator.run pool calls (.push_node node)
                { it with iter_stack := ni.move_next.2 :: below }
        else node_iterator.run pool calls .pop { it with iter_stack := ni.move_next.2 :: below } := by
  rw [node_iterator.run]

theorem vi_fresh {pool : PMapPool K V} {c : Node K V} (h : ValueOK pool c) :
    ∃ x xs vi1, c.values pool = x :: xs ∧
      (NodeValueIterator.init c).move_next pool = some (true, vi1) ∧
      vi1.keyvalue = some x ∧ ViOK c vi1 ∧ vi_rest c vi1 = xs := by
  rcases h with ⟨ht, kv, hv⟩ | ⟨ht, id, x, l, hv, hl⟩
  · refine ⟨kv, [], { node := some c, iter := [], keyvalue := some kv, iteration_ongoing := false },
      values_keyvalue pool ht hv, ?_, rfl, ⟨rfl, Or.inl ⟨ht, rfl⟩⟩, ?_⟩
    · simp only [NodeValueIterator.move_next, NodeValueIterator.init, ht, hv]
    · simp [vi_rest, ht]
  · refine ⟨x, l, { node := some c, iter := x :: l, keyvalue := some x, iteration_ongoing := true },
      values_collision pool ht hv hl, ?_, rfl, ⟨rfl, Or.inr ⟨ht, rfl⟩⟩, ?_⟩
    · simp only [NodeValueIterator.move_next, NodeValueIterator.init, ht, hv, hl]
      rfl
    · simp [vi_rest, ht]

theorem vi_step_cons (pool : PMapPool K V) {c : Node K V} {vi : NodeValueIterator K V}
    (h : ViOK c vi) {y : KeyValue K V} {ys : List (KeyValue K V)} (hr : vi_rest c vi = y :: ys) :
    ∃ vi1, vi.move_next pool = some (true, vi1) ∧ vi1.keyvalue = some y ∧ ViOK c vi1 ∧
      vi_rest c vi1 = ys := by
  rcases h with ⟨hn, ⟨ht, _⟩ | ⟨ht, ho⟩⟩
  · simp [vi_rest, ht] at hr
  · simp only [vi_rest, ht, if_true] at hr
    refine ⟨{ vi with iter := vi.iter.tail, keyvalue := some y }, ?_, rfl,
      ⟨hn, Or.inr ⟨ht, ho⟩⟩, ?_⟩
    · simp only [NodeValueIterator.move_next, hn, ht, ho, if_true, hr]
    · simp [vi_rest, ht, hr]

theorem vi_step_nil (pool : PMapPool K V) {c : Node K V} {vi : NodeValueIterator K V}
    (h : ViOK c vi) (hr : vi_rest c vi = []) :
    ∃ vi1, vi.move_next pool = some (false, vi1) := by
  rcases h with ⟨hn, ⟨ht, hk⟩ | ⟨ht, ho⟩⟩
  · cases hkv : vi.keyvalue with
    | none => rw [hkv] at hk; cases hk
    | some kv =>
      exact ⟨vi, by simp only [NodeValueIterator.move_next, hn, ht, hkv]⟩
  · simp only [vi_rest, ht, if_true] at hr
    exact ⟨{ vi with iter := vi.iter.tail }, by
      simp only [NodeValueIterator.move_next, hn, ht, ho, if_true, hr]⟩

theorem node_has_keyvalues_of {pool : PMapPool K V} {c : Node K V} (h : ValueOK pool c) :
    node_has_keyvalues c = true := by
  rcases h with ⟨ht, _⟩ | ⟨ht, _⟩ <;> simp [node_has_keyvalues, ht]

theorem subtree_list_drop {pool : PMapPool K V} (cs : List (Node K V)) (i : Nat) (c : Node K V)
    (h : cs[i]? = some c) :
    Node.subtree_list pool (cs.drop i) = Node.subtree pool c ++ Node.subtree_list pool (cs.drop (i + 1)) := by
  have hi : i < cs.length := by
    by_contra hge
    rw [List.getElem?_eq_none (by omega)] at h; cases h
  have hc : cs[i] = c := by
    rw [List.getElem?_eq_getElem hi] at h; exact Option.some.inj h
  rw [List.drop_eq_getElem_cons hi, subtree_list_cons, hc]

/-- Starting on a fresh node: `advance` with the value iterator just set on
the child `c` of the top entry stops at the first value of `c`. -/
theorem run_advance_fresh (pool : PMapPool K V) (calls : Nat) (it : node_iterator K V)
    (d : Nat) (f : NodeChildIterator K V) (fs : List (NodeChildIterator K V)) (c : Node K V)
    (hst : it.iter_stack = f :: fs) (hfs : FramesOK pool d (f :: fs))
    (hlen : (f :: fs).length + d ≤ 7) (hcur : f.current = some c)
    (hvi : it.value_iter = NodeValueIterator.init c) :
    ∃ x L it1, Node.subtree pool c ++ pending pool (f :: fs) = x :: L ∧
      node_iterator.run pool (calls + 1) .advance it = some it1 ∧ it1.current = some x ∧
      StateOK pool it1 L := by
  have hcmem : c ∈ f.node.child_array := List.getElem?_mem hcur
  have hvok : ValueOK pool c := (hfs.1.2.2.2.2 c hcmem).1
  rcases vi_fresh hvok with ⟨x, xs, vi1, hvals, hmove, hkv, hviok, hrest⟩
  refine ⟨x, xs ++ c.descendants pool ++ pending pool (f :: fs),
    { it with value_iter := vi1, current := vi1.keyvalue }, ?_, ?_, ?_, ?_⟩
  · rw [subtree_eq, hvals]; simp
  · rw [run_advance_eq, hvi, hmove]
  · exact hkv
  · exact ⟨d, f, fs, c, hst, hfs, hlen, hcur, hviok, by rw [hrest]⟩


theorem child_move_next {pool : PMapPool K V} {d : Nat} {f : NodeChildIterator K V}
    (h : FrameOK pool d f) :
    f.move_next = (decide (f.iter + 1 < f.node.child_array.length),
      { f with iter := f.iter + 1 }) := by
  rcases h with ⟨hi, hh, hlt, hit⟩
  have hsz : f.node.child_array.length = f.node.size := hit.1
  simp only [NodeChildIterator.move_next, hh, hi, Bool.not_true, Bool.false_eq_true, if_false,
    if_true]
  congr 1
  rw [← hsz]
  by_cases e : f.iter + 1 < f.node.child_array.length
  · have : f.iter + 1 ≠ f.node.child_array.length := by omega
    simp [e, this]
  · have : f.iter + 1 = f.node.child_array.length := by omega
    simp [e, this]

theorem frame_next_ok {pool : PMapPool K V} {d : Nat} {f : NodeChildIterator K V}
    (h : FrameOK pool d f) (hlt : f.iter + 1 < f.node.child_array.length) :
    FrameOK pool d { f with iter := f.iter + 1 } :=
  ⟨h.1, h.2.1, hlt, h.2.2.2⟩

theorem run_push (pool : PMapPool K V) (calls : Nat) (it : node_iterator K V) (N : Node K V)
    (d : Nat) (fs : List (NodeChildIterator K V))
    (hst : it.iter_stack = fs) (hfs : FramesOK pool (d + 1) fs) (hlen : fs.length + d + 1 ≤ 7)
    (hN : Iterable pool (d + 1) N) (hne : N.child_array ≠ []) :
    ∃ x L it1, N.descendants pool ++ pending pool fs = x :: L ∧
      node_iterator.run pool (calls + 2) (.push_node N) it = some it1 ∧ it1.current = some x ∧
      StateOK pool it1 L := by
  have hsz : N.child_array.length = N.size := hN.1
  have hpos : 0 < N.child_array.length := List.length_pos.mpr hne
  rcases hc0 : N.child_array with _ | ⟨c0, rest⟩
  · exact absurd hc0 hne
  let f0 : NodeChildIterator K V :=
    { node := N, iter := 0, iterating := true, node_has_children := true }
  have hf0 : FrameOK pool d f0 := ⟨rfl, rfl, hpos, hN⟩
  have hmn : (NodeChildIterator.init N).move_next.2 = f0 := by
    simp only [NodeChildIterator.move_next, NodeChildIterator.init, ← hsz, hpos, decide_True,
      Bool.not_true, Bool.false_eq_true, if_false]
  have hcur : f0.current = some c0 := by
    simp [NodeChildIterator.current, f0, hc0]
  have hkv : node_has_keyvalues c0 = true :=
    node_has_keyvalues_of (hN.2 c0 (by rw [hc0]; exact List.mem_cons_self _ _)).1
  rcases run_advance_fresh pool calls
      { it with iter_stack := f0 :: fs, value_iter := NodeValueIterator.init c0 } d f0 fs c0 rfl
      ⟨hf0, hfs⟩ (by simp only [List.length_cons]; omega) hcur rfl with ⟨x, L, it1, hL, hrun, hx, hok⟩
  refine ⟨x, L, it1, ?_, ?_, hx, hok⟩
  · rw [← hL]
    simp only [pending, Node.descendants, f0, hc0, subtree_list_cons, List.drop_succ_cons,
      List.drop_zero, List.append_assoc]
  · have hpush : FixedStack_push 8 it.iter_stack (NodeChildIterator.init N) =
        NodeChildIterator.init N :: fs := by
      simp only [FixedStack_push, hst]
      rw [if_pos (by omega)]
    rw [show calls + 2 = (calls + 1) + 1 from rfl, run_push_eq, hpush]
    simp only [hmn, hcur, hkv, if_true]
    exact hrun

theorem pending_step {pool : PMapPool K V} (f : NodeChildIterator K V)
    (fs : List (NodeChildIterator K V)) (c1 : Node K V)
    (h : f.node.child_array[f.iter + 1]? = some c1) :
    pending pool (f :: fs) =
      Node.subtree pool c1 ++ pending pool ({ f with iter := f.iter + 1 } :: fs) := by
  simp only [pending]
  rw [subtree_list_drop _ _ _ h, List.append_assoc]

theorem pending_last {pool : PMapPool K V} (f : NodeChildIterator K V)
    (fs : List (NodeChildIterator K V)) (h : f.node.child_array.length ≤ f.iter + 1) :
    pending pool (f :: fs) = pending pool fs := by
  simp only [pending]
  rw [List.drop_eq_nil_of_le h, subtree_list_nil, List.nil_append]

theorem run_pop (pool : PMapPool K V) :
    ∀ (fs : List (NodeChildIterator K V)) (calls : Nat) (it : node_iterator K V)
      (g : NodeChildIterator K V) (d : Nat),
      it.iter_stack = g :: fs → FramesOK pool d fs → fs.length + d ≤ 7 →
      fs.length + 2 ≤ calls →
      ∃ it1, node_iterator.run pool calls .pop it = some it1 ∧
        it1.current = (pending pool fs).head? ∧
        ∀ x L, pending pool fs = x :: L → StateOK pool it1 L := by
  intro fs
  induction fs with
  | nil =>
    intro calls it g d hst _ _ hcalls
    obtain ⟨n, rfl⟩ : ∃ n, calls = n + 1 := ⟨calls - 1, by omega⟩
    refine ⟨{ it with iter_stack := [], current := none }, ?_, rfl, ?_⟩
    · rw [run_pop_eq, hst]; rfl
    · intro x L h; simp [pending] at h
  | cons f fs ih =>
    intro calls it g d hst hfs hlen hcalls
    obtain ⟨n, rfl⟩ : ∃ n, calls = n + 1 := ⟨calls - 1, by omega⟩
    have hmn := child_move_next hfs.1
    by_cases hlt : f.iter + 1 < f.node.child_array.length
    · rcases hc1 : f.node.child_array[f.iter + 1]? with _ | c1
      · rw [List.getElem?_eq_none_iff] at hc1; omega
      have hcur : ({ f with iter := f.iter + 1 } : NodeChildIterator K V).current = some c1 := hc1
      have hkv : node_has_keyvalues c1 = true :=
        node_has_keyvalues_of (hfs.1.2.2.2.2 c1 (List.getElem?_mem hc1)).1
      obtain ⟨n1, rfl⟩ : ∃ n1, n = n1 + 1 := ⟨n - 1, by simp only [List.length_cons] at hcalls; omega⟩
      rcases run_advance_fresh pool n1
          { it with iter_stack := { f with iter := f.iter + 1 } :: fs,
                    value_iter := NodeValueIterator.init c1 } d _ fs c1 rfl
          ⟨frame_next_ok hfs.1 hlt, hfs.2⟩ hlen hcur rfl with ⟨x, L, it1, hL, hrun, hx, hok⟩
      refine ⟨it1, ?_, ?_, ?_⟩
      · rw [run_pop_eq, hst]
        simp only [List.tail_cons, hmn, hlt, decide_True, if_true, hcur, hkv]
        exact hrun
      · rw [pending_step f fs c1 hc1, hL, hx]; rfl
      · intro x' L' h
        rw [pending_step f fs c1 hc1, hL] at h
        cases h
        exact hok
    · rcases ih n { it with iter_stack := { f with iter := f.iter + 1 } :: fs }
          { f with iter := f.iter + 1 } (d + 1) rfl hfs.2
          (by simp only [List.length_cons] at hlen; omega)
          (by simp only [List.length_cons] at hcalls; omega) with ⟨it1, hrun, hx, hok⟩
      refine ⟨it1, ?_, ?_, ?_⟩
      · rw [run_pop_eq, hst]
        simp only [List.tail_cons, hmn, hlt, decide_False, Bool.false_eq_true, if_false]
        exact hrun
      · rw [pending_last f fs (by omega)]; exact hx
      · intro x L h
        rw [pending_last f fs (by omega)] at h
        exact hok x L h


theorem iterable_no_children {pool : PMapPool K V} {c : Node K V}
    (h : Iterable pool 0 c) : c.child_array = [] := h

theorem run_advance (pool : PMapPool K V) (calls : Nat) (it : node_iterator K V)
    (todo : List (KeyValue K V)) (h : StateOK pool it todo) (hcalls : 11 ≤ calls) :
    ∃ it1, node_iterator.run pool calls .advance it = some it1 ∧ it1.current = todo.head? ∧
      ∀ x L, todo = x :: L → StateOK pool it1 L := by
  rcases h with ⟨d, f, fs, c, hst, hfs, hlen, hcur, hvi, rfl⟩
  obtain ⟨n, rfl⟩ : ∃ n, calls = n + 1 := ⟨calls - 1, by omega⟩
  have hcmem : c ∈ f.node.child_array := List.getElem?_mem hcur
  have hcit : Iterable pool d c := (hfs.1.2.2.2.2 c hcmem).2
  rcases hr : vi_rest c it.value_iter with _ | ⟨y, ys⟩
  · -- the values of the node are used up
    rcases vi_step_nil pool hvi hr with ⟨vi1, hmove⟩
    rw [run_advance_eq, hmove, hst]
    simp only [hcur, List.nil_append]
    by_cases hch : c.child_array = []
    · -- no children: go to the next sibling, or pop
      have hnc : node_has_children c = false := by simp [node_has_children, hch]
      have hdesc : c.descendants pool = [] := by
        simp [Node.descendants, hch, subtree_list_nil]
      simp only [hnc, Bool.false_eq_true, if_false, hdesc, List.nil_append,
        child_move_next hfs.1]
      by_cases hlt : f.iter + 1 < f.node.child_array.length
      · rcases hc1 : f.node.child_array[f.iter + 1]? with _ | c1
        · rw [List.getElem?_eq_none_iff] at hc1; omega
        have hcur1 : ({ f with iter := f.iter + 1 } : NodeChildIterator K V).current = some c1 := hc1
        obtain ⟨n1, rfl⟩ : ∃ n1, n = n1 + 1 := ⟨n - 1, by omega⟩
        rcases run_advance_fresh pool n1
            { it with iter_stack := { f with iter := f.iter + 1 } :: fs,
                      value_iter := NodeValueIterator.init c1 } d _ fs c1 rfl
            ⟨frame_next_ok hfs.1 hlt, hfs.2⟩ hlen hcur1 rfl with ⟨x, L, it1, hL, hrun, hx, hok⟩
        refine ⟨it1, ?_, ?_, ?_⟩
        · simp only [hlt, decide_True, if_true, hcur1]
          exact hrun
        · rw [pending_step f fs c1 hc1, hL, hx]; rfl
        · intro x' L' h
          rw [pending_step f fs c1 hc1, hL] at h
          cases h
          exact hok
      · rcases run_pop pool fs n
            { it with iter_stack := { f with iter := f.iter + 1 } :: fs, value_iter := vi1 }
            { f with iter := f.iter + 1 } (d + 1) rfl hfs.2
            (by simp only [List.length_cons] at hlen; omega)
            (by simp only [List.length_cons] at hlen; omega) with ⟨it1, hrun, hx, hok⟩
        refine ⟨it1, ?_, ?_, ?_⟩
        · simp only [hlt, decide_False, Bool.false_eq_true, if_false]
          exact hrun
        · rw [pending_last f fs (by omega)]; exact hx
        · intro x L h
          rw [pending_last f fs (by omega)] at h
          exact hok x L h
    · -- children: go down
      have hnc : node_has_children c = true := by
        cases hcs : c.child_array with
        | nil => exact absurd hcs hch
        | cons a l => simp [node_has_children, hcs]
      obtain ⟨d1, rfl⟩ : ∃ d1, d = d1 + 1 := by
        cases d with
        | zero => exact absurd (iterable_no_children hcit) hch
        | succ d1 => exact ⟨d1, rfl⟩
      obtain ⟨n2, rfl⟩ : ∃ n2, n = n2 + 2 := ⟨n - 2, by omega⟩
      rcases run_push pool n2
          { iter_stack := f :: fs, value_iter := vi1, current := it.current } c d1 (f :: fs) rfl hfs
          (by omega) hcit hch with ⟨x, L, it1, hL, hrun, hx, hok⟩
      refine ⟨it1, ?_, ?_, ?_⟩
      · simp only [hnc, if_true]
        exact hrun
      · rw [hL, hx]; rfl
      · intro x' L' h
        rw [hL] at h
        cases h
        exact hok
  · -- a further value of the node
    rcases vi_step_cons pool hvi hr with ⟨vi1, hmove, hkv, hvi1, hrest⟩
    refine ⟨{ it with value_iter := vi1, current := vi1.keyvalue }, ?_, ?_, ?_⟩
    · rw [run_advance_eq, hmove]
    · simp [hkv]
    · intro x L h
      simp only [List.cons_append, List.cons.injEq] at h
      refine ⟨d, f, fs, c, hst, hfs, hlen, hcur, hvi1, ?_⟩
      rw [hrest, ← h.2]

theorem collect_ok (pool : PMapPool K V) :
    ∀ (L : List (KeyValue K V)) (calls : Nat) (it : node_iterator K V) (x : KeyValue K V),
      it.current = some x → StateOK pool it L → L.length + 12 ≤ calls →
      node_iterator.collect pool calls it = some (x :: L) := by
  intro L
  induction L with
  | nil =>
    intro calls it x hx hok hcalls
    obtain ⟨n, rfl⟩ : ∃ n, calls = n + 1 := ⟨calls - 1, by omega⟩
    rcases run_advance pool n it [] hok (by simp at hcalls; omega) with ⟨it1, hrun, hcur, _⟩
    obtain ⟨n1, rfl⟩ : ∃ n1, n = n1 + 1 := ⟨n - 1, by simp at hcalls; omega⟩
    simp only [node_iterator.collect, hx, hrun]
    simp only [List.head?_nil] at hcur
    simp [hcur]
  | cons y L ih =>
    intro calls it x hx hok hcalls
    obtain ⟨n, rfl⟩ : ∃ n, calls = n + 1 := ⟨calls - 1, by omega⟩
    simp only [List.length_cons] at hcalls
    rcases run_advance pool n it (y :: L) hok (by omega) with ⟨it1, hrun, hcur, hok1⟩
    have := ih n it1 y (by simpa using hcur) (hok1 y L rfl) (by omega)
    rw [node_iterator.collect]
    simp only [hx, hrun, this, Option.map_some']

theorem iterate_ok (pool : PMapPool K V) (N : Node K V) (d calls : Nat) (hd : d ≤ 6)
    (hN : Iterable pool (d + 1) N) (hcalls : (N.descendants pool).length + 13 ≤ calls) :
    iterate pool calls (some N) = some (N.descendants pool) := by
  by_cases hch : N.child_array = []
  · have hnc : node_has_children N = false := by simp [node_has_children, hch]
    have hdesc : N.descendants pool = [] := by
      simp [Node.descendants, hch, subtree_list_nil]
    obtain ⟨n, rfl⟩ : ∃ n, calls = n + 1 := ⟨calls - 1, by omega⟩
    simp [iterate, node_iterator.init, hnc, hdesc, node_iterator.collect]
  · have hnc : node_has_children N = true := by
      cases hcs : N.child_array with
      | nil => exact absurd hcs hch
      | cons a l => simp [node_has_children, hcs]
    obtain ⟨n2, rfl⟩ : ∃ n2, calls = n2 + 2 := ⟨calls - 2, by omega⟩
    rcases run_push pool n2
        { iter_stack := [], value_iter := { node := none, iter := [], keyvalue := none,
                                            iteration_ongoing := false }, current := none }
        N d [] rfl trivial (by simp; omega) hN hch with ⟨x, L, it1, hL, hrun, hx, hok⟩
    simp only [pending, List.append_nil] at hL
    simp only [iterate, node_iterator.init, hnc, if_true, hrun]
    rw [hL]
    apply collect_ok pool L _ it1 x hx hok
    rw [hL] at hcalls
    simp only [List.length_cons] at hcalls
    omega

/-! ## From the trie invariant to the iterator -/

theorem valueOK_of_wf {compare : K → K → Bool} {hashfun : K → Nat} {pool : PMapPool K V}
    {path : List Nat} {c : Node K V} (h : WFValue compare hashfun pool path c) :
    ValueOK pool c := by
  rcases wfvalue_cases h with ⟨nkv, ht, hv, _, _⟩ | ⟨ht, id, l, hv, _, hl, hlen, _, _⟩
  · exact Or.inl ⟨ht, nkv, hv⟩
  · cases l with
    | nil => simp at hlen
    | cons x l => exact Or.inr ⟨ht, id, x, l, hv, hl⟩

theorem iterable_of_wf {compare : K → K → Bool} {hashfun : K → Nat} {pool : PMapPool K V} :
    ∀ (d : Nat) (path : List Nat) (n : Node K V), WFNode compare hashfun pool d path n →
      Iterable pool d n := by
  intro d
  induction d with
  | zero => intro path n h; exact h.2
  | succ d ih =>
    intro path n h
    rw [wfnode_succ_iff] at h
    refine ⟨?_, ?_⟩
    · rw [← h.2.length_eq]; unfold Node.size; rw [count_bits_eq _ h.1]
    · intro c hc
      rcases forall₂_right_mem h.2 hc with ⟨j, _, hv, hn, _⟩
      exact ⟨valueOK_of_wf hv, ih _ c hn⟩

theorem cells_eq (pool : PMapPool K V) (u : Nat) (cs : List (Node K V)) (t : NodeType)
    (v : NodeValue K V) :
    Node.cells pool (Node.mk u cs t v) =
      (match t, v with
        | .ValueNode, _ => 1
        | .CollisionNode, .collision_list id => (pool.lists[id]?.getD []).length
        | _, _ => 0) + Node.cells_list pool cs := by
  cases t <;> cases v <;> simp [Node.cells]

theorem cells_list_cons (pool : PMapPool K V) (c : Node K V) (cs : List (Node K V)) :
    Node.cells_list pool (c :: cs) = Node.cells pool c + Node.cells_list pool cs := by
  rw [Node.cells_list]

theorem values_length_le (pool : PMapPool K V) (u : Nat) (cs : List (Node K V)) (t : NodeType)
    (v : NodeValue K V) :
    ((Node.mk u cs t v).values pool).length ≤
      (match t, v with
        | .ValueNode, _ => 1
        | .CollisionNode, .collision_list id => (pool.lists[id]?.getD []).length
        | _, _ => 0) := by
  cases t <;> cases v <;> simp [Node.values, Node.type, Node.value]

theorem subtree_length_le_cells {compare : K → K → Bool} {hashfun : K → Nat}
    {pool : PMapPool K V} :
    ∀ (d : Nat) (path : List Nat) (n : Node K V), WFNode compare hashfun pool d path n →
      (Node.subtree pool n).length ≤ Node.cells pool n := by
  intro d
  induction d with
  | zero =>
    intro path n h
    cases n with
    | mk u cs t v =>
      have hcs : cs = [] := h.2
      subst hcs
      rw [subtree_eq, cells_eq, List.length_append]
      have := values_length_le pool u [] t v
      simp only [Node.descendants, Node.child_array, subtree_list_nil, List.length_nil,
        Node.cells_list]
      omega
  | succ d ih =>
    intro path n h
    cases n with
    | mk u cs t v =>
      rw [wfnode_succ_iff] at h
      simp only [Node.used, Node.child_array] at h
      have hl : ∀ (js : List Nat) (xs : List (Node K V)),
          List.Forall₂ (ChildOK compare hashfun pool d path) js xs →
          (Node.subtree_list pool xs).length ≤ Node.cells_list pool xs := by
        intro js xs hf
        induction hf with
        | nil => simp [subtree_list_nil, Node.cells_list]
        | cons hab _ ih2 =>
          rw [subtree_list_cons, cells_list_cons, List.length_append]
          have := ih _ _ hab.2.1
          omega
      rw [subtree_eq, cells_eq, List.length_append]
      have h1 := values_length_le pool u cs t v
      have h2 := hl _ _ h.2
      simp only [Node.descendants, Node.child_array]
      omega

/-! ## All cells of a subtree follow its path -/

theorem subtree_onPath {compare : K → K → Bool} {hashfun : K → Nat} {pool : PMapPool K V} :
    ∀ (d : Nat) (path : List Nat) (j : Nat) (c : Node K V),
      ChildOK compare hashfun pool d path j c →
      ∀ x ∈ Node.subtree pool c, x.hash = hashfun x.first % U32 ∧ OnPath (path ++ [j]) x.hash := by
  intro d
  induction d with
  | zero =>
    intro path j c hc x hx
    rw [subtree_eq, descendants_of_wf_zero hc.2.1, List.append_nil] at hx
    rcases wfvalue_cases hc.1 with ⟨nkv, ht, hv, h1, h2⟩ | ⟨ht, id, l, hv, _, hl, _, hall, _⟩
    · rw [values_keyvalue pool ht hv, List.mem_singleton] at hx
      subst hx; exact ⟨h1, h2⟩
    · rw [values_collision pool ht hv hl] at hx
      exact hall x hx
  | succ d ih =>
    intro path j c hc x hx
    rw [subtree_eq, List.mem_append] at hx
    rcases hx with hx | hx
    · rcases wfvalue_cases hc.1 with ⟨nkv, ht, hv, h1, h2⟩ | ⟨ht, id, l, hv, _, hl, _, hall, _⟩
      · rw [values_keyvalue pool ht hv, List.mem_singleton] at hx
        subst hx; exact ⟨h1, h2⟩
      · rw [values_collision pool ht hv hl] at hx
        exact hall x hx
    · have hw := hc.2.1
      rw [wfnode_succ_iff] at hw
      rcases mem_subtree_list.mp hx with ⟨c1, hc1, hx1⟩
      rcases forall₂_right_mem hw.2 hc1 with ⟨j1, _, hok1⟩
      have := ih (path ++ [j]) j1 c1 hok1 x hx1
      exact ⟨this.1, onPath_prefix this.2⟩

/-! ## Lookup against the cells of a subtree -/

theorem nmg_eq_scan {compare : K → K → Bool} {hashfun : K → Nat} {pool : PMapPool K V}
    {path : List Nat} {c : Node K V} (h : WFValue compare hashfun pool path c) (key : K)
    (hash : Nat) :
    node_match_get compare pool c key hash = collision_scan compare key hash (c.values pool) := by
  rcases wfvalue_cases h with ⟨nkv, ht, hv, _, _⟩ | ⟨ht, id, l, hv, _, hl, _, _, _⟩
  · rw [node_match_get_keyvalue compare pool ht hv, values_keyvalue pool ht hv]
    simp only [collision_scan]
    cases keyvalue_match_get compare nkv key hash <;> rfl
  · rw [node_match_get_collision compare pool ht hv hl, values_collision pool ht hv hl]

theorem values_pairwise {compare : K → K → Bool} {hashfun : K → Nat} {pool : PMapPool K V}
    {path : List Nat} {c : Node K V} (h : WFValue compare hashfun pool path c) :
    (c.values pool).Pairwise (fun a b => ¬ same_key compare a b) := by
  rcases wfvalue_cases h with ⟨nkv, ht, hv, _, _⟩ | ⟨ht, id, l, hv, _, hl, _, _, hpw⟩
  · rw [values_keyvalue pool ht hv]; exact List.pairwise_singleton _ _
  · rw [values_collision pool ht hv hl]; exact hpw

theorem scan_sound {compare : K → K → Bool} {key : K} {hash : Nat} {w : V} :
    ∀ (l : List (KeyValue K V)), collision_scan compare key hash l = some w →
      ∃ x ∈ l, (x.hash = hash ∧ compare key x.first = true) ∧ x.second = w := by
  intro l
  induction l with
  | nil => intro h; simp [collision_scan] at h
  | cons a l ih =>
    intro h
    simp only [collision_scan] at h
    cases hm : keyvalue_match_get compare a key hash with
    | some w1 =>
      rw [hm] at h
      simp only [Option.some.injEq] at h
      subst h
      have := keyvalue_match_get_eq_some.mp hm
      exact ⟨a, List.mem_cons_self _ _, this.1, this.2⟩
    | none =>
      rw [hm] at h
      rcases ih h with ⟨x, hx, hp⟩
      exact ⟨x, List.mem_cons_of_mem _ hx, hp⟩

theorem scan_none {compare : K → K → Bool} {key : K} {hash : Nat} :
    ∀ (l : List (KeyValue K V)),
      (∀ x ∈ l, ¬ (x.hash = hash ∧ compare key x.first = true)) →
      collision_scan compare key hash l = none := by
  intro l
  induction l with
  | nil => intro _; rfl
  | cons a l ih =>
    intro h
    rw [collision_scan_cons_nomatch _ (h a (List.mem_cons_self _ _))]
    exact ih (fun x hx => h x (List.mem_cons_of_mem _ hx))

theorem match_same_key {compare : K → K → Bool} (hc : CompareEquiv compare)
    {a b : KeyValue K V} {key : K} {hash : Nat}
    (ha : a.hash = hash ∧ compare key a.first = true)
    (hb : b.hash = hash ∧ compare key b.first = true) : same_key compare a b :=
  ⟨ha.1.trans hb.1.symm, hc.trans _ _ _ (hc.symm _ _ ha.2) hb.2⟩

theorem scan_unique {compare : K → K → Bool} (hc : CompareEquiv compare) {key : K} {hash : Nat} :
    ∀ (l : List (KeyValue K V)), l.Pairwise (fun a b => ¬ same_key compare a b) →
      ∀ x ∈ l, (x.hash = hash ∧ compare key x.first = true) →
      collision_scan compare key hash l = some x.second := by
  intro l
  induction l with
  | nil => intro _ x hx; cases hx
  | cons a l ih =>
    intro hpw x hx hm
    rw [List.pairwise_cons] at hpw
    rcases List.mem_cons.mp hx with rfl | hx'
    · exact collision_scan_cons_match _ hm
    · have hna : ¬ (a.hash = hash ∧ compare key a.first = true) := fun ha =>
        hpw.1 x hx' (match_same_key hc ha hm)
      rw [collision_scan_cons_nomatch _ hna]
      exact ih hpw.2 x hx' hm

theorem child_of_lookup {compare : K → K → Bool} {hashfun : K → Nat} {pool : PMapPool K V}
    {d : Nat} {path : List Nat} {n c : Node K V} {s : Nat}
    (hw : WFNode compare hashfun pool (d + 1) path n)
    (hl : ((slots n.used).zip n.child_array).lookup s = some c) :
    ChildOK compare hashfun pool d path s c ∧ c ∈ n.child_array := by
  rw [wfnode_succ_iff] at hw
  have hmem := lookup_mem _ _ _ hl
  exact ⟨(List.forall₂_iff_zip.mp hw.2).2 hmem, (List.of_mem_zip hmem).2⟩

theorem subtree_mem_descendants {pool : PMapPool K V} {n c : Node K V} {x : KeyValue K V}
    (hc : c ∈ n.child_array) (hx : x ∈ Node.subtree pool c) : x ∈ n.descendants pool :=
  mem_subtree_list.mpr ⟨c, hc, hx⟩

theorem lookup_sound {compare : K → K → Bool} {hashfun : K → Nat} {pool : PMapPool K V}
    {key : K} {hash : Nat} {w : V} :
    ∀ (d : Nat) (path : List Nat) (cur : Node K V), WFNode compare hashfun pool d path cur →
      ∀ left level, try_get_value_loop compare pool key hash left level cur = some w →
      ∃ x ∈ cur.descendants pool, (x.hash = hash ∧ compare key x.first = true) ∧ x.second = w := by
  intro d
  induction d with
  | zero =>
    intro path cur hw left level h
    rw [lookup_leaf _ _ _ _ _ _ _ hw.1] at h
    cases h
  | succ d ih =>
    intro path cur hw left level h
    cases left with
    | zero => simp [try_get_value_loop] at h
    | succ left =>
      have hw' := hw
      rw [wfnode_succ_iff] at hw'
      rw [lookup_step compare pool key hash left level cur hw'.1 hw'.2.length_eq] at h
      cases hl : ((slots cur.used).zip cur.child_array).lookup (slice hash level) with
      | none => rw [hl] at h; cases h
      | some c =>
        rw [hl] at h
        simp only [child_lookup] at h
        rcases child_of_lookup hw hl with ⟨hcok, hcmem⟩
        cases hn : node_match_get compare pool c key hash with
        | some w1 =>
          rw [hn] at h
          simp only [Option.some.injEq] at h
          subst h
          rw [nmg_eq_scan hcok.1] at hn
          rcases scan_sound _ hn with ⟨x, hx, hp⟩
          refine ⟨x, subtree_mem_descendants hcmem ?_, hp⟩
          rw [subtree_eq]; exact List.mem_append_left _ hx
        | none =>
          rw [hn] at h
          rcases ih _ c hcok.2.1 _ _ h with ⟨x, hx, hp⟩
          refine ⟨x, subtree_mem_descendants hcmem ?_, hp⟩
          rw [subtree_eq]; exact List.mem_append_right _ hx

theorem off_slot_absurd {compare : K → K → Bool} {hashfun : K → Nat} {pool : PMapPool K V}
    {d : Nat} {path : List Nat} {js : List Nat} {xs : List (Node K V)} {x : KeyValue K V}
    {level : Nat} (hlev : path.length = level)
    (hf : List.Forall₂ (ChildOK compare hashfun pool d path) js xs)
    (hx : x ∈ Node.subtree_list pool xs) : slice x.hash level ∈ js := by
  rcases mem_subtree_list.mp hx with ⟨c, hc, hxc⟩
  rcases forall₂_right_mem hf hc with ⟨j, hj, hok⟩
  have := (subtree_onPath d path j c hok x hxc).2
  rw [← hlev, ((onPath_append path j _).mp this).2]
  exact hj

theorem lookup_complete {compare : K → K → Bool} {hashfun : K → Nat} {pool : PMapPool K V}
    (hc : CompareEquiv compare) {key : K} {hash : Nat} {x : KeyValue K V} :
    ∀ (d : Nat) (path : List Nat) (cur : Node K V) (level : Nat), path.length = level →
      WFNode compare hashfun pool d path cur → x ∈ cur.descendants pool →
      (x.hash = hash ∧ compare key x.first = true) →
      try_get_value_loop compare pool key hash (d + 1) level cur = some x.second := by
  intro d
  induction d with
  | zero =>
    intro path cur level _ hw hx _
    rw [descendants_of_wf_zero hw] at hx
    cases hx
  | succ d ih =>
    intro path cur level hlev hw hx hm
    cases cur with
    | mk u cs t v =>
      have hw' := hw
      rw [wfnode_succ_iff] at hw'
      simp only [Node.used, Node.child_array] at hw'
      rw [lookup_step compare pool key hash (d + 1) level (Node.mk u cs t v) hw'.1
        hw'.2.length_eq]
      simp only [Node.used, Node.child_array, Node.descendants] at hx ⊢
      have hsx : slice x.hash level = slice hash level := by rw [hm.1]
      by_cases hjm : slice hash level ∈ slots u
      · rcases children_split hw'.2 hjm with ⟨A, c, C, rfl, hA, hcok, hC⟩
        have hs := slots_of_mem u _ hjm
        conv_lhs => rw [hs]
        rw [lookup_zip_self _ _ _ _ _ _ hA.length_eq (not_mem_slots_below u _)]
        rw [subtree_list_append, subtree_list_cons, List.mem_append, List.mem_append] at hx
        have hxc : x ∈ Node.subtree pool c := by
          rcases hx with hx | hx | hx
          · have := off_slot_absurd hlev hA hx
            rw [hsx] at this
            exact absurd this (not_mem_slots_below u _)
          · exact hx
          · have := off_slot_absurd hlev hC hx
            rw [hsx] at this
            exact absurd (mem_slots_above this).1 (lt_irrefl _)
        simp only [child_lookup]
        rw [nmg_eq_scan hcok.1]
        rw [subtree_eq, List.mem_append] at hxc
        rcases hxc with hxv | hxd
        · rw [scan_unique hc _ (values_pairwise hcok.1) x hxv hm]
        · have hnone : collision_scan compare key hash (c.values pool) = none := by
            apply scan_none
            intro a ha hma
            exact hcok.2.2 a ha x hxd (match_same_key hc hma hm)
          rw [hnone]
          exact ih (path ++ [slice hash level]) c (level + 1) (by simp [hlev]) hcok.2.1 hxd hm
      · rcases children_split_not hw'.2 hjm with ⟨A, C, rfl, hA, hC⟩
        rw [subtree_list_append, List.mem_append] at hx
        rcases hx with hx | hx
        · have := off_slot_absurd hlev hA hx
          rw [hsx] at this
          exact absurd (mem_slots_below this).2 hjm
        · have := off_slot_absurd hlev hC hx
          rw [hsx] at this
          exact absurd (mem_slots_above this).2 hjm

/-! ## No key occurs twice in a subtree -/

theorem subtree_list_pairwise {compare : K → K → Bool} {hashfun : K → Nat} {pool : PMapPool K V}
    {d : Nat} {path : List Nat}
    (ih : ∀ (j : Nat) (c : Node K V), ChildOK compare hashfun pool d path j c →
      (Node.subtree pool c).Pairwise (fun a b => ¬ same_key compare a b)) :
    ∀ (js : List Nat) (xs : List (Node K V)), js.Pairwise (· < ·) →
      List.Forall₂ (ChildOK compare hashfun pool d path) js xs →
      (Node.subtree_list pool xs).Pairwise (fun a b => ¬ same_key compare a b) := by
  intro js xs hjs hf
  induction hf with
  | nil => rw [subtree_list_nil]; exact List.Pairwise.nil
  | @cons j c js1 xs1 hab hrest ih2 =>
    rw [List.pairwise_cons] at hjs
    rw [subtree_list_cons, List.pairwise_append]
    refine ⟨ih j c hab, ih2 hjs.2, ?_⟩
    intro a ha b hb hs
    have h1 := (subtree_onPath d path j c hab a ha).2
    have h2 := off_slot_absurd (show path.length = path.length from rfl) hrest hb
    rw [← hs.1, ((onPath_append path j _).mp h1).2] at h2
    exact absurd (hjs.1 j h2) (lt_irrefl _)

theorem subtree_pairwise {compare : K → K → Bool} {hashfun : K → Nat} {pool : PMapPool K V} :
    ∀ (d : Nat) (path : List Nat) (j : Nat) (c : Node K V),
      ChildOK compare hashfun pool d path j c →
      (Node.subtree pool c).Pairwise (fun a b => ¬ same_key compare a b) := by
  intro d
  induction d with
  | zero =>
    intro path j c hc
    rw [subtree_eq, descendants_of_wf_zero hc.2.1, List.append_nil]
    exact values_pairwise hc.1
  | succ d ih =>
    intro path j c hc
    rw [subtree_eq, List.pairwise_append]
    refine ⟨values_pairwise hc.1, ?_, hc.2.2⟩
    have hw := hc.2.1
    rw [wfnode_succ_iff] at hw
    exact subtree_list_pairwise (ih (path ++ [j])) _ _ (slots_pairwise _) hw.2

/-! ## `Map::remove`: the parts -/

theorem remove_collect_rest (compare : K → K → Bool) (pool : PMapPool K V) (key : K) (hash : Nat)
    (c : Node K V) :
    ∀ (L : List (KeyValue K V)) (calls : Nat) (vi : NodeValueIterator K V), ViOK c vi →
      vi_rest c vi = L → L.length + 1 ≤ calls →
      remove_collect_node compare pool key hash calls vi =
        some (L.filter (fun x => !(keyvalue_match_get compare x key hash).isSome)) := by
  intro L
  induction L with
  | nil =>
    intro calls vi hvi hr hcalls
    obtain ⟨n, rfl⟩ : ∃ n, calls = n + 1 := ⟨calls - 1, by omega⟩
    rcases vi_step_nil pool hvi hr with ⟨vi1, hmove⟩
    simp only [remove_collect_node, hmove, List.filter_nil]
  | cons y ys ih =>
    intro calls vi hvi hr hcalls
    obtain ⟨n, rfl⟩ : ∃ n, calls = n + 1 := ⟨calls - 1, by omega⟩
    rcases vi_step_cons pool hvi hr with ⟨vi1, hmove, hkv, hvi1, hrest⟩
    have := ih n vi1 hvi1 hrest (by simp only [List.length_cons] at hcalls; omega)
    rw [remove_collect_node]
    simp only [hmove, hkv, this, List.filter_cons]
    cases (keyvalue_match_get compare y key hash).isSome <;> simp

theorem remove_collect_ok (compare : K → K → Bool) (pool : PMapPool K V) (key : K) (hash : Nat)
    (c : Node K V) (hv : ValueOK pool c) (calls : Nat)
    (hcalls : (c.values pool).length + 1 ≤ calls) :
    remove_collect_node compare pool key hash calls (NodeValueIterator.init c) =
      some ((c.values pool).filter (fun x => !(keyvalue_match_get compare x key hash).isSome)) := by
  rcases vi_fresh hv with ⟨x, xs, vi1, hvals, hmove, hkv, hvi1, hrest⟩
  rw [hvals] at hcalls ⊢
  simp only [List.length_cons] at hcalls
  obtain ⟨n, rfl⟩ : ∃ n, calls = n + 1 := ⟨calls - 1, by omega⟩
  have := remove_collect_rest compare pool key hash c xs n vi1 hvi1 hrest (by omega)
  rw [remove_collect_node]
  simp only [hmove, hkv, this, List.filter_cons]
  cases (keyvalue_match_get compare x key hash).isSome <;> simp

/-- The root that `Map::remove` builds: the old root without the branch in
slot `j0`. -/
theorem remove_root_post {compare : K → K → Bool} {hashfun : K → Nat} (pool : PMapPool K V)
    (d level : Nat) (path : List Nat) (u u1 : Nat) (A C : List (Node K V)) (B : Node K V)
    (t : NodeType) (v : NodeValue K V) (j0 : Nat)
    (hw : WFNode compare hashfun pool (d + 1) path (Node.mk u (A ++ B :: C) t v))
    (hjm : j0 ∈ slots u) (hAl : A.length = (slots_below u j0).length)
    (hu1 : u1 < U32) (hs1 : slots u1 = slots_below u j0 ++ slots_above u j0) :
    WFNode compare hashfun pool (d + 1) path (Node.mk u1 (A ++ C) t v) ∧
      (∀ key hash, try_get_value_loop compare pool key hash (d + 2) level (Node.mk u1 (A ++ C) t v) =
        if slice hash level = j0 then none
        else try_get_value_loop compare pool key hash (d + 2) level (Node.mk u (A ++ B :: C) t v)) ∧
      (Node.mk u1 (A ++ C) t v).descendants pool =
        Node.subtree_list pool A ++ Node.subtree_list pool C := by
  have hw' := hw
  rw [wfnode_succ_iff] at hw'
  simp only [Node.used, Node.child_array] at hw'
  rcases children_of_wf hw'.2 hjm hAl with ⟨hA, _, hC⟩
  have hall1 : List.Forall₂ (ChildOK compare hashfun pool d path) (slots u1) (A ++ C) := by
    rw [hs1]; exact List.rel_append hA hC
  have hnm : j0 ∉ slots_below u j0 ++ slots_above u j0 := by
    intro h
    rcases List.mem_append.mp h with h | h
    · exact not_mem_slots_below u j0 h
    · exact absurd (mem_slots_above h).1 (lt_irrefl _)
  refine ⟨?_, ?_, ?_⟩
  · rw [wfnode_succ_iff]; exact ⟨hu1, hall1⟩
  · intro key hash
    rw [lookup_step compare pool key hash (d + 1) level (Node.mk u1 (A ++ C) t v) hu1
      hall1.length_eq]
    simp only [Node.used, Node.child_array]
    by_cases hj : slice hash level = j0
    · rw [if_pos hj, hs1, hj, lookup_zip_not_mem _ _ _ hnm]
    · rw [if_neg hj, lookup_step compare pool key hash (d + 1) level
        (Node.mk u (A ++ B :: C) t v) hw'.1 hw'.2.length_eq]
      simp only [Node.used, Node.child_array]
      rw [hs1, slots_of_mem u j0 hjm, lookup_zip_insert j0 _ B _ _ hj _ _ hA.length_eq]
  · simp only [Node.descendants, Node.child_array, subtree_list_append]

theorem slots_eq_nil_of_lt {u : Nat} (hu : u < U32) (h : slots u = []) : u = 0 := by
  apply Nat.eq_of_testBit_eq
  intro i
  rw [Nat.zero_testBit]
  by_cases hi : i < 32
  · by_contra hc
    have : i ∈ slots u := mem_slots.mpr ⟨hi, by simpa using hc⟩
    rw [h] at this
    cases this
  · apply Nat.testBit_lt_two_pow
    have : (2 : Nat) ^ 32 ≤ 2 ^ i := Nat.pow_le_pow_right (by norm_num) (by omega)
    exact lt_of_lt_of_le hu (by simpa [U32] using this)

/-- What re-inserting the kept cells into a map gives. -/
theorem add_kept_post {compare : K → K → Bool} {hashfun : K → Nat}
    (hc : CompareEquiv compare) :
    ∀ (kept : List (KeyValue K V)) (pool : PMapPool K V) (root : Node K V),
      WFMap compare hashfun pool { root_ := some root } →
      (∀ x ∈ kept, x.hash = hashfun x.first % U32) →
      kept.Pairwise (fun a b => ¬ same_key compare a b) →
      ∃ pool1 root1, add_kept_keys compare pool { root_ := some root } kept =
          some (pool1, { root_ := some root1 }) ∧
        WFMap compare hashfun pool1 { root_ := some root1 } ∧
        (∀ key, (∀ x ∈ kept, ¬ (x.hash = hashfun key % U32 ∧ compare key x.first = true)) →
          Map.try_get_value compare hashfun pool1 { root_ := some root1 } key =
            Map.try_get_value compare hashfun pool { root_ := some root } key) ∧
        (∀ key, ∀ x ∈ kept, (x.hash = hashfun key % U32 ∧ compare key x.first = true) →
          Map.try_get_value compare hashfun pool1 { root_ := some root1 } key = some x.second) ∧
        (∀ x ∈ root1.descendants pool1, x ∈ kept ∨ x ∈ root.descendants pool) := by
  intro kept
  induction kept with
  | nil =>
    intro pool root hw _ _
    refine ⟨pool, root, rfl, hw, fun _ _ => rfl, ?_, fun x hx => Or.inr hx⟩
    intro key x hx
    cases hx
  | cons a rest ih =>
    intro pool root hw hgood hpw
    rcases add_keyvalue_post hc pool { root_ := some root } hw a
      (hgood a (List.mem_cons_self _ _)) with ⟨pool1, root1, hadd, hw1, _, hsame, hother, hdesc⟩
    rcases ih pool1 root1 hw1 (fun x hx => hgood x (List.mem_cons_of_mem _ hx))
      (List.pairwise_cons.mp hpw).2 with ⟨pool2, root2, hfold, hw2, hnone, hsome, hdesc2⟩
    refine ⟨pool2, root2, ?_, hw2, ?_, ?_, ?_⟩
    · simp only [add_kept_keys, hadd, hfold]
    · intro key hno
      rw [hnone key (fun x hx => hno x (List.mem_cons_of_mem _ hx)),
        hother key (hno a (List.mem_cons_self _ _))]
    · intro key x hx hm
      rcases List.mem_cons.mp hx with rfl | hx
      · rw [hnone key, hsame key hm.1 hm.2]
        intro y hy hmy
        exact (List.pairwise_cons.mp hpw).1 y hy (match_same_key hc hm hmy)
      · exact hsome key x hx hm
    · intro x hx
      rcases hdesc2 x hx with h | h
      · exact Or.inl (List.mem_cons_of_mem _ h)
      · rcases hdesc x h with h | ⟨r, hr, h⟩
        · exact Or.inl (h ▸ List.mem_cons_self _ _)
        · simp only [Option.some.injEq] at hr
          subst hr
          exact Or.inr h

theorem and_mask_eq_slice (hash : Nat) : hash &&& 0x1f = slice hash 0 := by
  simp [slice]

/-- The root `Map::remove` allocates is the old root without the removed
branch. -/
theorem remove_root_eq (u : Nat) (A C : List (Node K V)) (B : Node K V) (t : NodeType)
    (v : NodeValue K V) (hash : Nat) (hu : u < U32) (hjm : slice hash 0 ∈ slots u)
    (hlen : (slots u).length = (A ++ B :: C).length)
    (hAl : A.length = (slots_below u (slice hash 0)).length) :
    ∃ u1, u1 < U32 ∧ slots u1 = slots_below u (slice hash 0) ++ slots_above u (slice hash 0) ∧
      (if 0 < (Node.mk u (A ++ B :: C) t v).size - 1 then
        Node.mk (set_bit_off (Node.mk u (A ++ B :: C) t v).used (hash &&& 0x1f))
          (remove_copy_children
            ((Node.mk u (A ++ B :: C) t v).child_array.take (Node.mk u (A ++ B :: C) t v).size)
            ((Node.mk u (A ++ B :: C) t v).index (1 <<< (hash &&& 0x1f))))
          (Node.mk u (A ++ B :: C) t v).type (Node.mk u (A ++ B :: C) t v).value
      else Node.mk 0 [] (Node.mk u (A ++ B :: C) t v).type (Node.mk u (A ++ B :: C) t v).value) =
      Node.mk u1 (A ++ C) t v := by
  have hsize : (Node.mk u (A ++ B :: C) t v).size = (A ++ B :: C).length := by
    simp only [Node.size, Node.used]; rw [count_bits_eq u hu, hlen]
  simp only [Node.used, Node.child_array, Node.type, Node.value, Node.index] at hsize ⊢
  rw [hsize, and_mask_eq_slice, index_eq u _ hu, ← hAl, List.take_length]
  by_cases hpos : 0 < (A ++ B :: C).length - 1
  · rw [if_pos hpos]
    refine ⟨set_bit_off u (slice hash 0), set_bit_off_lt u _ hu,
      slots_set_bit_off u _ (slice_lt _ _), ?_⟩
    simp only [remove_copy_children, eraseIdx_append_cons]
  · rw [if_neg hpos]
    have hA : A = [] := by
      cases A with
      | nil => rfl
      | cons a A => simp at hpos
    have hC : C = [] := by
      cases C with
      | nil => rfl
      | cons a C => simp at hpos
    subst hA; subst hC
    have hs := slots_of_mem u _ hjm
    rw [hs] at hlen
    simp only [List.length_append, List.length_cons, List.nil_append, List.length_nil] at hlen
    have hb : slots_below u (slice hash 0) = [] := List.length_eq_zero.mp (by omega)
    have ha : slots_above u (slice hash 0) = [] := List.length_eq_zero.mp (by omega)
    refine ⟨0, by simp [U32], ?_, rfl⟩
    rw [hb, ha, slots_zero]; rfl


theorem remove_not_found (compare : K → K → Bool) (hashfun : K → Nat) (pool : PMapPool K V)
    (m : Map K V) (key : K) (h : Map.try_get_value compare hashfun pool m key = none) :
    Map.remove compare hashfun pool m key = some (pool, m) := by
  simp [Map.remove, h]

theorem remove_found (compare : K → K → Bool) (hashfun : K → Nat) (pool : PMapPool K V)
    (root B : Node K V) (key : K) (w : V) (kept_node below : List (KeyValue K V))
    (h : Map.try_get_value compare hashfun pool { root_ := some root } key = some w)
    (hB : root.get_child_by_hash_and_depth (hashfun key % U32) 0 = some B)
    (hk : remove_collect_node compare pool key (hashfun key % U32)
      (iterate_calls pool (some B)) (NodeValueIterator.init B) = some kept_node)
    (hb : iterate pool (iterate_calls pool (some B)) (some B) = some below) :
    Map.remove compare hashfun pool { root_ := some root } key =
      add_kept_keys compare pool
        (Map.mk (some
          (if 0 < root.size - 1 then
            Node.mk (set_bit_off root.used ((hashfun key % U32) &&& 0x1f))
              (remove_copy_children (root.child_array.take root.size)
                (root.index (1 <<< ((hashfun key % U32) &&& 0x1f))))
              root.type root.value
          else Node.mk 0 [] root.type root.value)))
        (kept_node ++ below.filter
          (fun current => !(keyvalue_match_get compare current key (hashfun key % U32)).isSome)) := by
  simp only [Map.remove, h, hB, hk, hb, Option.isSome_some, if_true]

/-- What `Map::remove` gives on a map that satisfies the invariant. -/
theorem remove_post {compare : K → K → Bool} {hashfun : K → Nat}
    (hc : CompareEquiv compare) (pool : PMapPool K V) (m : Map K V)
    (hw : WFMap compare hashfun pool m) (key : K) :
    ∃ pool1 m1, Map.remove compare hashfun pool m key = some (pool1, m1) ∧
      WFMap compare hashfun pool1 m1 ∧
      Map.try_get_value compare hashfun pool1 m1 key = none ∧
      (∀ key1, compare key1 key = false →
        Map.try_get_value compare hashfun pool1 m1 key1 =
          Map.try_get_value compare hashfun pool m key1) := by
  cases hfound : Map.try_get_value compare hashfun pool m key with
  | none =>
    exact ⟨pool, m, remove_not_found compare hashfun pool m key hfound, hw, hfound,
      fun _ _ => rfl⟩
  | some w =>
    obtain ⟨root⟩ := m
    cases root with
    | none => simp [Map.try_get_value] at hfound
    | some root =>
      obtain ⟨u, cs, t, v⟩ := root
      have hwf : WFNode compare hashfun pool 7 [] (Node.mk u cs t v) := hw.2
      have hwf' := hwf
      rw [wfnode_succ_iff] at hwf'
      simp only [Node.used, Node.child_array] at hwf'
      have hloop := hfound
      rw [root_lookup, lookup_step compare pool key _ 7 0 (Node.mk u cs t v) hwf'.1
        hwf'.2.length_eq] at hloop
      simp only [Node.used, Node.child_array] at hloop
      have hjm : slice (hashfun key % U32) 0 ∈ slots u := by
        by_contra hn
        rw [lookup_zip_not_mem _ _ _ hn] at hloop
        cases hloop
      rcases children_split hwf'.2 hjm with ⟨A, B, C, rfl, hA, hB, hC⟩
      have hAl : A.length = (slots_below u (slice (hashfun key % U32) 0)).length :=
        hA.length_eq.symm
      have hchild : (Node.mk u (A ++ B :: C) t v).get_child_by_hash_and_depth
          (hashfun key % U32) 0 = some B :=
        get_child_of_mem u A C B t v _ hwf'.1 hjm hAl
      -- the cells of the removed branch
      have hsub : (Node.subtree pool B).length ≤ Node.cells pool B :=
        subtree_length_le_cells 6 _ B hB.2.1
      have hsubl : (Node.subtree pool B).length =
          (B.values pool).length + (B.descendants pool).length := by
        rw [subtree_eq, List.length_append]
      have hk := remove_collect_ok compare pool key (hashfun key % U32) B
        (valueOK_of_wf hB.1) (iterate_calls pool (some B))
        (by simp only [iterate_calls]; omega)
      have hb := iterate_ok pool B 5 (iterate_calls pool (some B)) (by norm_num)
        (iterable_of_wf 6 _ B hB.2.1) (by simp only [iterate_calls]; omega)
      rw [remove_found compare hashfun pool _ B key w _ _ hfound hchild hk hb]
      rcases remove_root_eq u A C B t v (hashfun key % U32) hwf'.1 hjm hwf'.2.length_eq hAl with
        ⟨u1, hu1, hs1, hroot⟩
      rw [hroot, ← List.filter_append, ← subtree_eq]
      rcases remove_root_post pool 6 0 [] u u1 A C B t v _ hwf hjm hAl hu1 hs1 with
        ⟨hwf1, hlook1, hdesc1⟩
      have hgoodB := subtree_onPath 6 [] _ B hB
      have hkept_sub : ∀ x ∈ (Node.subtree pool B).filter
          (fun current => !(keyvalue_match_get compare current key (hashfun key % U32)).isSome),
          x ∈ Node.subtree pool B ∧
            ¬ (x.hash = hashfun key % U32 ∧ compare key x.first = true) := by
        intro x hx
        rcases List.mem_filter.mp hx with ⟨hx1, hx2⟩
        refine ⟨hx1, ?_⟩
        intro hm
        rw [keyvalue_match_get_of hm] at hx2
        simp at hx2
      rcases add_kept_post hc _ pool (Node.mk u1 (A ++ C) t v) ⟨hw.1, hwf1⟩
        (fun x hx => (hgoodB x (hkept_sub x hx).1).1)
        ((subtree_pairwise 6 [] _ B hB).sublist (List.filter_sublist _)) with
        ⟨pool2, root2, hfold, hw2, hnone, hsome, _⟩
      refine ⟨pool2, { root_ := some root2 }, hfold, hw2, ?_, ?_⟩
      · rw [hnone key (fun x hx => (hkept_sub x hx).2), root_lookup, hlook1, if_pos rfl]
      · intro key1 hne
        by_cases hex : ∃ x ∈ (Node.subtree pool B).filter
            (fun current => !(keyvalue_match_get compare current key (hashfun key % U32)).isSome),
            x.hash = hashfun key1 % U32 ∧ compare key1 x.first = true
        · rcases hex with ⟨x, hx, hm⟩
          rw [hsome key1 x hx hm, root_lookup]
          exact (lookup_complete hc 7 [] _ 0 rfl hwf
            (subtree_mem_descendants (by simp [Node.child_array]) (hkept_sub x hx).1) hm).symm
        · rw [hnone key1 (fun x hx hm => hex ⟨x, hx, hm⟩), root_lookup, hlook1]
          by_cases hj : slice (hashfun key1 % U32) 0 = slice (hashfun key % U32) 0
          · rw [if_pos hj, root_lookup]
            cases hold : try_get_value_loop compare pool key1 (hashfun key1 % U32) 8 0
                (Node.mk u (A ++ B :: C) t v) with
            | none => rfl
            | some w1 =>
              exfalso
              rcases lookup_sound 7 [] _ hwf 8 0 hold with ⟨x, hx, hm, _⟩
              simp only [Node.descendants, Node.child_array, subtree_list_append,
                subtree_list_cons, List.mem_append] at hx
              have hxB : x ∈ Node.subtree pool B := by
                rcases hx with hx | hx | hx
                · have := off_slot_absurd (show ([] : List Nat).length = 0 from rfl) hA hx
                  rw [hm.1, hj] at this
                  exact absurd this (not_mem_slots_below _ _)
                · exact hx
                · have := off_slot_absurd (show ([] : List Nat).length = 0 from rfl) hC hx
                  rw [hm.1, hj] at this
                  exact absurd (mem_slots_above this).1 (lt_irrefl _)
              apply hex
              refine ⟨x, List.mem_filter.mpr ⟨hxB, ?_⟩, hm⟩
              cases hmk : keyvalue_match_get compare x key (hashfun key % U32) with
              | none => rfl
              | some w2 =>
                exfalso
                have hmk' := (keyvalue_match_get_eq_some.mp hmk).1
                have : compare key1 key = true :=
                  hc.trans _ _ _ hm.2 (hc.symm _ _ hmk'.2)
                rw [hne] at this
                cases this
          · rw [if_neg hj, root_lookup]

/-! ## Maps that satisfy the invariant -/

theorem reachable_wf {compare : K → K → Bool} {hashfun : K → Nat} (hc : CompareEquiv compare)
    {pool : PMapPool K V} {m : Map K V} (hr : Reachable compare hashfun pool m) :
    WFMap compare hashfun pool m := by
  induction hr with
  | new_map => trivial
  | add key value _ hadd ih =>
    rcases add_keyvalue_post hc _ _ ih (new_keyvalue hashfun key value)
      (new_keyvalue_good hashfun key value) with ⟨pool2, root2, h, hw, _⟩
    have : Map.add compare hashfun _ _ key value = some (pool2, { root_ := some root2 }) := h
    rw [hadd] at this
    simp only [Option.some.injEq, Prod.mk.injEq] at this
    rw [this.1, this.2]
    exact hw
  | remove key _ hrem ih =>
    rcases remove_post hc _ _ ih key with ⟨pool2, m2, h, hw, _⟩
    rw [hrem] at h
    simp only [Option.some.injEq, Prod.mk.injEq] at h
    rw [h.1, h.2]
    exact hw

/-- Keys that the comparator takes for equal, with equal hashes, are looked up
alike. -/
theorem lookup_equiv {compare : K → K → Bool} {hashfun : K → Nat} (hc : CompareEquiv compare)
    {pool : PMapPool K V} {m : Map K V} (hw : WFMap compare hashfun pool m) (k1 k : K)
    (hcmp : compare k1 k = true) (hh : hashfun k1 % U32 = hashfun k % U32) :
    Map.try_get_value compare hashfun pool m k1 = Map.try_get_value compare hashfun pool m k := by
  obtain ⟨root⟩ := m
  cases root with
  | none => rfl
  | some root =>
    have hwf : WFNode compare hashfun pool 7 [] root := hw.2
    rw [root_lookup, root_lookup, hh]
    cases hk : try_get_value_loop compare pool k (hashfun k % U32) 8 0 root with
    | some w =>
      rcases lookup_sound 7 [] root hwf 8 0 hk with ⟨x, hx, hm, hxw⟩
      rw [← hxw]
      exact lookup_complete hc 7 [] root 0 rfl hwf hx ⟨hm.1, hc.trans _ _ _ hcmp hm.2⟩
    | none =>
      cases hk1 : try_get_value_loop compare pool k1 (hashfun k % U32) 8 0 root with
      | none => rfl
      | some w1 =>
        rcases lookup_sound 7 [] root hwf 8 0 hk1 with ⟨x, hx, hm, _⟩
        have := lookup_complete hc 7 [] root 0 rfl hwf hx
          ⟨hm.1, hc.trans _ _ _ (hc.symm _ _ hcmp) hm.2⟩
        rw [hk] at this
        cases this

/-- Iterating a map that satisfies the invariant ends and visits its cells. -/
theorem elements_eq {compare : K → K → Bool} {hashfun : K → Nat} {pool : PMapPool K V}
    {m : Map K V} (hw : WFMap compare hashfun pool m) :
    Map.elements pool m = some (Map.contents pool m) := by
  obtain ⟨root⟩ := m
  cases root with
  | none => rfl
  | some root =>
    have hwf : WFNode compare hashfun pool 7 [] root := hw.2
    have h1 := subtree_length_le_cells 7 [] root hwf
    rw [subtree_eq, List.length_append] at h1
    exact iterate_ok pool root 6 _ (le_refl _) (iterable_of_wf 7 [] root hwf)
      (by simp only [iterate_calls]; omega)

/-- Every cell of a map is found under its key. -/
theorem contents_lookup {compare : K → K → Bool} {hashfun : K → Nat} (hc : CompareEquiv compare)
    {pool : PMapPool K V} {m : Map K V} (hw : WFMap compare hashfun pool m)
    (x : KeyValue K V) (hx : x ∈ Map.contents pool m) :
    Map.try_get_value compare hashfun pool m x.first = some x.second := by
  obtain ⟨root⟩ := m
  cases root with
  | none => cases hx
  | some root =>
    have hwf : WFNode compare hashfun pool 7 [] root := hw.2
    have hgood : x.hash = hashfun x.first % U32 := by
      rcases mem_subtree_list.mp hx with ⟨c, hc1, hxc⟩
      have hwf' := hwf
      rw [wfnode_succ_iff] at hwf'
      rcases forall₂_right_mem hwf'.2 hc1 with ⟨j, _, hj⟩
      exact (subtree_onPath 6 [] j c hj x hxc).1
    rw [root_lookup]
    exact lookup_complete hc 7 [] root 0 rfl hwf hx ⟨hgood, hc.refl _⟩

/-- What is found in a map is one of its cells. -/
theorem lookup_contents {compare : K → K → Bool} {hashfun : K → Nat}
    {pool : PMapPool K V} {m : Map K V} (hw : WFMap compare hashfun pool m) (k : K) (w : V)
    (h : Map.try_get_value compare hashfun pool m k = some w) :
    ∃ x ∈ Map.contents pool m, compare k x.first = true ∧ x.second = w := by
  obtain ⟨root⟩ := m
  cases root with
  | none => cases h
  | some root =>
    rcases lookup_sound 7 [] root hw.2 8 0 h with ⟨x, hx, hm, hxw⟩
    exact ⟨x, hx, hm.2, hxw⟩

/-! ## The loops of the tests -/

theorem reachable_insert_loop {compare : K → K → Bool} {hashfun : K → Nat} :
    ∀ (map : List (K × V)) (pool pool1 : PMapPool K V) (m m1 : Map K V),
      Reachable compare hashfun pool m →
      insert_loop compare hashfun pool m map = some (pool1, m1) →
      Reachable compare hashfun pool1 m1 := by
  intro map
  induction map with
  | nil =>
    intro pool pool1 m m1 hr h
    simp only [insert_loop, Option.some.injEq, Prod.mk.injEq] at h
    rw [← h.1, ← h.2]; exact hr
  | cons i rest ih =>
    intro pool pool1 m m1 hr h
    rw [insert_loop] at h
    cases hadd : Map.add compare hashfun pool m i.1 i.2 with
    | none => rw [hadd] at h; cases h
    | some r =>
      obtain ⟨pool2, m2⟩ := r
      rw [hadd] at h
      exact ih pool2 pool1 m2 m1 (Reachable.add i.1 i.2 hr hadd) h

theorem insert_loop_post {compare : K → K → Bool} {hashfun : K → Nat}
    (hc : CompareEquiv compare) :
    ∀ (map : List (K × V)) (pool : PMapPool K V) (m : Map K V),
      WFMap compare hashfun pool m →
      map.Pairwise (fun a b => compare a.1 b.1 = false) →
      ∃ pool1 m1, insert_loop compare hashfun pool m map = some (pool1, m1) ∧
        WFMap compare hashfun pool1 m1 ∧
        (∀ p ∈ map, Map.try_get_value compare hashfun pool1 m1 p.1 = some p.2) ∧
        (∀ k, (∀ p ∈ map, compare k p.1 = false) →
          Map.try_get_value compare hashfun pool1 m1 k =
            Map.try_get_value compare hashfun pool m k) ∧
        (∀ x ∈ Map.contents pool1 m1, (x.first, x.second) ∈ map ∨ x ∈ Map.contents pool m) := by
  intro map
  induction map with
  | nil =>
    intro pool m hw _
    refine ⟨pool, m, rfl, hw, ?_, fun _ _ => rfl, fun x hx => Or.inr hx⟩
    intro p hp; cases hp
  | cons i rest ih =>
    intro pool m hw hpw
    rcases add_keyvalue_post hc pool m hw (new_keyvalue hashfun i.1 i.2)
      (new_keyvalue_good hashfun i.1 i.2) with ⟨pool1, root1, hadd, hw1, _, hsame, hother, hdesc⟩
    have hadd' : Map.add compare hashfun pool m i.1 i.2 =
        some (pool1, { root_ := some root1 }) := hadd
    rcases ih pool1 { root_ := some root1 } hw1 (List.pairwise_cons.mp hpw).2 with
      ⟨pool2, m2, hloop, hw2, hfind, hkeep, hcont⟩
    refine ⟨pool2, m2, ?_, hw2, ?_, ?_, ?_⟩
    · simp only [insert_loop, hadd', hloop]
    · intro p hp
      rcases List.mem_cons.mp hp with rfl | hp
      · rw [hkeep p.1 (fun q hq => (List.pairwise_cons.mp hpw).1 q hq)]
        exact hsame p.1 rfl (hc.refl _)
      · exact hfind p hp
    · intro k hk
      rw [hkeep k (fun p hp => hk p (List.mem_cons_of_mem _ hp))]
      apply hother k
      intro h
      have := hk i (List.mem_cons_self _ _)
      rw [show (new_keyvalue hashfun i.1 i.2).first = i.1 from rfl, this] at h
      cases h.2
    · intro x hx
      rcases hcont x hx with h | h
      · exact Or.inl (List.mem_cons_of_mem _ h)
      · rcases hdesc x h with h | ⟨r, hr, h⟩
        · left
          rw [h]
          exact List.mem_cons_self _ _
        · right
          simp only [Map.contents, hr]
          exact h

theorem remove_elements_post {compare : K → K → Bool} {hashfun : K → Nat}
    (hc : CompareEquiv compare)
    (hh : ∀ a b, compare a b = true → hashfun a % U32 = hashfun b % U32) :
    ∀ (keys : List K) (pool : PMapPool K V) (m : Map K V),
      WFMap compare hashfun pool m →
      ∃ pool1 m1, map_remove_elements compare hashfun pool m keys = some (pool1, m1) ∧
        WFMap compare hashfun pool1 m1 ∧
        (∀ k, (∀ s ∈ keys, compare k s = false) →
          Map.try_get_value compare hashfun pool1 m1 k =
            Map.try_get_value compare hashfun pool m k) ∧
        (∀ s ∈ keys, Map.try_get_value compare hashfun pool1 m1 s = none) := by
  intro keys
  induction keys with
  | nil =>
    intro pool m hw
    refine ⟨pool, m, rfl, hw, fun _ _ => rfl, ?_⟩
    intro s hs; cases hs
  | cons i rest ih =>
    intro pool m hw
    rcases remove_post hc pool m hw i with ⟨pool1, m1, hrem, hw1, hgone, hkeep⟩
    rcases ih pool1 m1 hw1 with ⟨pool2, m2, hloop, hw2, hkeep2, hgone2⟩
    refine ⟨pool2, m2, ?_, hw2, ?_, ?_⟩
    · simp only [map_remove_elements, hrem, hloop]
    · intro k hk
      rw [hkeep2 k (fun s hs => hk s (List.mem_cons_of_mem _ hs)),
        hkeep k (hk i (List.mem_cons_self _ _))]
    · intro s hs
      rcases List.mem_cons.mp hs with rfl | hs
      · by_cases hex : ∃ s1 ∈ rest, compare s s1 = true
        · rcases hex with ⟨s1, hs1, hcmp⟩
          rw [lookup_equiv hc hw2 s s1 hcmp (hh _ _ hcmp)]
          exact hgone2 s1 hs1
        · rw [hkeep2 s, hgone]
          intro s1 hs1
          cases hcmp : compare s s1 with
          | false => rfl
          | true => exact absurd ⟨s1, hs1, hcmp⟩ hex
      · exact hgone2 s hs

theorem nat_compare_equiv : CompareEquiv nat_compare := by
  refine ⟨?_, ?_, ?_⟩
  · intro a; simp [nat_compare]
  · intro a b h; simp only [nat_compare, beq_iff_eq] at h ⊢; exact h.symm
  · intro a b c h1 h2; simp only [nat_compare, beq_iff_eq] at h1 h2 ⊢; exact h1.trans h2

theorem nat_compare_hash (hashfun : Nat → Nat) :
    ∀ a b, nat_compare a b = true → hashfun a % U32 = hashfun b % U32 := by
  intro a b h
  simp only [nat_compare, beq_iff_eq] at h
  rw [h]

theorem string_compare_equiv : CompareEquiv string_compare := by
  refine ⟨?_, ?_, ?_⟩
  · intro a; simp [string_compare]
  · intro a b h; simp only [string_compare, beq_iff_eq] at h ⊢; exact h.symm
  · intro a b c h1 h2; simp only [string_compare, beq_iff_eq] at h1 h2 ⊢; exact h1.trans h2

theorem collision_example_eq :
    map_insert_elements nat_compare low_bits_hash { lists := [] }
      [(1, 1001), (33, 1033), (65, 1065), (97, 1097), (129, 1129), (161, 1161), (193, 1193),
        (225, 1225)] = some collision_example := by
  rfl

theorem collision_example_reachable :
    Reachable nat_compare low_bits_hash collision_example.1 collision_example.2 :=
  reachable_insert_loop _ _ _ _ _ Reachable.new_map collision_example_eq

/-! ## The persistent map: lookup after `add` and `remove` -/

/-- C1: for every map `m` reachable from the empty map by `add` and `remove`,
every key `k` and value `v`, when the comparator is an equivalence relation
under which equal keys have equal 32-bit hashes, `add(m, k, v)` returns a map in
which `try_get_value` gives `v` for `k` and for every key equal to `k`. -/
theorem add_get_same {compare : K → K → Bool} {hashfun : K → Nat}
    (hc : CompareEquiv compare)
    (hh : ∀ a b, compare a b = true → hashfun a % U32 = hashfun b % U32)
    (pool : PMapPool K V) (m : Map K V) (hr : Reachable compare hashfun pool m) (k : K) (v : V) :
    ∃ pool1 m1, Map.add compare hashfun pool m k v = some (pool1, m1) ∧
      Map.try_get_value compare hashfun pool1 m1 k = some v ∧
      ∀ k1, compare k1 k = true → Map.try_get_value compare hashfun pool1 m1 k1 = some v := by
  rcases add_keyvalue_post hc pool m (reachable_wf hc hr) (new_keyvalue hashfun k v)
    (new_keyvalue_good hashfun k v) with ⟨pool1, root1, hadd, _, _, hsame, _⟩
  exact ⟨pool1, { root_ := some root1 }, hadd, hsame k rfl (hc.refl k),
    fun k1 hk1 => hsame k1 (hh k1 k hk1).symm hk1⟩

theorem add_get_same_witness :
    CompareEquiv nat_compare ∧
      (∀ a b, nat_compare a b = true → low_bits_hash a % U32 = low_bits_hash b % U32) ∧
      Reachable nat_compare low_bits_hash collision_example.1 collision_example.2 ∧
      ∃ pool1 m1, Map.add nat_compare low_bits_hash collision_example.1 collision_example.2
          257 7 = some (pool1, m1) ∧
        Map.try_get_value nat_compare low_bits_hash pool1 m1 257 = some 7 ∧
        ∀ k1, nat_compare k1 257 = true →
          Map.try_get_value nat_compare low_bits_hash pool1 m1 k1 = some 7 :=
  ⟨nat_compare_equiv, nat_compare_hash low_bits_hash, collision_example_reachable,
    add_get_same nat_compare_equiv (nat_compare_hash low_bits_hash) _ _
      collision_example_reachable 257 7⟩

/-- C2: for every map `m` reachable from the empty map by `add` and `remove`,
every key `k`, value `v` and every key `k1` that the comparator tells apart from
`k`, `try_get_value` of `k1` in `add(m, k, v)` is what it is in `m`, whatever the
hashes of the two keys. -/
theorem add_get_other {compare : K → K → Bool} {hashfun : K → Nat}
    (hc : CompareEquiv compare)
    (pool : PMapPool K V) (m : Map K V) (hr : Reachable compare hashfun pool m) (k : K) (v : V)
    (k1 : K) (hne : compare k1 k = false) :
    ∃ pool1 m1, Map.add compare hashfun pool m k v = some (pool1, m1) ∧
      Map.try_get_value compare hashfun pool1 m1 k1 =
        Map.try_get_value compare hashfun pool m k1 := by
  rcases add_keyvalue_post hc pool m (reachable_wf hc hr) (new_keyvalue hashfun k v)
    (new_keyvalue_good hashfun k v) with ⟨pool1, root1, hadd, _, _, _, hother, _⟩
  refine ⟨pool1, { root_ := some root1 }, hadd, hother k1 ?_⟩
  intro h
  rw [show (new_keyvalue hashfun k v).first = k from rfl, hne] at h
  cases h.2

theorem add_get_other_witness :
    CompareEquiv nat_compare ∧
      Reachable nat_compare low_bits_hash collision_example.1 collision_example.2 ∧
      nat_compare 225 257 = false ∧
      ∃ pool1 m1, Map.add nat_compare low_bits_hash collision_example.1 collision_example.2
          257 7 = some (pool1, m1) ∧
        Map.try_get_value nat_compare low_bits_hash pool1 m1 225 =
          Map.try_get_value nat_compare low_bits_hash collision_example.1
            collision_example.2 225 :=
  ⟨nat_compare_equiv, collision_example_reachable, by decide,
    add_get_other nat_compare_equiv _ _ collision_example_reachable 257 7 225 (by decide)⟩

/-- C3: for every map `m` reachable from the empty map by `add` and `remove`,
every key `k` and value `v`, `add(m, k, v)` and then `remove(k)` both return, and
`try_get_value` of `k` in the result is null. -/
theorem remove_added_key {compare : K → K → Bool} {hashfun : K → Nat}
    (hc : CompareEquiv compare)
    (pool : PMapPool K V) (m : Map K V) (hr : Reachable compare hashfun pool m) (k : K) (v : V) :
    ∃ pool1 m1 pool2 m2, Map.add compare hashfun pool m k v = some (pool1, m1) ∧
      Map.remove compare hashfun pool1 m1 k = some (pool2, m2) ∧
      Map.try_get_value compare hashfun pool2 m2 k = none := by
  rcases add_keyvalue_post hc pool m (reachable_wf hc hr) (new_keyvalue hashfun k v)
    (new_keyvalue_good hashfun k v) with ⟨pool1, root1, hadd, hw1, _⟩
  rcases remove_post hc pool1 { root_ := some root1 } hw1 k with ⟨pool2, m2, hrem, _, hgone, _⟩
  exact ⟨pool1, { root_ := some root1 }, pool2, m2, hadd, hrem, hgone⟩

theorem remove_added_key_witness :
    CompareEquiv nat_compare ∧
      Reachable nat_compare low_bits_hash collision_example.1 collision_example.2 ∧
      ∃ pool1 m1 pool2 m2,
        Map.add nat_compare low_bits_hash collision_example.1 collision_example.2 257 7 =
          some (pool1, m1) ∧
        Map.remove nat_compare low_bits_hash pool1 m1 257 = some (pool2, m2) ∧
        Map.try_get_value nat_compare low_bits_hash pool2 m2 257 = none :=
  ⟨nat_compare_equiv, collision_example_reachable,
    remove_added_key nat_compare_equiv _ _ collision_example_reachable 257 7⟩

/-- C4: for every map `m` reachable from the empty map by `add` and `remove`
(the comparator an equivalence under which equal keys hash equally),
`remove(m, k)` returns and leaves `try_get_value` of every key `k1` that differs
from `k` as it was; and removing the keys of a list one by one returns a map in
which every key that differs from all of them is looked up as before, none of
them is found, and the iteration ends and yields only cells of `m` whose key
is none of the removed ones. -/
theorem remove_keeps_others {compare : K → K → Bool} {hashfun : K → Nat}
    (hc : CompareEquiv compare)
    (hh : ∀ a b, compare a b = true → hashfun a % U32 = hashfun b % U32)
    (pool : PMapPool K V) (m : Map K V) (hr : Reachable compare hashfun pool m) :
    (∀ k, ∃ pool1 m1, Map.remove compare hashfun pool m k = some (pool1, m1) ∧
      ∀ k1, compare k1 k = false →
        Map.try_get_value compare hashfun pool1 m1 k1 =
          Map.try_get_value compare hashfun pool m k1) ∧
    (∀ keys, ∃ pool1 m1 cells,
      map_remove_elements compare hashfun pool m keys = some (pool1, m1) ∧
      (∀ k1, (∀ s ∈ keys, compare k1 s = false) →
        Map.try_get_value compare hashfun pool1 m1 k1 =
          Map.try_get_value compare hashfun pool m k1) ∧
      (∀ s ∈ keys, Map.try_get_value compare hashfun pool1 m1 s = none) ∧
      Map.elements pool1 m1 = some cells ∧
      ∀ x ∈ cells, (∀ s ∈ keys, compare x.first s = false) ∧
        Map.try_get_value compare hashfun pool m x.first = some x.second) := by
  have hw := reachable_wf hc hr
  constructor
  · intro k
    rcases remove_post hc pool m hw k with ⟨pool1, m1, hrem, _, _, hkeep⟩
    exact ⟨pool1, m1, hrem, hkeep⟩
  · intro keys
    rcases remove_elements_post hc hh keys pool m hw with ⟨pool1, m1, hloop, hw1, hkeep, hgone⟩
    refine ⟨pool1, m1, Map.contents pool1 m1, hloop, hkeep, hgone, elements_eq hw1, ?_⟩
    intro x hx
    have hfind := contents_lookup hc hw1 x hx
    have hno : ∀ s ∈ keys, compare x.first s = false := by
      intro s hs
      cases hcmp : compare x.first s with
      | false => rfl
      | true =>
        rw [lookup_equiv hc hw1 x.first s hcmp (hh _ _ hcmp), hgone s hs] at hfind
        cases hfind
    exact ⟨hno, by rw [← hkeep x.first hno]; exact hfind⟩

theorem remove_keeps_others_witness :
    CompareEquiv nat_compare ∧
      Reachable nat_compare low_bits_hash collision_example.1 collision_example.2 ∧
      ∃ pool1 m1 cells,
        map_remove_elements nat_compare low_bits_hash collision_example.1 collision_example.2
          [33, 225, 1] = some (pool1, m1) ∧
        (∀ k1, (∀ s ∈ [33, 225, 1], nat_compare k1 s = false) →
          Map.try_get_value nat_compare low_bits_hash pool1 m1 k1 =
            Map.try_get_value nat_compare low_bits_hash collision_example.1
              collision_example.2 k1) ∧
        (∀ s ∈ [33, 225, 1], Map.try_get_value nat_compare low_bits_hash pool1 m1 s = none) ∧
        Map.elements pool1 m1 = some cells ∧
        ∀ x ∈ cells, (∀ s ∈ [33, 225, 1], nat_compare x.first s = false) ∧
          Map.try_get_value nat_compare low_bits_hash collision_example.1
            collision_example.2 x.first = some x.second :=
  ⟨nat_compare_equiv, collision_example_reachable,
    (remove_keeps_others nat_compare_equiv (nat_compare_hash low_bits_hash) _ _
      collision_example_reachable).2 [33, 225, 1]⟩

/-- C5: for every list of key-value pairs with pairwise distinct keys (the
comparator an equivalence), adding the pairs one by one to the empty map of a
pool returns a map in which `try_get_value` finds every key of the list with its
value, and whose iteration from `begin()` to `end()` ends and yields only pairs
of the list. -/
theorem insert_elements_agree {compare : K → K → Bool} {hashfun : K → Nat}
    (hc : CompareEquiv compare) (pool : PMapPool K V) (map : List (K × V))
    (hd : map.Pairwise (fun a b => compare a.1 b.1 = false)) :
    ∃ pool1 m1 cells, map_insert_elements compare hashfun pool map = some (pool1, m1) ∧
      (∀ p ∈ map, Map.try_get_value compare hashfun pool1 m1 p.1 = some p.2) ∧
      Map.elements pool1 m1 = some cells ∧
      ∀ x ∈ cells, (x.first, x.second) ∈ map := by
  rcases insert_loop_post hc map pool PMapPool.new_map trivial hd with
    ⟨pool1, m1, hloop, hw1, hfind, _, hcont⟩
  refine ⟨pool1, m1, Map.contents pool1 m1, hloop, hfind, elements_eq hw1, ?_⟩
  intro x hx
  rcases hcont x hx with h | h
  · exact h
  · cases h

theorem insert_elements_agree_witness :
    CompareEquiv string_compare ∧
      [("-1027699544", (-1027699544 : Int)), ("-1904646281", -1904646281),
        ("-957781851", -957781851), ("511395623", 511395623)].Pairwise
          (fun a b => string_compare a.1 b.1 = false) ∧
      ∃ pool1 m1 cells,
        map_insert_elements string_compare String.length { lists := [] }
          [("-1027699544", (-1027699544 : Int)), ("-1904646281", -1904646281),
            ("-957781851", -957781851), ("511395623", 511395623)] = some (pool1, m1) ∧
        (∀ p ∈ [("-1027699544", (-1027699544 : Int)), ("-1904646281", -1904646281),
            ("-957781851", -957781851), ("511395623", 511395623)],
          Map.try_get_value string_compare String.length pool1 m1 p.1 = some p.2) ∧
        Map.elements pool1 m1 = some cells ∧
        ∀ x ∈ cells, (x.first, x.second) ∈
          [("-1027699544", (-1027699544 : Int)), ("-1904646281", -1904646281),
            ("-957781851", -957781851), ("511395623", 511395623)] :=
  ⟨string_compare_equiv, by decide,
    insert_elements_agree string_compare_equiv _ _ (by decide)⟩

/-- C7: `add` does change the old version: the map with the keys
`1, 33, ..., 225` of one hash is reachable and holds a `CollisionNode`; before
`add(m, 257, 7)` the key 257 is not found in it and its iteration yields 8
cells, after the call the same handle finds 257 with the value 7 and its
iteration yields 9 cells. -/
theorem add_changes_old_version :
    Reachable nat_compare low_bits_hash collision_example.1 collision_example.2 ∧
      ∃ pool1 m1,
        Map.add nat_compare low_bits_hash collision_example.1 collision_example.2 257 7 =
          some (pool1, m1) ∧
        Map.try_get_value nat_compare low_bits_hash collision_example.1
          collision_example.2 257 = none ∧
        Map.try_get_value nat_compare low_bits_hash pool1 collision_example.2 257 = some 7 ∧
        (Map.elements collision_example.1 collision_example.2).map List.length = some 8 ∧
        (Map.elements pool1 collision_example.2).map List.length = some 9 :=
  ⟨collision_example_reachable, _, _, rfl, by decide, by decide, by decide!, by decide!⟩

/-! ## Reserving an element -/

theorem lowest_unset_bit_loop_spec :
    ∀ (fuel field index : Nat), (∃ j < fuel, field.testBit j = false) →
      index ≤ lowest_unset_bit_loop fuel field index ∧
        lowest_unset_bit_loop fuel field index - index < fuel ∧
        field.testBit (lowest_unset_bit_loop fuel field index - index) = false := by
  intro fuel
  induction fuel with
  | zero =>
    intro field index h
    rcases h with ⟨j, hj, _⟩
    omega
  | succ fuel ih =>
    intro field index h
    rw [lowest_unset_bit_loop]
    by_cases h0 : field &&& 1 = 1
    · rw [if_pos h0]
      have hb0 : field.testBit 0 = true := by
        rw [Nat.testBit_zero]
        rw [Nat.and_one_is_mod] at h0
        simp [h0]
      rcases h with ⟨j, hj, hjb⟩
      have hjpos : j ≠ 0 := by
        rintro rfl
        rw [hb0] at hjb
        cases hjb
      obtain ⟨j1, rfl⟩ : ∃ j1, j = j1 + 1 := ⟨j - 1, by omega⟩
      have hex : ∃ i < fuel, (field >>> 1).testBit i = false := by
        refine ⟨j1, by omega, ?_⟩
        rw [Nat.testBit_shiftRight, Nat.add_comm]
        exact hjb
      rcases ih (field >>> 1) (index + 1) hex with ⟨h1, h2, h3⟩
      refine ⟨by omega, by omega, ?_⟩
      rw [Nat.testBit_shiftRight] at h3
      have : 1 + (lowest_unset_bit_loop fuel (field >>> 1) (index + 1) - (index + 1)) =
          lowest_unset_bit_loop fuel (field >>> 1) (index + 1) - index := by omega
      rw [this] at h3
      exact h3
    · rw [if_neg h0]
      refine ⟨le_refl _, by omega, ?_⟩
      rw [Nat.sub_self, Nat.testBit_zero]
      rw [Nat.and_one_is_mod] at h0
      simp only [decide_eq_false_iff_not]
      exact h0

theorem exists_unset_bit {u : Nat} (hu : u < U32) (hne : u ≠ 0xffffffff) :
    ∃ j < 32, u.testBit j = false := by
  by_contra hall
  apply hne
  apply Nat.eq_of_testBit_eq
  intro i
  have h32 : (0xffffffff : Nat) = 2 ^ 32 - 1 := by norm_num
  rw [h32, Nat.testBit_two_pow_sub_one]
  by_cases hi : i < 32
  · simp only [hi, decide_True]
    by_contra hc
    exact hall ⟨i, hi, by simpa using hc⟩
  · simp only [hi, decide_False]
    apply Nat.testBit_lt_two_pow
    have : (2 : Nat) ^ 32 ≤ 2 ^ i := Nat.pow_le_pow_right (by norm_num) (by omega)
    exact lt_of_lt_of_le hu (by simpa [U32] using this)

theorem lowest_unset_bit_spec {u : Nat} (hu : u < U32) (hne : u ≠ 0xffffffff) :
    lowest_unset_bit u < 32 ∧ u.testBit (lowest_unset_bit u) = false := by
  have h := lowest_unset_bit_loop_spec 32 u 0 (exists_unset_bit hu hne)
  unfold lowest_unset_bit
  rw [if_neg hne]
  simpa using h.2

theorem testBit_set_bit_on (u index j : Nat) (hi : index < 32) :
    (set_bit_on u index).testBit j = (u.testBit j || decide (j = index)) := by
  unfold set_bit_on
  rw [if_pos hi, Nat.testBit_or, Nat.one_shiftLeft, Nat.testBit_two_pow]
  congr 1
  by_cases h : index = j
  · simp [h]
  · have h' : ¬ j = index := fun e => h e.symm
    simp [h, h']


theorem get_new_spec (E : ElementType T) (c : Chunk T) (hfull : c.is_full = false)
    (hu : c.used_elements < U32) (hlen : c.buffer.length = CHUNK_BUFFER_SIZE) :
    ∃ index c1, c.get_new E = (some index, c1) ∧ index < CHUNK_BUFFER_SIZE ∧
      bit_is_on c.used_elements index = false ∧
      c1.buffer.length = CHUNK_BUFFER_SIZE ∧ c1.next = c.next ∧
      (∀ j, bit_is_on c.used_elements j = true →
        bit_is_on c1.used_elements j = true ∧ c1.buffer[j]? = c.buffer[j]?) := by
  have hne : c.used_elements ≠ 0xffffffff := by
    simpa [Chunk.is_full] using hfull
  rcases lowest_unset_bit_spec hu hne with ⟨h1, h2⟩
  refine ⟨lowest_unset_bit c.used_elements,
    { c with used_elements := set_bit_on c.used_elements (lowest_unset_bit c.used_elements),
             buffer := c.buffer.modify E.construct (lowest_unset_bit c.used_elements) },
    by simp [Chunk.get_new, hfull], h1, ?_, ?_, rfl, ?_⟩
  · rw [bit_is_on_eq]; exact h2
  · simp [hlen]
  · intro j hj
    rw [bit_is_on_eq] at hj
    constructor
    · rw [bit_is_on_eq]
      show (set_bit_on c.used_elements _).testBit j = true
      rw [testBit_set_bit_on _ _ _ h1, hj]; rfl
    · have hjne : lowest_unset_bit c.used_elements ≠ j := by
        rintro rfl
        rw [h2] at hj; cases hj
      show (c.buffer.modify E.construct _)[j]? = _
      rw [List.getElem?_modify]
      simp [hjne]

theorem is_used_of_chunk {box : ChunkBox T} {p : Nat} (h : box.is_used p = true) :
    ∃ c, box.chunks_[p / CHUNK_BUFFER_SIZE]? = some c ∧
      bit_is_on c.used_elements (p % CHUNK_BUFFER_SIZE) = true := by
  unfold ChunkBox.is_used at h
  cases hc : box.chunks_[p / CHUNK_BUFFER_SIZE]? with
  | none => rw [hc] at h; cases h
  | some c => rw [hc] at h; exact ⟨c, rfl, h⟩

/-- The chunks after `reserve_element`: position `f` holds a chunk with the
buffer and bits of `c1`, the positions before the old end are as they were. -/
theorem reserve_frame (chunks chunks1 : List (Chunk T)) (f : Nat) (c c1 c2 : Chunk T)
    (index : Nat) (hf : chunks[f]? = some c)
    (h1 : chunks1[f]? = some c2)
    (hother : ∀ i, i ≠ f → i < chunks.length → chunks1[i]? = chunks[i]?)
    (hbuf : c2.buffer = c1.buffer) (hused : c2.used_elements = c1.used_elements)
    (hidx : index < CHUNK_BUFFER_SIZE)
    (hfree : bit_is_on c.used_elements index = false)
    (hlen : c1.buffer.length = CHUNK_BUFFER_SIZE)
    (hkeep : ∀ j, bit_is_on c.used_elements j = true →
      bit_is_on c1.used_elements j = true ∧ c1.buffer[j]? = c.buffer[j]?)
    (free1 : Option Nat) (free : Option Nat) :
    ChunkBox.is_used { chunks_ := chunks, free_chunks_ := free } (CHUNK_BUFFER_SIZE * f + index) =
        false ∧
      (∃ x, ChunkBox.read { chunks_ := chunks1, free_chunks_ := free1 }
        (CHUNK_BUFFER_SIZE * f + index) = some x) ∧
      ∀ p, ChunkBox.is_used { chunks_ := chunks, free_chunks_ := free } p = true →
        ChunkBox.is_used { chunks_ := chunks1, free_chunks_ := free1 } p = true ∧
          ChunkBox.read { chunks_ := chunks1, free_chunks_ := free1 } p =
            ChunkBox.read { chunks_ := chunks, free_chunks_ := free } p := by
  have hdiv : (CHUNK_BUFFER_SIZE * f + index) / CHUNK_BUFFER_SIZE = f := by
    simp only [CHUNK_BUFFER_SIZE] at hidx ⊢; omega
  have hmod : (CHUNK_BUFFER_SIZE * f + index) % CHUNK_BUFFER_SIZE = index := by
    simp only [CHUNK_BUFFER_SIZE] at hidx ⊢; omega
  refine ⟨?_, ?_, ?_⟩
  · simp only [ChunkBox.is_used, hdiv, hf, hmod, hfree]
  · simp only [ChunkBox.read, hdiv, h1, hmod, hbuf]
    exact ⟨c1.buffer[index], List.getElem?_eq_getElem (by rw [hlen]; exact hidx)⟩
  · intro p hp
    rcases is_used_of_chunk hp with ⟨cp, hcp, hbit⟩
    simp only at hcp
    by_cases hpf : p / CHUNK_BUFFER_SIZE = f
    · rw [hpf, hf] at hcp
      simp only [Option.some.injEq] at hcp
      subst hcp
      rcases hkeep _ hbit with ⟨hk1, hk2⟩
      simp only [ChunkBox.is_used, ChunkBox.read, hpf, h1, hf, hused, hbuf, hk1, hk2, and_self]
    · have hlt : p / CHUNK_BUFFER_SIZE < chunks.length := by
        by_contra hge
        rw [List.getElem?_eq_none (by omega)] at hcp
        cases hcp
      simp only [ChunkBox.is_used, ChunkBox.read, hother _ hpf hlt, hcp, hbit, and_self]

theorem reserve_element_spec (E : ElementType T) (box : ChunkBox T) (h : box.CanReserve) :
    ∃ n box1, box.reserve_element E = (some n, box1) ∧ box.is_used n = false ∧
      (∃ x, box1.read n = some x) ∧
      ∀ p, box.is_used p = true → box1.is_used p = true ∧ box1.read p = box.read p := by
  obtain ⟨chunks, free⟩ := box
  rcases h with ⟨f, c, hfree, hc, hfull, hu, hlen⟩
  simp only at hfree hc
  subst hfree
  rcases get_new_spec E c hfull hu hlen with ⟨index, c1, hget, hidx, hbit, hlen1, hnext, hkeep⟩
  have hflt : f < chunks.length := by
    by_contra hge
    rw [List.getElem?_eq_none (by omega)] at hc
    cases hc
  by_cases hfull1 : c1.is_full = true
  · cases hn : c1.next with
    | some n1 =>
      refine ⟨CHUNK_BUFFER_SIZE * f + index,
        { chunks_ := chunks.set f { c1 with next := none }, free_chunks_ := some n1 }, ?_, ?_⟩
      · simp [ChunkBox.reserve_element, hc, hget, hfull1, hn]
      · exact reserve_frame chunks _ f c c1 { c1 with next := none } index hc
          (by simp [hflt]) (fun i hi _ => by simp [List.getElem?_set, Ne.symm hi]) rfl rfl hidx hbit hlen1 hkeep _ _
    | none =>
      refine ⟨CHUNK_BUFFER_SIZE * f + index,
        { chunks_ := ((chunks.set f c1) ++ [Chunk.init E]).set f { c1 with next := none },
          free_chunks_ := some chunks.length }, ?_, ?_⟩
      · simp [ChunkBox.reserve_element, hc, hget, hfull1, hn, ChunkBox.new_chunk]
      · refine reserve_frame chunks _ f c c1 { c1 with next := none } index hc
          ?_ ?_ rfl rfl hidx hbit hlen1 hkeep _ _
        · rw [List.getElem?_set]
          simp [hflt]
          omega
        · intro i hi hil
          rw [List.getElem?_set]
          simp only [Ne.symm hi, if_false]
          rw [List.getElem?_append_left (by simpa using hil), List.getElem?_set]
          simp [Ne.symm hi]
  · refine ⟨CHUNK_BUFFER_SIZE * f + index,
      { chunks_ := chunks.set f c1, free_chunks_ := some f }, ?_, ?_⟩
    · simp [ChunkBox.reserve_element, hc, hget, hfull1]
    · exact reserve_frame chunks _ f c c1 c1 index hc
        (by simp [hflt]) (fun i hi _ => by simp [List.getElem?_set, Ne.symm hi]) rfl rfl hidx hbit hlen1 hkeep _ _

/-! ## Reading and writing elements -/

theorem read_write_same (box : ChunkBox T) (n : Nat) (v : T) (h : ∃ x, box.read n = some x) :
    (box.write n v).read n = some v := by
  rcases h with ⟨x, hx⟩
  unfold ChunkBox.read at hx ⊢
  cases hc : box.chunks_[n / CHUNK_BUFFER_SIZE]? with
  | none => rw [hc] at hx; cases hx
  | some c =>
    rw [hc] at hx
    simp only at hx
    have hlt : n % CHUNK_BUFFER_SIZE < c.buffer.length := by
      by_contra hge
      rw [List.getElem?_eq_none (by omega)] at hx
      cases hx
    simp [ChunkBox.write, List.getElem?_modify, hc, hlt]

theorem read_write_other (box : ChunkBox T) (n p : Nat) (v : T) (h : p ≠ n) :
    (box.write n v).read p = box.read p := by
  unfold ChunkBox.read
  simp only [ChunkBox.write, List.getElem?_modify]
  cases hc : box.chunks_[p / CHUNK_BUFFER_SIZE]? with
  | none => simp
  | some c =>
    by_cases hd : n / CHUNK_BUFFER_SIZE = p / CHUNK_BUFFER_SIZE
    · have hm : n % CHUNK_BUFFER_SIZE ≠ p % CHUNK_BUFFER_SIZE := by
        intro hm
        apply h
        have h1 := Nat.div_add_mod n CHUNK_BUFFER_SIZE
        have h2 := Nat.div_add_mod p CHUNK_BUFFER_SIZE
        rw [hd, hm] at h1
        omega
      simp [hd, List.getElem?_set, hm]
    · simp [hd]

theorem is_used_write (box : ChunkBox T) (n p : Nat) (v : T) :
    (box.write n v).is_used p = box.is_used p := by
  unfold ChunkBox.is_used
  simp only [ChunkBox.write, List.getElem?_modify]
  cases hc : box.chunks_[p / CHUNK_BUFFER_SIZE]? with
  | none => simp
  | some c =>
    by_cases hd : n / CHUNK_BUFFER_SIZE = p / CHUNK_BUFFER_SIZE
    · simp [hd]
    · simp [hd]

/-! ## Lists in the pool -/

theorem copy_element_chunks (E : ListElement T) (pool : PListPool T) (data : T) :
    (PListPool.copy_element E pool data).chunks_ = pool.chunks_ := by
  unfold PListPool.copy_element
  generalize E.handles data = hs
  induction hs generalizing pool with
  | nil => rfl
  | cons h hs ih => rw [List.foldl_cons, ih]; rfl

theorem list_mk_chunks (pool : PListPool T) (head : Option Nat) :
    (PListPool.List.mk pool head).1.chunks_ = pool.chunks_ ∧
      (PListPool.List.mk pool head).2 = head := by
  cases head <;> exact ⟨rfl, rfl⟩

theorem chain_frame (pool pool1 : PListPool T)
    (hfr : ∀ p, pool.chunks_.is_used p = true →
      pool1.chunks_.is_used p = true ∧ pool1.chunks_.read p = pool.chunks_.read p) :
    ∀ (xs : List T) (head : Option Nat), pool.Chain head xs → pool1.Chain head xs := by
  intro xs
  induction xs with
  | nil =>
    intro head h
    cases head with
    | none => trivial
    | some p => exact h
  | cons x xs ih =>
    intro head h
    cases head with
    | none => exact h
    | some p =>
      rcases h with ⟨hu, node, hr, hd, hrest⟩
      exact ⟨(hfr p hu).1, node, (hfr p hu).2.trans hr, hd, ih _ hrest⟩

theorem chain_elements (pool : PListPool T) :
    ∀ (xs : List T) (head : Option Nat), pool.Chain head xs →
      PListPool.List.elements pool xs.length head = some xs := by
  intro xs
  induction xs with
  | nil =>
    intro head h
    cases head with
    | none => rfl
    | some p => exact absurd h id
  | cons x xs ih =>
    intro head h
    cases head with
    | none => exact absurd h id
    | some p =>
      rcases h with ⟨_, node, hr, hd, hrest⟩
      simp only [List.length_cons, PListPool.List.elements, hr, ih _ hrest, Option.map_some', hd]

theorem chain_equal (eq : T → T → Bool) (hrefl : ∀ a, eq a a = true) (pool : PListPool T) :
    ∀ (xs : List T) (head : Option Nat), pool.Chain head xs →
      PListPool.List.equal eq pool xs.length head head = some true := by
  intro xs
  induction xs with
  | nil =>
    intro head h
    cases head with
    | none => rfl
    | some p => exact absurd h id
  | cons x xs ih =>
    intro head h
    cases head with
    | none => exact absurd h id
    | some p =>
      rcases h with ⟨_, node, hr, hd, hrest⟩
      simp only [List.length_cons, PListPool.List.equal, hr, hrefl, ih _ hrest, Bool.not_true,
        Bool.false_eq_true, if_false]

/-- What `List::add` gives for a valid list in a pool that can reserve. -/
theorem list_add_post (E : ListElement T) (pool : PListPool T) (head_ : Option Nat) (v : T)
    (hres : pool.chunks_.CanReserve) :
    ∃ pool1 n, PListPool.List.add E pool head_ v = some (pool1, some n) ∧
      pool.chunks_.is_used n = false ∧
      pool1.chunks_.read n = some { next := head_, data := v } ∧
      ∀ p, pool.chunks_.is_used p = true →
        pool1.chunks_.is_used p = true ∧ pool1.chunks_.read p = pool.chunks_.read p := by
  rcases reserve_element_spec E.node pool.chunks_ hres with ⟨n, box1, hres1, hfree, hvalid, hkeep⟩
  obtain ⟨poolb, hb⟩ : ∃ poolb, poolb = PListPool.copy_element E
      { pool with chunks_ := box1.write n { next := none, data := v } } v := ⟨_, rfl⟩
  have hbc : poolb.chunks_ = box1.write n { next := none, data := v } := by
    rw [hb, copy_element_chunks]
  have hnew : PListPool.new_node E pool v = some (poolb, n) := by
    simp only [PListPool.new_node, hres1, hb]
  have hread1 := read_write_same box1 n { next := none, data := v } hvalid
  refine ⟨(PListPool.List.mk (PListPool.mk (poolb.chunks_.write n { next := head_, data := v })
    poolb.ref_count_) (some n)).1, n, ?_, hfree, ?_, ?_⟩
  · simp only [PListPool.List.add, hnew, hbc, hread1]
    rfl
  · rw [(list_mk_chunks _ _).1]
    simp only [hbc]
    exact read_write_same _ n _ ⟨_, hread1⟩
  · intro p hp
    have hpn : p ≠ n := by
      rintro rfl
      rw [hfree] at hp; cases hp
    rw [(list_mk_chunks _ _).1]
    simp only [hbc, is_used_write, read_write_other _ _ _ _ hpn]
    exact hkeep p hp

/-! ## The persistent list: `add`, `first` and `rest` -/

/-- C6: for every list `l` (its nodes hold the elements `xs` and lie in used
slots) of a pool that can reserve an element, and every value `v`,
`l.add(v)` returns a list whose `first()` is `v` and whose `rest()` is the
list `l` again: the same head, with the elements `xs`, equal to `l` under
`operator==` for every reflexive equality of the elements. -/
theorem add_first_rest (E : ListElement T) (pool : PListPool T) (head_ : Option Nat) (v : T)
    (xs : List T) (hres : pool.chunks_.CanReserve) (hl : pool.Chain head_ xs) :
    ∃ pool1 l1 pool2 l2, PListPool.List.add E pool head_ v = some (pool1, l1) ∧
      PListPool.List.first pool1 l1 = some v ∧
      PListPool.List.rest pool1 l1 = some (pool2, l2) ∧
      l2 = head_ ∧
      PListPool.List.elements pool xs.length head_ = some xs ∧
      PListPool.List.elements pool2 xs.length l2 = some xs ∧
      ∀ eq : T → T → Bool, (∀ a, eq a a = true) →
        PListPool.List.equal eq pool2 xs.length l2 head_ = some true := by
  rcases list_add_post E pool head_ v hres with ⟨pool1, n, hadd, _, hread, hkeep⟩
  have hchain2 : (PListPool.List.mk pool1 head_).1.Chain head_ xs := by
    apply chain_frame pool _ _ xs head_ hl
    intro p hp
    rw [(list_mk_chunks _ _).1]
    exact hkeep p hp
  refine ⟨pool1, some n, (PListPool.List.mk pool1 head_).1, (PListPool.List.mk pool1 head_).2,
    hadd, ?_, ?_, (list_mk_chunks _ _).2, chain_elements pool xs head_ hl, ?_, ?_⟩
  · simp only [PListPool.List.first, hread, Option.map_some']
  · simp only [PListPool.List.rest, hread]
  · rw [(list_mk_chunks _ _).2]
    exact chain_elements _ xs head_ hchain2
  · intro eq hrefl
    rw [(list_mk_chunks _ _).2]
    exact chain_equal eq hrefl _ xs head_ hchain2

theorem number_list_example_eq :
    number_list_example.1.chunks_.CanReserve ∧ number_list_example.1.Chain number_list_example.2 [7, 5] := by
  refine ⟨⟨0, _, rfl, rfl, rfl, by decide, rfl⟩, ?_⟩
  exact ⟨rfl, _, rfl, rfl, rfl, _, rfl, rfl, trivial⟩

theorem add_first_rest_witness :
    number_list_example.1.chunks_.CanReserve ∧
      number_list_example.1.Chain number_list_example.2 [7, 5] ∧
      ∃ pool1 l1 pool2 l2,
        PListPool.List.add nat_element number_list_example.1 number_list_example.2 9 =
          some (pool1, l1) ∧
        PListPool.List.first pool1 l1 = some 9 ∧
        PListPool.List.rest pool1 l1 = some (pool2, l2) ∧
        l2 = number_list_example.2 ∧
        PListPool.List.elements number_list_example.1 [7, 5].length number_list_example.2 =
          some [7, 5] ∧
        PListPool.List.elements pool2 [7, 5].length l2 = some [7, 5] ∧
        ∀ eq : Nat → Nat → Bool, (∀ a, eq a a = true) →
          PListPool.List.equal eq pool2 [7, 5].length l2 number_list_example.2 = some true :=
  ⟨number_list_example_eq.1, number_list_example_eq.2,
    add_first_rest nat_element _ _ 9 [7, 5] number_list_example_eq.1 number_list_example_eq.2⟩

/-! ## Marking reads the elements and the marks only -/

theorem sameData_refl (a : Chunk T) : a.SameData a := ⟨rfl, rfl⟩

theorem sameLinks_refl (a : Chunk T) : a.SameLinks a := ⟨rfl, rfl, rfl⟩

theorem sameLinks_trans {a b c : Chunk T} (h1 : a.SameLinks b) (h2 : b.SameLinks c) :
    a.SameLinks c :=
  ⟨h1.1.trans h2.1, h1.2.1.trans h2.2.1, h1.2.2.trans h2.2.2⟩

theorem forall₂_sameLinks_refl (A : List (Chunk T)) : List.Forall₂ Chunk.SameLinks A A := by
  induction A with
  | nil => exact List.Forall₂.nil
  | cons a A ih => exact List.Forall₂.cons (sameLinks_refl a) ih

theorem forall₂_sameLinks_trans {A B C : List (Chunk T)}
    (h1 : List.Forall₂ Chunk.SameLinks A B) (h2 : List.Forall₂ Chunk.SameLinks B C) :
    List.Forall₂ Chunk.SameLinks A C := by
  induction h1 generalizing C with
  | nil => cases h2; exact List.Forall₂.nil
  | cons hab _ ih =>
    cases h2 with
    | cons hbc hrest => exact List.Forall₂.cons (sameLinks_trans hab hbc) (ih hrest)

theorem set_marked_sameData (base : Nat) {a b : Chunk T} (h : a.SameData b) (p : Nat) :
    (Chunk.set_marked base a p).SameData (Chunk.set_marked base b p) := by
  unfold Chunk.set_marked
  simp only
  split
  · exact ⟨h.1, by simp only [h.2]⟩
  · exact h

theorem set_marked_sameLinks (base : Nat) (a : Chunk T) (p : Nat) :
    a.SameLinks (Chunk.set_marked base a p) := by
  unfold Chunk.set_marked
  simp only
  split
  · exact ⟨rfl, rfl, rfl⟩
  · exact sameLinks_refl a

theorem smic_sameData (base : Nat) {a b : Chunk T} (h : a.SameData b) (p : Nat) :
    (a.set_marked_if_contains base p).1 = (b.set_marked_if_contains base p).1 ∧
      (a.set_marked_if_contains base p).2.SameData (b.set_marked_if_contains base p).2 := by
  unfold Chunk.set_marked_if_contains
  by_cases hc : Chunk.contains base p = true
  · rw [if_pos hc, if_pos hc]
    exact ⟨rfl, set_marked_sameData base h p⟩
  · rw [if_neg hc, if_neg hc]
    exact ⟨rfl, h⟩

theorem smic_sameLinks (base : Nat) (a : Chunk T) (p : Nat) :
    a.SameLinks (a.set_marked_if_contains base p).2 := by
  unfold Chunk.set_marked_if_contains
  by_cases hc : Chunk.contains base p = true
  · rw [if_pos hc]
    exact set_marked_sameLinks base a p
  · rw [if_neg hc]
    exact sameLinks_refl a

theorem mark_search_sameData (node : Nat) {A B : List (Chunk (PListPool.Node T))}
    (h : List.Forall₂ Chunk.SameData A B) :
    ∀ i, (PListPool.mark_search node i A).2 = (PListPool.mark_search node i B).2 ∧
      List.Forall₂ Chunk.SameData (PListPool.mark_search node i A).1
        (PListPool.mark_search node i B).1 := by
  induction h with
  | nil => intro i; exact ⟨rfl, List.Forall₂.nil⟩
  | cons hab hrest ih =>
    intro i
    rename_i a b A B
    have hs := smic_sameData (CHUNK_BUFFER_SIZE * i) hab node
    simp only [PListPool.mark_search]
    rw [← hs.1]
    by_cases hr : (a.set_marked_if_contains (CHUNK_BUFFER_SIZE * i) node).1 = true
    · simp only [hr, if_true]
      exact ⟨trivial, List.Forall₂.cons hs.2 hrest⟩
    · simp only [hr, if_false]
      exact ⟨(ih (i + 1)).1, List.Forall₂.cons hab (ih (i + 1)).2⟩

theorem mark_search_sameLinks (node : Nat) :
    ∀ (A : List (Chunk (PListPool.Node T))) (i : Nat),
      List.Forall₂ Chunk.SameLinks A (PListPool.mark_search node i A).1 := by
  intro A
  induction A with
  | nil => intro i; exact List.Forall₂.nil
  | cons a A ih =>
    intro i
    simp only [PListPool.mark_search]
    by_cases hr : (a.set_marked_if_contains (CHUNK_BUFFER_SIZE * i) node).1 = true
    · simp only [hr, if_true]
      exact List.Forall₂.cons (smic_sameLinks _ a node) (forall₂_sameLinks_refl A)
    · simp only [hr, if_false]
      exact List.Forall₂.cons (sameLinks_refl a) (ih (i + 1))

theorem forall₂_getElem? {α β : Type} {R : α → β → Prop} {A : List α} {B : List β}
    (h : List.Forall₂ R A B) :
    ∀ i : Nat, (A[i]? = none ∧ B[i]? = none) ∨
      ∃ a b, A[i]? = some a ∧ B[i]? = some b ∧ R a b := by
  induction h with
  | nil => intro i; left; simp
  | cons hab _ ih =>
    intro i
    cases i with
    | zero => right; exact ⟨_, _, List.getElem?_cons_zero, List.getElem?_cons_zero, hab⟩
    | succ i => simpa using ih i

theorem forall₂_set {α β : Type} {R : α → β → Prop} {A : List α} {B : List β}
    (h : List.Forall₂ R A B) (i : Nat) {a : α} {b : β} (hab : R a b) :
    List.Forall₂ R (A.set i a) (B.set i b) := by
  induction h generalizing i with
  | nil => simp
  | cons h1 _ ih =>
    cases i with
    | zero => exact List.Forall₂.cons hab (by assumption)
    | succ i => exact List.Forall₂.cons h1 (ih i)

theorem read_congr {A B : List (Chunk T)} (fa fb : Option Nat)
    (h : List.Forall₂ (fun a b : Chunk T => a.buffer = b.buffer) A B) (p : Nat) :
    ChunkBox.read { chunks_ := A, free_chunks_ := fa } p =
      ChunkBox.read { chunks_ := B, free_chunks_ := fb } p := by
  unfold ChunkBox.read
  rcases forall₂_getElem? h (p / CHUNK_BUFFER_SIZE) with ⟨h1, h2⟩ | ⟨a, b, h1, h2, hab⟩
  · simp only [h1, h2]
  · simp only [h1, h2, hab]

theorem mark_cached_sameData (node : Nat) {A B : List (Chunk (PListPool.Node T))}
    (h : List.Forall₂ Chunk.SameData A B) (it : Option Nat) :
    (PListPool.mark_cached node A it = none ∧ PListPool.mark_cached node B it = none) ∨
      ∃ ca cb i, PListPool.mark_cached node A it = some (ca, i) ∧
        PListPool.mark_cached node B it = some (cb, i) ∧ ca.SameData cb := by
  cases it with
  | none => left; exact ⟨rfl, rfl⟩
  | some i =>
    rcases forall₂_getElem? h i with ⟨h1, h2⟩ | ⟨a, b, h1, h2, hab⟩
    · left
      simp only [PListPool.mark_cached, h1, h2, and_self]
    · have hs := smic_sameData (CHUNK_BUFFER_SIZE * i) hab node
      simp only [PListPool.mark_cached, h1, h2]
      rw [← hs.1]
      by_cases hr : (a.set_marked_if_contains (CHUNK_BUFFER_SIZE * i) node).1 = true
      · right
        rw [if_pos hr, if_pos hr]
        exact ⟨_, _, i, rfl, rfl, hs.2⟩
      · left
        rw [if_neg hr, if_neg hr]
        exact ⟨rfl, rfl⟩

theorem mark_cached_sameLinks (node : Nat) (A : List (Chunk (PListPool.Node T)))
    (it : Option Nat) (c : Chunk (PListPool.Node T)) (i : Nat)
    (h : PListPool.mark_cached node A it = some (c, i)) :
    ∃ c0, A[i]? = some c0 ∧ c0.SameLinks c := by
  cases it with
  | none => cases h
  | some k =>
    simp only [PListPool.mark_cached] at h
    cases hk : A[k]? with
    | none => rw [hk] at h; cases h
    | some c0 =>
      rw [hk] at h
      simp only at h
      by_cases hr : (c0.set_marked_if_contains (CHUNK_BUFFER_SIZE * k) node).1 = true
      · rw [if_pos hr] at h
        simp only [Option.some.injEq, Prod.mk.injEq] at h
        rw [← h.1, ← h.2]
        exact ⟨c0, hk, smic_sameLinks _ c0 node⟩
      · rw [if_neg hr] at h
        cases h

theorem forall₂_set_right {α : Type} {R : α → α → Prop} (hrefl : ∀ a, R a a) :
    ∀ (A : List α) (i : Nat) (c0 c : α), A[i]? = some c0 → R c0 c →
      List.Forall₂ R A (A.set i c) := by
  intro A
  induction A with
  | nil => intro i c0 c h; simp at h
  | cons a A ih =>
    intro i c0 c h hr
    cases i with
    | zero =>
      simp only [List.getElem?_cons_zero, Option.some.injEq] at h
      subst h
      refine List.Forall₂.cons hr ?_
      clear ih
      induction A with
      | nil => exact List.Forall₂.nil
      | cons b A ih2 => exact List.Forall₂.cons (hrefl b) ih2
    | succ i =>
      simp only [List.getElem?_cons_succ] at h
      exact List.Forall₂.cons (hrefl a) (ih i c0 c h hr)

theorem forall₂_buffer_of_sameData {A B : List (Chunk T)}
    (h : List.Forall₂ Chunk.SameData A B) :
    List.Forall₂ (fun a b : Chunk T => a.buffer = b.buffer) A B :=
  h.imp (fun _ _ hab => hab.1)

theorem forall₂_buffer_of_sameLinks {A B : List (Chunk T)}
    (h : List.Forall₂ Chunk.SameLinks A B) :
    List.Forall₂ (fun a b : Chunk T => a.buffer = b.buffer) A B :=
  h.imp (fun _ _ hab => hab.1)

/-- Marking a list in two boxes with the same elements and marks gives boxes
with the same elements and marks. -/
theorem mark_loop_sameData :
    ∀ (fuel : Nat) (A B : List (Chunk (PListPool.Node T))) (fa fb it node : Option Nat),
      List.Forall₂ Chunk.SameData A B →
      ∀ a, PListPool.mark_referenced_loop fuel { chunks_ := A, free_chunks_ := fa } it node =
          some a →
        ∃ b, PListPool.mark_referenced_loop fuel { chunks_ := B, free_chunks_ := fb } it node =
            some b ∧
          List.Forall₂ Chunk.SameData a.chunks_ b.chunks_ ∧ b.free_chunks_ = fb := by
  intro fuel
  induction fuel with
  | zero =>
    intro A B fa fb it node h a ha
    cases node with
    | none =>
      simp only [PListPool.mark_referenced_loop, Option.some.injEq] at ha
      subst ha
      exact ⟨ChunkBox.mk B fb, by simp only [PListPool.mark_referenced_loop], h, rfl⟩
    | some n => simp [PListPool.mark_referenced_loop] at ha
  | succ fuel ih =>
    intro A B fa fb it node h a ha
    cases node with
    | none =>
      simp only [PListPool.mark_referenced_loop, Option.some.injEq] at ha
      subst ha
      exact ⟨ChunkBox.mk B fb, by simp only [PListPool.mark_referenced_loop], h, rfl⟩
    | some n =>
      rw [PListPool.mark_referenced_loop] at ha ⊢
      simp only at ha ⊢
      rcases mark_cached_sameData n h it with ⟨h1, h2⟩ | ⟨ca, cb, i, h1, h2, hcab⟩
      · rw [h1] at ha
        rw [h2]
        simp only at ha ⊢
        have hs := mark_search_sameData n h 0
        rw [← read_congr fa _ (forall₂_buffer_of_sameData hs.2) n, ← hs.1]
        cases hr : ChunkBox.read (ChunkBox.mk (PListPool.mark_search n 0 A).1 fa) n with
        | none => rw [hr] at ha; cases ha
        | some nd =>
          rw [hr] at ha
          exact ih _ _ fa fb _ _ hs.2 a ha
      · rw [h1] at ha
        rw [h2]
        simp only at ha ⊢
        have hs := forall₂_set h i hcab
        rw [← read_congr fa _ (forall₂_buffer_of_sameData hs) n]
        cases hr : ChunkBox.read (ChunkBox.mk (A.set i ca) fa) n with
        | none => rw [hr] at ha; cases ha
        | some nd =>
          rw [hr] at ha
          exact ih _ _ fa fb _ _ hs a ha

/-- Marking changes marks only. -/
theorem mark_loop_sameLinks :
    ∀ (fuel : Nat) (box : ChunkBox (PListPool.Node T)) (it node : Option Nat),
      ∀ a, PListPool.mark_referenced_loop fuel box it node = some a →
        List.Forall₂ Chunk.SameLinks box.chunks_ a.chunks_ ∧
          a.free_chunks_ = box.free_chunks_ := by
  intro fuel
  induction fuel with
  | zero =>
    intro box it node a ha
    cases node with
    | none =>
      simp only [PListPool.mark_referenced_loop, Option.some.injEq] at ha
      subst ha
      exact ⟨forall₂_sameLinks_refl _, rfl⟩
    | some n => simp [PListPool.mark_referenced_loop] at ha
  | succ fuel ih =>
    intro box it node a ha
    cases node with
    | none =>
      simp only [PListPool.mark_referenced_loop, Option.some.injEq] at ha
      subst ha
      exact ⟨forall₂_sameLinks_refl _, rfl⟩
    | some n =>
      rw [PListPool.mark_referenced_loop] at ha
      simp only at ha
      cases hcached : PListPool.mark_cached n box.chunks_ it with
      | none =>
        rw [hcached] at ha
        simp only at ha
        cases hr : ChunkBox.read
            (ChunkBox.mk (PListPool.mark_search n 0 box.chunks_).1 box.free_chunks_) n with
        | none => rw [hr] at ha; cases ha
        | some nd =>
          rw [hr] at ha
          have := ih _ _ _ a ha
          exact ⟨forall₂_sameLinks_trans (mark_search_sameLinks n _ 0) this.1, this.2⟩
      | some ci =>
        obtain ⟨c, i⟩ := ci
        rw [hcached] at ha
        simp only at ha
        rcases mark_cached_sameLinks n _ it c i hcached with ⟨c0, hc0, hl⟩
        cases hr : ChunkBox.read (ChunkBox.mk (box.chunks_.set i c) box.free_chunks_) n with
        | none => rw [hr] at ha; cases ha
        | some nd =>
          rw [hr] at ha
          have := ih _ _ _ a ha
          exact ⟨forall₂_sameLinks_trans (forall₂_set_right sameLinks_refl _ i c0 c hc0 hl)
            this.1, this.2⟩

theorem mark_roots_sameData (fuel : Nat) :
    ∀ (roots : List (Nat × Nat)) (A B : List (Chunk (PListPool.Node T))) (fa fb : Option Nat),
      List.Forall₂ Chunk.SameData A B →
      ∀ a, PListPool.mark_roots fuel roots { chunks_ := A, free_chunks_ := fa } = some a →
        ∃ b, PListPool.mark_roots fuel roots { chunks_ := B, free_chunks_ := fb } = some b ∧
          List.Forall₂ Chunk.SameData a.chunks_ b.chunks_ ∧ b.free_chunks_ = fb := by
  intro roots
  induction roots with
  | nil =>
    intro A B fa fb h a ha
    simp only [PListPool.mark_roots, Option.some.injEq] at ha
    subst ha
    exact ⟨ChunkBox.mk B fb, rfl, h, rfl⟩
  | cons r roots ih =>
    intro A B fa fb h a ha
    simp only [PListPool.mark_roots, PListPool.mark_referenced] at ha ⊢
    cases h1 : PListPool.mark_referenced_loop fuel (ChunkBox.mk A fa) none (some r.1) with
    | none => rw [h1] at ha; cases ha
    | some a1 =>
      rw [h1] at ha
      simp only at ha
      rcases mark_loop_sameData fuel A B fa fb none (some r.1) h a1 h1 with ⟨b1, hb1, hd, hf⟩
      rw [hb1]
      simp only
      obtain ⟨A1, fa1⟩ := a1
      obtain ⟨B1, fb1⟩ := b1
      simp only at hf hd
      subst hf
      exact ih A1 B1 fa1 fb1 hd a ha

theorem mark_roots_sameLinks (fuel : Nat) :
    ∀ (roots : List (Nat × Nat)) (box : ChunkBox (PListPool.Node T)),
      ∀ a, PListPool.mark_roots fuel roots box = some a →
        List.Forall₂ Chunk.SameLinks box.chunks_ a.chunks_ ∧
          a.free_chunks_ = box.free_chunks_ := by
  intro roots
  induction roots with
  | nil =>
    intro box a ha
    simp only [PListPool.mark_roots, Option.some.injEq] at ha
    subst ha
    exact ⟨forall₂_sameLinks_refl _, rfl⟩
  | cons r roots ih =>
    intro box a ha
    simp only [PListPool.mark_roots, PListPool.mark_referenced] at ha
    cases h1 : PListPool.mark_referenced_loop fuel box none (some r.1) with
    | none => rw [h1] at ha; cases ha
    | some a1 =>
      rw [h1] at ha
      simp only at ha
      have h2 := mark_loop_sameLinks fuel box none (some r.1) a1 h1
      have h3 := ih a1 a ha
      exact ⟨forall₂_sameLinks_trans h2.1 h3.1, h3.2.trans h2.2⟩

/-! ## The sweep -/

theorem and_one_eq_one_iff (x : Nat) : x &&& 1 = 1 ↔ x.testBit 0 = true := by
  rw [Nat.testBit_zero, Nat.and_one_is_mod]
  simp

theorem shift_and_one (x index : Nat) : (x >>> index) &&& 0x1 = 1 ↔ x.testBit index = true := by
  rw [and_one_eq_one_iff, Nat.testBit_shiftRight, Nat.add_zero]

/-- A chunk in which no used slot is unmarked. -/
theorem collect_marked_loop_skip (is_used : Nat) :
    ∀ (left index : Nat) (c : Chunk T) (destroyed : List T),
      (∀ j, index ≤ j → j < index + left → is_used.testBit j = false) →
      Chunk.collect_marked_loop is_used left index c destroyed = (c, destroyed) := by
  intro left
  induction left with
  | zero => intro index c destroyed _; rfl
  | succ left ih =>
    intro index c destroyed h
    rw [Chunk.collect_marked_loop]
    have h0 : ¬ ((is_used >>> index) &&& 0x1 = 1) := by
      rw [shift_and_one, h index (le_refl _) (by omega)]
      simp
    rw [if_neg h0]
    exact ih (index + 1) c destroyed (fun j h1 h2 => h j (by omega) (by omega))

theorem collect_marked_loop_spec (is_used : Nat) :
    ∀ (left index : Nat) (c : Chunk T) (destroyed : List T), index + left ≤ 32 →
      (Chunk.collect_marked_loop is_used left index c destroyed).1.buffer = c.buffer ∧
      (Chunk.collect_marked_loop is_used left index c destroyed).1.mark_field = c.mark_field ∧
      (Chunk.collect_marked_loop is_used left index c destroyed).1.next = c.next ∧
      ∀ j, j < 32 →
        (Chunk.collect_marked_loop is_used left index c destroyed).1.used_elements.testBit j =
          (c.used_elements.testBit j &&
            !(decide (index ≤ j) && decide (j < index + left) && is_used.testBit j)) := by
  intro left
  induction left with
  | zero =>
    intro index c destroyed _
    refine ⟨rfl, rfl, rfl, ?_⟩
    intro j _
    simp only [Chunk.collect_marked_loop, Nat.add_zero]
    by_cases h1 : index ≤ j
    · have : ¬ j < index := by omega
      simp [this]
    · simp [h1]
  | succ left ih =>
    intro index c destroyed hle
    rw [Chunk.collect_marked_loop]
    by_cases h0 : (is_used >>> index) &&& 0x1 = 1
    · rw [if_pos h0]
      rcases ih (index + 1) { c with used_elements := set_bit_off c.used_elements index }
        (destroyed ++ (c.buffer[index]?).toList) (by omega) with ⟨h1, h2, h3, h4⟩
      refine ⟨h1, h2, h3, ?_⟩
      intro j hj
      rw [h4 j hj]
      simp only
      rw [testBit_set_bit_off _ _ _ (by omega) hj]
      rw [shift_and_one] at h0
      by_cases hji : j = index
      · subst hji
        simp [h0]
      · have e1 : (decide (index + 1 ≤ j)) = decide (index ≤ j) := by
          apply decide_eq_decide.mpr; omega
        have e2 : (decide (j < index + 1 + left)) = decide (j < index + (left + 1)) := by
          apply decide_eq_decide.mpr; omega
        rw [e1, e2]
        simp [hji]
    · rw [if_neg h0]
      rcases ih (index + 1) c destroyed (by omega) with ⟨h1, h2, h3, h4⟩
      refine ⟨h1, h2, h3, ?_⟩
      intro j hj
      rw [h4 j hj]
      rw [shift_and_one] at h0
      by_cases hji : j = index
      · subst hji
        have : is_used.testBit j = false := by simpa using h0
        simp [this]
      · have e1 : (decide (index + 1 ≤ j)) = decide (index ≤ j) := by
          apply decide_eq_decide.mpr; omega
        have e2 : (decide (j < index + 1 + left)) = decide (j < index + (left + 1)) := by
          apply decide_eq_decide.mpr; omega
        rw [e1, e2]

/-! ## Sweeping twice -/

theorem collect_marked_of_swept (c : Chunk T) (h : c.Swept) : c.collect_marked = (c, []) := by
  unfold Chunk.collect_marked
  exact collect_marked_loop_skip _ _ _ _ _
    (fun j _ hj => h j (by simp only [CHUNK_BUFFER_SIZE] at hj; omega))

theorem collect_marked_spec (c : Chunk T) :
    c.collect_marked.1.buffer = c.buffer ∧ c.collect_marked.1.mark_field = c.mark_field ∧
      c.collect_marked.1.next = c.next ∧ c.collect_marked.1.Swept := by
  unfold Chunk.collect_marked
  rcases collect_marked_loop_spec ((c.used_elements ^^^ c.mark_field) &&& c.used_elements)
    CHUNK_BUFFER_SIZE 0 c [] (by simp [CHUNK_BUFFER_SIZE]) with ⟨h1, h2, h3, h4⟩
  refine ⟨h1, h2, h3, ?_⟩
  intro j hj
  rw [Nat.testBit_and, Nat.testBit_xor, h2, h4 j hj, Nat.testBit_and, Nat.testBit_xor]
  have : decide (j < 0 + CHUNK_BUFFER_SIZE) = true := by
    simp only [CHUNK_BUFFER_SIZE]; simpa using hj
  rw [this]
  cases c.used_elements.testBit j <;> cases c.mark_field.testBit j <;> simp

theorem swept_congr {a b : Chunk T} (h1 : a.used_elements = b.used_elements)
    (h2 : a.mark_field = b.mark_field) (h : a.Swept) : b.Swept := by
  intro j hj
  rw [← h1, ← h2]
  exact h j hj

/-- Sweeping the chunks that a sweep has left changes nothing. -/
theorem collect_chunks_loop_again :
    ∀ (B : List (Chunk T)) (i : Nat) (free : Option Nat) (d d0 : List T),
      ChunkBox.collect_chunks_loop i (ChunkBox.collect_chunks_loop i B free d).1 free d0 =
        ((ChunkBox.collect_chunks_loop i B free d).1,
          (ChunkBox.collect_chunks_loop i B free d).2.1, d0) := by
  intro B
  induction B with
  | nil => intro i free d d0; rfl
  | cons b B ih =>
    intro i free d d0
    rcases collect_marked_spec b with ⟨_, _, _, hsw⟩
    by_cases hfull : b.collect_marked.1.is_full = true
    · have h1 : ChunkBox.collect_chunks_loop i (b :: B) free d =
          (b.collect_marked.1 :: (ChunkBox.collect_chunks_loop (i + 1) B free
            (d ++ b.collect_marked.2)).1,
            (ChunkBox.collect_chunks_loop (i + 1) B free (d ++ b.collect_marked.2)).2) := by
        simp only [ChunkBox.collect_chunks_loop, hfull, Bool.not_true, Bool.false_eq_true,
          if_false]
      rw [h1]
      simp only [ChunkBox.collect_chunks_loop, collect_marked_of_swept _ hsw, hfull, Bool.not_true,
        Bool.false_eq_true, if_false, ih, List.append_nil]
    · have hfull' : b.collect_marked.1.is_full = false := by
        simpa using hfull
      have h1 : ChunkBox.collect_chunks_loop i (b :: B) free d =
          ({ b.collect_marked.1 with next := free } ::
            (ChunkBox.collect_chunks_loop (i + 1) B (some i) (d ++ b.collect_marked.2)).1,
            (ChunkBox.collect_chunks_loop (i + 1) B (some i) (d ++ b.collect_marked.2)).2) := by
        simp only [ChunkBox.collect_chunks_loop, hfull', Bool.not_false, if_true]
      rw [h1]
      have hsw' : Chunk.Swept { b.collect_marked.1 with next := free } :=
        swept_congr rfl rfl hsw
      have hf2 : Chunk.is_full { b.collect_marked.1 with next := free } = false := hfull'
      simp only [ChunkBox.collect_chunks_loop, collect_marked_of_swept _ hsw', hf2, Bool.not_false,
        if_true, ih, List.append_nil]

theorem collect_chunks_loop_data :
    ∀ (B : List (Chunk T)) (i : Nat) (free : Option Nat) (d : List T),
      List.Forall₂ Chunk.SameData B (ChunkBox.collect_chunks_loop i B free d).1 := by
  intro B
  induction B with
  | nil => intro i free d; exact List.Forall₂.nil
  | cons b B ih =>
    intro i free d
    rcases collect_marked_spec b with ⟨h1, h2, _, _⟩
    simp only [ChunkBox.collect_chunks_loop]
    split
    · exact List.Forall₂.cons ⟨h1.symm, h2.symm⟩ (ih _ _ _)
    · exact List.Forall₂.cons ⟨h1.symm, h2.symm⟩ (ih _ _ _)

theorem forall₂_comp {α β γ : Type} {R : α → β → Prop} {S : β → γ → Prop}
    {A : List α} {B : List β} {C : List γ}
    (h1 : List.Forall₂ R A B) (h2 : List.Forall₂ S B C) :
    List.Forall₂ (fun a c => ∃ b, R a b ∧ S b c) A C := by
  induction h1 generalizing C with
  | nil => cases h2; exact List.Forall₂.nil
  | cons hab _ ih =>
    cases h2 with
    | cons hbc hrest => exact List.Forall₂.cons ⟨_, hab, hbc⟩ (ih hrest)

theorem forall₂_and {α β : Type} {R S : α → β → Prop} {A : List α} {B : List β}
    (h1 : List.Forall₂ R A B) (h2 : List.Forall₂ S A B) :
    List.Forall₂ (fun a b => R a b ∧ S a b) A B := by
  induction h1 with
  | nil => exact List.Forall₂.nil
  | cons hab _ ih =>
    cases h2 with
    | cons hab2 hrest => exact List.Forall₂.cons ⟨hab, hab2⟩ (ih hrest)

theorem destroy_nothing (E : ListElement T) (hE : ∀ x, E.handles x = [])
    (destroyed : List (PListPool.Node T)) (p : PListPool T) :
    destroyed.foldl (fun p n => PListPool.destroy_element E p n.data) p = p := by
  induction destroyed generalizing p with
  | nil => rfl
  | cons n rest ih =>
    rw [List.foldl_cons, ih]
    simp only [PListPool.destroy_element, hE, List.foldl_nil]

theorem copyif_positive_again (rc : List (Nat × Nat)) :
    copyif_positive (copyif_positive rc) = copyif_positive rc := by
  simp [copyif_positive, List.filter_filter]

theorem chunk_ext {a b : Chunk T} (h1 : a.buffer = b.buffer)
    (h2 : a.used_elements = b.used_elements) (h3 : a.mark_field = b.mark_field)
    (h4 : a.next = b.next) : a = b := by
  cases a; cases b
  simp only at h1 h2 h3 h4
  simp only [h1, h2, h3, h4]

/-- With elements that hold no handles, collecting what a collection has left
changes nothing. -/
theorem gc_again (E : ListElement T) (hE : ∀ x, E.handles x = []) (fuel : Nat)
    (s s1 : PListPool T) (h : PListPool.gc E fuel s = some s1) :
    PListPool.gc E fuel s1 = some s1 := by
  unfold PListPool.gc at h
  simp only at h
  cases hm : PListPool.mark_roots fuel (copyif_positive s.ref_count_) s.chunks_.mark_all_empty with
  | none => rw [hm] at h; cases h
  | some Bx =>
    rw [hm] at h
    simp only [destroy_nothing E hE, Option.some.injEq] at h
    subst h
    have hl1 := mark_roots_sameLinks fuel _ _ Bx hm
    have hd1 : List.Forall₂ Chunk.SameData Bx.chunks_ Bx.collect_chunks.1.chunks_ :=
      collect_chunks_loop_data Bx.chunks_ 0 none []
    -- the cleared chunks have the same elements
    have hclear : List.Forall₂ Chunk.SameData s.chunks_.mark_all_empty.chunks_
        (ChunkBox.mark_all_empty Bx.collect_chunks.1).chunks_ := by
      simp only [ChunkBox.mark_all_empty] at hl1 ⊢
      rw [List.forall₂_map_left_iff] at hl1 ⊢
      rw [List.forall₂_map_right_iff]
      refine (forall₂_comp hl1.1 hd1).imp ?_
      rintro a c ⟨b, hab, hbc⟩
      exact ⟨hab.1.trans hbc.1, rfl⟩
    rcases mark_roots_sameData fuel (copyif_positive s.ref_count_) _ _
      s.chunks_.mark_all_empty.free_chunks_ Bx.collect_chunks.1.free_chunks_ hclear Bx hm with
      ⟨b, hb, hd2, hf2⟩
    have hl2 := mark_roots_sameLinks fuel _ _ b hb
    have heq : b = Bx.collect_chunks.1 := by
      obtain ⟨bc, bf⟩ := b
      simp only at hf2 hd2 hl2
      subst hf2
      have hchunks : Bx.collect_chunks.1.chunks_ = bc := by
        rw [← List.forall₂_eq_eq_eq]
        simp only [ChunkBox.mark_all_empty] at hl2
        rw [List.forall₂_map_left_iff] at hl2
        have hmark : List.Forall₂ (fun (c b1 : Chunk (PListPool.Node T)) =>
            c.mark_field = b1.mark_field) Bx.collect_chunks.1.chunks_ bc :=
          (forall₂_comp hd1.flip hd2).imp (by
            rintro c b1 ⟨x, hxc, hxb⟩
            exact hxc.2.symm.trans hxb.2)
        refine (forall₂_and hl2.1 hmark).imp ?_
        rintro c b1 ⟨hl, hmk⟩
        exact chunk_ext hl.1 hl.2.1 hmk hl.2.2
      rw [← hchunks]
    unfold PListPool.gc
    simp only [copyif_positive_again]
    have hb' : PListPool.mark_roots fuel (copyif_positive s.ref_count_)
        (ChunkBox.mark_all_empty Bx.collect_chunks.1) = some b := hb
    rw [hb', heq]
    simp only [destroy_nothing E hE]
    have hagain := collect_chunks_loop_again Bx.chunks_ 0 none [] []
    simp only [ChunkBox.collect_chunks] at hagain ⊢
    rw [hagain]

/-! ## The collection returns -/

theorem is_used_congr {A B : List (Chunk T)} {fa fb : Option Nat}
    (h : List.Forall₂ Chunk.SameLinks A B) (p : Nat) :
    ChunkBox.is_used { chunks_ := A, free_chunks_ := fa } p =
      ChunkBox.is_used { chunks_ := B, free_chunks_ := fb } p := by
  unfold ChunkBox.is_used
  rcases forall₂_getElem? h (p / CHUNK_BUFFER_SIZE) with ⟨h1, h2⟩ | ⟨a, b, h1, h2, hab⟩
  · simp only [h1, h2]
  · simp only [h1, h2, hab.2.1]

theorem chain_sameLinks (pool pool1 : PListPool T)
    (h : List.Forall₂ Chunk.SameLinks pool.chunks_.chunks_ pool1.chunks_.chunks_) :
    ∀ (xs : List T) (head : Option Nat), pool.Chain head xs → pool1.Chain head xs := by
  apply chain_frame
  intro p hp
  obtain ⟨⟨A, fa⟩, ra⟩ := pool
  obtain ⟨⟨B, fb⟩, rb⟩ := pool1
  simp only at h hp ⊢
  rw [← is_used_congr h p, ← read_congr _ _ (forall₂_buffer_of_sameLinks h) p]
  exact ⟨hp, rfl⟩

theorem mark_loop_returns :
    ∀ (xs : List T) (fuel : Nat) (box : ChunkBox (PListPool.Node T)) (it head : Option Nat),
      PListPool.Chain { chunks_ := box, ref_count_ := [] } head xs → xs.length ≤ fuel →
      ∃ a, PListPool.mark_referenced_loop fuel box it head = some a := by
  intro xs
  induction xs with
  | nil =>
    intro fuel box it head hch _
    cases head with
    | none => exact ⟨box, by cases fuel <;> rfl⟩
    | some h => exact absurd hch id
  | cons x xs ih =>
    intro fuel box it head hch hlen
    cases head with
    | none => exact absurd hch id
    | some h =>
      obtain ⟨fuel, rfl⟩ : ∃ f, fuel = f + 1 :=
        ⟨fuel - 1, by simp only [List.length_cons] at hlen; omega⟩
      rcases hch with ⟨_, node, hr, _, hrest⟩
      simp only at hr
      rw [PListPool.mark_referenced_loop]
      simp only
      cases hcached : PListPool.mark_cached h box.chunks_ it with
      | none =>
        simp only
        have hl := mark_search_sameLinks h box.chunks_ 0
        have hread : ChunkBox.read (ChunkBox.mk (PListPool.mark_search h 0 box.chunks_).1
            box.free_chunks_) h = some node := by
          rw [← read_congr box.free_chunks_ _ (forall₂_buffer_of_sameLinks hl) h]
          exact hr
        rw [hread]
        simp only
        exact ih fuel _ _ _ (chain_sameLinks (PListPool.mk box [])
          (PListPool.mk (ChunkBox.mk (PListPool.mark_search h 0 box.chunks_).1
            box.free_chunks_) []) hl xs _ hrest)
          (by simp only [List.length_cons] at hlen; omega)
      | some ci =>
        obtain ⟨c, i⟩ := ci
        simp only
        rcases mark_cached_sameLinks h _ it c i hcached with ⟨c0, hc0, hcl⟩
        have hl := forall₂_set_right sameLinks_refl box.chunks_ i c0 c hc0 hcl
        have hread : ChunkBox.read (ChunkBox.mk (box.chunks_.set i c) box.free_chunks_) h =
            some node := by
          rw [← read_congr box.free_chunks_ _ (forall₂_buffer_of_sameLinks hl) h]
          exact hr
        rw [hread]
        simp only
        exact ih fuel _ _ _ (chain_sameLinks (PListPool.mk box [])
          (PListPool.mk (ChunkBox.mk (box.chunks_.set i c) box.free_chunks_) [])
          hl xs _ hrest)
          (by simp only [List.length_cons] at hlen; omega)

theorem mark_roots_returns (fuel : Nat) :
    ∀ (roots : List (Nat × Nat)) (box : ChunkBox (PListPool.Node T)),
      (∀ r ∈ roots, ∃ xs, PListPool.Chain { chunks_ := box, ref_count_ := [] } (some r.1) xs ∧
        xs.length ≤ fuel) →
      ∃ a, PListPool.mark_roots fuel roots box = some a := by
  intro roots
  induction roots with
  | nil => intro box _; exact ⟨box, rfl⟩
  | cons r roots ih =>
    intro box h
    rcases h r (List.mem_cons_self _ _) with ⟨xs, hch, hlen⟩
    rcases mark_loop_returns xs fuel box none (some r.1) hch hlen with ⟨a1, ha1⟩
    simp only [PListPool.mark_roots, PListPool.mark_referenced, ha1]
    apply ih
    intro r1 hr1
    rcases h r1 (List.mem_cons_of_mem _ hr1) with ⟨ys, hys, hlen1⟩
    exact ⟨ys, chain_sameLinks (PListPool.mk box []) (PListPool.mk a1 [])
      (mark_loop_sameLinks fuel box none (some r.1) a1 ha1).1 ys _ hys, hlen1⟩

theorem gc_returns (E : ListElement T) (fuel : Nat) (s : PListPool T)
    (hroots : ∀ r ∈ s.ref_count_, 0 < r.2 → ∃ xs, s.Chain (some r.1) xs ∧ xs.length ≤ fuel) :
    ∃ s1, PListPool.gc E fuel s = some s1 := by
  have hl : List.Forall₂ Chunk.SameLinks s.chunks_.chunks_ s.chunks_.mark_all_empty.chunks_ := by
    simp only [ChunkBox.mark_all_empty]
    rw [List.forall₂_map_right_iff]
    exact (forall₂_sameLinks_refl _).imp (fun a b hab => ⟨hab.1, hab.2.1, hab.2.2⟩)
  rcases mark_roots_returns fuel (copyif_positive s.ref_count_) s.chunks_.mark_all_empty
    (by
      intro r hr
      simp only [copyif_positive, List.mem_filter, decide_eq_true_eq] at hr
      rcases hroots r hr.1 hr.2 with ⟨xs, hch, hlen⟩
      exact ⟨xs, chain_sameLinks s (PListPool.mk s.chunks_.mark_all_empty []) hl xs _ hch, hlen⟩)
    with ⟨a, ha⟩
  simp only [PListPool.gc, ha]
  exact ⟨_, rfl⟩

/-! ## The collector of the list pool run twice -/

/-- C10, as stated, fails: in the list pool of values that holds the garbage
node of `outer` with the only handle to `inner`, the first `gc()` sweeps the
node of `outer`, whose destructor releases `inner`, and the second `gc()`
sweeps `inner`: the `used_elements` fields, the refcount table and
`live_size_bytes()` (here with 64, 12 and 24 bytes for the pool, a table entry
and a node) after the second run differ from those after the first. -/
theorem gc_twice_differs :
    (PListPool.gc value_element 8 nested_list_example).map
        (fun s => (used_fields s, s.ref_count_, s.live_size_bytes 64 12 24)) =
      some ([1], [(0, 0)], 100) ∧
    ((PListPool.gc value_element 8 nested_list_example).bind
        (PListPool.gc value_element 8)).map
        (fun s => (used_fields s, s.ref_count_, s.live_size_bytes 64 12 24)) =
      some ([0], [], 64) := by
  constructor <;> decide

theorem number_list_roots :
    ∀ r ∈ number_list_example.1.ref_count_, 0 < r.2 →
      ∃ xs, number_list_example.1.Chain (some r.1) xs ∧ xs.length ≤ 8 := by
  intro r hr _
  have hrc : number_list_example.1.ref_count_ = [(0, 1), (1, 1)] := by decide
  rw [hrc] at hr
  simp only [List.mem_cons, List.mem_singleton, List.not_mem_nil, or_false] at hr
  rcases hr with rfl | rfl
  · exact ⟨[5], ⟨rfl, _, rfl, rfl, trivial⟩, by decide⟩
  · exact ⟨[7, 5], ⟨rfl, _, rfl, rfl, rfl, _, rfl, rfl, trivial⟩, by decide⟩

/-- C10, amended: on a list pool whose elements hold no handles to lists of the
pool, and whose heads with a positive count start lists of at most `fuel`
nodes, `gc()` returns, and a second `gc()` returns the state the first one
left: the same `used_elements` in every chunk, the same refcount table, the
same `live_size_bytes()`. -/
theorem gc_idempotent (E : ListElement T) (hE : ∀ x, E.handles x = []) (fuel : Nat)
    (s : PListPool T)
    (hroots : ∀ r ∈ s.ref_count_, 0 < r.2 → ∃ xs, s.Chain (some r.1) xs ∧ xs.length ≤ fuel) :
    ∃ s1 s2, PListPool.gc E fuel s = some s1 ∧ PListPool.gc E fuel s1 = some s2 ∧ s2 = s1 ∧
      used_fields s2 = used_fields s1 ∧ s2.ref_count_ = s1.ref_count_ ∧
      ∀ sizeof_pool sizeof_entry sizeof_node,
        s2.live_size_bytes sizeof_pool sizeof_entry sizeof_node =
          s1.live_size_bytes sizeof_pool sizeof_entry sizeof_node := by
  rcases gc_returns E fuel s hroots with ⟨s1, h1⟩
  exact ⟨s1, s1, h1, gc_again E hE fuel s s1 h1, rfl, rfl, rfl, fun _ _ _ => rfl⟩

theorem gc_idempotent_witness :
    (∀ x, nat_element.handles x = []) ∧
      (∀ r ∈ number_list_example.1.ref_count_, 0 < r.2 →
        ∃ xs, number_list_example.1.Chain (some r.1) xs ∧ xs.length ≤ 8) ∧
      ∃ s1 s2, PListPool.gc nat_element 8 number_list_example.1 = some s1 ∧
        PListPool.gc nat_element 8 s1 = some s2 ∧ s2 = s1 ∧
        used_fields s2 = used_fields s1 ∧ s2.ref_count_ = s1.ref_count_ ∧
        ∀ sizeof_pool sizeof_entry sizeof_node,
          s2.live_size_bytes sizeof_pool sizeof_entry sizeof_node =
            s1.live_size_bytes sizeof_pool sizeof_entry sizeof_node :=
  ⟨fun _ => rfl, number_list_roots,
    gc_idempotent nat_element (fun _ => rfl) 8 number_list_example.1 number_list_roots⟩

/-! ## Map equality -/

/-- C11: `operator==` looks from the left map into the right one only: the
empty map compares equal to the map with the entry `1 -> 10`, a strict
superset, whose key 1 the empty map does not hold; the comparison the other
way round gives false, so `==` is not symmetric. -/
theorem map_equal_one_way :
    Map.equal nat_compare nat_compare low_bits_hash one_entry_example.1 PMapPool.new_map
        one_entry_example.2 = some true ∧
      Map.try_get_value nat_compare low_bits_hash one_entry_example.1 one_entry_example.2 1 =
        some 10 ∧
      Map.try_get_value nat_compare low_bits_hash one_entry_example.1 PMapPool.new_map 1 =
        none ∧
      Map.equal nat_compare nat_compare low_bits_hash one_entry_example.1 one_entry_example.2
        PMapPool.new_map = some false := by
  decide

/-! ## Numbers in the source text -/

/-- C16: a token `0b` or `0B` followed by binary digits is read as the integer
0, whatever the digits are: `0b101`, `0B11` and `0b1` all give `PARSE_INT`
with 0, because the digits are taken from sub-match 3, the hexadecimal group,
which is empty for such a token (the binary digits are sub-match 4).  The
hexadecimal tokens `0xf` and `0XFF` give 15 and 255. -/
theorem parsenum_binary_is_zero (atof : List Char → Nat) :
    parsenum atof ['0', 'b', '1', '0', '1'] = ParseResult.PARSE_INT 0 ∧
      parsenum atof ['0', 'B', '1', '1'] = ParseResult.PARSE_INT 0 ∧
      parsenum atof ['0', 'b', '1'] = ParseResult.PARSE_INT 0 ∧
      (g_regint ['0', 'b', '1', '0', '1']).map (fun res => (res.getD 3 [], res.getD 4 [])) =
        some ([], ['1', '0', '1']) ∧
      parsenum atof ['0', 'x', 'f'] = ParseResult.PARSE_INT 15 ∧
      parsenum atof ['0', 'X', 'F', 'F'] = ParseResult.PARSE_INT 255 := by
  refine ⟨?_, ?_, ?_, ?_, ?_, ?_⟩ <;> rfl

/-! ## Balanced text and the stack walk -/

theorem pos_in_string_loop_not_mem (c : Char) :
    ∀ (str : List Char) (i : Nat), c ∉ str → pos_in_string_loop c str i = -1 := by
  intro str
  induction str with
  | nil => intro i _; rfl
  | cons x rest ih =>
    intro i h
    simp only [List.mem_cons, not_or] at h
    simp only [pos_in_string_loop, h.1, if_false]
    exact ih (i + 1) h.2

theorem pos_in_string_loop_spec (c : Char) :
    ∀ (str : List Char) (i : Nat), 0 ≤ pos_in_string_loop c str i →
      (i : Int) ≤ pos_in_string_loop c str i ∧
        str[(pos_in_string_loop c str i).toNat - i]? = some c := by
  intro str
  induction str with
  | nil => intro i h; simp [pos_in_string_loop] at h
  | cons x rest ih =>
    intro i h
    simp only [pos_in_string_loop] at h ⊢
    by_cases hx : c = x
    · simp only [hx, if_true]
      simp
    · simp only [hx, if_false] at h ⊢
      rcases ih (i + 1) h with ⟨h1, h2⟩
      refine ⟨by omega, ?_⟩
      have : (pos_in_string_loop c rest (i + 1)).toNat - i =
          ((pos_in_string_loop c rest (i + 1)).toNat - (i + 1)) + 1 := by omega
      rw [this, List.getElem?_cons_succ]
      exact h2

theorem pos_in_string_spec (c : Char) (str : List Char) (h : 0 ≤ pos_in_string c str) :
    str[(pos_in_string c str).toNat]? = some c := by
  unfold pos_in_string at h ⊢
  by_cases hc : c = NUL
  · simp [hc] at h
  · simp only [hc, if_false] at h ⊢
    simpa using (pos_in_string_loop_spec c str 0 h).2

theorem pos_in_string_neg (c : Char) (str : List Char) (h : c ∉ str) :
    pos_in_string c str = -1 := by
  unfold pos_in_string
  split
  · rfl
  · exact pos_in_string_loop_not_mem c str 0 h

theorem pos_in_string_mem (c : Char) (str : List Char) (h : 0 ≤ pos_in_string c str) :
    c ∈ str :=
  List.getElem?_mem (pos_in_string_spec c str h)

theorem pos_opener (i : Nat) (o : Char) (h : SCOPE_START[i]? = some o) :
    pos_in_string o SCOPE_START = i := by
  have hi : i < 3 := by
    by_contra hge
    rw [List.getElem?_eq_none (by simp [SCOPE_START]; omega)] at h
    cases h
  interval_cases i <;> simp [SCOPE_START] at h <;> subst h <;> decide

theorem pos_closer (i : Nat) (c : Char) (h : SCOPE_END[i]? = some c) :
    pos_in_string c SCOPE_START = -1 ∧ pos_in_string c SCOPE_END = i := by
  have hi : i < 3 := by
    by_contra hge
    rw [List.getElem?_eq_none (by simp [SCOPE_END]; omega)] at h
    cases h
  interval_cases i <;> simp [SCOPE_END] at h <;> subst h <;> decide

theorem balanced_append {x y : List Char} (hx : Balanced x) (hy : Balanced y) :
    Balanced (x ++ y) := by
  induction hx with
  | nil => exact hy
  | plain c s h1 h2 _ ih => exact Balanced.plain c _ h1 h2 ih
  | scope i o c s t ho hc hs _ _ ih2 =>
    have : o :: (s ++ c :: t) ++ y = o :: (s ++ c :: (t ++ y)) := by simp
    rw [this]
    exact Balanced.scope i o c s _ ho hc hs ih2

theorem walk_of_balanced {s : List Char} (h : Balanced s) :
    ∀ (stack : List Int) (t : List Char), scope_walk stack (s ++ t) = scope_walk stack t := by
  induction h with
  | nil => intro stack t; rfl
  | plain c s h1 h2 _ ih =>
    intro stack t
    simp only [List.cons_append, scope_walk, pos_in_string_neg c _ h1, pos_in_string_neg c _ h2]
    simpa using ih stack t
  | scope i o c s t1 ho hc _ _ ih1 ih2 =>
    intro stack t
    have e : o :: (s ++ c :: t1) ++ t = o :: (s ++ (c :: (t1 ++ t))) := by simp
    rw [e]
    simp only [scope_walk, pos_opener i o ho]
    have hi : (0 : Int) ≤ (i : Int) := Int.ofNat_nonneg i
    simp only [ge_iff_le, hi, if_true]
    rw [ih1]
    simp only [scope_walk, (pos_closer i c hc).1, (pos_closer i c hc).2, hi, if_true]
    simpa using ih2 stack t

theorem closes_prepend {x : List Char} (hx : Balanced x) :
    ∀ (stack : List Int) (s : List Char), Closes stack s → Closes stack (x ++ s) := by
  intro stack
  cases stack with
  | nil => intro s h; exact balanced_append hx h
  | cons i stack =>
    intro s h
    rcases h with ⟨b, c, t, rfl, hb, hc, ht⟩
    exact ⟨x ++ b, c, t, by simp, balanced_append hx hb, hc, ht⟩

theorem closes_of_walk :
    ∀ (s : List Char) (stack : List Int), scope_walk stack s = true → Closes stack s := by
  intro s
  induction s with
  | nil =>
    intro stack h
    cases stack with
    | nil => exact Balanced.nil
    | cons i stack => simp [scope_walk] at h
  | cons c rest ih =>
    intro stack h
    simp only [scope_walk] at h
    by_cases ho : pos_in_string c SCOPE_START ≥ 0
    · simp only [ho, if_true] at h
      rcases ih _ h with ⟨b, cl, t, rfl, hb, hcl, ht⟩
      have hblock : Balanced (c :: (b ++ cl :: [])) :=
        Balanced.scope _ c cl b [] (pos_in_string_spec c _ ho) hcl hb Balanced.nil
      have := closes_prepend hblock stack t ht
      simpa using this
    · simp only [ho, if_false] at h
      by_cases hc : pos_in_string c SCOPE_END ≥ 0
      · simp only [hc, if_true] at h
        cases stack with
        | nil => simp at h
        | cons top below =>
          simp only at h
          by_cases ht : top = pos_in_string c SCOPE_END
          · simp only [ht, if_true] at h
            subst ht
            exact ⟨[], c, rest, rfl, Balanced.nil, pos_in_string_spec c _ hc, ih _ h⟩
          · simp only [ht, if_false] at h
            cases h
      · simp only [hc, if_false] at h
        have h1 : c ∉ SCOPE_START := fun hm => by
          by_cases hn : c = NUL
          · subst hn; revert hm; decide
          · apply ho
            have : c ∈ SCOPE_START := hm
            unfold pos_in_string
            simp only [hn, if_false]
            by_contra hneg
            have hh := this
            clear this
            revert hneg
            simp only [SCOPE_START, List.mem_cons, List.mem_singleton, List.not_mem_nil,
              or_false] at hh
            rcases hh with rfl | rfl | rfl <;> decide
        have h2 : c ∉ SCOPE_END := fun hm => by
          by_cases hn : c = NUL
          · subst hn; revert hm; decide
          · apply hc
            unfold pos_in_string
            simp only [hn, if_false]
            simp only [SCOPE_END, List.mem_cons, List.mem_singleton, List.not_mem_nil,
              or_false] at hm
            rcases hm with rfl | rfl | rfl <;> decide
        have := closes_prepend (Balanced.plain c [] h1 h2 Balanced.nil) stack rest (ih _ h)
        simpa using this

/-- The stack walk accepts exactly the balanced texts. -/
theorem scope_walk_iff (s : List Char) : scope_walk [] s = true ↔ Balanced s := by
  constructor
  · exact closes_of_walk s []
  · intro h
    have := walk_of_balanced h [] []
    simpa [scope_walk] using this

/-! ## `check_scope` walks the masked text -/

theorem to_newline_length (s : List Char) : (to_newline s).length ≤ s.length := by
  induction s with
  | nil => simp [to_newline]
  | cons c rest ih =>
    simp only [to_newline]
    split
    · simp
    · simp only [List.length_cons]; omega

theorem last_quote_cons_backslash (d : Char) (rest : List Char) :
    last_quote_of_string (BACKSLASH :: d :: rest) = last_quote_of_string rest := by
  rw [last_quote_of_string]; rfl

theorem last_quote_backslash_end :
    last_quote_of_string [BACKSLASH] = [] := by
  rfl

theorem last_quote_cons_quote (rest : List Char) :
    last_quote_of_string (DQUOTE :: rest) = DQUOTE :: rest := by
  cases rest <;> rfl

theorem last_quote_cons_other (c : Char) (rest : List Char) (hb : c ≠ BACKSLASH)
    (hq : c ≠ DQUOTE) : last_quote_of_string (c :: rest) = last_quote_of_string rest := by
  cases rest <;> simp [last_quote_of_string, hb, hq]

theorem last_quote_length : ∀ (n : Nat) (s : List Char), s.length ≤ n →
    (last_quote_of_string s).length ≤ s.length := by
  intro n
  induction n with
  | zero =>
    intro s h
    cases s with
    | nil => simp [last_quote_of_string]
    | cons c rest => simp at h
  | succ n ih =>
    intro s h
    cases s with
    | nil => simp [last_quote_of_string]
    | cons c rest =>
      by_cases hb : c = BACKSLASH
      · subst hb
        cases rest with
        | nil => rw [last_quote_backslash_end]; simp
        | cons d rest1 =>
          rw [last_quote_cons_backslash]
          simp only [List.length_cons] at h ⊢
          have := ih rest1 (by omega)
          omega
      · by_cases hq : c = DQUOTE
        · subst hq
          rw [last_quote_cons_quote]
        · rw [last_quote_cons_other c rest hb hq]
          simp only [List.length_cons] at h ⊢
          have := ih rest (by omega)
          omega

theorem mask_comment (s : List Char) :
    mask_text .comment s = mask_text .code (to_newline s) := by
  induction s with
  | nil => rfl
  | cons c rest ih =>
    simp only [to_newline, mask_text]
    by_cases h : c = NEWLINE
    · subst h
      simp only [if_true, mask_text]
      rw [if_neg (by decide), if_neg (by decide)]
    · simp only [h, if_false]
      exact ih

theorem mask_string : ∀ (n : Nat) (s : List Char), s.length ≤ n →
    mask_text .string s = mask_text .code (last_quote_of_string s).tail := by
  intro n
  induction n with
  | zero =>
    intro s h
    cases s with
    | nil => rfl
    | cons c rest => simp at h
  | succ n ih =>
    intro s h
    cases s with
    | nil => rfl
    | cons c rest =>
      by_cases hb : c = BACKSLASH
      · subst hb
        cases rest with
        | nil => rfl
        | cons d rest1 =>
          rw [last_quote_cons_backslash]
          simp only [mask_text, if_true]
          exact ih rest1 (by simp only [List.length_cons] at h; omega)
      · by_cases hq : c = DQUOTE
        · subst hq
          rw [last_quote_cons_quote]
          simp only [mask_text, List.tail_cons, if_true]
          rw [if_neg hb]
        · rw [last_quote_cons_other c rest hb hq]
          simp only [mask_text]
          rw [if_neg hb, if_neg hq]
          exact ih rest (by simp only [List.length_cons] at h; omega)

theorem match_comment (c : Char) (rest : List Char) :
    match_string [';'] (c :: rest) = decide (c = ';') := by
  simp only [match_string, List.length_cons, List.length_nil, match_string_loop, deref,
    List.headD_cons]
  by_cases h : c = ';'
  · simp [h]
  · have h' : ¬ ';' = c := fun e => h e.symm
    simp [h, h']

theorem walk_plain (stack : List Int) (c : Char) (rest : List Char)
    (h1 : ¬ pos_in_string c SCOPE_START ≥ 0) (h2 : ¬ pos_in_string c SCOPE_END ≥ 0) :
    scope_walk stack (c :: rest) = scope_walk stack rest := by
  simp only [scope_walk, h1, h2, if_false]

/-- The loop of `check_scope` ends, and with `OK` exactly when the stack walk
over the masked text accepts. -/
theorem check_scope_loop_spec (total : Nat) :
    ∀ (fuel : Nat) (c : List Char) (line_start_c line_number : Int)
      (stack : List (Int × Int × Int)), c.length < fuel →
      ∃ e, check_scope_loop total [';'] SCOPE_START SCOPE_END fuel c line_start_c line_number
          stack = some e ∧
        (e.result = ScopeResult.OK ↔
          scope_walk (stack.map (fun x => x.1)) (mask_text .code c) = true) := by
  intro fuel
  induction fuel with
  | zero => intro c _ _ _ h; omega
  | succ fuel ih =>
    intro c ls ln stack hlen
    cases c with
    | nil =>
      cases stack with
      | nil =>
        refine ⟨ScopeError.ok, by simp [check_scope_loop], ?_⟩
        simp [ScopeError.ok, mask_text, scope_walk]
      | cons top below =>
        obtain ⟨scp, col, line⟩ := top
        simp only [check_scope_loop, List.isEmpty_nil, if_true]
        exact ⟨_, rfl, by simp [mask_text, scope_walk]⟩
    | cons ch rest =>
      simp only [check_scope_loop, List.isEmpty_cons, Bool.false_eq_true, if_false,
        match_comment]
      by_cases hsemi : ch = ';'
      · -- a comment: the rest of the line is skipped
        subst hsemi
        simp only [decide_True, if_true]
        have htn : to_newline (';' :: rest) = to_newline rest := by
          simp only [to_newline]
          rw [if_neg (by decide)]
        rw [htn]
        have hmask : mask_text .code (';' :: rest) = mask_text .code (to_newline rest) := by
          simp only [mask_text, if_true]
          exact mask_comment rest
        rw [hmask]
        have hl := to_newline_length rest
        cases hnl : to_newline rest with
        | nil =>
          have hd : deref ([] : List Char) = NUL := rfl
          simp only [hd]
          rw [if_neg (by decide), if_neg (by decide), if_neg (by decide)]
          exact ih [] _ _ stack (by simp only [List.length_cons] at hlen; simp; omega)
        | cons d r =>
          have hdn : d = NEWLINE := by
            have : ∀ (s : List Char) (d : Char) (r : List Char),
                to_newline s = d :: r → d = NEWLINE := by
              intro s
              induction s with
              | nil => intro d r h; simp [to_newline] at h
              | cons x xs ihs =>
                intro d r h
                simp only [to_newline] at h
                by_cases hx : x = NEWLINE
                · simp only [hx, if_true, List.cons.injEq] at h
                  exact h.1.symm
                · simp only [hx, if_false] at h
                  exact ihs d r h
            exact this rest d r hnl
          subst hdn
          have hd : deref (NEWLINE :: r) = NEWLINE := rfl
          simp only [hd, List.tail_cons]
          rw [if_neg (by decide), if_neg (by decide), if_neg (by decide)]
          have hw : scope_walk (stack.map (fun x => x.1)) (mask_text .code (NEWLINE :: r)) =
              scope_walk (stack.map (fun x => x.1)) (mask_text .code r) := by
            simp only [mask_text]
            rw [if_neg (by decide), if_neg (by decide)]
            exact walk_plain _ _ _ (by decide) (by decide)
          rw [hw]
          rw [hnl] at hl
          exact ih r _ _ stack (by simp only [List.length_cons] at hlen hl; omega)
      · simp only [hsemi, decide_False, Bool.false_eq_true, if_false]
        have hd : deref (ch :: rest) = ch := rfl
        simp only [hd, List.tail_cons]
        by_cases hq : ch = DQUOTE
        · -- a string literal
          subst hq
          simp only [if_true]
          have hmask : mask_text .code (DQUOTE :: rest) =
              mask_text .code (last_quote_of_string rest).tail := by
            simp only [mask_text, if_true]
            exact mask_string rest.length rest (le_refl _)
          rw [hmask]
          have hl := last_quote_length rest.length rest (le_refl _)
          exact ih _ _ _ stack (by
            simp only [List.length_cons, List.length_tail] at hlen ⊢; omega)
        · simp only [hq, if_false]
          have hmask : mask_text .code (ch :: rest) = ch :: mask_text .code rest := by
            simp only [mask_text, hsemi, hq, if_false]
          rw [hmask]
          have hrest : rest.length < fuel := by
            simp only [List.length_cons] at hlen; omega
          by_cases ho : pos_in_string ch SCOPE_START ≥ 0
          · simp only [ho, if_true]
            rcases ih rest _ ln
              ((pos_in_string ch SCOPE_START,
                ((total - (ch :: rest).length : Nat) : Int) -
                  (if ch = NEWLINE then ((total - (ch :: rest).length : Nat) : Int) else ls),
                ln) :: stack) hrest with ⟨e, he, hiff⟩
            refine ⟨e, he, ?_⟩
            rw [hiff]
            simp only [List.map_cons, scope_walk, ho, if_true]
          · simp only [ho, if_false]
            by_cases hc : pos_in_string ch SCOPE_END ≥ 0
            · simp only [hc, if_true]
              cases stack with
              | nil =>
                refine ⟨_, rfl, ?_⟩
                simp [scope_walk, ho, hc]
              | cons top below =>
                obtain ⟨t1, t2, t3⟩ := top
                simp only
                by_cases ht : t1 = pos_in_string ch SCOPE_END
                · simp only [ht, if_true]
                  rcases ih rest _ ln below hrest with ⟨e, he, hiff⟩
                  refine ⟨e, he, ?_⟩
                  rw [hiff]
                  simp only [List.map_cons, scope_walk, ho, hc, if_true, if_false]
                · simp only [ht, if_false]
                  refine ⟨_, rfl, ?_⟩
                  simp [scope_walk, ho, hc, ht]
            · simp only [hc, if_false]
              rcases ih rest _ ln stack hrest with ⟨e, he, hiff⟩
              refine ⟨e, he, ?_⟩
              rw [hiff, walk_plain _ _ _ ho hc]

/-- C14: `check_scope` with the comment marker `;`, the openers `(`, `{`, `[`
and the closers `)`, `}`, `]` returns on every text, and returns `OK` exactly
when the text with its string literals and comments masked has properly nested
and matched delimiters. -/
theorem check_scope_ok_iff_balanced (text : List Char) :
    ∃ e, check_scope text [';'] SCOPE_START SCOPE_END = some e ∧
      (e.result = ScopeResult.OK ↔ Balanced (mask_text .code text)) := by
  rcases check_scope_loop_spec text.length (text.length + 1) text 0 0 []
    (Nat.lt_succ_self _) with ⟨e, he, hiff⟩
  refine ⟨e, he, ?_⟩
  rw [hiff]
  exact scope_walk_iff _

namespace Orb

/-! ## Equal values have equal hashes -/

theorem number_equal_hash {a b : Number} (h : Number.equal a b = true) :
    hash_of_number a = hash_of_number b := by
  cases a with
  | INT x =>
    cases b with
    | INT y =>
      simp only [Number.equal, beq_iff_eq] at h
      rw [h]
    | FLOAT y => simp [Number.equal] at h
  | FLOAT x =>
    cases b with
    | INT y => simp [Number.equal] at h
    | FLOAT y =>
      simp only [Number.equal, double_equal, Bool.and_eq_true, Bool.or_eq_true, beq_iff_eq] at h
      simp only [hash_of_number, U32]
      rcases h.2 with h1 | ⟨h1, h2⟩
      · rw [h1]
      · omega

theorem number_array_equal_hash : ∀ (a b : List Number) (p : Nat),
    number_array_equal a b = true → a.foldl accum_number_hash p = b.foldl accum_number_hash p := by
  intro a
  induction a with
  | nil =>
    intro b p h
    cases b with
    | nil => rfl
    | cons y b => simp [number_array_equal] at h
  | cons x a ih =>
    intro b p h
    cases b with
    | nil => simp [number_array_equal] at h
    | cons y b =>
      simp only [number_array_equal, Bool.and_eq_true] at h
      simp only [List.foldl_cons, accum_number_hash, number_equal_hash h.1]
      exact ih b _ h.2

theorem equal_flat_hash (lib : Library) {a b : Value} (h : Value.equal_flat a b = true) :
    Value.get_hash_flat lib a = Value.get_hash_flat lib b := by
  cases a <;> cases b <;> simp only [Value.equal_flat, Bool.false_eq_true] at h <;>
    simp only [Value.get_hash_flat]
  · simp only [beq_iff_eq] at h; rw [h]
  · exact number_equal_hash h
  · exact number_array_equal_hash _ _ _ h
  · simp only [beq_iff_eq] at h; rw [h]
  · simp only [beq_iff_eq] at h; rw [h]

theorem fold_value_hash_zero (hash : Value → Option Nat) :
    ∀ (l : List Value) (h : Nat), fold_value_hash hash 0 l = some h → h = 0 := by
  intro l
  induction l with
  | nil => intro h e; simp only [fold_value_hash, Option.some.injEq] at e; exact e.symm
  | cons v rest ih =>
    intro h e
    simp only [fold_value_hash] at e
    cases hv : hash v with
    | none => simp [hv] at e
    | some x =>
      simp only [hv, Nat.zero_mul, Nat.zero_mod] at e
      exact ih h e

theorem fold_map_hash_zero (hash : Value → Option Nat) :
    ∀ (l : List (KeyValue Value Value)) (h : Nat), fold_map_hash hash 0 l = some h → h = 0 := by
  intro l
  induction l with
  | nil => intro h e; simp only [fold_map_hash, Option.some.injEq] at e; exact e.symm
  | cons v rest ih =>
    intro h e
    simp only [fold_map_hash] at e
    cases h1 : hash v.first with
    | none => simp [h1] at e
    | some x =>
      cases h2 : hash v.second with
      | none => simp [h1, h2] at e
      | some y =>
        simp only [h1, h2, Nat.zero_mul, Nat.zero_mod] at e
        exact ih h e

/-- What `get_hash` gives when it returns: 0 for a vector, a list and a map,
the hash of its content for a value that holds no other values. -/
theorem get_hash_eq (lib : Library) (pool : PMapPool Value Value) (fuel : Nat) (v : Value)
    (h : Nat) (e : Value.get_hash lib pool fuel v = some h) :
    h = if v.is_atom then Value.get_hash_flat lib v else 0 := by
  cases fuel with
  | zero => simp [Value.get_hash] at e
  | succ fuel =>
    cases v <;> simp only [Value.get_hash, Option.some.injEq] at e <;>
      simp only [Value.is_atom, if_true, Bool.false_eq_true, if_false]
    all_goals first
      | exact e.symm
      | exact fold_value_hash_zero _ _ _ e
      | skip
    rename_i m
    cases hm : Map.elements pool m with
    | none => simp [hm] at e
    | some cells =>
      simp only [hm] at e
      exact fold_map_hash_zero _ _ _ e

/-- What `operator==` says when it returns true: the two values are of one
type, and values that hold no other values have equal content. -/
theorem equal_true_cases (lib : Library) (pool : PMapPool Value Value) (fuel : Nat)
    (a b : Value) (e : Value.equal lib pool fuel a b = some true) :
    a.is_atom = b.is_atom ∧ (a.is_atom = true → Value.equal_flat a b = true) := by
  cases fuel with
  | zero => simp [Value.equal] at e
  | succ fuel =>
    cases a <;> cases b <;>
      simp only [Value.equal, Option.some.injEq, Value.equal_flat, Bool.false_eq_true] at e <;>
      simp only [Value.is_atom, Value.equal_flat, true_and, Bool.false_eq_true, false_implies,
        and_self, implies_true] <;>
      try exact fun _ => e

theorem fold_value_hash_returns (hash : Value → Option Nat) :
    ∀ (l : List Value) (p : Nat), (∀ v ∈ l, ∃ h, hash v = some h) →
      ∃ h, fold_value_hash hash p l = some h := by
  intro l
  induction l with
  | nil => intro p _; exact ⟨p, rfl⟩
  | cons v rest ih =>
    intro p hall
    rcases hall v (List.mem_cons_self _ _) with ⟨h, hv⟩
    simp only [fold_value_hash, hv]
    exact ih _ (fun w hw => hall w (List.mem_cons_of_mem _ hw))

theorem depth_le_depth_list : ∀ (l : List Value) (v : Value), v ∈ l →
    Value.depth v ≤ Value.depth_list l := by
  intro l
  induction l with
  | nil => intro v h; cases h
  | cons x rest ih =>
    intro v h
    simp only [Value.depth_list]
    rcases List.mem_cons.mp h with rfl | h
    · exact le_max_left _ _
    · exact le_trans (ih v h) (le_max_right _ _)

theorem map_free_of_mem : ∀ (l : List Value) (v : Value), v ∈ l →
    Value.map_free_list l = true → Value.map_free v = true := by
  intro l
  induction l with
  | nil => intro v h; cases h
  | cons x rest ih =>
    intro v h hf
    simp only [Value.map_free_list, Bool.and_eq_true] at hf
    rcases List.mem_cons.mp h with rfl | h
    · exact hf.1
    · exact ih v h hf.2

/-- `get_hash` returns on every value without maps, given fuel beyond its
depth. -/
theorem get_hash_returns (lib : Library) (pool : PMapPool Value Value) :
    ∀ (fuel : Nat) (v : Value), Value.map_free v = true → Value.depth v < fuel →
      ∃ h, Value.get_hash lib pool fuel v = some h := by
  intro fuel
  induction fuel with
  | zero => intro v _ h; omega
  | succ fuel ih =>
    intro v hf hd
    cases v with
    | VECTOR x =>
      simp only [Value.get_hash]
      simp only [Value.map_free] at hf
      simp only [Value.depth] at hd
      exact fold_value_hash_returns _ _ _ (fun w hw =>
        ih w (map_free_of_mem x w hw hf) (by have := depth_le_depth_list x w hw; omega))
    | LIST x =>
      simp only [Value.get_hash]
      simp only [Value.map_free] at hf
      simp only [Value.depth] at hd
      exact fold_value_hash_returns _ _ _ (fun w hw =>
        ih w (map_free_of_mem x w hw hf) (by have := depth_le_depth_list x w hw; omega))
    | MAP m => simp [Value.map_free] at hf
    | NIL => exact ⟨_, rfl⟩
    | BOOLEAN b => exact ⟨_, rfl⟩
    | NUMBER n => exact ⟨_, rfl⟩
    | NUMBER_ARRAY a => exact ⟨_, rfl⟩
    | STRING s => exact ⟨_, rfl⟩
    | SYMBOL s => exact ⟨_, rfl⟩
    | OBJECT o => exact ⟨_, rfl⟩
    | FUNCTION f => exact ⟨_, rfl⟩

/-- C12: whenever `operator==` returns true for two values, of whatever kind,
the hashes `get_hash` returns for them are equal (floats compared as
`double`s and hashed by their bit pattern); and `get_hash` does return on every
value without maps when the fuel is beyond its depth. -/
theorem equal_values_hash_equal (lib : Library) (pool : PMapPool Value Value) (a b : Value)
    (fuel : Nat) (he : Value.equal lib pool fuel a b = some true) :
    (∀ fa fb ha hb, Value.get_hash lib pool fa a = some ha →
        Value.get_hash lib pool fb b = some hb → ha = hb) ∧
      (Value.map_free a = true → ∃ ha, Value.get_hash lib pool (Value.depth a + 1) a = some ha) ∧
      (Value.map_free b = true → ∃ hb, Value.get_hash lib pool (Value.depth b + 1) b = some hb) := by
  refine ⟨?_, fun h => get_hash_returns lib pool _ a h (Nat.lt_succ_self _),
    fun h => get_hash_returns lib pool _ b h (Nat.lt_succ_self _)⟩
  intro fa fb ha hb ea eb
  rcases equal_true_cases lib pool fuel a b he with ⟨hat, hflat⟩
  rw [get_hash_eq lib pool fa a ha ea, get_hash_eq lib pool fb b hb eb, ← hat]
  cases hatom : a.is_atom with
  | false => rfl
  | true =>
    simp only [if_true]
    exact equal_flat_hash lib (hflat hatom)

theorem equal_values_hash_equal_witness :
    Value.equal length_library { lists := [] } 3 hash_example_a hash_example_b = some true ∧
      ((∀ fa fb ha hb, Value.get_hash length_library { lists := [] } fa hash_example_a = some ha →
          Value.get_hash length_library { lists := [] } fb hash_example_b = some hb → ha = hb) ∧
        (Value.map_free hash_example_a = true →
          ∃ ha, Value.get_hash length_library { lists := [] } (Value.depth hash_example_a + 1)
            hash_example_a = some ha) ∧
        (Value.map_free hash_example_b = true →
          ∃ hb, Value.get_hash length_library { lists := [] } (Value.depth hash_example_b + 1)
            hash_example_b = some hb)) :=
  ⟨by rfl, equal_values_hash_equal length_library { lists := [] } hash_example_a hash_example_b 3
    (by rfl)⟩

end Orb

namespace Orb

/-! ## The rewriting of `defn` -/

/-- C17: when the loop of `recursive_parse` has read, for a parenthesised
form, the symbol `defn`, a name, a parameter form and at least one body form,
the parser produces for the form the list `(def NAME (fn PARAMS BODY...))`,
the body forms in their order. -/
theorem defn_rewritten (lib : Library) (fuel : Nat) (c rest : List Char)
    (name params b : Value) (body : List Value)
    (h : recursive_parse_loop lib fuel c [] false =
      some (.ok (make_value_symbol "defn" :: name :: params :: b :: body, false, rest))) :
    get_value lib (fuel + 2) ('(' :: c) =
      some (.ok (Value.LIST [make_value_symbol "def", name,
        Value.LIST (make_value_symbol "fn" :: params :: b :: body)], rest)) := by
  have hr : recursive_parse lib (fuel + 1) c =
      some (.ok ([make_value_symbol "def", name,
        Value.LIST (make_value_symbol "fn" :: params :: b :: body)], rest)) := by
    rw [recursive_parse, h]
    rfl
  have hd : deref ('(' :: c) = '(' := rfl
  rw [get_value, hd, if_neg (by decide), if_pos rfl]
  simp only [List.tail_cons, hr]
  rfl

theorem defn_rewritten_witness :
    recursive_parse_loop length_library 20 "defn sq (x) (* x x) x) 1".toList [] false =
        some (.ok (make_value_symbol "defn" :: make_value_symbol "sq" ::
          Value.LIST [make_value_symbol "x"] ::
          Value.LIST [make_value_symbol "*", make_value_symbol "x", make_value_symbol "x"] ::
          [make_value_symbol "x"], false, " 1".toList)) ∧
      get_value length_library 22 ('(' :: "defn sq (x) (* x x) x) 1".toList) =
        some (.ok (Value.LIST [make_value_symbol "def", make_value_symbol "sq",
          Value.LIST (make_value_symbol "fn" :: Value.LIST [make_value_symbol "x"] ::
            Value.LIST [make_value_symbol "*", make_value_symbol "x", make_value_symbol "x"] ::
            [make_value_symbol "x"])], " 1".toList)) :=
  ⟨by rfl, defn_rewritten length_library 20 _ _ _ _ _ _ (by rfl)⟩

end Orb

namespace Orb

/-! ## Sources the parser refuses, and the string that is not closed -/

theorem last_quote_none : ∀ (s : List Char), DQUOTE ∉ s → BACKSLASH ∉ s →
    last_quote_of_string s = [] := by
  intro s
  induction s with
  | nil => intro _ _; rfl
  | cons c rest ih =>
    intro hq hb
    rw [last_quote_cons_other c rest
      (fun (e : c = BACKSLASH) => hb (by rw [← e]; exact List.mem_cons_self _ _))
      (fun (e : c = DQUOTE) => hq (by rw [← e]; exact List.mem_cons_self _ _))]
    exact ih (fun h => hq (List.mem_cons_of_mem _ h)) (fun h => hb (List.mem_cons_of_mem _ h))

theorem format_string_plain : ∀ (s : List Char), BACKSLASH ∉ s →
    format_string_loop false s = s := by
  intro s
  induction s with
  | nil => intro _; rfl
  | cons c rest ih =>
    intro hb
    simp only [format_string_loop]
    rw [if_neg (fun (e : c = BACKSLASH) => hb (by rw [← e]; exact List.mem_cons_self _ _)),
      ih (fun h => hb (List.mem_cons_of_mem _ h))]

theorem check_scope_open_string (s : List Char) (hq : DQUOTE ∉ s) (hb : BACKSLASH ∉ s) :
    ∃ e, check_scope (DQUOTE :: s) [';'] SCOPE_START SCOPE_END = some e ∧
      e.result = ScopeResult.OK := by
  rcases check_scope_loop_spec (DQUOTE :: s).length ((DQUOTE :: s).length + 1) (DQUOTE :: s) 0 0 []
    (Nat.lt_succ_self _) with ⟨e, he, hiff⟩
  refine ⟨e, he, hiff.mpr ?_⟩
  have hm : mask_text .code (DQUOTE :: s) = [] := by
    simp only [mask_text, if_true]
    rw [mask_string s.length s (le_refl _), last_quote_none s hq hb]
    rfl
  rw [hm]
  rfl

theorem parse_open_string (lib : Library) (s : List Char) (hq : DQUOTE ∉ s)
    (hb : BACKSLASH ∉ s) (hdefn : s ≠ "defn".toList) (hdot : s ≠ ".".toList) :
    recursive_parse lib (3 * (DQUOTE :: s).length + 3) (DQUOTE :: s) =
      some (.ok ([Value.STRING s], [])) := by
  have hd : deref (DQUOTE :: s) = DQUOTE := rfl
  have hf : 3 * (DQUOTE :: s).length + 3 = (3 * s.length + 2) + 1 + 1 + 1 + 1 := by
    simp only [List.length_cons]; omega
  rw [hf, recursive_parse, recursive_parse_loop]
  simp only [List.isEmpty_cons, Bool.false_eq_true, if_false, hd]
  rw [if_neg (by decide), if_neg (by decide), if_neg (by decide), if_neg (by decide)]
  rw [get_value, hd, if_pos rfl]
  simp only [List.tail_cons, last_quote_none s hq hb, List.length_nil, Nat.sub_zero,
    List.take_length, format_string, format_string_plain s hb, List.tail_nil, Outcome.bind,
    Bool.false_eq_true, if_false]
  rw [recursive_parse_loop]
  simp only [List.isEmpty_nil, if_true, List.nil_append, recursive_parse_finish, Value.is_str,
    beq_iff_eq, hdefn, hdot, Bool.false_eq_true, if_false]

/-- C15: a source that is a `"` and a text without another `"` and without a
backslash, a string that is not closed, is read as that string: the result of
`string_to_value` is the valid value `(begin "...")` (the texts `defn` and
`.` apart, which the parser takes for the head of a form to rewrite).  A source whose scopes do
not match gives the failure with the report of `check_scope`, and a quote that
no form follows gives the failure `Quote cannot be empty.`. -/
theorem open_string_is_read (lib : Library) (s : List Char) (hq : DQUOTE ∉ s)
    (hb : BACKSLASH ∉ s) (hdefn : s ≠ "defn".toList) (hdot : s ≠ ".".toList) :
    string_to_value lib (DQUOTE :: s) =
        some (.ok (Value.LIST [make_value_symbol "begin", Value.STRING s])) ∧
      (∀ str e, check_scope str [';'] SCOPE_START SCOPE_END = some e →
        e.result ≠ ScopeResult.OK → string_to_value lib str = some (orb_fail e.report)) ∧
      (∀ fuel c build_list rest,
        recursive_parse_loop lib fuel c [] false = some (.ok (build_list, true, rest)) →
        recursive_parse lib (fuel + 1) c = some (.error "Quote cannot be empty.".toList)) ∧
      string_to_value lib [SQUOTE] = some (orb_fail "Quote cannot be empty.".toList) ∧
      string_to_value lib ['(', SQUOTE, ')'] = some (orb_fail "Quote cannot be empty.".toList) := by
  refine ⟨?_, ?_, ?_, by rfl, by rfl⟩
  · rcases check_scope_open_string s hq hb with ⟨e, he, hok⟩
    have hs : e.success = true := by
      simp only [ScopeError.success, hok, beq_self_eq_true]
    simp only [string_to_value, ValueParser.parse, he, hs, Bool.not_true, Bool.false_eq_true,
      if_false, parse_open_string lib s hq hb hdefn hdot]
  · intro str e he hne
    simp only [string_to_value, ValueParser.parse, he]
    have : e.success = false := by
      simp only [ScopeError.success, beq_eq_false_iff_ne, ne_eq]
      exact hne
    simp only [this, Bool.not_false, if_true]
  · intro fuel c build_list rest h
    rw [recursive_parse, h]
    rfl

theorem open_string_is_read_witness :
    DQUOTE ∉ "abc".toList ∧ BACKSLASH ∉ "abc".toList ∧
      string_to_value length_library (DQUOTE :: "abc".toList) =
        some (.ok (Value.LIST [make_value_symbol "begin", Value.STRING "abc".toList])) ∧
      string_to_value length_library "(a".toList =
        some (orb_fail "Scope (at character 0 at line 0 not closed.".toList) :=
  ⟨by decide, by decide,
    (open_string_is_read length_library "abc".toList (by decide) (by decide) (by decide)
      (by decide)).1,
    (open_string_is_read length_library "abc".toList (by decide) (by decide) (by decide)
      (by decide)).2.1 "(a".toList (ScopeError.mk ScopeResult.SCOPE_LEFT_OPEN 0 '(' 0) (by rfl)
      (by decide)⟩

/-- C15: the source `"abc`, a string literal that is never closed, passes the
scope check and `string_to_value` returns a valid value for it. -/
theorem open_string_valid :
    check_scope (DQUOTE :: "abc".toList) [';'] SCOPE_START SCOPE_END = some ScopeError.ok ∧
      last_quote_of_string "abc".toList = [] ∧
      (string_to_value length_library (DQUOTE :: "abc".toList)).map orb_result.valid =
        some true := by
  refine ⟨by rfl, by rfl, by rfl⟩

end Orb

/-! ## The decimal text of an integer is read back -/

theorem digitChar_facts (d : Nat) (h : d < 10) :
    is_digit (Nat.digitChar d) = true ∧ (Nat.digitChar d).toNat - 48 = d ∧
      (Nat.digitChar d = '0' → d = 0) ∧ Nat.digitChar d ≠ NUL ∧
      is_space (Nat.digitChar d) = false ∧ is_delimiter (Nat.digitChar d) = false ∧
      Nat.digitChar d ≠ '-' ∧ Nat.digitChar d ≠ '+' ∧ Nat.digitChar d ≠ ';' ∧
      Nat.digitChar d ≠ DQUOTE ∧ Nat.digitChar d ∉ SCOPE_START ∧ Nat.digitChar d ∉ SCOPE_END := by
  interval_cases d <;> decide

theorem digit_value_of_digit (c : Char) (h : is_digit c = true) :
    digit_value 10 c = some (c.toNat - 48) := by
  have h' := h
  simp only [is_digit, Bool.and_eq_true, decide_eq_true_eq] at h'
  have hlt : c.toNat - 48 < 10 := by omega
  simp only [digit_value, h, if_true, hlt]

theorem digits_value_shift : ∀ (l : List Char) (a : Nat), l.all is_digit = true →
    digits_value 10 l a = a * 10 ^ l.length + digits_value 10 l 0 := by
  intro l
  induction l with
  | nil => intro a _; simp [digits_value]
  | cons c rest ih =>
    intro a h
    simp only [List.all_cons, Bool.and_eq_true] at h
    simp only [digits_value, digit_value_of_digit c h.1, List.length_cons]
    rw [ih _ h.2, ih (0 * 10 + (c.toNat - 48)) h.2]
    ring

theorem toDigitsCore_spec : ∀ (fuel n : Nat) (acc : List Char), n < fuel →
    acc.all is_digit = true →
    (Nat.toDigitsCore 10 fuel n acc).all is_digit = true ∧
      digits_value 10 (Nat.toDigitsCore 10 fuel n acc) 0 =
        n * 10 ^ acc.length + digits_value 10 acc 0 ∧
      (0 < n → ∃ d rest, Nat.toDigitsCore 10 fuel n acc = d :: rest ∧ d ≠ '0') := by
  intro fuel
  induction fuel with
  | zero => intro n acc h; omega
  | succ fuel ih =>
    intro n acc hn hacc
    have hd := digitChar_facts (n % 10) (Nat.mod_lt _ (by decide))
    have hall : (Nat.digitChar (n % 10) :: acc).all is_digit = true := by
      simp only [List.all_cons, hd.1, hacc, Bool.and_self]
    simp only [Nat.toDigitsCore]
    by_cases h0 : n / 10 = 0
    · simp only [h0, if_true]
      have hlt : n < 10 := by omega
      have hmod : n % 10 = n := Nat.mod_eq_of_lt hlt
      refine ⟨hall, ?_, ?_⟩
      · simp only [digits_value, digit_value_of_digit _ hd.1, hd.2.1]
        rw [digits_value_shift acc _ hacc, hmod]
        ring
      · intro hpos
        exact ⟨_, _, rfl, fun e => by have := hd.2.2.1 e; omega⟩
    · simp only [h0, if_false]
      have hlt : n / 10 < fuel := by omega
      rcases ih (n / 10) _ hlt hall with ⟨h1, h2, h3⟩
      refine ⟨h1, ?_, fun _ => h3 (Nat.pos_of_ne_zero h0)⟩
      rw [h2]
      simp only [digits_value, digit_value_of_digit _ hd.1, hd.2.1, List.length_cons]
      rw [digits_value_shift acc _ hacc]
      have := Nat.div_add_mod n 10
      calc n / 10 * 10 ^ (acc.length + 1) + ((0 * 10 + n % 10) * 10 ^ acc.length +
            digits_value 10 acc 0)
          = (10 * (n / 10) + n % 10) * 10 ^ acc.length + digits_value 10 acc 0 := by ring
        _ = n * 10 ^ acc.length + digits_value 10 acc 0 := by rw [this]

/-- The decimal digits of a natural number: digits only, read back as the
number, and without a leading zero when the number is not 0. -/
theorem toDigits_spec (n : Nat) :
    (Nat.toDigits 10 n).all is_digit = true ∧ digits_value 10 (Nat.toDigits 10 n) 0 = n ∧
      (0 < n → ∃ d rest, Nat.toDigits 10 n = d :: rest ∧ d ≠ '0') := by
  rcases toDigitsCore_spec (n + 1) n [] (Nat.lt_succ_self _) rfl with ⟨h1, h2, h3⟩
  refine ⟨h1, ?_, h3⟩
  rw [Nat.toDigits, h2]
  simp [digits_value]

/-! ## Texts without strings, comments and scopes -/

theorem digit_plain (c : Char) (h : is_digit c = true) :
    is_space c = false ∧ is_delimiter c = false ∧ c ≠ NUL ∧ c ≠ DQUOTE ∧ c ≠ ';' ∧
      c ≠ SQUOTE ∧ c ∉ SCOPE_START ∧ c ∉ SCOPE_END ∧ c ≠ '-' ∧ c ≠ '+' := by
  have hc : Char.ofNat c.toNat = c := Char.ofNat_toNat c
  simp only [is_digit, Bool.and_eq_true, decide_eq_true_eq] at h
  generalize c.toNat = k at hc h
  subst hc
  rcases h with ⟨h1, h2⟩
  interval_cases k <;> decide

theorem mask_text_plain : ∀ (t : List Char), (∀ c ∈ t, c ≠ ';' ∧ c ≠ DQUOTE) →
    mask_text .code t = t := by
  intro t
  induction t with
  | nil => intro _; rfl
  | cons c rest ih =>
    intro h
    simp only [mask_text]
    rw [if_neg (h c (List.mem_cons_self _ _)).1, if_neg (h c (List.mem_cons_self _ _)).2,
      ih (fun x hx => h x (List.mem_cons_of_mem _ hx))]

theorem balanced_plain : ∀ (t : List Char), (∀ c ∈ t, c ∉ SCOPE_START ∧ c ∉ SCOPE_END) →
    Balanced t := by
  intro t
  induction t with
  | nil => intro _; exact Balanced.nil
  | cons c rest ih =>
    intro h
    exact Balanced.plain c rest (h c (List.mem_cons_self _ _)).1 (h c (List.mem_cons_self _ _)).2
      (ih (fun x hx => h x (List.mem_cons_of_mem _ hx)))

/-- The scope check passes a text whose masked text is balanced. -/
theorem check_scope_success (t : List Char) (h : Balanced (mask_text .code t)) :
    ∃ e, check_scope t [';'] SCOPE_START SCOPE_END = some e ∧ e.success = true := by
  rcases check_scope_loop_spec t.length (t.length + 1) t 0 0 [] (Nat.lt_succ_self _) with
    ⟨e, he, hiff⟩
  refine ⟨e, he, ?_⟩
  have hok : e.result = ScopeResult.OK := hiff.mpr ((scope_walk_iff _).mpr h)
  simp only [ScopeError.success, hok, beq_self_eq_true]

namespace Orb

theorem token_end_plain : ∀ (l : List Char),
    (∀ c ∈ l, is_space c = false ∧ is_delimiter c = false ∧ c ≠ NUL) → token_end l = [] := by
  intro l
  induction l with
  | nil => intro _; rfl
  | cons c rest ih =>
    intro h
    rcases h c (List.mem_cons_self _ _) with ⟨h1, h2, h3⟩
    simp only [token_end, h1, h2, Bool.not_false, Bool.and_self, ne_eq, h3, not_false_eq_true,
      decide_True, if_true]
    exact ih (fun x hx => h x (List.mem_cons_of_mem _ hx))

theorem token_end_digits (l : List Char) (h : l.all is_digit = true) : token_end l = [] := by
  apply token_end_plain
  intro c hc
  have := digit_plain c (List.all_eq_true.mp h c hc)
  exact ⟨this.1, this.2.1, this.2.2.1⟩

/-- `parse_number` reads the digits of a positive number. -/
theorem parse_number_digits (lib : Library) (n : Nat) (hn : 0 < n) (hlt : n < 2147483648) :
    parse_number lib (Nat.toDigits 10 n) = some (Number.INT n, []) := by
  rcases toDigits_spec n with ⟨hall, hval, hhead⟩
  rcases hhead hn with ⟨d, rest, ht, hd0⟩
  rw [ht] at hall hval ⊢
  simp only [List.all_cons, Bool.and_eq_true] at hall
  have hdp := digit_plain d hall.1
  have hd : deref (d :: rest) = d := rfl
  have hns : ¬ (d = '-' ∨ d = '+') := fun h =>
    h.elim hdp.2.2.2.2.2.2.2.2.1 hdp.2.2.2.2.2.2.2.2.2
  have hs : drop_sign (d :: rest) = d :: rest := by
    simp only [drop_sign]
    rw [if_neg hns]
  have hreg : g_regint (d :: rest) = some [d :: rest, d :: rest, [], [], []] := by
    unfold g_regint
    split
    · rename_i heq
      simp only [List.cons.injEq] at heq
      exact absurd heq.1 hd0
    · rename_i heq
      simp only [List.cons.injEq] at heq
      exact absurd heq.1 hd0
    · simp only [hs, hall.1, hall.2, ne_eq, hd0, not_false_eq_true, and_self, if_true]
  have hatoi : atoi (d :: rest) = (n : Int) := by
    simp only [atoi, List.head?_cons, Option.some.injEq]
    rw [show decide (d = '-') = false from by simp [hdp.2.2.2.2.2.2.2.2.1]]
    simp only [Bool.false_eq_true, if_false, hs, hval]
  have hpn : parsenum lib.atof (d :: rest) = ParseResult.PARSE_INT n := by
    have hti : to_int (n : Int) = (n : Int) := by
      unfold to_int
      omega
    simp only [parsenum, hreg, List.getD_cons_zero, List.head?_cons, Option.some.injEq, hd0,
      if_false, hatoi, hti]
  simp only [parse_number, hd, hall.1, Bool.true_or, if_true, List.tail_cons,
    token_end_digits rest hall.2, List.length_nil, Nat.sub_zero, List.take_length, hpn]

/-- `parse_number` reads the text of a negative number. -/
theorem parse_number_negative (lib : Library) (m : Nat) (hm : 0 < m) (hle : m ≤ 2147483648) :
    parse_number lib ('-' :: Nat.toDigits 10 m) = some (Number.INT (-(m : Int)), []) := by
  rcases toDigits_spec m with ⟨hall, hval, hhead⟩
  rcases hhead hm with ⟨d, rest, ht, hd0⟩
  rw [ht] at hall hval ⊢
  have hall' := hall
  simp only [List.all_cons, Bool.and_eq_true] at hall'
  have hd : deref ('-' :: d :: rest) = '-' := rfl
  have hs : drop_sign ('-' :: d :: rest) = d :: rest := by
    simp only [drop_sign, true_or, if_true]
  have hreg : g_regint ('-' :: d :: rest) =
      some ['-' :: d :: rest, '-' :: d :: rest, [], [], []] := by
    unfold g_regint
    split
    · rename_i heq
      simp only [List.cons.injEq] at heq
      exact absurd heq.1 (by decide)
    · rename_i heq
      simp only [List.cons.injEq] at heq
      exact absurd heq.1 (by decide)
    · simp only [hs, hall'.1, hall'.2, ne_eq, hd0, not_false_eq_true, and_self, if_true]
  have hatoi : atoi ('-' :: d :: rest) = -(m : Int) := by
    simp only [atoi, List.head?_cons, decide_True, if_true, hs, hval]
  have hti : to_int (-(m : Int)) = -(m : Int) := by
    unfold to_int
    omega
  have hpn : parsenum lib.atof ('-' :: d :: rest) = ParseResult.PARSE_INT (-(m : Int)) := by
    simp only [parsenum, hreg, List.getD_cons_zero, List.head?_cons, Option.some.injEq,
      hatoi, hti]
    rw [if_neg (by decide)]
  have hdig : is_digit '-' = false := by decide
  simp only [parse_number, hd, hdig, Bool.false_or, List.tail_cons,
    token_end_digits (d :: rest) hall, List.length_nil, Nat.sub_zero, List.take_length, hpn,
    List.length_cons, List.getD_cons_succ, List.getD_cons_zero, hall'.1]
  simp [hpn]

/-- The text of an `int` is read back by `parse_number` as that `int`. -/
theorem parse_number_int (lib : Library) (i : Int) (hlo : -2147483648 ≤ i)
    (hhi : i < 2147483648) :
    parse_number lib (int_to_string i) = some (Number.INT i, []) := by
  unfold int_to_string
  by_cases hneg : i < 0
  · rw [if_pos hneg]
    have := parse_number_negative lib i.natAbs (by omega) (by omega)
    rw [this]
    congr 3
    omega
  · rw [if_neg hneg]
    by_cases h0 : i = 0
    · subst h0
      rfl
    · have := parse_number_digits lib i.natAbs (by omega) (by omega)
      rw [this]
      congr 3
      omega

/-- The first character and the characters of the text of an `int`. -/
theorem int_to_string_chars (i : Int) :
    ∃ x l, int_to_string i = x :: l ∧ (x = '-' ∨ is_digit x = true) ∧
      l.all is_digit = true := by
  rcases toDigits_spec i.natAbs with ⟨hall, _, _⟩
  have hne : ∃ d rest, Nat.toDigits 10 i.natAbs = d :: rest := by
    cases h : Nat.toDigits 10 i.natAbs with
    | nil =>
      have : (Nat.toDigits 10 i.natAbs).length = 0 := by rw [h]; rfl
      by_cases h0 : i.natAbs = 0
      · rw [h0] at h; cases h
      · rcases (toDigits_spec i.natAbs).2.2 (Nat.pos_of_ne_zero h0) with ⟨d, rest, hd, _⟩
        rw [hd] at h; cases h
    | cons d rest => exact ⟨d, rest, rfl⟩
  rcases hne with ⟨d, rest, hd⟩
  unfold int_to_string
  by_cases hneg : i < 0
  · rw [if_pos hneg]
    exact ⟨'-', _, rfl, Or.inl rfl, hall⟩
  · rw [if_neg hneg, hd]
    rw [hd] at hall
    simp only [List.all_cons, Bool.and_eq_true] at hall
    exact ⟨d, rest, rfl, Or.inr hall.1, hall.2⟩

end Orb

namespace Orb

/-! ## Printing a value and reading the text -/

/-- A text that holds one form: the loop of `recursive_parse` reads it and
the list is that form. -/
theorem recursive_parse_single (lib : Library) (f : Nat) (x : Char) (l : List Char) (v : Value)
    (h1 : x ≠ ';') (h2 : ¬ (x = ')' ∨ x = ']' ∨ x = Char.ofNat 125)) (h3 : is_space x = false)
    (h4 : x ≠ SQUOTE) (hg : get_value lib (f + 1) (x :: l) = some (.ok (v, [])))
    (hdefn : v.is_str "defn" = false) (hdot : v.is_str "." = false) :
    recursive_parse lib (f + 3) (x :: l) = some (.ok ([v], [])) := by
  have hd : deref (x :: l) = x := rfl
  rw [recursive_parse, recursive_parse_loop]
  simp only [List.isEmpty_cons, Bool.false_eq_true, if_false, hd, h1, h2, h3, h4, hg,
    Outcome.bind, List.nil_append]
  rw [recursive_parse_loop]
  simp only [List.isEmpty_nil, if_true, recursive_parse_finish, Bool.false_eq_true, if_false,
    hdefn, hdot]

/-- A text that passes the scope check and holds one form is parsed to
`(begin form)`. -/
theorem string_to_value_single (lib : Library) (x : Char) (l : List Char) (v : Value)
    (hb : Balanced (mask_text .code (x :: l)))
    (h1 : x ≠ ';') (h2 : ¬ (x = ')' ∨ x = ']' ∨ x = Char.ofNat 125)) (h3 : is_space x = false)
    (h4 : x ≠ SQUOTE)
    (hg : ∀ f, get_value lib (f + 1) (x :: l) = some (.ok (v, [])))
    (hdefn : v.is_str "defn" = false) (hdot : v.is_str "." = false) :
    string_to_value lib (x :: l) = some (.ok (Value.LIST [make_value_symbol "begin", v])) := by
  rcases check_scope_success (x :: l) hb with ⟨e, he, hs⟩
  have hf : 3 * (x :: l).length + 3 = (3 * l.length + 3) + 3 := by
    simp only [List.length_cons]; omega
  simp only [string_to_value, ValueParser.parse, he, hs, Bool.not_true, Bool.false_eq_true,
    if_false, hf, recursive_parse_single lib _ x l v h1 h2 h3 h4 (hg _) hdefn hdot]

theorem get_value_number (lib : Library) (f : Nat) (x : Char) (l : List Char) (n : Number)
    (rest : List Char) (hx : x = '-' ∨ is_digit x = true)
    (hp : parse_number lib (x :: l) = some (n, rest)) :
    get_value lib (f + 1) (x :: l) = some (.ok (Value.NUMBER n, rest)) := by
  have hd : deref (x :: l) = x := rfl
  have hne : x ≠ DQUOTE ∧ x ≠ '(' ∧ x ≠ '[' ∧ x ≠ Char.ofNat 123 := by
    rcases hx with rfl | hx
    · decide
    · have := digit_plain x hx
      refine ⟨this.2.2.2.1, ?_, ?_, ?_⟩
      · intro e; exact this.2.2.2.2.2.2.1 (by rw [e]; decide)
      · intro e; exact this.2.2.2.2.2.2.1 (by rw [e]; decide)
      · intro e; exact this.2.2.2.2.2.2.1 (by rw [e]; decide)
  rw [get_value]
  simp only [hd, hne.1, hne.2.1, hne.2.2.1, hne.2.2.2, if_false, hp]

theorem last_quote_closed : ∀ (s rest : List Char), DQUOTE ∉ s → BACKSLASH ∉ s →
    last_quote_of_string (s ++ DQUOTE :: rest) = DQUOTE :: rest := by
  intro s
  induction s with
  | nil => intro rest _ _; exact last_quote_cons_quote rest
  | cons c t ih =>
    intro rest hq hb
    rw [List.cons_append, last_quote_cons_other c _
      (fun (e : c = BACKSLASH) => hb (by rw [← e]; exact List.mem_cons_self _ _))
      (fun (e : c = DQUOTE) => hq (by rw [← e]; exact List.mem_cons_self _ _))]
    exact ih rest (fun h => hq (List.mem_cons_of_mem _ h)) (fun h => hb (List.mem_cons_of_mem _ h))

theorem get_value_string (lib : Library) (f : Nat) (s rest : List Char) (hq : DQUOTE ∉ s)
    (hb : BACKSLASH ∉ s) :
    get_value lib (f + 1) (DQUOTE :: (s ++ DQUOTE :: rest)) =
      some (.ok (Value.STRING s, rest)) := by
  have hd : deref (DQUOTE :: (s ++ DQUOTE :: rest)) = DQUOTE := rfl
  rw [get_value, hd, if_pos rfl]
  simp only [List.tail_cons, last_quote_closed s rest hq hb, List.length_append,
    List.length_cons, format_string]
  rw [show s.length + (rest.length + 1) - (rest.length + 1) = s.length from by omega,
    List.take_left' rfl, format_string_plain s hb]

/-- C13: for nil, a boolean, an `int` and a string without `"` and backslash
(other than the texts `defn` and `.`), `value_to_string` returns a text that
`string_to_value` parses to the valid value `(begin v)`: the value comes back
as the one form of a `begin` list. -/
theorem print_parse_plain (lib : Library) (pool : PMapPool Value Value) (v : Value)
    (h : v.plain) :
    ∃ text, value_to_string lib pool 1 v = some text ∧
      string_to_value lib text = some (.ok (Value.LIST [make_value_symbol "begin", v])) := by
  cases v with
  | NIL => exact ⟨_, rfl, rfl⟩
  | BOOLEAN b => cases b <;> exact ⟨_, rfl, rfl⟩
  | NUMBER n =>
    cases n with
    | FLOAT d => exact absurd h (by simp [Value.plain])
    | INT i =>
      simp only [Value.plain] at h
      refine ⟨int_to_string i, rfl, ?_⟩
      rcases int_to_string_chars i with ⟨x, l, hxl, hx, hl⟩
      have hp := parse_number_int lib i h.1 h.2
      rw [hxl] at hp ⊢
      have hplain : ∀ c ∈ x :: l, c ≠ ';' ∧ c ≠ DQUOTE ∧ c ∉ SCOPE_START ∧ c ∉ SCOPE_END ∧
          ¬ (c = ')' ∨ c = ']' ∨ c = Char.ofNat 125) ∧ is_space c = false ∧ c ≠ SQUOTE := by
        intro c hc
        have hcd : c = '-' ∨ is_digit c = true := by
          rcases List.mem_cons.mp hc with rfl | hc
          · exact hx
          · exact Or.inr (List.all_eq_true.mp hl c hc)
        rcases hcd with rfl | hcd
        · decide
        · have := digit_plain c hcd
          refine ⟨this.2.2.2.2.1, this.2.2.2.1, this.2.2.2.2.2.2.1, this.2.2.2.2.2.2.2.1, ?_,
            this.1, this.2.2.2.2.2.1⟩
          intro e
          rcases e with e | e | e
          · exact this.2.2.2.2.2.2.2.1 (by rw [e]; decide)
          · exact this.2.2.2.2.2.2.2.1 (by rw [e]; decide)
          · exact this.2.2.2.2.2.2.2.1 (by rw [e]; decide)
      have hxp := hplain x (List.mem_cons_self _ _)
      refine string_to_value_single lib x l _ ?_ hxp.1 hxp.2.2.2.2.1 hxp.2.2.2.2.2.1
        hxp.2.2.2.2.2.2 (fun f => get_value_number lib f x l _ _ hx hp) rfl rfl
      rw [mask_text_plain _ (fun c hc => ⟨(hplain c hc).1, (hplain c hc).2.1⟩)]
      exact balanced_plain _ (fun c hc => ⟨(hplain c hc).2.2.1, (hplain c hc).2.2.2.1⟩)
  | STRING s =>
    simp only [Value.plain] at h
    refine ⟨DQUOTE :: (s ++ [DQUOTE]), rfl, ?_⟩
    refine string_to_value_single lib DQUOTE _ _ ?_ (by decide) (by decide) (by decide)
      (by decide) (fun f => get_value_string lib f s [] h.1 h.2.1) ?_ ?_
    · have hm : mask_text .code (DQUOTE :: (s ++ [DQUOTE])) = [] := by
        simp only [mask_text, if_true]
        rw [mask_string _ _ (le_refl _), last_quote_closed s [] h.1 h.2.1]
        rfl
      rw [hm]
      exact Balanced.nil
    · simp only [Value.is_str, beq_eq_false_iff_ne, ne_eq]
      exact h.2.2.1
    · simp only [Value.is_str, beq_eq_false_iff_ne, ne_eq]
      exact h.2.2.2
  | NUMBER_ARRAY a => exact absurd h (by simp [Value.plain])
  | SYMBOL s => exact absurd h (by simp [Value.plain])
  | VECTOR l => exact absurd h (by simp [Value.plain])
  | LIST l => exact absurd h (by simp [Value.plain])
  | MAP m => exact absurd h (by simp [Value.plain])
  | OBJECT o => exact absurd h (by simp [Value.plain])
  | FUNCTION f => exact absurd h (by simp [Value.plain])

theorem print_parse_plain_witness :
    (Value.NUMBER (Number.INT (-12))).plain ∧
      ∃ text, value_to_string length_library { lists := [] } 1 (Value.NUMBER (Number.INT (-12))) =
          some text ∧
        string_to_value length_library text =
          some (.ok (Value.LIST [make_value_symbol "begin", Value.NUMBER (Number.INT (-12))])) :=
  ⟨by simp [Value.plain], print_parse_plain length_library { lists := [] } _
    (by simp [Value.plain])⟩

/-- C13: the integer 1 is printed as `1`, which is parsed to the list
`(begin 1)`, not to 1; the string `a"b` is printed with its quote as it is
and comes back as the forms `"a"` and `b"`; the vector `[1]` is printed as
`[1 ]` and comes back as the list `(make-vector 1)`. -/
theorem print_parse_differs :
    value_to_string length_library { lists := [] } 2 (Value.NUMBER (Number.INT 1)) =
        some ['1'] ∧
      string_to_value length_library ['1'] =
        some (.ok (Value.LIST [make_value_symbol "begin", Value.NUMBER (Number.INT 1)])) ∧
      Value.equal length_library { lists := [] } 3
        (Value.LIST [make_value_symbol "begin", Value.NUMBER (Number.INT 1)])
        (Value.NUMBER (Number.INT 1)) = some false ∧
      value_to_string length_library { lists := [] } 2 (Value.STRING ['a', DQUOTE, 'b']) =
        some [DQUOTE, 'a', DQUOTE, 'b', DQUOTE] ∧
      string_to_value length_library [DQUOTE, 'a', DQUOTE, 'b', DQUOTE] =
        some (.ok (Value.LIST [make_value_symbol "begin", Value.STRING ['a'],
          Value.SYMBOL ['b', DQUOTE]])) ∧
      value_to_string length_library { lists := [] } 2
        (Value.VECTOR [Value.NUMBER (Number.INT 1)]) = some "[1 ]".toList ∧
      string_to_value length_library "[1 ]".toList =
        some (.ok (Value.LIST [make_value_symbol "begin",
          Value.LIST [make_value_symbol "make-vector", Value.NUMBER (Number.INT 1)]])) := by
  refine ⟨by rfl, by rfl, by rfl, by rfl, by rfl, by rfl, by rfl⟩

end Orb

namespace Orb

/-! ## `cond` -/

/-- C19: a `cond` form is evaluated by evaluating the nested `if` that
`expand_clauses` builds from its clauses: a clause `(pred action...)` before
other clauses gives `(if pred seq rest)`, with `seq` the actions as one
expression and `rest` the expansion of the clauses after it; a last clause
`(else action...)` gives its actions; an `else` clause before other clauses
and a last clause that is no `else` clause are exceptions, which `read_eval`
returns as failures.  An `if` form evaluates its predicate and then its second
or its third operand.  `(cond (false 1) (else 2))` evaluates to 2. -/
theorem cond_is_nested_if (lib : Library) (orb : Env) (env : Map Value Value) (fuel : Nat) :
    (∀ clauses, eval lib (fuel + 1) (Value.LIST (make_value_symbol "cond" :: clauses)) env orb =
      (expand_clauses lib orb fuel clauses).bind fun c => eval lib fuel c env orb) ∧
    (∀ pred actions r rest, symbol_value_is pred "else" = false →
      expand_clauses lib orb fuel (Value.LIST (pred :: actions) :: r :: rest) =
        (expand_clauses lib orb fuel (r :: rest)).bind fun c =>
          some (.ok (Value.LIST [make_value_symbol "if", pred, sequence_exp actions, c]))) ∧
    (∀ actions, expand_clauses lib orb fuel [Value.LIST (make_value_symbol "else" :: actions)] =
      some (.ok (sequence_exp actions))) ∧
    (∀ actions r rest,
      expand_clauses lib orb fuel (Value.LIST (make_value_symbol "else" :: actions) :: r :: rest) =
        some (.error "expand_clauses: ELSE clause isn't last - COND->iF".toList)) ∧
    (∀ pred actions, symbol_value_is pred "else" = false →
      expand_clauses lib orb fuel [Value.LIST (pred :: actions)] =
        some (.error ("expand_clauses: Final case in cond is not an else case. Cond " ++
          "expression requires for else case to be final expression: " ++
          "(cond (... ...) (else ...)).").toList)) ∧
    (∀ pred seq clauses,
      eval lib (fuel + 1) (Value.LIST [make_value_symbol "if", pred, seq, clauses]) env orb =
        (eval lib fuel pred env orb).bind fun p =>
          if is_true p.1 then
            (if is_self_evaluating seq then some (.ok (seq, p.2.1, p.2.2))
              else eval lib fuel seq p.2.1 p.2.2)
          else
            (if is_self_evaluating clauses then some (.ok (clauses, p.2.1, p.2.2))
              else eval lib fuel clauses p.2.1 p.2.2)) ∧
    read_eval lib (fuel + 5) orb "(cond (false 1) (else 2))".toList =
      some (.ok (Value.NUMBER (Number.INT 2)), some orb) ∧
    read_eval lib (fuel + 5) orb "(cond (else 1) (true 2))".toList =
      some (orb_fail "expand_clauses: ELSE clause isn't last - COND->iF".toList, none) ∧
    read_eval lib (fuel + 5) orb "(cond (false 1))".toList =
      some (orb_fail ("expand_clauses: Final case in cond is not an else case. Cond " ++
          "expression requires for else case to be final expression: " ++
          "(cond (... ...) (else ...)).").toList, none) := by
  refine ⟨?_, ?_, ?_, ?_, ?_, ?_, ?_, ?_, ?_⟩
  · intro clauses
    rfl
  · intro pred actions r rest hp
    simp only [expand_clauses, is_else, is_tagged_list, value_list_first, value_list, hp,
      Bool.false_eq_true, if_false, Value.type, ne_eq, not_true_eq_false, List.isEmpty_cons,
      Option.getD_some, List.tail_cons]
  · intro actions
    rfl
  · intro actions r rest
    rfl
  · intro pred actions hp
    simp only [expand_clauses, is_else, is_tagged_list, value_list_first, value_list, hp,
      Bool.false_eq_true, if_false, Value.type, ne_eq, not_true_eq_false, List.isEmpty_nil,
      if_true]
    rfl
  · intro pred seq clauses
    rfl
  · rfl
  · rfl
  · rfl

theorem cond_is_nested_if_witness :
    symbol_value_is (Value.BOOLEAN false) "else" = false ∧
      expand_clauses length_library (Env.mk { lists := [] } PMapPool.new_map []) 0
          [Value.LIST [Value.BOOLEAN false, Value.NUMBER (Number.INT 1)],
            Value.LIST [make_value_symbol "else", Value.NUMBER (Number.INT 2)]] =
        some (.ok (Value.LIST [make_value_symbol "if", Value.BOOLEAN false,
          Value.NUMBER (Number.INT 1), Value.NUMBER (Number.INT 2)])) :=
  ⟨by rfl,
    ((cond_is_nested_if length_library (Env.mk { lists := [] } PMapPool.new_map [])
      PMapPool.new_map 0).2.1 (Value.BOOLEAN false) [Value.NUMBER (Number.INT 1)]
      (Value.LIST [make_value_symbol "else", Value.NUMBER (Number.INT 2)]) [] (by rfl)).trans
      (by rfl)⟩

end Orb

/-! ## Two comparators that agree on the keys of a map -/

theorem collision_scan_agree {c1 c2 : K → K → Bool} {key : K} {hash : Nat} :
    ∀ (l : List (KeyValue K V)), (∀ x ∈ l, c1 key x.first = c2 key x.first) →
      collision_scan c1 key hash l = collision_scan c2 key hash l := by
  intro l
  induction l with
  | nil => intro _; rfl
  | cons x rest ih =>
    intro h
    simp only [collision_scan, keyvalue_match_get, h x (List.mem_cons_self _ _)]
    rw [ih (fun y hy => h y (List.mem_cons_of_mem _ hy))]

theorem collision_find_agree {c1 c2 : K → K → Bool} {key : K} {hash : Nat} :
    ∀ (l : List (KeyValue K V)), (∀ x ∈ l, c1 key x.first = c2 key x.first) →
      collision_find c1 key hash l = collision_find c2 key hash l := by
  intro l
  induction l with
  | nil => intro _; rfl
  | cons x rest ih =>
    intro h
    simp only [collision_find, keyvalue_match_get, h x (List.mem_cons_self _ _)]
    rw [ih (fun y hy => h y (List.mem_cons_of_mem _ hy))]

theorem node_match_get_agree {c1 c2 : K → K → Bool} {pool : PMapPool K V} {n : Node K V}
    {key : K} {hash : Nat} (h : ∀ x ∈ n.values pool, c1 key x.first = c2 key x.first) :
    node_match_get c1 pool n key hash = node_match_get c2 pool n key hash := by
  cases n with
  | mk u cs t v =>
    cases t <;> cases v <;>
      simp only [node_match_get, Node.type, Node.value, Node.values] at h ⊢
    · simp only [keyvalue_match_get, h _ (List.mem_singleton_self _)]
    · exact collision_scan_agree _ h

theorem try_get_value_loop_agree {c1 c2 : K → K → Bool} {pool : PMapPool K V} {key : K}
    {hash : Nat} :
    ∀ (left level : Nat) (cur : Node K V),
      (∀ x ∈ cur.descendants pool, c1 key x.first = c2 key x.first) →
      try_get_value_loop c1 pool key hash left level cur =
        try_get_value_loop c2 pool key hash left level cur := by
  intro left
  induction left with
  | zero => intro _ _ _; rfl
  | succ left ih =>
    intro level cur h
    simp only [try_get_value_loop]
    cases hg : cur.get_child_by_hash_and_depth hash level with
    | none => rfl
    | some n =>
      have hmem : n ∈ cur.child_array := get_child_mem hg
      have hv : ∀ x ∈ n.values pool, c1 key x.first = c2 key x.first := fun x hx =>
        h x (subtree_mem_descendants hmem (by rw [subtree_eq]; exact List.mem_append_left _ hx))
      have hd : ∀ x ∈ n.descendants pool, c1 key x.first = c2 key x.first := fun x hx =>
        h x (subtree_mem_descendants hmem (by rw [subtree_eq]; exact List.mem_append_right _ hx))
      simp only [node_match_get_agree hv, ih (level + 1) n hd]

/-- `try_get_value` does not tell two comparators apart that agree on the key
against the keys of the map. -/
theorem try_get_value_agree {c1 c2 : K → K → Bool} (hashfun : K → Nat) {pool : PMapPool K V}
    {m : Map K V} {key : K}
    (h : ∀ x ∈ Map.contents pool m, c1 key x.first = c2 key x.first) :
    Map.try_get_value c1 hashfun pool m key = Map.try_get_value c2 hashfun pool m key := by
  obtain ⟨root⟩ := m
  cases root with
  | none => rfl
  | some root => exact try_get_value_loop_agree 8 0 root h

theorem instantiate_collision_agree {c1 c2 : K → K → Bool} {hashfun : K → Nat}
    {pool : PMapPool K V} {path : List Nat} {c : Node K V} {kv : KeyValue K V}
    (hw : WFValue c2 hashfun pool path c)
    (h : ∀ x ∈ c.values pool, c1 kv.first x.first = c2 kv.first x.first) :
    instantiate_collision c1 pool c kv = instantiate_collision c2 pool c kv := by
  rcases wfvalue_cases hw with ⟨nkv, ht, hv, _, _⟩ | ⟨ht, id, l, hv, _, hl, _, _, _⟩
  · rw [values_keyvalue pool ht hv] at h
    simp only [instantiate_collision, ht, hv, keyvalue_match_get,
      h nkv (List.mem_singleton_self _)]
  · rw [values_collision pool ht hv hl] at h
    simp only [instantiate_collision, ht, hv, hl, collision_find_agree l h]

theorem instantiate_tree_loop_agree {c1 c2 : K → K → Bool} {hashfun : K → Nat}
    (kv : KeyValue K V) :
    ∀ (left level : Nat) (pool : PMapPool K V) (path : List Nat) (cur : Node K V),
      WFNode c2 hashfun pool left path cur →
      (∀ x ∈ cur.descendants pool, c1 kv.first x.first = c2 kv.first x.first) →
      instantiate_tree_loop c1 kv left level pool cur =
        instantiate_tree_loop c2 kv left level pool cur := by
  intro left
  induction left with
  | zero => intro _ _ _ _ _ _; rfl
  | succ d ih =>
    intro level pool path cur hw h
    by_cases hjm : slice kv.hash level ∈ slots cur.used
    · cases cur with
      | mk u cs t v =>
        simp only [Node.used] at hjm
        have hw' := hw
        rw [wfnode_succ_iff] at hw'
        simp only [Node.used, Node.child_array] at hw'
        rcases children_split hw'.2 hjm with ⟨A, c, C, rfl, hA, hcok, hC⟩
        have hAl : A.length = (slots_below u (slice kv.hash level)).length := hA.length_eq.symm
        have hmem : c ∈ (Node.mk u (A ++ c :: C) t v).child_array := by
          simp [Node.child_array]
        have hv : ∀ x ∈ c.values pool, c1 kv.first x.first = c2 kv.first x.first := fun x hx =>
          h x (subtree_mem_descendants hmem (by rw [subtree_eq]; exact List.mem_append_left _ hx))
        have hd : ∀ x ∈ c.descendants pool, c1 kv.first x.first = c2 kv.first x.first :=
          fun x hx => h x (subtree_mem_descendants hmem
            (by rw [subtree_eq]; exact List.mem_append_right _ hx))
        rw [instantiate_tree_loop_in_use c1 kv d level pool u A C c t v hw'.1 hjm hAl
          hw'.2.length_eq,
          instantiate_tree_loop_in_use c2 kv d level pool u A C c t v hw'.1 hjm hAl
          hw'.2.length_eq]
        by_cases h6 : level < 6
        · rw [if_pos h6, if_pos h6]
          rcases wfvalue_cases hcok.1 with ⟨nkv, ht, hcv, _, _⟩ | ⟨ht, id, l, hcv, _⟩
          · rw [values_keyvalue pool ht hcv] at hv
            rw [hcv]
            simp only [keyvalue_match_get, hv nkv (List.mem_singleton_self _),
              ih (level + 1) pool _ c hcok.2.1 hd]
          · rw [hcv]
        · rw [if_neg h6, if_neg h6, instantiate_collision_agree hcok.1 hv]
    · rw [instantiate_tree_loop_free c1 kv d level pool cur hjm,
        instantiate_tree_loop_free c2 kv d level pool cur hjm]

/-- `add` does not tell two comparators apart that agree on the new key
against the keys of the map. -/
theorem add_keyvalue_agree {c1 c2 : K → K → Bool} {hashfun : K → Nat} {pool : PMapPool K V}
    {m : Map K V} (kv : KeyValue K V) (hw : WFMap c2 hashfun pool m)
    (h : ∀ x ∈ Map.contents pool m, c1 kv.first x.first = c2 kv.first x.first) :
    PMapPool.add_keyvalue c1 pool m kv = PMapPool.add_keyvalue c2 pool m kv := by
  obtain ⟨root⟩ := m
  cases root with
  | none =>
    simp only [PMapPool.add_keyvalue, instantiate_tree_path]
    rw [instantiate_tree_loop_agree kv 7 0 pool [] new_node
      (show WFNode c2 hashfun pool 7 [] new_node from wfnode_leaf _ _ _ _)
      (fun x hx => by simp [Node.descendants, new_node, Node.child_array, subtree_list_nil] at hx)]
  | some root =>
    simp only [PMapPool.add_keyvalue, instantiate_tree_path]
    rw [instantiate_tree_loop_agree kv 7 0 pool [] root hw.2 h]

/-! ## The old version of a map after `add` -/

theorem instantiate_collision_cases {compare : K → K → Bool} {pool pool1 : PMapPool K V}
    {c c1 : Node K V} {kv : KeyValue K V}
    (h : instantiate_collision compare pool c kv = some (pool1, c1)) :
    AddCases pool pool1 c c1 := by
  unfold instantiate_collision at h
  split at h
  · split at h
    · split at h
      · cases h
      · split at h
        · simp only [Option.some.injEq, Prod.mk.injEq] at h
          exact Or.inr (Or.inr h.2.symm)
        · simp only [Option.some.injEq, Prod.mk.injEq] at h
          exact Or.inr (Or.inr h.2.symm)
    · cases h
  · split at h
    · split at h
      · simp only [Option.some.injEq, Prod.mk.injEq] at h
        exact Or.inl h.1.symm
      · simp only [Option.some.injEq, Prod.mk.injEq] at h
        exact Or.inr (Or.inl ⟨_, h.1.symm⟩)
    · cases h

theorem instantiate_tree_loop_cases {compare : K → K → Bool} {hashfun : K → Nat}
    (kv : KeyValue K V) :
    ∀ (left level : Nat) (pool pool1 : PMapPool K V) (path : List Nat) (cur cur1 : Node K V),
      WFNode compare hashfun pool left path cur →
      instantiate_tree_loop compare kv left level pool cur = some (pool1, cur1) →
      AddCases pool pool1 cur cur1 := by
  intro left
  induction left with
  | zero => intro _ _ _ _ _ _ _ h; cases h
  | succ d ih =>
    intro level pool pool1 path cur cur1 hw h
    by_cases hjm : slice kv.hash level ∈ slots cur.used
    · cases cur with
      | mk u cs t v =>
        simp only [Node.used] at hjm
        have hw' := hw
        rw [wfnode_succ_iff] at hw'
        simp only [Node.used, Node.child_array] at hw'
        rcases children_split hw'.2 hjm with ⟨A, c, C, rfl, hA, hcok, hC⟩
        have hAl : A.length = (slots_below u (slice kv.hash level)).length := hA.length_eq.symm
        rw [instantiate_tree_loop_in_use compare kv d level pool u A C c t v hw'.1 hjm hAl
          hw'.2.length_eq] at h
        by_cases h6 : level < 6
        · rw [if_pos h6] at h
          split at h
          · split at h
            · simp only [Option.some.injEq, Prod.mk.injEq] at h
              exact Or.inl h.1.symm
            · cases hrec : instantiate_tree_loop compare kv d (level + 1) pool c with
              | none => simp [hrec] at h
              | some r =>
                obtain ⟨p1, c1⟩ := r
                simp only [hrec, Option.some.injEq, Prod.mk.injEq] at h
                rcases ih (level + 1) pool p1 _ c c1 hcok.2.1 hrec with h1 | h1 | h1
                · exact Or.inl (h.1 ▸ h1)
                · exact Or.inr (Or.inl (h.1 ▸ h1))
                · exact Or.inr (Or.inr (by rw [← h.2, h1]))
          · cases h
        · rw [if_neg h6] at h
          cases hrec : instantiate_collision compare pool c kv with
          | none => simp [hrec] at h
          | some r =>
            obtain ⟨p1, c1⟩ := r
            simp only [hrec, Option.some.injEq, Prod.mk.injEq] at h
            rcases instantiate_collision_cases hrec with h1 | h1 | h1
            · exact Or.inl (h.1 ▸ h1)
            · exact Or.inr (Or.inl (h.1 ▸ h1))
            · exact Or.inr (Or.inr (by rw [← h.2, h1]))
    · rw [instantiate_tree_loop_free compare kv d level pool cur hjm] at h
      cases hn : node_insert_replace_refarray pool cur
          (Node.mk 0 [] NodeType.ValueNode (.keyvalue kv)) (slice kv.hash level) level with
      | none => simp [hn] at h
      | some x =>
        simp only [hn, Option.map_some', Option.some.injEq, Prod.mk.injEq] at h
        exact Or.inl h.1.symm

/-- The map that `add` was called on, looked at in the pool after the call:
it keeps the invariant, every key but the added one is looked up in it as
before, and it holds no cell but its own and the added one. -/
theorem add_old_version {compare : K → K → Bool} {hashfun : K → Nat}
    (hc : CompareEquiv compare) (pool pool1 : PMapPool K V) (m m1 : Map K V)
    (hw : WFMap compare hashfun pool m) (kv : KeyValue K V)
    (hkv : kv.hash = hashfun kv.first % U32)
    (hadd : PMapPool.add_keyvalue compare pool m kv = some (pool1, m1)) :
    WFMap compare hashfun pool1 m ∧
      (∀ key, ¬ (kv.hash = hashfun key % U32 ∧ compare key kv.first = true) →
        Map.try_get_value compare hashfun pool1 m key =
          Map.try_get_value compare hashfun pool m key) ∧
      (∀ x ∈ Map.contents pool1 m, x = kv ∨ x ∈ Map.contents pool m) := by
  obtain ⟨root⟩ := m
  cases root with
  | none => exact ⟨trivial, fun _ _ => rfl, fun x hx => by cases hx⟩
  | some root =>
    rcases add_keyvalue_post hc pool { root_ := some root } hw kv hkv with
      ⟨pool2, root2, hadd2, hw2, _, _, hother, hdesc⟩
    rw [hadd] at hadd2
    simp only [Option.some.injEq, Prod.mk.injEq] at hadd2
    obtain ⟨hp, hm⟩ := hadd2
    subst hp hm
    have hloop : instantiate_tree_loop compare kv 7 0 pool root = some (pool1, root2) := by
      have := hadd
      simp only [PMapPool.add_keyvalue, instantiate_tree_path, Option.map_eq_some'] at this
      rcases this with ⟨r, hr, he⟩
      simp only [Prod.mk.injEq, Map.mk.injEq, Option.some.injEq] at he
      rw [hr, ← he.1, ← he.2]
    have hframe : ∀ (l : List (KeyValue K V)), pool1 = { lists := pool.lists ++ [l] } ∨
        pool1 = pool → PoolFrame pool pool1 (OnPath []) := by
      intro l hcase id x hx _
      rcases hcase with h | h
      · rw [h]
        simp only
        rw [List.getElem?_append_left]
        · exact hx
        · by_contra hge
          rw [List.getElem?_eq_none (by omega)] at hx
          cases hx
      · rw [h]; exact hx
    have hsame : PoolFrame pool pool1 (OnPath []) →
        WFMap compare hashfun pool1 { root_ := some root } ∧
        (∀ key, ¬ (kv.hash = hashfun key % U32 ∧ compare key kv.first = true) →
          Map.try_get_value compare hashfun pool1 { root_ := some root } key =
            Map.try_get_value compare hashfun pool { root_ := some root } key) ∧
        (∀ x ∈ Map.contents pool1 { root_ := some root }, x = kv ∨
          x ∈ Map.contents pool { root_ := some root }) := by
      intro hf
      rcases frame_node 7 [] root hw.2 hf with ⟨f1, f2, f3⟩
      refine ⟨⟨hw.1, f1⟩, fun key _ => ?_, fun x hx => Or.inr ?_⟩
      · exact f3 key _ 8 0
      · simp only [Map.contents] at hx ⊢
        rw [← f2]; exact hx
    rcases instantiate_tree_loop_cases kv 7 0 pool pool1 [] root root2 hw.2 hloop with
      h | ⟨l, h⟩ | h
    · exact hsame (hframe [] (Or.inr h))
    · exact hsame (hframe l (Or.inl h))
    · subst h
      refine ⟨hw2, hother, fun x hx => ?_⟩
      rcases hdesc x hx with h1 | ⟨r, hr, h1⟩
      · exact Or.inl h1
      · simp only [Option.some.injEq] at hr
        subst hr
        exact Or.inr h1

namespace Orb

/-! ## Maps whose keys are names -/

theorem name_equal_iff (a b : Value) (ha : a.is_name = true) (hb : b.is_name = true) :
    Value.equal_flat a b = true ↔ a = b := by
  cases a <;> simp only [Value.is_name, Bool.false_eq_true] at ha <;>
    cases b <;> simp only [Value.is_name, Bool.false_eq_true] at hb <;>
    simp [Value.equal_flat]
  all_goals
    rename_i x y
    cases x <;> simp only [Value.is_name, Bool.false_eq_true] at ha
    cases y <;> simp only [Value.is_name, Bool.false_eq_true] at hb
    simp [Number.equal]

theorem key_equal_iff (a b : Value) :
    key_equal a b = true ↔
      (a.is_name = true ∧ b.is_name = true ∧ a = b) ∨ (a.is_name = false ∧ b.is_name = false) := by
  unfold key_equal
  cases ha : a.is_name <;> cases hb : b.is_name <;> simp
  exact name_equal_iff a b ha hb

theorem key_equal_equiv : CompareEquiv key_equal := by
  refine ⟨?_, ?_, ?_⟩
  · intro a
    rw [key_equal_iff]
    cases ha : a.is_name
    · exact Or.inr ⟨rfl, rfl⟩
    · exact Or.inl ⟨rfl, rfl, rfl⟩
  · intro a b h
    rw [key_equal_iff] at h ⊢
    rcases h with ⟨h1, h2, h3⟩ | ⟨h1, h2⟩
    · exact Or.inl ⟨h2, h1, h3.symm⟩
    · exact Or.inr ⟨h2, h1⟩
  · intro a b c h1 h2
    rw [key_equal_iff] at h1 h2 ⊢
    rcases h1 with ⟨a1, a2, a3⟩ | ⟨a1, a2⟩
    · rcases h2 with ⟨b1, b2, b3⟩ | ⟨b1, b2⟩
      · exact Or.inl ⟨a1, b2, a3.trans b3⟩
      · rw [a2] at b1; cases b1
    · rcases h2 with ⟨b1, b2, b3⟩ | ⟨b1, b2⟩
      · rw [a2] at b1; cases b1
      · exact Or.inr ⟨a1, b2⟩

theorem key_equal_of_names (a b : Value) (ha : a.is_name = true) (hb : b.is_name = true) :
    Value.equal_flat a b = key_equal a b := by
  simp only [key_equal, ha, hb, Bool.and_self, if_true]

theorem name_is_atom (a : Value) (ha : a.is_name = true) : a.is_atom = true := by
  cases a <;> simp only [Value.is_name, Bool.false_eq_true] at ha <;> rfl

/-- In a map with names for keys a name is looked up with `operator==` as it
is with `key_equal`. -/
theorem lookup_eq (lib : Library) {pool : PMapPool Value Value} {m : Map Value Value}
    (h : EnvOK lib pool m) (key : Value) (hk : key.is_name = true) :
    lookup lib pool m key =
      Map.try_get_value key_equal (Value.get_hash_flat lib) pool m key :=
  try_get_value_agree _ (fun x hx => key_equal_of_names key x.first hk (h.2 x hx))

/-- Adding a name to a map with names for keys: the call returns; the new map
and the old one both keep the invariant in the new pool; the new map finds
the key with its value; every other name is looked up in the new map, and in
the old map in the new pool, as it was in the old map before. -/
theorem env_add (lib : Library) (pool : PMapPool Value Value) (m : Map Value Value)
    (h : EnvOK lib pool m) (key v : Value) (hk : key.is_name = true) :
    ∃ pool1 m1, map_add lib pool m key v = some (pool1, m1) ∧
      EnvOK lib pool1 m1 ∧ EnvOK lib pool1 m ∧
      lookup lib pool1 m1 key = some v ∧
      ∀ k, k.is_name = true → Value.equal_flat k key = false →
        lookup lib pool1 m1 k = lookup lib pool m k ∧
          lookup lib pool1 m k = lookup lib pool m k := by
  have hagree : PMapPool.add_keyvalue Value.equal_flat pool m
        (new_keyvalue (Value.get_hash_flat lib) key v) =
      PMapPool.add_keyvalue key_equal pool m (new_keyvalue (Value.get_hash_flat lib) key v) :=
    add_keyvalue_agree _ h.1 (fun x hx => key_equal_of_names key x.first hk (h.2 x hx))
  rcases add_keyvalue_post key_equal_equiv pool m h.1
      (new_keyvalue (Value.get_hash_flat lib) key v) (new_keyvalue_good _ key v) with
    ⟨pool1, root1, hadd, hw1, _, hsame, hother, hdesc⟩
  rcases add_old_version key_equal_equiv pool pool1 m { root_ := some root1 } h.1
      (new_keyvalue (Value.get_hash_flat lib) key v) (new_keyvalue_good _ key v) hadd with
    ⟨hwold, hoold, hdold⟩
  have hok1 : EnvOK lib pool1 { root_ := some root1 } := by
    refine ⟨hw1, fun x hx => ?_⟩
    rcases hdesc x hx with rfl | ⟨r, hr, hx'⟩
    · exact hk
    · exact h.2 x (by simp only [Map.contents, hr]; exact hx')
  have hokold : EnvOK lib pool1 m := by
    refine ⟨hwold, fun x hx => ?_⟩
    rcases hdold x hx with rfl | hx'
    · exact hk
    · exact h.2 x hx'
  refine ⟨pool1, { root_ := some root1 }, ?_, hok1, hokold, ?_, ?_⟩
  · simp only [map_add, name_is_atom key hk, if_true, Map.add]
    rw [hagree]; exact hadd
  · rw [lookup_eq lib hok1 key hk]
    exact hsame key rfl (key_equal_equiv.refl key)
  · intro k hkn hne
    have hne' : ¬ ((new_keyvalue (Value.get_hash_flat lib) key v).hash =
        Value.get_hash_flat lib k % U32 ∧
        key_equal k (new_keyvalue (Value.get_hash_flat lib) key v).first = true) := by
      intro hh
      have := hh.2
      rw [show (new_keyvalue (Value.get_hash_flat lib) key v).first = key from rfl,
        ← key_equal_of_names k key hkn hk, hne] at this
      cases this
    rw [lookup_eq lib hok1 k hkn, lookup_eq lib hokold k hkn, lookup_eq lib h k hkn]
    exact ⟨hother k hne', hoold k hne'⟩

end Orb

namespace Orb

/-! ## The default environment -/

theorem env_insert_loop (lib : Library) :
    ∀ (list : List (Value × Value)) (pool : PMapPool Value Value) (m : Map Value Value),
      EnvOK lib pool m → (∀ p ∈ list, p.1.is_name = true) →
      list.Pairwise (fun a b => Value.equal_flat a.1 b.1 = false) →
      ∃ pool1 m1, insert_loop Value.equal_flat (Value.get_hash_flat lib) pool m list =
          some (pool1, m1) ∧
        EnvOK lib pool1 m1 ∧
        (∀ p ∈ list, lookup lib pool1 m1 p.1 = some p.2) ∧
        (∀ k, k.is_name = true → (∀ p ∈ list, Value.equal_flat k p.1 = false) →
          lookup lib pool1 m1 k = lookup lib pool m k) := by
  intro list
  induction list with
  | nil =>
    intro pool m h _ _
    refine ⟨pool, m, rfl, h, ?_, fun _ _ _ => rfl⟩
    intro p hp
    cases hp
  | cons i rest ih =>
    intro pool m h hn hpw
    have hin := hn i (List.mem_cons_self _ _)
    rcases env_add lib pool m h i.1 i.2 hin with ⟨pool1, m1, hadd, hok1, _, hget, hother⟩
    rcases ih pool1 m1 hok1 (fun p hp => hn p (List.mem_cons_of_mem _ hp))
      (List.pairwise_cons.mp hpw).2 with ⟨pool2, m2, hloop, hok2, hfind, hkeep⟩
    have hadd' : Map.add Value.equal_flat (Value.get_hash_flat lib) pool m i.1 i.2 =
        some (pool1, m1) := by
      simpa only [map_add, name_is_atom i.1 hin, if_true] using hadd
    refine ⟨pool2, m2, ?_, hok2, ?_, ?_⟩
    · simp only [insert_loop, hadd', hloop]
    · intro p hp
      rcases List.mem_cons.mp hp with rfl | hp'
      · rw [hkeep p.1 hin (fun q hq => (List.pairwise_cons.mp hpw).1 q hq)]
        exact hget
      · exact hfind p hp'
    · intro k hk hall
      rw [hkeep k hk (fun q hq => hall q (List.mem_cons_of_mem _ hq))]
      exact (hother k hk (hall i (List.mem_cons_self _ _))).1

theorem default_bindings_names : ∀ p ∈ default_bindings, p.1.is_name = true := by
  intro p hp
  simp only [default_bindings, List.mem_map] at hp
  rcases hp with ⟨q, _, rfl⟩
  rfl

set_option maxRecDepth 100000 in
theorem default_bindings_distinct :
    default_bindings.Pairwise (fun a b => Value.equal_flat a.1 b.1 = false) := by
  decide

/-- The runtime after its construction: the root environment keeps the
invariant, finds every name of `load_default_env` with its operator and
no other name, and nothing is written to the output. -/
theorem env_init (lib : Library) :
    ∃ E0, Env.init lib = some E0 ∧ EnvOK lib E0.map_pool_ E0.env_ ∧ E0.out_ = [] ∧
      (∀ p ∈ default_bindings, lookup lib E0.map_pool_ E0.env_ p.1 = some p.2) ∧
      (∀ k, k.is_name = true → (∀ p ∈ default_bindings, Value.equal_flat k p.1 = false) →
        lookup lib E0.map_pool_ E0.env_ k = none) := by
  have h0 : EnvOK lib { lists := [] } PMapPool.new_map :=
    ⟨trivial, fun x hx => by cases hx⟩
  rcases env_insert_loop lib default_bindings { lists := [] } PMapPool.new_map h0
    default_bindings_names default_bindings_distinct with ⟨pool1, m1, hloop, hok, hfind, hkeep⟩
  refine ⟨Env.mk pool1 m1 [], ?_, hok, rfl, hfind, ?_⟩
  · simp only [Env.init, hloop]
  · intro k hk hall
    rw [hkeep k hk hall]
    rfl

end Orb

namespace Orb

/-! ## The steps of `eval` -/

theorem bind_ok {α β : Type} (a : α) (f : α → Outcome β) :
    Outcome.bind (some (.ok a)) f = f a := rfl

theorem bind_error {α β : Type} (e : List Char) (f : α → Outcome β) :
    Outcome.bind (some (.error e) : Outcome α) f = some (.error e) := rfl

theorem eval_symbol_found (lib : Library) (f : Nat) (s : List Char) (env : Map Value Value)
    (orb : Env) (r : Value) (h : lookup lib orb.map_pool_ env (Value.SYMBOL s) = some r) :
    eval lib (f + 1) (Value.SYMBOL s) env orb = some (.ok (r, env, orb)) := by
  have : eval lib (f + 1) (Value.SYMBOL s) env orb =
      match lookup lib orb.map_pool_ env (Value.SYMBOL s) with
      | none => throw_exception ("eval: Symbol not found. Input:".toList ++ s)
      | some result => some (.ok (result, env, orb)) := rfl
  rw [this, h]

theorem eval_symbol_missing (lib : Library) (f : Nat) (s : List Char) (env : Map Value Value)
    (orb : Env) (h : lookup lib orb.map_pool_ env (Value.SYMBOL s) = none) :
    eval lib (f + 1) (Value.SYMBOL s) env orb =
      some (.error ("eval: Symbol not found. Input:".toList ++ s)) := by
  have : eval lib (f + 1) (Value.SYMBOL s) env orb =
      match lookup lib orb.map_pool_ env (Value.SYMBOL s) with
      | none => throw_exception ("eval: Symbol not found. Input:".toList ++ s)
      | some result => some (.ok (result, env, orb)) := rfl
  rw [this, h]
  rfl

theorem eval_begin (lib : Library) (f : Nat) (forms : List Value) (env : Map Value Value)
    (orb : Env) :
    eval lib (f + 1) (Value.LIST (make_value_symbol "begin" :: forms)) env orb =
      eval_sequence lib f forms env orb := rfl

theorem eval_sequence_cons (lib : Library) (f : Nat) (a b : Value) (rest : List Value)
    (env : Map Value Value) (orb : Env) :
    eval_sequence lib (f + 1) (a :: b :: rest) env orb =
      (eval lib f a env orb).bind fun e => eval_sequence lib f (b :: rest) e.2.1 e.2.2 := rfl

theorem eval_sequence_last (lib : Library) (f : Nat) (a : Value) (env : Map Value Value)
    (orb : Env) : eval_sequence lib (f + 1) [a] env orb = eval lib f a env orb := rfl

/-- A `def` of a name with a list for its value: the list is evaluated and
the name is bound to its value. -/
theorem eval_def_list (lib : Library) (f : Nat) (name : List Char) (l : List Value)
    (env : Map Value Value) (orb : Env) :
    eval lib (f + 1) (Value.LIST [make_value_symbol "def", Value.SYMBOL name, Value.LIST l])
        env orb =
      (eval lib f (Value.LIST l) env orb).bind fun e =>
        match map_add lib e.2.2.map_pool_ e.2.1 (Value.SYMBOL name) e.1 with
        | none => none
        | some r => some (.ok (Value.NIL, r.2, { e.2.2 with map_pool_ := r.1 })) := rfl

/-- A list whose first element is a symbol that names no special form is an
application of the value of that symbol. -/
theorem eval_application (lib : Library) (f : Nat) (s : List Char) (operands : List Value)
    (env : Map Value Value) (orb : Env)
    (hs : s ∉ ["quote".toList, "def".toList, "set".toList, "if".toList, "fn".toList,
      "begin".toList, "cond".toList]) :
    eval lib (f + 1) (Value.LIST (Value.SYMBOL s :: operands)) env orb =
      (eval lib f (Value.SYMBOL s) env orb).bind fun op =>
        apply lib f op.1 operands op.2.1 op.2.2 := by
  simp only [List.mem_cons, List.mem_singleton, not_or, List.not_mem_nil, or_false] at hs
  obtain ⟨h1, h2, h3, h4, h5, h6, h7⟩ := hs
  have e1 : (s == "quote".toList) = false := by simpa using h1
  have e2 : (s == "def".toList) = false := by simpa using h2
  have e3 : (s == "set".toList) = false := by simpa using h3
  have e4 : (s == "if".toList) = false := by simpa using h4
  have e5 : (s == "fn".toList) = false := by simpa using h5
  have e6 : (s == "begin".toList) = false := by simpa using h6
  have e7 : (s == "cond".toList) = false := by simpa using h7
  rw [eval]
  simp only [is_self_evaluating, Value.type, is_quoted, is_assignment, is_reassignment, is_if,
    is_lambda, is_begin, is_cond, is_tagged_list, value_list_first, value_list,
    symbol_value_is, e1, e2, e3, e4, e5, e6, e7, is_application, Bool.false_eq_true, if_false,
    Option.getD_some, List.isEmpty_cons, Bool.not_false, Bool.and_self, decide_True, if_true,
    List.tail_cons, reduceCtorEq]

theorem apply_function (lib : Library) (f : Nat) (p : Primitive) (args : List Value)
    (env : Map Value Value) (orb : Env) :
    apply lib (f + 1) (Value.FUNCTION p) args env orb =
      (eval_list_to_vector lib f args env orb).bind fun r =>
        apply_primitive lib f p r.1 r.2.1 r.2.2 := rfl

theorem eval_list_to_vector_nil (lib : Library) (f : Nat) (env : Map Value Value) (orb : Env) :
    eval_list_to_vector lib (f + 1) [] env orb = some (.ok ([], env, orb)) := rfl

theorem eval_list_to_vector_cons (lib : Library) (f : Nat) (a : Value) (rest : List Value)
    (env : Map Value Value) (orb : Env) :
    eval_list_to_vector lib (f + 1) (a :: rest) env orb =
      (eval lib f a env orb).bind fun e =>
        (eval_list_to_vector lib f rest e.2.1 e.2.2).bind fun r =>
          some (.ok (e.1 :: r.1, r.2.1, r.2.2)) := rfl

end Orb

/-! ## The parser and the library -/

namespace Orb

mutual
theorem same_sound : ∀ (a b : Value), Value.same a b = true → a = b
  | .NIL, b, h => by cases b <;> first | rfl | simp [Value.same] at h
  | .BOOLEAN x, b, h => by cases b <;> simp [Value.same] at h; rw [h]
  | .NUMBER x, b, h => by cases b <;> simp [Value.same] at h; rw [h]
  | .NUMBER_ARRAY x, b, h => by cases b <;> simp [Value.same] at h; rw [h]
  | .STRING x, b, h => by cases b <;> simp [Value.same] at h; rw [h]
  | .SYMBOL x, b, h => by cases b <;> simp [Value.same] at h; rw [h]
  | .OBJECT x, b, h => by cases b <;> simp [Value.same] at h; rw [h]
  | .FUNCTION x, b, h => by cases b <;> simp [Value.same] at h; rw [h]
  | .MAP x, b, h => by cases b <;> simp [Value.same] at h
  | .VECTOR x, b, h => by
    cases b <;> simp only [Value.same, Bool.false_eq_true] at h
    rw [same_list_sound x _ h]
  | .LIST x, b, h => by
    cases b <;> simp only [Value.same, Bool.false_eq_true] at h
    rw [same_list_sound x _ h]
theorem same_list_sound : ∀ (a b : List Value), Value.same_list a b = true → a = b
  | [], b, h => by cases b <;> simp [Value.same_list] at h; rfl
  | x :: xs, b, h => by
    cases b with
    | nil => simp [Value.same_list] at h
    | cons y ys =>
      simp only [Value.same_list, Bool.and_eq_true] at h
      rw [same_sound x y h.1, same_list_sound xs ys h.2]
end

theorem float_free_append (a b : List Value) :
    Value.float_free_list (a ++ b) = (Value.float_free_list a && Value.float_free_list b) := by
  induction a with
  | nil => simp [Value.float_free_list]
  | cons x xs ih => simp [Value.float_free_list, ih, Bool.and_assoc]

theorem float_free_drop (n : Nat) (a : List Value) (h : Value.float_free_list a = true) :
    Value.float_free_list (a.drop n) = true := by
  induction a generalizing n with
  | nil => simp [Value.float_free_list]
  | cons x xs ih =>
    cases n with
    | zero => exact h
    | succ n =>
      simp only [Value.float_free_list, Bool.and_eq_true] at h
      exact ih n h.2

theorem bind_eq_ok {α β : Type} (x : Outcome α) (g : α → Outcome β) (b : β)
    (h : x.bind g = some (.ok b)) : ∃ a, x = some (.ok a) ∧ g a = some (.ok b) := by
  cases x with
  | none => simp [Outcome.bind] at h
  | some r =>
    cases r with
    | error e => simp [Outcome.bind] at h
    | ok a => exact ⟨a, rfl, h⟩

theorem parsenum_agree (a b : List Char → Nat) (tok : List Char) :
    parsenum a tok = parsenum b tok ∨ ∃ x, parsenum b tok = ParseResult.PARSE_FLOAT x := by
  unfold parsenum
  cases g_regint tok with
  | some res => exact Or.inl rfl
  | none =>
    by_cases h : g_regfloat tok = true
    · exact Or.inr ⟨b tok, by simp [h]⟩
    · exact Or.inl (by simp [h])

theorem parse_number_agree (lib lib2 : Library) (c : List Char) :
    parse_number lib c = parse_number lib2 c ∨
      ∃ x e, parse_number lib2 c = some (Number.FLOAT x, e) := by
  unfold parse_number
  simp only []
  split
  · rcases parsenum_agree lib.atof lib2.atof (c.take (c.length - (token_end c.tail).length))
      with h | ⟨x, h⟩
    · rw [h]; exact Or.inl rfl
    · rw [h]; exact Or.inr ⟨_, _, rfl⟩
  · exact Or.inl rfl

theorem loop_extends (lib : Library) : ∀ (f : Nat) (c : List Char) (bl : List Value) (q : Bool)
    (r : List Value × Bool × List Char),
    recursive_parse_loop lib f c bl q = some (.ok r) → ∃ ext, r.1 = bl ++ ext := by
  intro f
  induction f with
  | zero => intro c bl q r h; simp [recursive_parse_loop] at h
  | succ f ih =>
    intro c bl q r h
    simp only [recursive_parse_loop] at h
    split at h
    · simp only [Option.some.injEq, Except.ok.injEq] at h
      exact ⟨[], by rw [← h]; simp⟩
    split at h
    · exact ih _ _ _ _ h
    split at h
    · simp only [Option.some.injEq, Except.ok.injEq] at h
      exact ⟨[], by rw [← h]; simp⟩
    split at h
    · exact ih _ _ _ _ h
    split at h
    · exact ih _ _ _ _ h
    rcases bind_eq_ok _ _ _ h with ⟨a, _, h2⟩
    split at h2
    · rcases ih _ _ _ _ h2 with ⟨ext, e⟩
      exact ⟨[Value.LIST [make_value_symbol "quote", a.1]] ++ ext, by rw [e]; simp⟩
    · rcases ih _ _ _ _ h2 with ⟨ext, e⟩
      exact ⟨[a.1] ++ ext, by rw [e]; simp⟩

theorem is_str_float_free (v : Value) (s : String) (h : v.is_str s = true) :
    v.float_free = true := by
  cases v <;> first | rfl | simp [Value.is_str] at h

theorem finish_float_free (bl l : List Value) (q : Bool)
    (h : recursive_parse_finish bl q = .ok l) (hl : Value.float_free_list l = true) :
    Value.float_free_list bl = true := by
  unfold recursive_parse_finish at h
  split at h
  · cases h
  cases bl with
  | nil => rfl
  | cons front rest =>
    simp only at h
    split at h
    · rename_i hd
      unfold rewrite_defn at h
      split at h
      · cases h
      · injection h with h
        rw [← h] at hl
        cases rest with
        | nil => simp [Value.float_free_list, is_str_float_free _ _ hd]
        | cons b rest2 =>
          simp only [Value.float_free_list, Value.float_free, List.getD_cons_succ,
            List.getD_cons_zero, List.drop_succ_cons, List.drop_zero, make_value_symbol,
            Bool.and_eq_true, Bool.and_true, Bool.true_and] at hl ⊢
          exact ⟨is_str_float_free _ _ hd, hl.1, hl.2⟩
    split at h
    · rename_i hd
      unfold rewrite_member_call at h
      split at h
      · cases h
      · injection h with h
        rw [← h] at hl
        cases rest with
        | nil => simp [Value.float_free_list, is_str_float_free _ _ hd]
        | cons b rest2 =>
          cases rest2 with
          | nil => simp at *
          | cons d rest3 =>
            simp only [Value.float_free_list, Value.float_free, List.getD_cons_succ,
              List.getD_cons_zero, List.drop_succ_cons, List.drop_zero, make_value_symbol,
              Bool.and_eq_true, Bool.and_true, Bool.true_and] at hl ⊢
            exact ⟨is_str_float_free _ _ hd, hl.1.2, hl.1.1, hl.2.2⟩
    · injection h with h
      rw [h]; exact hl

/-- A parse in which no `FLOAT` was read is the same with every library. -/
theorem parse_agree (lib lib2 : Library) : ∀ f : Nat,
    (∀ c r, get_value lib2 f c = some (.ok r) → r.1.float_free = true →
      get_value lib f c = some (.ok r)) ∧
    (∀ c r, recursive_parse lib2 f c = some (.ok r) → Value.float_free_list r.1 = true →
      recursive_parse lib f c = some (.ok r)) ∧
    (∀ c bl q r, recursive_parse_loop lib2 f c bl q = some (.ok r) →
      Value.float_free_list r.1 = true → recursive_parse_loop lib f c bl q = some (.ok r)) := by
  intro f
  induction f with
  | zero =>
    refine ⟨?_, ?_, ?_⟩
    · intro c r h; simp [get_value] at h
    · intro c r h; simp [recursive_parse] at h
    · intro c bl q r h; simp [recursive_parse_loop] at h
  | succ f ih =>
    obtain ⟨ihg, ihr, ihl⟩ := ih
    refine ⟨?_, ?_, ?_⟩
    · intro c r h hr
      simp only [get_value] at h ⊢
      split
      · rename_i h1; rw [if_pos h1] at h; exact h
      rename_i h1; rw [if_neg h1] at h
      split
      · rename_i h2; rw [if_pos h2] at h
        rcases bind_eq_ok _ _ _ h with ⟨a, ha, h3⟩
        simp only [Option.some.injEq, Except.ok.injEq] at h3
        rw [ihr _ _ ha (by rw [← h3] at hr; simpa [Value.float_free] using hr)]
        simp [Outcome.bind, h3]
      rename_i h2; rw [if_neg h2] at h
      split
      · rename_i h4; rw [if_pos h4] at h
        rcases bind_eq_ok _ _ _ h with ⟨a, ha, h3⟩
        simp only [Option.some.injEq, Except.ok.injEq] at h3
        rw [ihr _ _ ha (by
          rw [← h3] at hr
          simpa [Value.float_free, Value.float_free_list, make_value_symbol] using hr)]
        simp [Outcome.bind, h3]
      rename_i h4; rw [if_neg h4] at h
      split
      · rename_i h5; rw [if_pos h5] at h
        rcases bind_eq_ok _ _ _ h with ⟨a, ha, h3⟩
        simp only [Option.some.injEq, Except.ok.injEq] at h3
        rw [ihr _ _ ha (by
          rw [← h3] at hr
          simpa [Value.float_free, Value.float_free_list, make_value_symbol] using hr)]
        simp [Outcome.bind, h3]
      rename_i h5; rw [if_neg h5] at h
      rcases parse_number_agree lib lib2 c with e | ⟨x, e, hx⟩
      · rw [e]; exact h
      · rw [hx] at h
        simp only [Option.some.injEq, Except.ok.injEq] at h
        rw [← h] at hr
        simp [Value.float_free] at hr
    · intro c r h hr
      simp only [recursive_parse] at h ⊢
      rcases bind_eq_ok _ _ _ h with ⟨a, ha, h3⟩
      cases hfin : recursive_parse_finish a.1 a.2.1 with
      | error e => rw [hfin] at h3; simp at h3
      | ok l =>
        rw [hfin] at h3
        simp only [Option.some.injEq, Except.ok.injEq] at h3
        have hl : Value.float_free_list l = true := by rw [← h3] at hr; exact hr
        rw [ihl _ _ _ _ ha (finish_float_free _ _ _ hfin hl)]
        simp [Outcome.bind, hfin, h3]
    · intro c bl q r h hr
      simp only [recursive_parse_loop] at h ⊢
      split
      · rename_i h1; rw [if_pos h1] at h; exact h
      rename_i h1; rw [if_neg h1] at h
      split
      · rename_i h2; rw [if_pos h2] at h; exact ihl _ _ _ _ h hr
      rename_i h2; rw [if_neg h2] at h
      split
      · rename_i h3; rw [if_pos h3] at h; exact h
      rename_i h3; rw [if_neg h3] at h
      split
      · rename_i h4; rw [if_pos h4] at h; exact ihl _ _ _ _ h hr
      rename_i h4; rw [if_neg h4] at h
      split
      · rename_i h5; rw [if_pos h5] at h; exact ihl _ _ _ _ h hr
      rename_i h5; rw [if_neg h5] at h
      rcases bind_eq_ok _ _ _ h with ⟨a, ha, h6⟩
      have hfree : a.1.float_free = true := by
        split at h6
        · rcases loop_extends _ _ _ _ _ _ h6 with ⟨ext, e⟩
          rw [e] at hr
          simp only [float_free_append, Value.float_free_list, Value.float_free,
            make_value_symbol, Bool.and_eq_true, Bool.and_true, Bool.true_and] at hr
          exact hr.1.2
        · rcases loop_extends _ _ _ _ _ _ h6 with ⟨ext, e⟩
          rw [e] at hr
          simp only [float_free_append, Value.float_free_list, Value.float_free,
            Bool.and_eq_true, Bool.and_true, Bool.true_and] at hr
          exact hr.1.2
      rw [ihg _ _ ha hfree]
      simp only [Outcome.bind]
      split at h6
      · rename_i hq; rw [if_pos hq]; exact ihl _ _ _ _ h6 hr
      · rename_i hq; rw [if_neg hq]; exact ihl _ _ _ _ h6 hr

/-- A text that is parsed to a value without `FLOAT` with one library is
parsed to that value with every library. -/
theorem parses_to_sound (lib lib2 : Library) (str : List Char) (v : Value)
    (h : parses_to lib2 str v = true) : string_to_value lib str = some (.ok v) := by
  unfold parses_to at h
  split at h
  · rename_i r hr
    simp only [Bool.and_eq_true] at h
    have e := same_sound _ _ h.1
    subst e
    unfold string_to_value ValueParser.parse at hr ⊢
    cases hs : check_scope str [';'] SCOPE_START SCOPE_END with
    | none => rw [hs] at hr; simp at hr
    | some sr =>
      rw [hs] at hr
      simp only at hr ⊢
      split
      · rename_i h1; rw [if_pos h1] at hr; simp [orb_fail] at hr
      · rename_i h1; rw [if_neg h1] at hr
        cases hp : recursive_parse lib2 (3 * str.length + 3) str with
        | none => rw [hp] at hr; simp at hr
        | some o =>
          cases o with
          | error e => rw [hp] at hr; simp [orb_fail] at hr
          | ok root =>
            rw [hp] at hr
            simp only [Option.some.injEq, Except.ok.injEq] at hr
            have hfree : Value.float_free_list root.1 = true := by
              have h2 := h.2
              rw [← hr] at h2
              simpa [Value.float_free, Value.float_free_list, make_value_symbol] using h2
            rw [(parse_agree lib lib2 _).2.1 _ _ hp hfree]
            simp only [hr]
  · simp at h

end Orb

namespace Orb

/-! ## Keys that are symbols -/

theorem default_lookup (lib : Library) (E0 : Env)
    (hfind : ∀ p ∈ default_bindings, lookup lib E0.map_pool_ E0.env_ p.1 = some p.2)
    (name : String) (prim : Primitive) (h : (name, prim) ∈ default_env) :
    lookup lib E0.map_pool_ E0.env_ (Value.SYMBOL name.toList) = some (Value.FUNCTION prim) :=
  hfind (make_value_symbol name, Value.FUNCTION prim)
    (List.mem_map.mpr ⟨(name, prim), h, rfl⟩)

theorem default_missing (lib : Library) (E0 : Env)
    (hnone : ∀ k, k.is_name = true →
      (∀ p ∈ default_bindings, Value.equal_flat k p.1 = false) →
        lookup lib E0.map_pool_ E0.env_ k = none)
    (s : List Char) (h : (default_env.all fun p => !(s == p.1.toList)) = true) :
    lookup lib E0.map_pool_ E0.env_ (Value.SYMBOL s) = none := by
  refine hnone (Value.SYMBOL s) rfl ?_
  intro p hp
  simp only [default_bindings, List.mem_map] at hp
  rcases hp with ⟨q, hq, rfl⟩
  have := List.all_eq_true.mp h q hq
  simpa [Value.equal_flat, make_value_symbol] using this

set_option maxRecDepth 100000 in
theorem keyword_source_parsed (lib : Library) : string_to_value lib keyword_source =
      some (.ok (Value.LIST [make_value_symbol "begin",
        Value.LIST [make_value_symbol "def", Value.SYMBOL "m".toList,
          Value.LIST [Value.SYMBOL "insert".toList, Value.LIST [Value.SYMBOL "make-map".toList],
            Value.SYMBOL ":a".toList, Value.NUMBER (Number.INT 1), Value.SYMBOL ":b".toList,
            Value.NUMBER (Number.INT 2)]],
        Value.LIST [Value.SYMBOL "m".toList, Value.SYMBOL ":b".toList]])) :=
  parses_to_sound lib length_library _ _ (by decide!)

theorem keyword_source_eval (lib : Library) (fuel : Nat) (E0 : Env)
    (hfind : ∀ p ∈ default_bindings, lookup lib E0.map_pool_ E0.env_ p.1 = some p.2)
    (hnone : ∀ k, k.is_name = true →
      (∀ p ∈ default_bindings, Value.equal_flat k p.1 = false) →
        lookup lib E0.map_pool_ E0.env_ k = none) :
    read_eval lib (fuel + 9) E0 keyword_source =
      some (orb_fail "eval: Symbol not found. Input::a".toList, none) := by
  have hparse := keyword_source_parsed lib
  have h_insert := default_lookup lib E0 hfind "insert" Primitive.op_insert_data (by decide)
  have h_make := default_lookup lib E0 hfind "make-map" Primitive.op_make_map (by decide)
  have h_a := default_missing lib E0 hnone ":a".toList (by decide)
  have hmake : ∀ f, eval lib (f + 3) (Value.LIST [Value.SYMBOL "make-map".toList]) E0.env_ E0 =
      some (.ok (Value.MAP PMapPool.new_map, E0.env_, E0)) := by
    intro f
    rw [eval_application lib _ _ _ _ _ (by decide), eval_symbol_found lib _ _ _ _ _ h_make,
      bind_ok, apply_function, eval_list_to_vector_nil, bind_ok]
    rfl
  have hargs : ∀ f, eval_list_to_vector lib (f + 4)
      [Value.LIST [Value.SYMBOL "make-map".toList], Value.SYMBOL ":a".toList,
        Value.NUMBER (Number.INT 1), Value.SYMBOL ":b".toList, Value.NUMBER (Number.INT 2)]
      E0.env_ E0 = some (.error "eval: Symbol not found. Input::a".toList) := by
    intro f
    rw [eval_list_to_vector_cons, hmake, bind_ok, eval_list_to_vector_cons,
      eval_symbol_missing lib _ _ _ _ h_a]
    rfl
  simp only [read_eval, hparse, eval_value]
  rw [eval_begin, eval_sequence_cons, eval_def_list,
    eval_application lib _ _ _ _ _ (by decide), eval_symbol_found lib _ _ _ _ _ h_insert,
    bind_ok, apply_function, hargs]
  rfl

/-- C20: in a fresh runtime with the default environment, for every `hash32`,
`read_eval` of `(def m (insert (make-map) :a 1 :b 2)) (m :b)` ends with the
failure `eval: Symbol not found. Input::a`: `:a` is read as a symbol and
evaluated as an operand of `insert`, and the default environment binds no
such name. -/
theorem keyword_keys_fail (lib : Library) (fuel : Nat) :
    ∃ E0, Env.init lib = some E0 ∧
      read_eval lib (fuel + 9) E0 keyword_source =
        some (orb_fail "eval: Symbol not found. Input::a".toList, none) := by
  rcases env_init lib with ⟨E0, hinit, _, _, hfind, hnone⟩
  exact ⟨E0, hinit, keyword_source_eval lib fuel E0 hfind hnone⟩

/-- C20, counterexample: with the library of the examples the default
environment is built, and `read_eval` of the source with the keys `:a` and
`:b` in it does not return the integer 2: its result is not valid. -/
theorem keyword_keys_not_two :
    ∃ E0, Env.init length_library = some E0 ∧
      (read_eval length_library 9 E0 keyword_source).map (fun r => r.1.valid) = some false ∧
      ∀ E, read_eval length_library 9 E0 keyword_source ≠
        some (.ok (Value.NUMBER (Number.INT 2)), E) := by
  rcases env_init length_library with ⟨E0, hinit, _, _, hfind, hnone⟩
  refine ⟨E0, hinit, ?_, ?_⟩
  · rw [keyword_source_eval length_library 0 E0 hfind hnone]; rfl
  · intro E h
    rw [keyword_source_eval length_library 0 E0 hfind hnone] at h
    simp [orb_fail] at h

end Orb

namespace Orb

/-! ## Compound procedures -/

theorem eval_number (lib : Library) (f : Nat) (n : Number) (env : Map Value Value) (orb : Env) :
    eval lib (f + 1) (Value.NUMBER n) env orb = some (.ok (Value.NUMBER n, env, orb)) := rfl

/-- A `fn` form evaluates to the procedure with its parameters, its body and
the environment it is evaluated in. -/
theorem eval_fn (lib : Library) (f : Nat) (params : Value) (body : List Value)
    (env : Map Value Value) (orb : Env) :
    eval lib (f + 1) (Value.LIST (make_value_symbol "fn" :: params :: body)) env orb =
      some (.ok (Value.LIST [make_value_symbol "procedure", params, Value.LIST body,
        Value.MAP env], env, orb)) := by
  rw [eval]
  simp [is_self_evaluating, Value.type, is_quoted, is_assignment, is_reassignment, is_if,
    is_lambda, is_tagged_list, value_list_first, value_list, symbol_value_is,
    make_value_symbol, value_list_second, value_list_nth]

theorem apply_procedure (lib : Library) (f : Nat) (rest args : List Value)
    (env : Map Value Value) (orb : Env) :
    apply lib (f + 1) (Value.LIST (make_value_symbol "procedure" :: rest)) args env orb =
      (eval_list_to_vector lib f args env orb).bind fun p =>
        (eval_compound_procedure lib f (Value.LIST (make_value_symbol "procedure" :: rest))
          p.1 p.2.2).bind fun r => some (.ok (r.1, p.2.1, r.2)) := rfl

theorem eval_compound_procedure_step (lib : Library) (f : Nat) (params body args : List Value)
    (penv : Map Value Value) (orb : Env) :
    eval_compound_procedure lib (f + 1)
        (Value.LIST [make_value_symbol "procedure", Value.LIST params, Value.LIST body,
          Value.MAP penv]) args orb =
      match map_add_range lib orb.map_pool_ penv params args with
      | none => none
      | some r =>
        (eval_sequence lib f body r.2 { orb with map_pool_ := r.1 }).bind fun e =>
          some (.ok (e.1, e.2.2)) := rfl

theorem apply_primitive_mul (lib : Library) (f : Nat) (params : List Value)
    (env : Map Value Value) (orb : Env) :
    apply_primitive lib (f + 1) Primitive.op_mul params env orb =
      (op_mul lib params).bind fun r => some (.ok (r, env, orb)) := rfl

/-- The parameters are bound to the arguments in turn: `map_add_range` on an
environment, with parameters that are names different from each other. -/
theorem env_add_range (lib : Library) : ∀ (params args : List Value)
    (pool : PMapPool Value Value) (m : Map Value Value), EnvOK lib pool m →
    (∀ p ∈ params, p.is_name = true) →
    params.Pairwise (fun a b => Value.equal_flat a b = false) →
    ∃ pool1 m1, map_add_range lib pool m params args = some (pool1, m1) ∧
      EnvOK lib pool1 m1 ∧
      (∀ i (hp : i < params.length) (ha : i < args.length),
        lookup lib pool1 m1 (params.get ⟨i, hp⟩) = some (args.get ⟨i, ha⟩)) ∧
      ∀ k, k.is_name = true → (∀ p ∈ params, Value.equal_flat k p = false) →
        lookup lib pool1 m1 k = lookup lib pool m k := by
  intro params
  induction params with
  | nil =>
    intro args pool m h _ _
    refine ⟨pool, m, by cases args <;> rfl, h, ?_, fun k _ _ => rfl⟩
    intro i hp; cases hp
  | cons p ps ih =>
    intro args pool m h hn hd
    cases args with
    | nil =>
      refine ⟨pool, m, rfl, h, ?_, fun k _ _ => rfl⟩
      intro i _ ha; cases ha
    | cons a as =>
      rcases env_add lib pool m h p a (hn p (List.mem_cons_self _ _)) with
        ⟨pool1, m1, hadd, hok1, _, hfound, hframe⟩
      rcases ih as pool1 m1 hok1 (fun q hq => hn q (List.mem_cons_of_mem _ hq))
        (List.pairwise_cons.mp hd).2 with ⟨pool2, m2, hrange, hok2, hget, hkeep⟩
      refine ⟨pool2, m2, ?_, hok2, ?_, ?_⟩
      · simp only [map_add_range, hadd]
        exact hrange
      · intro i hp ha
        cases i with
        | zero =>
          simp only [List.get_eq_getElem, List.getElem_cons_zero]
          rw [hkeep p (hn p (List.mem_cons_self _ _)) (List.pairwise_cons.mp hd).1]
          exact hfound
        | succ i =>
          simp only [List.get_eq_getElem, List.getElem_cons_succ]
          have := hget i (Nat.lt_of_succ_lt_succ hp) (Nat.lt_of_succ_lt_succ ha)
          simpa only [List.get_eq_getElem] using this
      · intro k hk hall
        rw [hkeep k hk (fun q hq => hall q (List.mem_cons_of_mem _ hq))]
        exact (hframe k hk (hall p (List.mem_cons_self _ _))).1

theorem square_source_parsed (lib : Library) : string_to_value lib square_source =
      some (.ok (Value.LIST [make_value_symbol "begin",
        Value.LIST [make_value_symbol "def", Value.SYMBOL "f".toList,
          Value.LIST [make_value_symbol "fn", Value.LIST [Value.SYMBOL "x".toList],
            Value.LIST [Value.SYMBOL "*".toList, Value.SYMBOL "x".toList,
              Value.SYMBOL "x".toList]]],
        Value.LIST [Value.SYMBOL "f".toList, Value.NUMBER (Number.INT 5)]])) :=
  parses_to_sound lib length_library _ _ (by decide!)

theorem square_source_eval (lib : Library) (fuel : Nat) (E0 : Env)
    (hok : EnvOK lib E0.map_pool_ E0.env_)
    (hfind : ∀ p ∈ default_bindings, lookup lib E0.map_pool_ E0.env_ p.1 = some p.2) :
    ∃ E, read_eval lib (fuel + 12) E0 square_source =
      some (.ok (Value.NUMBER (Number.INT 25)), some E) := by
  have h_mul := default_lookup lib E0 hfind "*" Primitive.op_mul (by decide)
  rcases env_add lib E0.map_pool_ E0.env_ hok (Value.SYMBOL "f".toList)
      (Value.LIST [make_value_symbol "procedure", Value.LIST [Value.SYMBOL "x".toList],
        Value.LIST [Value.LIST [Value.SYMBOL "*".toList, Value.SYMBOL "x".toList,
          Value.SYMBOL "x".toList]], Value.MAP E0.env_]) rfl with
    ⟨pool1, m1, hadd1, hok1, hold1, hf, hframe1⟩
  rcases env_add lib pool1 E0.env_ hold1 (Value.SYMBOL "x".toList)
      (Value.NUMBER (Number.INT 5)) rfl with ⟨pool2, m2, hadd2, hok2, _, hx, hframe2⟩
  have h_mul2 : lookup lib pool2 m2 (Value.SYMBOL "*".toList) =
      some (Value.FUNCTION Primitive.op_mul) := by
    rw [(hframe2 (Value.SYMBOL "*".toList) rfl (by decide)).1,
      (hframe1 (Value.SYMBOL "*".toList) rfl (by decide)).2, h_mul]
  have hbody : ∀ f (o : Env), o.map_pool_ = pool2 →
      eval lib (f + 5) (Value.LIST [Value.SYMBOL "*".toList, Value.SYMBOL "x".toList,
        Value.SYMBOL "x".toList]) m2 o = some (.ok (Value.NUMBER (Number.INT 25), m2, o)) := by
    intro f o ho
    rw [eval_application lib _ _ _ _ _ (by decide),
      eval_symbol_found lib _ _ _ _ _ (by rw [ho]; exact h_mul2), bind_ok, apply_function,
      eval_list_to_vector_cons, eval_symbol_found lib _ _ _ _ _ (by rw [ho]; exact hx), bind_ok,
      eval_list_to_vector_cons, eval_symbol_found lib _ _ _ _ _ (by rw [ho]; exact hx), bind_ok,
      eval_list_to_vector_nil]
    simp only [bind_ok]
    rw [apply_primitive_mul]
    rfl
  have hcall : ∀ f (o : Env), o.map_pool_ = pool1 →
      eval lib (f + 9) (Value.LIST [Value.SYMBOL "f".toList, Value.NUMBER (Number.INT 5)]) m1 o =
        some (.ok (Value.NUMBER (Number.INT 25), m1, { o with map_pool_ := pool2 })) := by
    intro f o ho
    rw [eval_application lib _ _ _ _ _ (by decide),
      eval_symbol_found lib _ _ _ _ _ (by rw [ho]; exact hf), bind_ok, apply_procedure,
      eval_list_to_vector_cons, eval_number, bind_ok, eval_list_to_vector_nil]
    simp only [bind_ok]
    rw [eval_compound_procedure_step]
    simp only [ho, map_add_range, hadd2]
    rw [eval_sequence_last, hbody f _ rfl]
    rfl
  refine ⟨Env.mk pool2 m1 E0.out_, ?_⟩
  simp only [read_eval, square_source_parsed lib, eval_value]
  rw [eval_begin, eval_sequence_cons, eval_def_list, eval_fn, bind_ok]
  simp only [hadd1]
  rw [bind_ok, eval_sequence_last, hcall fuel _ rfl]

/-- C18: a compound procedure `(procedure PARAMS BODY ENV)` applied to
argument values: the parameters, names different from each other, are bound
in their order to the arguments in a map made from `ENV`, the environment
that the `fn` form was evaluated in and stored in the procedure; every other
name is looked up in that map as in `ENV`; the value is that of
`eval_sequence` on the body in that map, which evaluates the forms in turn and
returns the value of the last one.  In a fresh runtime `read_eval` of
`(def f (fn (x) (* x x))) (f 5)` returns the integer 25, for every `hash32`. -/
theorem compound_procedure_applied (lib : Library) (fuel : Nat) (params args body : List Value)
    (penv : Map Value Value) (orb : Env) (henv : EnvOK lib orb.map_pool_ penv)
    (hnames : ∀ p ∈ params, p.is_name = true)
    (hdist : params.Pairwise (fun a b => Value.equal_flat a b = false)) :
    (∃ pool1 m1, map_add_range lib orb.map_pool_ penv params args = some (pool1, m1) ∧
      (∀ i (hp : i < params.length) (ha : i < args.length),
        lookup lib pool1 m1 (params.get ⟨i, hp⟩) = some (args.get ⟨i, ha⟩)) ∧
      (∀ k, k.is_name = true → (∀ p ∈ params, Value.equal_flat k p = false) →
        lookup lib pool1 m1 k = lookup lib orb.map_pool_ penv k) ∧
      eval_compound_procedure lib (fuel + 1)
          (Value.LIST [make_value_symbol "procedure", Value.LIST params, Value.LIST body,
            Value.MAP penv]) args orb =
        (eval_sequence lib fuel body m1 (Env.mk pool1 orb.env_ orb.out_)).bind fun e =>
          some (.ok (e.1, e.2.2))) ∧
    (∀ x env o, eval_sequence lib (fuel + 1) [x] env o = eval lib fuel x env o) ∧
    (∀ x y rest env o, eval_sequence lib (fuel + 1) (x :: y :: rest) env o =
      (eval lib fuel x env o).bind fun e => eval_sequence lib fuel (y :: rest) e.2.1 e.2.2) ∧
    (∀ env o, eval lib (fuel + 1)
        (Value.LIST (make_value_symbol "fn" :: Value.LIST params :: body)) env o =
      some (.ok (Value.LIST [make_value_symbol "procedure", Value.LIST params, Value.LIST body,
        Value.MAP env], env, o))) ∧
    ∃ E0 E, Env.init lib = some E0 ∧
      read_eval lib (fuel + 12) E0 square_source =
        some (.ok (Value.NUMBER (Number.INT 25)), some E) := by
  refine ⟨?_, fun _ _ _ => rfl, fun _ _ _ _ _ => rfl, fun env o => eval_fn lib _ _ _ env o, ?_⟩
  · rcases env_add_range lib params args orb.map_pool_ penv henv hnames hdist with
      ⟨pool1, m1, hrange, _, hget, hkeep⟩
    refine ⟨pool1, m1, hrange, hget, hkeep, ?_⟩
    rw [eval_compound_procedure_step, hrange]
  · rcases env_init lib with ⟨E0, hinit, hok, _, hfind, _⟩
    rcases square_source_eval lib fuel E0 hok hfind with ⟨E, hE⟩
    exact ⟨E0, E, hinit, hE⟩

theorem compound_procedure_applied_witness :
    EnvOK length_library { lists := [] } PMapPool.new_map ∧
      ∃ pool1 m1, map_add_range length_library { lists := [] } PMapPool.new_map
          [Value.SYMBOL "x".toList] [Value.NUMBER (Number.INT 5)] = some (pool1, m1) ∧
        lookup length_library pool1 m1 (Value.SYMBOL "x".toList) =
          some (Value.NUMBER (Number.INT 5)) := by
  have h0 : EnvOK length_library { lists := [] } PMapPool.new_map :=
    ⟨trivial, fun x hx => by cases hx⟩
  refine ⟨h0, ?_⟩
  rcases (compound_procedure_applied length_library 0 [Value.SYMBOL "x".toList]
      [Value.NUMBER (Number.INT 5)] [Value.SYMBOL "x".toList] PMapPool.new_map
      (Env.mk { lists := [] } PMapPool.new_map []) h0 (by simp [Value.is_name])
      (List.pairwise_singleton _ _)).1 with ⟨pool1, m1, h, hget, _⟩
  exact ⟨pool1, m1, h, hget 0 (by decide) (by decide)⟩

end Orb

/-! ## The scope that is reported as left open -/

theorem check_scope_step (total fuel : Nat) (c : Char) (rest : List Char) (ls ln : Int)
    (stack : List (Int × Int × Int)) (hp : plain_char c) :
    check_scope_loop total [';'] SCOPE_START SCOPE_END (fuel + 1) (c :: rest) ls ln stack =
      if pos_in_string c SCOPE_START ≥ 0 then
        check_scope_loop total [';'] SCOPE_START SCOPE_END fuel rest ls ln
          ((pos_in_string c SCOPE_START, ((total - (rest.length + 1) : Nat) : Int) - ls, ln) ::
            stack)
      else if pos_in_string c SCOPE_END ≥ 0 then
        match stack with
        | (top, _, _) :: below =>
          if top = pos_in_string c SCOPE_END then
            check_scope_loop total [';'] SCOPE_START SCOPE_END fuel rest ls ln below
          else
            some { result := ScopeResult.FAULTY_SCOPE_CLOSING, line := ln, scope := c,
                   char_on_line := ((total - (rest.length + 1) : Nat) : Int) - ls }
        | [] =>
          some { result := ScopeResult.FAULTY_SCOPE_CLOSING, line := ln, scope := c,
                 char_on_line := ((total - (rest.length + 1) : Nat) : Int) - ls }
      else check_scope_loop total [';'] SCOPE_START SCOPE_END fuel rest ls ln stack := by
  obtain ⟨h1, h2, h3⟩ := hp
  have hd : deref (c :: rest) = c := rfl
  simp only [check_scope_loop, List.isEmpty_cons, Bool.false_eq_true, if_false, hd, h3,
    match_comment, h2, decide_False, h1, List.tail_cons, List.length_cons]

/-- The loop passes a balanced text and keeps the stack. -/
theorem check_scope_balanced (total : Nat) {b : List Char} (hb : Balanced b) :
    ∀ (fuel : Nat) (rest : List Char) (ls ln : Int) (stack : List (Int × Int × Int)),
      (∀ x ∈ b, plain_char x) →
      check_scope_loop total [';'] SCOPE_START SCOPE_END (fuel + b.length) (b ++ rest) ls ln
          stack =
        check_scope_loop total [';'] SCOPE_START SCOPE_END fuel rest ls ln stack := by
  induction hb with
  | nil => intro fuel rest ls ln stack _; rfl
  | plain c s h1 h2 _ ih =>
    intro fuel rest ls ln stack hp
    have hstep := check_scope_step total (fuel + s.length) c (s ++ rest) ls ln stack
      (hp c (List.mem_cons_self _ _))
    rw [pos_in_string_neg c _ h1, pos_in_string_neg c _ h2] at hstep
    simp only [ge_iff_le, Int.reduceNeg, Int.reduceLE, if_false] at hstep
    rw [List.length_cons, ← Nat.add_assoc, List.cons_append, hstep]
    exact ih fuel rest ls ln stack (fun x hx => hp x (List.mem_cons_of_mem _ hx))
  | scope i o c s t ho hc _ _ ihs iht =>
    intro fuel rest ls ln stack hp
    have hps : ∀ x ∈ s, plain_char x := fun x hx =>
      hp x (List.mem_cons_of_mem _ (List.mem_append_left _ hx))
    have hpc : plain_char c :=
      hp c (List.mem_cons_of_mem _ (List.mem_append_right _ (List.mem_cons_self _ _)))
    have hpt : ∀ x ∈ t, plain_char x := fun x hx =>
      hp x (List.mem_cons_of_mem _ (List.mem_append_right _ (List.mem_cons_of_mem _ hx)))
    have e1 : fuel + (o :: (s ++ c :: t)).length = (fuel + t.length + 1 + s.length) + 1 := by
      simp only [List.length_cons, List.length_append]; omega
    have e2 : (o :: (s ++ c :: t)) ++ rest = o :: (s ++ (c :: (t ++ rest))) := by simp
    rw [e1, e2, check_scope_step total _ o _ ls ln stack (hp o (List.mem_cons_self _ _)),
      pos_opener i o ho, if_pos (Int.natCast_nonneg i), ihs _ _ _ _ _ hps,
      check_scope_step total _ c _ ls ln _ hpc, (pos_closer i c hc).1, (pos_closer i c hc).2]
    simp only [ge_iff_le, Int.reduceNeg, Int.reduceLE, if_false, Int.natCast_nonneg, if_true]
    exact iht fuel rest ls ln stack hpt

/-- The loop passes a text of balanced texts and openers and leaves the
openers on the stack. -/
theorem check_scope_open_prefix (total : Nat) {u : List Char} (hu : OpenPrefix u) :
    ∀ (fuel : Nat) (rest : List Char) (ls ln : Int) (stack : List (Int × Int × Int)),
      (∀ x ∈ u, plain_char x) →
      ∃ above, check_scope_loop total [';'] SCOPE_START SCOPE_END (fuel + u.length) (u ++ rest)
          ls ln stack =
        check_scope_loop total [';'] SCOPE_START SCOPE_END fuel rest ls ln (above ++ stack) := by
  induction hu with
  | nil => intro fuel rest ls ln stack _; exact ⟨[], rfl⟩
  | balanced s u hs _ ih =>
    intro fuel rest ls ln stack hp
    rcases ih fuel rest ls ln stack (fun x hx => hp x (List.mem_append_right _ hx)) with
      ⟨above, h⟩
    refine ⟨above, ?_⟩
    rw [List.length_append, Nat.add_comm s.length, ← Nat.add_assoc, List.append_assoc,
      check_scope_balanced total hs _ _ _ _ _ (fun x hx => hp x (List.mem_append_left _ hx))]
    exact h
  | opener i o u ho _ ih =>
    intro fuel rest ls ln stack hp
    rcases ih fuel rest ls ln
        ((pos_in_string o SCOPE_START, ((total - ((u ++ rest).length + 1) : Nat) : Int) - ls, ln) ::
          stack) (fun x hx => hp x (List.mem_cons_of_mem _ hx)) with ⟨above, h⟩
    refine ⟨above ++ [(pos_in_string o SCOPE_START,
      ((total - ((u ++ rest).length + 1) : Nat) : Int) - ls, ln)], ?_⟩
    rw [List.length_cons, ← Nat.add_assoc, List.cons_append,
      check_scope_step total _ o _ ls ln stack (hp o (List.mem_cons_self _ _)),
      if_pos (by rw [pos_opener i o ho]; exact Int.natCast_nonneg i), h]
    simp

/-- C30: when `check_scope` reaches the end of a text with scopes still open,
it reports `SCOPE_LEFT_OPEN` for the scope that was opened last among them:
in a text without string literals, comments and line breaks that is made of
balanced texts and openers `u`, an opener `o` and a balanced text `b`, the
report has the character `o`, its position `u.length` and the line 0, also
when `u` holds openers that are never closed. -/
theorem scope_left_open_is_last (u b : List Char) (i : Nat) (o : Char)
    (ho : SCOPE_START[i]? = some o) (hu : OpenPrefix u) (hb : Balanced b)
    (hp : ∀ x ∈ u ++ o :: b, plain_char x) :
    check_scope (u ++ o :: b) [';'] SCOPE_START SCOPE_END =
      some { result := ScopeResult.SCOPE_LEFT_OPEN, line := 0, scope := o,
             char_on_line := u.length } := by
  have hpo : plain_char o := hp o (List.mem_append_right _ (List.mem_cons_self _ _))
  rcases check_scope_open_prefix (u ++ o :: b).length hu (b.length + 1 + 1) (o :: b) 0 0 []
      (fun x hx => hp x (List.mem_append_left _ hx)) with ⟨above, h⟩
  have e : (u ++ o :: b).length + 1 = b.length + 1 + 1 + u.length := by
    simp only [List.length_append, List.length_cons]; omega
  unfold check_scope
  rw [e, h, check_scope_step _ _ o b 0 0 _ hpo, pos_opener i o ho,
    if_pos (Int.natCast_nonneg i)]
  have hbal := check_scope_balanced (u ++ o :: b).length hb 1 [] 0 0
    (((i : Int), (((u ++ o :: b).length - (b.length + 1) : Nat) : Int) - 0, (0 : Int)) ::
      (above ++ [])) (fun x hx => hp x (List.mem_append_right _ (List.mem_cons_of_mem _ hx)))
  rw [List.append_nil] at hbal
  rw [Nat.add_comm 1 b.length] at hbal
  rw [hbal]
  simp only [check_scope_loop, List.isEmpty_nil, if_true, List.length_append, List.length_cons,
    Int.toNat_ofNat, Int.sub_zero]
  have hget : SCOPE_START.getD i NUL = o := by
    rw [List.getD_eq_getElem?_getD, ho]; rfl
  rw [hget]
  congr 2
  omega

theorem scope_left_open_is_last_witness :
    check_scope ['(', '['] [';'] SCOPE_START SCOPE_END =
      some { result := ScopeResult.SCOPE_LEFT_OPEN, line := 0, scope := '[',
             char_on_line := 1 } :=
  scope_left_open_is_last ['('] [] 2 '[' (by decide)
    (OpenPrefix.opener 0 '(' [] (by decide) OpenPrefix.nil) Balanced.nil
    (by intro x hx; simp at hx; rcases hx with rfl | rfl <;> exact ⟨by decide, by decide, by decide⟩)

/-- C30, counterexample: for the text `([` the scope reported as left open is
`[`, at character 1, not `(`, the first opener that is never closed. -/
theorem scope_left_open_not_first :
    (check_scope "([".toList [';'] SCOPE_START SCOPE_END).map (fun e => (e.result, e.scope,
      e.char_on_line)) = some (ScopeResult.SCOPE_LEFT_OPEN, '[', 1) := by
  decide

/-! ## Moving a value -/

namespace Orb

/-- C27: moving a `Value`, by the move constructor or by move assignment
from another object, gives the destination the tag and the payload the source
had and leaves the source with the tag it had and a payload of zero bytes;
the type of the source is `NIL` afterwards only when it was `NIL` before. -/
theorem move_keeps_source_type (this v : ValueObject) :
    (ValueObject.move_construct v).1 = v ∧ (ValueObject.move_assign this v).1 = v ∧
      (ValueObject.move_construct v).2 = { type := v.type, value := 0 } ∧
      (ValueObject.move_assign this v).2 = { type := v.type, value := 0 } ∧
      (((ValueObject.move_assign this v).2.type = TypeTag.NIL ↔ v.type = TypeTag.NIL) ∧
        ((ValueObject.move_construct v).2.type = TypeTag.NIL ↔ v.type = TypeTag.NIL)) :=
  ⟨rfl, rfl, rfl, rfl, Iff.rfl, Iff.rfl⟩

/-- C27, counterexample: a string that is moved from is left with the type
`STRING` and a null pointer, not with the type `NIL`. -/
theorem moved_string_is_not_nil :
    (ValueObject.move_construct string_object).2 = { type := TypeTag.STRING, value := 0 } ∧
      (ValueObject.move_construct string_object).2.type ≠ TypeTag.NIL ∧
      (ValueObject.move_assign { type := TypeTag.NIL, value := 0 } string_object).2.type ≠
        TypeTag.NIL := by
  decide

end Orb

/-! ## Keys with one hash -/

theorem one_bit_lt (j : Nat) (hj : j < 32) : 1 <<< j < U32 := by
  interval_cases j <;> decide

theorem slots_one_bit (j : Nat) (hj : j < 32) : slots (1 <<< j) = [j] := by
  interval_cases j <;> decide

theorem slots_below_one_bit (j : Nat) (hj : j < 32) : slots_below (1 <<< j) j = [] := by
  interval_cases j <;> decide

theorem insert_into_leaf (pool : PMapPool K V) (t : NodeType) (v : NodeValue K V)
    (newnode : Node K V) (j level : Nat) (hj : j < 32) :
    node_insert_replace_refarray pool (Node.mk 0 [] t v) newnode j level =
      some (Node.mk (1 <<< j) [newnode] t v) := by
  have hu : (0 ||| 1 <<< j) % U32 = 1 <<< j := by
    rw [Nat.zero_or, Nat.mod_eq_of_lt (one_bit_lt j hj)]
  have hidx : count_bits (1 <<< j &&& (1 <<< j - 1)) = 0 := by
    rw [index_eq _ _ (one_bit_lt j hj), slots_below_one_bit j hj]; rfl
  have hc0 : count_bits 0 = 0 := by decide
  simp only [node_insert_replace_refarray, Node.size, Node.used, Node.child_array, Node.index,
    hu, hidx, hc0, List.length_nil, lt_irrefl, Nat.zero_add, Nat.le_zero, Nat.one_ne_zero,
    or_self, if_false, List.take_nil, refarray_copy, List.replicate_one, List.set_cons_zero,
    refarray_written, Option.map_some', Node.type, Node.value]

theorem descend_one (hash level j : Nat) (c : Node K V) (t : NodeType) (v : NodeValue K V)
    (hj : slice hash level = j) :
    Node.descend hash 1 level (Node.mk (1 <<< j) [c] t v) = some c := by
  have hj32 : j < 32 := hj ▸ slice_lt hash level
  have hidx : count_bits (1 <<< j &&& (1 <<< j - 1)) = 0 := by
    rw [index_eq _ _ (one_bit_lt j hj32), slots_below_one_bit j hj32]; rfl
  have hbit : bit_is_on (1 <<< j) j = true := by
    rw [bit_is_on_eq, Nat.one_shiftLeft, Nat.testBit_two_pow_self]
  have hs : (hash >>> (level * 5) &&& 0x1f) = j := hj
  simp only [Node.descend, Node.get_child_by_hash_and_depth, Node.get_child_by_fieldindex,
    Node.index_in_use, Node.used, hs, hbit, if_true, Node.index, hidx, Node.child_array,
    List.getElem?_cons_zero]

/-- Two keys with one hash that are added to the empty map. -/
theorem add_two_equal_hashes (compare : K → K → Bool) (hashfun : K → Nat)
    (pool : PMapPool K V) (k1 k2 : K) (v1 v2 : V)
    (hh : hashfun k2 % U32 = hashfun k1 % U32) (hne : compare k2 k1 = false) :
    Map.add compare hashfun pool PMapPool.new_map k1 v1 =
        some (pool, { root_ := some (Node.mk (1 <<< slice (hashfun k1 % U32) 0)
          [Node.mk 0 [] NodeType.ValueNode (.keyvalue (new_keyvalue hashfun k1 v1))]
          NodeType.EmptyNode .unset) }) ∧
      Map.add compare hashfun pool { root_ := some (Node.mk (1 <<< slice (hashfun k1 % U32) 0)
          [Node.mk 0 [] NodeType.ValueNode (.keyvalue (new_keyvalue hashfun k1 v1))]
          NodeType.EmptyNode .unset) } k2 v2 =
        some (pool, { root_ := some (Node.mk (1 <<< slice (hashfun k1 % U32) 0)
          [Node.mk (1 <<< slice (hashfun k1 % U32) 1)
            [Node.mk 0 [] NodeType.ValueNode (.keyvalue (new_keyvalue hashfun k2 v2))]
            NodeType.ValueNode (.keyvalue (new_keyvalue hashfun k1 v1))]
          NodeType.EmptyNode .unset) }) := by
  have h1 : (new_keyvalue hashfun k1 v1).hash = hashfun k1 % U32 := rfl
  have h2 : (new_keyvalue hashfun k2 v2).hash = hashfun k1 % U32 := hh
  have hfree : ∀ (h level : Nat) (t : NodeType) (v : NodeValue K V),
      slice h level ∉ slots (Node.mk 0 ([] : List (Node K V)) t v).used := by
    intro h level t v
    simp only [Node.used, slots_zero, List.not_mem_nil, not_false_eq_true]
  constructor
  · simp only [Map.add, PMapPool.add_keyvalue, instantiate_tree_path, PMapPool.new_map, new_node]
    rw [instantiate_tree_loop_free compare _ 6 0 pool _ (hfree _ _ _ _), h1,
      insert_into_leaf pool _ _ _ _ 0 (slice_lt _ _)]
    rfl
  · have hj0 := slice_lt (hashfun k1 % U32) 0
    simp only [Map.add, PMapPool.add_keyvalue, instantiate_tree_path]
    have hin := instantiate_tree_loop_in_use compare (new_keyvalue hashfun k2 v2) 6 0 pool
      (1 <<< slice (hashfun k1 % U32) 0) [] []
      (Node.mk 0 [] NodeType.ValueNode (.keyvalue (new_keyvalue hashfun k1 v1)))
      NodeType.EmptyNode .unset (one_bit_lt _ hj0)
      (by rw [h2, slots_one_bit _ hj0]; exact List.mem_singleton_self _)
      (by rw [h2, slots_below_one_bit _ hj0]; rfl)
      (by rw [slots_one_bit _ hj0]; rfl)
    simp only [List.nil_append] at hin
    rw [hin]
    have hmatch : keyvalue_match_get compare (new_keyvalue hashfun k1 v1)
        (new_keyvalue hashfun k2 v2).first (new_keyvalue hashfun k2 v2).hash = none := by
      simp only [keyvalue_match_get, new_keyvalue, hne, Bool.and_false, Bool.false_eq_true,
        if_false]
    simp only [Nat.zero_lt_succ, Nat.lt_add_one, if_true, Node.value, hmatch, Nat.zero_add,
      show (0 : Nat) < 6 from by decide]
    rw [instantiate_tree_loop_free compare _ 5 1 pool _ (hfree _ _ _ _), h2,
      insert_into_leaf pool _ _ _ _ 1 (slice_lt _ _)]
    rfl

/-- C26: two keys that are not equal and have one 32-bit hash, added to the
empty map, are not stored together: the first is the cell of a `ValueNode` at
depth 1, the second the cell of a `ValueNode` at depth 2 below it, no list of
collided cells is made, and iterating the map yields both cells.  A
`CollisionNode` is made at depth 7, when the nodes on the way hold other
keys: of the eight keys `1, 33, ..., 225` with the hash 1 the last two are in
the list of a `CollisionNode` at depth 7 and the sixth is in a `ValueNode` at
depth 6. -/
theorem equal_hashes_two_levels (compare : K → K → Bool) (hashfun : K → Nat)
    (hc : CompareEquiv compare) (pool : PMapPool K V) (k1 k2 : K) (v1 v2 : V)
    (hh : hashfun k2 % U32 = hashfun k1 % U32) (hne : compare k2 k1 = false) :
    (∃ m1 m2 root, Map.add compare hashfun pool PMapPool.new_map k1 v1 = some (pool, m1) ∧
      Map.add compare hashfun pool m1 k2 v2 = some (pool, m2) ∧ m2.root_ = some root ∧
      Node.descend (hashfun k1 % U32) 1 0 root =
        some (Node.mk (1 <<< slice (hashfun k1 % U32) 1)
          [Node.mk 0 [] NodeType.ValueNode (.keyvalue (new_keyvalue hashfun k2 v2))]
          NodeType.ValueNode (.keyvalue (new_keyvalue hashfun k1 v1))) ∧
      Node.descend (hashfun k1 % U32) 2 0 root =
        some (Node.mk 0 [] NodeType.ValueNode (.keyvalue (new_keyvalue hashfun k2 v2))) ∧
      Map.elements pool m2 =
        some [new_keyvalue hashfun k1 v1, new_keyvalue hashfun k2 v2]) ∧
    (collision_example.2.root_.bind (Node.descend 1 7 0)).map
        (fun n => (n.type, n.values collision_example.1)) =
      some (NodeType.CollisionNode, [KeyValue.mk 1 193 1193, KeyValue.mk 1 225 1225]) ∧
    (collision_example.2.root_.bind (Node.descend 1 6 0)).map
        (fun n => (n.type, n.values collision_example.1)) =
      some (NodeType.ValueNode, [KeyValue.mk 1 161 1161]) := by
  refine ⟨?_, by decide, by decide⟩
  rcases add_two_equal_hashes compare hashfun pool k1 k2 v1 v2 hh hne with ⟨hadd1, hadd2⟩
  refine ⟨_, _, _, hadd1, hadd2, rfl, ?_, ?_, ?_⟩
  · exact descend_one _ 0 _ _ _ _ rfl
  · have e1 := descend_one (hashfun k1 % U32) 0 _
      (Node.mk (1 <<< slice (hashfun k1 % U32) 1)
        [Node.mk 0 [] NodeType.ValueNode (.keyvalue (new_keyvalue hashfun k2 v2))]
        NodeType.ValueNode (.keyvalue (new_keyvalue hashfun k1 v1)))
      NodeType.EmptyNode (.unset : NodeValue K V) rfl
    have e2 := descend_one (hashfun k1 % U32) 1 _
      (Node.mk 0 [] NodeType.ValueNode (.keyvalue (new_keyvalue hashfun k2 v2)))
      NodeType.ValueNode (.keyvalue (new_keyvalue hashfun k1 v1)) rfl
    simp only [Node.descend] at e1 e2 ⊢
    cases hg : (Node.mk (1 <<< slice (hashfun k1 % U32) 0)
        [Node.mk (1 <<< slice (hashfun k1 % U32) 1)
          [Node.mk 0 [] NodeType.ValueNode (.keyvalue (new_keyvalue hashfun k2 v2))]
          NodeType.ValueNode (.keyvalue (new_keyvalue hashfun k1 v1))]
        NodeType.EmptyNode (.unset : NodeValue K V)).get_child_by_hash_and_depth
          (hashfun k1 % U32) 0 with
    | none => rw [hg] at e1; cases e1
    | some c =>
      rw [hg] at e1
      simp only [Option.some.injEq] at e1
      subst e1
      exact e2
  · rcases add_keyvalue_post hc pool PMapPool.new_map trivial (new_keyvalue hashfun k1 v1)
        (new_keyvalue_good _ _ _) with ⟨p1, r1, ha1, hw1, _⟩
    have ha1' : Map.add compare hashfun pool PMapPool.new_map k1 v1 =
        some (p1, { root_ := some r1 }) := ha1
    rw [hadd1] at ha1'
    simp only [Option.some.injEq, Prod.mk.injEq, Map.mk.injEq] at ha1'
    obtain ⟨hp1, hr1⟩ := ha1'
    subst hp1 hr1
    rcases add_keyvalue_post hc pool _ hw1 (new_keyvalue hashfun k2 v2)
        (new_keyvalue_good _ _ _) with ⟨p2, r2, ha2, hw2, _⟩
    have ha2' : Map.add compare hashfun pool _ k2 v2 = some (p2, { root_ := some r2 }) := ha2
    rw [hadd2] at ha2'
    simp only [Option.some.injEq, Prod.mk.injEq, Map.mk.injEq] at ha2'
    obtain ⟨hp2, hr2⟩ := ha2'
    subst hp2 hr2
    rw [elements_eq hw2]
    simp [Map.contents, Node.descendants, Node.child_array, subtree_list_cons, subtree_list_nil,
      subtree_eq, Node.values, Node.type, Node.value]

theorem equal_hashes_two_levels_witness :
    Map.elements { lists := [] }
        { root_ := some (Node.mk 2 [Node.mk 1 [Node.mk 0 [] NodeType.ValueNode
          (.keyvalue (KeyValue.mk 1 33 1033))] NodeType.ValueNode
          (.keyvalue (KeyValue.mk 1 1 1001))] NodeType.EmptyNode .unset) } =
      some [KeyValue.mk 1 1 1001, KeyValue.mk 1 33 1033] := by
  rcases (equal_hashes_two_levels nat_compare low_bits_hash nat_compare_equiv { lists := [] }
      1 33 1001 1033 (by decide) (by decide)).1 with ⟨m1, m2, root, h1, h2, _, _, _, he⟩
  have e1 : m1 = { root_ := some (Node.mk 2 [Node.mk 0 [] NodeType.ValueNode
      (.keyvalue (KeyValue.mk 1 1 1001))] NodeType.EmptyNode .unset) } := by
    have : Map.add nat_compare low_bits_hash { lists := [] } PMapPool.new_map 1 1001 =
        some ({ lists := [] }, { root_ := some (Node.mk 2 [Node.mk 0 [] NodeType.ValueNode
          (.keyvalue (KeyValue.mk 1 1 1001))] NodeType.EmptyNode .unset) }) := by rfl
    rw [this] at h1
    simp only [Option.some.injEq, Prod.mk.injEq, true_and] at h1
    exact h1.symm
  subst e1
  have e2 : m2 = { root_ := some (Node.mk 2 [Node.mk 1 [Node.mk 0 [] NodeType.ValueNode
      (.keyvalue (KeyValue.mk 1 33 1033))] NodeType.ValueNode
      (.keyvalue (KeyValue.mk 1 1 1001))] NodeType.EmptyNode .unset) } := by
    have : Map.add nat_compare low_bits_hash { lists := [] }
        { root_ := some (Node.mk 2 [Node.mk 0 [] NodeType.ValueNode
          (.keyvalue (KeyValue.mk 1 1 1001))] NodeType.EmptyNode .unset) } 33 1033 =
        some ({ lists := [] }, { root_ := some (Node.mk 2 [Node.mk 1 [Node.mk 0 []
          NodeType.ValueNode (.keyvalue (KeyValue.mk 1 33 1033))] NodeType.ValueNode
          (.keyvalue (KeyValue.mk 1 1 1001))] NodeType.EmptyNode .unset) }) := by rfl
    rw [this] at h2
    simp only [Option.some.injEq, Prod.mk.injEq, true_and] at h2
    exact h2.symm
  subst e2
  exact he

/-- C26, counterexample: after the keys 1 and 33, which have the hash 1, are
added to the empty map, the node at depth 7 on the way of that hash does not
exist, the pool holds no list of collided cells, and the two cells are in
`ValueNode`s at the depths 1 and 2. -/
theorem two_equal_hashes_no_collision_node :
    (map_insert_elements nat_compare low_bits_hash { lists := [] } [(1, 1001), (33, 1033)]).map
        (fun r => (r.1.lists, r.2.root_.bind (Node.descend 1 7 0),
          (r.2.root_.bind (Node.descend 1 1 0)).map (fun n => (n.type, n.values r.1)),
          (r.2.root_.bind (Node.descend 1 2 0)).map (fun n => (n.type, n.values r.1)))) =
      some ([], none, some (NodeType.ValueNode, [KeyValue.mk 1 1 1001]),
        some (NodeType.ValueNode, [KeyValue.mk 1 33 1033])) := by
  rfl

namespace Orb

/-! ## Sums -/

theorem to_int_add_left (a b : Int) : orb.to_int (orb.to_int a + b) = orb.to_int (a + b) := by
  unfold orb.to_int
  omega

theorem to_int_of_range (a : Int) (h1 : -2147483648 ≤ a) (h2 : a < 2147483648) :
    orb.to_int a = a := by
  unfold orb.to_int
  omega

theorem add_fold_ints (lib : Library) : ∀ (l : List Int) (a : Int),
    (l.map fun i => Value.NUMBER (Number.INT i)).foldl
        (fun n arg => Number.add lib n (value_number arg)) (Number.INT (orb.to_int a)) =
      Number.INT (orb.to_int (a + l.sum)) := by
  intro l
  induction l with
  | nil => intro a; simp
  | cons i rest ih =>
    intro a
    simp only [List.map_cons, List.foldl_cons, List.sum_cons]
    have : Number.add lib (Number.INT (orb.to_int a)) (value_number (Value.NUMBER (Number.INT i))) =
        Number.INT (orb.to_int (a + i)) := by
      simp only [Number.add, Number.is_float, value_number, Number.to_int, Bool.or_self,
        Bool.false_eq_true, if_false, to_int_add_left]
    rw [this, ih (a + i), Int.add_assoc]

theorem add_fold_tag (lib : Library) : ∀ (l : List Number) (x : Number),
    Number.is_float ((l.map Value.NUMBER).foldl
        (fun n arg => Number.add lib n (value_number arg)) x) =
      (Number.is_float x || l.any Number.is_float) := by
  intro l
  induction l with
  | nil => intro x; simp
  | cons n rest ih =>
    intro x
    simp only [List.map_cons, List.foldl_cons, List.any_cons]
    rw [ih]
    have : Number.is_float (Number.add lib x (value_number (Value.NUMBER n))) =
        (Number.is_float x || Number.is_float n) := by
      simp only [Number.add, value_number]
      cases h : (Number.is_float x || Number.is_float n) <;> simp [h, Number.is_float]
    rw [this, Bool.or_assoc]

theorem all_numbers (l : List Number) : all_are_numbers (l.map Value.NUMBER) = true := by
  simp [all_are_numbers, Value.type]

theorem apply_primitive_add (lib : Library) (f : Nat) (params : List Value)
    (env : Map Value Value) (orb : Env) :
    apply_primitive lib (f + 1) Primitive.op_add params env orb =
      (op_add lib params).bind fun r => some (.ok (r, env, orb)) := rfl

theorem eval_numbers (lib : Library) (env : Map Value Value) (orb : Env) :
    ∀ (l : List Number) (f : Nat),
      eval_list_to_vector lib (f + l.length + 1) (l.map Value.NUMBER) env orb =
        some (.ok (l.map Value.NUMBER, env, orb)) := by
  intro l
  induction l with
  | nil => intro f; rfl
  | cons n rest ih =>
    intro f
    rw [List.map_cons, List.length_cons, ← Nat.add_assoc, eval_list_to_vector_cons, eval_number,
      bind_ok, ih f, bind_ok]

/-- A call of a native operator with numbers for operands. -/
theorem eval_call_numbers (lib : Library) (s : List Char) (p : Primitive) (l : List Number)
    (f : Nat) (env : Map Value Value) (orb : Env)
    (hs : s ∉ ["quote".toList, "def".toList, "set".toList, "if".toList, "fn".toList,
      "begin".toList, "cond".toList])
    (hp : lookup lib orb.map_pool_ env (Value.SYMBOL s) = some (Value.FUNCTION p)) :
    eval lib (f + l.length + 3) (Value.LIST (Value.SYMBOL s :: l.map Value.NUMBER)) env orb =
      apply_primitive lib (f + l.length + 1) p (l.map Value.NUMBER) env orb := by
  rw [eval_application lib _ _ _ _ _ hs, eval_symbol_found lib _ _ _ _ _ hp, bind_ok,
    apply_function, eval_numbers, bind_ok]

/-- The list `(begin (s n...))` of one call of a native operator with numbers
for operands. -/
theorem eval_begin_call_numbers (lib : Library) (s : List Char) (p : Primitive)
    (l : List Number) (f : Nat) (env : Map Value Value) (orb : Env)
    (hs : s ∉ ["quote".toList, "def".toList, "set".toList, "if".toList, "fn".toList,
      "begin".toList, "cond".toList])
    (hp : lookup lib orb.map_pool_ env (Value.SYMBOL s) = some (Value.FUNCTION p)) :
    eval lib (f + l.length + 5) (Value.LIST [make_value_symbol "begin",
        Value.LIST (Value.SYMBOL s :: l.map Value.NUMBER)]) env orb =
      apply_primitive lib (f + l.length + 1) p (l.map Value.NUMBER) env orb := by
  rw [eval_begin, eval_sequence_last, eval_call_numbers lib s p l f _ _ hs hp]

theorem sum_three_parsed (lib : Library) : string_to_value lib "(+ 1 2 3)".toList =
    some (.ok (Value.LIST [make_value_symbol "begin", Value.LIST (Value.SYMBOL "+".toList ::
      [Number.INT 1, Number.INT 2, Number.INT 3].map Value.NUMBER)])) :=
  parses_to_sound lib length_library _ _ (by decide!)

theorem sum_two_parsed (lib : Library) : string_to_value lib "(+ 1 2)".toList =
    some (.ok (Value.LIST [make_value_symbol "begin", Value.LIST (Value.SYMBOL "+".toList ::
      [Number.INT 1, Number.INT 2].map Value.NUMBER)])) :=
  parses_to_sound lib length_library _ _ (by decide!)

theorem sum_float_parsed (lib : Library) : string_to_value lib "(+ 1 2.0)".toList =
    some (.ok (Value.LIST [make_value_symbol "begin", Value.LIST (Value.SYMBOL "+".toList ::
      [Number.INT 1, Number.FLOAT (lib.atof "2.0".toList)].map Value.NUMBER)])) := by
  rfl

theorem op_add_ints (lib : Library) (l : List Int) :
    op_add lib (l.map fun i => Value.NUMBER (Number.INT i)) =
      some (.ok (Value.NUMBER (Number.INT (orb.to_int l.sum)))) := by
  have hall : all_are_numbers (l.map fun i => Value.NUMBER (Number.INT i)) = true := by
    simp [all_are_numbers, Value.type]
  have h := add_fold_ints lib l 0
  rw [show orb.to_int 0 = 0 from rfl, Int.zero_add] at h
  simp only [op_add, hall, Bool.not_true, Bool.false_eq_true, if_false, h]

/-- C22: `+` applied to numbers returns a number that is an `INT` exactly when
every argument is an `INT`, and a `FLOAT` when an argument is a `FLOAT`; the
sum of `INT`s is their sum as an `int` (modulo `2 ^ 32`), which is the sum of
the integers while that is in the range of `int`, and 0 for no argument.  In a
fresh runtime `(+ 1 2 3)` gives the integer 6, `(+ 1 2)` the integer 3 and
`(+ 1 2.0)` a `FLOAT`, the sum of the `double`s 1 and 2.0. -/
theorem add_numbers (lib : Library) (fuel : Nat) :
    (∀ ns : List Number, ∃ r, op_add lib (ns.map Value.NUMBER) = some (.ok (Value.NUMBER r)) ∧
      (Number.is_float r = false ↔ ∀ n ∈ ns, Number.is_float n = false) ∧
      ((∃ n ∈ ns, Number.is_float n = true) → Number.is_float r = true)) ∧
    (∀ l : List Int, op_add lib (l.map fun i => Value.NUMBER (Number.INT i)) =
      some (.ok (Value.NUMBER (Number.INT (orb.to_int l.sum))))) ∧
    (∀ l : List Int, -2147483648 ≤ l.sum → l.sum < 2147483648 →
      op_add lib (l.map fun i => Value.NUMBER (Number.INT i)) =
        some (.ok (Value.NUMBER (Number.INT l.sum)))) ∧
    op_add lib [] = some (.ok (Value.NUMBER (Number.INT 0))) ∧
    ∃ E0, Env.init lib = some E0 ∧
      read_eval lib (fuel + 8) E0 "(+ 1 2 3)".toList =
        some (.ok (Value.NUMBER (Number.INT 6)), some E0) ∧
      read_eval lib (fuel + 8) E0 "(+ 1 2)".toList =
        some (.ok (Value.NUMBER (Number.INT 3)), some E0) ∧
      read_eval lib (fuel + 8) E0 "(+ 1 2.0)".toList =
        some (.ok (Value.NUMBER (Number.FLOAT
          (lib.double_add (lib.int_to_double 1) (lib.atof "2.0".toList)))), some E0) := by
  refine ⟨?_, op_add_ints lib, ?_, rfl, ?_⟩
  · intro ns
    refine ⟨(ns.map Value.NUMBER).foldl (fun n arg => Number.add lib n (value_number arg))
      (Number.INT 0),
      by simp only [op_add, all_numbers, Bool.not_true, Bool.false_eq_true, if_false], ?_, ?_⟩
    · rw [add_fold_tag]
      simp [Number.is_float]
    · rintro ⟨n, hn, hf⟩
      rw [add_fold_tag]
      simp only [Bool.or_eq_true, List.any_eq_true]
      exact Or.inr ⟨n, hn, hf⟩
  · intro l h1 h2
    rw [op_add_ints, to_int_of_range _ h1 h2]
  · rcases env_init lib with ⟨E0, hinit, _, _, hfind, _⟩
    have hplus := default_lookup lib E0 hfind "+" Primitive.op_add (by decide)
    refine ⟨E0, hinit, ?_, ?_, ?_⟩
    · simp only [read_eval, sum_three_parsed lib, eval_value]
      rw [show fuel + 8 = fuel + [Number.INT 1, Number.INT 2, Number.INT 3].length + 5 from rfl,
        eval_begin_call_numbers lib _ _ [Number.INT 1, Number.INT 2, Number.INT 3] fuel _ _
        (by decide) hplus]
      rfl
    · simp only [read_eval, sum_two_parsed lib, eval_value]
      rw [show fuel + 8 = fuel + 1 + [Number.INT 1, Number.INT 2].length + 5 from rfl,
        eval_begin_call_numbers lib _ _ [Number.INT 1, Number.INT 2] (fuel + 1) _ _
        (by decide) hplus]
      rfl
    · simp only [read_eval, sum_float_parsed lib, eval_value]
      rw [show fuel + 8 =
          fuel + 1 + [Number.INT 1, Number.FLOAT (lib.atof "2.0".toList)].length + 5 from rfl,
        eval_begin_call_numbers lib _ _ [Number.INT 1, Number.FLOAT (lib.atof "2.0".toList)]
        (fuel + 1) _ _ (by decide) hplus]
      rfl

theorem add_numbers_witness :
    op_add length_library [Value.NUMBER (Number.INT 2147483647), Value.NUMBER (Number.INT 1),
        Value.NUMBER (Number.INT (-2))] =
      some (.ok (Value.NUMBER (Number.INT 2147483646))) :=
  (add_numbers length_library 0).2.2.1 [2147483647, 1, -2] (by decide) (by decide)

end Orb

namespace Orb

/-! ## Division -/

theorem apply_primitive_div (lib : Library) (f : Nat) (params : List Value)
    (env : Map Value Value) (orb : Env) :
    apply_primitive lib (f + 1) Primitive.op_div params env orb =
      (op_div lib params).bind fun r => some (.ok (r, env, orb)) := rfl

theorem div_zero_parsed (lib : Library) : string_to_value lib "(/ 1 0)".toList =
    some (.ok (Value.LIST [make_value_symbol "begin", Value.LIST (Value.SYMBOL "/".toList ::
      [Number.INT 1, Number.INT 0].map Value.NUMBER)])) :=
  parses_to_sound lib length_library _ _ (by decide!)

theorem div_two_parsed (lib : Library) : string_to_value lib "(/ 6 3)".toList =
    some (.ok (Value.LIST [make_value_symbol "begin", Value.LIST (Value.SYMBOL "/".toList ::
      [Number.INT 6, Number.INT 3].map Value.NUMBER)])) :=
  parses_to_sound lib length_library _ _ (by decide!)

theorem div_one_zero_parsed (lib : Library) : string_to_value lib "(/ 0)".toList =
    some (.ok (Value.LIST [make_value_symbol "begin", Value.LIST (Value.SYMBOL "/".toList ::
      [Number.INT 0].map Value.NUMBER)])) :=
  parses_to_sound lib length_library _ _ (by decide!)

/-- C23: `op_div` does not test the divisor: for two `INT`s it evaluates the
C++ expression `a / 0`, whose behaviour is not defined, so that the model has
no result (`none`) where the claim asks for an exception; so for `(/ a 0)` and
for `(/ 0)`, also through `read_eval` in a fresh runtime, with a fuel for which
`(/ 6 3)` returns 2.  An argument that is no number does raise an exception. -/
theorem div_by_zero_undefined (lib : Library) (fuel : Nat) :
    (∀ a : Int, op_div lib [Value.NUMBER (Number.INT a), Value.NUMBER (Number.INT 0)] = none) ∧
    op_div lib [Value.NUMBER (Number.INT 0)] = none ∧
    op_div lib [Value.NUMBER (Number.INT 1), Value.NIL] =
      some (.error "op_sub: value's type is not NUMBER".toList) ∧
    ∃ E0, Env.init lib = some E0 ∧
      read_eval lib (fuel + 7) E0 "(/ 1 0)".toList = none ∧
      read_eval lib (fuel + 7) E0 "(/ 0)".toList = none ∧
      read_eval lib (fuel + 7) E0 "(/ 6 3)".toList =
        some (.ok (Value.NUMBER (Number.INT 2)), some E0) := by
  refine ⟨fun a => rfl, rfl, rfl, ?_⟩
  rcases env_init lib with ⟨E0, hinit, _, _, hfind, _⟩
  have hdiv := default_lookup lib E0 hfind "/" Primitive.op_div (by decide)
  refine ⟨E0, hinit, ?_, ?_, ?_⟩
  · simp only [read_eval, div_zero_parsed lib, eval_value]
    rw [show fuel + 7 = fuel + [Number.INT 1, Number.INT 0].length + 5 from rfl,
      eval_begin_call_numbers lib _ _ [Number.INT 1, Number.INT 0] fuel _ _ (by decide) hdiv]
    rfl
  · simp only [read_eval, div_one_zero_parsed lib, eval_value]
    rw [show fuel + 7 = fuel + 1 + [Number.INT 0].length + 5 from rfl,
      eval_begin_call_numbers lib _ _ [Number.INT 0] (fuel + 1) _ _ (by decide) hdiv]
    rfl
  · simp only [read_eval, div_two_parsed lib, eval_value]
    rw [show fuel + 7 = fuel + [Number.INT 6, Number.INT 3].length + 5 from rfl,
      eval_begin_call_numbers lib _ _ [Number.INT 6, Number.INT 3] fuel _ _ (by decide) hdiv]
    rfl

end Orb

namespace Orb

/-! ## Ranges -/

theorem apply_primitive_range (lib : Library) (f : Nat) (params : List Value)
    (env : Map Value Value) (orb : Env) :
    apply_primitive lib (f + 1) Primitive.op_make_range params env orb =
      (op_make_range lib f params).bind fun r => some (.ok (r, env, orb)) := rfl

/-- The values `a, a + inc, ...` of an increasing range of `count` steps. -/
theorem range_loop_ints (lib : Library) (inc b : Int) (hinc : 0 < inc) :
    ∀ (count : Nat) (fuel : Nat) (a : Int), count < fuel →
      -2147483648 ≤ a → a + count * inc < 2147483648 →
      a + count * inc ≥ b → (count = 0 ∨ a + (count - 1 : Nat) * inc < b) →
      range_loop lib fuel (Number.INT a) (Number.INT inc) true (Number.INT b) =
        some ((List.range count).map fun (k : Nat) =>
          Value.NUMBER (Number.INT (a + (k : Int) * inc))) := by
  intro count
  induction count with
  | zero =>
    intro fuel a hf _ _ hge _
    obtain ⟨f, rfl⟩ : ∃ f, fuel = f + 1 := ⟨fuel - 1, by omega⟩
    have hnot : ¬ a < b := by simp at hge; omega
    simp [range_loop, Number.less, Number.is_float, Number.to_int, hnot]
  | succ n ih =>
    intro fuel a hf hlo hhi hge hlast
    obtain ⟨f, rfl⟩ : ∃ f, fuel = f + 1 := ⟨fuel - 1, by omega⟩
    have hpos : (0 : Int) ≤ n * inc := Int.mul_nonneg (Int.natCast_nonneg n) (le_of_lt hinc)
    have hcast : ((n + 1 : Nat) : Int) * inc = n * inc + inc := by push_cast; ring
    rw [hcast] at hhi hge
    have hab : a < b := by
      rcases hlast with h | h
      · omega
      · simp only [Nat.add_sub_cancel] at h
        omega
    have hstep : Number.add lib (Number.INT a) (Number.INT inc) = Number.INT (a + inc) := by
      simp only [Number.add, Number.is_float, Number.to_int, Bool.or_self, Bool.false_eq_true,
        if_false]
      rw [to_int_of_range _ (by omega) (by omega)]
    have hrec := ih f (a + inc) (by omega) (by omega) (by omega) (by omega) (by
      rcases Nat.eq_zero_or_pos n with h0 | hp
      · exact Or.inl h0
      · right
        rcases hlast with h | h
        · omega
        · simp only [Nat.add_sub_cancel] at h
          have : ((n - 1 : Nat) : Int) = (n : Int) - 1 := by omega
          rw [this]
          have : ((n : Int) - 1) * inc = n * inc - inc := by ring
          omega)
    simp only [range_loop, Number.less, Number.is_float, Number.to_int, Bool.or_self,
      Bool.false_eq_true, if_false, if_true, hab, decide_True, hstep, hrec, Option.map_some']
    rw [List.range_succ_eq_map, List.map_cons, List.map_map]
    simp only [Nat.cast_zero, zero_mul, add_zero, Option.some.injEq, List.cons.injEq, true_and]
    apply List.map_congr_left
    intro k _
    simp only [Function.comp, Nat.cast_succ]
    congr 2
    ring

theorem ceil_div_bounds (a inc b : Int) (hinc : 0 < inc) (hab : a < b) :
    0 < (b - a + inc - 1) / inc ∧ ((b - a + inc - 1) / inc - 1) * inc < b - a ∧
      b - a ≤ (b - a + inc - 1) / inc * inc := by
  have h1 := Int.ediv_mul_le (b - a + inc - 1) (ne_of_gt hinc)
  have h2 := Int.lt_ediv_add_one_mul_self (b - a + inc - 1) hinc
  have h3 : ((b - a + inc - 1) / inc + 1) * inc = (b - a + inc - 1) / inc * inc + inc := by ring
  have h4 : ((b - a + inc - 1) / inc - 1) * inc = (b - a + inc - 1) / inc * inc - inc := by ring
  refine ⟨?_, by omega, by omega⟩
  by_contra hle
  have : (b - a + inc - 1) / inc * inc ≤ 0 :=
    Int.mul_nonpos_of_nonpos_of_nonneg (by omega) (le_of_lt hinc)
  omega

theorem range_parsed (lib : Library) : string_to_value lib "(range 0 1 5)".toList =
    some (.ok (Value.LIST [make_value_symbol "begin", Value.LIST (Value.SYMBOL "range".toList ::
      [Number.INT 0, Number.INT 1, Number.INT 5].map Value.NUMBER)])) :=
  parses_to_sound lib length_library _ _ (by decide!)

theorem count_range_parsed (lib : Library) : string_to_value lib "(count (range 0 1 5))".toList =
    some (.ok (Value.LIST [make_value_symbol "begin", Value.LIST [Value.SYMBOL "count".toList,
      Value.LIST (Value.SYMBOL "range".toList ::
        [Number.INT 0, Number.INT 1, Number.INT 5].map Value.NUMBER)]])) :=
  parses_to_sound lib length_library _ _ (by decide!)

/-- The range of `int`s from `a` in steps of `inc` to below `b`. -/
theorem op_make_range_ints (lib : Library) (a inc b : Int) (fuel : Nat)
    (ha : -2147483648 ≤ a) (hinc : 0 < inc) (hab : a < b)
    (hmax : a + ((b - a + inc - 1) / inc) * inc < 2147483648)
    (hfuel : ((b - a + inc - 1) / inc).toNat < fuel) :
    op_make_range lib fuel [Value.NUMBER (Number.INT a), Value.NUMBER (Number.INT inc),
        Value.NUMBER (Number.INT b)] =
      some (.ok (Value.LIST ((List.range ((b - a + inc - 1) / inc).toNat).map fun (k : Nat) =>
        Value.NUMBER (Number.INT (a + (k : Int) * inc))))) := by
  rcases ceil_div_bounds a inc b hinc hab with ⟨hq, hlt, hge⟩
  have hcast : (((b - a + inc - 1) / inc).toNat : Int) = (b - a + inc - 1) / inc :=
    Int.toNat_of_nonneg (le_of_lt hq)
  have hloop := range_loop_ints lib inc b hinc ((b - a + inc - 1) / inc).toNat fuel a hfuel ha
    (by rw [hcast]; exact hmax) (by rw [hcast]; omega) (by
      right
      have : ((((b - a + inc - 1) / inc).toNat - 1 : Nat) : Int) = (b - a + inc - 1) / inc - 1 := by
        omega
      rw [this]; omega)
  have hless : Number.less lib (Number.INT b) (Number.INT a) = false := by
    simp only [Number.less, Number.is_float, Number.to_int, Bool.or_self, Bool.false_eq_true,
      if_false, decide_eq_false_iff_not]
    omega
  have hgr : Number.greater lib (Number.INT inc) (Number.INT 0) = true := by
    simp only [Number.greater, Number.is_float, Number.to_int, Bool.or_self, Bool.false_eq_true,
      if_false, decide_eq_true_eq]
    omega
  simp only [op_make_range, value_number, Number.is_float, Bool.or_self, Bool.false_eq_true,
    if_false, range_values, hless, Bool.false_and, hgr, hloop, Option.map_some']

theorem apply_primitive_count (lib : Library) (f : Nat) (params : List Value)
    (env : Map Value Value) (orb : Env) :
    apply_primitive lib (f + 1) Primitive.op_count params env orb =
      (op_count params orb).bind fun r => some (.ok (r, env, orb)) := rfl

set_option maxRecDepth 100000 in
theorem range_example (lib : Library) (f : Nat) (env : Map Value Value) (orb : Env) :
    apply_primitive lib (f + 7) Primitive.op_make_range
        ([Number.INT 0, Number.INT 1, Number.INT 5].map Value.NUMBER) env orb =
      some (.ok (Value.LIST [Value.NUMBER (Number.INT 0), Value.NUMBER (Number.INT 1),
        Value.NUMBER (Number.INT 2), Value.NUMBER (Number.INT 3),
        Value.NUMBER (Number.INT 4)], env, orb)) := rfl

/-- C24: for `int`s `a`, `inc` and `b` with `inc > 0` and `a < b`, as long as
the first value `a + count * inc` that is not below `b` is in the range of
`int`, `(range a inc b)` is the list of the `count = ceil((b - a) / inc)`
values `a, a + inc, ...`, which are the values `a + k * inc` below `b`.  In a
fresh runtime `(range 0 1 5)` is the list `(0 1 2 3 4)` and
`(count (range 0 1 5))` is 5. -/
theorem range_is_arithmetic (lib : Library) (a inc b : Int) (fuel f : Nat)
    (ha : -2147483648 ≤ a) (hinc : 0 < inc) (hab : a < b)
    (hmax : a + ((b - a + inc - 1) / inc) * inc < 2147483648)
    (hfuel : ((b - a + inc - 1) / inc).toNat < fuel) :
    op_make_range lib fuel [Value.NUMBER (Number.INT a), Value.NUMBER (Number.INT inc),
        Value.NUMBER (Number.INT b)] =
      some (.ok (Value.LIST ((List.range ((b - a + inc - 1) / inc).toNat).map fun (k : Nat) =>
        Value.NUMBER (Number.INT (a + (k : Int) * inc))))) ∧
    (∀ k : Nat, k < ((b - a + inc - 1) / inc).toNat ↔ a + (k : Int) * inc < b) ∧
    (∃ E0, Env.init lib = some E0 ∧
      read_eval lib (f + 11) E0 "(range 0 1 5)".toList =
        some (.ok (Value.LIST [Value.NUMBER (Number.INT 0), Value.NUMBER (Number.INT 1),
          Value.NUMBER (Number.INT 2), Value.NUMBER (Number.INT 3),
          Value.NUMBER (Number.INT 4)]), some E0) ∧
      read_eval lib (f + 14) E0 "(count (range 0 1 5))".toList =
        some (.ok (Value.NUMBER (Number.INT 5)), some E0)) := by
  refine ⟨op_make_range_ints lib a inc b fuel ha hinc hab hmax hfuel, ?_, ?_⟩
  · rcases ceil_div_bounds a inc b hinc hab with ⟨hq, hlt, hge⟩
    intro k
    have hcast : (((b - a + inc - 1) / inc).toNat : Int) = (b - a + inc - 1) / inc :=
      Int.toNat_of_nonneg (le_of_lt hq)
    generalize (b - a + inc - 1) / inc = q at hq hlt hge hcast
    have hq1 : (q - 1) * inc = q * inc - inc := by ring
    constructor
    · intro hk
      have hk' : (k : Int) ≤ q - 1 := by omega
      have := Int.mul_le_mul_of_nonneg_right hk' (le_of_lt hinc)
      omega
    · intro hk
      by_contra hnot
      have hk' : q ≤ (k : Int) := by omega
      have := Int.mul_le_mul_of_nonneg_right hk' (le_of_lt hinc)
      omega
  · rcases env_init lib with ⟨E0, hinit, _, _, hfind, _⟩
    have hrange := default_lookup lib E0 hfind "range" Primitive.op_make_range (by decide)
    have hcount := default_lookup lib E0 hfind "count" Primitive.op_count (by decide)
    refine ⟨E0, hinit, ?_, ?_⟩
    · simp only [read_eval, range_parsed lib, eval_value]
      rw [show f + 11 = f + 3 + [Number.INT 0, Number.INT 1, Number.INT 5].length + 5 from rfl,
        eval_begin_call_numbers lib _ _ [Number.INT 0, Number.INT 1, Number.INT 5] (f + 3) _ _
          (by decide) hrange, show f + 3 + [Number.INT 0, Number.INT 1, Number.INT 5].length + 1 =
          f + 7 from rfl, range_example]
    · simp only [read_eval, count_range_parsed lib, eval_value]
      rw [eval_begin, eval_sequence_last, eval_application lib _ _ _ _ _ (by decide),
        eval_symbol_found lib _ _ _ _ _ hcount, bind_ok, apply_function,
        eval_list_to_vector_cons,
        show f + 9 = f + 3 + [Number.INT 0, Number.INT 1, Number.INT 5].length + 3 from rfl,
        eval_call_numbers lib _ _ [Number.INT 0, Number.INT 1, Number.INT 5] (f + 3) _ _
          (by decide) hrange, show f + 3 + [Number.INT 0, Number.INT 1, Number.INT 5].length + 1 =
          f + 7 from rfl, range_example, bind_ok, eval_list_to_vector_nil, bind_ok, bind_ok,
        apply_primitive_count]
      rfl

theorem range_is_arithmetic_witness :
    op_make_range length_library 6
        [Value.NUMBER (Number.INT 1), Value.NUMBER (Number.INT 3), Value.NUMBER (Number.INT 11)] =
      some (.ok (Value.LIST [Value.NUMBER (Number.INT 1), Value.NUMBER (Number.INT 4),
        Value.NUMBER (Number.INT 7), Value.NUMBER (Number.INT 10)])) :=
  (range_is_arithmetic length_library 1 3 11 6 0 (by decide) (by decide) (by decide) (by decide)
    (by decide)).1

/-- C24, counterexample: for `a = 2147483646`, `inc = 2` and `b = 2147483647`
the claim gives the one value `a`; the code adds `inc` to `a` as `int`s, which
with the sum taken modulo `2 ^ 32` is `-2147483648`, below `b`, so that the
loop goes on and the result, if there is one, has more values. -/
theorem range_overflow_differs :
    ¬ ∃ fuel : Nat, op_make_range length_library fuel
        [Value.NUMBER (Number.INT 2147483646), Value.NUMBER (Number.INT 2),
          Value.NUMBER (Number.INT 2147483647)] =
      some (.ok (Value.LIST [Value.NUMBER (Number.INT 2147483646)])) := by
  rintro ⟨fuel, h⟩
  revert h
  cases fuel with
  | zero => intro h; cases h
  | succ f =>
    cases f with
    | zero => intro h; cases h
    | succ g =>
      have e : op_make_range length_library (g + 1 + 1)
          [Value.NUMBER (Number.INT 2147483646), Value.NUMBER (Number.INT 2),
            Value.NUMBER (Number.INT 2147483647)] =
          (((range_loop length_library g (Number.INT (-2147483646)) (Number.INT 2) true
            (Number.INT 2147483647)).map (Value.NUMBER (Number.INT (-2147483648)) :: ·)).map
              (Value.NUMBER (Number.INT 2147483646) :: ·)).map
            fun l => Except.ok (Value.LIST l) := rfl
      rw [e]
      cases range_loop length_library g (Number.INT (-2147483646)) (Number.INT 2) true
          (Number.INT 2147483647) with
      | none => simp
      | some l => simp

theorem range_loop_stays (lib : Library) (a b : Int) (ha : -2147483648 ≤ a)
    (ha2 : a < 2147483648) (hab : b < a) :
    ∀ fuel : Nat, range_loop lib fuel (Number.INT a) (Number.INT 0) false (Number.INT b) =
      none := by
  intro fuel
  induction fuel with
  | zero => rfl
  | succ f ih =>
    have hstep : Number.add lib (Number.INT a) (Number.INT 0) = Number.INT a := by
      simp only [Number.add, Number.is_float, Number.to_int, Bool.or_self, Bool.false_eq_true,
        if_false, Int.add_zero]
      rw [to_int_of_range _ ha ha2]
    simp only [range_loop, Number.greater, Number.is_float, Number.to_int, Bool.or_self,
      Bool.false_eq_true, if_false, gt_iff_lt, hab, decide_True, if_true, hstep, ih,
      Option.map_none']

theorem range_zero_parsed (lib : Library) : string_to_value lib "(range 0 0 5)".toList =
    some (.ok (Value.LIST [make_value_symbol "begin", Value.LIST (Value.SYMBOL "range".toList ::
      [Number.INT 0, Number.INT 0, Number.INT 5].map Value.NUMBER)])) :=
  parses_to_sound lib length_library _ _ (by decide!)

/-- C25: `op_make_range` does not reject the increment 0.  For `int`s
`a <= b` the call `(range a 0 b)` returns the empty list, as `read_eval` of
`(range 0 0 5)` does in a fresh runtime; for `a > b` the loop over the range
adds 0 to `a` for ever: whatever the fuel, the model has no result. -/
theorem range_zero_increment (lib : Library) (a b : Int) (fuel : Nat) :
    (a ≤ b → op_make_range lib (fuel + 1) [Value.NUMBER (Number.INT a),
        Value.NUMBER (Number.INT 0), Value.NUMBER (Number.INT b)] =
      some (.ok (Value.LIST []))) ∧
    (-2147483648 ≤ a → a < 2147483648 → b < a →
      op_make_range lib fuel [Value.NUMBER (Number.INT a), Value.NUMBER (Number.INT 0),
        Value.NUMBER (Number.INT b)] = none) ∧
    ∃ E0, Env.init lib = some E0 ∧
      read_eval lib (fuel + 9) E0 "(range 0 0 5)".toList = some (.ok (Value.LIST []), some E0) := by
  have hgr : Number.greater lib (Number.INT 0) (Number.INT 0) = false := rfl
  refine ⟨?_, ?_, ?_⟩
  · intro hab
    have hless : Number.less lib (Number.INT b) (Number.INT a) = false := by
      simp only [Number.less, Number.is_float, Number.to_int, Bool.or_self, Bool.false_eq_true,
        if_false, decide_eq_false_iff_not]
      omega
    have hg : Number.greater lib (Number.INT a) (Number.INT b) = false := by
      simp only [Number.greater, Number.is_float, Number.to_int, Bool.or_self,
        Bool.false_eq_true, if_false, decide_eq_false_iff_not]
      omega
    simp only [op_make_range, value_number, Number.is_float, Bool.or_self, Bool.false_eq_true,
      if_false, range_values, hless, Bool.false_and, hgr, range_loop, hg, Option.map_some']
  · intro ha ha2 hab
    simp only [op_make_range, value_number, Number.is_float, Bool.or_self, Bool.false_eq_true,
      if_false, range_values, hgr, Bool.and_false, range_loop_stays lib a b ha ha2 hab,
      Option.map_none']
  · rcases env_init lib with ⟨E0, hinit, _, _, hfind, _⟩
    have hrange := default_lookup lib E0 hfind "range" Primitive.op_make_range (by decide)
    refine ⟨E0, hinit, ?_⟩
    simp only [read_eval, range_zero_parsed lib, eval_value]
    rw [show fuel + 9 = fuel + 1 + [Number.INT 0, Number.INT 0, Number.INT 5].length + 5 from rfl,
      eval_begin_call_numbers lib _ _ [Number.INT 0, Number.INT 0, Number.INT 5] (fuel + 1) _ _
        (by decide) hrange]
    rfl

theorem range_zero_increment_witness :
    op_make_range length_library 1 [Value.NUMBER (Number.INT 0), Value.NUMBER (Number.INT 0),
        Value.NUMBER (Number.INT 5)] = some (.ok (Value.LIST [])) ∧
      op_make_range length_library 1000 [Value.NUMBER (Number.INT 5),
        Value.NUMBER (Number.INT 0), Value.NUMBER (Number.INT 0)] = none :=
  ⟨(range_zero_increment length_library 0 5 0).1 (by decide),
    (range_zero_increment length_library 5 0 1000).2.1 (by decide) (by decide) (by decide)⟩

end Orb

namespace Orb

/-! ## Iteration with `iter` -/

theorem eval_quote (lib : Library) (f : Nat) (v : Value) (env : Map Value Value) (orb : Env) :
    eval lib (f + 1) (Value.LIST [make_value_symbol "quote", v]) env orb =
      some (.ok (v, env, orb)) := by
  rw [eval]
  simp [is_self_evaluating, Value.type, is_quoted, is_tagged_list, value_list_first,
    value_list, symbol_value_is, make_value_symbol, value_list_second, value_list_nth]

theorem apply_primitive_println (lib : Library) (f : Nat) (params : List Value)
    (env : Map Value Value) (orb : Env) :
    apply_primitive lib (f + 1) Primitive.op_println params env orb =
      (op_println lib f params orb).bind fun r => some (.ok (r.1, env, r.2)) := rfl

theorem apply_primitive_make_vector (lib : Library) (f : Nat) (params : List Value)
    (env : Map Value Value) (orb : Env) :
    apply_primitive lib (f + 1) Primitive.op_make_vector params env orb =
      some (.ok (Value.VECTOR params, env, orb)) := rfl

theorem apply_primitive_iter (lib : Library) (f : Nat) (params : List Value)
    (env : Map Value Value) (orb : Env) :
    apply_primitive lib (f + 1) Primitive.op_iter params env orb =
      op_iter (extract_apply lib f) params env orb := rfl

theorem op_println_int (lib : Library) (f : Nat) (i : Int) (orb : Env) :
    op_println lib (f + 1) [Value.NUMBER (Number.INT i)] orb =
      some (.ok (Value.NIL, Env.mk orb.map_pool_ orb.env_
        (orb.out_ ++ int_to_string i ++ [NEWLINE]))) := by
  simp [op_println, value_iters_to_string, value_to_string, value_to_string_helper, out_prfx]

theorem iter_apply_procedure (lib : Library) (f : Nat) (rest params : List Value)
    (env : Map Value Value) (orb : Env) :
    IterContext.apply lib (f + 1) (Value.LIST (make_value_symbol "procedure" :: rest)) params
        env orb =
      (eval_compound_procedure lib f (Value.LIST (make_value_symbol "procedure" :: rest))
        params orb).bind fun r => some (.ok (r.1, env, r.2)) := rfl

theorem extract_apply_one (lib : Library) (f : Nat) (fun_ e : Value) (rest : List Value)
    (env : Map Value Value) (orb : Env) :
    extract_apply lib (f + 1) 1 fun_ (e :: rest) env orb =
      (IterContext.apply lib f fun_ [e] env orb).bind fun r =>
        if rest.isEmpty then some (.ok (Value.NIL, r.2.1, r.2.2))
        else extract_apply lib f 1 fun_ rest r.2.1 r.2.2 := by
  rw [extract_apply]
  simp

/-- One call of the procedure `(fn (x) (println x))` on an integer by `iter`:
the integer and a newline are written, and the environment of the procedure
stays as it was in the new pool. -/
theorem print_call (lib : Library) (penv : Map Value Value) (i : Int) (f : Nat)
    (env : Map Value Value) (orb : Env) (hok : EnvOK lib orb.map_pool_ penv)
    (hpr : lookup lib orb.map_pool_ penv (Value.SYMBOL "println".toList) =
      some (Value.FUNCTION Primitive.op_println)) :
    ∃ pool1, IterContext.apply lib (f + 9)
        (Value.LIST [make_value_symbol "procedure", Value.LIST [Value.SYMBOL "x".toList],
          Value.LIST [Value.LIST [Value.SYMBOL "println".toList, Value.SYMBOL "x".toList]],
          Value.MAP penv]) [Value.NUMBER (Number.INT i)] env orb =
        some (.ok (Value.NIL, env,
          Env.mk pool1 orb.env_ (orb.out_ ++ int_to_string i ++ [NEWLINE]))) ∧
      EnvOK lib pool1 penv ∧
      lookup lib pool1 penv (Value.SYMBOL "println".toList) =
        some (Value.FUNCTION Primitive.op_println) := by
  rcases env_add lib orb.map_pool_ penv hok (Value.SYMBOL "x".toList)
      (Value.NUMBER (Number.INT i)) rfl with ⟨pool1, m1, hadd, _, hold, hx, hframe⟩
  have hfr := hframe (Value.SYMBOL "println".toList) rfl (by decide)
  refine ⟨pool1, ?_, hold, by rw [hfr.2, hpr]⟩
  rw [iter_apply_procedure, eval_compound_procedure_step]
  simp only [map_add_range, hadd]
  rw [eval_sequence_last, eval_application lib _ _ _ _ _ (by decide),
    eval_symbol_found lib _ _ _ _ _ (by rw [hfr.1]; exact hpr), bind_ok, apply_function,
    eval_list_to_vector_cons, eval_symbol_found lib _ _ _ _ _ hx, bind_ok,
    eval_list_to_vector_nil]
  simp only [bind_ok]
  rw [apply_primitive_println, op_println_int]
  rfl

/-- The loop of `iter` with the procedure `(fn (x) (println x))` over
integers: every integer is written on a line of its own, in the order of the
collection. -/
theorem extract_print (lib : Library) (penv : Map Value Value) (env : Map Value Value) :
    ∀ (l : List Int) (f : Nat) (orb : Env), EnvOK lib orb.map_pool_ penv →
      lookup lib orb.map_pool_ penv (Value.SYMBOL "println".toList) =
        some (Value.FUNCTION Primitive.op_println) →
      ∃ pool1, extract_apply lib (f + l.length + 10) 1
          (Value.LIST [make_value_symbol "procedure", Value.LIST [Value.SYMBOL "x".toList],
            Value.LIST [Value.LIST [Value.SYMBOL "println".toList, Value.SYMBOL "x".toList]],
            Value.MAP penv]) (l.map fun i => Value.NUMBER (Number.INT i)) env orb =
          some (.ok (Value.NIL, env, Env.mk pool1 orb.env_
            (orb.out_ ++ (l.map fun i => int_to_string i ++ [NEWLINE]).flatten))) := by
  intro l
  induction l with
  | nil =>
    intro f orb _ _
    refine ⟨orb.map_pool_, ?_⟩
    simp only [List.map_nil, List.flatten_nil, List.append_nil]
    rfl
  | cons i rest ih =>
    intro f orb hok hpr
    rcases print_call lib penv i (f + rest.length + 1) env orb hok hpr with
      ⟨pool1, hcall, hok1, hpr1⟩
    rw [List.map_cons, List.length_cons,
      show f + (rest.length + 1) + 10 = (f + rest.length + 1 + 9) + 1 from by omega,
      extract_apply_one, hcall, bind_ok]
    cases rest with
    | nil =>
      refine ⟨pool1, ?_⟩
      simp
    | cons j rest2 =>
      rcases ih f (Env.mk pool1 orb.env_ (orb.out_ ++ int_to_string i ++ [NEWLINE])) hok1 hpr1
        with ⟨pool2, hrec⟩
      refine ⟨pool2, ?_⟩
      simp only [List.map_cons, List.isEmpty_cons, Bool.false_eq_true, if_false]
      simp only [List.map_cons] at hrec
      rw [show f + (j :: rest2).length + 1 + 9 = f + (j :: rest2).length + 10 from by omega,
        hrec]
      simp

theorem iter_source_parsed (lib : Library) :
    string_to_value lib "(iter v [1 2 3] (fn (x) (println x)))".toList =
      some (.ok (Value.LIST [make_value_symbol "begin",
        Value.LIST [Value.SYMBOL "iter".toList, Value.SYMBOL "v".toList,
          Value.LIST (Value.SYMBOL "make-vector".toList ::
            [Number.INT 1, Number.INT 2, Number.INT 3].map Value.NUMBER),
          Value.LIST [make_value_symbol "fn", Value.LIST [Value.SYMBOL "x".toList],
            Value.LIST [Value.SYMBOL "println".toList, Value.SYMBOL "x".toList]]]])) :=
  parses_to_sound lib length_library _ _ (by decide!)

theorem iter_quoted_source_parsed (lib : Library) :
    string_to_value lib "(iter 'v [1 2 3] (fn (x) (println x)))".toList =
      some (.ok (Value.LIST [make_value_symbol "begin",
        Value.LIST [Value.SYMBOL "iter".toList,
          Value.LIST [make_value_symbol "quote", Value.SYMBOL "v".toList],
          Value.LIST (Value.SYMBOL "make-vector".toList ::
            [Number.INT 1, Number.INT 2, Number.INT 3].map Value.NUMBER),
          Value.LIST [make_value_symbol "fn", Value.LIST [Value.SYMBOL "x".toList],
            Value.LIST [Value.SYMBOL "println".toList, Value.SYMBOL "x".toList]]]])) :=
  parses_to_sound lib length_library _ _ (by decide!)

theorem iter_source_eval (lib : Library) (fuel : Nat) (E0 : Env)
    (hfind : ∀ p ∈ default_bindings, lookup lib E0.map_pool_ E0.env_ p.1 = some p.2)
    (hnone : ∀ k, k.is_name = true →
      (∀ p ∈ default_bindings, Value.equal_flat k p.1 = false) →
        lookup lib E0.map_pool_ E0.env_ k = none) :
    read_eval lib (fuel + 6) E0 "(iter v [1 2 3] (fn (x) (println x)))".toList =
      some (orb_fail "eval: Symbol not found. Input:v".toList, none) := by
  have h_iter := default_lookup lib E0 hfind "iter" Primitive.op_iter (by decide)
  have h_v := default_missing lib E0 hnone "v".toList (by decide)
  simp only [read_eval, iter_source_parsed lib, eval_value]
  rw [eval_begin, eval_sequence_last, eval_application lib _ _ _ _ _ (by decide),
    eval_symbol_found lib _ _ _ _ _ h_iter, bind_ok, apply_function, eval_list_to_vector_cons,
    eval_symbol_missing lib _ _ _ _ h_v]
  rfl

theorem iter_quoted_source_eval (lib : Library) (fuel : Nat) (E0 : Env)
    (hok : EnvOK lib E0.map_pool_ E0.env_)
    (hfind : ∀ p ∈ default_bindings, lookup lib E0.map_pool_ E0.env_ p.1 = some p.2) :
    ∃ pool1, read_eval lib (fuel + 18) E0 "(iter 'v [1 2 3] (fn (x) (println x)))".toList =
      some (.ok Value.NIL, some (Env.mk pool1 E0.env_ (E0.out_ ++ ['1', NEWLINE, '2', NEWLINE, '3', NEWLINE]))) := by
  have h_iter := default_lookup lib E0 hfind "iter" Primitive.op_iter (by decide)
  have h_vec := default_lookup lib E0 hfind "make-vector" Primitive.op_make_vector (by decide)
  have h_pr := default_lookup lib E0 hfind "println" Primitive.op_println (by decide)
  rcases extract_print lib E0.env_ E0.env_ [1, 2, 3] fuel E0 hok h_pr with ⟨pool1, hloop⟩
  refine ⟨pool1, ?_⟩
  simp only [read_eval, iter_quoted_source_parsed lib, eval_value]
  rw [eval_begin, eval_sequence_last, eval_application lib _ _ _ _ _ (by decide),
    eval_symbol_found lib _ _ _ _ _ h_iter, bind_ok, apply_function, eval_list_to_vector_cons,
    eval_quote, bind_ok, eval_list_to_vector_cons,
    show fuel + 12 = fuel + 6 + [Number.INT 1, Number.INT 2, Number.INT 3].length + 3 from rfl,
    eval_call_numbers lib _ _ [Number.INT 1, Number.INT 2, Number.INT 3] (fuel + 6) _ _
      (by decide) h_vec, apply_primitive_make_vector, bind_ok, eval_list_to_vector_cons, eval_fn,
    bind_ok, eval_list_to_vector_nil]
  simp only [bind_ok]
  rw [apply_primitive_iter]
  have hop : op_iter (extract_apply lib (fuel + 13))
      [Value.SYMBOL "v".toList,
        Value.VECTOR ([Number.INT 1, Number.INT 2, Number.INT 3].map Value.NUMBER),
        Value.LIST [make_value_symbol "procedure", Value.LIST [Value.SYMBOL "x".toList],
          Value.LIST [Value.LIST [Value.SYMBOL "println".toList, Value.SYMBOL "x".toList]],
          Value.MAP E0.env_]] E0.env_ E0 =
      extract_apply lib (fuel + 13) 1
        (Value.LIST [make_value_symbol "procedure", Value.LIST [Value.SYMBOL "x".toList],
          Value.LIST [Value.LIST [Value.SYMBOL "println".toList, Value.SYMBOL "x".toList]],
          Value.MAP E0.env_])
        ([1, 2, 3].map fun i => Value.NUMBER (Number.INT i)) E0.env_ E0 := rfl
  rw [hop, show fuel + 13 = fuel + ([1, 2, 3] : List Int).length + 10 from rfl, hloop]
  rfl

/-- C21: in a fresh runtime with the default environment, for every `hash32`,
`read_eval` of `(iter v [1 2 3] (fn (x) (println x)))` ends with the failure
`eval: Symbol not found. Input:v`, because `iter` is a native operator whose
operands are evaluated and `v` is not bound.  With the symbol quoted, the
source `(iter 'v [1 2 3] (fn (x) (println x)))` succeeds, writes `1`, newline,
`2`, newline, `3`, newline to the output, in that order and nothing else,
returns nil and leaves the root environment as it was. -/
theorem iter_prints_with_quoted_symbol (lib : Library) (fuel : Nat) :
    ∃ E0, Env.init lib = some E0 ∧
      read_eval lib (fuel + 6) E0 "(iter v [1 2 3] (fn (x) (println x)))".toList =
        some (orb_fail "eval: Symbol not found. Input:v".toList, none) ∧
      ∃ pool1, read_eval lib (fuel + 18) E0 "(iter 'v [1 2 3] (fn (x) (println x)))".toList =
        some (.ok Value.NIL,
          some (Env.mk pool1 E0.env_ ['1', NEWLINE, '2', NEWLINE, '3', NEWLINE])) := by
  rcases env_init lib with ⟨E0, hinit, hok, hout, hfind, hnone⟩
  refine ⟨E0, hinit, iter_source_eval lib fuel E0 hfind hnone, ?_⟩
  rcases iter_quoted_source_eval lib fuel E0 hok hfind with ⟨pool1, h⟩
  refine ⟨pool1, ?_⟩
  rw [h, hout]
  rfl

/-- C21, counterexample: with the library of the examples, `read_eval` of
`(iter v [1 2 3] (fn (x) (println x)))` in the fresh runtime does not
succeed: its result is not valid, and no state with an output is returned. -/
theorem iter_unquoted_symbol_fails :
    ∃ E0, Env.init length_library = some E0 ∧
      (read_eval length_library 6 E0 "(iter v [1 2 3] (fn (x) (println x)))".toList).map
        (fun r => (r.1.valid, r.2.isSome)) = some (false, false) := by
  rcases env_init length_library with ⟨E0, hinit, _, _, hfind, hnone⟩
  refine ⟨E0, hinit, ?_⟩
  rw [iter_source_eval length_library 0 E0 hfind hnone]
  rfl

end Orb

namespace Orb

/-! ## Paths into the root environment -/

theorem get_value_loop_none (lib : Library) (pool : PMapPool Value Value)
    (map : Map Value Value) (h : ∀ s, lookup lib pool map (Value.STRING s) = none) :
    ∀ (lines : List (List Char)) (tmpresult : Option Value),
      get_value_loop lib pool map tmpresult lines = tmpresult := by
  intro lines
  induction lines with
  | nil => intro t; rfl
  | cons l rest ih =>
    intro t
    simp only [get_value_loop, h l]
    exact ih t

/-- A runtime whose root environment holds no string as a key has no value
for a path with a `/`. -/
theorem get_value_no_strings (lib : Library) (m : Env) (path : List Char)
    (hpath : '/' ∈ path) (h : ∀ s, lookup lib m.map_pool_ m.env_ (Value.STRING s) = none) :
    Env.get_value lib m path = none := by
  simp only [Env.get_value, hpath, if_true]
  exact get_value_loop_none lib _ _ h _ _

theorem default_bindings_symbols : ∀ p ∈ default_bindings, ∀ s, Value.equal_flat (Value.STRING s) p.1 = false := by
  intro p hp s
  simp only [default_bindings, List.mem_map] at hp
  rcases hp with ⟨q, _, rfl⟩
  rfl

/-- C28: `get_value` looks the segments of a path with a `/` up as strings,
while `def` binds symbols, and a string is not equal to a symbol: in the fresh
runtime in which `foo` has been bound to any value `v`, a map with the key
`bar` included, `get_value(m, "foo")` returns `v`, and `get_value` returns
null for every path with a `/`, `foo/bar` included. -/
theorem get_value_path_is_null (lib : Library) (v : Value) (path : List Char)
    (hpath : '/' ∈ path) :
    ∃ E0 E1, Env.init lib = some E0 ∧
      Env.def lib E0 (make_value_symbol "foo") v = some E1 ∧
      Env.get_value lib E1 "foo".toList = some v ∧
      Env.get_value lib E1 path = none := by
  rcases env_init lib with ⟨E0, hinit, hok, _, _, hnone⟩
  rcases env_add lib E0.map_pool_ E0.env_ hok (Value.SYMBOL "foo".toList) v rfl with
    ⟨pool1, m1, hadd, _, _, hfound, hframe⟩
  have hadd' : map_add lib E0.map_pool_ E0.env_ (make_value_symbol "foo") v =
      some (pool1, m1) := hadd
  refine ⟨E0, Env.mk pool1 m1 E0.out_, hinit, ?_, ?_, ?_⟩
  · simp only [Env.def, hadd', Option.map_some']
  · have : ¬ '/' ∈ "foo".toList := by decide
    simp only [Env.get_value, this, if_false]
    exact hfound
  · apply get_value_no_strings lib _ path hpath
    intro s
    show lookup lib pool1 m1 (Value.STRING s) = none
    rw [(hframe (Value.STRING s) rfl rfl).1]
    exact hnone (Value.STRING s) rfl (fun p hp => default_bindings_symbols p hp s)

theorem get_value_path_is_null_witness :
    ∃ E0 E1, Env.init length_library = some E0 ∧
      Env.def length_library E0 (make_value_symbol "foo")
        (Value.MAP { root_ := some (Node.mk 8 [Node.mk 0 [] NodeType.ValueNode
          (.keyvalue (KeyValue.mk 3 (Value.STRING "bar".toList) (Value.NUMBER (Number.INT 1))))]
          NodeType.EmptyNode .unset) }) = some E1 ∧
      Env.get_value length_library E1 "foo".toList =
        some (Value.MAP { root_ := some (Node.mk 8 [Node.mk 0 [] NodeType.ValueNode
          (.keyvalue (KeyValue.mk 3 (Value.STRING "bar".toList) (Value.NUMBER (Number.INT 1))))]
          NodeType.EmptyNode .unset) }) ∧
      Env.get_value length_library E1 "foo/bar".toList = none ∧
      lookup length_library E1.map_pool_
          { root_ := some (Node.mk 8 [Node.mk 0 [] NodeType.ValueNode
            (.keyvalue (KeyValue.mk 3 (Value.STRING "bar".toList)
              (Value.NUMBER (Number.INT 1))))] NodeType.EmptyNode .unset) }
          (Value.STRING "bar".toList) = some (Value.NUMBER (Number.INT 1)) := by
  rcases get_value_path_is_null length_library
      (Value.MAP { root_ := some (Node.mk 8 [Node.mk 0 [] NodeType.ValueNode
        (.keyvalue (KeyValue.mk 3 (Value.STRING "bar".toList) (Value.NUMBER (Number.INT 1))))]
        NodeType.EmptyNode .unset) }) "foo/bar".toList (by decide) with ⟨E0, E1, h1, h2, h3, h4⟩
  exact ⟨E0, E1, h1, h2, h3, h4, rfl⟩

end Orb

/-! ## Maps that share a pool -/

theorem list_ids_list_cons (c : Node K V) (cs : List (Node K V)) :
    Node.list_ids_list (c :: cs) = Node.list_ids c ++ Node.list_ids_list cs := by
  simp [Node.list_ids_list]

theorem list_ids_list_nil : Node.list_ids_list ([] : List (Node K V)) = [] := by
  simp [Node.list_ids_list]

theorem list_ids_list_append (l1 l2 : List (Node K V)) :
    Node.list_ids_list (l1 ++ l2) = Node.list_ids_list l1 ++ Node.list_ids_list l2 := by
  induction l1 with
  | nil => simp [list_ids_list_nil]
  | cons c cs ih => simp [list_ids_list_cons, ih]

theorem list_ids_eq (u : Nat) (cs : List (Node K V)) (t : NodeType) (v : NodeValue K V) :
    Node.list_ids (Node.mk u cs t v) = NodeValue.ids v ++ Node.list_ids_list cs := by
  simp [Node.list_ids]

theorem mem_list_ids_list {id : Nat} {cs : List (Node K V)} :
    id ∈ Node.list_ids_list cs ↔ ∃ c ∈ cs, id ∈ Node.list_ids c := by
  induction cs with
  | nil => simp [list_ids_list_nil]
  | cons c cs ih => simp [list_ids_list_cons, ih]

theorem frame_value_ids {compare cmp : K → K → Bool} {hashfun : K → Nat}
    {pool pool1 : PMapPool K V} {path : List Nat} {n : Node K V}
    (hw : WFValue compare hashfun pool path n)
    (hf : ∀ id ∈ n.list_ids, pool1.lists[id]? = pool.lists[id]?) :
    WFValue compare hashfun pool1 path n ∧ n.values pool1 = n.values pool ∧
      (∀ key hash, node_match_get cmp pool1 n key hash = node_match_get cmp pool n key hash) := by
  cases n with
  | mk u cs t v =>
    cases t <;> cases v <;>
      simp only [WFValue, Node.type, Node.value, Node.values, node_match_get] at hw ⊢
      <;> try exact (False.elim hw)
    · exact ⟨hw, trivial, fun _ _ => trivial⟩
    · rename_i id
      have hid : pool1.lists[id]? = pool.lists[id]? :=
        hf id (by rw [list_ids_eq]; simp [NodeValue.ids])
      rw [hid]
      exact ⟨hw, rfl, fun _ _ => rfl⟩

/-- A node keeps the invariant, its cells and what is found in it when the
list objects it points to are the same in another pool. -/
theorem frame_node_ids {compare cmp : K → K → Bool} {hashfun : K → Nat}
    {pool pool1 : PMapPool K V} :
    ∀ (r : Nat) (path : List Nat) (n : Node K V), WFNode compare hashfun pool r path n →
      (∀ id ∈ n.ids_below, pool1.lists[id]? = pool.lists[id]?) →
      WFNode compare hashfun pool1 r path n ∧ n.descendants pool1 = n.descendants pool ∧
      ∀ key hash left level, try_get_value_loop cmp pool1 key hash left level n =
        try_get_value_loop cmp pool key hash left level n := by
  intro r
  induction r with
  | zero =>
    intro path n hw hf
    have hw' := hw
    simp only [WFNode] at hw
    refine ⟨hw', ?_, ?_⟩
    · simp [Node.descendants, hw.2, subtree_list_nil]
    · intro key hash left level
      rw [lookup_leaf _ _ _ _ _ _ _ hw.1, lookup_leaf _ _ _ _ _ _ _ hw.1]
  | succ r ih =>
    intro path n hw hf
    simp only [WFNode] at hw
    rcases hw with ⟨hu, hall⟩
    have hsub : ∀ c ∈ n.child_array, ∀ id ∈ c.list_ids, pool1.lists[id]? = pool.lists[id]? := by
      intro c hc id hid
      exact hf id (mem_list_ids_list.mpr ⟨c, hc, hid⟩)
    have hsub2 : ∀ c ∈ n.child_array, ∀ id ∈ c.ids_below, pool1.lists[id]? = pool.lists[id]? := by
      intro c hc id hid
      apply hsub c hc id
      cases c with
      | mk u cs t v =>
        rw [list_ids_eq]
        exact List.mem_append_right _ hid
    have key_fact : ∀ c ∈ n.child_array,
        c.values pool1 = c.values pool ∧ c.descendants pool1 = c.descendants pool ∧
        (∀ key hash, node_match_get cmp pool1 c key hash = node_match_get cmp pool c key hash) ∧
        ∀ key hash left level, try_get_value_loop cmp pool1 key hash left level c =
          try_get_value_loop cmp pool key hash left level c := by
      intro c hc
      rcases forall₂_right_mem hall hc with ⟨j, _, hv, hn, _⟩
      have f1 := @frame_value_ids K V compare cmp hashfun pool pool1 _ _ hv (hsub c hc)
      have f2 := ih _ c hn (hsub2 c hc)
      exact ⟨f1.2.1, f2.2.1, f1.2.2, f2.2.2⟩
    refine ⟨?_, ?_, ?_⟩
    · simp only [WFNode]
      refine ⟨hu, ?_⟩
      have hall' : List.Forall₂ (fun j c => c ∈ n.child_array ∧
          (WFValue compare hashfun pool (path ++ [j]) c ∧
          WFNode compare hashfun pool r (path ++ [j]) c ∧
          ∀ a ∈ c.values pool, ∀ b ∈ c.descendants pool, ¬ same_key compare a b))
          (slots n.used) n.child_array := by
        rw [List.forall₂_iff_get] at hall ⊢
        refine ⟨hall.1, fun i h1 h2 => ⟨List.get_mem _ _ _, hall.2 i h1 h2⟩⟩
      refine hall'.imp ?_
      rintro j c ⟨hc, hv, hn, hq⟩
      have kf := key_fact c hc
      refine ⟨(@frame_value_ids K V compare cmp hashfun pool pool1 _ _ hv (hsub c hc)).1, (ih _ c hn (hsub2 c hc)).1, ?_⟩
      rw [kf.1, kf.2.1]; exact hq
    · unfold Node.descendants
      apply subtree_list_congr
      intro c hc
      have kf := key_fact c hc
      rw [subtree_eq, subtree_eq, kf.1, kf.2.1]
    · intro key hash left level
      cases left with
      | zero => rfl
      | succ left =>
        simp only [try_get_value_loop]
        cases hg : n.get_child_by_hash_and_depth hash level with
        | none => rfl
        | some c =>
          have kf := key_fact c (get_child_mem hg)
          simp only [kf.2.2.1, kf.2.2.2]

theorem value_ids_valid {compare : K → K → Bool} {hashfun : K → Nat} {pool : PMapPool K V}
    {path : List Nat} {u : Nat} {cs : List (Node K V)} {t : NodeType} {v : NodeValue K V}
    (hw : WFValue compare hashfun pool path (Node.mk u cs t v)) :
    ∀ id, v = .collision_list id → id < pool.lists.length := by
  intro id hid
  subst hid
  cases t
  · exact False.elim hw
  · exact False.elim hw
  simp only [WFValue, Node.type, Node.value] at hw
  rcases hw with ⟨_, l, hl, _⟩
  by_contra hge
  rw [List.getElem?_eq_none (by omega)] at hl
  cases hl

/-- The list objects a node points to are in the pool. -/
theorem ids_valid {compare : K → K → Bool} {hashfun : K → Nat} {pool : PMapPool K V} :
    ∀ (r : Nat) (path : List Nat) (n : Node K V), WFNode compare hashfun pool r path n →
      ∀ id ∈ n.ids_below, id < pool.lists.length := by
  intro r
  induction r with
  | zero =>
    intro path n hw id hid
    simp only [WFNode] at hw
    simp only [Node.ids_below, hw.2, list_ids_list_nil, List.not_mem_nil] at hid
  | succ r ih =>
    intro path n hw id hid
    simp only [WFNode] at hw
    rcases mem_list_ids_list.mp hid with ⟨c, hc, hidc⟩
    rcases forall₂_right_mem hw.2 hc with ⟨j, _, hv, hn, _⟩
    cases c with
    | mk u cs t v =>
      rw [list_ids_eq, List.mem_append] at hidc
      rcases hidc with h | h
      · cases v with
        | collision_list id2 =>
          simp only [NodeValue.ids, List.mem_singleton] at h
          subst h
          exact value_ids_valid hv _ rfl
        | unset => simp [NodeValue.ids] at h
        | keyvalue kv => simp [NodeValue.ids] at h
      · exact ih _ _ hn id h

theorem instantiate_collision_ids {compare : K → K → Bool} {pool pool1 : PMapPool K V}
    {c c1 : Node K V} {kv : KeyValue K V}
    (h : instantiate_collision compare pool c kv = some (pool1, c1)) :
    (∀ id, id < pool.lists.length → id ∉ c.list_ids → pool1.lists[id]? = pool.lists[id]?) ∧
      (∀ id ∈ c1.list_ids, id ∈ c.list_ids ∨ id = pool.lists.length) := by
  cases c with
  | mk u cs t v =>
    unfold instantiate_collision at h
    simp only [Node.type, Node.value, Node.used, Node.child_array] at h
    split at h
    · cases v with
      | collision_list id0 =>
        simp only at h
        cases hl : pool.lists[id0]? with
        | none => rw [hl] at h; cases h
        | some oldlist =>
          rw [hl] at h
          simp only at h
          have hmem : id0 ∈ (Node.mk u cs t (NodeValue.collision_list id0)).list_ids := by
            rw [list_ids_eq]; simp [NodeValue.ids]
          split at h <;>
          · simp only [Option.some.injEq, Prod.mk.injEq] at h
            obtain ⟨hp, hn⟩ := h
            subst hp hn
            refine ⟨fun id _ hid => ?_, fun id hid => Or.inl hid⟩
            have hne : id0 ≠ id := fun e => hid (e ▸ hmem)
            simp only [List.getElem?_set_ne hne]
      | unset => cases h
      | keyvalue kv0 => cases h
    · cases v with
      | keyvalue current_kv =>
        simp only at h
        split at h
        · simp only [Option.some.injEq, Prod.mk.injEq] at h
          obtain ⟨hp, hn⟩ := h
          subst hp hn
          refine ⟨fun id _ _ => rfl, fun id hid => Or.inl ?_⟩
          rw [list_ids_eq] at hid ⊢
          exact hid
        · simp only [Option.some.injEq, Prod.mk.injEq] at h
          obtain ⟨hp, hn⟩ := h
          subst hp hn
          refine ⟨fun id hlt _ => ?_, fun id hid => ?_⟩
          · simp only
            rw [List.getElem?_append_left hlt]
          · rw [list_ids_eq] at hid ⊢
            simp only [NodeValue.ids, List.mem_append, List.mem_singleton, List.not_mem_nil,
              false_or] at hid ⊢
            rcases hid with h1 | h1
            · exact Or.inr h1
            · exact Or.inl h1
      | unset => cases h
      | collision_list id0 => cases h

theorem ids_below_eq (u : Nat) (cs : List (Node K V)) (t : NodeType) (v : NodeValue K V) :
    (Node.mk u cs t v).ids_below = Node.list_ids_list cs := rfl

/-- What `add` does to the list objects: those that the trie does not point
to stay as they are, and the new trie points to list objects of the old one
or to the one that was made. -/
theorem instantiate_tree_loop_ids {compare : K → K → Bool} {hashfun : K → Nat}
    (kv : KeyValue K V) :
    ∀ (left level : Nat) (pool pool1 : PMapPool K V) (path : List Nat) (cur cur1 : Node K V),
      WFNode compare hashfun pool left path cur → path.length = level →
      instantiate_tree_loop compare kv left level pool cur = some (pool1, cur1) →
      cur1.value = cur.value ∧
      (∀ id, id < pool.lists.length → id ∉ cur.ids_below →
        pool1.lists[id]? = pool.lists[id]?) ∧
      (∀ id ∈ cur1.ids_below, id ∈ cur.ids_below ∨ id = pool.lists.length) := by
  intro left
  induction left with
  | zero => intro _ _ _ _ _ _ _ _ h; cases h
  | succ d ih =>
    intro level pool pool1 path cur cur1 hw hlev h
    by_cases hjm : slice kv.hash level ∈ slots cur.used
    · cases cur with
      | mk u cs t v =>
        simp only [Node.used] at hjm
        have hw' := hw
        rw [wfnode_succ_iff] at hw'
        simp only [Node.used, Node.child_array] at hw'
        rcases children_split hw'.2 hjm with ⟨A, c, C, rfl, hA, hcok, hC⟩
        have hAl : A.length = (slots_below u (slice kv.hash level)).length := hA.length_eq.symm
        rw [instantiate_tree_loop_in_use compare kv d level pool u A C c t v hw'.1 hjm hAl
          hw'.2.length_eq] at h
        have hsplit : ∀ (x : Node K V), (Node.mk u (A ++ x :: C) t v).ids_below =
            Node.list_ids_list A ++ (x.list_ids ++ Node.list_ids_list C) := by
          intro x
          rw [ids_below_eq, list_ids_list_append, list_ids_list_cons]
        have hcmem : ∀ id, id ∈ c.list_ids → id ∈ (Node.mk u (A ++ c :: C) t v).ids_below := by
          intro id hid
          rw [hsplit]
          exact List.mem_append_right _ (List.mem_append_left _ hid)
        have hlift : ∀ (p1 : PMapPool K V) (c1 : Node K V),
            (∀ id ∈ c1.list_ids, id ∈ c.list_ids ∨ id = pool.lists.length) →
            ∀ id ∈ (Node.mk u (A ++ c1 :: C) t v).ids_below,
              id ∈ (Node.mk u (A ++ c :: C) t v).ids_below ∨ id = pool.lists.length := by
          intro p1 c1 hc1 id hid
          rw [hsplit] at hid ⊢
          simp only [List.mem_append] at hid ⊢
          rcases hid with h1 | h1 | h1
          · exact Or.inl (Or.inl h1)
          · rcases hc1 id h1 with h2 | h2
            · exact Or.inl (Or.inr (Or.inl h2))
            · exact Or.inr h2
          · exact Or.inl (Or.inr (Or.inr h1))
        by_cases h6 : level < 6
        · rw [if_pos h6] at h
          cases c with
          | mk cu ccs ct cv =>
            cases cv with
            | keyvalue nkv =>
              simp only [Node.value] at h
              split at h
              · simp only [Option.some.injEq, Prod.mk.injEq] at h
                obtain ⟨hp, hn⟩ := h
                subst hp hn
                refine ⟨rfl, fun id _ _ => rfl, ?_⟩
                apply hlift pool
                intro id hid
                left
                rw [list_ids_eq] at hid ⊢
                exact hid
              · cases hrec : instantiate_tree_loop compare kv d (level + 1) pool
                    (Node.mk cu ccs ct (NodeValue.keyvalue nkv)) with
                | none => simp [hrec] at h
                | some r =>
                  obtain ⟨p1, c1⟩ := r
                  simp only [hrec, Option.some.injEq, Prod.mk.injEq] at h
                  obtain ⟨hp, hn⟩ := h
                  subst hp hn
                  rcases ih (level + 1) pool p1 _ _ c1 hcok.2.1
                      (by rw [List.length_append, hlev]; rfl) hrec with ⟨hv, hfr, hids⟩
                  refine ⟨rfl, fun id hlt hid => ?_, ?_⟩
                  · apply hfr id hlt
                    intro hmem
                    apply hid
                    apply hcmem
                    rw [list_ids_eq]
                    exact List.mem_append_right _ hmem
                  · apply hlift p1
                    intro id hid
                    cases c1 with
                    | mk u1 cs1 t1 v1 =>
                      simp only [Node.value] at hv
                      subst hv
                      rw [list_ids_eq] at hid ⊢
                      simp only [NodeValue.ids, List.nil_append] at hid ⊢
                      exact hids id hid
            | unset => simp [Node.value] at h
            | collision_list id0 => simp [Node.value] at h
        · rw [if_neg h6] at h
          cases hrec : instantiate_collision compare pool c kv with
          | none => simp [hrec] at h
          | some r =>
            obtain ⟨p1, c1⟩ := r
            simp only [hrec, Option.some.injEq, Prod.mk.injEq] at h
            obtain ⟨hp, hn⟩ := h
            subst hp hn
            rcases instantiate_collision_ids hrec with ⟨hfr, hids⟩
            refine ⟨rfl, fun id hlt hid => ?_, hlift p1 c1 hids⟩
            exact hfr id hlt (fun hmem => hid (hcmem id hmem))
    · rw [instantiate_tree_loop_free compare kv d level pool cur hjm] at h
      cases cur with
      | mk u cs t v =>
        rw [wfnode_succ_iff] at hw
        simp only [Node.used, Node.child_array] at hw hjm
        rcases hw with ⟨hu, hall⟩
        rcases children_split_not hall hjm with ⟨A, C, rfl, hA, hC⟩
        have hconv : ∀ (l : List Nat) (xs : List (Node K V)),
            List.Forall₂ (ChildOK compare hashfun pool d path) l xs →
            List.Forall₂ (fun s c => ∃ h, c.hash_value pool = some h ∧ slice h level = s)
              l xs := by
          intro l xs h
          refine h.imp ?_
          intro s x hx
          rcases hash_value_of_wf hx.1 with ⟨h, h1, h2⟩
          exact ⟨h, h1, by rw [← hlev]; exact h2⟩
        rw [node_insert_replace_refarray_eq pool u A C t v
          (Node.mk 0 [] NodeType.ValueNode (.keyvalue kv)) _ level hu (slice_lt _ _) hjm
          (hconv _ _ hA) (hconv _ _ hC)] at h
        simp only [Option.map_some', Option.some.injEq, Prod.mk.injEq] at h
        obtain ⟨hp, hn⟩ := h
        subst hp hn
        refine ⟨rfl, fun id _ _ => rfl, fun id hid => Or.inl ?_⟩
        rw [ids_below_eq, list_ids_list_append, list_ids_list_cons, list_ids_eq] at hid
        rw [ids_below_eq, list_ids_list_append]
        simpa [NodeValue.ids, list_ids_list_nil] using hid

/-- Adding to one map of a pool leaves another map of the pool as it was,
when the two share no list object; the new map shares none with it either. -/
theorem add_other_map {compare cmp : K → K → Bool} {hashfun : K → Nat}
    {pool pool1 : PMapPool K V} {A A1 B : Map K V} (kv : KeyValue K V)
    (hA : WFMap compare hashfun pool A) (hB : WFMap compare hashfun pool B)
    (hd : ∀ id ∈ A.list_ids, id ∉ B.list_ids)
    (hadd : PMapPool.add_keyvalue compare pool A kv = some (pool1, A1)) :
    WFMap compare hashfun pool1 B ∧ Map.contents pool1 B = Map.contents pool B ∧
      (∀ key, Map.try_get_value cmp hashfun pool1 B key =
        Map.try_get_value cmp hashfun pool B key) ∧
      (∀ id ∈ A1.list_ids, id ∉ B.list_ids) := by
  have hloop : ∃ (cur cur1 : Node K V), WFNode compare hashfun pool 7 [] cur ∧
      cur.ids_below = A.list_ids ∧ A1 = { root_ := some cur1 } ∧
      instantiate_tree_loop compare kv 7 0 pool cur = some (pool1, cur1) := by
    obtain ⟨root⟩ := A
    simp only [PMapPool.add_keyvalue, instantiate_tree_path, Option.map_eq_some'] at hadd
    rcases hadd with ⟨r, hr, he⟩
    simp only [Prod.mk.injEq] at he
    cases root with
    | none =>
      refine ⟨new_node, r.2, wfnode_leaf _ _ _ _, rfl, he.2.symm, ?_⟩
      rw [← he.1]; exact hr
    | some root =>
      refine ⟨root, r.2, hA.2, rfl, he.2.symm, ?_⟩
      rw [← he.1]; exact hr
  rcases hloop with ⟨cur, cur1, hwc, hids, hA1, hrun⟩
  rcases instantiate_tree_loop_ids kv 7 0 pool pool1 [] cur cur1 hwc rfl hrun with
    ⟨_, hfr, hnew⟩
  have hBvalid : ∀ id ∈ B.list_ids, id < pool.lists.length := by
    obtain ⟨rootB⟩ := B
    cases rootB with
    | none => intro id hid; cases hid
    | some rootB => exact ids_valid 7 [] rootB hB.2
  have hframeB : ∀ id ∈ B.list_ids, pool1.lists[id]? = pool.lists[id]? := by
    intro id hid
    refine hfr id (hBvalid id hid) ?_
    rw [hids]
    exact fun hin => hd id hin hid
  refine ⟨?_, ?_, ?_, ?_⟩
  · obtain ⟨rootB⟩ := B
    cases rootB with
    | none => trivial
    | some rootB => exact ⟨hB.1, (@frame_node_ids K V compare cmp hashfun pool pool1 7 [] rootB hB.2 hframeB).1⟩
  · obtain ⟨rootB⟩ := B
    cases rootB with
    | none => rfl
    | some rootB => exact (@frame_node_ids K V compare cmp hashfun pool pool1 7 [] rootB hB.2 hframeB).2.1
  · intro key
    obtain ⟨rootB⟩ := B
    cases rootB with
    | none => rfl
    | some rootB => exact (@frame_node_ids K V compare cmp hashfun pool pool1 7 [] rootB hB.2 hframeB).2.2 _ _ _ _
  · intro id hid hidB
    subst hA1
    rcases hnew id hid with h | h
    · rw [hids] at h
      exact hd id h hidB
    · have := hBvalid id hidB
      omega

namespace Orb

/-! ## The command line -/

theorem fix_loop_none (fuel : Nat) (arg : List Char) : fix_loop fuel arg none = some arg := by
  cases fuel <;> rfl

theorem string_find_append (pre suf : List Char) (c : Char) :
    string_find (pre ++ suf) c pre.length = find_from c suf pre.length := by
  simp [string_find]

theorem slashes_cons_other (x : Char) (rest : List Char) (hx : x ≠ BACKSLASH) :
    slashes (x :: rest) = x :: slashes rest := by
  simp [slashes, hx]

/-- The loop of `set_args` over a token, from a position on: it ends, and
the rest of the token has each backslash that no backslash follows made a
`/`. -/
theorem fix_loop_slashes : ∀ (suf pre : List Char) (fuel : Nat), suf.length < fuel →
    fix_loop fuel (pre ++ suf) (string_find (pre ++ suf) BACKSLASH pre.length) =
      some (pre ++ slashes suf) := by
  intro suf
  induction suf with
  | nil =>
    intro pre fuel _
    rw [string_find_append]
    simp [find_from, fix_loop_none, slashes]
  | cons x rest ih =>
    intro pre fuel hf
    by_cases hx : x = BACKSLASH
    · subst hx
      rw [string_find_append]
      simp only [find_from, if_true]
      cases fuel with
      | zero => simp at hf
      | succ f =>
        simp only [List.length_cons] at hf
        have hstep := ih (pre ++ [BACKSLASH]) f (by omega)
        simp only [List.length_append, List.length_singleton, List.append_assoc,
          List.singleton_append] at hstep
        simp only [fix_loop]
        by_cases hnext : rest.head? = some BACKSLASH
        · have hcond : (pre ++ BACKSLASH :: rest).length > pre.length + 1 ∧
              (pre ++ BACKSLASH :: rest).get? (pre.length + 1) = some BACKSLASH := by
            cases rest with
            | nil => simp at hnext
            | cons y rest2 =>
              simp only [List.head?_cons, Option.some.injEq] at hnext
              subst hnext
              refine ⟨by simp, ?_⟩
              rw [List.get?_eq_getElem?, List.getElem?_append_right (by omega)]
              simp
          rw [if_pos hcond, hstep]
          simp [slashes, hnext]
        · have hcond : ¬ ((pre ++ BACKSLASH :: rest).length > pre.length + 1 ∧
              (pre ++ BACKSLASH :: rest).get? (pre.length + 1) = some BACKSLASH) := by
            intro h
            apply hnext
            have h2 := h.2
            rw [List.get?_eq_getElem?, List.getElem?_append_right (by omega)] at h2
            cases rest with
            | nil => simp at h2
            | cons y rest2 => simpa using h2
          have hrep : string_replace (pre ++ BACKSLASH :: rest) pre.length 1 ['/'] =
              pre ++ '/' :: rest := by
            simp [string_replace]
          rw [if_neg hcond, hrep]
          have hstep2 := ih (pre ++ ['/']) f (by omega)
          simp only [List.length_append, List.length_singleton, List.append_assoc,
            List.singleton_append] at hstep2
          rw [hstep2]
          simp [slashes, hnext]
    · have hstep := ih (pre ++ [x]) fuel (by simp only [List.length_cons] at hf; omega)
      simp only [List.length_append, List.length_singleton, List.append_assoc,
        List.singleton_append] at hstep
      rw [slashes_cons_other x rest hx, ← hstep, string_find_append]
      simp only [find_from, hx, if_false]
      congr 1
      simp [string_find]

theorem fix_arg_slashes (arg : List Char) : fix_arg arg = some (slashes arg) :=
  fix_loop_slashes arg [] (arg.length + 1) (by omega)

theorem fix_args_slashes : ∀ (argv : List (List Char)), fix_args argv = some (argv.map slashes) := by
  intro argv
  induction argv with
  | nil => rfl
  | cons a rest ih => simp [fix_args, fix_arg_slashes, ih]

theorem slashes_length : ∀ (s : List Char), (slashes s).length = s.length := by
  intro s
  induction s with
  | nil => rfl
  | cons c rest ih => simp [slashes, ih]

theorem slashes_single : ∀ (s : List Char), double_backslash s = false →
    slashes s = replace_backslashes s := by
  intro s
  induction s with
  | nil => intro _; rfl
  | cons c rest ih =>
    intro h
    simp only [double_backslash, Bool.or_eq_false_iff, Bool.and_eq_false_iff] at h
    have hrest := ih h.2
    simp only [replace_backslashes] at hrest ⊢
    simp only [slashes, List.map_cons, hrest]
    congr 1
    by_cases hc : c = BACKSLASH
    · subst hc
      have : rest.head? ≠ some BACKSLASH := by
        rcases h.1 with h1 | h1
        · simp at h1
        · simpa using h1
      simp [this]
    · simp [hc]

theorem replace_backslashes_none (s : List Char) : BACKSLASH ∉ replace_backslashes s := by
  intro h
  simp only [replace_backslashes, List.mem_map] at h
  rcases h with ⟨c, _, hc⟩
  by_cases hb : c = BACKSLASH
  · rw [if_pos hb] at hc
    exact absurd hc (by decide)
  · rw [if_neg hb] at hc
    exact hb hc

/-- Adding a name to one of two maps of a pool that share no list object:
what `env_add` says of the map that is added to, and the other map is as it
was. -/
theorem env_add_other (lib : Library) (pool : PMapPool Value Value) (A B : Map Value Value)
    (hA : EnvOK lib pool A) (hB : EnvOK lib pool B)
    (hd : ∀ id ∈ A.list_ids, id ∉ B.list_ids) (key v : Value) (hk : key.is_name = true) :
    ∃ pool1 A1, map_add lib pool A key v = some (pool1, A1) ∧
      EnvOK lib pool1 A1 ∧ EnvOK lib pool1 B ∧
      (∀ id ∈ A1.list_ids, id ∉ B.list_ids) ∧
      lookup lib pool1 A1 key = some v ∧
      (∀ k, k.is_name = true → Value.equal_flat k key = false →
        lookup lib pool1 A1 k = lookup lib pool A k) ∧
      (∀ k, lookup lib pool1 B k = lookup lib pool B k) ∧
      Map.contents pool1 B = Map.contents pool B ∧
      (∀ x ∈ Map.contents pool1 A1, (x.first = key ∧ x.second = v) ∨
        x ∈ Map.contents pool A) := by
  rcases env_add lib pool A hA key v hk with ⟨pool1, A1, hadd, hok1, _, hfound, hframe⟩
  have hagree : PMapPool.add_keyvalue Value.equal_flat pool A
        (new_keyvalue (Value.get_hash_flat lib) key v) =
      PMapPool.add_keyvalue key_equal pool A (new_keyvalue (Value.get_hash_flat lib) key v) :=
    add_keyvalue_agree _ hA.1 (fun x hx => key_equal_of_names key x.first hk (hA.2 x hx))
  have hadd2 : PMapPool.add_keyvalue key_equal pool A
      (new_keyvalue (Value.get_hash_flat lib) key v) = some (pool1, A1) := by
    rw [← hagree]
    simpa only [map_add, name_is_atom key hk, if_true, Map.add] using hadd
  rcases @add_other_map Value Value key_equal Value.equal_flat (Value.get_hash_flat lib)
      pool pool1 A A1 B _ hA.1 hB.1 hd hadd2 with ⟨hwB, hcB, hlB, hdis⟩
  rcases add_keyvalue_post key_equal_equiv pool A hA.1
      (new_keyvalue (Value.get_hash_flat lib) key v) (new_keyvalue_good _ key v) with
    ⟨pool2, root2, hadd3, _, _, _, _, hdesc⟩
  rw [hadd2] at hadd3
  simp only [Option.some.injEq, Prod.mk.injEq] at hadd3
  obtain ⟨hp, hm⟩ := hadd3
  subst hp hm
  refine ⟨pool1, _, hadd, hok1, ⟨hwB, fun x hx => hB.2 x (by rw [← hcB]; exact hx)⟩, hdis,
    hfound, fun k hkn hne => (hframe k hkn hne).1, hlB, hcB, ?_⟩
  intro x hx
  rcases hdesc x hx with rfl | ⟨r, hr, hx2⟩
  · exact Or.inl ⟨rfl, rfl⟩
  · exact Or.inr (by simp only [Map.contents, hr]; exact hx2)

theorem int_keys_differ (a b : Int) (h : a ≠ b) :
    Value.equal_flat (Value.NUMBER (Number.INT a)) (Value.NUMBER (Number.INT b)) = false := by
  simp [Value.equal_flat, Number.equal, h]

/-- The second loop of `set_args`: it ends; the map that is filled finds the
texts under their numbers and every other name as before, and holds no other
new cells; another map of the pool that shares no list object with it is as
it was. -/
theorem set_args_add_post (lib : Library) : ∀ (fixed : List (List Char))
    (pool : PMapPool Value Value) (A B : Map Value Value) (order : Int),
    EnvOK lib pool A → EnvOK lib pool B → (∀ id ∈ A.list_ids, id ∉ B.list_ids) →
    ∃ pool1 A1, set_args_add lib pool A order fixed = some (pool1, A1) ∧
      EnvOK lib pool1 A1 ∧ EnvOK lib pool1 B ∧
      (∀ id ∈ A1.list_ids, id ∉ B.list_ids) ∧
      (∀ (i : Nat) (f : List Char), fixed[i]? = some f →
        lookup lib pool1 A1 (Value.NUMBER (Number.INT (order + i))) = some (Value.STRING f)) ∧
      (∀ k, k.is_name = true →
        (∀ i : Nat, i < fixed.length →
          Value.equal_flat k (Value.NUMBER (Number.INT (order + i))) = false) →
        lookup lib pool1 A1 k = lookup lib pool A k) ∧
      (∀ k, lookup lib pool1 B k = lookup lib pool B k) ∧
      (∀ x ∈ Map.contents pool1 A1, x ∈ Map.contents pool A ∨
        ∃ (i : Nat) (f : List Char), fixed[i]? = some f ∧
          x.first = Value.NUMBER (Number.INT (order + i)) ∧ x.second = Value.STRING f) := by
  intro fixed
  induction fixed with
  | nil =>
    intro pool A B order hA hB hd
    exact ⟨pool, A, rfl, hA, hB, hd, fun i f h => by simp at h, fun _ _ _ => rfl,
      fun _ => rfl, fun x hx => Or.inl hx⟩
  | cons f0 rest ih =>
    intro pool A B order hA hB hd
    rcases env_add_other lib pool A B hA hB hd (Value.NUMBER (Number.INT order))
        (Value.STRING f0) rfl with ⟨pool1, A1, hadd, hA1, hB1, hd1, hfound, hother, hlB, _, hcont⟩
    rcases ih pool1 A1 B (order + 1) hA1 hB1 hd1 with
      ⟨pool2, A2, hrun, hA2, hB2, hd2, hfind2, hother2, hlB2, hcont2⟩
    refine ⟨pool2, A2, ?_, hA2, hB2, hd2, ?_, ?_, ?_, ?_⟩
    · simp only [set_args_add, hadd, hrun]
    · intro i f hi
      cases i with
      | zero =>
        simp only [List.getElem?_cons_zero, Option.some.injEq] at hi
        subst hi
        rw [show order + ((0 : Nat) : Int) = order by simp]
        rw [hother2 (Value.NUMBER (Number.INT order)) rfl
          (fun i _ => int_keys_differ _ _ (by omega))]
        exact hfound
      | succ j =>
        simp only [List.getElem?_cons_succ] at hi
        have := hfind2 j f hi
        rw [show order + ((j + 1 : Nat) : Int) = order + 1 + (j : Int) by push_cast; ring]
        exact this
    · intro k hk hne
      rw [hother2 k hk (fun i hi => by
        have := hne (i + 1) (by simp only [List.length_cons]; omega)
        rw [show order + ((i + 1 : Nat) : Int) = order + 1 + (i : Int) by push_cast; ring] at this
        exact this)]
      apply hother k hk
      have := hne 0 (by simp)
      simpa using this
    · intro k
      rw [hlB2 k, hlB k]
    · intro x hx
      rcases hcont2 x hx with h | ⟨i, f, hi, h1, h2⟩
      · rcases hcont x h with ⟨h1, h2⟩ | h
        · exact Or.inr ⟨0, f0, by simp, by simpa using h1, h2⟩
        · exact Or.inl h
      · refine Or.inr ⟨i + 1, f, by simpa using hi, ?_, h2⟩
        rw [h1, show order + ((i + 1 : Nat) : Int) = order + 1 + (i : Int) by push_cast; ring]

/-- What `set_args` does in a runtime whose root environment has names for
keys. -/
theorem set_args_post (lib : Library) (m : Env) (argv : List (List Char))
    (hok : EnvOK lib m.map_pool_ m.env_) (hn : argv.length ≤ 2147483647) :
    ∃ m1 map, Env.set_args lib m argv = some m1 ∧ m1.out_ = m.out_ ∧
      lookup lib m1.map_pool_ m1.env_ (make_value_symbol "sys/args") = some (Value.MAP map) ∧
      (∀ k, k.is_name = true → Value.equal_flat k (make_value_symbol "sys/args") = false →
        lookup lib m1.map_pool_ m1.env_ k = lookup lib m.map_pool_ m.env_ k) ∧
      (∀ (i : Nat) (token : List Char), argv[i]? = some token →
        lookup lib m1.map_pool_ map (Value.NUMBER (Number.INT (Int.ofNat i))) =
          some (Value.STRING (slashes token))) ∧
      (∀ x ∈ Map.contents m1.map_pool_ map, ∃ (i : Nat) (token : List Char),
        argv[i]? = some token ∧ x.first = Value.NUMBER (Number.INT (Int.ofNat i)) ∧
          x.second = Value.STRING (slashes token)) := by
  have hnew : EnvOK lib m.map_pool_ PMapPool.new_map := ⟨trivial, fun x hx => by cases hx⟩
  rcases set_args_add_post lib (argv.map slashes) m.map_pool_ PMapPool.new_map m.env_ 0
      hnew hok (fun id hid => by cases hid) with
    ⟨pool1, A1, hrun, hA1, hB1, hd1, hfind, _, hlB, hcont⟩
  rcases env_add_other lib pool1 m.env_ A1 hB1 hA1 (fun id hb ha => hd1 id ha hb)
      (make_value_symbol "sys/args") (Value.MAP A1) rfl with
    ⟨pool2, E1, hadd, _, _, _, hfound, hother, hlA, hcA, _⟩
  refine ⟨Env.mk pool2 E1 m.out_, A1, ?_, rfl, hfound, ?_, ?_, ?_⟩
  · simp only [Env.set_args, hn, if_true, fix_args_slashes, hrun, Env.def, hadd,
      Option.map_some']
  · intro k hk hne
    show lookup lib pool2 E1 k = lookup lib m.map_pool_ m.env_ k
    rw [hother k hk hne, hlB k]
  · intro i token hi
    show lookup lib pool2 A1 _ = _
    rw [hlA]
    have := hfind i (slashes token) (by simp [hi])
    simpa using this
  · intro x hx
    have hx1 : x ∈ Map.contents pool1 A1 := by rw [← hcA]; exact hx
    rcases hcont x hx1 with h | ⟨i, f, hi, h1, h2⟩
    · cases h
    · simp only [List.getElem?_map, Option.map_eq_some'] at hi
      rcases hi with ⟨token, ht, rfl⟩
      exact ⟨i, token, ht, by simpa using h1, h2⟩

/-- C29: in a runtime whose root environment has names for keys, `set_args`
with at most 2147483647 tokens returns, writes nothing, leaves the other
bindings of the root environment as they were, and binds to the symbol
`sys/args` a map that finds under the integer `i` the string made from token
`i` by replacing with `/` each backslash that no backslash follows, and that
holds no other cells.  That string is as long as the token, and for a token
without two backslashes in a row it is the token with every backslash
replaced by `/`, with no backslash in it. -/
theorem set_args_binds_tokens (lib : Library) (m : Env) (argv : List (List Char))
    (hok : EnvOK lib m.map_pool_ m.env_) (hn : argv.length ≤ 2147483647) :
    ∃ m1 map, Env.set_args lib m argv = some m1 ∧ m1.out_ = m.out_ ∧
      lookup lib m1.map_pool_ m1.env_ (make_value_symbol "sys/args") = some (Value.MAP map) ∧
      (∀ k, k.is_name = true → Value.equal_flat k (make_value_symbol "sys/args") = false →
        lookup lib m1.map_pool_ m1.env_ k = lookup lib m.map_pool_ m.env_ k) ∧
      (∀ (i : Nat) (token : List Char), argv[i]? = some token →
        lookup lib m1.map_pool_ map (Value.NUMBER (Number.INT (Int.ofNat i))) =
          some (Value.STRING (slashes token))) ∧
      (∀ x ∈ Map.contents m1.map_pool_ map, ∃ (i : Nat) (token : List Char),
        argv[i]? = some token ∧ x.first = Value.NUMBER (Number.INT (Int.ofNat i)) ∧
          x.second = Value.STRING (slashes token)) ∧
      (∀ token : List Char, (slashes token).length = token.length ∧
        (double_backslash token = false →
          slashes token = replace_backslashes token ∧ BACKSLASH ∉ slashes token)) := by
  rcases set_args_post lib m argv hok hn with ⟨m1, map, h1, h2, h3, h4, h5, h6⟩
  refine ⟨m1, map, h1, h2, h3, h4, h5, h6, fun token => ⟨slashes_length token, fun hd => ?_⟩⟩
  rw [slashes_single token hd]
  exact ⟨rfl, replace_backslashes_none token⟩

theorem set_args_binds_tokens_witness :
    EnvOK length_library (Env.mk { lists := [] } PMapPool.new_map []).map_pool_
        (Env.mk { lists := [] } PMapPool.new_map []).env_ ∧
      [['o', 'r', 'b'], ['a', BACKSLASH, 'b']].length ≤ 2147483647 ∧
      ∃ m1 map, Env.set_args length_library (Env.mk { lists := [] } PMapPool.new_map [])
          [['o', 'r', 'b'], ['a', BACKSLASH, 'b']] = some m1 ∧
        lookup length_library m1.map_pool_ m1.env_ (make_value_symbol "sys/args") =
          some (Value.MAP map) ∧
        lookup length_library m1.map_pool_ map (Value.NUMBER (Number.INT 0)) =
          some (Value.STRING ['o', 'r', 'b']) ∧
        lookup length_library m1.map_pool_ map (Value.NUMBER (Number.INT 1)) =
          some (Value.STRING ['a', '/', 'b']) := by
  refine ⟨⟨trivial, fun x hx => by cases hx⟩, by decide, ?_⟩
  rcases set_args_binds_tokens length_library (Env.mk { lists := [] } PMapPool.new_map [])
      [['o', 'r', 'b'], ['a', BACKSLASH, 'b']] ⟨trivial, fun x hx => by cases hx⟩
      (by decide) with ⟨m1, map, h1, _, h3, _, h5, _, _⟩
  exact ⟨m1, map, h1, h3, h5 0 _ rfl, h5 1 _ rfl⟩

/-- C29, counterexample: in the fresh runtime `set_args` with the one token
`a\\b`, which has two backslashes in a row, binds a map to `sys/args` that
finds under 0 a string with the first of the two backslashes still in it: not
the token with every backslash replaced by `/`. -/
theorem set_args_keeps_first_backslash :
    ∃ E0 m1 map, Env.init length_library = some E0 ∧
      Env.set_args length_library E0 [double_token] = some m1 ∧
      lookup length_library m1.map_pool_ m1.env_ (make_value_symbol "sys/args") =
        some (Value.MAP map) ∧
      lookup length_library m1.map_pool_ map (Value.NUMBER (Number.INT 0)) =
        some (Value.STRING ['a', BACKSLASH, '/', 'b']) ∧
      BACKSLASH ∈ ['a', BACKSLASH, '/', 'b'] ∧
      ['a', BACKSLASH, '/', 'b'] ≠ replace_backslashes double_token := by
  rcases env_init length_library with ⟨E0, hinit, hok, _, _, _⟩
  rcases set_args_post length_library E0 [double_token] hok (by decide) with
    ⟨m1, map, h1, _, h3, _, h5, _⟩
  exact ⟨E0, m1, map, hinit, h1, h3, h5 0 _ rfl, by decide, by decide⟩

end Orb

/-! ## The element that `second` returns -/

/-- `second` on a valid list: the third element, and null when the list has
fewer than three. -/
theorem second_of_chain (pool : PListPool T) (head_ : Option Nat) (xs : List T)
    (hl : pool.Chain head_ xs) : PListPool.List.second pool head_ = xs[2]? := by
  cases xs with
  | nil =>
    cases head_ with
    | none => rfl
    | some h => exact absurd hl id
  | cons a xs =>
    cases head_ with
    | none => exact absurd hl id
    | some h =>
      rcases hl with ⟨_, node, hr, _, hrest⟩
      cases xs with
      | nil =>
        cases hn : node.next with
        | none => simp [PListPool.List.second, hr, hn]
        | some n1 => rw [hn] at hrest; exact absurd hrest id
      | cons b xs =>
        cases hn : node.next with
        | none => rw [hn] at hrest; exact absurd hrest id
        | some n1 =>
          rw [hn] at hrest
          rcases hrest with ⟨_, node1, hr1, _, hrest1⟩
          cases xs with
          | nil =>
            cases hn1 : node1.next with
            | none => simp [PListPool.List.second, hr, hn, hr1, hn1]
            | some n2 => rw [hn1] at hrest1; exact absurd hrest1 id
          | cons c xs =>
            cases hn1 : node1.next with
            | none => rw [hn1] at hrest1; exact absurd hrest1 id
            | some n2 =>
              rw [hn1] at hrest1
              rcases hrest1 with ⟨_, node2, hr2, hd2, _⟩
              simp [PListPool.List.second, hr, hn, hr1, hn1, hr2, hd2]

/-- C32: for every valid list with the elements `xs`, `second()` returns the
third element `xs[2]`, and null when the list has fewer than three elements:
null for a list of two elements, and for a longer list not its second
element `xs[1]` but the one after it, while `first()` returns `xs[0]`. -/
theorem second_is_third (pool : PListPool T) (head_ : Option Nat) (xs : List T)
    (hl : pool.Chain head_ xs) :
    PListPool.List.second pool head_ = xs[2]? ∧
      PListPool.List.first pool head_ = xs[0]? ∧
      (xs.length = 2 → PListPool.List.second pool head_ = none) := by
  refine ⟨second_of_chain pool head_ xs hl, ?_, ?_⟩
  · cases xs with
    | nil =>
      cases head_ with
      | none => rfl
      | some h => exact absurd hl id
    | cons a xs =>
      cases head_ with
      | none => exact absurd hl id
      | some h =>
        rcases hl with ⟨_, node, hr, hd, _⟩
        simp [PListPool.List.first, hr, hd]
  · intro h2
    rw [second_of_chain pool head_ xs hl]
    exact List.getElem?_eq_none (by omega)

theorem second_is_third_witness :
    number_list_example.1.Chain number_list_example.2 [7, 5] ∧
      PListPool.List.second number_list_example.1 number_list_example.2 = none ∧
      PListPool.List.first number_list_example.1 number_list_example.2 = some 7 :=
  ⟨number_list_example_eq.2,
    (second_is_third number_list_example.1 number_list_example.2 [7, 5]
      number_list_example_eq.2).1,
    (second_is_third number_list_example.1 number_list_example.2 [7, 5]
      number_list_example_eq.2).2.1⟩

namespace Orb

/-! ## The hash of a composite value -/

theorem number_array_hash_zero : ∀ (a : List Number), a.foldl accum_number_hash 0 = 0 := by
  intro a
  induction a with
  | nil => rfl
  | cons x a ih => simpa [List.foldl_cons, accum_number_hash] using ih

theorem fold_map_hash_returns (hash : Value → Option Nat) :
    ∀ (l : List (KeyValue Value Value)) (p : Nat),
      (∀ x ∈ l, (∃ h, hash x.first = some h) ∧ ∃ h, hash x.second = some h) →
      ∃ h, fold_map_hash hash p l = some h := by
  intro l
  induction l with
  | nil => intro p _; exact ⟨p, rfl⟩
  | cons x rest ih =>
    intro p hall
    rcases hall x (List.mem_cons_self _ _) with ⟨⟨h1, e1⟩, h2, e2⟩
    simp only [fold_map_hash, e1, e2]
    exact ih _ (fun w hw => hall w (List.mem_cons_of_mem _ hw))

theorem cells_depth_le : ∀ (l : List (KeyValue Value Value)) (x : KeyValue Value Value),
    x ∈ l → Value.depth x.first ≤ cells_depth l ∧ Value.depth x.second ≤ cells_depth l := by
  intro l
  induction l with
  | nil => intro x h; cases h
  | cons y rest ih =>
    intro x h
    simp only [cells_depth]
    rcases List.mem_cons.mp h with rfl | h
    · exact ⟨le_trans (le_max_left _ _) (le_max_left _ _),
        le_trans (le_max_right _ _) (le_max_left _ _)⟩
    · exact ⟨le_trans (ih x h).1 (le_max_right _ _), le_trans (ih x h).2 (le_max_right _ _)⟩

theorem slice_zero (level : Nat) : slice 0 level = 0 := by
  simp [slice]

theorem composite_hash_eq (lib : Library) (pool : PMapPool Value Value) (v : Value)
    (hv : v.is_composite = true) (fuel h : Nat) (e : Value.get_hash lib pool fuel v = some h) :
    h = 0 := by
  have := get_hash_eq lib pool fuel v h e
  cases v <;> simp only [Value.is_composite, Bool.false_eq_true] at hv <;>
    simp only [Value.is_atom, if_true, Bool.false_eq_true, if_false] at this
  · rw [this]; exact number_array_hash_zero _
  · exact this
  · exact this
  · exact this

/-- C36: `get_hash` of a list, a vector, a number array or a map is 0,
whatever the elements: whenever it returns, the hash is 0, so that its slice
at every level of a trie is 0; it does return 0 on every such value without
maps, given fuel beyond its depth, and on every map that satisfies the
invariant and whose keys and values are without maps. -/
theorem composite_hash_is_zero (lib : Library) (pool : PMapPool Value Value) (v : Value)
    (hv : v.is_composite = true) :
    (∀ fuel h, Value.get_hash lib pool fuel v = some h → h = 0 ∧ ∀ level, slice h level = 0) ∧
    (Value.map_free v = true → Value.get_hash lib pool (Value.depth v + 1) v = some 0) ∧
    (∀ (m : Map Value Value) (compare : Value → Value → Bool) (hashfun : Value → Nat),
      v = Value.MAP m → WFMap compare hashfun pool m →
      (∀ x ∈ Map.contents pool m,
        Value.map_free x.first = true ∧ Value.map_free x.second = true) →
      Value.get_hash lib pool (cells_depth (Map.contents pool m) + 2) v = some 0) := by
  refine ⟨?_, ?_, ?_⟩
  · intro fuel h e
    have h0 := composite_hash_eq lib pool v hv fuel h e
    subst h0
    exact ⟨rfl, slice_zero⟩
  · intro hf
    rcases get_hash_returns lib pool _ v hf (Nat.lt_succ_self _) with ⟨h, e⟩
    rw [e, composite_hash_eq lib pool v hv _ h e]
  · intro m compare hashfun hm hw hall
    have hret : ∃ h, Value.get_hash lib pool (cells_depth (Map.contents pool m) + 2) v =
        some h := by
      subst hm
      have e1 : Value.get_hash lib pool (cells_depth (Map.contents pool m) + 1 + 1)
          (Value.MAP m) =
          match Map.elements pool m with
          | none => none
          | some cells =>
            fold_map_hash (Value.get_hash lib pool (cells_depth (Map.contents pool m) + 1)) 0
              cells := rfl
      rw [show cells_depth (Map.contents pool m) + 2 =
        cells_depth (Map.contents pool m) + 1 + 1 from rfl, e1, elements_eq hw]
      apply fold_map_hash_returns
      intro x hx
      have hd := cells_depth_le _ x hx
      exact ⟨get_hash_returns lib pool _ _ (hall x hx).1 (by omega),
        get_hash_returns lib pool _ _ (hall x hx).2 (by omega)⟩
    rcases hret with ⟨h, e⟩
    rw [e, composite_hash_eq lib pool v hv _ h e]

theorem composite_hash_is_zero_witness :
    hash_example_a.is_composite = true ∧
      Value.get_hash length_library { lists := [] } (Value.depth hash_example_a + 1)
        hash_example_a = some 0 :=
  ⟨rfl, (composite_hash_is_zero length_library { lists := [] } hash_example_a rfl).2.1 rfl⟩

end Orb

namespace Orb

/-! ## Ranges that end and ranges that do not -/

theorem range_loop_ends_up (lib : Library) (inc b : Int) (hinc : 0 < inc)
    (hb : b + inc ≤ 2147483648) :
    ∀ (n fuel : Nat) (a : Int), n < fuel → -2147483648 ≤ a → a < 2147483648 →
      b - a ≤ n → ∃ l, range_loop lib fuel (Number.INT a) (Number.INT inc) true (Number.INT b) =
        some l := by
  intro n
  induction n with
  | zero =>
    intro fuel a hf _ _ hn
    obtain ⟨f, rfl⟩ : ∃ f, fuel = f + 1 := ⟨fuel - 1, by omega⟩
    have hnot : ¬ a < b := by simp at hn; omega
    exact ⟨[], by simp [range_loop, Number.less, Number.is_float, Number.to_int, hnot]⟩
  | succ n ih =>
    intro fuel a hf hlo hhi hn
    obtain ⟨f, rfl⟩ : ∃ f, fuel = f + 1 := ⟨fuel - 1, by omega⟩
    by_cases hab : a < b
    · have hstep : Number.add lib (Number.INT a) (Number.INT inc) = Number.INT (a + inc) := by
        simp only [Number.add, Number.is_float, Number.to_int, Bool.or_self, Bool.false_eq_true,
          if_false]
        rw [to_int_of_range _ (by omega) (by omega)]
      rcases ih f (a + inc) (by omega) (by omega) (by omega)
        (by push_cast at hn; omega) with ⟨l, hl⟩
      exact ⟨Value.NUMBER (Number.INT a) :: l, by
        simp only [range_loop, Number.less, Number.is_float, Number.to_int, Bool.or_self,
          Bool.false_eq_true, if_false, if_true, hab, decide_True, hstep, hl, Option.map_some']⟩
    · exact ⟨[], by simp [range_loop, Number.less, Number.is_float, Number.to_int, hab]⟩

theorem range_loop_ends_down (lib : Library) (inc b : Int) (hinc : inc < 0)
    (hb : -2147483648 ≤ b + inc) :
    ∀ (n fuel : Nat) (a : Int), n < fuel → -2147483648 ≤ a → a < 2147483648 →
      a - b ≤ n → ∃ l, range_loop lib fuel (Number.INT a) (Number.INT inc) false (Number.INT b) =
        some l := by
  intro n
  induction n with
  | zero =>
    intro fuel a hf _ _ hn
    obtain ⟨f, rfl⟩ : ∃ f, fuel = f + 1 := ⟨fuel - 1, by omega⟩
    have hnot : ¬ b < a := by simp at hn; omega
    exact ⟨[], by simp [range_loop, Number.greater, Number.is_float, Number.to_int, hnot]⟩
  | succ n ih =>
    intro fuel a hf hlo hhi hn
    obtain ⟨f, rfl⟩ : ∃ f, fuel = f + 1 := ⟨fuel - 1, by omega⟩
    by_cases hab : b < a
    · have hstep : Number.add lib (Number.INT a) (Number.INT inc) = Number.INT (a + inc) := by
        simp only [Number.add, Number.is_float, Number.to_int, Bool.or_self, Bool.false_eq_true,
          if_false]
        rw [to_int_of_range _ (by omega) (by omega)]
      rcases ih f (a + inc) (by omega) (by omega) (by omega)
        (by push_cast at hn; omega) with ⟨l, hl⟩
      exact ⟨Value.NUMBER (Number.INT a) :: l, by
        simp only [range_loop, Number.greater, Number.is_float, Number.to_int, Bool.or_self,
          Bool.false_eq_true, if_false, if_true, gt_iff_lt, hab, decide_True, hstep, hl,
          Option.map_some']⟩
    · exact ⟨[], by simp [range_loop, Number.greater, Number.is_float, Number.to_int, hab]⟩

/-- C38: the loop over `Range<Number>(a, inc, b)` for `int`s.  With an
increment other than 0, and room for one more step beyond `b` in the range of
`int`, the loop ends; with the increment 0 it ends at once when `a <= b`, and
for `a > b` it adds 0 to `a` for ever: whatever the fuel, there is no
result. -/
theorem range_ends_unless_zero (lib : Library) (a inc b : Int)
    (ha : -2147483648 ≤ a) (ha2 : a < 2147483648)
    (hi : -2147483648 ≤ inc) (hi2 : inc < 2147483648) :
    (inc ≠ 0 → -2147483648 ≤ b - inc → -2147483648 ≤ b + inc → b + inc ≤ 2147483648 →
      b - inc ≤ 2147483648 →
      ∃ fuel l, range_values lib fuel (Number.INT a) (Number.INT inc) (Number.INT b) = some l) ∧
    (inc = 0 → a ≤ b → ∀ fuel,
      range_values lib (fuel + 1) (Number.INT a) (Number.INT inc) (Number.INT b) = some []) ∧
    (inc = 0 → b < a → ∀ fuel,
      range_values lib fuel (Number.INT a) (Number.INT inc) (Number.INT b) = none) := by
  have hgr0 : Number.greater lib (Number.INT 0) (Number.INT 0) = false := rfl
  refine ⟨?_, ?_, ?_⟩
  · intro hne h1 h2 h3 h4
    rcases lt_or_gt_of_ne hne with hneg | hpos
    · have hgr : Number.greater lib (Number.INT inc) (Number.INT 0) = false := by
        simp only [Number.greater, Number.is_float, Number.to_int, Bool.or_self,
          Bool.false_eq_true, if_false, decide_eq_false_iff_not]
        omega
      rcases range_loop_ends_down lib inc b hneg h2 (a - b).toNat ((a - b).toNat + 1) a
        (by omega) ha ha2 (by omega) with ⟨l, hl⟩
      exact ⟨(a - b).toNat + 1, l, by
        simp only [range_values, hgr, Bool.and_false, Bool.false_eq_true, if_false, hl]⟩
    · have hgr : Number.greater lib (Number.INT inc) (Number.INT 0) = true := by
        simp only [Number.greater, Number.is_float, Number.to_int, Bool.or_self,
          Bool.false_eq_true, if_false, decide_eq_true_eq]
        omega
      by_cases hba : b < a
      · have hless : Number.less lib (Number.INT b) (Number.INT a) = true := by
          simp only [Number.less, Number.is_float, Number.to_int, Bool.or_self,
            Bool.false_eq_true, if_false, decide_eq_true_eq]
          exact hba
        have hmul : Number.mul lib (Number.INT inc) (Number.INT (-1)) = Number.INT (-inc) := by
          simp only [Number.mul, Number.is_float, Number.to_int, Bool.or_self,
            Bool.false_eq_true, if_false]
          rw [show inc * -1 = -inc by ring, to_int_of_range _ (by omega) (by omega)]
        have hgr2 : Number.greater lib (Number.INT (-inc)) (Number.INT 0) = false := by
          simp only [Number.greater, Number.is_float, Number.to_int, Bool.or_self,
            Bool.false_eq_true, if_false, decide_eq_false_iff_not]
          omega
        rcases range_loop_ends_down lib (-inc) b (by omega) (by omega) (a - b).toNat
          ((a - b).toNat + 1) a (by omega) ha ha2 (by omega) with ⟨l, hl⟩
        exact ⟨(a - b).toNat + 1, l, by
          simp only [range_values, hless, hgr, Bool.and_self, if_true, hmul, hgr2, hl]⟩
      · have hless : Number.less lib (Number.INT b) (Number.INT a) = false := by
          simp only [Number.less, Number.is_float, Number.to_int, Bool.or_self,
            Bool.false_eq_true, if_false, decide_eq_false_iff_not]
          exact hba
        rcases range_loop_ends_up lib inc b hpos h3 (b - a).toNat ((b - a).toNat + 1) a
          (by omega) ha ha2 (by omega) with ⟨l, hl⟩
        exact ⟨(b - a).toNat + 1, l, by
          simp only [range_values, hless, Bool.false_and, Bool.false_eq_true, if_false, hgr, hl]⟩
  · intro h0 hab fuel
    subst h0
    have hg : Number.greater lib (Number.INT a) (Number.INT b) = false := by
      simp only [Number.greater, Number.is_float, Number.to_int, Bool.or_self,
        Bool.false_eq_true, if_false, decide_eq_false_iff_not]
      omega
    simp only [range_values, hgr0, Bool.and_false, Bool.false_eq_true, if_false, range_loop, hg]
  · intro h0 hab fuel
    subst h0
    simp only [range_values, hgr0, Bool.and_false, Bool.false_eq_true, if_false,
      range_loop_stays lib a b ha ha2 hab]

theorem range_ends_unless_zero_witness :
    (-2147483648 : Int) ≤ 5 ∧ (5 : Int) < 2147483648 ∧ (-2147483648 : Int) ≤ 0 ∧
      (0 : Int) < 2147483648 ∧
      ∀ fuel, range_values length_library fuel (Number.INT 5) (Number.INT 0) (Number.INT 0) =
        none :=
  ⟨by decide, by decide, by decide, by decide,
    (range_ends_unless_zero length_library 5 0 0 (by decide) (by decide) (by decide)
      (by decide)).2.2 rfl (by decide)⟩

end Orb

/-! ## Adding a key whose hash no cell of the map has -/

/-- The list objects a node points to hold cells of the node. -/
theorem ids_lists {compare : K → K → Bool} {hashfun : K → Nat} {pool : PMapPool K V} :
    ∀ (r : Nat) (path : List Nat) (n : Node K V), WFNode compare hashfun pool r path n →
      ∀ id ∈ n.ids_below, ∃ l, pool.lists[id]? = some l ∧ l ≠ [] ∧
        ∀ x ∈ l, x ∈ n.descendants pool := by
  intro r
  induction r with
  | zero =>
    intro path n hw id hid
    simp only [WFNode] at hw
    simp only [Node.ids_below, hw.2, list_ids_list_nil, List.not_mem_nil] at hid
  | succ r ih =>
    intro path n hw id hid
    simp only [WFNode] at hw
    rcases mem_list_ids_list.mp hid with ⟨c, hc, hidc⟩
    rcases forall₂_right_mem hw.2 hc with ⟨j, _, hv, hn, _⟩
    have hsub : ∀ x, x ∈ Node.subtree pool c → x ∈ n.descendants pool := fun x hx =>
      mem_subtree_list.mpr ⟨c, hc, hx⟩
    rcases wfvalue_cases hv with ⟨nkv, ht, hval, _, _⟩ | ⟨ht, id2, l, hval, _, hl, hlen, _, _⟩
    · cases c with
      | mk u cs t v =>
        simp only [Node.value] at hval
        subst hval
        rw [list_ids_eq] at hidc
        simp only [NodeValue.ids, List.nil_append] at hidc
        rcases ih _ _ hn id hidc with ⟨l, hl, hne, hmem⟩
        exact ⟨l, hl, hne, fun x hx => hsub x (by
          rw [subtree_eq]; exact List.mem_append_right _ (hmem x hx))⟩
    · cases c with
      | mk u cs t v =>
        simp only [Node.value] at hval
        subst hval
        rw [list_ids_eq] at hidc
        simp only [NodeValue.ids, List.singleton_append, List.mem_cons] at hidc
        rcases hidc with rfl | hidc
        · refine ⟨l, hl, ?_, fun x hx => hsub x ?_⟩
          · intro h0; rw [h0] at hlen; simp at hlen
          · rw [subtree_eq, values_collision pool ht rfl hl]
            exact List.mem_append_left _ hx
        · rcases ih _ _ hn id hidc with ⟨l2, hl2, hne, hmem⟩
          exact ⟨l2, hl2, hne, fun x hx => hsub x (by
            rw [subtree_eq]; exact List.mem_append_right _ (hmem x hx))⟩

/-- The map that `add` was called on with a key whose hash none of its
cells has is the same map in the pool after the call. -/
theorem add_fresh_hash_old {compare cmp : K → K → Bool} {hashfun : K → Nat}
    (hc : CompareEquiv compare) (pool pool1 : PMapPool K V) (m m1 : Map K V)
    (hw : WFMap compare hashfun pool m) (kv : KeyValue K V)
    (hkv : kv.hash = hashfun kv.first % U32)
    (hfresh : ∀ x ∈ Map.contents pool m, x.hash ≠ kv.hash)
    (hadd : PMapPool.add_keyvalue compare pool m kv = some (pool1, m1)) :
    WFMap compare hashfun pool1 m ∧ Map.contents pool1 m = Map.contents pool m ∧
      ∀ key, Map.try_get_value cmp hashfun pool1 m key =
        Map.try_get_value cmp hashfun pool m key := by
  rcases add_keyvalue_post hc pool m hw kv hkv with ⟨pool2, root2, hadd2, _, hframe, _⟩
  rw [hadd] at hadd2
  simp only [Option.some.injEq, Prod.mk.injEq] at hadd2
  obtain ⟨hp, _⟩ := hadd2
  subst hp
  obtain ⟨root⟩ := m
  cases root with
  | none => exact ⟨trivial, rfl, fun _ => rfl⟩
  | some root =>
    have hids : ∀ id ∈ root.ids_below, pool1.lists[id]? = pool.lists[id]? := by
      intro id hid
      rcases ids_lists 7 [] root hw.2 id hid with ⟨l, hl, hne, hmem⟩
      cases l with
      | nil => exact absurd rfl hne
      | cons x l =>
        rw [hl]
        exact hframe id _ hl ⟨x, List.mem_cons_self _ _,
          hfresh x (hmem x (List.mem_cons_self _ _))⟩
    have h := @frame_node_ids K V compare cmp hashfun pool pool1 7 [] root hw.2 hids
    exact ⟨⟨hw.1, h.1⟩, h.2.1, fun key => h.2.2 _ _ _ _⟩

theorem contents_hash {compare : K → K → Bool} {hashfun : K → Nat}
    {pool : PMapPool K V} {m : Map K V} (hw : WFMap compare hashfun pool m)
    (x : KeyValue K V) (hx : x ∈ Map.contents pool m) : x.hash = hashfun x.first % U32 := by
  obtain ⟨root⟩ := m
  cases root with
  | none => cases hx
  | some root =>
    have hwf : WFNode compare hashfun pool 7 [] root := hw.2
    rcases mem_subtree_list.mp hx with ⟨c, hc1, hxc⟩
    rw [wfnode_succ_iff] at hwf
    rcases forall₂_right_mem hwf.2 hc1 with ⟨j, _, hj⟩
    exact (subtree_onPath 6 [] j c hj x hxc).1

namespace Orb

/-- Adding a name whose hash no cell of the map has: as `env_add`, and the
old map finds every key in the new pool as before. -/
theorem env_add_fresh (lib : Library) (pool : PMapPool Value Value) (m : Map Value Value)
    (h : EnvOK lib pool m) (key v : Value) (hk : key.is_name = true)
    (hfresh : ∀ x ∈ Map.contents pool m, x.hash ≠ Value.get_hash_flat lib key % U32) :
    ∃ pool1 m1, map_add lib pool m key v = some (pool1, m1) ∧
      EnvOK lib pool1 m1 ∧ EnvOK lib pool1 m ∧
      lookup lib pool1 m1 key = some v ∧
      (∀ k, k.is_name = true → Value.equal_flat k key = false →
        lookup lib pool1 m1 k = lookup lib pool m k) ∧
      ∀ k, lookup lib pool1 m k = lookup lib pool m k := by
  rcases env_add lib pool m h key v hk with ⟨pool1, m1, hadd, hok1, hokold, hfound, hframe⟩
  have hagree : PMapPool.add_keyvalue Value.equal_flat pool m
        (new_keyvalue (Value.get_hash_flat lib) key v) =
      PMapPool.add_keyvalue key_equal pool m (new_keyvalue (Value.get_hash_flat lib) key v) :=
    add_keyvalue_agree _ h.1 (fun x hx => key_equal_of_names key x.first hk (h.2 x hx))
  have hadd2 : PMapPool.add_keyvalue key_equal pool m
      (new_keyvalue (Value.get_hash_flat lib) key v) = some (pool1, m1) := by
    rw [← hagree]
    simpa only [map_add, name_is_atom key hk, if_true, Map.add] using hadd
  have hold := @add_fresh_hash_old Value Value key_equal Value.equal_flat
    (Value.get_hash_flat lib) key_equal_equiv pool pool1 m m1 h.1 _
    (new_keyvalue_good _ key v) hfresh hadd2
  exact ⟨pool1, m1, hadd, hok1, hokold, hfound, fun k hkn hne => (hframe k hkn hne).1,
    hold.2.2⟩

/-- The cells of the environment after `load_default_env` hold the names of
the operators. -/
theorem default_cells (lib : Library) (E0 : Env) (hok : EnvOK lib E0.map_pool_ E0.env_)
    (hnone : ∀ k, k.is_name = true →
      (∀ p ∈ default_bindings, Value.equal_flat k p.1 = false) →
        lookup lib E0.map_pool_ E0.env_ k = none) :
    ∀ x ∈ Map.contents E0.map_pool_ E0.env_, ∃ p ∈ default_env,
      x.hash = lib.hash32 p.1.toList % U32 := by
  intro x hx
  have hname := hok.2 x hx
  have hfind : lookup lib E0.map_pool_ E0.env_ x.first = some x.second := by
    rw [lookup_eq lib hok x.first hname]
    exact contents_lookup key_equal_equiv hok.1 x hx
  have hex : ∃ p ∈ default_bindings, Value.equal_flat x.first p.1 = true := by
    by_contra hno
    have := hnone x.first hname (fun p hp => by
      cases he : Value.equal_flat x.first p.1 with
      | false => rfl
      | true => exact absurd ⟨p, hp, he⟩ hno)
    rw [hfind] at this
    cases this
  rcases hex with ⟨p, hp, he⟩
  simp only [default_bindings, List.mem_map] at hp
  rcases hp with ⟨q, hq, rfl⟩
  have heq : x.first = make_value_symbol q.1 := (name_equal_iff x.first (make_value_symbol q.1) hname rfl).mp he
  refine ⟨q, hq, ?_⟩
  rw [contents_hash hok.1 x hx, heq]
  simp [make_value_symbol, Value.get_hash_flat]

/-! ## A procedure that names itself -/

theorem recursive_source_parsed (lib : Library) : string_to_value lib recursive_source =
      some (.ok (Value.LIST [make_value_symbol "begin",
        Value.LIST [make_value_symbol "def", Value.SYMBOL "f".toList,
          Value.LIST [make_value_symbol "fn", Value.LIST [Value.SYMBOL "n".toList],
            Value.LIST [Value.SYMBOL "f".toList, Value.SYMBOL "n".toList]]],
        Value.LIST [Value.SYMBOL "f".toList, Value.NUMBER (Number.INT 1)]])) :=
  parses_to_sound lib length_library _ _ (by decide!)

theorem recursive_source_eval (lib : Library) (fuel : Nat) (E0 : Env)
    (hok : EnvOK lib E0.map_pool_ E0.env_)
    (hnone : ∀ k, k.is_name = true →
      (∀ p ∈ default_bindings, Value.equal_flat k p.1 = false) →
        lookup lib E0.map_pool_ E0.env_ k = none)
    (hfresh : ∀ p ∈ default_env, lib.hash32 p.1.toList % U32 ≠ lib.hash32 "f".toList % U32) :
    read_eval lib (fuel + 12) E0 recursive_source =
      some (orb_fail "eval: Symbol not found. Input:f".toList, none) := by
  have h_f := default_missing lib E0 hnone "f".toList (by decide)
  rcases env_add_fresh lib E0.map_pool_ E0.env_ hok (Value.SYMBOL "f".toList)
      (Value.LIST [make_value_symbol "procedure", Value.LIST [Value.SYMBOL "n".toList],
        Value.LIST [Value.LIST [Value.SYMBOL "f".toList, Value.SYMBOL "n".toList]],
        Value.MAP E0.env_]) rfl (by
          intro x hx
          rcases default_cells lib E0 hok hnone x hx with ⟨p, hp, hh⟩
          rw [hh]
          simpa [Value.get_hash_flat] using hfresh p hp) with
    ⟨pool1, m1, hadd1, hok1, hold1, hf, hframe1, hsame1⟩
  rcases env_add lib pool1 E0.env_ hold1 (Value.SYMBOL "n".toList)
      (Value.NUMBER (Number.INT 1)) rfl with ⟨pool2, m2, hadd2, hok2, _, hx, hframe2⟩
  have h_f2 : lookup lib pool2 m2 (Value.SYMBOL "f".toList) = none := by
    rw [(hframe2 (Value.SYMBOL "f".toList) rfl (by decide)).1, hsame1, h_f]
  have hbody : ∀ f (o : Env), o.map_pool_ = pool2 →
      eval lib (f + 2) (Value.LIST [Value.SYMBOL "f".toList, Value.SYMBOL "n".toList]) m2 o =
        some (.error "eval: Symbol not found. Input:f".toList) := by
    intro f o ho
    rw [eval_application lib _ _ _ _ _ (by decide),
      eval_symbol_missing lib _ _ _ _ (by rw [ho]; exact h_f2), bind_error]
    rfl
  have hcall : ∀ f (o : Env), o.map_pool_ = pool1 →
      eval lib (f + 9) (Value.LIST [Value.SYMBOL "f".toList, Value.NUMBER (Number.INT 1)]) m1 o =
        some (.error "eval: Symbol not found. Input:f".toList) := by
    intro f o ho
    rw [eval_application lib _ _ _ _ _ (by decide),
      eval_symbol_found lib _ _ _ _ _ (by rw [ho]; exact hf), bind_ok, apply_procedure,
      eval_list_to_vector_cons, eval_number, bind_ok, eval_list_to_vector_nil]
    simp only [bind_ok]
    rw [eval_compound_procedure_step]
    simp only [ho, map_add_range, hadd2]
    rw [eval_sequence_last, hbody (f + 3) _ rfl]
    rfl
  simp only [read_eval, recursive_source_parsed lib, eval_value]
  rw [eval_begin, eval_sequence_cons, eval_def_list, eval_fn, bind_ok]
  simp only [hadd1]
  rw [bind_ok, eval_sequence_last, hcall fuel _ rfl]

/-- C37: a `def` of a `fn` form binds the name to the procedure that holds
the environment as it is before the name is added.  When the procedure is
applied its body is evaluated in a map made from that environment and the
parameters: a name that is found there is a parameter or was found in the
stored environment.  In a fresh runtime, when `hash32` gives `f` another hash
than the names of the default environment, `read_eval` of
`(def f (fn (n) (f n))) (f 1)` fails with `eval: Symbol not found. Input:f`. -/
theorem def_does_not_see_itself (lib : Library) (fuel : Nat) (params args body : List Value)
    (penv : Map Value Value) (orb : Env) (henv : EnvOK lib orb.map_pool_ penv)
    (hnames : ∀ p ∈ params, p.is_name = true)
    (hdist : params.Pairwise (fun a b => Value.equal_flat a b = false))
    (hfresh : ∀ p ∈ default_env, lib.hash32 p.1.toList % U32 ≠ lib.hash32 "f".toList % U32) :
    (∃ pool1 m1, map_add_range lib orb.map_pool_ penv params args = some (pool1, m1) ∧
      eval_compound_procedure lib (fuel + 1)
          (Value.LIST [make_value_symbol "procedure", Value.LIST params, Value.LIST body,
            Value.MAP penv]) args orb =
        ((eval_sequence lib fuel body m1 (Env.mk pool1 orb.env_ orb.out_)).bind fun e =>
          some (.ok (e.1, e.2.2))) ∧
      ∀ k, k.is_name = true → (lookup lib pool1 m1 k).isSome = true →
        (∃ p ∈ params, Value.equal_flat k p = true) ∨
          (lookup lib orb.map_pool_ penv k).isSome = true) ∧
    (∀ (env : Map Value Value) (o : Env) (name : List Char),
      eval lib (fuel + 2) (Value.LIST [make_value_symbol "def", Value.SYMBOL name,
          Value.LIST (make_value_symbol "fn" :: Value.LIST params :: body)]) env o =
        match map_add lib o.map_pool_ env (Value.SYMBOL name)
            (Value.LIST [make_value_symbol "procedure", Value.LIST params, Value.LIST body,
              Value.MAP env]) with
        | none => none
        | some r => some (.ok (Value.NIL, r.2, { o with map_pool_ := r.1 }))) ∧
    ∃ E0, Env.init lib = some E0 ∧
      read_eval lib (fuel + 12) E0 recursive_source =
        some (orb_fail "eval: Symbol not found. Input:f".toList, none) := by
  refine ⟨?_, ?_, ?_⟩
  · rcases env_add_range lib params args orb.map_pool_ penv henv hnames hdist with
      ⟨pool1, m1, hrange, _, _, hkeep⟩
    refine ⟨pool1, m1, hrange, ?_, ?_⟩
    · rw [eval_compound_procedure_step, hrange]
    · intro k hk hsome
      by_cases hall : ∀ p ∈ params, Value.equal_flat k p = false
      · right
        rw [← hkeep k hk hall]
        exact hsome
      · left
        by_contra hno
        apply hall
        intro p hp
        cases he : Value.equal_flat k p with
        | false => rfl
        | true => exact absurd ⟨p, hp, he⟩ hno
  · intro env o name
    rw [eval_def_list, eval_fn, bind_ok]
  · rcases env_init lib with ⟨E0, hinit, hok, _, _, hnone⟩
    exact ⟨E0, hinit, recursive_source_eval lib fuel E0 hok hnone hfresh⟩

theorem def_does_not_see_itself_witness :
    EnvOK marked_library { lists := [] } PMapPool.new_map ∧
      (∀ p ∈ default_env,
        marked_library.hash32 p.1.toList % U32 ≠ marked_library.hash32 "f".toList % U32) ∧
      ∃ E0, Env.init marked_library = some E0 ∧
        read_eval marked_library 12 E0 recursive_source =
          some (orb_fail "eval: Symbol not found. Input:f".toList, none) :=
  ⟨⟨trivial, fun x hx => by cases hx⟩, by decide,
    (def_does_not_see_itself marked_library 0 [Value.SYMBOL "n".toList]
      [Value.NUMBER (Number.INT 1)] [] PMapPool.new_map
      (Env.mk { lists := [] } PMapPool.new_map []) ⟨trivial, fun x hx => by cases hx⟩
      (by simp [Value.is_name]) (List.pairwise_singleton _ _) (by decide)).2.2⟩

end Orb

/-! ## The nodes of a map that satisfies the invariant -/

theorem nodes_eq (d : Nat) (n : Node K V) :
    Node.nodes d n = (d, n) :: Node.nodes_list (d + 1) n.child_array := by
  cases n with
  | mk u cs t v => simp [Node.nodes, Node.child_array]

theorem mem_nodes_list {d : Nat} {cs : List (Node K V)} {q : Nat × Node K V} :
    q ∈ Node.nodes_list d cs ↔ ∃ c ∈ cs, q ∈ Node.nodes d c := by
  induction cs with
  | nil => simp [Node.nodes_list]
  | cons c cs ih => simp [Node.nodes_list, ih]

/-- Every node of a trie that satisfies the invariant satisfies it itself,
for its own path and the levels below it. -/
theorem wf_nodes {compare : K → K → Bool} {hashfun : K → Nat} {pool : PMapPool K V} :
    ∀ (depth : Nat) (path : List Nat) (n : Node K V), WFNode compare hashfun pool depth path n →
      ∀ q ∈ Node.nodes path.length n, ∃ path1 k, path1.length = q.1 ∧
        q.1 + k = path.length + depth ∧ WFNode compare hashfun pool k path1 q.2 := by
  intro depth
  induction depth with
  | zero =>
    intro path n hw q hq
    have hcs := hw.2
    rw [nodes_eq, hcs] at hq
    simp only [Node.nodes_list, List.mem_singleton] at hq
    subst hq
    exact ⟨path, 0, rfl, rfl, hw⟩
  | succ depth ih =>
    intro path n hw q hq
    rw [nodes_eq, List.mem_cons] at hq
    rcases hq with rfl | hq
    · exact ⟨path, depth + 1, rfl, rfl, hw⟩
    · rcases mem_nodes_list.mp hq with ⟨c, hc, hqc⟩
      have hw2 := hw
      rw [wfnode_succ_iff] at hw2
      rcases forall₂_right_mem hw2.2 hc with ⟨j, _, hj⟩
      have hlen : (path ++ [j]).length = path.length + 1 := by simp
      rw [← hlen] at hqc
      rcases ih (path ++ [j]) c hj.2.1 q hqc with ⟨path1, k, h1, h2, h3⟩
      exact ⟨path1, k, h1, by rw [h2, hlen]; omega, h3⟩

/-- The reference array of a node that satisfies the invariant, entry by
entry against the set bits of `used`. -/
theorem wfnode_children {compare : K → K → Bool} {hashfun : K → Nat} {pool : PMapPool K V}
    {k : Nat} {path : List Nat} {p : Node K V} (hw : WFNode compare hashfun pool k path p) :
    p.used < U32 ∧
      List.Forall₂ (fun j c => ∃ k1, k = k1 + 1 ∧ ChildOK compare hashfun pool k1 path j c)
        (slots p.used) p.child_array := by
  cases k with
  | zero =>
    have h1 := hw.1
    have h2 := hw.2
    rw [h1, h2, slots_zero]
    exact ⟨by decide, List.Forall₂.nil⟩
  | succ k =>
    rw [wfnode_succ_iff] at hw
    exact ⟨hw.1, hw.2.imp (fun j c h => ⟨k, rfl, h⟩)⟩

theorem popcount_eq_slots (u : Nat) : popcount 32 u = (slots u).length := by
  rw [popcount_eq_filter]; rfl

theorem popcount_index (u j : Nat) :
    popcount 32 (u &&& (1 <<< j - 1)) = (slots_below u j).length := by
  rw [popcount_eq_slots, Nat.one_shiftLeft, slots_land_mask]

theorem lookup_zip_getElem {β : Type} : ∀ (l : List Nat) (cs : List β) (i : Nat)
    (h1 : i < l.length) (h2 : i < cs.length), l.Nodup →
    (l.zip cs).lookup (l.get ⟨i, h1⟩) = some (cs.get ⟨i, h2⟩) := by
  intro l
  induction l with
  | nil => intro cs i h1; cases h1
  | cons a l ih =>
    intro cs i h1 h2 hnd
    cases cs with
    | nil => cases h2
    | cons b cs =>
      cases i with
      | zero => simp [List.lookup_cons]
      | succ n =>
        have hne : ¬ l.get ⟨n, Nat.lt_of_succ_lt_succ h1⟩ = a := by
          intro he
          exact (List.nodup_cons.mp hnd).1 (he ▸ List.get_mem _ _ _)
        simp only [List.zip_cons_cons, List.get_cons_succ, List.lookup_cons]
        have hbeq : (l.get ⟨n, Nat.lt_of_succ_lt_succ h1⟩ == a) = false := by
          simpa using hne
        rw [hbeq]
        exact ih cs n _ _ (List.nodup_cons.mp hnd).2

/-- What the invariant says of one node: the length of its reference array,
and the child for each set bit of `used`. -/
theorem wfnode_local {compare : K → K → Bool} {hashfun : K → Nat} {pool : PMapPool K V}
    {k : Nat} {path : List Nat} {p : Node K V} (hw : WFNode compare hashfun pool k path p) :
    p.child_array.length = popcount 32 p.used ∧ p.child_array.length = p.size ∧
      (∀ j, j < 32 → p.used.testBit j = true →
        ∃ c k1, k = k1 + 1 ∧ p.child_array[popcount 32 (p.used &&& (1 <<< j - 1))]? = some c ∧
          p.get_child_by_fieldindex j = some c ∧ ChildOK compare hashfun pool k1 path j c) ∧
      (∀ c ∈ p.child_array, ∃ j, j < 32 ∧ p.used.testBit j = true ∧
        p.get_child_by_fieldindex j = some c) := by
  rcases wfnode_children hw with ⟨hu, hall⟩
  have hlen : p.child_array.length = (slots p.used).length := hall.length_eq.symm
  have hchild : ∀ j, j ∈ slots p.used →
      ∃ c k1, k = k1 + 1 ∧ p.child_array[popcount 32 (p.used &&& (1 <<< j - 1))]? = some c ∧
        p.get_child_by_fieldindex j = some c ∧ ChildOK compare hashfun pool k1 path j c := by
    intro j hj
    rcases children_split hall hj with ⟨A, c, C, hcs, hA, ⟨k1, hk, hc⟩, _⟩
    refine ⟨c, k1, hk, ?_, ?_, hc⟩
    · rw [popcount_index, hcs, hA.length_eq]
      exact getElem?_append_cons_length A c C
    · cases p with
      | mk u cs t v =>
        simp only [Node.child_array] at hcs
        subst hcs
        exact get_child_of_mem u A C c t v j hu hj hA.length_eq.symm
  refine ⟨by rw [hlen, popcount_eq_slots], by rw [hlen]; unfold Node.size; rw [count_bits_eq _ hu],
    fun j hj hb => hchild j (mem_slots.mpr ⟨hj, hb⟩), ?_⟩
  intro c hc
  rcases List.mem_iff_getElem.mp hc with ⟨i, hi, hget⟩
  have hi2 : i < (slots p.used).length := by rw [← hlen]; exact hi
  have hj : (slots p.used)[i] ∈ slots p.used := List.getElem_mem _
  refine ⟨_, (mem_slots.mp hj).1, (mem_slots.mp hj).2, ?_⟩
  rw [get_child_eq_lookup p _ (mem_slots.mp hj).1 hu hlen.symm]
  have := lookup_zip_getElem (slots p.used) p.child_array i hi2 hi
    ((slots_pairwise p.used).imp (fun h => ne_of_lt h))
  simp only [List.get_eq_getElem] at this
  rw [this, hget]

/-- The nodes of a map that satisfies the invariant satisfy it themselves,
and lie at most seven reference arrays below the root. -/
theorem map_nodes_wf {compare : K → K → Bool} {hashfun : K → Nat} {pool : PMapPool K V}
    {m : Map K V} (hw : WFMap compare hashfun pool m) :
    ∀ q ∈ m.nodes, ∃ path1 k, path1.length = q.1 ∧ q.1 + k = 7 ∧
      WFNode compare hashfun pool k path1 q.2 := by
  intro q hq
  obtain ⟨root⟩ := m
  cases root with
  | none => cases hq
  | some root =>
    rcases wf_nodes 7 [] root hw.2 q hq with ⟨path1, k, h1, h2, h3⟩
    exact ⟨path1, k, h1, by simpa using h2, h3⟩

/-- C34: in every map reachable from the empty map by `add` and `remove`
(the comparator an equivalence), every node, the root included, has a
reference array with `popcount(used)` entries, which is `size()`; for every
set bit `j` of `used` the entry at position `popcount(used & ((1 << j) - 1))`
is the child that `get_child_by_fieldindex(j)` returns, and the cells of that
child and below it have the slice `j` at the level of the node; and every entry
of the array is the child of a set bit. -/
theorem refarray_matches_used {compare : K → K → Bool} {hashfun : K → Nat}
    (hc : CompareEquiv compare) (pool : PMapPool K V) (m : Map K V)
    (hr : Reachable compare hashfun pool m) :
    ∀ q ∈ m.nodes,
      q.2.child_array.length = popcount 32 q.2.used ∧ q.2.child_array.length = q.2.size ∧
      (∀ j, j < 32 → q.2.used.testBit j = true →
        ∃ c, q.2.child_array[popcount 32 (q.2.used &&& ((1 <<< j) - 1))]? = some c ∧
          q.2.get_child_by_fieldindex j = some c ∧
          ∀ x ∈ Node.subtree pool c, slice x.hash q.1 = j) ∧
      (∀ c ∈ q.2.child_array, ∃ j, j < 32 ∧ q.2.used.testBit j = true ∧
        q.2.get_child_by_fieldindex j = some c) := by
  intro q hq
  rcases map_nodes_wf (reachable_wf hc hr) q hq with ⟨path1, k, h1, _, hw⟩
  rcases wfnode_local hw with ⟨l1, l2, l3, l4⟩
  refine ⟨l1, l2, ?_, l4⟩
  intro j hj hb
  rcases l3 j hj hb with ⟨c, k1, _, hpos, hget, hok⟩
  refine ⟨c, hpos, hget, fun x hx => ?_⟩
  have := (subtree_onPath k1 path1 j c hok x hx).2
  rw [onPath_append, h1] at this
  exact this.2

theorem refarray_matches_used_witness :
    CompareEquiv nat_compare ∧
      Reachable nat_compare low_bits_hash collision_example.1 collision_example.2 ∧
      ∀ q ∈ collision_example.2.nodes,
        q.2.child_array.length = popcount 32 q.2.used ∧ q.2.child_array.length = q.2.size :=
  ⟨nat_compare_equiv, collision_example_reachable, fun q hq =>
    ⟨(refarray_matches_used nat_compare_equiv _ _ collision_example_reachable q hq).1,
      (refarray_matches_used nat_compare_equiv _ _ collision_example_reachable q hq).2.1⟩⟩

/-- The cells of a map that satisfies the invariant hold different keys. -/
theorem contents_pairwise {compare : K → K → Bool} {hashfun : K → Nat} {pool : PMapPool K V}
    {m : Map K V} (hw : WFMap compare hashfun pool m) :
    (Map.contents pool m).Pairwise (fun a b => ¬ same_key compare a b) := by
  obtain ⟨root⟩ := m
  cases root with
  | none => exact List.Pairwise.nil
  | some root =>
    have hwf : WFNode compare hashfun pool 7 [] root := hw.2
    rw [wfnode_succ_iff] at hwf
    exact subtree_list_pairwise (fun j c hjc => subtree_pairwise 6 [] j c hjc) _ _
      (slots_pairwise _) hwf.2

/-- C39: in every map reachable from the empty map by `add` and `remove`
(the comparator an equivalence) the root is an `EmptyNode`; no node lies more
than seven reference arrays below it, and a node at seven has no children;
every entry of a reference array is the child that `get_child_by_fieldindex`
returns for some slot `j`; the child for slot `j` of a node at depth `L`, which
is a node of level `L`, holds cells whose hash is that of their key and has
the slice `j` at level `L`; it is a `ValueNode` with one cell, or a
`CollisionNode`, only at level 6, whose list holds at least two cells that all
have the same hash; at level 6 it has no children; and no two cells of the map
hold the same key. -/
theorem trie_shape {compare : K → K → Bool} {hashfun : K → Nat}
    (hc : CompareEquiv compare) (pool : PMapPool K V) (m : Map K V)
    (hr : Reachable compare hashfun pool m) :
    (∀ root, m.root_ = some root → root.type = NodeType.EmptyNode) ∧
    (∀ q ∈ m.nodes, q.1 ≤ 7 ∧ (q.1 = 7 → q.2.child_array = []) ∧
      (∀ c ∈ q.2.child_array, ∃ j, j < 32 ∧ q.2.get_child_by_fieldindex j = some c) ∧
      ∀ j c, j < 32 → q.2.get_child_by_fieldindex j = some c →
        (∀ x ∈ c.values pool, x.hash = hashfun x.first % U32 ∧ slice x.hash q.1 = j) ∧
        (q.1 = 6 → c.child_array = []) ∧
        ((c.type = NodeType.ValueNode ∧ ∃ kv, c.value = NodeValue.keyvalue kv) ∨
          (c.type = NodeType.CollisionNode ∧ q.1 = 6 ∧
            ∃ id l, c.value = NodeValue.collision_list id ∧ pool.lists[id]? = some l ∧
              2 ≤ l.length ∧ ∀ a ∈ l, ∀ b ∈ l, a.hash = b.hash))) ∧
    (Map.contents pool m).Pairwise (fun a b => ¬ same_key compare a b) := by
  have hwm := reachable_wf hc hr
  refine ⟨?_, ?_, contents_pairwise hwm⟩
  · intro root hroot
    obtain ⟨r⟩ := m
    simp only at hroot
    subst hroot
    exact hwm.1
  · intro q hq
    rcases map_nodes_wf hwm q hq with ⟨path1, k, h1, h2, hw⟩
    rcases wfnode_local hw with ⟨_, _, l3, l4⟩
    refine ⟨by omega, ?_, ?_, ?_⟩
    · intro h7
      have hk : k = 0 := by omega
      subst hk
      exact hw.2
    · intro c hcm
      rcases l4 c hcm with ⟨j, hj, _, hg⟩
      exact ⟨j, hj, hg⟩
    · intro j c hj hg
      have hb : q.2.used.testBit j = true := by
        by_contra hno
        have hnm : j ∉ slots q.2.used := fun hm => hno (mem_slots.mp hm).2
        rw [get_child_of_not_mem q.2 j hj hnm] at hg
        cases hg
      rcases l3 j hj hb with ⟨c1, k1, hk, _, hg1, hok⟩
      rw [hg] at hg1
      have hcc : c = c1 := Option.some.inj hg1
      subst hcc
      have hvals : ∀ x ∈ c.values pool, x.hash = hashfun x.first % U32 ∧
          OnPath (path1 ++ [j]) x.hash := fun x hx =>
        subtree_onPath k1 path1 j c hok x (by rw [subtree_eq]; exact List.mem_append_left _ hx)
      refine ⟨fun x hx => ⟨(hvals x hx).1, ?_⟩, ?_, ?_⟩
      · have := (hvals x hx).2
        rw [onPath_append, h1] at this
        exact this.2
      · intro h6
        have hk1 : k1 = 0 := by omega
        subst hk1
        exact hok.2.1.2
      · rcases wfvalue_cases hok.1 with ⟨nkv, ht, hv, _, _⟩ | ⟨ht, id, l, hv, hlen, hl, h2l, hall, _⟩
        · exact Or.inl ⟨ht, nkv, hv⟩
        · right
          refine ⟨ht, ?_, id, l, hv, hl, h2l, ?_⟩
          · simp only [List.length_append, List.length_singleton] at hlen
            omega
          · intro a ha b hb2
            exact onPath_full_eq hlen (hall a ha).2 (hall b hb2).2
              (hash_lt_of_good (hall a ha).1) (hash_lt_of_good (hall b hb2).1)

theorem trie_shape_witness :
    CompareEquiv nat_compare ∧
      Reachable nat_compare low_bits_hash collision_example.1 collision_example.2 ∧
      (∀ q ∈ collision_example.2.nodes, q.1 ≤ 7 ∧ (q.1 = 7 → q.2.child_array = [])) ∧
      (Map.contents collision_example.1 collision_example.2).Pairwise
        (fun a b => ¬ same_key nat_compare a b) :=
  ⟨nat_compare_equiv, collision_example_reachable,
    fun q hq => ⟨((trie_shape nat_compare_equiv _ _ collision_example_reachable).2.1 q hq).1,
      ((trie_shape nat_compare_equiv _ _ collision_example_reachable).2.1 q hq).2.1⟩,
    (trie_shape nat_compare_equiv _ _ collision_example_reachable).2.2⟩

/-! ## The size of a map -/

/-- A list without two related elements, each related to an element of a
second list, is not longer than the second list. -/
theorem length_le_of_related {α : Type} (R : α → α → Prop)
    (hsymm : ∀ a b, R a b → R b a) (htrans : ∀ a b c, R a b → R b c → R a c) :
    ∀ (l1 l2 : List α), l1.Pairwise (fun a b => ¬ R a b) →
      (∀ x ∈ l1, ∃ y ∈ l2, R x y) → l1.length ≤ l2.length := by
  intro l1
  induction l1 with
  | nil => intro l2 _ _; simp
  | cons x l1 ih =>
    intro l2 hp hall
    rcases hall x (List.mem_cons_self _ _) with ⟨y, hy, hxy⟩
    rcases List.append_of_mem hy with ⟨s, t, rfl⟩
    rw [List.pairwise_cons] at hp
    have hrest : ∀ x1 ∈ l1, ∃ y1 ∈ s ++ t, R x1 y1 := by
      intro x1 hx1
      rcases hall x1 (List.mem_cons_of_mem _ hx1) with ⟨y1, hy1, hr⟩
      rcases List.mem_append.mp hy1 with h | h
      · exact ⟨y1, List.mem_append_left _ h, hr⟩
      · rcases List.mem_cons.mp h with rfl | h
        · exact absurd (htrans _ _ _ hxy (hsymm _ _ hr)) (hp.1 x1 hx1)
        · exact ⟨y1, List.mem_append_right _ h, hr⟩
    have := ih (s ++ t) hp.2 hrest
    simp only [List.length_append, List.length_cons] at this ⊢
    omega

/-- The cells of a map that satisfies the invariant hold keys the
comparator tells apart, when equal keys have equal hashes. -/
theorem contents_keys_pairwise {compare : K → K → Bool} {hashfun : K → Nat}
    (hh : ∀ a b, compare a b = true → hashfun a % U32 = hashfun b % U32)
    {pool : PMapPool K V} {m : Map K V} (hw : WFMap compare hashfun pool m) :
    (Map.contents pool m).Pairwise (fun a b => ¬ compare a.first b.first = true) := by
  have hp := contents_pairwise hw
  have hmem : ∀ x ∈ Map.contents pool m, x.hash = hashfun x.first % U32 :=
    fun x hx => contents_hash hw x hx
  revert hp hmem
  generalize Map.contents pool m = l
  intro hp hmem
  induction l with
  | nil => exact List.Pairwise.nil
  | cons a l ih =>
    rw [List.pairwise_cons] at hp ⊢
    refine ⟨fun b hb hcmp => hp.1 b hb ⟨?_, hcmp⟩,
      ih hp.2 (fun x hx => hmem x (List.mem_cons_of_mem _ hx))⟩
    rw [hmem a (List.mem_cons_self _ _), hmem b (List.mem_cons_of_mem _ hb)]
    exact hh _ _ hcmp

/-- A map that satisfies the invariant has no more cells than a list that
holds a key equal to each of its keys, when equal keys have equal hashes. -/
theorem contents_length_le {compare : K → K → Bool} {hashfun : K → Nat}
    (hc : CompareEquiv compare)
    (hh : ∀ a b, compare a b = true → hashfun a % U32 = hashfun b % U32)
    {pool : PMapPool K V} {m : Map K V} (hw : WFMap compare hashfun pool m)
    (l2 : List (KeyValue K V))
    (hall : ∀ x ∈ Map.contents pool m, ∃ y ∈ l2, compare x.first y.first = true) :
    (Map.contents pool m).length ≤ l2.length :=
  length_le_of_related (fun a b : KeyValue K V => compare a.first b.first = true)
    (fun _ _ h => hc.symm _ _ h) (fun _ _ _ h1 h2 => hc.trans _ _ _ h1 h2) _ _
    (contents_keys_pairwise hh hw) hall

/-- A list of cells with keys the comparator tells apart, each found in a
map, is not longer than the map has cells. -/
theorem length_le_contents {compare : K → K → Bool} {hashfun : K → Nat}
    (hc : CompareEquiv compare)
    {pool : PMapPool K V} {m : Map K V} (hw : WFMap compare hashfun pool m)
    (l1 : List (KeyValue K V))
    (hp : l1.Pairwise (fun a b => ¬ compare a.first b.first = true))
    (hall : ∀ x ∈ l1, (Map.try_get_value compare hashfun pool m x.first).isSome = true) :
    l1.length ≤ (Map.contents pool m).length := by
  apply length_le_of_related (fun a b : KeyValue K V => compare a.first b.first = true)
    (fun _ _ h => hc.symm _ _ h) (fun _ _ _ h1 h2 => hc.trans _ _ _ h1 h2) _ _ hp
  intro x hx
  cases hl : Map.try_get_value compare hashfun pool m x.first with
  | none => have := hall x hx; rw [hl] at this; cases this
  | some w =>
    rcases lookup_contents hw x.first w hl with ⟨y, hy, hcmp, _⟩
    exact ⟨y, hy, hcmp⟩

theorem size_eq {compare : K → K → Bool} {hashfun : K → Nat} {pool : PMapPool K V}
    {m : Map K V} (hw : WFMap compare hashfun pool m) :
    Map.size pool m = some (Map.contents pool m).length := by
  simp only [Map.size, elements_eq hw, Option.map_some']

/-- The number of cells after `add`. -/
theorem add_contents_length {compare : K → K → Bool} {hashfun : K → Nat}
    (hc : CompareEquiv compare)
    (hh : ∀ a b, compare a b = true → hashfun a % U32 = hashfun b % U32)
    (pool : PMapPool K V) (m : Map K V) (hw : WFMap compare hashfun pool m) (k : K) (v : V) :
    ∃ pool1 m1, Map.add compare hashfun pool m k v = some (pool1, m1) ∧
      WFMap compare hashfun pool1 m1 ∧
      (Map.contents pool1 m1).length =
        if (Map.try_get_value compare hashfun pool m k).isSome then (Map.contents pool m).length
        else (Map.contents pool m).length + 1 := by
  rcases add_keyvalue_post hc pool m hw (new_keyvalue hashfun k v)
    (new_keyvalue_good hashfun k v) with ⟨pool1, root1, hadd, hw1, _, hsame, hother, hdesc⟩
  refine ⟨pool1, { root_ := some root1 }, hadd, hw1, ?_⟩
  have hdesc2 : ∀ x ∈ Map.contents pool1 { root_ := some root1 },
      x = new_keyvalue hashfun k v ∨ x ∈ Map.contents pool m := by
    intro x hx
    rcases hdesc x hx with h | ⟨r, hr, hx2⟩
    · exact Or.inl h
    · exact Or.inr (by simp only [Map.contents, hr]; exact hx2)
  have hfound1 : ∀ y ∈ Map.contents pool m,
      (Map.try_get_value compare hashfun pool1 { root_ := some root1 } y.first).isSome = true := by
    intro y hy
    cases hcmp : compare y.first k with
    | true => rw [hsame y.first (hh _ _ hcmp).symm hcmp]; rfl
    | false =>
      rw [hother y.first (fun h => by
        rw [show (new_keyvalue hashfun k v).first = k from rfl, hcmp] at h; cases h.2),
        contents_lookup hc hw y hy]
      rfl
  cases hl : Map.try_get_value compare hashfun pool m k with
  | some w =>
    simp only [Option.isSome_some, if_true]
    apply le_antisymm
    · apply contents_length_le hc hh hw1
      intro x hx
      rcases hdesc2 x hx with rfl | h
      · rcases lookup_contents hw k w hl with ⟨y, hy, hcmp, _⟩
        exact ⟨y, hy, hcmp⟩
      · exact ⟨x, h, hc.refl _⟩
    · exact length_le_contents hc hw1 _ (contents_keys_pairwise hh hw) hfound1
  | none =>
    simp only [Option.isSome_none, Bool.false_eq_true, if_false]
    apply le_antisymm
    · have := contents_length_le hc hh hw1 (new_keyvalue hashfun k v :: Map.contents pool m)
        (fun x hx => by
          rcases hdesc2 x hx with rfl | h
          · exact ⟨_, List.mem_cons_self _ _, hc.refl _⟩
          · exact ⟨x, List.mem_cons_of_mem _ h, hc.refl _⟩)
      simpa using this
    · have := length_le_contents hc hw1 (new_keyvalue hashfun k v :: Map.contents pool m)
        (List.pairwise_cons.mpr ⟨(fun y hy hcmp => by
            have h1 := lookup_equiv hc hw k y.first hcmp (hh _ _ hcmp)
            rw [hl, contents_lookup hc hw y hy] at h1
            cases h1), contents_keys_pairwise hh hw⟩)
        (fun x hx => by
          rcases List.mem_cons.mp hx with rfl | h
          · rw [show (new_keyvalue hashfun k v).first = k from rfl, hsame k rfl (hc.refl k)]; rfl
          · exact hfound1 x h)
      simpa using this

/-- The number of cells after `remove`. -/
theorem remove_contents_length {compare : K → K → Bool} {hashfun : K → Nat}
    (hc : CompareEquiv compare)
    (hh : ∀ a b, compare a b = true → hashfun a % U32 = hashfun b % U32)
    (pool : PMapPool K V) (m : Map K V) (hw : WFMap compare hashfun pool m) (k : K) :
    ∃ pool1 m1, Map.remove compare hashfun pool m k = some (pool1, m1) ∧
      WFMap compare hashfun pool1 m1 ∧
      (Map.contents pool1 m1).length =
        if (Map.try_get_value compare hashfun pool m k).isSome then
          (Map.contents pool m).length - 1
        else (Map.contents pool m).length := by
  rcases remove_post hc pool m hw k with ⟨pool1, m1, hrem, hw1, hgone, hkeep⟩
  refine ⟨pool1, m1, hrem, hw1, ?_⟩
  cases hl : Map.try_get_value compare hashfun pool m k with
  | none =>
    rw [remove_not_found compare hashfun pool m k hl] at hrem
    simp only [Option.some.injEq, Prod.mk.injEq] at hrem
    rw [← hrem.1, ← hrem.2]
    simp
  | some w =>
    simp only [Option.isSome_some, if_true]
    have hnot : ∀ x ∈ Map.contents pool1 m1, compare x.first k = false := by
      intro x hx
      cases hcmp : compare x.first k with
      | false => rfl
      | true =>
        have h1 := lookup_equiv hc hw1 x.first k hcmp (hh _ _ hcmp)
        rw [hgone, contents_lookup hc hw1 x hx] at h1
        cases h1
    have h1 := length_le_contents hc hw
      (KeyValue.mk (hashfun k % U32) k w :: Map.contents pool1 m1)
      (List.pairwise_cons.mpr ⟨(fun x hx hcmp => by
          have := hnot x hx
          rw [hc.symm _ _ hcmp] at this
          cases this), contents_keys_pairwise hh hw1⟩)
      (fun x hx => by
        rcases List.mem_cons.mp hx with rfl | h
        · simp only [hl, Option.isSome_some]
        · rw [← hkeep x.first (hnot x h), contents_lookup hc hw1 x h]; rfl)
    have h2 := contents_length_le hc hh hw
      (KeyValue.mk (hashfun k % U32) k w :: Map.contents pool1 m1)
      (fun y hy => by
        cases hcmp : compare y.first k with
        | true => exact ⟨_, List.mem_cons_self _ _, hcmp⟩
        | false =>
          have hf : Map.try_get_value compare hashfun pool1 m1 y.first = some y.second := by
            rw [hkeep y.first hcmp, contents_lookup hc hw y hy]
          rcases lookup_contents hw1 y.first _ hf with ⟨x, hx, hxc, _⟩
          exact ⟨x, List.mem_cons_of_mem _ hx, hxc⟩)
    simp only [List.length_cons] at h1 h2
    omega

/-- C35: for every map `m` reachable from the empty map by `add` and `remove`
(the comparator an equivalence under which equal keys have equal hashes),
`size()` returns a number `n`; `add(m, k, v)` returns a map whose `size()` is
`n` when `try_get_value(m, k)` is valid and `n + 1` otherwise; `remove(m, k)`
returns a map whose `size()` is `n - 1` when `k` is present and `n`
otherwise; and the iteration of `m` ends and yields cells with keys that the
comparator tells apart, one for every key that is found. -/
theorem size_after_add_remove {compare : K → K → Bool} {hashfun : K → Nat}
    (hc : CompareEquiv compare)
    (hh : ∀ a b, compare a b = true → hashfun a % U32 = hashfun b % U32)
    (pool : PMapPool K V) (m : Map K V) (hr : Reachable compare hashfun pool m) (k : K) (v : V) :
    ∃ n, Map.size pool m = some n ∧
      (∃ pool1 m1, Map.add compare hashfun pool m k v = some (pool1, m1) ∧
        Map.size pool1 m1 =
          some (if (Map.try_get_value compare hashfun pool m k).isSome then n else n + 1)) ∧
      (∃ pool1 m1, Map.remove compare hashfun pool m k = some (pool1, m1) ∧
        Map.size pool1 m1 =
          some (if (Map.try_get_value compare hashfun pool m k).isSome then n - 1 else n)) ∧
      ∃ cells, Map.elements pool m = some cells ∧ cells.length = n ∧
        cells.Pairwise (fun a b => ¬ compare a.first b.first = true) ∧
        (∀ x ∈ cells, Map.try_get_value compare hashfun pool m x.first = some x.second) ∧
        ∀ key w, Map.try_get_value compare hashfun pool m key = some w →
          ∃ x ∈ cells, compare key x.first = true ∧ x.second = w := by
  have hw := reachable_wf hc hr
  refine ⟨(Map.contents pool m).length, size_eq hw, ?_, ?_, ?_⟩
  · rcases add_contents_length hc hh pool m hw k v with ⟨pool1, m1, hadd, hw1, hlen⟩
    exact ⟨pool1, m1, hadd, by rw [size_eq hw1, hlen]⟩
  · rcases remove_contents_length hc hh pool m hw k with ⟨pool1, m1, hrem, hw1, hlen⟩
    exact ⟨pool1, m1, hrem, by rw [size_eq hw1, hlen]⟩
  · exact ⟨Map.contents pool m, elements_eq hw, rfl, contents_keys_pairwise hh hw,
      fun x hx => contents_lookup hc hw x hx, fun key w h => lookup_contents hw key w h⟩

theorem size_after_add_remove_witness :
    CompareEquiv nat_compare ∧
      (∀ a b, nat_compare a b = true → low_bits_hash a % U32 = low_bits_hash b % U32) ∧
      Reachable nat_compare low_bits_hash collision_example.1 collision_example.2 ∧
      ∃ n, Map.size collision_example.1 collision_example.2 = some n ∧
        (∃ pool1 m1, Map.add nat_compare low_bits_hash collision_example.1 collision_example.2
            257 7 = some (pool1, m1) ∧
          Map.size pool1 m1 = some (if (Map.try_get_value nat_compare low_bits_hash
            collision_example.1 collision_example.2 257).isSome then n else n + 1)) ∧
        (∃ pool1 m1, Map.remove nat_compare low_bits_hash collision_example.1
            collision_example.2 257 = some (pool1, m1) ∧
          Map.size pool1 m1 = some (if (Map.try_get_value nat_compare low_bits_hash
            collision_example.1 collision_example.2 257).isSome then n - 1 else n)) := by
  rcases size_after_add_remove nat_compare_equiv (nat_compare_hash low_bits_hash) _ _
    collision_example_reachable 257 7 with ⟨n, h1, h2, h3, _⟩
  exact ⟨nat_compare_equiv, nat_compare_hash low_bits_hash, collision_example_reachable,
    n, h1, h2, h3⟩

/-! ## Consecutive slots of a chunk -/

theorem array_mask_eq (k : Nat) (hk : k ≤ 32) : Chunk.array_mask k 0 = 2 ^ k - 1 := by
  interval_cases k <;> rfl

theorem testBit_run_mask (k s j : Nat) :
    ((2 ^ k - 1) <<< s).testBit j = (decide (s ≤ j) && decide (j < s + k)) := by
  rw [Nat.testBit_shiftLeft, Nat.testBit_two_pow_sub_one]
  by_cases h : s ≤ j
  · have : (j - s < k) ↔ (j < s + k) := by omega
    simp [h, this]
  · simp [h]

theorem and_run_mask_zero_iff (u k s : Nat) :
    u &&& ((2 ^ k - 1) <<< s) = 0 ↔ ChunkBox.run_clear u s k := by
  constructor
  · intro h j h1 h2
    have := congrArg (fun x => Nat.testBit x j) h
    simp only [Nat.testBit_and, testBit_run_mask, Nat.zero_testBit] at this
    simpa [h1, h2] using this
  · intro h
    apply Nat.eq_of_testBit_eq
    intro j
    rw [Nat.testBit_and, testBit_run_mask, Nat.zero_testBit]
    by_cases h1 : s ≤ j
    · by_cases h2 : j < s + k
      · simp [h j h1 h2]
      · simp [h2]
    · simp [h1]

theorem run_mask_lt (k s : Nat) (h : s + k ≤ 32) : (2 ^ k - 1) <<< s < U32 := by
  rw [Nat.shiftLeft_eq]
  have h1 : (2 ^ k - 1) * 2 ^ s < 2 ^ k * 2 ^ s :=
    Nat.mul_lt_mul_of_pos_right (Nat.sub_lt (Nat.two_pow_pos _) (by norm_num))
      (Nat.two_pow_pos _)
  have h2 : 2 ^ k * 2 ^ s = 2 ^ (k + s) := (pow_add 2 k s).symm
  have h3 : 2 ^ (k + s) ≤ 2 ^ 32 := Nat.pow_le_pow_right (by norm_num) (by omega)
  have h4 : U32 = 2 ^ 32 := rfl
  omega

theorem run_mask_step (k s : Nat) :
    ((((2 ^ k - 1) <<< s) % U32) <<< 1) % U32 = ((2 ^ k - 1) <<< (s + 1)) % U32 := by
  simp only [Nat.shiftLeft_eq]
  have : (2 ^ k - 1) * 2 ^ (s + 1) = (2 ^ k - 1) * 2 ^ s * 2 ^ 1 := by ring
  rw [this, Nat.mul_mod ((2 ^ k - 1) * 2 ^ s) (2 ^ 1) U32,
    Nat.mul_mod (((2 ^ k - 1) * 2 ^ s) % U32) (2 ^ 1) U32, Nat.mod_mod]

theorem construct_array_spec (E : ElementType T) (t : Nat) :
    ∀ (k : Nat) (buf : List T), (Chunk.construct_array E t k buf).length = buf.length ∧
      ∀ j, (j < t ∨ t + k ≤ j) → (Chunk.construct_array E t k buf)[j]? = buf[j]? := by
  intro k
  induction k with
  | zero => intro buf; exact ⟨rfl, fun _ _ => rfl⟩
  | succ k ih =>
    intro buf
    simp only [Chunk.construct_array]
    refine ⟨by rw [List.length_modify]; exact (ih buf).1, ?_⟩
    intro j hj
    rw [List.getElem?_modify]
    have hne : ¬ t + k = j := by omega
    simp only [hne, if_false]
    rw [(ih buf).2 j (by omega)]
    cases buf[j]? <;> rfl

/-- The search loop of `get_new_array` from the start `s` on: it finds the
lowest start at or after `s` of a run of `k` clear bits, or none. -/
theorem get_new_array_search_spec (E : ElementType T) (c : Chunk T) (k : Nat) (hk1 : 1 ≤ k)
    (hk : k ≤ 32) :
    ∀ (positions s mask : Nat), positions + s = 33 - k → mask = ((2 ^ k - 1) <<< s) % U32 →
      (∀ s1, s1 < s → ¬ ChunkBox.run_clear c.used_elements s1 k) →
      (∃ t, t + k ≤ 32 ∧ ChunkBox.run_clear c.used_elements t k ∧
          (∀ s1, s1 < t → ¬ ChunkBox.run_clear c.used_elements s1 k) ∧
          Chunk.get_new_array_search E k positions mask s c =
            (some t, { c with buffer := Chunk.construct_array E t k c.buffer,
                              used_elements := c.used_elements ||| ((2 ^ k - 1) <<< t) })) ∨
        ((∀ s1, s1 + k ≤ 32 → ¬ ChunkBox.run_clear c.used_elements s1 k) ∧
          Chunk.get_new_array_search E k positions mask s c = (none, c)) := by
  intro positions
  induction positions with
  | zero =>
    intro s mask hs _ hlow
    right
    exact ⟨fun s1 h1 => hlow s1 (by omega), rfl⟩
  | succ p ih =>
    intro s mask hs hmask hlow
    have hfit : s + k ≤ 32 := by omega
    have hm : mask = (2 ^ k - 1) <<< s := by
      rw [hmask, Nat.mod_eq_of_lt (run_mask_lt k s hfit)]
    by_cases hz : c.used_elements &&& mask = 0
    · left
      refine ⟨s, hfit, ?_, hlow, ?_⟩
      · rw [← and_run_mask_zero_iff, ← hm]; exact hz
      · rw [hm] at hz
        simp only [Chunk.get_new_array_search, hm, hz, if_true]
    · have hnot : ¬ ChunkBox.run_clear c.used_elements s k := by
        rw [← and_run_mask_zero_iff, ← hm]; exact hz
      have hrec := ih (s + 1) ((mask <<< 1) % U32) (by omega)
        (by rw [hmask, run_mask_step]) (fun s1 h1 => by
          rcases Nat.lt_succ_iff_lt_or_eq.mp h1 with h | h
          · exact hlow s1 h
          · rw [h]; exact hnot)
      simp only [Chunk.get_new_array_search, hz, if_false]
      exact hrec

theorem get_new_array_spec (E : ElementType T) (c : Chunk T) (k : Nat) (hk1 : 1 ≤ k)
    (hk : k ≤ 32) :
    (∃ t, t + k ≤ 32 ∧ ChunkBox.run_clear c.used_elements t k ∧
        (∀ s1, s1 < t → ¬ ChunkBox.run_clear c.used_elements s1 k) ∧
        c.get_new_array E k =
          (some t, { c with buffer := Chunk.construct_array E t k c.buffer,
                            used_elements := c.used_elements ||| ((2 ^ k - 1) <<< t) })) ∨
      ((∀ s1, s1 + k ≤ 32 → ¬ ChunkBox.run_clear c.used_elements s1 k) ∧
        c.get_new_array E k = (none, c)) := by
  have hnot : ¬ k > CHUNK_BUFFER_SIZE := by simp only [CHUNK_BUFFER_SIZE]; omega
  simp only [Chunk.get_new_array, hnot, if_false, array_mask_eq k hk]
  exact get_new_array_search_spec E c k hk1 hk (CHUNK_BUFFER_SIZE - k + 1) 0 (2 ^ k - 1)
    (by simp only [CHUNK_BUFFER_SIZE]; omega)
    (by rw [Nat.shiftLeft_zero, Nat.mod_eq_of_lt]
        have := run_mask_lt k 0 (by omega)
        rwa [Nat.shiftLeft_zero] at this)
    (fun s1 h1 => by omega)

theorem testBit_or_run_mask (u k t j : Nat) :
    (u ||| ((2 ^ k - 1) <<< t)).testBit j =
      (u.testBit j || (decide (t ≤ j) && decide (j < t + k))) := by
  rw [Nat.testBit_or, testBit_run_mask]

/-- C33: `get_new_array(k)` for `1 <= k <= 32` on a chunk with the bitfield
`u`: when there is a start `t` with the bits `t, ..., t + k - 1` all clear
(within the 32 bits), it returns the lowest such start, sets those `k` bits
and no other, constructs the `k` elements and leaves every other element, the
marks and `next` as they are; when there is none it returns null and leaves
the chunk as it is.  For `k > 32` it returns null, and so does
`reserve_consecutive_elements(k)`, both without a change. -/
theorem get_new_array_lowest_run (E : ElementType T) (c : Chunk T) (k : Nat) (hk1 : 1 ≤ k)
    (hk : k ≤ 32) :
    ((∃ t, t + k ≤ 32 ∧ ChunkBox.run_clear c.used_elements t k ∧
        (∀ s1, s1 < t → ¬ ChunkBox.run_clear c.used_elements s1 k) ∧
        (c.get_new_array E k).1 = some t ∧
        (∀ j, (c.get_new_array E k).2.used_elements.testBit j =
          (c.used_elements.testBit j || (decide (t ≤ j) && decide (j < t + k)))) ∧
        (c.get_new_array E k).2.buffer.length = c.buffer.length ∧
        (∀ j, (j < t ∨ t + k ≤ j) → (c.get_new_array E k).2.buffer[j]? = c.buffer[j]?) ∧
        (c.get_new_array E k).2.mark_field = c.mark_field ∧
        (c.get_new_array E k).2.next = c.next) ∨
      ((∀ s1, s1 + k ≤ 32 → ¬ ChunkBox.run_clear c.used_elements s1 k) ∧
        c.get_new_array E k = (none, c))) ∧
    (∀ k2, 32 < k2 → c.get_new_array E k2 = (none, c) ∧
      ∀ box : ChunkBox T, box.reserve_consecutive_elements E k2 = some (none, box)) := by
  constructor
  · rcases get_new_array_spec E c k hk1 hk with ⟨t, h1, h2, h3, h4⟩ | h
    · left
      refine ⟨t, h1, h2, h3, ?_⟩
      rw [h4]
      exact ⟨rfl, fun j => testBit_or_run_mask _ k t j, (construct_array_spec E t k c.buffer).1,
        (construct_array_spec E t k c.buffer).2, rfl, rfl⟩
    · exact Or.inr h
  · intro k2 hk2
    have h1 : k2 > CHUNK_BUFFER_SIZE := hk2
    have h2 : ¬ k2 ≤ CHUNK_BUFFER_SIZE := by simp only [CHUNK_BUFFER_SIZE]; omega
    exact ⟨by simp only [Chunk.get_new_array, h1, if_true],
      fun box => by simp only [ChunkBox.reserve_consecutive_elements, h2, if_false]⟩

theorem get_new_array_lowest_run_witness :
    (1 ≤ 2 ∧ 2 ≤ 32) ∧
      ((Chunk.mk (List.replicate 32 (0 : Nat)) 11 0 none).get_new_array (ElementType.mk 0 id)
        2).1 = some 4 ∧
      ∀ k2, 32 < k2 →
        (Chunk.mk (List.replicate 32 (0 : Nat)) 11 0 none).get_new_array (ElementType.mk 0 id)
          k2 = (none, Chunk.mk (List.replicate 32 (0 : Nat)) 11 0 none) :=
  ⟨⟨by decide, by decide⟩, by decide, fun k2 h2 =>
    ((get_new_array_lowest_run (ElementType.mk 0 id)
      (Chunk.mk (List.replicate 32 (0 : Nat)) 11 0 none) 2 (by decide) (by decide)).2 k2 h2).1⟩
/-! ## The free list of a box -/

theorem freeList_iff_seg (chunks : List (Chunk T)) :
    ∀ (l : List Nat) (head : Option Nat),
      ChunkBox.FreeList chunks head l ↔ ChunkBox.FreeSeg chunks head l none := by
  intro l
  induction l with
  | nil =>
    intro head
    cases head <;> simp [ChunkBox.FreeList, ChunkBox.FreeSeg]
  | cons g rest ih =>
    intro head
    cases head with
    | none => simp [ChunkBox.FreeList, ChunkBox.FreeSeg]
    | some f =>
      simp only [ChunkBox.FreeList, ChunkBox.FreeSeg]
      constructor
      · rintro ⟨h1, c, hc, h2⟩
        exact ⟨h1, c, hc, (ih _).mp h2⟩
      · rintro ⟨h1, c, hc, h2⟩
        exact ⟨h1, c, hc, (ih _).mpr h2⟩

theorem freeSeg_append (chunks : List (Chunk T)) :
    ∀ (A : List Nat) (head : Option Nat) (B : List Nat) (tl : Option Nat),
      ChunkBox.FreeSeg chunks head (A ++ B) tl ↔
        ∃ mid, ChunkBox.FreeSeg chunks head A mid ∧ ChunkBox.FreeSeg chunks mid B tl := by
  intro A
  induction A with
  | nil =>
    intro head B tl
    simp only [List.nil_append, ChunkBox.FreeSeg]
    constructor
    · intro h; exact ⟨head, rfl, h⟩
    · rintro ⟨mid, h1, h2⟩; rw [h1]; exact h2
  | cons a A ih =>
    intro head B tl
    cases head with
    | none => simp [ChunkBox.FreeSeg]
    | some f =>
      simp only [List.cons_append, ChunkBox.FreeSeg]
      constructor
      · rintro ⟨h1, c, hc, h2⟩
        rcases (ih _ _ _).mp h2 with ⟨mid, h3, h4⟩
        exact ⟨mid, ⟨h1, c, hc, h3⟩, h4⟩
      · rintro ⟨mid, ⟨h1, c, hc, h3⟩, h4⟩
        exact ⟨h1, c, hc, (ih _ _ _).mpr ⟨mid, h3, h4⟩⟩

theorem freeSeg_congr (chunks chunks1 : List (Chunk T)) :
    ∀ (l : List Nat) (head tl : Option Nat),
      (∀ i ∈ l, ∀ c, chunks[i]? = some c → ∃ c1, chunks1[i]? = some c1 ∧ c1.next = c.next) →
      ChunkBox.FreeSeg chunks head l tl → ChunkBox.FreeSeg chunks1 head l tl := by
  intro l
  induction l with
  | nil =>
    intro head tl _ h
    simp only [ChunkBox.FreeSeg] at h ⊢
    exact h
  | cons g rest ih =>
    intro head tl hall h
    cases head with
    | none => exact absurd h id
    | some f =>
      rcases h with ⟨h1, c, hc, h2⟩
      subst h1
      rcases hall f (List.mem_cons_self _ _) c hc with ⟨c1, hc1, hn⟩
      exact ⟨rfl, c1, hc1, by
        rw [hn]; exact ih _ _ (fun i hi => hall i (List.mem_cons_of_mem _ hi)) h2⟩

theorem freeSeg_valid (chunks : List (Chunk T)) :
    ∀ (l : List Nat) (head tl : Option Nat), ChunkBox.FreeSeg chunks head l tl →
      ∀ i ∈ l, ∃ c, chunks[i]? = some c := by
  intro l
  induction l with
  | nil => intro _ _ _ i hi; cases hi
  | cons g rest ih =>
    intro head tl h i hi
    cases head with
    | none => exact absurd h id
    | some f =>
      rcases h with ⟨h1, c, hc, h2⟩
      subst h1
      rcases List.mem_cons.mp hi with rfl | hi
      · exact ⟨c, hc⟩
      · exact ih _ _ h2 i hi

theorem modify_eq_set {α : Type} (f : α → α) :
    ∀ (l : List α) (n : Nat) (x : α), l[n]? = some x → l.modify f n = l.set n (f x) := by
  intro l
  induction l with
  | nil => intro n x h; simp at h
  | cons a l ih =>
    intro n x h
    cases n with
    | zero =>
      simp only [List.getElem?_cons_zero, Option.some.injEq] at h
      subst h
      rfl
    | succ n =>
      simp only [List.getElem?_cons_succ] at h
      simp only [List.modify_succ_cons, List.set_cons_succ, ih n x h]

theorem set_self {α : Type} :
    ∀ (l : List α) (n : Nat) (x : α), l[n]? = some x → l.set n x = l := by
  intro l
  induction l with
  | nil => intro n x h; simp at h
  | cons a l ih =>
    intro n x h
    cases n with
    | zero =>
      simp only [List.getElem?_cons_zero, Option.some.injEq] at h
      subst h
      rfl
    | succ n =>
      simp only [List.getElem?_cons_succ] at h
      simp only [List.set_cons_succ, ih n x h]

theorem getElem?_set_self {α : Type} (l : List α) (n : Nat) (x y : α) (h : l[n]? = some x) :
    (l.set n y)[n]? = some y := by
  have hlt : n < l.length := by
    by_contra hge
    rw [List.getElem?_eq_none (by omega)] at h
    cases h
  simp [List.getElem?_set, hlt]

theorem getElem?_set_other {α : Type} (l : List α) (n i : Nat) (y : α) (h : i ≠ n) :
    (l.set n y)[i]? = l[i]? := by
  simp [List.getElem?_set, Ne.symm h]

theorem freeSeg_head (chunks : List (Chunk T)) (head tl : Option Nat) (g : Nat)
    (rest : List Nat) (h : ChunkBox.FreeSeg chunks head (g :: rest) tl) :
    head = some g ∧ ∃ c, chunks[g]? = some c ∧ ChunkBox.FreeSeg chunks c.next rest tl := by
  cases head with
  | none => exact absurd h id
  | some f =>
    rcases h with ⟨h1, c, hc, h2⟩
    subst h1
    exact ⟨rfl, c, hc, h2⟩

theorem freeSeg_nil_of_none (chunks : List (Chunk T)) (l : List Nat) (tl : Option Nat)
    (h : ChunkBox.FreeSeg chunks none l tl) : l = [] ∧ tl = none := by
  cases l with
  | nil => exact ⟨rfl, h.symm⟩
  | cons g rest => exact absurd h id

theorem freeSeg_cons_of_some (chunks : List (Chunk T)) (l : List Nat) (n : Nat)
    (h : ChunkBox.FreeSeg chunks (some n) l none) : ∃ rest, l = n :: rest := by
  cases l with
  | nil => simp only [ChunkBox.FreeSeg] at h; cases h
  | cons g rest =>
    rcases h with ⟨h1, _⟩
    exact ⟨rest, by rw [h1]⟩

/-- The parts of the invariant of the free list. -/
theorem freeOK_iff (box : ChunkBox T) :
    box.FreeOK ↔
      (∃ l, ChunkBox.FreeSeg box.chunks_ box.free_chunks_ l none ∧ l ≠ [] ∧ l.Nodup ∧
        ∀ i, i ∈ l ↔ ∃ c, box.chunks_[i]? = some c ∧ c.is_full = false) ∧
      ∀ c ∈ box.chunks_, c.used_elements < U32 ∧ c.buffer.length = CHUNK_BUFFER_SIZE := by
  unfold ChunkBox.FreeOK
  constructor
  · rintro ⟨⟨l, h1, h2⟩, h3⟩
    exact ⟨⟨l, (freeList_iff_seg _ _ _).mp h1, h2⟩, h3⟩
  · rintro ⟨⟨l, h1, h2⟩, h3⟩
    exact ⟨⟨l, (freeList_iff_seg _ _ _).mpr h1, h2⟩, h3⟩

/-- A chunk is written with the same `next` and the same fullness. -/
theorem freeOK_set_same (box : ChunkBox T) (hok : box.FreeOK) (ch : Nat) (c c1 : Chunk T)
    (hc : box.chunks_[ch]? = some c) (hnext : c1.next = c.next)
    (hfull : c1.is_full = c.is_full)
    (hb : c1.used_elements < U32 ∧ c1.buffer.length = CHUNK_BUFFER_SIZE) :
    ChunkBox.FreeOK { box with chunks_ := box.chunks_.set ch c1 } := by
  rw [freeOK_iff] at hok ⊢
  rcases hok with ⟨⟨l, hseg, hne, hnd, hiff⟩, hbounds⟩
  refine ⟨⟨l, ?_, hne, hnd, ?_⟩, ?_⟩
  · apply freeSeg_congr box.chunks_ _ l _ _ _ hseg
    intro i _ c2 hc2
    by_cases hi : i = ch
    · subst hi
      rw [hc] at hc2
      cases hc2
      exact ⟨c1, getElem?_set_self _ _ _ _ hc, hnext⟩
    · exact ⟨c2, by simp only [getElem?_set_other _ _ _ _ hi]; exact hc2, rfl⟩
  · intro i
    rw [hiff i]
    by_cases hi : i = ch
    · subst hi
      simp only [getElem?_set_self _ _ _ _ hc, hc, Option.some.injEq, exists_eq_left', hfull]
    · simp only [getElem?_set_other _ _ _ _ hi]
  · intro c2 hc2
    rcases List.mem_or_eq_of_mem_set hc2 with h | h
    · exact hbounds c2 h
    · rw [h]; exact hb

/-- A chunk of the free list that is full now is taken out of the list:
the head moves to its `next` when it is the first, else the `next` of the chunk
before it is set to its `next`. -/
theorem freeOK_unlink (chunks chunks1 : List (Chunk T)) (free free1 : Option Nat)
    (pre post : List Nat) (ch : Nat) (c : Chunk T)
    (hseg : ChunkBox.FreeSeg chunks free (pre ++ ch :: post) none)
    (hnd : (pre ++ ch :: post).Nodup)
    (hiff : ∀ i, i ∈ pre ++ ch :: post ↔ ∃ c, chunks[i]? = some c ∧ c.is_full = false)
    (hbounds : ∀ c ∈ chunks, c.used_elements < U32 ∧ c.buffer.length = CHUNK_BUFFER_SIZE)
    (hc : chunks[ch]? = some c) (hne : pre ++ post ≠ [])
    (hfree : free1 = if pre = [] then c.next else free)
    (hch : ∃ c1, chunks1[ch]? = some c1 ∧ c1.is_full = true ∧
      c1.used_elements < U32 ∧ c1.buffer.length = CHUNK_BUFFER_SIZE)
    (hprev : ∀ p pre1, pre = pre1 ++ [p] →
      ∃ cp, chunks[p]? = some cp ∧ chunks1[p]? = some { cp with next := c.next })
    (hother : ∀ i, i ≠ ch → (∀ pre1, pre ≠ pre1 ++ [i]) → chunks1[i]? = chunks[i]?) :
    ChunkBox.FreeOK { chunks_ := chunks1, free_chunks_ := free1 } := by
  rw [freeOK_iff]
  have hchpre : ch ∉ pre := fun h =>
    (List.nodup_append.mp hnd).2.2 h (List.mem_cons_self _ _)
  have hchpost : ch ∉ post :=
    (List.nodup_cons.mp (List.nodup_append.mp hnd).2.1).1
  have hdisj : ∀ i, i ∈ pre → i ∉ post := fun i h1 h2 =>
    (List.nodup_append.mp hnd).2.2 h1 (List.mem_cons_of_mem _ h2)
  rcases (freeSeg_append chunks pre free (ch :: post) none).mp hseg with ⟨mid, hpre, hrest⟩
  rcases freeSeg_head chunks mid none ch post hrest with ⟨hmid, c2, hc2, hpost⟩
  rw [hc] at hc2
  cases hc2
  subst hmid
  have hpost1 : ChunkBox.FreeSeg chunks1 c.next post none := by
    apply freeSeg_congr chunks chunks1 post _ _ _ hpost
    intro i hi c3 hc3
    refine ⟨c3, ?_, rfl⟩
    rw [hother i (fun h => hchpost (h ▸ hi)) (fun pre1 hp => by
      have : i ∈ pre := by rw [hp]; simp
      exact hdisj i this hi)]
    exact hc3
  have hseg1 : ChunkBox.FreeSeg chunks1 free1 (pre ++ post) none ∧
      ∀ p pre1, pre = pre1 ++ [p] → ∃ cp, chunks[p]? = some cp ∧
        chunks1[p]? = some { cp with next := c.next } := by
    refine ⟨?_, hprev⟩
    rcases List.eq_nil_or_concat pre with h0 | ⟨pre1, p, hp⟩
    · subst h0
      simp only [if_true] at hfree
      rw [hfree]
      exact hpost1
    · have hpne : pre ≠ [] := by rw [hp]; simp
      simp only [hpne, if_false] at hfree
      rw [hfree]
      rcases hprev p pre1 (by rw [hp, List.concat_eq_append]) with ⟨cp, hcp, hcp1⟩
      rw [hp, List.concat_eq_append] at hpre
      rcases (freeSeg_append chunks pre1 free [p] (some ch)).mp hpre with ⟨mid1, hpre1, hp1⟩
      rw [hp, List.concat_eq_append, List.append_assoc]
      apply (freeSeg_append chunks1 pre1 free ([p] ++ post) none).mpr
      refine ⟨mid1, ?_, ?_⟩
      · apply freeSeg_congr chunks chunks1 pre1 _ _ _ hpre1
        intro i hi c3 hc3
        have hipre : i ∈ pre := by rw [hp, List.concat_eq_append]; simp [hi]
        refine ⟨c3, ?_, rfl⟩
        rw [hother i (fun h => hchpre (h ▸ hipre)) (fun pre2 hp2 => by
          rw [hp, List.concat_eq_append] at hp2
          have := List.append_inj' hp2 rfl
          have hpi : p = i := by simpa using this.2
          have hnd1 : (pre1 ++ [p]).Nodup := by
            have := (List.nodup_append.mp hnd).1
            rwa [hp, List.concat_eq_append] at this
          exact (List.nodup_append.mp hnd1).2.2 hi (by rw [hpi]; exact List.mem_singleton_self _))]
        exact hc3
      · rcases freeSeg_head chunks mid1 (some ch) p [] hp1 with ⟨hm1, cp2, hcp2, _⟩
        rw [hm1]
        exact ⟨rfl, _, hcp1, hpost1⟩
  refine ⟨⟨pre ++ post, hseg1.1, hne, ?_, ?_⟩, ?_⟩
  · have hsub : (pre ++ post).Sublist (pre ++ ch :: post) :=
      List.Sublist.append_left (List.sublist_cons_self _ _) _
    exact hsub.nodup hnd
  · intro i
    by_cases hi : i = ch
    · subst hi
      rcases hch with ⟨c1, hc1, hf1, _⟩
      constructor
      · intro h
        rcases List.mem_append.mp h with h | h
        · exact absurd h hchpre
        · exact absurd h hchpost
      · rintro ⟨c3, hc3, hf3⟩
        rw [hc1] at hc3
        cases hc3
        rw [hf1] at hf3
        cases hf3
    · have hmem : i ∈ pre ++ post ↔ i ∈ pre ++ ch :: post := by
        simp only [List.mem_append, List.mem_cons, hi, false_or]
      rw [hmem, hiff i]
      by_cases hlast : ∃ pre1, pre = pre1 ++ [i]
      · rcases hlast with ⟨pre1, hp⟩
        rcases hprev i pre1 hp with ⟨cp, hcp, hcp1⟩
        simp only [hcp, hcp1, Option.some.injEq, exists_eq_left']
        rfl
      · rw [hother i hi (fun pre1 hp => hlast ⟨pre1, hp⟩)]
  · intro c3 hc3
    rcases List.mem_iff_getElem?.mp hc3 with ⟨i, hi⟩
    by_cases hich : i = ch
    · subst hich
      rcases hch with ⟨c1, hc1, _, hb⟩
      rw [hc1] at hi
      cases hi
      exact hb
    · by_cases hlast : ∃ pre1, pre = pre1 ++ [i]
      · rcases hlast with ⟨pre1, hp⟩
        rcases hprev i pre1 hp with ⟨cp, hcp, hcp1⟩
        rw [hcp1] at hi
        cases hi
        exact hbounds cp (List.mem_iff_getElem?.mpr ⟨i, hcp⟩)
      · rw [hother i hich (fun pre1 hp => hlast ⟨pre1, hp⟩)] at hi
        exact hbounds c3 (List.mem_iff_getElem?.mpr ⟨i, hi⟩)

theorem getElem?_append_old {α : Type} (l : List α) (x : α) (i : Nat) (c : α)
    (h : l[i]? = some c) : (l ++ [x])[i]? = some c := by
  have hlt : i < l.length := by
    by_contra hge
    rw [List.getElem?_eq_none (by omega)] at h
    cases h
  rw [List.getElem?_append_left hlt]
  exact h

theorem getElem?_append_new {α : Type} (l : List α) (x : α) :
    (l ++ [x])[l.length]? = some x := by
  simp

theorem getElem?_append_cases {α : Type} (l : List α) (x : α) (i : Nat) (c : α)
    (h : (l ++ [x])[i]? = some c) : l[i]? = some c ∨ (i = l.length ∧ c = x) := by
  by_cases hlt : i < l.length
  · rw [List.getElem?_append_left hlt] at h
    exact Or.inl h
  · by_cases he : i = l.length
    · subst he
      rw [getElem?_append_new] at h
      exact Or.inr ⟨rfl, (Option.some.inj h).symm⟩
    · rw [List.getElem?_eq_none (by simp; omega)] at h
      cases h

/-- A chunk is appended to the chunks of a box: in front of the free list
when it is not full, outside of it when it is full. -/
theorem freeOK_append (box : ChunkBox T) (hok : box.FreeOK) (cn : Chunk T)
    (hb : cn.used_elements < U32 ∧ cn.buffer.length = CHUNK_BUFFER_SIZE) :
    (cn.is_full = false → cn.next = box.free_chunks_ →
      ChunkBox.FreeOK { chunks_ := box.chunks_ ++ [cn],
                        free_chunks_ := some box.chunks_.length }) ∧
    (cn.is_full = true →
      ChunkBox.FreeOK { chunks_ := box.chunks_ ++ [cn], free_chunks_ := box.free_chunks_ }) := by
  rw [freeOK_iff] at hok
  rcases hok with ⟨⟨l, hseg, hne, hnd, hiff⟩, hbounds⟩
  have hvalid := freeSeg_valid box.chunks_ l _ _ hseg
  have hseg1 : ChunkBox.FreeSeg (box.chunks_ ++ [cn]) box.free_chunks_ l none := by
    apply freeSeg_congr box.chunks_ _ l _ _ _ hseg
    intro i _ c hc
    exact ⟨c, getElem?_append_old _ _ _ _ hc, rfl⟩
  have hlt : ∀ i ∈ l, i < box.chunks_.length := by
    intro i hi
    rcases hvalid i hi with ⟨c, hc⟩
    by_contra hge
    rw [List.getElem?_eq_none (by omega)] at hc
    cases hc
  have hb1 : ∀ c ∈ box.chunks_ ++ [cn],
      c.used_elements < U32 ∧ c.buffer.length = CHUNK_BUFFER_SIZE := by
    intro c hc
    rcases List.mem_append.mp hc with h | h
    · exact hbounds c h
    · rw [List.mem_singleton.mp h]; exact hb
  have hold : ∀ i, i ≠ box.chunks_.length →
      ((∃ c, (box.chunks_ ++ [cn])[i]? = some c ∧ c.is_full = false) ↔
        ∃ c, box.chunks_[i]? = some c ∧ c.is_full = false) := by
    intro i hi
    constructor
    · rintro ⟨c, hc, hf⟩
      rcases getElem?_append_cases _ _ _ _ hc with h | ⟨h, _⟩
      · exact ⟨c, h, hf⟩
      · exact absurd h hi
    · rintro ⟨c, hc, hf⟩
      exact ⟨c, getElem?_append_old _ _ _ _ hc, hf⟩
  constructor
  · intro hfull hnext
    rw [freeOK_iff]
    refine ⟨⟨box.chunks_.length :: l, ?_, by simp, ?_, ?_⟩, hb1⟩
    · exact ⟨rfl, cn, getElem?_append_new _ _, by rw [hnext]; exact hseg1⟩
    · exact List.nodup_cons.mpr ⟨fun h => absurd (hlt _ h) (lt_irrefl _), hnd⟩
    · intro i
      by_cases hi : i = box.chunks_.length
      · subst hi
        simp only [List.mem_cons, true_or, true_iff]
        exact ⟨cn, getElem?_append_new _ _, hfull⟩
      · simp only [List.mem_cons, hi, false_or]
        rw [hold i hi, hiff i]
  · intro hfull
    rw [freeOK_iff]
    refine ⟨⟨l, hseg1, hne, hnd, ?_⟩, hb1⟩
    intro i
    by_cases hi : i = box.chunks_.length
    · subst hi
      constructor
      · intro h; exact absurd (hlt _ h) (lt_irrefl _)
      · rintro ⟨c, hc, hf⟩
        rw [getElem?_append_new] at hc
        cases hc
        rw [hfull] at hf
        cases hf
    · rw [hold i hi, hiff i]

/-- The only chunk of the free list is full now: a chunk is made that is the
free list. -/
theorem freeOK_renew (chunks : List (Chunk T)) (ch : Nat) (c c1 c2 cn : Chunk T)
    (hc : chunks[ch]? = some c)
    (hiff : ∀ i, i ∈ [ch] ↔ ∃ c, chunks[i]? = some c ∧ c.is_full = false)
    (hbounds : ∀ c ∈ chunks, c.used_elements < U32 ∧ c.buffer.length = CHUNK_BUFFER_SIZE)
    (hfull : c2.is_full = true)
    (hb2 : c2.used_elements < U32 ∧ c2.buffer.length = CHUNK_BUFFER_SIZE)
    (hnfull : cn.is_full = false) (hnnext : cn.next = none)
    (hbn : cn.used_elements < U32 ∧ cn.buffer.length = CHUNK_BUFFER_SIZE) :
    ChunkBox.FreeOK { chunks_ := (chunks.set ch c1 ++ [cn]).set ch c2,
                      free_chunks_ := some chunks.length } := by
  have hchlt : ch < chunks.length := by
    by_contra hge
    rw [List.getElem?_eq_none (by omega)] at hc
    cases hc
  have hget : ∀ i, ((chunks.set ch c1 ++ [cn]).set ch c2)[i]? =
      if i = ch then some c2 else if i = chunks.length then some cn else chunks[i]? := by
    intro i
    by_cases hi : i = ch
    · subst hi
      rw [if_pos rfl]
      exact getElem?_set_self _ _ c1 _
        (getElem?_append_old _ _ _ _ (getElem?_set_self _ _ _ _ hc))
    · rw [if_neg hi, getElem?_set_other _ _ _ _ hi]
      by_cases hn : i = chunks.length
      · subst hn
        rw [if_pos rfl]
        have := getElem?_append_new (chunks.set ch c1) cn
        rwa [List.length_set] at this
      · rw [if_neg hn]
        by_cases hlt : i < chunks.length
        · rw [List.getElem?_append_left (by rw [List.length_set]; exact hlt),
            getElem?_set_other _ _ _ _ hi]
        · rw [List.getElem?_eq_none (by simp; omega), List.getElem?_eq_none (by omega)]
  rw [freeOK_iff]
  refine ⟨⟨[chunks.length], ?_, by simp, List.nodup_singleton _, ?_⟩, ?_⟩
  · refine ⟨rfl, cn, ?_, ?_⟩
    · show ((chunks.set ch c1 ++ [cn]).set ch c2)[chunks.length]? = some cn
      rw [hget, if_neg (by omega), if_pos rfl]
    · rw [hnnext]; rfl
  · intro i
    show i ∈ [chunks.length] ↔
      ∃ c, ((chunks.set ch c1 ++ [cn]).set ch c2)[i]? = some c ∧ c.is_full = false
    rw [hget]
    by_cases hi : i = ch
    · subst hi
      simp only [if_true, Option.some.injEq, exists_eq_left', hfull, List.mem_singleton]
      constructor
      · intro h; omega
      · intro h; cases h
    · rw [if_neg hi]
      by_cases hn : i = chunks.length
      · subst hn
        simp [hnfull]
      · rw [if_neg hn]
        have := hiff i
        simp only [List.mem_singleton, hi, false_iff] at this
        simp only [List.mem_singleton, hn, false_iff]
        exact this
  · intro c3 hc3
    rcases List.mem_iff_getElem?.mp hc3 with ⟨i, hi⟩
    change ((chunks.set ch c1 ++ [cn]).set ch c2)[i]? = some c3 at hi
    rw [hget] at hi
    by_cases h1 : i = ch
    · rw [if_pos h1] at hi; cases hi; exact hb2
    · rw [if_neg h1] at hi
      by_cases h2 : i = chunks.length
      · rw [if_pos h2] at hi; cases hi; exact hbn
      · rw [if_neg h2] at hi
        exact hbounds c3 (List.mem_iff_getElem?.mpr ⟨i, hi⟩)

/-- The elements of a box after the chunk at `ch` got the content of `c1`,
the other chunks kept theirs, and the chunks that are new have no element. -/
theorem updated_spec (box box1 : ChunkBox T) (ch : Nat) (c1 : Chunk T)
    (h1 : ∃ c2 : Chunk T, box1.chunks_[ch]? = some c2 ∧ c2.buffer = c1.buffer ∧
      c2.used_elements = c1.used_elements ∧ c2.mark_field = c1.mark_field)
    (h2 : ∀ (i : Nat) (c : Chunk T), i ≠ ch → box.chunks_[i]? = some c →
      ∃ c2 : Chunk T, box1.chunks_[i]? = some c2 ∧ c2.buffer = c.buffer ∧
        c2.used_elements = c.used_elements ∧ c2.mark_field = c.mark_field)
    (h3 : ∀ (i : Nat) (c2 : Chunk T), i ≠ ch → box.chunks_[i]? = none →
      box1.chunks_[i]? = some c2 → c2.used_elements = 0 ∧ c2.mark_field = 0) :
    (c1.mark_field = 0 → box.Unmarked → box1.Unmarked) ∧
    (∀ p, box1.is_used p =
      if p / CHUNK_BUFFER_SIZE = ch then bit_is_on c1.used_elements (p % CHUNK_BUFFER_SIZE)
      else box.is_used p) ∧
    (∀ p, p / CHUNK_BUFFER_SIZE ≠ ch → box.is_used p = true → box1.read p = box.read p) ∧
    (∀ p, p / CHUNK_BUFFER_SIZE = ch → box1.read p = c1.buffer[p % CHUNK_BUFFER_SIZE]?) := by
  rcases h1 with ⟨c2, hc2, hbuf, hused, hmark⟩
  refine ⟨?_, ?_, ?_, ?_⟩
  · intro hm hun c hc
    rcases List.mem_iff_getElem?.mp hc with ⟨i, hi⟩
    by_cases hich : i = ch
    · subst hich
      rw [hc2] at hi
      cases hi
      rw [hmark, hm]
    · cases hb : box.chunks_[i]? with
      | none => exact (h3 i c hich hb hi).2
      | some c0 =>
        rcases h2 i c0 hich hb with ⟨c3, hc3, _, _, hm3⟩
        rw [hc3] at hi
        cases hi
        rw [hm3]
        exact hun c0 (List.mem_iff_getElem?.mpr ⟨i, hb⟩)
  · intro p
    by_cases hp : p / CHUNK_BUFFER_SIZE = ch
    · rw [if_pos hp]
      simp only [ChunkBox.is_used, hp, hc2, hused]
    · rw [if_neg hp]
      cases hb : box.chunks_[p / CHUNK_BUFFER_SIZE]? with
      | none =>
        simp only [ChunkBox.is_used, hb]
        cases hb1 : box1.chunks_[p / CHUNK_BUFFER_SIZE]? with
        | none => rfl
        | some c3 =>
          simp only
          rw [(h3 _ c3 hp hb hb1).1]
          simp [bit_is_on]
      | some c0 =>
        rcases h2 _ c0 hp hb with ⟨c3, hc3, _, hu3, _⟩
        simp only [ChunkBox.is_used, hb, hc3, hu3]
  · intro p hp hu
    rcases is_used_of_chunk hu with ⟨c0, hc0, _⟩
    rcases h2 _ c0 hp hc0 with ⟨c3, hc3, hb3, _, _⟩
    simp only [ChunkBox.read, hc0, hc3, hb3]
  · intro p hp
    simp only [ChunkBox.read, hp, hc2, hbuf]

theorem set_bit_on_lt (u index : Nat) (hu : u < U32) : set_bit_on u index < U32 := by
  unfold set_bit_on
  split
  · rename_i h
    have h1 : 1 <<< index < 2 ^ 32 := by
      rw [Nat.one_shiftLeft]
      exact Nat.pow_lt_pow_right (by norm_num) h
    have h2 : u < 2 ^ 32 := by simpa [U32] using hu
    have := Nat.or_lt_two_pow h2 h1
    simpa [U32] using this
  · exact hu

/-- The chunk after `get_new` on a chunk that is not full. -/
theorem get_new_ok (E : ElementType T) (c : Chunk T) (hfull : c.is_full = false)
    (hu : c.used_elements < U32) :
    c.get_new E = (some (lowest_unset_bit c.used_elements),
      { c with used_elements := set_bit_on c.used_elements (lowest_unset_bit c.used_elements),
               buffer := c.buffer.modify E.construct (lowest_unset_bit c.used_elements) }) ∧
    lowest_unset_bit c.used_elements < CHUNK_BUFFER_SIZE ∧
    bit_is_on c.used_elements (lowest_unset_bit c.used_elements) = false ∧
    (∀ j, bit_is_on (set_bit_on c.used_elements (lowest_unset_bit c.used_elements)) j =
      (bit_is_on c.used_elements j || decide (j = lowest_unset_bit c.used_elements))) := by
  have hne : c.used_elements ≠ 0xffffffff := by
    simpa [Chunk.is_full] using hfull
  rcases lowest_unset_bit_spec hu hne with ⟨h1, h2⟩
  refine ⟨by simp [Chunk.get_new, hfull], h1, by rw [bit_is_on_eq]; exact h2, ?_⟩
  intro j
  rw [bit_is_on_eq, bit_is_on_eq, testBit_set_bit_on _ _ _ h1]

/-- What a reservation of the `k` slots from `t` on of the chunk at `f` does to
the elements of the box. -/
theorem reserved_spec (box box1 : ChunkBox T) (f t k : Nat) (c c1 : Chunk T)
    (hc : box.chunks_[f]? = some c ∨ (box.chunks_[f]? = none ∧ c.used_elements = 0))
    (h1 : ∃ c2 : Chunk T, box1.chunks_[f]? = some c2 ∧ c2.buffer = c1.buffer ∧
      c2.used_elements = c1.used_elements ∧ c2.mark_field = c1.mark_field)
    (h2 : ∀ (i : Nat) (c : Chunk T), i ≠ f → box.chunks_[i]? = some c →
      ∃ c2 : Chunk T, box1.chunks_[i]? = some c2 ∧ c2.buffer = c.buffer ∧
        c2.used_elements = c.used_elements ∧ c2.mark_field = c.mark_field)
    (h3 : ∀ (i : Nat) (c2 : Chunk T), i ≠ f → box.chunks_[i]? = none →
      box1.chunks_[i]? = some c2 → c2.used_elements = 0 ∧ c2.mark_field = 0)
    (htk : t + k ≤ CHUNK_BUFFER_SIZE)
    (hm : box.Unmarked → c1.mark_field = 0)
    (hbits : ∀ j, j < CHUNK_BUFFER_SIZE → bit_is_on c1.used_elements j =
      (bit_is_on c.used_elements j || decide (t ≤ j ∧ j < t + k)))
    (hclear : ∀ j, t ≤ j → j < t + k → bit_is_on c.used_elements j = false)
    (hbuf : ∀ j, ¬ (t ≤ j ∧ j < t + k) → c1.buffer[j]? = c.buffer[j]?)
    (hlen : c1.buffer.length = CHUNK_BUFFER_SIZE) :
    (box.Unmarked → box1.Unmarked) ∧
    (∀ j, j < k → box.is_used (CHUNK_BUFFER_SIZE * f + t + j) = false) ∧
    (∀ p, box1.is_used p = (box.is_used p ||
      decide (CHUNK_BUFFER_SIZE * f + t ≤ p ∧ p < CHUNK_BUFFER_SIZE * f + t + k))) ∧
    (∀ j, j < k → ∃ x, box1.read (CHUNK_BUFFER_SIZE * f + t + j) = some x) ∧
    (∀ p, box.is_used p = true → box1.read p = box.read p) := by
  rcases updated_spec box box1 f c1 h1 h2 h3 with ⟨hA, hB, hC, hD⟩
  have hused : ∀ p, p / CHUNK_BUFFER_SIZE = f →
      box.is_used p = bit_is_on c.used_elements (p % CHUNK_BUFFER_SIZE) := by
    intro p hp
    rcases hc with hc | ⟨hc, h0⟩
    · simp only [ChunkBox.is_used, hp, hc]
    · simp only [ChunkBox.is_used, hp, hc, h0]
      simp [bit_is_on]
  have hread : ∀ p, p / CHUNK_BUFFER_SIZE = f → box.is_used p = true →
      box.read p = c.buffer[p % CHUNK_BUFFER_SIZE]? := by
    intro p hp hu
    rcases hc with hc | ⟨hc, h0⟩
    · simp only [ChunkBox.read, hp, hc]
    · simp only [ChunkBox.is_used, hp, hc] at hu
      cases hu
  have hdiv : ∀ j, j < k → (CHUNK_BUFFER_SIZE * f + t + j) / CHUNK_BUFFER_SIZE = f := by
    intro j hj
    simp only [CHUNK_BUFFER_SIZE] at htk ⊢; omega
  have hmod : ∀ j, j < k → (CHUNK_BUFFER_SIZE * f + t + j) % CHUNK_BUFFER_SIZE = t + j := by
    intro j hj
    simp only [CHUNK_BUFFER_SIZE] at htk ⊢; omega
  refine ⟨fun hun => hA (hm hun) hun, ?_, ?_, ?_, ?_⟩
  · intro j hj
    rw [hused _ (hdiv j hj), hmod j hj]
    exact hclear _ (by omega) (by omega)
  · intro p
    rw [hB p]
    by_cases hp : p / CHUNK_BUFFER_SIZE = f
    · rw [if_pos hp, hused p hp,
        hbits _ (by simp only [CHUNK_BUFFER_SIZE]; omega)]
      congr 1
      apply decide_eq_decide.mpr
      simp only [CHUNK_BUFFER_SIZE] at hp htk ⊢
      omega
    · rw [if_neg hp]
      have : ¬ (CHUNK_BUFFER_SIZE * f + t ≤ p ∧ p < CHUNK_BUFFER_SIZE * f + t + k) := by
        simp only [CHUNK_BUFFER_SIZE] at hp htk ⊢
        omega
      simp [this]
  · intro j hj
    rw [hD _ (hdiv j hj), hmod j hj]
    exact ⟨c1.buffer[t + j], List.getElem?_eq_getElem
      (by rw [hlen]; omega)⟩
  · intro p hu
    by_cases hp : p / CHUNK_BUFFER_SIZE = f
    · rw [hD p hp, hread p hp hu]
      apply hbuf
      intro hr
      rw [hused p hp, hclear _ hr.1 hr.2] at hu
      cases hu
    · exact hC p hp hu

theorem getElem?_lt {α : Type} {l : List α} {i : Nat} {x : α} (h : l[i]? = some x) :
    i < l.length := by
  by_contra hge
  rw [List.getElem?_eq_none (by omega)] at h
  cases h

theorem getElem?_renew {α : Type} (chunks : List α) (ch : Nat) (c c1 c2 cn : α)
    (hc : chunks[ch]? = some c) (i : Nat) :
    ((chunks.set ch c1 ++ [cn]).set ch c2)[i]? =
      if i = ch then some c2 else if i = chunks.length then some cn else chunks[i]? := by
  have hchlt := getElem?_lt hc
  by_cases hi : i = ch
  · subst hi
    rw [if_pos rfl]
    exact getElem?_set_self _ _ c1 _
      (getElem?_append_old _ _ _ _ (getElem?_set_self _ _ _ _ hc))
  · rw [if_neg hi, getElem?_set_other _ _ _ _ hi]
    by_cases hn : i = chunks.length
    · subst hn
      rw [if_pos rfl]
      have := getElem?_append_new (chunks.set ch c1) cn
      rwa [List.length_set] at this
    · rw [if_neg hn]
      by_cases hlt : i < chunks.length
      · rw [List.getElem?_append_left (by rw [List.length_set]; exact hlt),
          getElem?_set_other _ _ _ _ hi]
      · rw [List.getElem?_eq_none (by simp; omega), List.getElem?_eq_none (by omega)]

/-- On a box whose free list is in order `reserve_element` returns an
element that was not used, and the free list is in order afterwards. -/
theorem reserve_element_ok (E : ElementType T) (box : ChunkBox T) (hok : box.FreeOK) :
    ∃ n box1, box.reserve_element E = (some n, box1) ∧ box1.FreeOK ∧
      (box.Unmarked → box1.Unmarked) ∧ box.is_used n = false ∧
      (∀ p, box1.is_used p = (box.is_used p || decide (p = n))) ∧
      (∃ x, box1.read n = some x) ∧
      (∀ p, box.is_used p = true → box1.read p = box.read p) := by
  have hok0 := hok
  rw [freeOK_iff] at hok
  obtain ⟨chunks, free⟩ := box
  rcases hok with ⟨⟨l, hseg, hne, hnd, hiff⟩, hbounds⟩
  simp only at hseg hiff hbounds
  obtain ⟨f, rest, rfl⟩ : ∃ f rest, l = f :: rest := by
    cases l with
    | nil => exact absurd rfl hne
    | cons f rest => exact ⟨f, rest, rfl⟩
  rcases freeSeg_head _ _ _ _ _ hseg with ⟨hfree, c, hc, hrest⟩
  subst hfree
  have hnf : c.is_full = false := by
    rcases (hiff f).mp (List.mem_cons_self _ _) with ⟨c0, hc0, hf0⟩
    rw [hc] at hc0
    cases hc0
    exact hf0
  rcases hbounds c (List.mem_iff_getElem?.mpr ⟨f, hc⟩) with ⟨hu, hlen⟩
  rcases get_new_ok E c hnf hu with ⟨hget, hidx, hbit, hbits⟩
  generalize hc1 : ({ c with
      used_elements := set_bit_on c.used_elements (lowest_unset_bit c.used_elements),
      buffer := c.buffer.modify E.construct (lowest_unset_bit c.used_elements) } : Chunk T) = c1
    at hget
  have hc1u : c1.used_elements = set_bit_on c.used_elements (lowest_unset_bit c.used_elements) := by
    rw [← hc1]
  have hc1b : c1.buffer = c.buffer.modify E.construct (lowest_unset_bit c.used_elements) := by
    rw [← hc1]
  have hc1n : c1.next = c.next := by rw [← hc1]
  have hc1m : c1.mark_field = c.mark_field := by rw [← hc1]
  have hb1 : c1.used_elements < U32 ∧ c1.buffer.length = CHUNK_BUFFER_SIZE := by
    rw [hc1u, hc1b]
    exact ⟨set_bit_on_lt _ _ hu, by simp [hlen]⟩
  have hflt := getElem?_lt hc
  have key : ∀ box1 : ChunkBox T,
      (∃ c2 : Chunk T, box1.chunks_[f]? = some c2 ∧ c2.buffer = c1.buffer ∧
        c2.used_elements = c1.used_elements ∧ c2.mark_field = c1.mark_field) →
      (∀ (i : Nat) (c : Chunk T), i ≠ f → chunks[i]? = some c →
        ∃ c2 : Chunk T, box1.chunks_[i]? = some c2 ∧ c2.buffer = c.buffer ∧
          c2.used_elements = c.used_elements ∧ c2.mark_field = c.mark_field) →
      (∀ (i : Nat) (c2 : Chunk T), i ≠ f → chunks[i]? = none →
        box1.chunks_[i]? = some c2 → c2.used_elements = 0 ∧ c2.mark_field = 0) →
      (ChunkBox.Unmarked { chunks_ := chunks, free_chunks_ := some f } → box1.Unmarked) ∧
      ChunkBox.is_used { chunks_ := chunks, free_chunks_ := some f }
        (CHUNK_BUFFER_SIZE * f + lowest_unset_bit c.used_elements) = false ∧
      (∀ p, box1.is_used p = (ChunkBox.is_used { chunks_ := chunks, free_chunks_ := some f } p ||
        decide (p = CHUNK_BUFFER_SIZE * f + lowest_unset_bit c.used_elements))) ∧
      (∃ x, box1.read (CHUNK_BUFFER_SIZE * f + lowest_unset_bit c.used_elements) = some x) ∧
      (∀ p, ChunkBox.is_used { chunks_ := chunks, free_chunks_ := some f } p = true →
        box1.read p = ChunkBox.read { chunks_ := chunks, free_chunks_ := some f } p) := by
    intro box1 h1 h2 h3
    rcases reserved_spec { chunks_ := chunks, free_chunks_ := some f } box1 f
      (lowest_unset_bit c.used_elements) 1 c c1 (Or.inl hc) h1 h2 h3
      (by simp only [CHUNK_BUFFER_SIZE] at hidx ⊢; omega)
      (fun hun => by rw [hc1m]; exact hun c (List.mem_iff_getElem?.mpr ⟨f, hc⟩))
      (by
        intro j _
        rw [hc1u, hbits j]
        congr 1
        apply decide_eq_decide.mpr
        omega)
      (by
        intro j hj1 hj2
        have : j = lowest_unset_bit c.used_elements := by omega
        rw [this]; exact hbit)
      (by
        intro j hj
        rw [hc1b, List.getElem?_modify]
        have : lowest_unset_bit c.used_elements ≠ j := by omega
        simp [this])
      hb1.2 with ⟨r1, r2, r3, r4, r5⟩
    refine ⟨r1, r2 0 (by omega), ?_, r4 0 (by omega), r5⟩
    intro p
    rw [r3 p]
    congr 1
    apply decide_eq_decide.mpr
    omega
  by_cases hfull1 : c1.is_full = true
  · cases hn : c1.next with
    | some n1 =>
      refine ⟨CHUNK_BUFFER_SIZE * f + lowest_unset_bit c.used_elements,
        { chunks_ := chunks.set f { c1 with next := none }, free_chunks_ := some n1 },
        by simp [ChunkBox.reserve_element, hc, hget, hfull1, hn], ?_, ?_⟩
      · rw [hc1n] at hn
        rw [hn] at hrest
        have hrne : rest ≠ [] := by
          rintro rfl
          simp [ChunkBox.FreeSeg] at hrest
        refine freeOK_unlink chunks _ (some f) _ [] rest f c hseg hnd hiff hbounds hc
          (by simpa using hrne) (by simp [hn]) ?_ ?_ ?_
        · exact ⟨_, getElem?_set_self _ _ _ _ hc, hfull1, hb1⟩
        · intro p pre1 h
          simp at h
        · intro i hi _
          exact getElem?_set_other _ _ _ _ hi
      · apply key
        · exact ⟨_, getElem?_set_self _ _ _ _ hc, rfl, rfl, rfl⟩
        · intro i c0 hi h0
          exact ⟨c0, by rw [getElem?_set_other _ _ _ _ hi]; exact h0, rfl, rfl, rfl⟩
        · intro i c2 hi h0 h2
          rw [getElem?_set_other _ _ _ _ hi, h0] at h2
          cases h2
    | none =>
      refine ⟨CHUNK_BUFFER_SIZE * f + lowest_unset_bit c.used_elements,
        { chunks_ := ((chunks.set f c1) ++ [Chunk.init E]).set f { c1 with next := none },
          free_chunks_ := some chunks.length },
        by simp only [ChunkBox.reserve_element, hc, hget, hfull1, hn, ChunkBox.new_chunk,
             if_true, Option.map_some', List.length_set], ?_, ?_⟩
      · rw [hc1n] at hn
        rw [hn] at hrest
        have hr : rest = [] := (freeSeg_nil_of_none _ _ _ hrest).1
        subst hr
        exact freeOK_renew chunks f c c1 _ _ hc hiff hbounds hfull1 hb1 rfl rfl
          ⟨by simp [Chunk.init, U32], by simp [Chunk.init]⟩
      · apply key
        · exact ⟨{ c1 with next := none }, by
            show ((chunks.set f c1 ++ [Chunk.init E]).set f { c1 with next := none })[f]? = _
            rw [getElem?_renew chunks f c c1 _ _ hc, if_pos rfl], rfl, rfl, rfl⟩
        · intro i c0 hi h0
          refine ⟨c0, ?_, rfl, rfl, rfl⟩
          show ((chunks.set f c1 ++ [Chunk.init E]).set f { c1 with next := none })[i]? = _
          rw [getElem?_renew chunks f c c1 _ _ hc, if_neg hi,
            if_neg (by have := getElem?_lt h0; omega)]
          exact h0
        · intro i c2 hi h0 h2
          change ((chunks.set f c1 ++ [Chunk.init E]).set f { c1 with next := none })[i]? = _ at h2
          rw [getElem?_renew chunks f c c1 _ _ hc, if_neg hi] at h2
          by_cases hl : i = chunks.length
          · rw [if_pos hl] at h2
            cases h2
            exact ⟨rfl, rfl⟩
          · rw [if_neg hl, h0] at h2
            cases h2
  · have hfull1' : c1.is_full = false := by simpa using hfull1
    refine ⟨CHUNK_BUFFER_SIZE * f + lowest_unset_bit c.used_elements,
      { chunks_ := chunks.set f c1, free_chunks_ := some f },
      by simp [ChunkBox.reserve_element, hc, hget, hfull1'], ?_, ?_⟩
    · exact freeOK_set_same _ hok0 f c c1 hc hc1n (by rw [hfull1', hnf]) hb1
    · apply key
      · exact ⟨_, getElem?_set_self _ _ _ _ hc, rfl, rfl, rfl⟩
      · intro i c0 hi h0
        exact ⟨c0, by rw [getElem?_set_other _ _ _ _ hi]; exact h0, rfl, rfl, rfl⟩
      · intro i c2 hi h0 h2
        rw [getElem?_set_other _ _ _ _ hi, h0] at h2
        cases h2

/-- The chunk after `get_new_array(k)` with `1 <= k <= 32`. -/
theorem get_new_array_ok (E : ElementType T) (c : Chunk T) (k : Nat) (hk1 : 1 ≤ k)
    (hk : k ≤ 32) (hu : c.used_elements < U32) (hlen : c.buffer.length = CHUNK_BUFFER_SIZE) :
    (∃ t c1, c.get_new_array E k = (some t, c1) ∧ t + k ≤ CHUNK_BUFFER_SIZE ∧
      c1.next = c.next ∧ c1.mark_field = c.mark_field ∧
      (c1.used_elements < U32 ∧ c1.buffer.length = CHUNK_BUFFER_SIZE) ∧
      c1.used_elements = c.used_elements ||| ((2 ^ k - 1) <<< t) ∧
      (∀ j, j < CHUNK_BUFFER_SIZE → bit_is_on c1.used_elements j =
        (bit_is_on c.used_elements j || decide (t ≤ j ∧ j < t + k))) ∧
      (∀ j, t ≤ j → j < t + k → bit_is_on c.used_elements j = false) ∧
      (∀ j, ¬ (t ≤ j ∧ j < t + k) → c1.buffer[j]? = c.buffer[j]?)) ∨
    c.get_new_array E k = (none, c) := by
  rcases get_new_array_spec E c k hk1 hk with ⟨t, htk, hclear, _, hget⟩ | ⟨_, hget⟩
  · left
    refine ⟨t, _, hget, htk, rfl, rfl, ⟨?_, ?_⟩, rfl, ?_, ?_, ?_⟩
    · have h1 : c.used_elements < 2 ^ 32 := by simpa [U32] using hu
      have h2 : (2 ^ k - 1) <<< t < 2 ^ 32 := by
        have := run_mask_lt k t (by omega)
        simpa [U32] using this
      have := Nat.or_lt_two_pow h1 h2
      simpa [U32] using this
    · show (Chunk.construct_array E t k c.buffer).length = _
      rw [(construct_array_spec E t k c.buffer).1, hlen]
    · intro j _
      rw [bit_is_on_eq, bit_is_on_eq]
      show (c.used_elements ||| ((2 ^ k - 1) <<< t)).testBit j = _
      rw [testBit_or_run_mask]
      congr 1
      simp [Bool.decide_and]
    · intro j h1 h2
      rw [bit_is_on_eq]
      exact hclear j h1 h2
    · intro j hj
      show (Chunk.construct_array E t k c.buffer)[j]? = _
      exact (construct_array_spec E t k c.buffer).2 j (by omega)
  · right
    exact hget

theorem getElem?_unlink (chunks : List (Chunk T)) (ch p : Nat) (c c1 cp : Chunk T)
    (next : Option Nat) (hc : chunks[ch]? = some c) (hp : chunks[p]? = some cp)
    (hne : p ≠ ch) (i : Nat) :
    (((chunks.set ch c1).modify (fun c => { c with next := next }) p).modify
        (fun c => { c with next := none }) ch)[i]? =
      if i = ch then some { c1 with next := none }
      else if i = p then some { cp with next := next } else chunks[i]? := by
  rw [List.getElem?_modify, List.getElem?_modify]
  by_cases hi : i = ch
  · subst hi
    rw [if_pos rfl, getElem?_set_self _ _ _ _ hc]
    simp [hne]
  · rw [if_neg hi, getElem?_set_other _ _ _ _ hi]
    by_cases hip : i = p
    · subst hip
      rw [if_pos rfl, hp]
      simp [Ne.symm hi]
    · rw [if_neg hip]
      cases chunks[i]? with
      | none => rfl
      | some x => simp [Ne.symm hi, Ne.symm hip]

/-- The frame of a reservation from the chunks after it, given position by
position. -/
theorem reserved_of_formula (chunks chunks1 : List (Chunk T)) (free free1 : Option Nat)
    (f t k : Nat) (c c1 c2 : Chunk T) (G : Nat → Option (Chunk T))
    (hc : chunks[f]? = some c ∨ (chunks[f]? = none ∧ c.used_elements = 0))
    (hform : ∀ i, chunks1[i]? = if i = f then some c2 else G i)
    (hsame : c2.buffer = c1.buffer ∧ c2.used_elements = c1.used_elements ∧
      c2.mark_field = c1.mark_field)
    (hG : ∀ i, i ≠ f → G i = chunks[i]? ∨
      (∃ (c : Chunk T) (x : Option Nat), chunks[i]? = some c ∧ G i = some { c with next := x }) ∨
      (chunks[i]? = none ∧ ∃ cn : Chunk T, G i = some cn ∧ cn.used_elements = 0 ∧
        cn.mark_field = 0))
    (htk : t + k ≤ CHUNK_BUFFER_SIZE)
    (hm : c1.mark_field = c.mark_field) (hm0 : chunks[f]? = none → c.mark_field = 0)
    (hbits : ∀ j, j < CHUNK_BUFFER_SIZE → bit_is_on c1.used_elements j =
      (bit_is_on c.used_elements j || decide (t ≤ j ∧ j < t + k)))
    (hclear : ∀ j, t ≤ j → j < t + k → bit_is_on c.used_elements j = false)
    (hbuf : ∀ j, ¬ (t ≤ j ∧ j < t + k) → c1.buffer[j]? = c.buffer[j]?)
    (hlen : c1.buffer.length = CHUNK_BUFFER_SIZE) :
    (ChunkBox.Unmarked { chunks_ := chunks, free_chunks_ := free } →
      ChunkBox.Unmarked { chunks_ := chunks1, free_chunks_ := free1 }) ∧
    (∀ j, j < k → ChunkBox.is_used { chunks_ := chunks, free_chunks_ := free }
      (CHUNK_BUFFER_SIZE * f + t + j) = false) ∧
    (∀ p, ChunkBox.is_used { chunks_ := chunks1, free_chunks_ := free1 } p =
      (ChunkBox.is_used { chunks_ := chunks, free_chunks_ := free } p ||
        decide (CHUNK_BUFFER_SIZE * f + t ≤ p ∧ p < CHUNK_BUFFER_SIZE * f + t + k))) ∧
    (∀ j, j < k → ∃ x, ChunkBox.read { chunks_ := chunks1, free_chunks_ := free1 }
      (CHUNK_BUFFER_SIZE * f + t + j) = some x) ∧
    (∀ p, ChunkBox.is_used { chunks_ := chunks, free_chunks_ := free } p = true →
      ChunkBox.read { chunks_ := chunks1, free_chunks_ := free1 } p =
        ChunkBox.read { chunks_ := chunks, free_chunks_ := free } p) := by
  apply reserved_spec { chunks_ := chunks, free_chunks_ := free }
    { chunks_ := chunks1, free_chunks_ := free1 } f t k c c1 hc ?_ ?_ ?_ htk ?_ hbits hclear
    hbuf hlen
  · exact ⟨c2, by show chunks1[f]? = _; rw [hform, if_pos rfl], hsame⟩
  · intro i c0 hi h0
    show ∃ c2 : Chunk T, chunks1[i]? = some c2 ∧ _
    change chunks[i]? = some c0 at h0
    rw [hform, if_neg hi]
    rcases hG i hi with h | ⟨c3, x, h3, h4⟩ | ⟨h3, _⟩
    · exact ⟨c0, by rw [h, h0], rfl, rfl, rfl⟩
    · rw [h0] at h3
      cases h3
      exact ⟨_, h4, rfl, rfl, rfl⟩
    · rw [h0] at h3
      cases h3
  · intro i c3 hi h0 h3
    change chunks[i]? = none at h0
    change chunks1[i]? = some c3 at h3
    rw [hform, if_neg hi] at h3
    rcases hG i hi with h | ⟨c4, x, h4, _⟩ | ⟨_, cn, h5, h6⟩
    · rw [h, h0] at h3
      cases h3
    · rw [h0] at h4
      cases h4
    · rw [h5] at h3
      cases h3
      exact h6
  · intro hun
    rw [hm]
    rcases hc with hc | ⟨hc, _⟩
    · exact hun c (List.mem_iff_getElem?.mpr ⟨f, hc⟩)
    · exact hm0 hc

theorem nodup_length_le (l : List Nat) (n : Nat) (hnd : l.Nodup) (h : ∀ i ∈ l, i < n) :
    l.length ≤ n := by
  have hsub : l ⊆ List.range n := fun i hi => List.mem_range.mpr (h i hi)
  have := (List.subperm_of_subset hnd hsub).length_le
  simpa using this

/-- The loop of `reserve_consecutive_elements` over the rest `post` of the
free list: it ends, either with no chunk that has room and the box as it was,
or with the elements reserved in a chunk of the list. -/
theorem reserve_consecutive_loop_ok (E : ElementType T) (k : Nat) (hk1 : 1 ≤ k) (hk : k ≤ 32)
    (chunks : List (Chunk T)) (free : Option Nat)
    (hbounds : ∀ c ∈ chunks, c.used_elements < U32 ∧ c.buffer.length = CHUNK_BUFFER_SIZE) :
    ∀ (post pre : List Nat) (fuel : Nat) (cur : Option Nat),
      ChunkBox.FreeSeg chunks free pre cur → ChunkBox.FreeSeg chunks cur post none →
      (pre ++ post).Nodup →
      (∀ i, i ∈ pre ++ post ↔ ∃ c, chunks[i]? = some c ∧ c.is_full = false) →
      pre ++ post ≠ [] → post.length < fuel →
      ChunkBox.reserve_consecutive_loop E k free fuel cur pre.getLast?
          { chunks_ := chunks, free_chunks_ := free } =
        some (none, none, { chunks_ := chunks, free_chunks_ := free }) ∨
      ∃ n ch box1,
        ChunkBox.reserve_consecutive_loop E k free fuel cur pre.getLast?
          { chunks_ := chunks, free_chunks_ := free } = some (some n, some ch, box1) ∧
        box1.FreeOK ∧
        (ChunkBox.Unmarked { chunks_ := chunks, free_chunks_ := free } → box1.Unmarked) ∧
        (∀ j, j < k → ChunkBox.is_used { chunks_ := chunks, free_chunks_ := free } (n + j) =
          false) ∧
        (∀ p, box1.is_used p =
          (ChunkBox.is_used { chunks_ := chunks, free_chunks_ := free } p ||
            decide (n ≤ p ∧ p < n + k))) ∧
        (∀ j, j < k → ∃ x, box1.read (n + j) = some x) ∧
        (∀ p, ChunkBox.is_used { chunks_ := chunks, free_chunks_ := free } p = true →
          box1.read p = ChunkBox.read { chunks_ := chunks, free_chunks_ := free } p) := by
  intro post
  induction post with
  | nil =>
    intro pre fuel cur _ hcur _ _ _ _
    left
    have : cur = none := by simpa [ChunkBox.FreeSeg] using hcur
    subst this
    cases fuel <;> rfl
  | cons ch post ih =>
    intro pre fuel cur hpre hcur hnd hiff hne hfuel
    rcases freeSeg_head _ _ _ _ _ hcur with ⟨hcur1, c, hc, hrest⟩
    subst hcur1
    obtain ⟨fuel, rfl⟩ : ∃ f1, fuel = f1 + 1 := ⟨fuel - 1, by simp at hfuel; omega⟩
    have hseg : ChunkBox.FreeSeg chunks free (pre ++ ch :: post) none :=
      (freeSeg_append chunks pre free (ch :: post) none).mpr ⟨_, hpre, hcur⟩
    have hok0 : ChunkBox.FreeOK { chunks_ := chunks, free_chunks_ := free } :=
      (freeOK_iff _).mpr ⟨⟨_, hseg, hne, hnd, hiff⟩, hbounds⟩
    have hnf : c.is_full = false := by
      rcases (hiff ch).mp (by simp) with ⟨c0, hc0, hf0⟩
      rw [hc] at hc0
      cases hc0
      exact hf0
    rcases hbounds c (List.mem_iff_getElem?.mpr ⟨ch, hc⟩) with ⟨hu, hlen⟩
    have hchpost : ch ∉ post := by
      intro h
      have := (List.nodup_append.mp hnd).2.1
      exact (List.nodup_cons.mp this).1 h
    have hchpre : ch ∉ pre := by
      intro h
      exact (List.nodup_append.mp hnd).2.2 h (List.mem_cons_self _ _)
    rcases get_new_array_ok E c k hk1 hk hu hlen with
      ⟨t, c1, hget, htk, hn1, hm1, hb1, _, hbits, hclear, hbuf⟩ | hget
    · right
      have frame := fun (chunks1 : List (Chunk T)) (free1 : Option Nat) (c2 : Chunk T)
          (G : Nat → Option (Chunk T)) hform hsame hG =>
        reserved_of_formula chunks chunks1 free free1 ch t k c c1 c2 G (Or.inl hc) hform hsame hG
          htk hm1 (fun h => by rw [hc] at h; cases h) hbits hclear hbuf hb1.2
      by_cases hfull1 : c1.is_full = true
      · rcases List.eq_nil_or_concat pre with hp | ⟨pre1, p, hp⟩
        · subst hp
          have hfree : free = some ch := by simpa [ChunkBox.FreeSeg] using hpre
          cases hnx : c1.next with
          | none =>
            rw [hn1] at hnx
            rw [hnx] at hrest
            have hr : post = [] := (freeSeg_nil_of_none _ _ _ hrest).1
            subst hr
            refine ⟨CHUNK_BUFFER_SIZE * ch + t, ch,
              { chunks_ := ((chunks.set ch c1) ++ [Chunk.init E]).set ch { c1 with next := none },
                free_chunks_ := some chunks.length }, ?_, ?_, ?_⟩
            · simp only [ChunkBox.reserve_consecutive_loop, hc, hget, hfull1, List.getLast?_nil,
                ChunkBox.new_chunk, if_true, List.length_set, hn1, hnx]
            · exact freeOK_renew chunks ch c c1 _ _ hc hiff hbounds hfull1 hb1 rfl rfl
                ⟨by simp [Chunk.init, U32], by simp [Chunk.init]⟩
            · apply frame _ _ { c1 with next := none }
                (fun i => if i = chunks.length then some (Chunk.init E) else chunks[i]?)
                (getElem?_renew chunks ch c c1 _ _ hc) ⟨rfl, rfl, rfl⟩
              intro i _
              by_cases hl : i = chunks.length
              · right; right
                subst hl
                exact ⟨List.getElem?_eq_none (le_refl _), Chunk.init E, by simp, rfl, rfl⟩
              · left
                simp [hl]
          | some n1 =>
            refine ⟨CHUNK_BUFFER_SIZE * ch + t, ch,
              { chunks_ := chunks.set ch { c1 with next := none }, free_chunks_ := some n1 },
              ?_, ?_, ?_⟩
            · simp only [ChunkBox.reserve_consecutive_loop, hc, hget, hfull1, List.getLast?_nil,
                if_true, hnx]
            · rw [hn1] at hnx
              rw [hnx] at hrest
              have hrne : post ≠ [] := by
                rintro rfl
                simp [ChunkBox.FreeSeg] at hrest
              refine freeOK_unlink chunks _ free _ [] post ch c hseg hnd hiff hbounds hc
                (by simpa using hrne) (by simp [hnx]) ?_ ?_ ?_
              · exact ⟨_, getElem?_set_self _ _ _ _ hc, hfull1, hb1⟩
              · intro p pre1 h
                simp at h
              · intro i hi _
                exact getElem?_set_other _ _ _ _ hi
            · apply frame _ _ { c1 with next := none } (fun i => chunks[i]?) ?_ ⟨rfl, rfl, rfl⟩
                (fun i _ => Or.inl rfl)
              intro i
              by_cases hi : i = ch
              · subst hi
                rw [if_pos rfl]
                exact getElem?_set_self _ _ _ _ hc
              · rw [if_neg hi]
                exact getElem?_set_other _ _ _ _ hi
        · rw [List.concat_eq_append] at hp
          subst hp
          have hpmem : p ∈ (pre1 ++ [p]) ++ ch :: post := by simp
          rcases freeSeg_valid _ _ _ _ hseg p hpmem with ⟨cp, hcp⟩
          have hpne : p ≠ ch := by
            rintro rfl
            exact hchpre (by simp)
          refine ⟨CHUNK_BUFFER_SIZE * ch + t, ch,
            { chunks_ := (((chunks.set ch c1).modify (fun c => { c with next := c1.next }) p).modify
                (fun c => { c with next := none }) ch),
              free_chunks_ := free }, ?_, ?_, ?_⟩
          · simp only [ChunkBox.reserve_consecutive_loop, hc, hget, hfull1,
              List.getLast?_concat, if_true]
          · refine freeOK_unlink chunks _ free _ (pre1 ++ [p]) post ch c hseg hnd hiff hbounds hc
              (by simp) (by simp) ?_ ?_ ?_
            · refine ⟨{ c1 with next := none }, ?_, hfull1, hb1⟩
              rw [getElem?_unlink chunks ch p c c1 cp _ hc hcp hpne, if_pos rfl]
            · intro p2 pre2 h
              have hpp : p2 = p := by
                have := congrArg List.getLast? h
                simpa using this.symm
              subst hpp
              refine ⟨cp, hcp, ?_⟩
              rw [getElem?_unlink chunks ch p2 c c1 cp _ hc hcp hpne, if_neg hpne, if_pos rfl,
                hn1]
            · intro i hi hip
              have hip2 : i ≠ p := by
                rintro rfl
                exact hip pre1 rfl
              rw [getElem?_unlink chunks ch p c c1 cp _ hc hcp hpne, if_neg hi, if_neg hip2]
          · apply frame _ _ { c1 with next := none }
              (fun i => if i = p then some { cp with next := c1.next } else chunks[i]?)
              (getElem?_unlink chunks ch p c c1 cp _ hc hcp hpne) ⟨rfl, rfl, rfl⟩
            intro i _
            by_cases hip : i = p
            · right; left
              subst hip
              exact ⟨cp, c1.next, hcp, by simp⟩
            · left
              simp [hip]
      · have hfull1' : c1.is_full = false := by simpa using hfull1
        refine ⟨CHUNK_BUFFER_SIZE * ch + t, ch,
          { chunks_ := chunks.set ch c1, free_chunks_ := free }, ?_, ?_, ?_⟩
        · simp only [ChunkBox.reserve_consecutive_loop, hc, hget, hfull1']
          rfl
        · exact freeOK_set_same _ hok0 ch c c1 hc hn1 (by rw [hfull1', hnf]) hb1
        · apply frame _ _ c1 (fun i => chunks[i]?) ?_ ⟨rfl, rfl, rfl⟩ (fun i _ => Or.inl rfl)
          intro i
          by_cases hi : i = ch
          · subst hi
            rw [if_pos rfl]
            exact getElem?_set_self _ _ _ _ hc
          · rw [if_neg hi]
            exact getElem?_set_other _ _ _ _ hi
    · have hnotfirst : ¬ c.next = free := by
        intro h
        cases pre with
        | nil =>
          have hfree : free = some ch := by simpa [ChunkBox.FreeSeg] using hpre
          rw [h, hfree] at hrest
          rcases freeSeg_cons_of_some _ _ _ hrest with ⟨r, hr⟩
          rw [hr] at hchpost
          exact hchpost (List.mem_cons_self _ _)
        | cons g pre1 =>
          have hfree : free = some g := (freeSeg_head _ _ _ _ _ hpre).1
          rw [h, hfree] at hrest
          rcases freeSeg_cons_of_some _ _ _ hrest with ⟨r, hr⟩
          have hg1 : g ∈ g :: pre1 := List.mem_cons_self _ _
          have hg2 : g ∈ ch :: post := by rw [hr]; simp
          exact (List.nodup_append.mp hnd).2.2 hg1 hg2
      have hstep : ChunkBox.reserve_consecutive_loop E k free (fuel + 1) (some ch) pre.getLast?
          { chunks_ := chunks, free_chunks_ := free } =
          ChunkBox.reserve_consecutive_loop E k free fuel c.next (pre ++ [ch]).getLast?
            { chunks_ := chunks, free_chunks_ := free } := by
        simp only [ChunkBox.reserve_consecutive_loop, hc, hget, hnotfirst, if_false,
          set_self chunks ch c hc, List.getLast?_concat]
      rw [hstep]
      have hassoc : (pre ++ [ch]) ++ post = pre ++ ch :: post := by simp
      exact ih (pre ++ [ch]) fuel c.next
        ((freeSeg_append chunks pre free [ch] c.next).mpr ⟨_, hpre, rfl, c, hc,
          by simp [ChunkBox.FreeSeg]⟩)
        hrest (by rw [hassoc]; exact hnd) (by rw [hassoc]; exact hiff) (by simp)
        (by simp at hfuel; omega)

theorem run_clear_zero (t k : Nat) : ChunkBox.run_clear 0 t k := by
  intro j _ _
  exact Nat.zero_testBit j

/-- In a chunk with no element `get_new_array(k)` takes the slots from 0 on. -/
theorem get_new_array_empty (E : ElementType T) (c : Chunk T) (k : Nat) (hk1 : 1 ≤ k)
    (hk : k ≤ 32) (h0 : c.used_elements = 0) :
    c.get_new_array E k =
      (some 0, { c with buffer := Chunk.construct_array E 0 k c.buffer,
                        used_elements := 2 ^ k - 1 }) := by
  rcases get_new_array_spec E c k hk1 hk with ⟨t, _, _, hmin, hget⟩ | ⟨hnone, _⟩
  · have ht : t = 0 := by
      by_contra hne
      exact hmin 0 (by omega) (by rw [h0]; exact run_clear_zero 0 k)
    subst ht
    rw [hget, h0]
    simp
  · exact absurd (by rw [h0]; exact run_clear_zero 0 k) (hnone 0 (by omega))

theorem full_run_iff (k : Nat) (hk : k ≤ 32) :
    (2 ^ k - 1 = 0xffffffff) ↔ k = 32 := by
  constructor
  · intro h
    by_contra hne
    have hlt : k ≤ 31 := by omega
    have h1 : 2 ^ k ≤ 2 ^ 31 := Nat.pow_le_pow_right (by norm_num) hlt
    have h2 : (2 : Nat) ^ 31 = 2147483648 := by norm_num
    omega
  · rintro rfl
    norm_num

theorem set_append_last {α : Type} (l : List α) (a b : α) :
    (l ++ [a]).set l.length b = l ++ [b] := by
  induction l with
  | nil => rfl
  | cons x l ih => simp only [List.cons_append, List.length_cons, List.set_cons_succ, ih]

theorem modify_append_last {α : Type} (g : α → α) (l : List α) (a : α) :
    (l ++ [a]).modify g l.length = l ++ [g a] := by
  rw [modify_eq_set g _ _ a (getElem?_append_new l a), set_append_last]

theorem getElem?_append_formula {α : Type} (l : List α) (a : α) (i : Nat) :
    (l ++ [a])[i]? = if i = l.length then some a else l[i]? := by
  by_cases hi : i = l.length
  · subst hi
    rw [if_pos rfl, getElem?_append_new]
  · rw [if_neg hi]
    by_cases hlt : i < l.length
    · rw [List.getElem?_append_left hlt]
    · rw [List.getElem?_eq_none (by simp; omega), List.getElem?_eq_none (by omega)]

/-- On a box whose free list is in order `reserve_consecutive_elements(k)`
with `1 <= k <= 32` returns `k` elements that were not used, and the free list
is in order afterwards. -/
theorem reserve_consecutive_elements_ok (E : ElementType T) (box : ChunkBox T)
    (hok : box.FreeOK) (k : Nat) (hk1 : 1 ≤ k) (hk : k ≤ 32) :
    ∃ n box1, box.reserve_consecutive_elements E k = some (some n, box1) ∧ box1.FreeOK ∧
      (box.Unmarked → box1.Unmarked) ∧
      (∀ j, j < k → box.is_used (n + j) = false) ∧
      (∀ p, box1.is_used p = (box.is_used p || decide (n ≤ p ∧ p < n + k))) ∧
      (∀ j, j < k → ∃ x, box1.read (n + j) = some x) ∧
      (∀ p, box.is_used p = true → box1.read p = box.read p) := by
  have hok0 := hok
  rw [freeOK_iff] at hok
  obtain ⟨chunks, free⟩ := box
  rcases hok with ⟨⟨l, hseg, hne, hnd, hiff⟩, hbounds⟩
  simp only at hseg hiff hbounds
  have hlen : l.length < chunks.length + 1 := by
    have := nodup_length_le l chunks.length hnd (fun i hi => by
      rcases freeSeg_valid _ _ _ _ hseg i hi with ⟨c, hc⟩
      exact getElem?_lt hc)
    omega
  have hkle : k ≤ CHUNK_BUFFER_SIZE := hk
  rcases reserve_consecutive_loop_ok E k hk1 hk chunks free hbounds l [] (chunks.length + 1) free
    (by simp [ChunkBox.FreeSeg]) hseg hnd hiff (by simpa using hne) hlen with
    hloop | ⟨n, ch, box1, hloop, hrest⟩
  · simp only [List.getLast?_nil] at hloop
    have hcreated : ∀ x : Option Nat,
        (Chunk.get_new_array E { Chunk.init E with next := x } k) =
          (some 0, (Chunk.mk (Chunk.construct_array E 0 k (Chunk.init E).buffer) (2 ^ k - 1) 0 x)) :=
      fun x => get_new_array_empty E _ k hk1 hk rfl
    have hb : ∀ x : Option Nat,
        (2 ^ k - 1 < U32 ∧
          (Chunk.construct_array E 0 k (Chunk.init E).buffer).length = CHUNK_BUFFER_SIZE) := by
      intro _
      constructor
      · have h1 : 2 ^ k ≤ 2 ^ 32 := Nat.pow_le_pow_right (by norm_num) hk
        have h2 : 0 < 2 ^ k := Nat.two_pow_pos _
        simp only [U32]
        omega
      · rw [(construct_array_spec E 0 k _).1]
        simp [Chunk.init]
    have frame := fun (x : Option Nat) (free1 : Option Nat) =>
      reserved_of_formula chunks
        (chunks ++ [(Chunk.mk (Chunk.construct_array E 0 k (Chunk.init E).buffer) (2 ^ k - 1) 0 x)])
        free free1 chunks.length 0 k (Chunk.init E)
        (Chunk.mk (Chunk.construct_array E 0 k (Chunk.init E).buffer) (2 ^ k - 1) 0 x)
        (Chunk.mk (Chunk.construct_array E 0 k (Chunk.init E).buffer) (2 ^ k - 1) 0 x)
        (fun i => chunks[i]?)
        (Or.inr ⟨List.getElem?_eq_none (le_refl _), rfl⟩)
        (getElem?_append_formula chunks _) ⟨rfl, rfl, rfl⟩ (fun i _ => Or.inl rfl)
        (by simp only [CHUNK_BUFFER_SIZE]; omega) rfl (fun _ => rfl)
        (by
          intro j _
          rw [bit_is_on_eq, bit_is_on_eq]
          show (2 ^ k - 1).testBit j = _
          rw [Nat.testBit_two_pow_sub_one]
          simp [Chunk.init])
        (by
          intro j _ _
          simp [Chunk.init, bit_is_on])
        (by
          intro j hj
          exact (construct_array_spec E 0 k _).2 j (by omega))
        (hb x).2
    by_cases hk32 : k < CHUNK_BUFFER_SIZE
    · refine ⟨CHUNK_BUFFER_SIZE * chunks.length + 0,
        { chunks_ := chunks ++ [(Chunk.mk (Chunk.construct_array E 0 k (Chunk.init E).buffer) (2 ^ k - 1) 0 free)],
          free_chunks_ := some chunks.length }, ?_, ?_, ?_⟩
      · simp only [ChunkBox.reserve_consecutive_elements, hkle, if_true, hloop,
          ChunkBox.new_chunk, hk32, modify_append_last, getElem?_append_new, hcreated,
          Option.map_some', set_append_last]
      · refine (freeOK_append _ hok0 _ (hb free)).1 ?_ rfl
        have : ¬ (2 ^ k - 1 = 0xffffffff) := by
          rw [full_run_iff k hk]
          simp only [CHUNK_BUFFER_SIZE] at hk32
          omega
        simpa [Chunk.is_full] using this
      · exact frame free _
    · have hk32' : k = 32 := by
        simp only [CHUNK_BUFFER_SIZE] at hk32
        omega
      refine ⟨CHUNK_BUFFER_SIZE * chunks.length + 0,
        { chunks_ := chunks ++ [(Chunk.mk (Chunk.construct_array E 0 k (Chunk.init E).buffer) (2 ^ k - 1) 0 none)],
          free_chunks_ := free }, ?_, ?_, ?_⟩
      · simp only [ChunkBox.reserve_consecutive_elements, hkle, if_true, hloop,
          ChunkBox.new_chunk, hk32, if_false, getElem?_append_new, Option.map_some',
          set_append_last]
        rw [show Chunk.init E = { Chunk.init E with next := none } from rfl, hcreated]
        rfl
      · refine (freeOK_append _ hok0 _ (hb none)).2 ?_
        have : 2 ^ k - 1 = 0xffffffff := (full_run_iff k hk).mpr hk32'
        simpa [Chunk.is_full] using this
      · exact frame none _
  · simp only [List.getLast?_nil] at hloop
    refine ⟨n, box1, ?_, hrest⟩
    simp only [ChunkBox.reserve_consecutive_elements, hkle, if_true, hloop]

theorem collect_marked_loop_lt (is_used : Nat) :
    ∀ (left index : Nat) (c : Chunk T) (destroyed : List T), c.used_elements < U32 →
      (Chunk.collect_marked_loop is_used left index c destroyed).1.used_elements < U32 := by
  intro left
  induction left with
  | zero => intro index c destroyed h; exact h
  | succ left ih =>
    intro index c destroyed h
    rw [Chunk.collect_marked_loop]
    split
    · exact ih _ _ _ (set_bit_off_lt _ _ h)
    · exact ih _ _ _ h

/-- The sweep of a chunk without marks leaves no element. -/
theorem collect_marked_unmarked (c : Chunk T) (hm : c.mark_field = 0)
    (hu : c.used_elements < U32) :
    c.collect_marked.1 = { c with used_elements := 0 } := by
  have hlt := collect_marked_loop_lt ((c.used_elements ^^^ c.mark_field) &&& c.used_elements)
    CHUNK_BUFFER_SIZE 0 c [] hu
  rcases collect_marked_loop_spec ((c.used_elements ^^^ c.mark_field) &&& c.used_elements)
    CHUNK_BUFFER_SIZE 0 c [] (by simp [CHUNK_BUFFER_SIZE]) with ⟨h1, h2, h3, h4⟩
  have hused : (Chunk.collect_marked_loop
      ((c.used_elements ^^^ c.mark_field) &&& c.used_elements)
      CHUNK_BUFFER_SIZE 0 c []).1.used_elements = 0 := by
    apply Nat.eq_of_testBit_eq
    intro j
    rw [Nat.zero_testBit]
    by_cases hj : j < 32
    · rw [h4 j hj, hm]
      have : decide (j < 0 + CHUNK_BUFFER_SIZE) = true := by
        simp only [CHUNK_BUFFER_SIZE]; simpa using hj
      rw [this, Nat.testBit_and, Nat.testBit_xor, Nat.zero_testBit]
      cases c.used_elements.testBit j <;> simp
    · apply Nat.testBit_lt_two_pow
      have : (2 : Nat) ^ 32 ≤ 2 ^ j := Nat.pow_le_pow_right (by norm_num) (by omega)
      have h32 : U32 = 2 ^ 32 := rfl
      omega
  unfold Chunk.collect_marked
  exact chunk_ext h1 hused h2 h3

theorem collect_chunks_loop_unmarked :
    ∀ (B : List (Chunk T)) (i : Nat) (free : Option Nat) (d : List T),
      (∀ c ∈ B, c.mark_field = 0 ∧ c.used_elements < U32) →
      (ChunkBox.collect_chunks_loop i B free d).1.length = B.length ∧
      (∀ (j : Nat) (c : Chunk T), B[j]? = some c →
        (ChunkBox.collect_chunks_loop i B free d).1[j]? =
          some { c with used_elements := 0,
                        next := if j = 0 then free else some (i + j - 1) }) ∧
      (ChunkBox.collect_chunks_loop i B free d).2.1 =
        if B.length = 0 then free else some (i + B.length - 1) := by
  intro B
  induction B with
  | nil =>
    intro i free d _
    refine ⟨rfl, ?_, rfl⟩
    intro j c h
    simp at h
  | cons b B ih =>
    intro i free d hB
    rcases hB b (List.mem_cons_self _ _) with ⟨hm, hu⟩
    have hsw := collect_marked_unmarked b hm hu
    have hnf : b.collect_marked.1.is_full = false := by
      rw [hsw]
      simp [Chunk.is_full]
    rcases ih (i + 1) (some i) (d ++ b.collect_marked.2)
      (fun c hc => hB c (List.mem_cons_of_mem _ hc)) with ⟨h1, h2, h3⟩
    simp only [ChunkBox.collect_chunks_loop, hnf, Bool.not_false, if_true]
    refine ⟨by simp [h1], ?_, ?_⟩
    · intro j c hj
      cases j with
      | zero =>
        simp only [List.getElem?_cons_zero, Option.some.injEq] at hj
        subst hj
        simp only [List.getElem?_cons_zero, if_true, hsw]
      | succ j =>
        simp only [List.getElem?_cons_succ] at hj ⊢
        rw [h2 j c hj]
        by_cases hj0 : j = 0
        · subst hj0
          simp
        · have e : i + 1 + j - 1 = i + (j + 1) - 1 := by omega
          simp [hj0, e]
    · rw [h3]
      by_cases hB0 : B.length = 0
      · simp [hB0]
      · have e : i + 1 + B.length - 1 = i + (B.length + 1) - 1 := by omega
        simp [hB0, e]

/-- A free list that runs from the last chunk down to the first. -/
theorem freeSeg_descending (chunks : List (Chunk T))
    (hget : ∀ j, j < chunks.length → ∃ c, chunks[j]? = some c ∧
      c.next = (if j = 0 then none else some (j - 1))) :
    ∀ m, m < chunks.length →
      ChunkBox.FreeSeg chunks (some m) (List.range (m + 1)).reverse none := by
  intro m
  induction m with
  | zero =>
    intro h
    rcases hget 0 h with ⟨c, hc, hn⟩
    exact ⟨rfl, c, hc, by rw [hn]; simp [ChunkBox.FreeSeg]⟩
  | succ m ih =>
    intro h
    rcases hget (m + 1) h with ⟨c, hc, hn⟩
    rw [List.range_succ, List.reverse_append]
    refine ⟨rfl, c, hc, ?_⟩
    rw [hn]
    simpa using ih (by omega)

/-- With no mark set `collect_chunks` leaves every chunk empty and the free
list in order. -/
theorem collect_chunks_ok (box : ChunkBox T) (hok : box.FreeOK) (hun : box.Unmarked) :
    box.collect_chunks.1.FreeOK ∧ box.collect_chunks.1.Unmarked := by
  rw [freeOK_iff] at hok
  rcases hok with ⟨⟨l, hseg, hne, _, _⟩, hbounds⟩
  have hpos : 0 < box.chunks_.length := by
    cases l with
    | nil => exact absurd rfl hne
    | cons g rest =>
      rcases freeSeg_valid _ _ _ _ hseg g (List.mem_cons_self _ _) with ⟨c, hc⟩
      have := getElem?_lt hc
      omega
  rcases collect_chunks_loop_unmarked box.chunks_ 0 none []
    (fun c hc => ⟨hun c hc, (hbounds c hc).1⟩) with ⟨h1, h2, h3⟩
  have hget : ∀ j, j < (ChunkBox.collect_chunks_loop 0 box.chunks_ none []).1.length →
      ∃ c0, box.chunks_[j]? = some c0 ∧
        (ChunkBox.collect_chunks_loop 0 box.chunks_ none []).1[j]? =
          some { c0 with used_elements := 0, next := if j = 0 then none else some (j - 1) } := by
    intro j hj
    rw [h1] at hj
    refine ⟨box.chunks_[j], List.getElem?_eq_getElem hj, ?_⟩
    rw [h2 j _ (List.getElem?_eq_getElem hj)]
    simp
  have hall : ∀ c ∈ (ChunkBox.collect_chunks_loop 0 box.chunks_ none []).1,
      c.used_elements = 0 ∧ c.mark_field = 0 ∧ c.buffer.length = CHUNK_BUFFER_SIZE := by
    intro c hc
    rcases List.mem_iff_getElem?.mp hc with ⟨j, hj⟩
    rcases hget j (getElem?_lt hj) with ⟨c0, hc0, hc1⟩
    rw [hc1] at hj
    cases hj
    have hmem := List.mem_iff_getElem?.mpr ⟨j, hc0⟩
    exact ⟨rfl, hun c0 hmem, (hbounds c0 hmem).2⟩
  constructor
  · rw [freeOK_iff]
    refine ⟨⟨(List.range box.chunks_.length).reverse, ?_, ?_, ?_, ?_⟩, ?_⟩
    · show ChunkBox.FreeSeg (ChunkBox.collect_chunks_loop 0 box.chunks_ none []).1
        (ChunkBox.collect_chunks_loop 0 box.chunks_ none []).2.1 _ none
      rw [h3, if_neg (by omega)]
      have := freeSeg_descending (ChunkBox.collect_chunks_loop 0 box.chunks_ none []).1
        (fun j hj => by
          rcases hget j hj with ⟨c0, _, hc1⟩
          exact ⟨_, hc1, rfl⟩)
        (box.chunks_.length - 1) (by rw [h1]; omega)
      have e : box.chunks_.length - 1 + 1 = box.chunks_.length := by omega
      rw [e] at this
      simpa using this
    · intro h
      have := congrArg List.length h
      simp only [List.length_reverse, List.length_range, List.length_nil] at this
      omega
    · exact List.nodup_reverse.mpr (List.nodup_range _)
    · intro i
      show i ∈ (List.range box.chunks_.length).reverse ↔
        ∃ c, (ChunkBox.collect_chunks_loop 0 box.chunks_ none []).1[i]? = some c ∧
          c.is_full = false
      rw [List.mem_reverse, List.mem_range]
      constructor
      · intro hi
        rcases hget i (by rw [h1]; exact hi) with ⟨c0, _, hc1⟩
        exact ⟨_, hc1, by simp [Chunk.is_full]⟩
      · rintro ⟨c, hc, _⟩
        have := getElem?_lt hc
        rwa [h1] at this
    · intro c hc
      rcases hall c hc with ⟨h0, _, hl⟩
      exact ⟨by rw [h0]; simp [U32], hl⟩
  · intro c hc
    exact (hall c hc).2.1

theorem init_ok (E : ElementType T) :
    (ChunkBox.init E).FreeOK ∧ (ChunkBox.init E).Unmarked := by
  constructor
  · rw [freeOK_iff]
    refine ⟨⟨[0], ⟨rfl, Chunk.init E, rfl, rfl⟩, by simp, List.nodup_singleton _, ?_⟩, ?_⟩
    · intro i
      simp only [List.mem_singleton, ChunkBox.init]
      constructor
      · rintro rfl
        exact ⟨Chunk.init E, rfl, by simp [Chunk.is_full, Chunk.init]⟩
      · rintro ⟨c, hc, _⟩
        have := getElem?_lt hc
        simp at this
        exact this
    · intro c hc
      simp only [ChunkBox.init, List.mem_singleton] at hc
      subst hc
      exact ⟨by simp [Chunk.init, U32], by simp [Chunk.init]⟩
  · intro c hc
    simp only [ChunkBox.init, List.mem_singleton] at hc
    subst hc
    rfl

/-- In every box that is reached the free list is in order and no mark is
set. -/
theorem reachable_ok (E : ElementType T) (box : ChunkBox T) (h : ChunkBox.Reachable E box) :
    box.FreeOK ∧ box.Unmarked := by
  induction h with
  | init => exact init_ok E
  | reserve_element _ ih =>
    rcases reserve_element_ok E _ ih.1 with ⟨n, box1, he, hok, hun, _⟩
    rw [he]
    exact ⟨hok, hun ih.2⟩
  | reserve_consecutive_elements k result _ hk1 hk he ih =>
    rcases reserve_consecutive_elements_ok E _ ih.1 k hk1 hk with ⟨n, box2, he2, hok, hun, _⟩
    rw [he2] at he
    cases he
    exact ⟨hok, hun ih.2⟩
  | collect_chunks _ ih => exact collect_chunks_ok _ ih.1 ih.2

/-- C40: in every box reached from `ChunkBox()` by `reserve_element`,
`reserve_consecutive_elements(k)` with `1 <= k <= 32` and `collect_chunks`,
the free list from `free_chunks_` is a chain of `next` pointers that ends in
null, is not empty, has no chunk twice, and holds exactly the chunks that are
not full.  Hence `reserve_element` returns an element (not null) that was not
used, and `reserve_consecutive_elements(k)` returns `k` elements that were not
used; after either the used elements are the ones used before and the new
ones, and every element used before is where it was with its content. -/
theorem free_list_invariant (E : ElementType T) (box : ChunkBox T)
    (h : ChunkBox.Reachable E box) :
    (∃ l, ChunkBox.FreeList box.chunks_ box.free_chunks_ l ∧ l ≠ [] ∧ l.Nodup ∧
      ∀ i, i ∈ l ↔ ∃ c, box.chunks_[i]? = some c ∧ c.is_full = false) ∧
    (∃ n box1, box.reserve_element E = (some n, box1) ∧ box.is_used n = false ∧
      (∀ p, box1.is_used p = (box.is_used p || decide (p = n))) ∧
      ∀ p, box.is_used p = true → box1.read p = box.read p) ∧
    (∀ k, 1 ≤ k → k ≤ 32 →
      ∃ n box1, box.reserve_consecutive_elements E k = some (some n, box1) ∧
        (∀ j, j < k → box.is_used (n + j) = false) ∧
        (∀ p, box1.is_used p = (box.is_used p || decide (n ≤ p ∧ p < n + k))) ∧
        ∀ p, box.is_used p = true → box1.read p = box.read p) := by
  have hok := (reachable_ok E box h).1
  refine ⟨hok.1, ?_, ?_⟩
  · rcases reserve_element_ok E box hok with ⟨n, box1, he, _, _, h1, h2, _, h3⟩
    exact ⟨n, box1, he, h1, h2, h3⟩
  · intro k hk1 hk
    rcases reserve_consecutive_elements_ok E box hok k hk1 hk with
      ⟨n, box1, he, _, _, h1, h2, _, h3⟩
    exact ⟨n, box1, he, h1, h2, h3⟩

theorem free_list_invariant_witness :
    ChunkBox.Reachable (ElementType.mk (0 : Nat) id)
        ((ChunkBox.init (ElementType.mk (0 : Nat) id)).reserve_element
          (ElementType.mk 0 id)).2 ∧
      ∃ n box1,
        ((ChunkBox.init (ElementType.mk (0 : Nat) id)).reserve_element
            (ElementType.mk 0 id)).2.reserve_element (ElementType.mk 0 id) = (some n, box1) ∧
          ((ChunkBox.init (ElementType.mk (0 : Nat) id)).reserve_element
            (ElementType.mk 0 id)).2.is_used n = false ∧
          (∀ p, box1.is_used p =
            (((ChunkBox.init (ElementType.mk (0 : Nat) id)).reserve_element
              (ElementType.mk 0 id)).2.is_used p || decide (p = n))) ∧
          ∀ p, ((ChunkBox.init (ElementType.mk (0 : Nat) id)).reserve_element
              (ElementType.mk 0 id)).2.is_used p = true →
            box1.read p = ((ChunkBox.init (ElementType.mk (0 : Nat) id)).reserve_element
              (ElementType.mk 0 id)).2.read p :=
  ⟨ChunkBox.Reachable.reserve_element ChunkBox.Reachable.init,
    (free_list_invariant (ElementType.mk (0 : Nat) id) _
      (ChunkBox.Reachable.reserve_element ChunkBox.Reachable.init)).2.1⟩
/-! ## The nodes of a list -/

theorem cells_none (pool : PListPool T) (xs : List (Nat × T)) (h : pool.Cells none xs) :
    xs = [] := by
  cases xs with
  | nil => rfl
  | cons x xs => exact absurd h id

theorem cells_some (pool : PListPool T) (p : Nat) (xs : List (Nat × T))
    (h : pool.Cells (some p) xs) :
    ∃ x rest, xs = x :: rest ∧ p = x.1 ∧ pool.chunks_.is_used p = true ∧
      ∃ node, pool.chunks_.read p = some node ∧ node.data = x.2 ∧
        pool.Cells node.next rest := by
  cases xs with
  | nil => exact absurd h id
  | cons x rest => exact ⟨x, rest, rfl, h⟩

theorem cells_cons (pool : PListPool T) (head : Option Nat) (x : Nat × T)
    (rest : List (Nat × T)) (h : pool.Cells head (x :: rest)) :
    head = some x.1 ∧ pool.chunks_.is_used x.1 = true ∧
      ∃ node, pool.chunks_.read x.1 = some node ∧ node.data = x.2 ∧
        pool.Cells node.next rest := by
  cases head with
  | none => exact absurd h id
  | some p =>
    rcases h with ⟨hp, h1, h2⟩
    subst hp
    exact ⟨rfl, h1, h2⟩

/-- The nodes of a list are in use and hold its elements. -/
theorem cells_used (pool : PListPool T) :
    ∀ (xs : List (Nat × T)) (head : Option Nat), pool.Cells head xs →
      ∀ y ∈ xs, pool.chunks_.is_used y.1 = true ∧
        ∃ node, pool.chunks_.read y.1 = some node ∧ node.data = y.2 := by
  intro xs
  induction xs with
  | nil => intro head _ y hy; cases hy
  | cons x xs ih =>
    intro head h y hy
    rcases cells_cons pool head x xs h with ⟨_, hu, node, hr, hd, hrest⟩
    rcases List.mem_cons.mp hy with rfl | hy
    · exact ⟨hu, node, hr, hd⟩
    · exact ih _ hrest y hy

/-- A list is a list in every pool that has its nodes as they are. -/
theorem cells_of_frame (pool pool1 : PListPool T) :
    ∀ (xs : List (Nat × T)) (head : Option Nat),
      (∀ y ∈ xs, pool1.chunks_.is_used y.1 = true ∧
        pool1.chunks_.read y.1 = pool.chunks_.read y.1) →
      pool.Cells head xs → pool1.Cells head xs := by
  intro xs
  induction xs with
  | nil =>
    intro head _ h
    cases head with
    | none => trivial
    | some p => exact absurd h id
  | cons x xs ih =>
    intro head hfr h
    rcases cells_cons pool head x xs h with ⟨hh, _, node, hr, hd, hrest⟩
    subst hh
    rcases hfr x (List.mem_cons_self _ _) with ⟨hu1, hr1⟩
    exact ⟨rfl, hu1, node, hr1.trans hr, hd,
      ih _ (fun y hy => hfr y (List.mem_cons_of_mem _ hy)) hrest⟩

theorem cells_functional (pool : PListPool T) :
    ∀ (xs ys : List (Nat × T)) (head : Option Nat),
      pool.Cells head xs → pool.Cells head ys → xs = ys := by
  intro xs
  induction xs with
  | nil =>
    intro ys head h1 h2
    cases head with
    | none => exact (cells_none pool ys h2).symm
    | some p => exact absurd h1 id
  | cons x xs ih =>
    intro ys head h1 h2
    rcases cells_cons pool head x xs h1 with ⟨hh, _, node, hr, hd, hrest⟩
    subst hh
    rcases cells_some pool _ ys h2 with ⟨y, rest, rfl, hy1, _, node2, hr2, hd2, hrest2⟩
    rw [hr] at hr2
    cases hr2
    have : x = y := Prod.ext hy1 (hd.symm.trans hd2)
    rw [this, ih rest _ hrest hrest2]

theorem cells_suffix (pool : PListPool T) :
    ∀ (A B : List (Nat × T)) (head : Option Nat), pool.Cells head (A ++ B) →
      ∃ mid, pool.Cells mid B := by
  intro A
  induction A with
  | nil => intro B head h; exact ⟨head, h⟩
  | cons a A ih =>
    intro B head h
    rcases cells_cons pool head a (A ++ B) h with ⟨_, _, node, _, _, hrest⟩
    exact ih B _ hrest

/-- No node is twice in a list. -/
theorem cells_nodup (pool : PListPool T) :
    ∀ (xs : List (Nat × T)) (head : Option Nat), pool.Cells head xs →
      (xs.map Prod.fst).Nodup := by
  intro xs
  induction xs with
  | nil => intro _ _; exact List.nodup_nil
  | cons x xs ih =>
    intro head h
    rcases cells_cons pool head x xs h with ⟨hh, _, node, _, _, hrest⟩
    subst hh
    rw [List.map_cons, List.nodup_cons]
    refine ⟨?_, ih _ hrest⟩
    intro hmem
    rcases List.mem_map.mp hmem with ⟨y, hy, hyx⟩
    rcases List.append_of_mem hy with ⟨A, B, hAB⟩
    rw [hAB] at hrest
    rcases cells_suffix pool A (y :: B) _ hrest with ⟨mid, hmid⟩
    have hm : mid = some y.1 := (cells_cons pool mid y B hmid).1
    rw [hm, hyx] at hmid
    have := cells_functional pool _ _ _ h hmid
    have hl := congrArg List.length this
    rw [hAB] at hl
    simp at hl
    omega

/-- The last node of a list has a null `next`. -/
theorem cells_last (pool : PListPool T) :
    ∀ (A : List (Nat × T)) (head : Option Nat) (b : Nat) (d : T),
      pool.Cells head (A ++ [(b, d)]) →
      pool.chunks_.read b = some { next := none, data := d } := by
  intro A
  induction A with
  | nil =>
    intro head b d h
    rcases cells_cons pool head (b, d) [] h with ⟨_, _, node, hr, hd, hrest⟩
    cases hn : node.next with
    | none =>
      rw [hr]
      cases node
      simp only at hd hn
      rw [hd, hn]
    | some p =>
      rw [hn] at hrest
      exact absurd hrest id
  | cons a A ih =>
    intro head b d h
    rcases cells_cons pool head a (A ++ [(b, d)]) h with ⟨_, _, node, _, _, hrest⟩
    exact ih _ b d hrest

/-- The last node of a list is tied to another list. -/
theorem cells_link (pool pool1 : PListPool T) (b : Nat) (d : T) (B : List (Nat × T))
    (nx : Option Nat)
    (hb : pool1.chunks_.read b = some { next := nx, data := d })
    (hused : ∀ q, pool.chunks_.is_used q = true → pool1.chunks_.is_used q = true)
    (hread : ∀ q, q ≠ b → pool.chunks_.is_used q = true →
      pool1.chunks_.read q = pool.chunks_.read q)
    (hB : pool1.Cells nx B) :
    ∀ (A : List (Nat × T)) (head : Option Nat), pool.Cells head (A ++ [(b, d)]) →
      pool1.Cells head (A ++ (b, d) :: B) := by
  intro A
  induction A with
  | nil =>
    intro head h
    rcases cells_cons pool head (b, d) [] h with ⟨hh, hu, _⟩
    subst hh
    exact ⟨rfl, hused _ hu, _, hb, rfl, hB⟩
  | cons a A ih =>
    intro head h
    have hnd := cells_nodup pool _ _ h
    rcases cells_cons pool head a (A ++ [(b, d)]) h with ⟨hh, hu, node, hr, hd, hrest⟩
    subst hh
    have hab : a.1 ≠ b := by
      intro hab
      rw [List.cons_append, List.map_cons, List.nodup_cons] at hnd
      apply hnd.1
      rw [hab]
      exact List.mem_map.mpr ⟨(b, d), by simp, rfl⟩
    exact ⟨rfl, hused _ hu, node, (hread _ hab hu).trans hr, hd, ih _ hrest⟩

theorem cells_chain (pool : PListPool T) :
    ∀ (xs : List (Nat × T)) (head : Option Nat), pool.Cells head xs →
      pool.Chain head (xs.map Prod.snd) := by
  intro xs
  induction xs with
  | nil =>
    intro head h
    cases head with
    | none => trivial
    | some p => exact absurd h id
  | cons x xs ih =>
    intro head h
    rcases cells_cons pool head x xs h with ⟨hh, hu, node, hr, hd, hrest⟩
    subst hh
    exact ⟨hu, node, hr, hd, ih _ hrest⟩

theorem modify_of_none {α : Type} (f : α → α) :
    ∀ (l : List α) (n : Nat), l[n]? = none → l.modify f n = l := by
  intro l
  induction l with
  | nil => intro n _; cases n <;> rfl
  | cons a l ih =>
    intro n h
    cases n with
    | zero => simp at h
    | succ n =>
      simp only [List.getElem?_cons_succ] at h
      simp only [List.modify_succ_cons, ih n h]

/-- Writing an element leaves the free list as it is. -/
theorem freeOK_write (box : ChunkBox T) (n : Nat) (v : T) (hok : box.FreeOK) :
    (box.write n v).FreeOK := by
  unfold ChunkBox.write
  cases hc : box.chunks_[n / CHUNK_BUFFER_SIZE]? with
  | none =>
    simp only
    rw [modify_of_none _ _ _ hc]
    exact hok
  | some c =>
    simp only
    rw [modify_eq_set _ _ _ c hc]
    have hb := ((freeOK_iff box).mp hok).2 c (List.mem_iff_getElem?.mpr ⟨_, hc⟩)
    exact freeOK_set_same box hok _ c _ hc rfl rfl ⟨hb.1, by simp [hb.2]⟩

/-- In a pool whose free list is in order `new_node` makes a node in a slot
that was not used. -/
theorem new_node_ok (E : ListElement T) (pool : PListPool T) (data : T)
    (hok : pool.chunks_.FreeOK) :
    ∃ pool1 n, PListPool.new_node E pool data = some (pool1, n) ∧ pool1.chunks_.FreeOK ∧
      pool.chunks_.is_used n = false ∧ pool1.chunks_.is_used n = true ∧
      pool1.chunks_.read n = some { next := none, data := data } ∧
      ∀ q, pool.chunks_.is_used q = true →
        pool1.chunks_.is_used q = true ∧ pool1.chunks_.read q = pool.chunks_.read q := by
  rcases reserve_element_ok E.node pool.chunks_ hok with
    ⟨n, box1, hres, hok1, _, hfree, hused, hvalid, hread⟩
  refine ⟨PListPool.copy_element E
      { pool with chunks_ := box1.write n { next := none, data := data } } data, n,
    by simp only [PListPool.new_node, hres], ?_, hfree, ?_, ?_, ?_⟩
  · rw [copy_element_chunks]
    exact freeOK_write _ _ _ hok1
  · rw [copy_element_chunks]
    simp only [is_used_write, hused n]
    simp
  · rw [copy_element_chunks]
    exact read_write_same _ _ _ hvalid
  · intro q hq
    have hqn : q ≠ n := by
      rintro rfl
      rw [hfree] at hq
      cases hq
    rw [copy_element_chunks]
    simp only [is_used_write, read_write_other _ _ _ _ hqn, hused q, hq, Bool.true_or,
      hread q hq, and_self]

/-- What `p->next = next` does to the pool. -/
theorem set_next_ok (pool : PListPool T) (p : Nat) (next : Option Nat)
    (node : PListPool.Node T) (hr : pool.chunks_.read p = some node)
    (hok : pool.chunks_.FreeOK) :
    ∃ pool1, PListPool.set_next pool p next = some pool1 ∧ pool1.chunks_.FreeOK ∧
      pool1.chunks_.read p = some { node with next := next } ∧
      (∀ q, pool1.chunks_.is_used q = pool.chunks_.is_used q) ∧
      ∀ q, q ≠ p → pool1.chunks_.read q = pool.chunks_.read q := by
  refine ⟨{ pool with chunks_ := pool.chunks_.write p { node with next := next } },
    by simp only [PListPool.set_next, hr], freeOK_write _ _ _ hok,
    read_write_same _ _ _ ⟨_, hr⟩, fun q => is_used_write _ _ _ _,
    fun q hq => read_write_other _ _ _ _ hq⟩

/-- The loop of `List::remove` over the nodes `mid` before the node of the
iterator: each is copied to a new node, the copies are linked after the ones
made before, and no node that was in use is changed. -/
theorem remove_loop_ok (E : ListElement T) (i_node : Nat) (e : T) (post : List (Nat × T))
    (new_head : Nat) :
    ∀ (mid : List (Nat × T)) (pool : PListPool T) (done : List (Nat × T)) (b : Nat) (d : T)
      (cur : Option Nat) (fuel : Nat),
      pool.chunks_.FreeOK →
      pool.Cells cur (mid ++ (i_node, e) :: post) →
      pool.Cells (some new_head) (done ++ [(b, d)]) →
      (∀ y ∈ mid ++ (i_node, e) :: post, ∀ z ∈ done ++ [(b, d)], y.1 ≠ z.1) →
      mid.length < fuel →
      ∃ pool1 b1 d1 done1,
        PListPool.List.remove_loop E i_node fuel pool b cur = some (pool1, b1) ∧
        pool1.chunks_.FreeOK ∧
        pool1.Cells (some new_head) (done1 ++ [(b1, d1)]) ∧
        (done1 ++ [(b1, d1)]).map Prod.snd =
          (done ++ [(b, d)]).map Prod.snd ++ mid.map Prod.snd ∧
        (∀ y ∈ done1 ++ [(b1, d1)],
          y ∈ done ++ [(b, d)] ∨ pool.chunks_.is_used y.1 = false) ∧
        (∀ q, pool.chunks_.is_used q = true → (∀ z ∈ done ++ [(b, d)], q ≠ z.1) →
          pool1.chunks_.is_used q = true ∧ pool1.chunks_.read q = pool.chunks_.read q) := by
  intro mid
  induction mid with
  | nil =>
    intro pool done b d cur fuel hok hcells hdone _ hfuel
    obtain ⟨fuel, rfl⟩ : ∃ f1, fuel = f1 + 1 := ⟨fuel - 1, by simp at hfuel; omega⟩
    have hcur : cur = some i_node := (cells_cons pool cur _ _ hcells).1
    subst hcur
    refine ⟨pool, b, d, done, ?_, hok, hdone, by simp, fun y hy => Or.inl hy,
      fun q hq _ => ⟨hq, rfl⟩⟩
    simp only [PListPool.List.remove_loop, if_true]
  | cons y mid ih =>
    intro pool done b d cur fuel hok hcells hdone hdisj hfuel
    obtain ⟨fuel, rfl⟩ : ∃ f1, fuel = f1 + 1 := ⟨fuel - 1, by simp at hfuel; omega⟩
    have hnd := cells_nodup pool _ _ hcells
    rcases cells_cons pool cur y _ hcells with ⟨hcur, hu, node, hr, hd, hrest⟩
    subst hcur
    have hyi : ¬ y.1 = i_node := by
      intro h
      rw [List.cons_append, List.map_cons, List.nodup_cons] at hnd
      apply hnd.1
      rw [h]
      exact List.mem_map.mpr ⟨(i_node, e), by simp, rfl⟩
    rcases new_node_ok E pool node.data hok with
      ⟨pool1, c, hnew, hok1, hcfree, hcused, hcread, hframe1⟩
    have hbmem : (b, d) ∈ done ++ [(b, d)] := by simp
    have hbl := cells_last pool done _ b d hdone
    have hbu : pool.chunks_.is_used b = true := (cells_used pool _ _ hdone _ hbmem).1
    have hb1 : pool1.chunks_.read b = some { next := none, data := d } :=
      (hframe1 b hbu).2.trans hbl
    rcases set_next_ok pool1 b (some c) _ hb1 hok1 with ⟨pool2, hset, hok2, hrb, hus2, hrd2⟩
    have hyb : y.1 ≠ b := hdisj y (by simp) (b, d) hbmem
    have hcb : c ≠ b := by
      rintro rfl
      rw [hcfree] at hbu
      cases hbu
    have hry2 : pool2.chunks_.read y.1 = some node := by
      rw [hrd2 _ hyb, (hframe1 _ hu).2, hr]
    have hused : ∀ q, pool.chunks_.is_used q = true → pool2.chunks_.is_used q = true := by
      intro q hq
      rw [hus2]
      exact (hframe1 q hq).1
    have hread : ∀ q, q ≠ b → pool.chunks_.is_used q = true →
        pool2.chunks_.read q = pool.chunks_.read q := by
      intro q hqb hq
      rw [hrd2 q hqb]
      exact (hframe1 q hq).2
    have hstep : PListPool.List.remove_loop E i_node (fuel + 1) pool b (some y.1) =
        PListPool.List.remove_loop E i_node fuel pool2 c node.next := by
      simp only [PListPool.List.remove_loop, hyi, if_false, PListPool.copy, hr, hnew, hset, hry2]
    have hB : pool2.Cells (some c) [(c, y.2)] := by
      refine ⟨rfl, by rw [hus2]; exact hcused, { next := none, data := node.data }, ?_, hd,
        trivial⟩
      rw [hrd2 _ hcb]
      exact hcread
    have hdone2 : pool2.Cells (some new_head) ((done ++ [(b, d)]) ++ [(c, y.2)]) := by
      have := cells_link pool pool2 b d [(c, y.2)] (some c) hrb hused hread hB done _ hdone
      simpa using this
    have hrest2 : pool2.Cells node.next (mid ++ (i_node, e) :: post) := by
      apply cells_of_frame pool pool2 _ _ _ hrest
      intro z hz
      have hzu := (cells_used pool _ _ hrest z hz).1
      have hzb : z.1 ≠ b := hdisj z (List.mem_cons_of_mem _ hz) (b, d) hbmem
      exact ⟨hused _ hzu, hread _ hzb hzu⟩
    have hdisj2 : ∀ y1 ∈ mid ++ (i_node, e) :: post,
        ∀ z ∈ (done ++ [(b, d)]) ++ [(c, y.2)], y1.1 ≠ z.1 := by
      intro y1 hy1 z hz
      rcases List.mem_append.mp hz with hz | hz
      · exact hdisj y1 (List.mem_cons_of_mem _ hy1) z hz
      · rw [List.mem_singleton.mp hz]
        intro h
        have hzu := (cells_used pool _ _ hrest y1 hy1).1
        rw [h] at hzu
        simp only at hzu
        rw [hcfree] at hzu
        cases hzu
    rcases ih pool2 (done ++ [(b, d)]) c y.2 node.next fuel hok2 hrest2 hdone2 hdisj2
      (by simp at hfuel; omega) with ⟨pool3, b1, d1, done1, hloop, hok3, hc3, hmap, hnew3, hfr3⟩
    refine ⟨pool3, b1, d1, done1, by rw [hstep]; exact hloop, hok3, hc3, ?_, ?_, ?_⟩
    · rw [hmap]
      simp
    · intro y1 hy1
      rcases hnew3 y1 hy1 with h | h
      · rcases List.mem_append.mp h with h | h
        · exact Or.inl h
        · right
          rw [List.mem_singleton.mp h]
          exact hcfree
      · right
        cases hq : pool.chunks_.is_used y1.1 with
        | false => rfl
        | true =>
          rw [hused _ hq] at h
          cases h
    · intro q hq hz
      have hqb : q ≠ b := hz (b, d) hbmem
      have hqc : q ≠ c := by
        rintro rfl
        rw [hcfree] at hq
        cases hq
      rcases hfr3 q (hused q hq) (by
        intro z hz2
        rcases List.mem_append.mp hz2 with h | h
        · exact hz z h
        · rw [List.mem_singleton.mp h]
          exact hqc) with ⟨h1, h2⟩
      exact ⟨h1, h2.trans (hread q hqb hq)⟩

theorem cells_of_chunks (pool pool1 : PListPool T) (h : pool1.chunks_ = pool.chunks_)
    (xs : List (Nat × T)) (head : Option Nat) (hc : pool.Cells head xs) :
    pool1.Cells head xs := by
  apply cells_of_frame pool pool1 xs head ?_ hc
  intro y hy
  rw [h]
  exact ⟨(cells_used pool _ _ hc y hy).1, rfl⟩

/-- What `List::remove` gives for the iterator at the node `x` of a list with
the nodes `pre` before it and `post` after it. -/
theorem list_remove_post (E : ListElement T) (pool : PListPool T) (head_ : Option Nat)
    (pre : List (Nat × T)) (x : Nat × T) (post : List (Nat × T)) (fuel : Nat)
    (hok : pool.chunks_.FreeOK) (hcells : pool.Cells head_ (pre ++ x :: post))
    (hfuel : pre.length ≤ fuel) :
    ∃ pool1 l1 fresh,
      PListPool.List.remove E fuel pool head_ (some x.1) = some (pool1, l1) ∧
      pool1.Cells l1 (fresh ++ post) ∧
      fresh.map Prod.snd = pre.map Prod.snd ∧
      (∀ y ∈ fresh, pool.chunks_.is_used y.1 = false) ∧
      pool1.Cells head_ (pre ++ x :: post) := by
  cases pre with
  | nil =>
    rcases cells_cons pool head_ x post hcells with ⟨hh, _, node, hr, _, hrest⟩
    subst hh
    refine ⟨(PListPool.List.mk pool node.next).1, (PListPool.List.mk pool node.next).2, [],
      ?_, ?_, rfl, (fun y hy => by cases hy), ?_⟩
    · simp only [PListPool.List.remove, if_true, hr]
    · rw [(list_mk_chunks pool node.next).2]
      exact cells_of_chunks pool _ (list_mk_chunks pool node.next).1 _ _ hrest
    · exact cells_of_chunks pool _ (list_mk_chunks pool node.next).1 _ _ hcells
  | cons y pre =>
    have hnd := cells_nodup pool _ _ hcells
    rcases cells_cons pool head_ y _ hcells with ⟨hh, hu, node, hr, hd, hrest⟩
    subst hh
    have hyx : ¬ y.1 = x.1 := by
      intro h
      rw [List.cons_append, List.map_cons, List.nodup_cons] at hnd
      apply hnd.1
      rw [h]
      exact List.mem_map.mpr ⟨x, by simp, rfl⟩
    rcases new_node_ok E pool node.data hok with
      ⟨pool1, new_head, hnew, hok1, hcfree, hcused, hcread, hframe1⟩
    have hry1 : pool1.chunks_.read y.1 = some node := (hframe1 _ hu).2.trans hr
    have hrest1 : pool1.Cells node.next (pre ++ (x.1, x.2) :: post) := by
      apply cells_of_frame pool pool1 _ _ _ hrest
      intro z hz
      exact hframe1 _ (cells_used pool _ _ hrest z hz).1
    have hdone1 : pool1.Cells (some new_head) ([] ++ [(new_head, y.2)]) :=
      ⟨rfl, hcused, _, hcread, hd, trivial⟩
    have hdisj1 : ∀ y1 ∈ pre ++ (x.1, x.2) :: post, ∀ z ∈ [] ++ [(new_head, y.2)],
        y1.1 ≠ z.1 := by
      intro y1 hy1 z hz
      rw [List.nil_append, List.mem_singleton] at hz
      rw [hz]
      intro h
      have hzu := (cells_used pool _ _ hrest y1 hy1).1
      rw [h] at hzu
      simp only at hzu
      rw [hcfree] at hzu
      cases hzu
    rcases remove_loop_ok E x.1 x.2 post new_head pre pool1 [] new_head y.2 node.next fuel hok1
      hrest1 hdone1 hdisj1 (by simp at hfuel; omega) with
      ⟨pool2, b1, d1, done1, hloop, hok2, hc2, hmap, hnew2, hfr2⟩
    have hxmem : x ∈ y :: pre ++ x :: post := by simp
    rcases cells_used pool _ _ hcells x hxmem with ⟨hxu, inode, hxr, _⟩
    have hfresh : ∀ z ∈ done1 ++ [(b1, d1)], pool.chunks_.is_used z.1 = false := by
      intro z hz
      rcases hnew2 z hz with h | h
      · rw [List.nil_append, List.mem_singleton] at h
        rw [h]
        exact hcfree
      · cases hq : pool.chunks_.is_used z.1 with
        | false => rfl
        | true =>
          rw [(hframe1 _ hq).1] at h
          cases h
    have hold2 : ∀ q, pool.chunks_.is_used q = true →
        pool2.chunks_.is_used q = true ∧ pool2.chunks_.read q = pool.chunks_.read q := by
      intro q hq
      rcases hfr2 q (hframe1 q hq).1 (by
        intro z hz
        rw [List.nil_append, List.mem_singleton] at hz
        rw [hz]
        rintro rfl
        rw [hcfree] at hq
        cases hq) with ⟨h1, h2⟩
      exact ⟨h1, h2.trans (hframe1 q hq).2⟩
    have hb1mem : (b1, d1) ∈ done1 ++ [(b1, d1)] := by simp
    have hb1l := cells_last pool2 done1 _ b1 d1 hc2
    rcases set_next_ok pool2 b1 inode.next _ hb1l hok2 with
      ⟨pool3, hset, _, hrb, hus3, hrd3⟩
    have hold3 : ∀ q, pool.chunks_.is_used q = true →
        pool3.chunks_.is_used q = true ∧ pool3.chunks_.read q = pool.chunks_.read q := by
      intro q hq
      have hqb : q ≠ b1 := by
        rintro rfl
        have := hfresh (q, d1) hb1mem
        simp only at this
        rw [this] at hq
        cases hq
      rw [hus3, hrd3 q hqb]
      exact hold2 q hq
    have hcells3 : pool3.Cells (some y.1) (y :: pre ++ x :: post) := by
      apply cells_of_frame pool pool3 _ _ _ hcells
      intro z hz
      exact hold3 _ (cells_used pool _ _ hcells z hz).1
    have hpost : pool.Cells inode.next post := by
      rcases cells_suffix pool (y :: pre) (x :: post) _ hcells with ⟨m, hm⟩
      rcases cells_cons pool m x post hm with ⟨_, _, node2, hr2, _, hrest2⟩
      rw [hxr] at hr2
      cases hr2
      exact hrest2
    have hpost3 : pool3.Cells inode.next post := by
      apply cells_of_frame pool pool3 _ _ _ hpost
      intro z hz
      exact hold3 _ (cells_used pool _ _ hpost z hz).1
    have hlink : pool3.Cells (some new_head) (done1 ++ (b1, d1) :: post) :=
      cells_link pool2 pool3 b1 d1 post inode.next hrb (fun q hq => by rw [hus3]; exact hq)
        (fun q hqb _ => hrd3 q hqb) hpost3 done1 _ hc2
    refine ⟨(PListPool.List.mk pool3 (some new_head)).1, some new_head, done1 ++ [(b1, d1)],
      ?_, ?_, ?_, hfresh, ?_⟩
    · simp only [PListPool.List.remove, hyx, if_false, PListPool.copy, hr, hnew, hry1, hloop,
        (hold2 _ hxu).2, hxr, hset]
      rfl
    · apply cells_of_chunks pool3 _ (list_mk_chunks pool3 _).1
      simpa using hlink
    · rw [hmap]
      simp
    · exact cells_of_chunks pool3 _ (list_mk_chunks pool3 _).1 _ _ hcells3

/-- C31: `remove(i)` on the list `l` with the elements of `pre`, `x` and `post`
in this order, for the iterator `i` at the node of `x` (position `pre.length`),
in a pool whose free list is in order: it returns a list whose nodes are new
nodes `fresh`, which were not in use, with the elements of `pre`, followed by
the very nodes of `post`; so its elements are those of `pre` and `post` in
order.  The list `l` has its nodes and elements as before.  With the end
iterator (a null node pointer) or an empty list the result is the list
itself. -/
theorem remove_copies_before (E : ListElement T) (pool : PListPool T) (head_ : Option Nat)
    (pre : List (Nat × T)) (x : Nat × T) (post : List (Nat × T)) (fuel : Nat)
    (hok : pool.chunks_.FreeOK) (hcells : pool.Cells head_ (pre ++ x :: post))
    (hfuel : pre.length ≤ fuel) :
    (∃ pool1 l1 fresh,
      PListPool.List.remove E fuel pool head_ (some x.1) = some (pool1, l1) ∧
      pool1.Cells l1 (fresh ++ post) ∧
      fresh.map Prod.snd = pre.map Prod.snd ∧
      (∀ y ∈ fresh, pool.chunks_.is_used y.1 = false) ∧
      pool1.Cells head_ (pre ++ x :: post) ∧
      PListPool.List.elements pool1 (pre.length + post.length) l1 =
        some (pre.map Prod.snd ++ post.map Prod.snd) ∧
      PListPool.List.elements pool1 (pre.length + (post.length + 1)) head_ =
        some (pre.map Prod.snd ++ x.2 :: post.map Prod.snd)) ∧
    PListPool.List.remove E fuel pool head_ none = some (PListPool.List.mk pool head_) ∧
    (∀ i, PListPool.List.remove E fuel pool none i = some (PListPool.List.mk pool none)) := by
  refine ⟨?_, ?_, ?_⟩
  · rcases list_remove_post E pool head_ pre x post fuel hok hcells hfuel with
      ⟨pool1, l1, fresh, hrem, hc1, hmap, hfresh, hold⟩
    refine ⟨pool1, l1, fresh, hrem, hc1, hmap, hfresh, hold, ?_, ?_⟩
    · have h := chain_elements pool1 _ _ (cells_chain pool1 _ _ hc1)
      rw [List.map_append, hmap] at h
      simpa using h
    · have h := chain_elements pool1 _ _ (cells_chain pool1 _ _ hold)
      simpa using h
  · cases head_ <;> rfl
  · intro i
    cases i <;> rfl

theorem number_list_example_cells :
    number_list_example.1.chunks_.FreeOK ∧
      number_list_example.1.Cells number_list_example.2 ([(1, 7)] ++ (0, 5) :: []) := by
  constructor
  · obtain ⟨c, hc, hu, hn, hl, hf⟩ : ∃ c, number_list_example.1.chunks_.chunks_ = [c] ∧
        c.used_elements = 3 ∧ c.next = none ∧ c.buffer.length = CHUNK_BUFFER_SIZE ∧
        number_list_example.1.chunks_.free_chunks_ = some 0 := ⟨_, rfl, rfl, rfl, rfl, rfl⟩
    have hfull : c.is_full = false := by simp [Chunk.is_full, hu]
    rw [freeOK_iff, hc, hf]
    refine ⟨⟨[0], ⟨rfl, c, rfl, by rw [hn]; rfl⟩, by simp, List.nodup_singleton _, ?_⟩, ?_⟩
    · intro i
      constructor
      · intro hi
        rw [List.mem_singleton.mp hi]
        exact ⟨c, rfl, hfull⟩
      · rintro ⟨c1, hc1, _⟩
        have := getElem?_lt hc1
        simp only [List.length_singleton] at this
        simp
        omega
    · intro c1 hc1
      rw [List.mem_singleton.mp hc1, hu]
      exact ⟨by decide, hl⟩
  · exact ⟨rfl, rfl, _, rfl, rfl, rfl, rfl, _, rfl, rfl, trivial⟩

theorem remove_copies_before_witness :
    number_list_example.1.chunks_.FreeOK ∧
      number_list_example.1.Cells number_list_example.2 ([(1, 7)] ++ (0, 5) :: []) ∧
      [((1 : Nat), (7 : Nat))].length ≤ 1 ∧
      ∃ pool1 l1 fresh,
        PListPool.List.remove nat_element 1 number_list_example.1 number_list_example.2
          (some 0) = some (pool1, l1) ∧
        pool1.Cells l1 (fresh ++ []) ∧
        fresh.map Prod.snd = [7] ∧
        (∀ y ∈ fresh, number_list_example.1.chunks_.is_used y.1 = false) ∧
        pool1.Cells number_list_example.2 ([(1, 7)] ++ (0, 5) :: []) ∧
        PListPool.List.elements pool1 1 l1 = some [7] ∧
        PListPool.List.elements pool1 2 number_list_example.2 = some [7, 5] :=
  ⟨number_list_example_cells.1, number_list_example_cells.2, by decide,
    (remove_copies_before nat_element number_list_example.1 number_list_example.2 [(1, 7)]
      (0, 5) [] 1 number_list_example_cells.1 number_list_example_cells.2 (by decide)).1⟩

end orb
